import Mathlib

/-!
# JSON parser / writer: a verification development

A shallow embedding of the `json_parser` library (`src/src/*.cpp`,
`src/include/json_parser/*.h`) and theorems about it.

Conventions of the embedding

* `std::string` is a `List Char`; a `char` is a `Char` (the C++ bytes are the
  characters below 256; nothing below depends on the bound).
* `size_t` values are natural numbers (lengths stay far below `2 ^ 64`).
* `double` is the type `Double` below: the finite binary64 values, the two
  infinities and NaN, with every operation rounded to nearest, ties to even.
* An exception is the `error` side of `Except`.
* The recursion of the parser is bounded by a fuel argument; `Parse` supplies
  `3 * length + 3`, which is shown to be enough (`ParseValue_fuel_enough`).
-/

namespace JsonParser

/-- Two outcomes (a value or an exception) can be compared. -/
instance instDecidableEqExcept {ε α : Type} [DecidableEq ε] [DecidableEq α] :
    DecidableEq (Except ε α)
  | .ok a, .ok b => if h : a = b then isTrue (by rw [h]) else isFalse (fun e => h (by cases e; rfl))
  | .error a, .error b =>
      if h : a = b then isTrue (by rw [h]) else isFalse (fun e => h (by cases e; rfl))
  | .ok _, .error _ => isFalse (fun e => by cases e)
  | .error _, .ok _ => isFalse (fun e => by cases e)

/-! ## Binary64 arithmetic -/

/-- A `double`. `fin m e` is the finite value `m * 2 ^ e`, kept in the unique
form where `m` is odd, or `m = 0` and `e = 0` (the sign of zero is not
represented: no operation modelled here observes it). -/
inductive Double where
  | fin (m : Int) (e : Int)
  | inf (neg : Bool)
  | nan
  deriving DecidableEq, Repr

namespace Double

/-- Divide `m` by two while it is even, counting the divisions in `e`. -/
def stripTwos : Nat → Int → Int → Int × Int
  | 0, m, e => (m, e)
  | k + 1, m, e => if m % 2 = 0 then stripTwos k (m / 2) (e + 1) else (m, e)

/-- The canonical representation of `m * 2 ^ e`, for `|m| < 2 ^ 64`. -/
def normalize (m e : Int) : Double :=
  if m = 0 then fin 0 0 else
    let p := stripTwos 64 m e
    fin p.1 p.2

/-- An integer of magnitude at most `2 ^ 53`, which binary64 holds exactly. -/
def exactInt (z : Int) : Double := normalize z 0

/-- The loop of `floorLog2`: halve `n` until it is below two. -/
def floorLog2Aux : Nat → Nat → Nat
  | 0, _ => 0
  | f + 1, n => if n < 2 then 0 else floorLog2Aux f (n / 2) + 1

/-- The position of the highest set bit of `n` (zero for `n = 0`). -/
def floorLog2 (n : Nat) : Nat := floorLog2Aux n n

/-- Round the positive ratio `a / d` to nearest, ties to even, with the sign
`neg`: the exponent `s` of the last mantissa bit is found first (53 bits of
mantissa, not below the subnormal exponent -1074), then `a / (d * 2 ^ s)` is
rounded to an integer mantissa; a result of `2 ^ 1024` or more is infinite. -/
def roundPos (neg : Bool) (a d : Nat) : Double :=
  let k : Int := (floorLog2 a : Int) - (floorLog2 d : Int)
  let ge : Bool := if 0 ≤ k then decide (d * 2 ^ k.toNat ≤ a) else decide (d ≤ a * 2 ^ (-k).toNat)
  let e : Int := if ge then k else k - 1
  let s : Int := max (e - 52) (-1074)
  let num : Nat := if 0 ≤ s then a else a * 2 ^ (-s).toNat
  let den : Nat := if 0 ≤ s then d * 2 ^ s.toNat else d
  let q := num / den
  let r := num % den
  let m : Nat := if 2 * r < den then q else if den < 2 * r then q + 1 else if q % 2 = 0 then q else q + 1
  if 971 < s ∨ (s = 971 ∧ 2 ^ 53 ≤ m) then inf neg
  else normalize (if neg then -(m : Int) else (m : Int)) s

/-- The `double` nearest to the exact ratio `n / d` (`d` positive). Integers of
magnitude at most `2 ^ 53` are representable and are returned unchanged; every
other ratio goes through `roundPos`. -/
def ofRatio (n : Int) (d : Nat) : Double :=
  if (d : Int) ∣ n ∧ (n / (d : Int)).natAbs ≤ 2 ^ 53 then exactInt (n / (d : Int))
  else roundPos (decide (n < 0)) n.natAbs d

/-- The exact value of a finite double as a ratio of integers. -/
def toRatio (m e : Int) : Int × Nat :=
  if 0 ≤ e then (m * 2 ^ e.toNat, 1) else (m, 2 ^ (-e).toNat)

/-- Conversion `int -> double` (exact for the small integers used here). -/
def ofInt (z : Int) : Double := ofRatio z 1

/-- Unary minus. -/
def neg : Double → Double
  | fin m e => fin (-m) e
  | inf b => inf (!b)
  | nan => nan

/-- Addition `a + b`. -/
def add : Double → Double → Double
  | fin m1 e1, fin m2 e2 =>
      let x := toRatio m1 e1
      let y := toRatio m2 e2
      ofRatio (x.1 * y.2 + y.1 * x.2) (x.2 * y.2)
  | fin _ _, inf b => inf b
  | inf b, fin _ _ => inf b
  | inf b1, inf b2 => if b1 = b2 then inf b1 else nan
  | _, _ => nan

/-- Subtraction `a - b`. -/
def sub (a b : Double) : Double := add a (neg b)

/-- Multiplication `a * b`. -/
def mul : Double → Double → Double
  | fin m1 e1, fin m2 e2 =>
      let x := toRatio m1 e1
      let y := toRatio m2 e2
      ofRatio (x.1 * y.1) (x.2 * y.2)
  | fin m _, inf b => if m = 0 then nan else inf (decide (m < 0) != b)
  | inf b, fin m _ => if m = 0 then nan else inf (b != decide (m < 0))
  | inf b1, inf b2 => inf (b1 != b2)
  | _, _ => nan

/-- Division `a / b`. -/
def div : Double → Double → Double
  | fin m1 e1, fin m2 e2 =>
      if m2 = 0 then (if m1 = 0 then nan else inf (decide (m1 < 0)))
      else
        let x := toRatio m1 e1
        let y := toRatio m2 e2
        let n := x.1 * y.2
        let d := x.2 * y.1.natAbs
        ofRatio (if m2 < 0 then -n else n) d
  | fin _ _, inf _ => fin 0 0
  | inf b, fin m _ => inf (b != decide (m < 0))
  | _, _ => nan

/-- The value of `std::fabs`. -/
def abs : Double → Double
  | fin m e => fin (Int.natAbs m) e
  | inf _ => inf false
  | nan => nan

/-- The comparison `a < b` (false when an operand is NaN). -/
def lt : Double → Double → Bool
  | fin m1 e1, fin m2 e2 =>
      let x := toRatio m1 e1
      let y := toRatio m2 e2
      decide (x.1 * y.2 < y.1 * x.2)
  | fin _ _, inf b => !b
  | inf b, fin _ _ => b
  | inf b1, inf b2 => b1 && !b2
  | _, _ => false

/-- The value of `std::pow(10.0, n)` for an `int` exponent, taken to be the
correctly rounded power (the C library promises only an approximation; where
`10 ^ n` is not representable nothing below depends on the last bit). -/
def pow10 (n : Int) : Double :=
  if 0 ≤ n then ofRatio (10 ^ n.toNat) 1 else ofRatio 1 (10 ^ (-n).toNat)

end Double

/-! ## Values (`json_value.h`, `json_object.h`, `json_array.h`) -/

/-- The class `JsonValue`: the type tag together with the active payload. An
object is the content of its `std::unordered_map` as the list of its entries
in iteration order (keys pairwise distinct); an array is its `std::vector`. -/
inductive JsonValue where
  | object (values : List (List Char × JsonValue))
  | array (values : List JsonValue)
  | string (str : List Char)
  | number (num : Double)
  | boolean (b : Bool)
  | null

namespace JsonValue

mutual

/-- Equality of two value trees is decidable. -/
def decEq : (a b : JsonValue) → Decidable (a = b)
  | .object a, .object b =>
      match decEqMembers a b with
      | isTrue h => isTrue (by rw [h])
      | isFalse h => isFalse (fun e => h (by cases e; rfl))
  | .array a, .array b =>
      match decEqList a b with
      | isTrue h => isTrue (by rw [h])
      | isFalse h => isFalse (fun e => h (by cases e; rfl))
  | .string a, .string b =>
      if h : a = b then isTrue (by rw [h]) else isFalse (fun e => h (by cases e; rfl))
  | .number a, .number b =>
      if h : a = b then isTrue (by rw [h]) else isFalse (fun e => h (by cases e; rfl))
  | .boolean a, .boolean b =>
      if h : a = b then isTrue (by rw [h]) else isFalse (fun e => h (by cases e; rfl))
  | .null, .null => isTrue rfl
  | .object _, .array _ => isFalse (fun e => by cases e)
  | .object _, .string _ => isFalse (fun e => by cases e)
  | .object _, .number _ => isFalse (fun e => by cases e)
  | .object _, .boolean _ => isFalse (fun e => by cases e)
  | .object _, .null => isFalse (fun e => by cases e)
  | .array _, .object _ => isFalse (fun e => by cases e)
  | .array _, .string _ => isFalse (fun e => by cases e)
  | .array _, .number _ => isFalse (fun e => by cases e)
  | .array _, .boolean _ => isFalse (fun e => by cases e)
  | .array _, .null => isFalse (fun e => by cases e)
  | .string _, .object _ => isFalse (fun e => by cases e)
  | .string _, .array _ => isFalse (fun e => by cases e)
  | .string _, .number _ => isFalse (fun e => by cases e)
  | .string _, .boolean _ => isFalse (fun e => by cases e)
  | .string _, .null => isFalse (fun e => by cases e)
  | .number _, .object _ => isFalse (fun e => by cases e)
  | .number _, .array _ => isFalse (fun e => by cases e)
  | .number _, .string _ => isFalse (fun e => by cases e)
  | .number _, .boolean _ => isFalse (fun e => by cases e)
  | .number _, .null => isFalse (fun e => by cases e)
  | .boolean _, .object _ => isFalse (fun e => by cases e)
  | .boolean _, .array _ => isFalse (fun e => by cases e)
  | .boolean _, .string _ => isFalse (fun e => by cases e)
  | .boolean _, .number _ => isFalse (fun e => by cases e)
  | .boolean _, .null => isFalse (fun e => by cases e)
  | .null, .object _ => isFalse (fun e => by cases e)
  | .null, .array _ => isFalse (fun e => by cases e)
  | .null, .string _ => isFalse (fun e => by cases e)
  | .null, .number _ => isFalse (fun e => by cases e)
  | .null, .boolean _ => isFalse (fun e => by cases e)

/-- Equality of two lists of values is decidable. -/
def decEqList : (a b : List JsonValue) → Decidable (a = b)
  | [], [] => isTrue rfl
  | [], _ :: _ => isFalse (fun e => by cases e)
  | _ :: _, [] => isFalse (fun e => by cases e)
  | a :: as, b :: bs =>
      match decEq a b with
      | isTrue h =>
          match decEqList as bs with
          | isTrue t => isTrue (by rw [h, t])
          | isFalse t => isFalse (fun e => t (by cases e; rfl))
      | isFalse h => isFalse (fun e => h (by cases e; rfl))

/-- Equality of two lists of object entries is decidable. -/
def decEqMembers : (a b : List (List Char × JsonValue)) → Decidable (a = b)
  | [], [] => isTrue rfl
  | [], _ :: _ => isFalse (fun e => by cases e)
  | _ :: _, [] => isFalse (fun e => by cases e)
  | (k, a) :: as, (l, b) :: bs =>
      if hk : k = l then
        match decEq a b with
        | isTrue h =>
            match decEqMembers as bs with
            | isTrue t => isTrue (by rw [hk, h, t])
            | isFalse t => isFalse (fun e => t (by cases e; rfl))
        | isFalse h => isFalse (fun e => h (by cases e; rfl))
      else isFalse (fun e => hk (by cases e; rfl))

end

instance : DecidableEq JsonValue := decEq

end JsonValue

/-- The class `JsonObject` (its member `values_`). -/
abbrev JsonObject := List (List Char × JsonValue)

/-- The class `JsonArray` (its member `values_`). -/
abbrev JsonArray := List JsonValue

namespace JsonObject

/-- The member call `values_.find(key)`: the mapped value, if any. -/
def find : JsonObject → List Char → Option JsonValue
  | [], _ => none
  | (k, v) :: rest, key => if k = key then some v else find rest key

/-- The method `JsonObject::Insert`, which is `values_[key] = value`: an
existing entry is overwritten in place, a new one is added (where a new
entry lands in the iteration order is unspecified; here it is the end). -/
def Insert : JsonObject → List Char → JsonValue → JsonObject
  | [], key, value => [(key, value)]
  | (k, v) :: rest, key, value =>
      if k = key then (k, value) :: rest else (k, v) :: Insert rest key value

/-- The method `JsonObject::Contains`. -/
def Contains (obj : JsonObject) (key : List Char) : Bool := (find obj key).isSome

/-- The method `JsonObject::Size`. -/
def Size (obj : JsonObject) : Nat := obj.length

/-- The method `JsonObject::At`: `none` stands for the `JsonKeyException`. -/
def At (obj : JsonObject) (key : List Char) : Option JsonValue := find obj key

end JsonObject

/-! ## Parser (`json_parser.h`, `json_parser.cpp`) -/

/-- The struct `JsonParserConfig` with its default member initialisers. -/
structure JsonParserConfig where
  allow_comments : Bool := false
  allow_trailing_commas : Bool := false
  strict_mode : Bool := true
  max_depth : Nat := 1000
  max_string_length : Nat := 1000000
  deriving DecidableEq, Repr

/-- The preset `JsonParserConfig::Strict()`, the default of `Parse`. -/
def JsonParserConfig.Strict : JsonParserConfig :=
  { allow_comments := false, allow_trailing_commas := false, strict_mode := true,
    max_depth := 1000, max_string_length := 1000000 }

/-- The preset `JsonParserConfig::Lenient()`. -/
def JsonParserConfig.Lenient : JsonParserConfig :=
  { allow_comments := true, allow_trailing_commas := true, strict_mode := false,
    max_depth := 1000, max_string_length := 1000000 }

/-- The texts handed to `ThrowParseError` and to `JsonParseException`. -/
inductive Message where
  | unexpectedEndOfInput
  | unexpectedCharactersAfterValue
  | unexpectedCharacter (c : Char)
  | expectedButGot (want got : Char)
  | expectedCommaOrBrace
  | expectedCommaOrBracket
  | invalidUnicodeEscape
  | unescapedNewline
  | invalidBoolean
  | invalidNull
  | maximumDepthExceeded
  | stringTooLong
  deriving DecidableEq, Repr

/-- The class `JsonParseException`. `located` is the two-argument constructor
used by `ThrowParseError` (the line and column are part of its message, the
position is stored); `plain` is the one-argument constructor, which leaves
the stored position at its default `0`. -/
inductive JsonParseException where
  | located (message : Message) (line column position : Nat)
  | plain (message : Message)
  deriving DecidableEq, Repr

/-- The method `JsonParseException::GetPosition`. -/
def JsonParseException.GetPosition : JsonParseException → Nat
  | located _ _ _ position => position
  | plain _ => 0

/-- Why a run of the parser has no value: an exception of the program, or
the fuel of the embedding ran out (never the case for `Parse`). -/
inductive Failure where
  | exception (e : JsonParseException)
  | outOfFuel
  deriving DecidableEq, Repr

/-- The mutable members of the class `JsonParser`. -/
structure ParserState where
  input_ : List Char
  position_ : Nat
  line_ : Nat
  column_ : Nat
  deriving DecidableEq, Repr

/-- The library function `std::isspace` in the "C" locale. -/
def isspace (c : Char) : Bool :=
  c == ' ' || c == '\t' || c == '\n' || c == '\x0b' || c == '\x0c' || c == '\r'

/-- The library function `std::isdigit`. -/
def isdigit (c : Char) : Bool := '0' ≤ c && c ≤ '9'

/-- The library function `std::isxdigit`. -/
def isxdigit (c : Char) : Bool :=
  ('0' ≤ c && c ≤ '9') || ('a' ≤ c && c ≤ 'f') || ('A' ≤ c && c ≤ 'F')

/-- The value of the `int` expression `c - '0'`. -/
def digitValue (c : Char) : Int := (c.toNat : Int) - 48

namespace ParserState

/-- The method `JsonParser::Initialize`. -/
def Initialize (input : List Char) : ParserState :=
  { input_ := input, position_ := 0, line_ := 1, column_ := 1 }

/-- The part of the input at and after the cursor. -/
def unread (st : ParserState) : List Char := st.input_.drop st.position_

/-- The step shared by `Next`, `SkipWhitespace` and `Advance`: move the cursor
over the character `c` under it and update the line and column counters. -/
def consume (st : ParserState) (c : Char) : ParserState :=
  if c = '\n' then
    { st with position_ := st.position_ + 1, line_ := st.line_ + 1, column_ := 1 }
  else
    { st with position_ := st.position_ + 1, column_ := st.column_ + 1 }

end ParserState

open ParserState

/-- The method `JsonParser::ThrowParseError`. -/
def ThrowParseError (st : ParserState) (message : Message) : Failure :=
  .exception (.located message st.line_ st.column_ st.position_)

/-- The method `JsonParser::Current`. -/
def Current (st : ParserState) : Except Failure Char :=
  match st.input_[st.position_]? with
  | none => .error (ThrowParseError st .unexpectedEndOfInput)
  | some c => .ok c

/-- The method `JsonParser::Next`. -/
def Next (st : ParserState) : Except Failure (Char × ParserState) :=
  match st.input_[st.position_]? with
  | none => .error (ThrowParseError st .unexpectedEndOfInput)
  | some c => .ok (c, st.consume c)

/-- The method `JsonParser::Expect`. -/
def Expect (st : ParserState) (c : Char) : Except Failure ParserState := do
  let got ← Current st
  if got ≠ c then .error (ThrowParseError st (.expectedButGot c got))
  else do
    let r ← Next st
    pure r.2

/-- The loop of `SkipWhitespace`, run over the unread input. -/
def SkipWhitespaceLoop : List Char → ParserState → ParserState
  | [], st => st
  | c :: rest, st => if isspace c then SkipWhitespaceLoop rest (st.consume c) else st

/-- The method `JsonParser::SkipWhitespace`. -/
def SkipWhitespace (st : ParserState) : ParserState :=
  SkipWhitespaceLoop st.unread st

/-- The loop of a `//` comment: only the cursor moves, up to the line feed. -/
def SkipLineLoop : List Char → ParserState → ParserState
  | [], st => st
  | c :: rest, st =>
      if c ≠ '\n' then SkipLineLoop rest { st with position_ := st.position_ + 1 } else st

/-- The loop of a `/* */` comment, entered while `position_ + 1 < length`. -/
def SkipBlockLoop : List Char → ParserState → ParserState
  | c :: d :: rest, st =>
      if c = '*' ∧ d = '/' then { st with position_ := st.position_ + 2 }
      else SkipBlockLoop (d :: rest) (st.consume c)
  | _, st => st

/-- The method `JsonParser::SkipComments`. -/
def SkipComments (st : ParserState) : ParserState :=
  match st.unread with
  | c :: d :: _ =>
      if c = '/' ∧ d = '/' then
        let st1 := SkipLineLoop st.unread st
        match st1.input_[st1.position_]? with
        | some _ => { st1 with position_ := st1.position_ + 1, line_ := st1.line_ + 1, column_ := 1 }
        | none => st1
      else if c = '/' ∧ d = '*' then
        let st1 := { st with position_ := st.position_ + 2 }
        SkipBlockLoop st1.unread st1
      else st
  | _ => st

/-- The method `JsonParser::Advance`. -/
def Advance : Nat → ParserState → ParserState
  | 0, st => st
  | count + 1, st =>
      match st.input_[st.position_]? with
      | none => st
      | some c => Advance count (st.consume c)

/-- The method `JsonParser::Match`. -/
def Match (st : ParserState) (str : List Char) : Bool × ParserState :=
  if st.position_ + str.length > st.input_.length then (false, st)
  else if st.unread.take str.length = str then (true, Advance str.length st)
  else (false, st)

/-- The method `JsonParser::ValidateDepth`. -/
def ValidateDepth (cfg : JsonParserConfig) (depth : Nat) : Except Failure Unit :=
  if depth > cfg.max_depth then .error (.exception (.plain .maximumDepthExceeded))
  else .ok ()

/-- The method `JsonParser::ValidateStringLength`. -/
def ValidateStringLength (cfg : JsonParserConfig) (length : Nat) : Except Failure Unit :=
  if length > cfg.max_string_length then .error (.exception (.plain .stringTooLong))
  else .ok ()

/-- The `for` loop of the `\u` escape: `count` more hexadecimal digits are
required and consumed. -/
def UnicodeEscapeLoop : Nat → ParserState → Except Failure ParserState
  | 0, st => .ok st
  | count + 1, st =>
      match st.input_[st.position_]? with
      | none => .error (ThrowParseError st .invalidUnicodeEscape)
      | some h =>
          if isxdigit h then UnicodeEscapeLoop count (st.consume h)
          else .error (ThrowParseError st .invalidUnicodeEscape)

/-- The `switch (esc)` of `ParseString`: what is appended to the result. -/
def escapeText (esc : Char) : List Char :=
  if esc = '"' then ['"']
  else if esc = '\\' then ['\\']
  else if esc = '/' then ['/']
  else if esc = 'b' then ['\x08']
  else if esc = 'f' then ['\x0c']
  else if esc = 'n' then ['\n']
  else if esc = 'r' then ['\r']
  else if esc = 't' then ['\t']
  else if esc = 'u' then []
  else [esc]

/-- The body of the loop of `ParseString` for a character `c` other than the
closing quote, up to the length check: the new result and state. -/
def ParseStringStep (cfg : JsonParserConfig) (c : Char) (result : List Char) (st : ParserState) :
    Except Failure (List Char × ParserState) :=
  if c = '\\' then do
    let r ← Next st
    if r.1 = 'u' then do
      let st ← UnicodeEscapeLoop 4 r.2
      pure (result ++ escapeText r.1, st)
    else pure (result ++ escapeText r.1, r.2)
  else if c = '\n' ∨ c = '\r' then
    if cfg.strict_mode then .error (ThrowParseError st .unescapedNewline)
    else pure (result ++ [c], st)
  else pure (result ++ [c], st)

/-- The `while` loop of `JsonParser::ParseString()`. -/
def ParseStringLoop (cfg : JsonParserConfig) :
    Nat → List Char → ParserState → Except Failure (List Char × ParserState)
  | 0, _, _ => .error .outOfFuel
  | fuel + 1, result, st =>
      if st.position_ < st.input_.length then do
        let r ← Next st
        if r.1 = '"' then pure (result, r.2)
        else do
          let x ← ParseStringStep cfg r.1 result r.2
          ValidateStringLength cfg x.1.length
          ParseStringLoop cfg fuel x.1 x.2
      else pure (result, st)

/-- The method `JsonParser::ParseString()` (the string token). The loop gets
one unit of fuel for each unread character and one for its last test. -/
def ParseString (cfg : JsonParserConfig) (st : ParserState) :
    Except Failure (List Char × ParserState) := do
  let st ← Expect st '"'
  ParseStringLoop cfg (st.unread.length + 1) [] st

/-- The first loop of `ParseNumber`: `result = result * 10 + (Current() - '0')`. -/
def IntegerLoop : List Char → Double → ParserState → Double × ParserState
  | [], result, st => (result, st)
  | c :: rest, result, st =>
      if isdigit c then
        IntegerLoop rest (Double.add (Double.mul result (Double.ofInt 10))
          (Double.ofInt (digitValue c))) (st.consume c)
      else (result, st)

/-- The second loop of `ParseNumber`: `fraction += (Current() - '0') / divisor;
divisor *= 10.0`. -/
def FractionLoop : List Char → Double → Double → ParserState → Double × ParserState
  | [], fraction, _, st => (fraction, st)
  | c :: rest, fraction, divisor, st =>
      if isdigit c then
        FractionLoop rest (Double.add fraction (Double.div (Double.ofInt (digitValue c)) divisor))
          (Double.mul divisor (Double.ofInt 10)) (st.consume c)
      else (fraction, st)

/-- The value of an `int` expression, wrapped to 32 bits (overflow of `int` is
undefined in C++; wrapping is what the usual targets do). -/
def wrapInt32 (x : Int) : Int := (x + 2147483648) % 4294967296 - 2147483648

/-- The third loop of `ParseNumber`: `exponent = exponent * 10 + (Current() - '0')`. -/
def ExponentLoop : List Char → Int → ParserState → Int × ParserState
  | [], exponent, st => (exponent, st)
  | c :: rest, exponent, st =>
      if isdigit c then
        ExponentLoop rest (wrapInt32 (wrapInt32 (exponent * 10) + digitValue c)) (st.consume c)
      else (exponent, st)

/-- The start of `ParseNumber`: a leading `-` is consumed and remembered. -/
def ParseSign (st : ParserState) : Except Failure (Bool × ParserState) := do
  let c ← Current st
  if c = '-' then do
    let r ← Next st
    pure (true, r.2)
  else pure (false, st)

/-- The block `if (Current() == '.') { ... }` of `ParseNumber`. -/
def ParseFraction (result : Double) (st : ParserState) : Except Failure (Double × ParserState) := do
  let c ← Current st
  if c = '.' then do
    let n ← Next st
    let f := FractionLoop n.2.unread (Double.ofInt 0) (Double.ofInt 10) n.2
    pure (Double.add result f.1, f.2)
  else pure (result, st)

/-- The sign of the exponent: `-` or `+` is consumed, `-` is remembered. -/
def ParseExponentSign (st : ParserState) : Except Failure (Bool × ParserState) := do
  let c ← Current st
  if c = '-' then do
    let r ← Next st
    pure (true, r.2)
  else if c = '+' then do
    let r ← Next st
    pure (false, r.2)
  else pure (false, st)

/-- The block `if (Current() == 'e' || Current() == 'E') { ... }` of
`ParseNumber`. -/
def ParseExponent (result : Double) (st : ParserState) : Except Failure (Double × ParserState) := do
  let c ← Current st
  if c = 'e' ∨ c = 'E' then do
    let n ← Next st
    let s ← ParseExponentSign n.2
    let x := ExponentLoop s.2.unread 0 s.2
    let exponent := if s.1 then wrapInt32 (-x.1) else x.1
    pure (Double.mul result (Double.pow10 exponent), x.2)
  else pure (result, st)

/-- The method `JsonParser::ParseNumber`. -/
def ParseNumber (st : ParserState) : Except Failure (Double × ParserState) := do
  let s ← ParseSign st
  let i := IntegerLoop s.2.unread (Double.ofInt 0) s.2
  let f ← ParseFraction i.1 i.2
  let r ← ParseExponent f.1 f.2
  pure (if s.1 then Double.neg r.1 else r.1, r.2)

/-- The method `JsonParser::ParseBoolean`. -/
def ParseBoolean (st : ParserState) : Except Failure (Bool × ParserState) :=
  let m := Match st ['t', 'r', 'u', 'e']
  if m.1 then .ok (true, m.2)
  else
    let m := Match m.2 ['f', 'a', 'l', 's', 'e']
    if m.1 then .ok (false, m.2)
    else .error (ThrowParseError m.2 .invalidBoolean)

/-- The method `JsonParser::ParseNull`. -/
def ParseNull (st : ParserState) : Except Failure ParserState :=
  let m := Match st ['n', 'u', 'l', 'l']
  if m.1 then .ok m.2 else .error (ThrowParseError m.2 .invalidNull)

/-- The two statements `SkipWhitespace(); if (config_.allow_comments)
SkipComments();` that stand between the tokens. -/
def SkipSeparators (cfg : JsonParserConfig) (st : ParserState) : ParserState :=
  let st := SkipWhitespace st
  if cfg.allow_comments then SkipComments st else st

mutual

/-- The method `JsonParser::ParseValue`. -/
def ParseValue (cfg : JsonParserConfig) : Nat → ParserState → Except Failure (JsonValue × ParserState)
  | 0, _ => .error .outOfFuel
  | fuel + 1, st => do
      ValidateDepth cfg 0
      let st := SkipSeparators cfg st
      let c ← Current st
      if c = '{' then do
        let r ← ParseObject cfg fuel st
        pure (.object r.1, r.2)
      else if c = '[' then do
        let r ← ParseArray cfg fuel st
        pure (.array r.1, r.2)
      else if c = '"' then do
        let r ← ParseString cfg st
        pure (.string r.1, r.2)
      else if c = '-' ∨ ('0' ≤ c ∧ c ≤ '9') then do
        let r ← ParseNumber st
        pure (.number r.1, r.2)
      else if c = 't' ∨ c = 'f' then do
        let r ← ParseBoolean st
        pure (.boolean r.1, r.2)
      else if c = 'n' then do
        let st ← ParseNull st
        pure (.null, st)
      else .error (ThrowParseError st (.unexpectedCharacter c))

/-- The method `JsonParser::ParseObject`, up to its `while (true)` loop. -/
def ParseObject (cfg : JsonParserConfig) : Nat → ParserState → Except Failure (JsonObject × ParserState)
  | 0, _ => .error .outOfFuel
  | fuel + 1, st => do
      ValidateDepth cfg 0
      let st ← Expect st '{'
      let st := SkipSeparators cfg st
      let c ← Current st
      if c = '}' then do
        let r ← Next st
        pure ([], r.2)
      else ParseObjectLoop cfg fuel [] st

/-- The `while (true)` loop of `JsonParser::ParseObject`. -/
def ParseObjectLoop (cfg : JsonParserConfig) :
    Nat → JsonObject → ParserState → Except Failure (JsonObject × ParserState)
  | 0, _, _ => .error .outOfFuel
  | fuel + 1, obj, st => do
      let st := SkipSeparators cfg st
      let k ← ParseString cfg st
      let st := SkipSeparators cfg k.2
      let st ← Expect st ':'
      let st := SkipSeparators cfg st
      let v ← ParseValue cfg fuel st
      let obj := obj.Insert k.1 v.1
      let st := SkipSeparators cfg v.2
      let c ← Current st
      if c = '}' then do
        let r ← Next st
        pure (obj, r.2)
      else if c = ',' then do
        let r ← Next st
        ParseObjectLoop cfg fuel obj r.2
      else .error (ThrowParseError st .expectedCommaOrBrace)

/-- The method `JsonParser::ParseArray`, up to its `while (true)` loop. -/
def ParseArray (cfg : JsonParserConfig) : Nat → ParserState → Except Failure (JsonArray × ParserState)
  | 0, _ => .error .outOfFuel
  | fuel + 1, st => do
      ValidateDepth cfg 0
      let st ← Expect st '['
      let st := SkipSeparators cfg st
      let c ← Current st
      if c = ']' then do
        let r ← Next st
        pure ([], r.2)
      else ParseArrayLoop cfg fuel [] st

/-- The `while (true)` loop of `JsonParser::ParseArray`. The parsed `value` is
a local of the loop body and is not stored in `arr`, as in the source. The
statement `if (config_.allow_trailing_commas && ...) { }` before the closing
bracket is consumed has an empty body and is left out. -/
def ParseArrayLoop (cfg : JsonParserConfig) :
    Nat → JsonArray → ParserState → Except Failure (JsonArray × ParserState)
  | 0, _, _ => .error .outOfFuel
  | fuel + 1, arr, st => do
      let st := SkipSeparators cfg st
      let v ← ParseValue cfg fuel st
      let st := SkipSeparators cfg v.2
      let c ← Current st
      if c = ']' then do
        let r ← Next st
        pure (arr, r.2)
      else if c = ',' then do
        let r ← Next st
        ParseArrayLoop cfg fuel arr r.2
      else .error (ThrowParseError st .expectedCommaOrBracket)

end

/-- The method `JsonParser::ParseString(const std::string&)`, which is what the
static `JsonParser::Parse` runs. -/
def Parse (json : List Char) (cfg : JsonParserConfig := JsonParserConfig.Strict) :
    Except Failure JsonValue := do
  let st := Initialize json
  let r ← ParseValue cfg (3 * json.length + 3) st
  let st := SkipWhitespace r.2
  if st.position_ < st.input_.length then
    .error (ThrowParseError st .unexpectedCharactersAfterValue)
  else pure r.1

/-! ## Equality (`JsonValue::operator==`, `JsonObject::operator==`,
`JsonArray::operator==`) -/

namespace JsonValue

/-- The `double` constant `1e-9`. -/
def epsilon : Double := Double.ofRatio 1 1000000000

mutual

/-- The operator `JsonValue::operator==`: `eq a b` is `a == b`. -/
def eq : JsonValue → JsonValue → Bool
  | .object a, .object b => decide (a.length = b.length) && objectLoop a b
  | .array a, .array b => decide (a.length = b.length) && arrayLoop a b
  | .string a, .string b => decide (a = b)
  | .number a, .number b => Double.lt (Double.abs (Double.sub a b)) epsilon
  | .boolean a, .boolean b => decide (a = b)
  | .null, .null => true
  | _, _ => false

/-- The loop of `JsonObject::operator==` over the entries of `*this`: the key
is looked up in `other` and `it->second != pair.second` must be false, that
is, `it->second == pair.second` with the entry of `other` on the left. -/
def objectLoop : JsonObject → JsonObject → Bool
  | [], _ => true
  | (k, v) :: rest, other =>
      (match JsonObject.find other k with
        | none => false
        | some w => eqFlip v w) && objectLoop rest other

/-- The loop of `JsonArray::operator==` (the sizes are equal). -/
def arrayLoop : JsonArray → JsonArray → Bool
  | [], _ => true
  | _ :: _, [] => false
  | a :: as, b :: bs => eq a b && arrayLoop as bs

/-- The comparison with the operands exchanged: `eqFlip v w` is `w == v`
(see `eqFlip_eq`); it recurses on `v`, which lets `objectLoop` call the
operator with the entry of `other` on the left. -/
def eqFlip : JsonValue → JsonValue → Bool
  | .object a, .object b =>
      decide (b.length = a.length) && b.all (fun p => findEq a p.1 p.2)
  | .array a, .array b => decide (b.length = a.length) && arrayLoopFlip a b
  | .string a, .string b => decide (b = a)
  | .number a, .number b => Double.lt (Double.abs (Double.sub b a)) epsilon
  | .boolean a, .boolean b => decide (b = a)
  | .null, .null => true
  | _, _ => false

/-- One step of the loop of `JsonObject::operator==` run over `other`: the
entry `(key, w)` is looked up in `a` and compared, `*it == w`. -/
def findEq : JsonObject → List Char → JsonValue → Bool
  | [], _, _ => false
  | (k, v) :: rest, key, w => if k = key then eq v w else findEq rest key w

/-- The loop of `JsonArray::operator==` with the operands exchanged. -/
def arrayLoopFlip : JsonArray → JsonArray → Bool
  | _, [] => true
  | [], _ :: _ => false
  | a :: as, b :: bs => eqFlip a b && arrayLoopFlip as bs

end

end JsonValue

/-! ## Writer (`json_writer.h`, `json_writer.cpp`) -/

/-- The struct `JsonWriterConfig` with its default member initialisers. -/
structure JsonWriterConfig where
  pretty_print : Bool := true
  indent_size : Int := 2
  escape_unicode : Bool := false
  sort_keys : Bool := false
  max_depth : Int := 1000
  deriving DecidableEq, Repr

/-- The preset `JsonWriterConfig::Compact()`. -/
def JsonWriterConfig.Compact : JsonWriterConfig :=
  { pretty_print := false, indent_size := 2, escape_unicode := false, sort_keys := false,
    max_depth := 1000 }

/-- The preset `JsonWriterConfig::Pretty()`. -/
def JsonWriterConfig.Pretty : JsonWriterConfig :=
  { pretty_print := true, indent_size := 2, escape_unicode := false, sort_keys := false,
    max_depth := 1000 }

/-- The exception `JsonException("Maximum depth exceeded during writing")`,
the only one the writer raises on a value tree. -/
inductive WriterException where
  | maximumDepthExceeded
  deriving DecidableEq, Repr

/-- The character of a decimal digit `d < 10`. -/
def digitChar (d : Nat) : Char := Char.ofNat (48 + d)

/-- The loop that produces decimal digits, last digit first. -/
def decimalLoop : Nat → Nat → List Char → List Char
  | 0, _, acc => acc
  | fuel + 1, n, acc =>
      if n < 10 then digitChar n :: acc
      else decimalLoop fuel (n / 10) (digitChar (n % 10) :: acc)

/-- The decimal text of a natural number, as `operator<<` prints it. -/
def decimal (n : Nat) : List Char := decimalLoop (n + 1) n []

/-- The text of `os << static_cast<long long>(num)`. -/
def decimalInt (z : Int) : List Char :=
  if z < 0 then '-' :: decimal z.natAbs else decimal z.natAbs

/-- The text of `os << std::fixed << std::setprecision(6) << num` for the
finite value `m * 2 ^ e`: the value is rounded to six decimals (to nearest,
ties to even, on the exact binary value) and printed with its sign. -/
def fixed6 (m e : Int) : List Char :=
  let a := m.natAbs
  let num : Nat := if 0 ≤ e then a * 1000000 * 2 ^ e.toNat else a * 1000000
  let den : Nat := if 0 ≤ e then 1 else 2 ^ (-e).toNat
  let q := num / den
  let r := num % den
  let n : Nat := if 2 * r < den then q else if den < 2 * r then q + 1 else if q % 2 = 0 then q else q + 1
  let frac := decimal (n % 1000000)
  (if m < 0 then ['-'] else []) ++ decimal (n / 1000000) ++ ['.'] ++
    List.replicate (6 - frac.length) '0' ++ frac

/-- The method `JsonWriter::WriteNumber`. The test
`num == static_cast<long long>(num)` holds for the integral values in the
range of `long long`; outside of that range the cast is undefined and is taken
to give a different value (as on x86-64), which selects the fixed format. -/
def WriteNumber (num : Double) : List Char :=
  match num with
  | .nan => "null".toList
  | .inf _ => "null".toList
  | .fin m e =>
      if 0 ≤ e ∧ -9223372036854775808 ≤ m * 2 ^ e.toNat ∧ m * 2 ^ e.toNat < 9223372036854775808 then
        decimalInt (m * 2 ^ e.toNat)
      else fixed6 m e

/-- A hexadecimal digit, lower case, as `std::hex` prints it. -/
def hexDigitChar (d : Nat) : Char :=
  if d < 10 then Char.ofNat (48 + d) else Char.ofNat (87 + d)

/-- The text of `"\\u" << std::hex << std::setfill('0') << std::setw(4) << n`
for a byte `n`. -/
def unicodeEscape (n : Nat) : List Char :=
  ['\\', 'u', hexDigitChar (n / 4096 % 16), hexDigitChar (n / 256 % 16),
    hexDigitChar (n / 16 % 16), hexDigitChar (n % 16)]

/-- The `switch (c)` of `JsonWriter::EscapeString`: the text for one character. -/
def escapeChar (cfg : JsonWriterConfig) (c : Char) : List Char :=
  if c = '"' then ['\\', '"']
  else if c = '\\' then ['\\', '\\']
  else if c = '\x08' then ['\\', 'b']
  else if c = '\x0c' then ['\\', 'f']
  else if c = '\n' then ['\\', 'n']
  else if c = '\r' then ['\\', 'r']
  else if c = '\t' then ['\\', 't']
  else if cfg.escape_unicode ∧ c.toNat > 127 then unicodeEscape c.toNat
  else [c]

/-- The method `JsonWriter::EscapeString`. -/
def EscapeString (cfg : JsonWriterConfig) : List Char → List Char
  | [] => []
  | c :: rest => escapeChar cfg c ++ EscapeString cfg rest

/-- The method `JsonWriter::WriteString`. -/
def WriteString (cfg : JsonWriterConfig) (str : List Char) : List Char :=
  '"' :: EscapeString cfg str ++ ['"']

/-- The method `JsonWriter::WriteIndent`. -/
def WriteIndent (indent : Int) : List Char := List.replicate indent.toNat ' '

/-- The order `operator<` of `std::string`: lexicographic on the characters. -/
def stringLess : List Char → List Char → Bool
  | _, [] => false
  | [], _ :: _ => true
  | a :: as, b :: bs => decide (a < b) || (decide (a = b) && stringLess as bs)

/-- The call `std::sort(keys.begin(), keys.end())`. -/
def sortKeys (keys : List (List Char)) : List (List Char) :=
  List.insertionSort (fun a b => stringLess b a = false) keys

/-- The method `JsonObject::GetKeys`. -/
def JsonObject.GetKeys (obj : JsonObject) : List (List Char) := obj.map Prod.fst

/-- The `for` loop of `JsonWriter::WriteObject` over `keys`. The text that
`WriteValue(os, obj.At(key), ...)` produces is looked up in `texts`, which
holds, for each entry of the object, the outcome of writing its value. -/
def WriteObjectLoop (cfg : JsonWriterConfig) (texts : List (List Char × Except WriterException (List Char)))
    (indent : Int) : List (List Char) → Bool → Except WriterException (List Char)
  | [], _ => .ok []
  | key :: keys, first => do
      let sep : List Char :=
        if first then [] else ',' :: (if cfg.pretty_print then ['\n'] else [])
      let ind : List Char :=
        if cfg.pretty_print then WriteIndent (indent + cfg.indent_size) else []
      let name := WriteString cfg key ++ (if cfg.pretty_print then [':', ' '] else [':'])
      let value ← (match texts.lookup key with
        | some t => t
        | none => .ok [])
      let rest ← WriteObjectLoop cfg texts indent keys false
      pure (sep ++ ind ++ name ++ value ++ rest)

/-- The method `JsonWriter::WriteObject`, given the outcome of writing each
mapped value (`texts`, in the order of the entries of `obj`). -/
def WriteObject (cfg : JsonWriterConfig) (obj : JsonObject)
    (texts : List (Except WriterException (List Char))) (indent : Int) :
    Except WriterException (List Char) :=
  if obj.isEmpty then .ok ['{', '}']
  else do
    let keys := obj.GetKeys
    let keys := if cfg.sort_keys then sortKeys keys else keys
    let body ← WriteObjectLoop cfg (obj.GetKeys.zip texts) indent keys true
    pure (['{'] ++ (if cfg.pretty_print then ['\n'] else []) ++ body ++
      (if cfg.pretty_print then '\n' :: WriteIndent indent else []) ++ ['}'])

/-- The `for` loop of `JsonWriter::WriteArray`, given the outcome of writing
each element. -/
def WriteArrayLoop (cfg : JsonWriterConfig) (indent : Int) :
    List (Except WriterException (List Char)) → Bool → Except WriterException (List Char)
  | [], _ => .ok []
  | t :: texts, first => do
      let sep : List Char :=
        if first then [] else ',' :: (if cfg.pretty_print then ['\n'] else [])
      let ind : List Char :=
        if cfg.pretty_print then WriteIndent (indent + cfg.indent_size) else []
      let value ← t
      let rest ← WriteArrayLoop cfg indent texts false
      pure (sep ++ ind ++ value ++ rest)

/-- The method `JsonWriter::WriteArray`, given the outcome of writing each
element. -/
def WriteArray (cfg : JsonWriterConfig) (texts : List (Except WriterException (List Char)))
    (indent : Int) : Except WriterException (List Char) :=
  if texts.isEmpty then .ok ['[', ']']
  else do
    let body ← WriteArrayLoop cfg indent texts true
    pure (['['] ++ (if cfg.pretty_print then ['\n'] else []) ++ body ++
      (if cfg.pretty_print then '\n' :: WriteIndent indent else []) ++ [']'])

mutual

/-- The method `JsonWriter::WriteValue`: the text appended to the stream. -/
def WriteValue (cfg : JsonWriterConfig) : JsonValue → Int → Int → Except WriterException (List Char)
  | .object obj, indent, depth =>
      if depth > cfg.max_depth then .error .maximumDepthExceeded
      else WriteObject cfg obj (WriteValues cfg obj (indent + cfg.indent_size) (depth + 1)) indent
  | .array arr, indent, depth =>
      if depth > cfg.max_depth then .error .maximumDepthExceeded
      else WriteArray cfg (WriteElements cfg arr (indent + cfg.indent_size) (depth + 1)) indent
  | .string str, _, depth =>
      if depth > cfg.max_depth then .error .maximumDepthExceeded
      else .ok (WriteString cfg str)
  | .number num, _, depth =>
      if depth > cfg.max_depth then .error .maximumDepthExceeded
      else .ok (WriteNumber num)
  | .boolean b, _, depth =>
      if depth > cfg.max_depth then .error .maximumDepthExceeded
      else .ok (if b then "true".toList else "false".toList)
  | .null, _, depth =>
      if depth > cfg.max_depth then .error .maximumDepthExceeded
      else .ok "null".toList

/-- The calls `WriteValue(os, value, indent + indent_size, depth)` of
`WriteObject`, one for each entry of the object. -/
def WriteValues (cfg : JsonWriterConfig) :
    JsonObject → Int → Int → List (Except WriterException (List Char))
  | [], _, _ => []
  | (_, v) :: rest, indent, depth =>
      WriteValue cfg v indent depth :: WriteValues cfg rest indent depth

/-- The calls `WriteValue(os, arr[i], indent + indent_size, depth)` of
`WriteArray`, one for each element. -/
def WriteElements (cfg : JsonWriterConfig) :
    JsonArray → Int → Int → List (Except WriterException (List Char))
  | [], _, _ => []
  | v :: rest, indent, depth =>
      WriteValue cfg v indent depth :: WriteElements cfg rest indent depth

end

/-- The method `JsonWriter::Write(const JsonValue&)`. -/
def Write (cfg : JsonWriterConfig) (value : JsonValue) : Except WriterException (List Char) :=
  WriteValue cfg value 0 0

/-! ## Auxiliary notions used to state the theorems -/

/-- The cursor of `st` stands between the consumed text `pre` and the unread
text `rest`. -/
def ParserState.Reads (st : ParserState) (pre rest : List Char) : Prop :=
  st.input_ = pre ++ rest ∧ st.position_ = pre.length

/-- Every character of `w` is white space for `std::isspace`. -/
def IsWhitespace (w : List Char) : Prop := ∀ c ∈ w, isspace c = true

/-- The text `rest` does not begin with white space. -/
def StartsToken (rest : List Char) : Prop := ∀ c ∈ rest.head?, isspace c = false

/-- The cursor of `st` is inside the input or at its end. -/
def ParserState.Valid (st : ParserState) : Prop := st.position_ ≤ st.input_.length

/-- The state `st1` is reached from `st` by consuming input: same input,
cursor not moved back and still valid. -/
def ParserState.Step (st st1 : ParserState) : Prop :=
  st1.input_ = st.input_ ∧ st.position_ ≤ st1.position_ ∧ st1.Valid

/-- The state `st` with the text `t` appended to its input. -/
def ParserState.extend (st : ParserState) (t : List Char) : ParserState :=
  { st with input_ := st.input_ ++ t }

/-- The exception `e` was raised through `ThrowParseError` at offset `n`. -/
def JsonParseException.LocatedAt (e : JsonParseException) (n : Nat) : Prop :=
  ∃ message line column, e = .located message line column n

/-- The value is an Object or an Array. -/
def JsonValue.isContainer : JsonValue → Bool
  | .object _ => true
  | .array _ => true
  | _ => false

/-- The text `t` does not begin with a letter that can continue one of the
literals `true`, `false` and `null`. -/
def NotLiteralLetter (t : List Char) : Prop :=
  ∀ c ∈ t.head?, c ∉ ['r', 'u', 'e', 'a', 'l', 's']

/-! ## Number literals -/

/-- The decimal value of the digits `ds` read after the number `n`. -/
def digitsFrom : Nat → List Char → Nat
  | n, [] => n
  | n, c :: ds => digitsFrom (10 * n + (c.toNat - 48)) ds

/-- The decimal value of a run of digits. -/
def digitsValue (ds : List Char) : Nat := digitsFrom 0 ds

/-- The `double` that the first loop of `ParseNumber` leaves in `result` after
the digits `ds`, each step being rounded. -/
def integerAccumulated : List Char → Double → Double
  | [], result => result
  | c :: ds, result =>
      integerAccumulated ds (Double.add (Double.mul result (Double.ofInt 10))
        (Double.ofInt (digitValue c)))

/-- The `double` that the second loop of `ParseNumber` leaves in `fraction`
after the digits `fs`, each step being rounded. -/
def fractionAccumulated : List Char → Double → Double → Double
  | [], fraction, _ => fraction
  | c :: fs, fraction, divisor =>
      fractionAccumulated fs (Double.add fraction (Double.div (Double.ofInt (digitValue c)) divisor))
        (Double.mul divisor (Double.ofInt 10))

/-- The `int` that the third loop of `ParseNumber` leaves in `exponent` after
the digits `es`. -/
def exponentAccumulated : List Char → Int → Int
  | [], exponent => exponent
  | c :: es, exponent =>
      exponentAccumulated es (wrapInt32 (wrapInt32 (exponent * 10) + digitValue c))

/-- The exponent part of a number literal: the letter `e` or `E`, an optional
sign (`some true` for `-`, `some false` for `+`) and the digits. -/
structure ExponentPart where
  marker : Char
  sign : Option Bool
  digits : List Char

/-- A number literal: an optional `-`, the integer digits, an optional fraction
(the digits after the `.`) and an optional exponent part. -/
structure NumberLiteral where
  negative : Bool
  integer : List Char
  fraction : Option (List Char)
  exponent : Option ExponentPart

/-- The characters of the sign of an exponent. -/
def ExponentPart.signText : Option Bool → List Char
  | none => []
  | some true => ['-']
  | some false => ['+']

/-- The characters of an optional exponent part. -/
def NumberLiteral.exponentText : Option ExponentPart → List Char
  | none => []
  | some x => x.marker :: (ExponentPart.signText x.sign ++ x.digits)

/-- The characters of an optional fraction. -/
def NumberLiteral.fractionText : Option (List Char) → List Char
  | none => []
  | some fs => '.' :: fs

/-- The characters of a number literal. -/
def NumberLiteral.text (n : NumberLiteral) : List Char :=
  (if n.negative then ['-'] else []) ++
    (n.integer ++ (NumberLiteral.fractionText n.fraction ++ NumberLiteral.exponentText n.exponent))

/-- The parts of the literal are made of digits, the integer part and the
exponent digits are not empty, and the exponent letter is `e` or `E`. -/
def NumberLiteral.WellFormed (n : NumberLiteral) : Prop :=
  n.integer ≠ [] ∧ (∀ c ∈ n.integer, isdigit c = true) ∧
    (∀ fs, n.fraction = some fs → ∀ c ∈ fs, isdigit c = true) ∧
    (∀ x, n.exponent = some x →
      (x.marker = 'e' ∨ x.marker = 'E') ∧ x.digits ≠ [] ∧ ∀ c ∈ x.digits, isdigit c = true)

/-- The character `c` cannot continue the literal `n`: it is not a digit, not
an exponent letter when `n` has no exponent, and not a `.` when `n` has
neither a fraction nor an exponent. -/
def NumberLiteral.EndsBefore (n : NumberLiteral) (c : Char) : Prop :=
  isdigit c = false ∧ (n.exponent = none → c ≠ 'e' ∧ c ≠ 'E') ∧
    (n.fraction = none → n.exponent = none → c ≠ '.')

/-- The value of `exponent` after the third loop and the statement
`if (exp_negative) exponent = -exponent;`. -/
def ExponentPart.accumulated (x : ExponentPart) : Int :=
  if x.sign = some true then wrapInt32 (-(exponentAccumulated x.digits 0))
  else exponentAccumulated x.digits 0

/-- The statement `result += fraction` of `ParseNumber`, for an optional
fraction. -/
def NumberLiteral.addFraction (result : Double) : Option (List Char) → Double
  | none => result
  | some fs => Double.add result (fractionAccumulated fs (Double.ofInt 0) (Double.ofInt 10))

/-- The statement `result *= std::pow(10.0, exponent)` of `ParseNumber`, for an
optional exponent part. -/
def NumberLiteral.scale (result : Double) : Option ExponentPart → Double
  | none => result
  | some x => Double.mul result (Double.pow10 x.accumulated)

/-- The `double` that `ParseNumber` computes for the literal, in the order of
its statements: the integer loop, `result += fraction`, `result *=
std::pow(10.0, exponent)` and the final negation. -/
def NumberLiteral.accumulated (n : NumberLiteral) : Double :=
  let r := NumberLiteral.scale
    (NumberLiteral.addFraction (integerAccumulated n.integer (Double.ofInt 0)) n.fraction) n.exponent
  if n.negative then Double.neg r else r

/-- The integer `z` with the sign of the literal. -/
def NumberLiteral.signed (n : NumberLiteral) (z : Nat) : Int :=
  if n.negative then -(z : Int) else (z : Int)

/-! ## JSON texts: strings, literals, integers and objects -/

/-- The escape sequences of a JSON string other than `\u`. -/
inductive Escape where
  | quote
  | backslash
  | slash
  | backspace
  | formFeed
  | lineFeed
  | carriageReturn
  | tab
  deriving DecidableEq, Repr

/-- The letter written after the backslash. -/
def Escape.letter : Escape → Char
  | .quote => '"'
  | .backslash => '\\'
  | .slash => '/'
  | .backspace => 'b'
  | .formFeed => 'f'
  | .lineFeed => 'n'
  | .carriageReturn => 'r'
  | .tab => 't'

/-- The character that the escape sequence stands for. -/
def Escape.denote : Escape → Char
  | .quote => '"'
  | .backslash => '\\'
  | .slash => '/'
  | .backspace => '\x08'
  | .formFeed => '\x0c'
  | .lineFeed => '\n'
  | .carriageReturn => '\r'
  | .tab => '\t'

/-- One item between the quotes of a string text: a character written as
itself, or an escape sequence. -/
inductive StrItem where
  | plain (c : Char)
  | escaped (e : Escape)
  deriving DecidableEq, Repr

/-- The characters of an item. -/
def StrItem.text : StrItem → List Char
  | .plain c => [c]
  | .escaped e => ['\\', e.letter]

/-- The character that an item stands for. -/
def StrItem.denote : StrItem → Char
  | .plain c => c
  | .escaped e => e.denote

/-- A character written as itself is not a quote, a backslash, a line feed or
a carriage return. -/
def StrItem.WellFormed : StrItem → Prop
  | .plain c => c ≠ '"' ∧ c ≠ '\\' ∧ c ≠ '\n' ∧ c ≠ '\r'
  | .escaped _ => True

/-- The characters of the items of a string, without the quotes. -/
def itemsText : List StrItem → List Char
  | [] => []
  | i :: items => i.text ++ itemsText items

/-- The text of a string: its items between quotes. -/
def stringText (items : List StrItem) : List Char := '"' :: (itemsText items ++ ['"'])

/-- The string that the items stand for. -/
def stringDenote (items : List StrItem) : List Char := items.map StrItem.denote

/-- The key of a member of an object text and the white space around its
tokens: before the key, between the key and the colon, between the colon and
the value, and after the value. -/
structure MemberHead where
  beforeKey : List Char
  key : List StrItem
  afterKey : List Char
  beforeValue : List Char
  afterValue : List Char

/-- The JSON texts considered: strings without `\u` escapes, the literals,
integers, the empty array, and objects of such texts. -/
inductive Text where
  | string (items : List StrItem)
  | boolean (b : Bool)
  | null
  | integer (negative : Bool) (digits : List Char)
  | emptyArray (inner : List Char)
  | emptyObject (inner : List Char)
  | object (members : List (MemberHead × Text))

mutual

/-- The characters of a text. -/
def Text.render : Text → List Char
  | .string items => stringText items
  | .boolean b => if b then ['t', 'r', 'u', 'e'] else ['f', 'a', 'l', 's', 'e']
  | .null => ['n', 'u', 'l', 'l']
  | .integer negative digits => (if negative then ['-'] else []) ++ digits
  | .emptyArray inner => '[' :: (inner ++ [']'])
  | .emptyObject inner => '{' :: (inner ++ ['}'])
  | .object members => '{' :: (Text.renderMembers members ++ ['}'])

/-- The characters of the members of an object, separated by commas. -/
def Text.renderMembers : List (MemberHead × Text) → List Char
  | [] => []
  | (h, t) :: members =>
      h.beforeKey ++ (stringText h.key ++ (h.afterKey ++ ':' :: (h.beforeValue ++
        (t.render ++ (h.afterValue ++ Text.renderRest members)))))

/-- The characters of the members after the first one, each after a comma. -/
def Text.renderRest : List (MemberHead × Text) → List Char
  | [] => []
  | (h, t) :: members =>
      ',' :: (h.beforeKey ++ (stringText h.key ++ (h.afterKey ++ ':' :: (h.beforeValue ++
        (t.render ++ (h.afterValue ++ Text.renderRest members))))))

end

mutual

/-- The value that a text stands for. -/
def Text.denote : Text → JsonValue
  | .string items => .string (stringDenote items)
  | .boolean b => .boolean b
  | .null => .null
  | .integer negative digits =>
      .number (Double.ofInt (if negative then -(digitsValue digits : Int) else (digitsValue digits : Int)))
  | .emptyArray _ => .array []
  | .emptyObject _ => .object []
  | .object members => .object (Text.denoteMembers members)

/-- The entries that the members of an object text stand for. -/
def Text.denoteMembers : List (MemberHead × Text) → JsonObject
  | [] => []
  | (h, t) :: members => (stringDenote h.key, t.denote) :: Text.denoteMembers members

end

/-- The white space of a member is white space, and its key is a well-formed
string of at most `maxLength` characters. -/
def MemberHead.WellFormed (maxLength : Nat) (h : MemberHead) : Prop :=
  IsWhitespace h.beforeKey ∧ IsWhitespace h.afterKey ∧ IsWhitespace h.beforeValue ∧
    IsWhitespace h.afterValue ∧ (∀ i ∈ h.key, i.WellFormed) ∧ h.key.length ≤ maxLength

mutual

/-- The text is well formed: strings are made of well-formed items and have at
most `maxLength` characters, integers are non-empty runs of digits of value at
most `2 ^ 53`, the inside of an empty container is white space, and the keys of
each object are pairwise distinct. -/
def Text.WellFormed (maxLength : Nat) : Text → Prop
  | .string items => (∀ i ∈ items, i.WellFormed) ∧ items.length ≤ maxLength
  | .boolean _ => True
  | .null => True
  | .integer _ digits =>
      digits ≠ [] ∧ (∀ c ∈ digits, isdigit c = true) ∧ digitsValue digits ≤ 2 ^ 53
  | .emptyArray inner => IsWhitespace inner
  | .emptyObject inner => IsWhitespace inner
  | .object members =>
      Text.MembersWellFormed maxLength members ∧
        ((Text.denoteMembers members).map Prod.fst).Nodup

/-- Every member of the list is well formed. -/
def Text.MembersWellFormed (maxLength : Nat) : List (MemberHead × Text) → Prop
  | [] => True
  | (h, t) :: members =>
      h.WellFormed maxLength ∧ t.WellFormed maxLength ∧ Text.MembersWellFormed maxLength members

end

/-- The character `c` may follow a value inside an object: white space, a
comma or a closing brace. -/
def FollowsValue (rest : List Char) : Prop :=
  ∃ c tail, rest = c :: tail ∧ (isspace c = true ∨ c = ',' ∨ c = '}')

/-- The text is an integer. -/
def Text.isInteger : Text → Bool
  | .integer _ _ => true
  | _ => false

/-- The text `rest` begins with a character that ends a number without
fraction and exponent: not a digit, a `.`, an `e` or an `E`. -/
def EndsNumber (rest : List Char) : Prop :=
  ∃ c tail, rest = c :: tail ∧ isdigit c = false ∧ c ≠ '.' ∧ c ≠ 'e' ∧ c ≠ 'E'

/-- With enough fuel, `ParseValue` run at `st`, where `txt ++ rest` is unread,
returns `v` and leaves `rest` unread. -/
def ReadsValue (cfg : JsonParserConfig) (st : ParserState) (pre txt rest : List Char)
    (v : JsonValue) : Prop :=
  ∃ st1, st1.Reads (pre ++ txt) rest ∧
    ∃ enough, ∀ fuel, enough ≤ fuel → ParseValue cfg fuel st = .ok (v, st1)

/-- With enough fuel, `ParseObjectLoop` run at `st` with the entries `obj`,
where `txt ++ rest` is unread, returns `result` and leaves `rest` unread. -/
def ReadsMembers (cfg : JsonParserConfig) (obj : JsonObject) (st : ParserState)
    (pre txt rest : List Char) (result : JsonObject) : Prop :=
  ∃ st1, st1.Reads (pre ++ txt) rest ∧
    ∃ enough, ∀ fuel, enough ≤ fuel → ParseObjectLoop cfg fuel obj st = .ok (result, st1)

/-- A member written without white space. -/
def MemberHead.compact (key : List StrItem) : MemberHead :=
  { beforeKey := [], key := key, afterKey := [], beforeValue := [], afterValue := [] }

/-- The items of a string written without escape sequences. -/
def plainItems (s : List Char) : List StrItem := s.map StrItem.plain

/-- The members of the text `{"user":{"name":"Alice","id":123}}`. -/
def Text.userMembers : List (MemberHead × Text) :=
  [(MemberHead.compact (plainItems ['u', 's', 'e', 'r']),
    Text.object
      [(MemberHead.compact (plainItems ['n', 'a', 'm', 'e']),
          Text.string (plainItems ['A', 'l', 'i', 'c', 'e'])),
        (MemberHead.compact (plainItems ['i', 'd']), Text.integer false ['1', '2', '3'])])]

/-! ## Values that the writer and the parser exchange exactly -/

/-- The compact writer configuration with `sort_keys = true`. -/
def JsonWriterConfig.CompactSorted : JsonWriterConfig :=
  { JsonWriterConfig.Compact with sort_keys := true }

/-- The value is a Number. -/
def JsonValue.isNumber : JsonValue → Bool
  | .number _ => true
  | _ => false

mutual

/-- The number of container levels above the deepest value of the tree. -/
def JsonValue.depth : JsonValue → Nat
  | .object members => JsonValue.depthMembers members
  | .array elements => JsonValue.depthElements elements
  | _ => 0

/-- One more than the depth of the deepest entry (zero without entries). -/
def JsonValue.depthMembers : JsonObject → Nat
  | [] => 0
  | (_, v) :: members => max (v.depth + 1) (JsonValue.depthMembers members)

/-- One more than the depth of the deepest element (zero without elements). -/
def JsonValue.depthElements : JsonArray → Nat
  | [] => 0
  | v :: elements => max (v.depth + 1) (JsonValue.depthElements elements)

end

mutual

/-- The trees considered for the round trip: every Number is an integer of
magnitude at most `2 ^ 53`, every Array is empty, every String and every key
has at most `maxLength` characters, and the keys of each Object are pairwise
distinct. -/
def JsonValue.Plain (maxLength : Nat) : JsonValue → Prop
  | .object members =>
      JsonValue.PlainMembers maxLength members ∧ (members.map Prod.fst).Nodup
  | .array elements => elements = []
  | .string s => s.length ≤ maxLength
  | .number d => ∃ z : Int, z.natAbs ≤ 2 ^ 53 ∧ d = Double.ofInt z
  | .boolean _ => True
  | .null => True

/-- Every entry has a key of at most `maxLength` characters and a plain value. -/
def JsonValue.PlainMembers (maxLength : Nat) : JsonObject → Prop
  | [] => True
  | (k, v) :: members =>
      k.length ≤ maxLength ∧ v.Plain maxLength ∧ JsonValue.PlainMembers maxLength members

end

/-- The item that `EscapeString` writes for the character `c` when
`escape_unicode` is off. -/
def escapeItem (c : Char) : StrItem :=
  if c = '"' then .escaped .quote
  else if c = '\\' then .escaped .backslash
  else if c = '\x08' then .escaped .backspace
  else if c = '\x0c' then .escaped .formFeed
  else if c = '\n' then .escaped .lineFeed
  else if c = '\r' then .escaped .carriageReturn
  else if c = '\t' then .escaped .tab
  else .plain c

/-- The writer, with the compact sorted configuration, prints `v` as the
characters of `t`, a well-formed text that stands for a value equal to `v`
(with either operand on the left). -/
def Written (maxLength : Nat) (v : JsonValue) (indent depth : Int) (t : Text) : Prop :=
  WriteValue JsonWriterConfig.CompactSorted v indent depth = .ok t.render ∧
    t.WellFormed maxLength ∧ (t.isInteger = true → v.isNumber = true) ∧
    t.denote.eq v = true ∧ t.denote.eqFlip v = true

/-- The text found for the key `k` in the table `texts`. -/
def lookupText (texts : List (List Char × Text)) (k : List Char) : Text :=
  (texts.lookup k).getD Text.null

/-- The members that `WriteObject` prints for the keys `keys`: no white space,
the key escaped, the value text taken from the table. -/
def membersOf (texts : List (List Char × Text)) (keys : List (List Char)) :
    List (MemberHead × Text) :=
  keys.map (fun k => (MemberHead.compact (k.map escapeItem), lookupText texts k))

/-! ## The length limit of strings -/

mutual

/-- No String value and no object key of the tree has more than `n`
characters. -/
def JsonValue.StringsWithin (n : Nat) : JsonValue → Prop
  | .object members => JsonValue.MembersWithin n members
  | .array elements => JsonValue.ElementsWithin n elements
  | .string s => s.length ≤ n
  | _ => True

/-- The key and the value of every entry are within the limit. -/
def JsonValue.MembersWithin (n : Nat) : JsonObject → Prop
  | [] => True
  | (k, v) :: members =>
      k.length ≤ n ∧ v.StringsWithin n ∧ JsonValue.MembersWithin n members

/-- Every element is within the limit. -/
def JsonValue.ElementsWithin (n : Nat) : JsonArray → Prop
  | [] => True
  | v :: elements => v.StringsWithin n ∧ JsonValue.ElementsWithin n elements

end

/-- The text of `n + 1` arrays nested in one another: `n + 1` opening brackets
followed by `n + 1` closing brackets. -/
def nestedArrays : Nat → List Char
  | 0 => ['[', ']']
  | n + 1 => '[' :: (nestedArrays n ++ [']'])

/-! ## Builder (`json_builder.h`, `json_builder.cpp`) -/

/-- The value that a `JsonValue*` of the builder points to. Such a pointer is
either `&result_` or the address of an array element reached from it, and is
written as the list of the array indices on the way (empty for `&result_`);
`none` stands for a pointer that refers to no value of the tree. -/
def JsonValue.follow : JsonValue → List Nat → Option JsonValue
  | v, [] => some v
  | .array elements, i :: path =>
      match elements[i]? with
      | some x => JsonValue.follow x path
      | none => none
  | _, _ :: _ => none

/-- The tree after the assignment `*pointer = w`. -/
def JsonValue.assign : JsonValue → List Nat → JsonValue → JsonValue
  | _, [], w => w
  | .array elements, i :: path, w =>
      match elements[i]? with
      | some x => .array (elements.set i (JsonValue.assign x path w))
      | none => .array elements
  | v, _ :: _, _ => v

/-- The exceptions of the builder (`JsonException` with the given text);
`danglingPointer` stands for the use of a pointer that refers to no value,
which the source does not check. -/
inductive BuilderException where
  | startObjectWithoutKey
  | endObjectWithoutStart
  | keyOutsideObject
  | startArrayWithoutKey
  | endArrayWithoutStart
  | unclosedStructures
  | danglingPointer
  deriving DecidableEq, Repr

/-- The members of the class `JsonBuilder`; the back of the vector `stack_` is
the head of the list. -/
structure JsonBuilder where
  result_ : JsonValue
  stack_ : List (List Nat)

namespace JsonBuilder

/-- The constructor `JsonBuilder::JsonBuilder()`. -/
def new : JsonBuilder := { result_ := .null, stack_ := [] }

/-- The method `JsonBuilder::StartObject`. -/
def StartObject (b : JsonBuilder) : Except BuilderException JsonBuilder :=
  match b.stack_ with
  | [] => .ok { result_ := .object [], stack_ := [[]] }
  | p :: _ =>
      match b.result_.follow p with
      | none => .error .danglingPointer
      | some (.array a) =>
          .ok { result_ := b.result_.assign p (.array (a ++ [.object []])),
                stack_ := (p ++ [a.length]) :: b.stack_ }
      | some (.object _) => .error .startObjectWithoutKey
      | some _ => .ok { b with result_ := b.result_.assign p (.object []) }

/-- The method `JsonBuilder::EndObject`. -/
def EndObject (b : JsonBuilder) : Except BuilderException JsonBuilder :=
  match b.stack_ with
  | [] => .error .endObjectWithoutStart
  | p :: rest =>
      match b.result_.follow p with
      | none => .error .danglingPointer
      | some (.object _) => .ok { b with stack_ := rest }
      | some _ => .error .endObjectWithoutStart

/-- The method `JsonBuilder::Key`: the key is inserted with a null value. -/
def Key (b : JsonBuilder) (key : List Char) : Except BuilderException JsonBuilder :=
  match b.stack_ with
  | [] => .error .keyOutsideObject
  | p :: _ =>
      match b.result_.follow p with
      | none => .error .danglingPointer
      | some (.object obj) =>
          .ok { b with result_ := b.result_.assign p (.object (JsonObject.Insert obj key .null)) }
      | some _ => .error .keyOutsideObject

/-- The method `JsonBuilder::PushValue`. -/
def PushValue (b : JsonBuilder) (value : JsonValue) : Except BuilderException JsonBuilder :=
  match b.stack_ with
  | [] => .ok { result_ := value, stack_ := [[]] }
  | p :: _ =>
      match b.result_.follow p with
      | none => .error .danglingPointer
      | some (.array a) => .ok { b with result_ := b.result_.assign p (.array (a ++ [value])) }
      | some _ => .ok { b with result_ := b.result_.assign p value }

/-- The methods `JsonBuilder::Value`, which all call `PushValue`. -/
def Value (b : JsonBuilder) (value : JsonValue) : Except BuilderException JsonBuilder :=
  b.PushValue value

/-- The method `JsonBuilder::StartArray`. -/
def StartArray (b : JsonBuilder) : Except BuilderException JsonBuilder :=
  match b.stack_ with
  | [] => .ok { result_ := .array [], stack_ := [[]] }
  | p :: _ =>
      match b.result_.follow p with
      | none => .error .danglingPointer
      | some (.array a) =>
          .ok { result_ := b.result_.assign p (.array (a ++ [.array []])),
                stack_ := (p ++ [a.length]) :: b.stack_ }
      | some (.object _) => .error .startArrayWithoutKey
      | some _ => .ok { b with result_ := b.result_.assign p (.array []) }

/-- The method `JsonBuilder::EndArray`. -/
def EndArray (b : JsonBuilder) : Except BuilderException JsonBuilder :=
  match b.stack_ with
  | [] => .error .endArrayWithoutStart
  | p :: rest =>
      match b.result_.follow p with
      | none => .error .danglingPointer
      | some (.array _) => .ok { b with stack_ := rest }
      | some _ => .error .endArrayWithoutStart

/-- The methods `JsonBuilder::AddValue`, which all call `PushValue`. -/
def AddValue (b : JsonBuilder) (value : JsonValue) : Except BuilderException JsonBuilder :=
  b.PushValue value

/-- The method `JsonBuilder::Build`. -/
def Build (b : JsonBuilder) : Except BuilderException JsonValue :=
  match b.stack_ with
  | [] => .ok b.result_
  | _ :: _ => .error .unclosedStructures

end JsonBuilder

/-! ## Path access (`json_utils.cpp`) -/

/-- The exceptions that leave `JsonUtils::GetByPath`: the `JsonKeyException`
of `JsonObject::At`, and `std::invalid_argument` and `std::out_of_range` of
`std::stoul`. -/
inductive PathException where
  | keyNotFound (key : List Char)
  | invalidArgument
  | outOfRange
  deriving DecidableEq, Repr

/-- The segments that the loop `while (std::getline(iss, segment, '.'))`
reads from the rest of the path, `current` being the part of the segment read
so far: a segment ends at a `.` or at the end of the path, and the loop stops
at the end of the path when nothing was read. -/
def getlineSegments : List Char → List Char → List (List Char)
  | [], current => if current = [] then [] else [current]
  | c :: rest, current =>
      if c = '.' then current :: getlineSegments rest []
      else getlineSegments rest (current ++ [c])

/-- The call `segment.find('[')`: `none` is `std::string::npos`. -/
def findBracket : List Char → Option Nat
  | [] => none
  | c :: rest => if c = '[' then some 0 else (findBracket rest).map (· + 1)

/-- The call `std::stoul(s)`: white space is skipped, a sign is accepted, the
digits that follow are converted; without a digit `std::invalid_argument` is
thrown, beyond `2 ^ 64 - 1` `std::out_of_range`, and a leading `-` negates
the value modulo `2 ^ 64`. -/
def stoul (s : List Char) : Except PathException Nat :=
  let s1 := s.dropWhile isspace
  let negative := decide (s1.head? = some '-')
  let s2 := if s1.head? = some '-' ∨ s1.head? = some '+' then s1.tail else s1
  let digits := s2.takeWhile isdigit
  if digits = [] then .error .invalidArgument
  else if digitsValue digits ≥ 2 ^ 64 then .error .outOfRange
  else .ok (if negative then (2 ^ 64 - digitsValue digits) % 2 ^ 64 else digitsValue digits)

/-- The body of the loop of `GetByPath` for a segment with a `[` at offset
`pos`: `none` is the `return nullptr`. The call `index_str.pop_back()` on an
empty string is undefined and is taken to leave it empty. -/
def GetByPathIndexed (current : JsonValue) (segment : List Char) (pos : Nat) :
    Except PathException (Option JsonValue) :=
  let key := segment.take pos
  let afterKey : Except PathException (Option JsonValue) :=
    if key ≠ [] then
      match current with
      | .object obj =>
          match JsonObject.At obj key with
          | some v => .ok (some v)
          | none => .error (.keyNotFound key)
      | _ => .ok none
    else .ok (some current)
  match afterKey with
  | .error e => .error e
  | .ok none => .ok none
  | .ok (some current1) =>
      match stoul (segment.drop (pos + 1)).dropLast with
      | .error e => .error e
      | .ok index =>
          match current1 with
          | .array arr =>
              match arr[index]? with
              | some v => .ok (some v)
              | none => .ok none
          | _ => .ok none

/-- The loop of `GetByPath` over the segments. -/
def GetByPathLoop : List (List Char) → JsonValue → Except PathException (Option JsonValue)
  | [], current => .ok (some current)
  | segment :: rest, current =>
      match findBracket segment with
      | some pos =>
          match GetByPathIndexed current segment pos with
          | .error e => .error e
          | .ok none => .ok none
          | .ok (some next) => GetByPathLoop rest next
      | none =>
          match current with
          | .object obj =>
              if JsonObject.Contains obj segment then
                match JsonObject.At obj segment with
                | some v => GetByPathLoop rest v
                | none => .error (.keyNotFound segment)
              else .ok none
          | _ => .ok none

/-- The function `JsonUtils::GetByPath`: `none` is the null pointer. -/
def GetByPath (root : JsonValue) (path : List Char) : Except PathException (Option JsonValue) :=
  GetByPathLoop (getlineSegments path []) root

/-- The function `JsonUtils::HasPath`. -/
def HasPath (root : JsonValue) (path : List Char) : Except PathException Bool :=
  (GetByPath root path).map (fun r => r.isSome)

/-! ## Typed accessors (`json_value.h`, `json_value.cpp`) -/

/-- The enumeration `JsonValueType`. -/
inductive JsonValueType where
  | kObject
  | kArray
  | kString
  | kNumber
  | kBoolean
  | kNull
  deriving DecidableEq, Repr

/-- The exceptions that leave a typed accessor:
`JsonTypeException("Expected different type, got: " + type_name)` of
`ValidateType`, and `std::bad_variant_access` of `std::get`. -/
inductive AccessException where
  | jsonTypeException (type_name : List Char)
  | badVariantAccess
  deriving DecidableEq, Repr

namespace JsonValue

/-- The method `JsonValue::GetType`: the member `type_`. -/
def GetType : JsonValue → JsonValueType
  | .object _ => .kObject
  | .array _ => .kArray
  | .string _ => .kString
  | .number _ => .kNumber
  | .boolean _ => .kBoolean
  | .null => .kNull

/-- The method `JsonValue::ValidateType`. -/
def ValidateType (v : JsonValue) (expected : JsonValueType) : Except AccessException Unit :=
  if v.GetType ≠ expected then
    let type_name : List Char :=
      match v.GetType with
      | .kObject => "object".toList
      | .kArray => "array".toList
      | .kString => "string".toList
      | .kNumber => "number".toList
      | .kBoolean => "boolean".toList
      | .kNull => "null".toList
    .error (.jsonTypeException type_name)
  else .ok ()

/-- The method `JsonValue::AsObject` (both overloads: neither writes to a
member of the value). -/
def AsObject (v : JsonValue) : Except AccessException JsonObject := do
  v.ValidateType .kObject
  match v with
  | .object values => pure values
  | _ => throw .badVariantAccess

/-- The method `JsonValue::AsArray`. -/
def AsArray (v : JsonValue) : Except AccessException JsonArray := do
  v.ValidateType .kArray
  match v with
  | .array values => pure values
  | _ => throw .badVariantAccess

/-- The method `JsonValue::AsString`. -/
def AsString (v : JsonValue) : Except AccessException (List Char) := do
  v.ValidateType .kString
  match v with
  | .string str => pure str
  | _ => throw .badVariantAccess

/-- The method `JsonValue::AsNumber`. -/
def AsNumber (v : JsonValue) : Except AccessException Double := do
  v.ValidateType .kNumber
  match v with
  | .number num => pure num
  | _ => throw .badVariantAccess

/-- The method `JsonValue::AsBoolean`. -/
def AsBoolean (v : JsonValue) : Except AccessException Bool := do
  v.ValidateType .kBoolean
  match v with
  | .boolean b => pure b
  | _ => throw .badVariantAccess

end JsonValue

/-! ## Object and array members (`json_object.cpp`, `json_array.cpp`) -/

namespace JsonObject

/-- The non-const `JsonObject::operator[]`, which is `values_[key]`: the
mapped value of the key, which is first inserted with a default-constructed
`JsonValue` (the null value) when it is absent; the result is the value of
the slot together with the object afterwards. -/
def index (obj : JsonObject) (key : List Char) : JsonValue × JsonObject :=
  match find obj key with
  | some v => (v, obj)
  | none => (JsonValue.null, obj ++ [(key, JsonValue.null)])

/-- The object after the calls `Insert(key, value)` for the pairs of `pairs`,
in this order. -/
def InsertAll (obj : JsonObject) (pairs : List (List Char × JsonValue)) : JsonObject :=
  pairs.foldl (fun o p => Insert o p.1 p.2) obj

/-- The value of the last pair of `pairs` with the key `key`. -/
def lastInserted (pairs : List (List Char × JsonValue)) (key : List Char) : Option JsonValue :=
  (pairs.reverse.find? (fun p => decide (p.1 = key))).map Prod.snd

end JsonObject

/-- The exceptions of `JsonArray`, each a `JsonException` with a text:
`"Array index out of bounds: " + std::to_string(index)`, `"Array is empty"`
and `"Cannot pop from empty array"`. -/
inductive JsonException where
  | indexOutOfBounds (index : Nat)
  | arrayIsEmpty
  | cannotPop
  deriving DecidableEq, Repr

namespace JsonArray

/-- The method `JsonArray::Size`. -/
def Size (arr : JsonArray) : Nat := arr.length

/-- The operator `JsonArray::operator[]` (both overloads). -/
def index (arr : JsonArray) (index : Nat) : Except JsonException JsonValue :=
  if h : index ≥ arr.length then .error (.indexOutOfBounds index)
  else .ok (arr.get ⟨index, Nat.lt_of_not_ge h⟩)

/-- The method `JsonArray::At` (both overloads). -/
def At (arr : JsonArray) (index : Nat) : Except JsonException JsonValue :=
  if h : index ≥ arr.length then .error (.indexOutOfBounds index)
  else .ok (arr.get ⟨index, Nat.lt_of_not_ge h⟩)

/-- The method `JsonArray::PushBack`. -/
def PushBack (arr : JsonArray) (value : JsonValue) : JsonArray := arr ++ [value]

/-- The method `JsonArray::Insert`:
`values_.insert(values_.begin() + index, value)`. -/
def Insert (arr : JsonArray) (index : Nat) (value : JsonValue) : Except JsonException JsonArray :=
  if index > arr.length then .error (.indexOutOfBounds index)
  else .ok (arr.take index ++ value :: arr.drop index)

/-- The method `JsonArray::Erase`: `values_.erase(values_.begin() + index)`. -/
def Erase (arr : JsonArray) (index : Nat) : Except JsonException JsonArray :=
  if index ≥ arr.length then .error (.indexOutOfBounds index)
  else .ok (arr.take index ++ arr.drop (index + 1))

end JsonArray

/-! ## Deep copy (`JsonUtils::DeepCopy`) on value trees -/

mutual

/-- The function `JsonUtils::DeepCopy`, as it acts on the tree of a value. -/
def DeepCopy : JsonValue → JsonValue
  | .object obj => .object (DeepCopyMembers obj [])
  | .array arr => .array (DeepCopyElements arr [])
  | .string str => .string str
  | .number num => .number num
  | .boolean b => .boolean b
  | .null => .null

/-- The loop `new_obj.Insert(it->first, DeepCopy(it->second))` over the
entries that are left, `new_obj` being the object built so far. -/
def DeepCopyMembers : JsonObject → JsonObject → JsonObject
  | [], new_obj => new_obj
  | (k, v) :: rest, new_obj => DeepCopyMembers rest (JsonObject.Insert new_obj k (DeepCopy v))

/-- The loop `new_arr.PushBack(DeepCopy(value.AsArray()[i]))` over the
elements that are left, `new_arr` being the array built so far. -/
def DeepCopyElements : JsonArray → JsonArray → JsonArray
  | [], new_arr => new_arr
  | v :: rest, new_arr => DeepCopyElements rest (JsonArray.PushBack new_arr (DeepCopy v))

end

mutual

/-- Every Number of the tree is finite (neither a NaN nor an infinity) and,
as in every `std::unordered_map`, the keys of each Object are pairwise
distinct. -/
def JsonValue.Regular : JsonValue → Prop
  | .object members => JsonValue.RegularMembers members ∧ (members.map Prod.fst).Nodup
  | .array elements => JsonValue.RegularElements elements
  | .number (.fin _ _) => True
  | .number _ => False
  | _ => True

/-- The value of every entry is regular. -/
def JsonValue.RegularMembers : JsonObject → Prop
  | [] => True
  | (_, v) :: members => v.Regular ∧ JsonValue.RegularMembers members

/-- Every element is regular. -/
def JsonValue.RegularElements : JsonArray → Prop
  | [] => True
  | v :: elements => v.Regular ∧ JsonValue.RegularElements elements

end

mutual

/-- The two trees hold the same data whatever the iteration order of their
objects: two Objects have pairwise distinct keys, the same number of entries,
and each key of the first is a key of the second with such a value; two
Arrays have such elements at each position; other values are the same. -/
def JsonValue.SameMapping : JsonValue → JsonValue → Prop
  | .object a, .object b =>
      (a.map Prod.fst).Nodup ∧ (b.map Prod.fst).Nodup ∧ a.length = b.length ∧
        JsonValue.SameMembers a b
  | .array a, .array b => JsonValue.SameElements a b
  | .string s, .string t => s = t
  | .number x, .number y => x = y
  | .boolean x, .boolean y => x = y
  | .null, .null => True
  | _, _ => False

/-- Each key of the entries on the left is a key of `other`, the two values
holding the same data. -/
def JsonValue.SameMembers : JsonObject → JsonObject → Prop
  | [], _ => True
  | (k, v) :: rest, other =>
      (match JsonObject.find other k with
        | some w => JsonValue.SameMapping v w
        | none => False) ∧ JsonValue.SameMembers rest other

/-- The two arrays have the same length and hold the same data at each
position. -/
def JsonValue.SameElements : JsonArray → JsonArray → Prop
  | [], [] => True
  | v :: rest, w :: others => JsonValue.SameMapping v w ∧ JsonValue.SameElements rest others
  | _, _ => False

end

/-! ## Shared containers (the `std::shared_ptr` payloads of `JsonValue`) -/

/-- The class `JsonValue` as it lies in memory: the member `type_` with the
active payload of `value_`, where the payload of an Object or of an Array is
a `std::shared_ptr`, written as the address of the container it points to. -/
inductive SharedValue where
  | object (pointer : Nat)
  | array (pointer : Nat)
  | string (str : List Char)
  | number (num : Double)
  | boolean (b : Bool)
  | null
  deriving DecidableEq, Repr

/-- The member `values_` of a `JsonObject` in memory. -/
abbrev SharedObject := List (List Char × SharedValue)

/-- The member `values_` of a `JsonArray` in memory. -/
abbrev SharedArray := List SharedValue

/-- A container that `std::make_shared` has created. -/
inductive Container where
  | object (values_ : SharedObject)
  | array (values_ : SharedArray)
  deriving DecidableEq, Repr

/-- The free store: the containers created so far, the address of a container
being its position; `std::make_shared` adds one at the end. -/
abbrev Store := List Container

namespace SharedValue

/-- The copy constructor and the copy assignment of `JsonValue`:
`type_(other.type_), value_(other.value_)`. Copying a `std::shared_ptr`
copies the address, not the container. -/
def copy (other : SharedValue) : SharedValue :=
  match other with
  | .object pointer => .object pointer
  | .array pointer => .array pointer
  | .string str => .string str
  | .number num => .number num
  | .boolean b => .boolean b
  | .null => .null

end SharedValue

namespace SharedObject

/-- The member call `values_.find(key)` of an object in memory. -/
def find : SharedObject → List Char → Option SharedValue
  | [], _ => none
  | (k, v) :: rest, key => if k = key then some v else find rest key

/-- The method `JsonObject::Insert` of an object in memory:
`values_[key] = value`. -/
def Insert : SharedObject → List Char → SharedValue → SharedObject
  | [], key, value => [(key, value)]
  | (k, v) :: rest, key, value =>
      if k = key then (k, value) :: rest else (k, v) :: Insert rest key value

end SharedObject

namespace Store

/-- The loop `new_obj.Insert(it->first, DeepCopy(it->second))` of
`JsonUtils::DeepCopy` over the entries that are left, `copy` being the
recursive call and `new_obj` the object built so far. -/
def DeepCopyMembers (copy : Store → SharedValue → Option (SharedValue × Store)) :
    SharedObject → Store → SharedObject → Option (SharedObject × Store)
  | [], store, new_obj => some (new_obj, store)
  | (k, v) :: rest, store, new_obj =>
      match copy store v with
      | some (c, store1) => DeepCopyMembers copy rest store1 (SharedObject.Insert new_obj k c)
      | none => none

/-- The loop `new_arr.PushBack(DeepCopy(value.AsArray()[i]))` of
`JsonUtils::DeepCopy` over the elements that are left. -/
def DeepCopyElements (copy : Store → SharedValue → Option (SharedValue × Store)) :
    SharedArray → Store → SharedArray → Option (SharedArray × Store)
  | [], store, new_arr => some (new_arr, store)
  | v :: rest, store, new_arr =>
      match copy store v with
      | some (c, store1) => DeepCopyElements copy rest store1 (new_arr ++ [c])
      | none => none

/-- The function `JsonUtils::DeepCopy` on values in memory: the copy and the
store afterwards. `JsonValue(new_obj)` and `JsonValue(new_arr)` call
`std::make_shared`, which creates a container. The result is `none` when the
recursion is deeper than `fuel`, or when a pointer does not refer to a
container of its type (which no `std::shared_ptr` of the program does). -/
def DeepCopy : Nat → Store → SharedValue → Option (SharedValue × Store)
  | 0, _, _ => none
  | fuel + 1, store, .object pointer =>
      match store[pointer]? with
      | some (.object obj) =>
          match DeepCopyMembers (DeepCopy fuel) obj store [] with
          | some (new_obj, store1) => some (.object store1.length, store1 ++ [.object new_obj])
          | none => none
      | _ => none
  | fuel + 1, store, .array pointer =>
      match store[pointer]? with
      | some (.array arr) =>
          match DeepCopyElements (DeepCopy fuel) arr store [] with
          | some (new_arr, store1) => some (.array store1.length, store1 ++ [.array new_arr])
          | none => none
      | _ => none
  | _ + 1, store, .string str => some (.string str, store)
  | _ + 1, store, .number num => some (.number num, store)
  | _ + 1, store, .boolean b => some (.boolean b, store)
  | _ + 1, store, .null => some (.null, store)

mutual

/-- The value in memory `s` is the root of the tree `v`, every container of
which lies at an address of `region`. -/
def Represents (store : Store) (region : Nat → Prop) : JsonValue → SharedValue → Prop
  | .object members, s =>
      ∃ pointer obj, s = .object pointer ∧ region pointer ∧
        store[pointer]? = some (.object obj) ∧ RepresentsMembers store region members obj
  | .array elements, s =>
      ∃ pointer arr, s = .array pointer ∧ region pointer ∧
        store[pointer]? = some (.array arr) ∧ RepresentsElements store region elements arr
  | .string str, s => s = .string str
  | .number num, s => s = .number num
  | .boolean b, s => s = .boolean b
  | .null, s => s = .null

/-- The entries in memory are, in this order, the roots of the entries of
the tree. -/
def RepresentsMembers (store : Store) (region : Nat → Prop) : JsonObject → SharedObject → Prop
  | [], obj => obj = []
  | (k, v) :: members, obj =>
      ∃ s rest, obj = (k, s) :: rest ∧ Represents store region v s ∧
        RepresentsMembers store region members rest

/-- The elements in memory are, in this order, the roots of the elements of
the tree. -/
def RepresentsElements (store : Store) (region : Nat → Prop) : JsonArray → SharedArray → Prop
  | [], arr => arr = []
  | v :: elements, arr =>
      ∃ s rest, arr = s :: rest ∧ Represents store region v s ∧
        RepresentsElements store region elements rest

end

/-- The container at `address` is reachable from the value: the value points
to it, or to a container with an entry from which it is reachable. -/
inductive Reaches (store : Store) : SharedValue → Nat → Prop where
  | object (pointer : Nat) : Reaches store (.object pointer) pointer
  | array (pointer : Nat) : Reaches store (.array pointer) pointer
  | member (pointer : Nat) (obj : SharedObject) (k : List Char) (s : SharedValue)
      (address : Nat) : store[pointer]? = some (.object obj) → (k, s) ∈ obj →
      Reaches store s address → Reaches store (.object pointer) address
  | element (pointer : Nat) (arr : SharedArray) (s : SharedValue) (address : Nat) :
      store[pointer]? = some (.array arr) → s ∈ arr → Reaches store s address →
      Reaches store (.array pointer) address

end Store

/-- One step of an access path: `.AsObject().At(key)` or
`.AsArray().At(index)`. -/
inductive Selector where
  | key (key : List Char)
  | index (index : Nat)
  deriving DecidableEq, Repr

namespace Store

/-- The value in memory that one step of an access path leads to (`none`
when the accessor or `At` throws). -/
def select (store : Store) (value : SharedValue) : Selector → Option SharedValue
  | .key k =>
      match value with
      | .object pointer =>
          match store[pointer]? with
          | some (.object obj) => SharedObject.find obj k
          | _ => none
      | _ => none
  | .index i =>
      match value with
      | .array pointer =>
          match store[pointer]? with
          | some (.array arr) => arr[i]?
          | _ => none
      | _ => none

/-- The value in memory that an access path leads to. -/
def resolve (store : Store) : SharedValue → List Selector → Option SharedValue
  | value, [] => some value
  | value, step :: path =>
      match select store value step with
      | some next => resolve store next path
      | none => none

/-- The store after a mutation made through `value`: with `target` the value
that `path` leads to, the assignment `target.AsObject()[key] = w` (or the call
`target.AsObject().Insert(key, w)`), respectively
`target.AsArray()[index] = w`. The container that `target` points to is
written; `none` when an accessor or the index operator throws. -/
def assign (store : Store) (value : SharedValue) (path : List Selector) (last : Selector)
    (w : SharedValue) : Option Store :=
  match resolve store value path with
  | some (.object pointer) =>
      match last, store[pointer]? with
      | .key k, some (.object obj) =>
          some (store.set pointer (.object (SharedObject.Insert obj k w)))
      | _, _ => none
  | some (.array pointer) =>
      match last, store[pointer]? with
      | .index i, some (.array arr) =>
          if i < arr.length then some (store.set pointer (.array (arr.set i w))) else none
      | _, _ => none
  | _ => none

end Store

/-- The store with the two containers of `Object{"k": Object{"x": 1}}`: the
inner object at the address 0, the outer one at the address 1. -/
def Store.sample : Store :=
  [.object [(['x'], .number (Double.ofInt 1))], .object [(['k'], .object 0)]]

/-- The tree of `Object{"k": Object{"x": 1}}`. -/
def Store.sampleTree : JsonValue :=
  .object [(['k'], .object [(['x'], .number (Double.ofInt 1))])]

mutual

/-- As in every `std::unordered_map`, the keys of each Object of the tree are
pairwise distinct. -/
def JsonValue.DistinctKeys : JsonValue → Prop
  | .object members => JsonValue.DistinctKeysMembers members ∧ (members.map Prod.fst).Nodup
  | .array elements => JsonValue.DistinctKeysElements elements
  | _ => True

/-- The value of every entry has distinct keys. -/
def JsonValue.DistinctKeysMembers : JsonObject → Prop
  | [] => True
  | (_, v) :: members => v.DistinctKeys ∧ JsonValue.DistinctKeysMembers members

/-- Every element has distinct keys. -/
def JsonValue.DistinctKeysElements : JsonArray → Prop
  | [] => True
  | v :: elements => v.DistinctKeys ∧ JsonValue.DistinctKeysElements elements

end

/-- The operator `JsonValue::operator!=`: `return !(*this == other)`. -/
def JsonValue.ne (a b : JsonValue) : Bool := !(JsonValue.eq a b)

/-! ## Default serialization (`JsonValue::ToString`, `JsonObject::ToString`,
`JsonArray::ToString`) -/

/-- The chain of tests on one character of a String in `JsonValue::ToString`:
the quote, the backslash, the line feed, the carriage return and the tab are
escaped, every other character is copied. -/
def JsonValue.ToStringChar (c : Char) : List Char :=
  if c = '"' then ['\\', '"']
  else if c = '\\' then ['\\', '\\']
  else if c = '\n' then ['\\', 'n']
  else if c = '\r' then ['\\', 'r']
  else if c = '\t' then ['\\', 't']
  else [c]

/-- The loop of `JsonValue::ToString` over the characters of a String. -/
def JsonValue.ToStringChars : List Char → List Char
  | [] => []
  | c :: rest => JsonValue.ToStringChar c ++ JsonValue.ToStringChars rest

/-- The case `kNumber` of `JsonValue::ToString`. The test
`num == static_cast<long long>(num)` is read as in `WriteNumber`; it fails
for NaN and for the infinities, which `operator<<` prints as `nan`, `inf` and
`-inf`. -/
def JsonValue.ToStringNumber (num : Double) : List Char :=
  match num with
  | .nan => "nan".toList
  | .inf neg => if neg then "-inf".toList else "inf".toList
  | .fin m e =>
      if 0 ≤ e ∧ -9223372036854775808 ≤ m * 2 ^ e.toNat ∧ m * 2 ^ e.toNat < 9223372036854775808 then
        decimalInt (m * 2 ^ e.toNat)
      else fixed6 m e

mutual

/-- The method `JsonValue::ToString(int indent)`, with `JsonObject::ToString`
and `JsonArray::ToString` for the containers (`std::string(n, ' ')` is
`n` spaces). -/
def JsonValue.ToString : JsonValue → Int → List Char
  | .object members, indent =>
      if members.isEmpty then ['{', '}']
      else ['{', '\n'] ++ JsonValue.ToStringMembers members indent true ++
        ('\n' :: List.replicate indent.toNat ' ' ++ ['}'])
  | .array elements, indent =>
      if elements.isEmpty then ['[', ']']
      else ['[', '\n'] ++ JsonValue.ToStringElements elements indent true ++
        ('\n' :: List.replicate indent.toNat ' ' ++ [']'])
  | .string str, _ => '"' :: JsonValue.ToStringChars str ++ ['"']
  | .number num, _ => JsonValue.ToStringNumber num
  | .boolean b, _ => if b then "true".toList else "false".toList
  | .null, _ => "null".toList

/-- The `for` loop of `JsonObject::ToString`: the key `pair.first` is appended
between two quotes as it is. -/
def JsonValue.ToStringMembers : JsonObject → Int → Bool → List Char
  | [], _, _ => []
  | (key, value) :: rest, indent, first =>
      (if first then [] else [',', '\n']) ++
        (List.replicate (indent + 2).toNat ' ' ++ ['"'] ++ key ++ ['"', ':', ' '] ++
          JsonValue.ToString value (indent + 2)) ++
        JsonValue.ToStringMembers rest indent false

/-- The `for` loop of `JsonArray::ToString`. -/
def JsonValue.ToStringElements : JsonArray → Int → Bool → List Char
  | [], _, _ => []
  | value :: rest, indent, first =>
      (if first then [] else [',', '\n']) ++
        (List.replicate (indent + 2).toNat ' ' ++ JsonValue.ToString value (indent + 2)) ++
        JsonValue.ToStringElements rest indent false

end

/-! ## Number texts that `ParseNumber` reads without a digit where JSON
requires one -/

/-- The literals that `ParseNumber` is called on and reads to their end: a `-`
or a digit comes first, the parts are made of digits and the exponent letter
is `e` or `E`; the integer digits after a `-`, the digits of the fraction and
the digits of the exponent may all be missing. -/
def NumberLiteral.Loose (n : NumberLiteral) : Prop :=
  (n.negative = true ∨ n.integer ≠ []) ∧ (∀ c ∈ n.integer, isdigit c = true) ∧
    (∀ fs, n.fraction = some fs → ∀ c ∈ fs, isdigit c = true) ∧
    (∀ x, n.exponent = some x →
      (x.marker = 'e' ∨ x.marker = 'E') ∧ ∀ c ∈ x.digits, isdigit c = true)

/-- The character `c` cannot continue the loose literal `n`: it cannot
continue it as a well-formed one, and it is not a sign when the exponent of
`n` has neither a sign nor digits. -/
def NumberLiteral.StopsBefore (n : NumberLiteral) (c : Char) : Prop :=
  n.EndsBefore c ∧
    (∀ x, n.exponent = some x → x.sign = none → x.digits = [] → c ≠ '-' ∧ c ≠ '+')

/-- The function `JsonUtils::IsValidJson`: `true` when `JsonParser::Parse`
returns, `false` when it throws. -/
def IsValidJson (json : List Char) : Bool :=
  match Parse json JsonParserConfig.Strict with
  | .ok _ => true
  | .error _ => false

/-- The state `st1` is reached from `st` by consuming at least one character:
same input, cursor moved forward and still valid. -/
def ParserState.Advances (st st1 : ParserState) : Prop :=
  st1.input_ = st.input_ ∧ st.position_ < st1.position_ ∧ st1.Valid

/-! ## The true line and column of an offset -/

/-- The 1-based line of the offset `offset` of `input`: one more than the
number of line feeds in `input[0..offset)`. -/
def lineOf (input : List Char) (offset : Nat) : Nat :=
  1 + (input.take offset).count '\n'

/-- The 1-based column of the offset `offset` of `input`: one more than the
number of characters of `input[0..offset)` after its last line feed (or since
the start). -/
def columnOf (input : List Char) (offset : Nat) : Nat :=
  1 + ((input.take offset).reverse.takeWhile (fun c => decide (c ≠ '\n'))).length

/-- The counters of `st` are those of its cursor, which is inside the input
or at its end. -/
def ParserState.Tracked (st : ParserState) : Prop :=
  st.position_ ≤ st.input_.length ∧ st.line_ = lineOf st.input_ st.position_ ∧
    st.column_ = columnOf st.input_ st.position_

/-- An exception raised through `ThrowParseError` (`located`) reports the
true line and column of its offset in `input`. -/
def Failure.Truthful (input : List Char) : Failure → Prop
  | .exception (.located _ line column position) =>
      position ≤ input.length ∧ line = lineOf input position ∧
        column = columnOf input position
  | .exception (.plain _) => True
  | .outOfFuel => True

/-- The outcome `r` of a step of a parse of `input` keeps the counters: the
state after it (`state x` for the result `x`) is tracked, and an exception
raised through `ThrowParseError` is truthful. -/
def Tracks (input : List Char) {α : Type} (state : α → ParserState)
    (r : Except Failure α) : Prop :=
  match r with
  | .ok x => (state x).Tracked ∧ (state x).input_ = input
  | .error f => f.Truthful input

/-! ## The pretty layout, as the specification words it -/

/-- The text `content` on its own line, preceded by exactly `spaces` spaces. -/
def ownLine (spaces : Nat) (content : List Char) : List Char :=
  '\n' :: (List.replicate spaces ' ' ++ content)

/-- The texts `items`, separated by commas. -/
def commaSeparated : List (List Char) → List Char
  | [] => []
  | [item] => item
  | item :: next :: items => item ++ ',' :: commaSeparated (next :: items)

/-- The texts `items`, each preceded by a comma. -/
def commaPrefixed : List (List Char) → List Char
  | [] => []
  | item :: items => ',' :: (item ++ commaPrefixed items)

mutual

/-- The layout of the specification for a value nested inside `d` containers,
with `k` spaces for each level. An empty container is `{}` or `[]`. Each
member of a non-empty container is on its own line after `(d + 1) * k` spaces
(the members are separated by commas, a member of an object being the quoted
key, `: ` and the value) and the closing bracket is on its own line after
`d * k` spaces. Strings, numbers and literals are written as in compact
mode. -/
def JsonValue.prettyLayout (cfg : JsonWriterConfig) (k : Nat) : JsonValue → Nat → List Char
  | .object members, d =>
      if members.isEmpty then ['{', '}']
      else '{' :: (commaSeparated
        ((if cfg.sort_keys then sortKeys (JsonObject.GetKeys members)
            else JsonObject.GetKeys members).map (fun key =>
          ownLine ((d + 1) * k) (WriteString cfg key ++ ':' :: ' ' ::
            ((JsonValue.prettyLayoutMembers cfg k members (d + 1)).lookup key).getD []))) ++
          ownLine (d * k) ['}'])
  | .array elements, d =>
      if elements.isEmpty then ['[', ']']
      else '[' :: (commaSeparated
        ((JsonValue.prettyLayoutElements cfg k elements (d + 1)).map
          (ownLine ((d + 1) * k))) ++ ownLine (d * k) [']'])
  | .string str, _ => WriteString cfg str
  | .number num, _ => WriteNumber num
  | .boolean b, _ => if b then "true".toList else "false".toList
  | .null, _ => "null".toList

/-- The layout of the value of each entry of an object, by key. -/
def JsonValue.prettyLayoutMembers (cfg : JsonWriterConfig) (k : Nat) :
    JsonObject → Nat → List (List Char × List Char)
  | [], _ => []
  | (key, v) :: rest, d =>
      (key, JsonValue.prettyLayout cfg k v d) :: JsonValue.prettyLayoutMembers cfg k rest d

/-- The layout of each element of an array. -/
def JsonValue.prettyLayoutElements (cfg : JsonWriterConfig) (k : Nat) :
    JsonArray → Nat → List (List Char)
  | [], _ => []
  | v :: rest, d =>
      JsonValue.prettyLayout cfg k v d :: JsonValue.prettyLayoutElements cfg k rest d

end

/-- The writer, with the configuration `cfg`, prints `v` as the characters of
`t`, a well-formed text that stands for a value equal to `v` (with either
operand on the left). -/
def WrittenBy (cfg : JsonWriterConfig) (maxLength : Nat) (v : JsonValue) (indent depth : Int)
    (t : Text) : Prop :=
  WriteValue cfg v indent depth = .ok t.render ∧
    t.WellFormed maxLength ∧ (t.isInteger = true → v.isNumber = true) ∧
    t.denote.eq v = true ∧ t.denote.eqFlip v = true

/-- The keys that `WriteObject` visits, in its order. -/
def writtenKeys (cfg : JsonWriterConfig) (obj : JsonObject) : List (List Char) :=
  if cfg.sort_keys then sortKeys obj.GetKeys else obj.GetKeys

/-! ## The text of an object, member by member -/

/-- The text that `WriteObject` emits for the member of the key `key` of
`obj`, written at the indent `indent` and the depth `depth`: in pretty mode a
line feed and the indent of the members, then the quoted key, the colon (and a
space in pretty mode) and the text of the value mapped by `key`. -/
def writtenMember (cfg : JsonWriterConfig) (obj : JsonObject) (indent depth : Int)
    (key : List Char) : List Char :=
  (if cfg.pretty_print then '\n' :: WriteIndent (indent + cfg.indent_size) else []) ++
    (WriteString cfg key ++ ((if cfg.pretty_print then [':', ' '] else [':']) ++
      (match JsonObject.find obj key with
        | some value =>
            (match WriteValue cfg value (indent + cfg.indent_size) (depth + 1) with
              | .ok text => text
              | .error _ => [])
        | none => [])))

/-! ## The exact value of a `double` -/

/-- The exact value of a finite `double` as a rational number (zero for the
infinities and NaN, which `isFinite` tells apart). -/
def Double.toRat : Double → ℚ
  | .fin m e => (m : ℚ) * (2 : ℚ) ^ e
  | _ => 0

/-- The `double` is finite: neither an infinity nor NaN. -/
def Double.isFinite : Double → Bool
  | .fin _ _ => true
  | _ => false

/-! ## The exact value of a number literal -/

/-- The signed exponent E that an exponent part stands for. -/
def ExponentPart.value (x : ExponentPart) : Int :=
  if x.sign = some true then -(digitsValue x.digits : Int) else (digitsValue x.digits : Int)

/-- The digits of the fraction of a literal (none without a fraction). -/
def NumberLiteral.fractionDigits (n : NumberLiteral) : List Char :=
  match n.fraction with
  | none => []
  | some fs => fs

/-- The signed exponent E of a literal (zero without an exponent part). -/
def NumberLiteral.exponentValue (n : NumberLiteral) : Int :=
  match n.exponent with
  | none => 0
  | some x => x.value

/-- The exact value `sign * (I + F / 10 ^ k) * 10 ^ E` of a number literal, in
rational arithmetic: I is the value of the integer digits, F the value of the
k digits of the fraction and E the signed exponent. -/
def NumberLiteral.exactValue (n : NumberLiteral) : ℚ :=
  (if n.negative then -1 else 1) *
    (((digitsValue n.integer : Nat) : ℚ) +
      ((digitsValue n.fractionDigits : Nat) : ℚ) / (10 : ℚ) ^ n.fractionDigits.length) *
    (10 : ℚ) ^ n.exponentValue

/-! ## Rounding to the nearest integer -/

/-- The quotient `num / den` rounded to the nearest integer, ties to even: the
rounding that `roundPos` and `fixed6` perform. -/
def roundHalfEven (num den : Nat) : Nat :=
  if 2 * (num % den) < den then num / den
  else if den < 2 * (num % den) then num / den + 1
  else if num / den % 2 = 0 then num / den else num / den + 1

/-- The six digits that `fixed6` prints after the point for `F` millionths. -/
def sixDigits (F : Nat) : List Char :=
  List.replicate (6 - (decimal F).length) '0' ++ decimal F

/-- The number literal that `fixed6` prints for `K` millionths: the sign, the
integer part `K / 10 ^ 6`, and the six digits of `K % 10 ^ 6`. -/
def decimalLiteral (negative : Bool) (K : Nat) : NumberLiteral :=
  { negative := negative, integer := decimal (K / 1000000),
    fraction := some (sixDigits (K % 1000000)), exponent := none }

/-! ## Texts with decimal numbers -/

/-- A JSON text as the compact writer emits it: a text of the kinds above, a
decimal number with digits after the point, or an object whose members are
written without white space, each key with the escapes of the writer. -/
inductive Document where
  | plain (t : Text)
  | decimal (negative : Bool) (integer fraction : List Char)
  | object (members : List (List Char × Document))

mutual

/-- The characters of a document. -/
def Document.render : Document → List Char
  | .plain t => t.render
  | .decimal negative integer fraction =>
      (NumberLiteral.mk negative integer (some fraction) none).text
  | .object members => '{' :: (Document.renderMembers members ++ ['}'])

/-- The characters of the members of an object, separated by commas. -/
def Document.renderMembers : List (List Char × Document) → List Char
  | [] => []
  | (k, d) :: members =>
      stringText (k.map escapeItem) ++ ':' :: (d.render ++ Document.renderRest members)

/-- The characters of the members after the first one, each after a comma. -/
def Document.renderRest : List (List Char × Document) → List Char
  | [] => []
  | (k, d) :: members =>
      ',' :: (stringText (k.map escapeItem) ++ ':' :: (d.render ++ Document.renderRest members))

end

mutual

/-- The value that `Parse` returns for a document: a decimal number stands for
the `double` that the loops of `ParseNumber` accumulate. -/
def Document.denote : Document → JsonValue
  | .plain t => t.denote
  | .decimal negative integer fraction =>
      .number (NumberLiteral.mk negative integer (some fraction) none).accumulated
  | .object members => .object (Document.denoteMembers members)

/-- The entries that the members of an object stand for. -/
def Document.denoteMembers : List (List Char × Document) → JsonObject
  | [] => []
  | (k, d) :: members => (k, d.denote) :: Document.denoteMembers members

end

mutual

/-- The document is well formed: its plain texts and number literals are, an
object has at least one member, its keys have at most `maxLength` characters
and are pairwise distinct. -/
def Document.WellFormed (maxLength : Nat) : Document → Prop
  | .plain t => t.WellFormed maxLength
  | .decimal negative integer fraction =>
      (NumberLiteral.mk negative integer (some fraction) none).WellFormed
  | .object members =>
      members ≠ [] ∧ Document.MembersWellFormed maxLength members ∧
        ((Document.denoteMembers members).map Prod.fst).Nodup

/-- Every member of the list is well formed. -/
def Document.MembersWellFormed (maxLength : Nat) : List (List Char × Document) → Prop
  | [] => True
  | (k, d) :: members =>
      k.length ≤ maxLength ∧ d.WellFormed maxLength ∧ Document.MembersWellFormed maxLength members

end

/-- The document is a number. -/
def Document.isNumber : Document → Bool
  | .plain t => t.isInteger
  | .decimal _ _ _ => true
  | .object _ => false

/-- The writer, with the compact sorted configuration, prints `v` as the
characters of `d`, a well-formed document that stands for a value equal to `v`
(with either operand on the left). -/
def Encoded (maxLength : Nat) (v : JsonValue) (indent depth : Int) (d : Document) : Prop :=
  WriteValue JsonWriterConfig.CompactSorted v indent depth = .ok d.render ∧
    d.WellFormed maxLength ∧ (d.isNumber = true → v.isNumber = true) ∧
    d.denote.eq v = true ∧ d.denote.eqFlip v = true

/-- The document found for the key `k` in the table `docs`. -/
def lookupDocument (docs : List (List Char × Document)) (k : List Char) : Document :=
  (docs.lookup k).getD (Document.plain Text.null)

/-- The members that `WriteObject` prints for the keys `keys`, the document of
each value taken from the table. -/
def documentsOf (docs : List (List Char × Document)) (keys : List (List Char)) :
    List (List Char × Document) :=
  keys.map (fun k => (k, lookupDocument docs k))

/-! ## Values that the writer and the parser exchange within the tolerance -/

/-- The Numbers that six decimals print faithfully: the integers of magnitude
at most `2 ^ 53`, and the doubles nearest to a decimal `k / 10 ^ 6` (at most
six digits after the point) of magnitude below `2 ^ 33`. -/
def Double.SixDecimals (d : Double) : Prop :=
  (∃ z : Int, z.natAbs ≤ 2 ^ 53 ∧ d = Double.ofInt z) ∨
    (∃ k : Int, k.natAbs < 2 ^ 33 * 1000000 ∧ d = Double.ofRatio k 1000000)

mutual

/-- The trees considered for the round trip within the tolerance: every Number
is an integer of magnitude at most `2 ^ 53` or the double nearest to a decimal
with at most six digits after the point and of magnitude below `2 ^ 33`, every
Array is empty, every String and every key has at most `maxLength` characters,
and the keys of each Object are pairwise distinct. -/
def JsonValue.SixDecimals (maxLength : Nat) : JsonValue → Prop
  | .object members =>
      JsonValue.SixDecimalsMembers maxLength members ∧ (members.map Prod.fst).Nodup
  | .array elements => elements = []
  | .string s => s.length ≤ maxLength
  | .number d => d.SixDecimals
  | .boolean _ => True
  | .null => True

/-- Every entry has a key of at most `maxLength` characters and a value of the
kind above. -/
def JsonValue.SixDecimalsMembers (maxLength : Nat) : JsonObject → Prop
  | [] => True
  | (k, v) :: members =>
      k.length ≤ maxLength ∧ v.SixDecimals maxLength ∧
        JsonValue.SixDecimalsMembers maxLength members

end

set_option maxRecDepth 100000

/-- C2 (code at the failing input): parsing `[1, 2, 3, "hello"]` returns an
array with no element, whereas the claim (and the test `ParseSimpleArray`)
expects four: `ParseArray` parses each element and never appends it. -/
theorem C2_ParseSimpleArray_returns_empty :
    Parse "[1, 2, 3, \"hello\"]".toList = .ok (.array []) := by
  decide!

/-- C4 (code at the failing input): parsing the text `42` throws "Unexpected
end of input" at offset 2: after the digits `ParseNumber` calls `Current()`
to look for a `.` and the cursor is at the end of the input. -/
theorem C4_number_at_end_of_input_throws :
    Parse "42".toList = .error (.exception (.located .unexpectedEndOfInput 1 3 2)) := by
  decide!

/-- C5 (code at the failing input): parsing the unterminated string token
`"abc` returns the String `abc` instead of throwing: the loop of
`ParseString` ends silently when the input is exhausted. -/
theorem C5_unterminated_string_accepted :
    Parse "\"abc".toList = .ok (.string "abc".toList) := by
  decide!

/-! ### The cursor -/

theorem ParserState.Reads.unread_eq {st : ParserState} {pre rest : List Char} (h : st.Reads pre rest) :
    st.unread = rest := by
  obtain ⟨h1, h2⟩ := h
  simp [ParserState.unread, h1, h2]

theorem ParserState.Reads.getElem?_eq {st : ParserState} {pre rest : List Char} (h : st.Reads pre rest) :
    st.input_[st.position_]? = rest.head? := by
  obtain ⟨h1, h2⟩ := h
  rw [h1, h2, List.getElem?_append_right (le_refl _)]
  cases rest <;> simp

theorem ParserState.Reads.after_consume {st : ParserState} {pre rest : List Char} {c : Char}
    (h : st.Reads pre (c :: rest)) : (st.consume c).Reads (pre ++ [c]) rest := by
  obtain ⟨h1, h2⟩ := h
  unfold ParserState.consume
  split <;> simp [ParserState.Reads, h1, h2]

theorem ParserState.Reads.Initialize (input : List Char) : (ParserState.Initialize input).Reads [] input := by
  simp [ParserState.Reads, ParserState.Initialize]

theorem ParserState.Reads.position_le {st : ParserState} {pre rest : List Char} (h : st.Reads pre rest) :
    st.position_ + rest.length = st.input_.length := by
  obtain ⟨h1, h2⟩ := h
  simp [h1, h2]

theorem Current_of_Reads {st : ParserState} {pre rest : List Char} {c : Char}
    (h : st.Reads pre (c :: rest)) : Current st = .ok c := by
  simp [Current, h.getElem?_eq]

theorem Current_of_Reads_nil {st : ParserState} {pre : List Char}
    (h : st.Reads pre []) : Current st = .error (ThrowParseError st .unexpectedEndOfInput) := by
  simp [Current, h.getElem?_eq]

theorem Next_of_Reads {st : ParserState} {pre rest : List Char} {c : Char}
    (h : st.Reads pre (c :: rest)) : Next st = .ok (c, st.consume c) := by
  simp [Next, h.getElem?_eq]

theorem Expect_of_Reads {st : ParserState} {pre rest : List Char} {c : Char}
    (h : st.Reads pre (c :: rest)) : Expect st c = .ok (st.consume c) := by
  simp [Expect, Current_of_Reads h, Next_of_Reads h, bind, Except.bind, pure, Except.pure]

/-! ### White space and comments -/

theorem SkipWhitespaceLoop_of_Reads :
    ∀ (w : List Char) (st : ParserState) (pre rest : List Char),
      st.Reads pre (w ++ rest) → IsWhitespace w → StartsToken rest →
      (SkipWhitespaceLoop (w ++ rest) st).Reads (pre ++ w) rest := by
  intro w
  induction w with
  | nil =>
      intro st pre rest h _ hr
      cases rest with
      | nil => simpa [SkipWhitespaceLoop] using h
      | cons c rest =>
          have hc : isspace c = false := hr c (by simp)
          simpa [SkipWhitespaceLoop, hc] using h
  | cons a w ih =>
      intro st pre rest h hw hr
      have ha : isspace a = true := hw a (by simp)
      have h' := ih (st.consume a) (pre ++ [a]) rest h.after_consume
        (fun c hc => hw c (by simp [hc])) hr
      simpa [SkipWhitespaceLoop, ha] using h'

theorem SkipWhitespace_of_Reads {st : ParserState} {pre w rest : List Char}
    (h : st.Reads pre (w ++ rest)) (hw : IsWhitespace w) (hr : StartsToken rest) :
    (SkipWhitespace st).Reads (pre ++ w) rest := by
  unfold SkipWhitespace
  rw [h.unread_eq]
  exact SkipWhitespaceLoop_of_Reads w st pre rest h hw hr

theorem SkipWhitespace_eq_self {st : ParserState} {pre rest : List Char}
    (h : st.Reads pre rest) (hr : StartsToken rest) : SkipWhitespace st = st := by
  unfold SkipWhitespace
  rw [h.unread_eq]
  cases rest with
  | nil => rfl
  | cons c rest =>
      have hc : isspace c = false := hr c (by simp)
      simp [SkipWhitespaceLoop, hc]

theorem SkipComments_eq_self {st : ParserState} {pre rest : List Char}
    (h : st.Reads pre rest) (hr : rest.head? ≠ some '/') : SkipComments st = st := by
  unfold SkipComments
  rw [h.unread_eq]
  match rest, hr with
  | [], _ => rfl
  | [_], _ => rfl
  | c :: d :: rest, hr =>
      have hc : c ≠ '/' := by simpa using hr
      simp [hc]

/-- A token of the grammar begins here: neither white space nor a `/`. -/
theorem SkipSeparators_of_Reads (cfg : JsonParserConfig) {st : ParserState}
    {pre w rest : List Char} (h : st.Reads pre (w ++ rest)) (hw : IsWhitespace w)
    (hr : StartsToken rest) (hs : rest.head? ≠ some '/') :
    (SkipSeparators cfg st).Reads (pre ++ w) rest := by
  have h1 := SkipWhitespace_of_Reads h hw hr
  unfold SkipSeparators
  split
  · rw [SkipComments_eq_self h1 hs]; exact h1
  · exact h1

theorem SkipSeparators_eq_self (cfg : JsonParserConfig) {st : ParserState}
    {pre rest : List Char} (h : st.Reads pre rest)
    (hr : StartsToken rest) (hs : rest.head? ≠ some '/') :
    SkipSeparators cfg st = st := by
  unfold SkipSeparators
  rw [SkipWhitespace_eq_self h hr]
  split
  · exact SkipComments_eq_self h hs
  · rfl

/-! ### Dispatch of `ParseValue`, and the end of `Parse` -/

theorem SkipSeparators_no_comments {cfg : JsonParserConfig} (hc : cfg.allow_comments = false)
    (st : ParserState) : SkipSeparators cfg st = SkipWhitespace st := by
  simp [SkipSeparators, hc]

theorem ValidateDepth_zero (cfg : JsonParserConfig) : ValidateDepth cfg 0 = .ok () := by
  simp [ValidateDepth]

theorem Parse_of_ParseValue {cfg : JsonParserConfig} {json w pre : List Char} {v : JsonValue}
    {st : ParserState}
    (h : ParseValue cfg (3 * json.length + 3) (ParserState.Initialize json) = .ok (v, st))
    (hst : st.Reads pre w) (hw : IsWhitespace w) : Parse json cfg = .ok v := by
  have h1 : (SkipWhitespace st).Reads (pre ++ w) [] := by
    have hst1 : st.Reads pre (w ++ []) := by simpa using hst
    apply SkipWhitespace_of_Reads hst1 hw
    intro c hc
    simp at hc
  have h2 := h1.position_le
  simp [Parse, h, bind, Except.bind, pure, Except.pure]
  simp at h2
  omega

theorem ParseValue_object {cfg : JsonParserConfig} {st : ParserState} {pre rest : List Char}
    (fuel : Nat) (h : st.Reads pre ('{' :: rest)) :
    ParseValue cfg (fuel + 1) st =
      (ParseObject cfg fuel st).bind (fun r => .ok (.object r.1, r.2)) := by
  have hs : SkipSeparators cfg st = st :=
    SkipSeparators_eq_self cfg h (by intro c hc; simp at hc; subst hc; decide) (by simp)
  rw [ParseValue]
  simp [ValidateDepth_zero, hs, Current_of_Reads h, bind, Except.bind, pure, Except.pure]

theorem ParseValue_array {cfg : JsonParserConfig} {st : ParserState} {pre rest : List Char}
    (fuel : Nat) (h : st.Reads pre ('[' :: rest)) :
    ParseValue cfg (fuel + 1) st =
      (ParseArray cfg fuel st).bind (fun r => .ok (.array r.1, r.2)) := by
  have hs : SkipSeparators cfg st = st :=
    SkipSeparators_eq_self cfg h (by intro c hc; simp at hc; subst hc; decide) (by simp)
  rw [ParseValue]
  simp [ValidateDepth_zero, hs, Current_of_Reads h, bind, Except.bind, pure, Except.pure]

theorem ParseObject_empty (cfg : JsonParserConfig) {st : ParserState} {pre w rest : List Char}
    (fuel : Nat) (h : st.Reads pre ('{' :: (w ++ '}' :: rest))) (hw : IsWhitespace w) :
    ∃ st1, ParseObject cfg (fuel + 1) st = .ok ([], st1) ∧
      st1.Reads (pre ++ '{' :: (w ++ ['}'])) rest := by
  have h1 := h.after_consume
  have h2 : (SkipSeparators cfg (st.consume '{')).Reads (pre ++ ['{'] ++ w) ('}' :: rest) :=
    SkipSeparators_of_Reads cfg h1 hw (by intro c hc; simp at hc; subst hc; decide) (by simp)
  refine ⟨(SkipSeparators cfg (st.consume '{')).consume '}', ?_, ?_⟩
  · rw [ParseObject]
    simp [ValidateDepth_zero, Expect_of_Reads h, Current_of_Reads h2, Next_of_Reads h2,
      bind, Except.bind, pure, Except.pure]
  · simpa using h2.after_consume

theorem ParseArray_empty (cfg : JsonParserConfig) {st : ParserState} {pre w rest : List Char}
    (fuel : Nat) (h : st.Reads pre ('[' :: (w ++ ']' :: rest))) (hw : IsWhitespace w) :
    ∃ st1, ParseArray cfg (fuel + 1) st = .ok ([], st1) ∧
      st1.Reads (pre ++ '[' :: (w ++ [']'])) rest := by
  have h1 := h.after_consume
  have h2 : (SkipSeparators cfg (st.consume '[')).Reads (pre ++ ['['] ++ w) (']' :: rest) :=
    SkipSeparators_of_Reads cfg h1 hw (by intro c hc; simp at hc; subst hc; decide) (by simp)
  refine ⟨(SkipSeparators cfg (st.consume '[')).consume ']', ?_, ?_⟩
  · rw [ParseArray]
    simp [ValidateDepth_zero, Expect_of_Reads h, Current_of_Reads h2, Next_of_Reads h2,
      bind, Except.bind, pure, Except.pure]
  · simpa using h2.after_consume

/-- C8: for every white-space string `w` (possibly empty) and every parser
configuration, `Parse` of `{` `w` `}` returns the Object without entries
(Size 0) and `Parse` of `[` `w` `]` returns the Array without elements
(Size 0). -/
theorem C8_empty_containers (cfg : JsonParserConfig) (w : List Char) (hw : IsWhitespace w) :
    (Parse ('{' :: (w ++ ['}'])) cfg = .ok (.object []) ∧ JsonObject.Size [] = 0) ∧
      (Parse ('[' :: (w ++ [']'])) cfg = .ok (.array []) ∧ List.length ([] : JsonArray) = 0) := by
  refine ⟨⟨?_, rfl⟩, ?_, rfl⟩
  · have h0 := ParserState.Reads.Initialize ('{' :: (w ++ ['}']))
    obtain ⟨st1, hp, hr⟩ := ParseObject_empty cfg (3 * ('{' :: (w ++ ['}'])).length + 1) h0 hw
    refine Parse_of_ParseValue ?_ hr (by intro c hc; simp at hc)
    show ParseValue cfg ((3 * ('{' :: (w ++ ['}'])).length + 2) + 1) _ = _
    rw [ParseValue_object _ h0, hp]
    rfl
  · have h0 := ParserState.Reads.Initialize ('[' :: (w ++ [']']))
    obtain ⟨st1, hp, hr⟩ := ParseArray_empty cfg (3 * ('[' :: (w ++ [']'])).length + 1) h0 hw
    refine Parse_of_ParseValue ?_ hr (by intro c hc; simp at hc)
    show ParseValue cfg ((3 * ('[' :: (w ++ [']'])).length + 2) + 1) _ = _
    rw [ParseValue_array _ h0, hp]
    rfl

/-- C8 at the white space made of a blank, a tab and a line feed. -/
theorem C8_empty_containers_witness :
    IsWhitespace [' ', '\t', '\n'] ∧
      ((Parse ('{' :: ([' ', '\t', '\n'] ++ ['}'])) JsonParserConfig.Lenient = .ok (.object []) ∧
          JsonObject.Size [] = 0) ∧
        (Parse ('[' :: ([' ', '\t', '\n'] ++ [']'])) JsonParserConfig.Lenient = .ok (.array []) ∧
          List.length ([] : JsonArray) = 0)) :=
  ⟨by unfold IsWhitespace; decide,
    C8_empty_containers JsonParserConfig.Lenient [' ', '\t', '\n'] (by unfold IsWhitespace; decide)⟩

/-- C9: with comments disabled, an input whose first character after leading
white space is `{` and whose next character after further white space is
missing, or is neither `"` nor `}`, makes `Parse` raise a ParseError. -/
theorem C9_object_needs_key_or_close (cfg : JsonParserConfig) (hc : cfg.allow_comments = false)
    (w1 w2 rest : List Char) (hw1 : IsWhitespace w1) (hw2 : IsWhitespace w2)
    (hr : ∀ c ∈ rest.head?, isspace c = false ∧ c ≠ '"' ∧ c ≠ '}') :
    ∃ e : JsonParseException, Parse (w1 ++ '{' :: (w2 ++ rest)) cfg = .error (.exception e) := by
  have h0 := ParserState.Reads.Initialize (w1 ++ '{' :: (w2 ++ rest))
  have h1 : (SkipSeparators cfg (ParserState.Initialize (w1 ++ '{' :: (w2 ++ rest)))).Reads
      ([] ++ w1) ('{' :: (w2 ++ rest)) := by
    rw [SkipSeparators_no_comments hc]
    exact SkipWhitespace_of_Reads h0 hw1 (by intro c hc; simp at hc; subst hc; decide)
  have h2 := h1.after_consume
  have h3 : (SkipSeparators cfg
      ((SkipSeparators cfg (ParserState.Initialize (w1 ++ '{' :: (w2 ++ rest)))).consume '{')).Reads
      ([] ++ w1 ++ ['{'] ++ w2) rest := by
    rw [SkipSeparators_no_comments hc]
    exact SkipWhitespace_of_Reads h2 hw2 (fun c hc => (hr c hc).1)
  have hst : StartsToken rest := fun c hc => (hr c hc).1
  generalize hs3 : SkipSeparators cfg
      ((SkipSeparators cfg (ParserState.Initialize (w1 ++ '{' :: (w2 ++ rest)))).consume '{') = st3
      at h3
  have hobj : ∃ e : JsonParseException, ParseObject cfg (3 * (w1 ++ '{' :: (w2 ++ rest)).length + 1 + 1)
      (SkipSeparators cfg (ParserState.Initialize (w1 ++ '{' :: (w2 ++ rest)))) =
        .error (.exception e) := by
    rw [ParseObject]
    simp only [ValidateDepth_zero, Expect_of_Reads h1, bind, Except.bind, hs3]
    cases rest with
    | nil =>
        rw [Current_of_Reads_nil h3]
        exact ⟨_, rfl⟩
    | cons c rest =>
        obtain ⟨-, hq, hb⟩ := hr c (by simp)
        rw [Current_of_Reads h3]
        simp only [hb, if_false]
        rw [ParseObjectLoop]
        have h4 : SkipSeparators cfg st3 = st3 := by
          rw [SkipSeparators_no_comments hc]
          exact SkipWhitespace_eq_self h3 hst
        simp only [bind, Except.bind, h4, ParseString, Expect, Current_of_Reads h3]
        simp [hq, ThrowParseError]
  obtain ⟨e, he⟩ := hobj
  refine ⟨e, ?_⟩
  unfold Parse
  show (ParseValue cfg ((3 * (w1 ++ '{' :: (w2 ++ rest)).length + 2) + 1) _ >>= _) = _
  rw [ParseValue]
  simp only [ValidateDepth_zero, bind, Except.bind, Current_of_Reads h1]
  simp only [if_true]
  rw [he]

/-- C9 at the test input `{invalid}` under the default configuration. -/
theorem C9_object_needs_key_or_close_witness :
    ∃ e : JsonParseException, Parse ([] ++ '{' :: ([] ++ "invalid\x7d".toList)) JsonParserConfig.Strict =
      .error (.exception e) :=
  C9_object_needs_key_or_close JsonParserConfig.Strict rfl [] [] "invalid\x7d".toList
    (by unfold IsWhitespace; decide) (by unfold IsWhitespace; decide) (by decide)

/-! ### Frame: the input is never changed and the cursor never moves back -/

theorem bind_eq_ok {ε α β : Type} {x : Except ε α} {f : α → Except ε β} {b : β} :
    x.bind f = .ok b ↔ ∃ a, x = .ok a ∧ f a = .ok b := by
  cases x <;> simp [Except.bind]

theorem bind_eq_error {ε α β : Type} {x : Except ε α} {f : α → Except ε β} {e : ε} :
    x.bind f = .error e ↔ x = .error e ∨ ∃ a, x = .ok a ∧ f a = .error e := by
  cases x <;> simp [Except.bind]

theorem ParserState.Step.refl {st : ParserState} (h : st.Valid) : st.Step st :=
  ⟨rfl, le_refl _, h⟩

theorem ParserState.Step.trans {st st1 st2 : ParserState} (h1 : st.Step st1) (h2 : st1.Step st2) :
    st.Step st2 :=
  ⟨h2.1.trans h1.1, le_trans h1.2.1 h2.2.1, h2.2.2⟩

theorem ParserState.Step.valid {st st1 : ParserState} (h : st.Step st1) : st1.Valid := h.2.2

theorem ParserState.unread_length (st : ParserState) :
    st.unread.length = st.input_.length - st.position_ := by
  simp [ParserState.unread]

theorem ParserState.getElem?_eq_head (st : ParserState) :
    st.input_[st.position_]? = st.unread.head? := by
  simp [ParserState.unread, List.head?_drop]

theorem ParserState.unread_consume {st : ParserState} {c : Char} {u : List Char}
    (h : st.unread = c :: u) : (st.consume c).unread = u := by
  have h1 : (st.consume c).unread = st.input_.drop (st.position_ + 1) := by
    unfold ParserState.consume ParserState.unread
    split <;> rfl
  rw [h1, ← List.drop_drop]
  simp [ParserState.unread] at h
  simp [h]

theorem ParserState.consume_input (st : ParserState) (c : Char) :
    (st.consume c).input_ = st.input_ := by
  unfold ParserState.consume
  split <;> rfl

theorem ParserState.consume_position (st : ParserState) (c : Char) :
    (st.consume c).position_ = st.position_ + 1 := by
  unfold ParserState.consume
  split <;> rfl

theorem ParserState.lt_of_unread {st : ParserState} {c : Char} {u : List Char}
    (h : st.unread = c :: u) : st.position_ < st.input_.length := by
  have := st.unread_length
  rw [h] at this
  simp at this
  omega

theorem ParserState.Step.consume {st : ParserState} {c : Char} {u : List Char}
    (h : st.unread = c :: u) : st.Step (st.consume c) := by
  have := ParserState.lt_of_unread h
  refine ⟨st.consume_input c, ?_, ?_⟩
  · rw [st.consume_position]; omega
  · unfold ParserState.Valid
    rw [st.consume_position, st.consume_input]; omega

theorem Current_eq_ok {st : ParserState} {c : Char} (h : Current st = .ok c) :
    ∃ u, st.unread = c :: u := by
  unfold Current at h
  rw [st.getElem?_eq_head] at h
  cases hu : st.unread with
  | nil => simp [hu] at h
  | cons a u => simp [hu] at h; exact ⟨u, by rw [h]⟩

theorem Current_of_unread {st : ParserState} {c : Char} {u : List Char} (h : st.unread = c :: u) :
    Current st = .ok c := by
  unfold Current
  rw [st.getElem?_eq_head, h]
  rfl

theorem Current_of_unread_nil {st : ParserState} (h : st.unread = []) :
    Current st = .error (ThrowParseError st .unexpectedEndOfInput) := by
  unfold Current
  rw [st.getElem?_eq_head, h]
  rfl

theorem Next_of_unread {st : ParserState} {c : Char} {u : List Char} (h : st.unread = c :: u) :
    Next st = .ok (c, st.consume c) := by
  unfold Next
  rw [st.getElem?_eq_head, h]
  rfl

theorem Next_of_unread_nil {st : ParserState} (h : st.unread = []) :
    Next st = .error (ThrowParseError st .unexpectedEndOfInput) := by
  unfold Next
  rw [st.getElem?_eq_head, h]
  rfl

theorem Next_eq_ok {st : ParserState} {r : Char × ParserState} (h : Next st = .ok r) :
    ∃ u, st.unread = r.1 :: u ∧ r.2 = st.consume r.1 := by
  cases hu : st.unread with
  | nil => rw [Next_of_unread_nil hu] at h; cases h
  | cons a u =>
      rw [Next_of_unread hu] at h
      cases h
      exact ⟨u, rfl, rfl⟩

theorem Expect_eq_ok {st st1 : ParserState} {c : Char} (h : Expect st c = .ok st1) :
    ∃ u, st.unread = c :: u ∧ st1 = st.consume c := by
  cases hu : st.unread with
  | nil => simp [Expect, Current_of_unread_nil hu, bind, Except.bind] at h
  | cons a u =>
      by_cases hc : a = c
      · subst hc
        simp [Expect, Current_of_unread hu, Next_of_unread hu, bind, Except.bind, pure,
          Except.pure] at h
        exact ⟨u, rfl, h.symm⟩
      · simp [Expect, Current_of_unread hu, bind, Except.bind, hc] at h

theorem Expect_of_unread {st : ParserState} {c : Char} {u : List Char} (h : st.unread = c :: u) :
    Expect st c = .ok (st.consume c) := by
  simp [Expect, Current_of_unread h, Next_of_unread h, bind, Except.bind, pure, Except.pure]

theorem SkipWhitespaceLoop_Step :
    ∀ (u : List Char) (st : ParserState), st.unread = u → st.Valid →
      st.Step (SkipWhitespaceLoop u st) := by
  intro u
  induction u with
  | nil => intro st _ hv; exact ParserState.Step.refl hv
  | cons c u ih =>
      intro st hu hv
      unfold SkipWhitespaceLoop
      split
      · exact (ParserState.Step.consume hu).trans
          (ih _ (ParserState.unread_consume hu) (ParserState.Step.consume hu).valid)
      · exact ParserState.Step.refl hv

theorem SkipWhitespace_Step {st : ParserState} (hv : st.Valid) : st.Step (SkipWhitespace st) :=
  SkipWhitespaceLoop_Step _ st rfl hv

theorem SkipLineLoop_Step :
    ∀ (u : List Char) (st : ParserState), st.unread = u → st.Valid →
      st.Step (SkipLineLoop u st) := by
  intro u
  induction u with
  | nil => intro st _ hv; exact ParserState.Step.refl hv
  | cons c u ih =>
      intro st hu hv
      unfold SkipLineLoop
      split
      · have hlt := ParserState.lt_of_unread hu
        have hu1 : ({ st with position_ := st.position_ + 1 } : ParserState).unread = u := by
          have : ({ st with position_ := st.position_ + 1 } : ParserState).unread =
              st.input_.drop (st.position_ + 1) := rfl
          rw [this, ← List.drop_drop]
          simp [ParserState.unread] at hu
          simp [hu]
        have hs : st.Step { st with position_ := st.position_ + 1 } :=
          ⟨rfl, Nat.le_succ _, hlt⟩
        exact hs.trans (ih _ hu1 hlt)
      · exact ParserState.Step.refl hv

theorem SkipBlockLoop_Step :
    ∀ (n : Nat) (u : List Char) (st : ParserState), u.length ≤ n → st.unread = u → st.Valid →
      st.Step (SkipBlockLoop u st) := by
  intro n
  induction n with
  | zero =>
      intro u st hn _ hv
      have : u = [] := List.length_eq_zero.mp (Nat.le_zero.mp hn)
      subst this
      exact ParserState.Step.refl hv
  | succ n ih =>
      intro u st hn hu hv
      match u, hn, hu with
      | [], _, _ => exact ParserState.Step.refl hv
      | [_], _, _ => exact ParserState.Step.refl hv
      | c :: d :: rest, hn, hu =>
          unfold SkipBlockLoop
          split
          · have hl := st.unread_length
            rw [hu] at hl
            simp at hl
            refine ⟨rfl, Nat.le_add_right _ _, ?_⟩
            show st.position_ + 2 ≤ st.input_.length
            omega
          · exact (ParserState.Step.consume hu).trans
              (ih _ _ (by simp at hn ⊢; omega) (ParserState.unread_consume hu)
                (ParserState.Step.consume hu).valid)

theorem SkipComments_Step {st : ParserState} (hv : st.Valid) : st.Step (SkipComments st) := by
  unfold SkipComments
  split
  · rename_i c d rest hu
    split
    · have h1 := SkipLineLoop_Step _ st rfl hv
      dsimp only
      split
      · rename_i x hx
        have hlt : (SkipLineLoop st.unread st).position_ < (SkipLineLoop st.unread st).input_.length := by
          by_contra hge
          rw [List.getElem?_eq_none (Nat.le_of_not_lt hge)] at hx
          cases hx
        exact h1.trans ⟨rfl, Nat.le_succ _, hlt⟩
      · exact h1
    · split
      · have hl := st.unread_length
        rw [hu] at hl
        simp at hl
        have hs : st.Step { st with position_ := st.position_ + 2 } := by
          refine ⟨rfl, Nat.le_add_right _ _, ?_⟩
          show st.position_ + 2 ≤ st.input_.length
          omega
        exact hs.trans (SkipBlockLoop_Step _ _ _ (le_refl _) rfl hs.valid)
      · exact ParserState.Step.refl hv
  · exact ParserState.Step.refl hv

theorem SkipSeparators_Step (cfg : JsonParserConfig) {st : ParserState} (hv : st.Valid) :
    st.Step (SkipSeparators cfg st) := by
  unfold SkipSeparators
  have h1 := SkipWhitespace_Step hv
  split
  · exact h1.trans (SkipComments_Step h1.valid)
  · exact h1

theorem Next_Step {st : ParserState} {r : Char × ParserState} (h : Next st = .ok r) :
    st.Step r.2 ∧ r.2.position_ = st.position_ + 1 := by
  obtain ⟨u, hu, hr⟩ := Next_eq_ok h
  rw [hr]
  exact ⟨ParserState.Step.consume hu, st.consume_position _⟩

theorem Expect_Step {st st1 : ParserState} {c : Char} (h : Expect st c = .ok st1) :
    st.Step st1 ∧ st1.position_ = st.position_ + 1 := by
  obtain ⟨u, hu, hr⟩ := Expect_eq_ok h
  rw [hr]
  exact ⟨ParserState.Step.consume hu, st.consume_position _⟩

theorem UnicodeEscapeLoop_Step :
    ∀ (count : Nat) (st st1 : ParserState), st.Valid → UnicodeEscapeLoop count st = .ok st1 →
      st.Step st1 := by
  intro count
  induction count with
  | zero =>
      intro st st1 hv h
      simp [UnicodeEscapeLoop] at h
      subst h
      exact ParserState.Step.refl hv
  | succ n ih =>
      intro st st1 hv h
      unfold UnicodeEscapeLoop at h
      rw [st.getElem?_eq_head] at h
      cases hu : st.unread with
      | nil => simp [hu] at h
      | cons c u =>
          simp only [hu, List.head?_cons] at h
          split at h
          · exact (ParserState.Step.consume hu).trans (ih _ _ (ParserState.Step.consume hu).valid h)
          · cases h

theorem ParseStringStep_Step (cfg : JsonParserConfig) {c : Char} {result : List Char}
    {st : ParserState} {x : List Char × ParserState} (hv : st.Valid)
    (h : ParseStringStep cfg c result st = .ok x) : st.Step x.2 := by
  unfold ParseStringStep at h
  split at h
  · simp only [bind, bind_eq_ok] at h
    obtain ⟨z, hz, h⟩ := h
    obtain ⟨hs3, -⟩ := Next_Step hz
    split at h
    · simp only [bind_eq_ok] at h
      obtain ⟨w, hw, h⟩ := h
      simp [pure, Except.pure] at h
      subst h
      exact hs3.trans (UnicodeEscapeLoop_Step _ _ _ hs3.valid hw)
    · simp [pure, Except.pure] at h
      subst h
      exact hs3
  · split at h
    · split at h
      · cases h
      · simp [pure, Except.pure] at h
        subst h
        exact ParserState.Step.refl hv
    · simp [pure, Except.pure] at h
      subst h
      exact ParserState.Step.refl hv

theorem ParseStringLoop_Step (cfg : JsonParserConfig) :
    ∀ (fuel : Nat) (result : List Char) (st : ParserState) (r : List Char × ParserState),
      st.Valid → ParseStringLoop cfg fuel result st = .ok r → st.Step r.2 := by
  intro fuel
  induction fuel with
  | zero => intro result st r _ h; simp [ParseStringLoop] at h
  | succ n ih =>
      intro result st r hv h
      rw [ParseStringLoop] at h
      split at h
      · simp only [bind, bind_eq_ok] at h
        obtain ⟨x, hx, h⟩ := h
        obtain ⟨hs1, -⟩ := Next_Step hx
        split at h
        · simp [pure, Except.pure] at h
          subst h
          exact hs1
        · simp only [bind_eq_ok] at h
          obtain ⟨y, hy, -, -, h⟩ := h
          have hs2 := ParseStringStep_Step cfg hs1.valid hy
          exact hs1.trans (hs2.trans (ih _ _ _ hs2.valid h))
      · simp [pure, Except.pure] at h
        subst h
        exact ParserState.Step.refl hv

theorem ParseString_Step (cfg : JsonParserConfig) {st : ParserState} {r : List Char × ParserState}
    (h : ParseString cfg st = .ok r) :
    st.Step r.2 ∧ st.position_ + 1 ≤ r.2.position_ := by
  unfold ParseString at h
  simp only [bind, bind_eq_ok] at h
  obtain ⟨st1, h1, h2⟩ := h
  obtain ⟨hs1, hp⟩ := Expect_Step h1
  have hs2 := ParseStringLoop_Step cfg _ _ _ _ hs1.valid h2
  exact ⟨hs1.trans hs2, by have := hs2.2.1; omega⟩

theorem IntegerLoop_Step :
    ∀ (u : List Char) (result : Double) (st : ParserState), st.unread = u → st.Valid →
      st.Step (IntegerLoop u result st).2 := by
  intro u
  induction u with
  | nil => intro result st _ hv; exact ParserState.Step.refl hv
  | cons c u ih =>
      intro result st hu hv
      unfold IntegerLoop
      split
      · exact (ParserState.Step.consume hu).trans
          (ih _ _ (ParserState.unread_consume hu) (ParserState.Step.consume hu).valid)
      · exact ParserState.Step.refl hv

theorem FractionLoop_Step :
    ∀ (u : List Char) (fraction divisor : Double) (st : ParserState), st.unread = u → st.Valid →
      st.Step (FractionLoop u fraction divisor st).2 := by
  intro u
  induction u with
  | nil => intro fraction divisor st _ hv; exact ParserState.Step.refl hv
  | cons c u ih =>
      intro fraction divisor st hu hv
      unfold FractionLoop
      split
      · exact (ParserState.Step.consume hu).trans
          (ih _ _ _ (ParserState.unread_consume hu) (ParserState.Step.consume hu).valid)
      · exact ParserState.Step.refl hv

theorem ExponentLoop_Step :
    ∀ (u : List Char) (exponent : Int) (st : ParserState), st.unread = u → st.Valid →
      st.Step (ExponentLoop u exponent st).2 := by
  intro u
  induction u with
  | nil => intro exponent st _ hv; exact ParserState.Step.refl hv
  | cons c u ih =>
      intro exponent st hu hv
      unfold ExponentLoop
      split
      · exact (ParserState.Step.consume hu).trans
          (ih _ _ (ParserState.unread_consume hu) (ParserState.Step.consume hu).valid)
      · exact ParserState.Step.refl hv

theorem ParseSign_Step {st : ParserState} {r : Bool × ParserState} (hv : st.Valid)
    (h : ParseSign st = .ok r) : st.Step r.2 := by
  unfold ParseSign at h
  simp only [bind, bind_eq_ok] at h
  obtain ⟨c, -, h⟩ := h
  split at h
  · simp only [bind_eq_ok] at h
    obtain ⟨n, hn, h⟩ := h
    simp [pure, Except.pure] at h
    subst h
    exact (Next_Step hn).1
  · simp [pure, Except.pure] at h
    subst h
    exact ParserState.Step.refl hv

theorem ParseFraction_Step {result : Double} {st : ParserState} {r : Double × ParserState}
    (hv : st.Valid) (h : ParseFraction result st = .ok r) : st.Step r.2 := by
  unfold ParseFraction at h
  simp only [bind, bind_eq_ok] at h
  obtain ⟨c, -, h⟩ := h
  split at h
  · simp only [bind_eq_ok] at h
    obtain ⟨n, hn, h⟩ := h
    simp [pure, Except.pure] at h
    subst h
    exact (Next_Step hn).1.trans (FractionLoop_Step _ _ _ _ rfl (Next_Step hn).1.valid)
  · simp [pure, Except.pure] at h
    subst h
    exact ParserState.Step.refl hv

theorem ParseExponentSign_Step {st : ParserState} {r : Bool × ParserState} (hv : st.Valid)
    (h : ParseExponentSign st = .ok r) : st.Step r.2 := by
  unfold ParseExponentSign at h
  simp only [bind, bind_eq_ok] at h
  obtain ⟨c, -, h⟩ := h
  split at h
  · simp only [bind_eq_ok] at h
    obtain ⟨n, hn, h⟩ := h
    simp [pure, Except.pure] at h
    subst h
    exact (Next_Step hn).1
  · split at h
    · simp only [bind_eq_ok] at h
      obtain ⟨n, hn, h⟩ := h
      simp [pure, Except.pure] at h
      subst h
      exact (Next_Step hn).1
    · simp [pure, Except.pure] at h
      subst h
      exact ParserState.Step.refl hv

theorem ParseExponent_Step {result : Double} {st : ParserState} {r : Double × ParserState}
    (hv : st.Valid) (h : ParseExponent result st = .ok r) : st.Step r.2 := by
  unfold ParseExponent at h
  simp only [bind, bind_eq_ok] at h
  obtain ⟨c, -, h⟩ := h
  split at h
  · simp only [bind_eq_ok] at h
    obtain ⟨n, hn, s, hs, h⟩ := h
    simp [pure, Except.pure] at h
    subst h
    have h1 := (Next_Step hn).1
    have h2 := ParseExponentSign_Step h1.valid hs
    exact h1.trans (h2.trans (ExponentLoop_Step _ _ _ rfl h2.valid))
  · simp [pure, Except.pure] at h
    subst h
    exact ParserState.Step.refl hv

theorem ParseNumber_Step {st : ParserState} {r : Double × ParserState} (hv : st.Valid)
    (h : ParseNumber st = .ok r) : st.Step r.2 := by
  unfold ParseNumber at h
  simp only [bind, bind_eq_ok] at h
  obtain ⟨s, hs, f, hf, x, hx, h⟩ := h
  simp [pure, Except.pure] at h
  subst h
  have h1 := ParseSign_Step hv hs
  have h2 := IntegerLoop_Step _ (Double.ofInt 0) _ rfl h1.valid
  have h3 := ParseFraction_Step h2.valid hf
  have h4 := ParseExponent_Step h3.valid hx
  exact h1.trans (h2.trans (h3.trans h4))

theorem Advance_spec :
    ∀ (count : Nat) (st : ParserState), st.position_ + count ≤ st.input_.length →
      (Advance count st).input_ = st.input_ ∧ (Advance count st).position_ = st.position_ + count := by
  intro count
  induction count with
  | zero => intro st _; exact ⟨rfl, rfl⟩
  | succ n ih =>
      intro st h
      unfold Advance
      cases hg : st.input_[st.position_]? with
      | none =>
          have := List.getElem?_eq_none_iff.mp hg
          omega
      | some c =>
          simp only
          have h1 := ih (st.consume c) (by rw [st.consume_position, st.consume_input]; omega)
          rw [st.consume_position, st.consume_input] at h1
          exact ⟨h1.1, by rw [h1.2]; omega⟩

theorem Match_false {st : ParserState} {str : List Char} {st1 : ParserState}
    (h : Match st str = (false, st1)) : st1 = st := by
  unfold Match at h
  split at h
  · cases h; rfl
  · split at h
    · cases h
    · cases h; rfl

theorem Match_true {st : ParserState} {str : List Char} {st1 : ParserState}
    (h : Match st str = (true, st1)) :
    st.Step st1 ∧ st1.position_ = st.position_ + str.length ∧ st.unread.take str.length = str := by
  unfold Match at h
  split at h
  · cases h
  · rename_i hle
    split at h
    · rename_i ht
      cases h
      obtain ⟨h1, h2⟩ := Advance_spec str.length st (by omega)
      refine ⟨⟨h1, by omega, ?_⟩, h2, ht⟩
      unfold ParserState.Valid
      rw [h1, h2]
      omega
    · cases h

theorem ParseBoolean_Step {st : ParserState} {r : Bool × ParserState}
    (h : ParseBoolean st = .ok r) : st.Step r.2 := by
  unfold ParseBoolean at h
  cases hm : Match st ['t', 'r', 'u', 'e'] with
  | mk b st1 =>
    cases b with
    | true =>
        simp [hm] at h
        subst h
        exact (Match_true hm).1
    | false =>
        have := Match_false hm
        subst this
        simp only [hm] at h
        cases hm2 : Match st1 ['f', 'a', 'l', 's', 'e'] with
        | mk b2 st2 =>
          cases b2 with
          | true =>
              simp [hm2] at h
              subst h
              exact (Match_true hm2).1
          | false => simp [hm2] at h

theorem ParseNull_Step {st st1 : ParserState} (h : ParseNull st = .ok st1) : st.Step st1 := by
  unfold ParseNull at h
  cases hm : Match st ['n', 'u', 'l', 'l'] with
  | mk b st2 =>
    cases b with
    | true =>
        simp [hm] at h
        subst h
        exact (Match_true hm).1
    | false => simp [hm] at h

/-- Frame for the five mutually recursive parsing functions. -/
theorem Parse_Step (cfg : JsonParserConfig) :
    ∀ fuel : Nat,
      (∀ st r, st.Valid → ParseValue cfg fuel st = .ok r → st.Step r.2) ∧
      (∀ st r, st.Valid → ParseObject cfg fuel st = .ok r → st.Step r.2) ∧
      (∀ obj st r, st.Valid → ParseObjectLoop cfg fuel obj st = .ok r → st.Step r.2) ∧
      (∀ st r, st.Valid → ParseArray cfg fuel st = .ok r → st.Step r.2) ∧
      (∀ arr st r, st.Valid → ParseArrayLoop cfg fuel arr st = .ok r → st.Step r.2) := by
  intro fuel
  induction fuel with
  | zero =>
      refine ⟨?_, ?_, ?_, ?_, ?_⟩ <;> intros <;> rename_i h <;>
        simp [ParseValue, ParseObject, ParseObjectLoop, ParseArray, ParseArrayLoop] at h
  | succ n ih =>
      obtain ⟨ihV, ihO, ihOL, ihA, ihAL⟩ := ih
      refine ⟨?_, ?_, ?_, ?_, ?_⟩
      · intro st r hv h
        rw [ParseValue] at h
        simp only [bind, bind_eq_ok] at h
        obtain ⟨-, -, c, -, h⟩ := h
        have h0 := SkipSeparators_Step cfg hv
        split at h
        · simp only [bind_eq_ok] at h
          obtain ⟨x, hx, h⟩ := h
          simp [pure, Except.pure] at h
          subst h
          exact h0.trans (ihO _ _ h0.valid hx)
        · split at h
          · simp only [bind_eq_ok] at h
            obtain ⟨x, hx, h⟩ := h
            simp [pure, Except.pure] at h
            subst h
            exact h0.trans (ihA _ _ h0.valid hx)
          · split at h
            · simp only [bind_eq_ok] at h
              obtain ⟨x, hx, h⟩ := h
              simp [pure, Except.pure] at h
              subst h
              exact h0.trans (ParseString_Step cfg hx).1
            · split at h
              · simp only [bind_eq_ok] at h
                obtain ⟨x, hx, h⟩ := h
                simp [pure, Except.pure] at h
                subst h
                exact h0.trans (ParseNumber_Step h0.valid hx)
              · split at h
                · simp only [bind_eq_ok] at h
                  obtain ⟨x, hx, h⟩ := h
                  simp [pure, Except.pure] at h
                  subst h
                  exact h0.trans (ParseBoolean_Step hx)
                · split at h
                  · simp only [bind_eq_ok] at h
                    obtain ⟨x, hx, h⟩ := h
                    simp [pure, Except.pure] at h
                    subst h
                    exact h0.trans (ParseNull_Step hx)
                  · cases h
      · intro st r hv h
        rw [ParseObject] at h
        simp only [bind, bind_eq_ok] at h
        obtain ⟨-, -, st1, h1, c, -, h⟩ := h
        have hs1 := (Expect_Step h1).1
        have hs2 := SkipSeparators_Step cfg hs1.valid
        split at h
        · simp only [bind_eq_ok] at h
          obtain ⟨x, hx, h⟩ := h
          simp [pure, Except.pure] at h
          subst h
          exact hs1.trans (hs2.trans (Next_Step hx).1)
        · exact hs1.trans (hs2.trans (ihOL _ _ _ hs2.valid h))
      · intro obj st r hv h
        rw [ParseObjectLoop] at h
        simp only [bind, bind_eq_ok] at h
        obtain ⟨k, hk, st2, h2, v, hv2, c, -, h⟩ := h
        have hs0 := SkipSeparators_Step cfg hv
        have hs1 := (ParseString_Step cfg hk).1
        have hs2 := SkipSeparators_Step cfg hs1.valid
        have hs3 := (Expect_Step h2).1
        have hs4 := SkipSeparators_Step cfg hs3.valid
        have hs5 := ihV _ _ hs4.valid hv2
        have hs6 := SkipSeparators_Step cfg hs5.valid
        have hs := hs0.trans (hs1.trans (hs2.trans (hs3.trans (hs4.trans (hs5.trans hs6)))))
        split at h
        · simp only [bind_eq_ok] at h
          obtain ⟨x, hx, h⟩ := h
          simp [pure, Except.pure] at h
          subst h
          exact hs.trans (Next_Step hx).1
        · split at h
          · simp only [bind_eq_ok] at h
            obtain ⟨x, hx, h⟩ := h
            exact hs.trans ((Next_Step hx).1.trans (ihOL _ _ _ (Next_Step hx).1.valid h))
          · cases h
      · intro st r hv h
        rw [ParseArray] at h
        simp only [bind, bind_eq_ok] at h
        obtain ⟨-, -, st1, h1, c, -, h⟩ := h
        have hs1 := (Expect_Step h1).1
        have hs2 := SkipSeparators_Step cfg hs1.valid
        split at h
        · simp only [bind_eq_ok] at h
          obtain ⟨x, hx, h⟩ := h
          simp [pure, Except.pure] at h
          subst h
          exact hs1.trans (hs2.trans (Next_Step hx).1)
        · exact hs1.trans (hs2.trans (ihAL _ _ _ hs2.valid h))
      · intro arr st r hv h
        rw [ParseArrayLoop] at h
        simp only [bind, bind_eq_ok] at h
        obtain ⟨v, hv2, c, -, h⟩ := h
        have hs0 := SkipSeparators_Step cfg hv
        have hs5 := ihV _ _ hs0.valid hv2
        have hs6 := SkipSeparators_Step cfg hs5.valid
        have hs := hs0.trans (hs5.trans hs6)
        split at h
        · simp only [bind_eq_ok] at h
          obtain ⟨x, hx, h⟩ := h
          simp [pure, Except.pure] at h
          subst h
          exact hs.trans (Next_Step hx).1
        · split at h
          · simp only [bind_eq_ok] at h
            obtain ⟨x, hx, h⟩ := h
            exact hs.trans ((Next_Step hx).1.trans (ihAL _ _ _ (Next_Step hx).1.valid h))
          · cases h

/-! ### Fuel: more fuel never changes an outcome other than `outOfFuel` -/

theorem ParseStringLoop_succ (cfg : JsonParserConfig) :
    ∀ (fuel : Nat) (result : List Char) (st : ParserState),
      ParseStringLoop cfg fuel result st ≠ .error .outOfFuel →
      ParseStringLoop cfg (fuel + 1) result st = ParseStringLoop cfg fuel result st := by
  intro fuel
  induction fuel with
  | zero => intro result st h; simp [ParseStringLoop] at h
  | succ n ih =>
      intro result st h
      rw [ParseStringLoop] at h
      conv_lhs => rw [ParseStringLoop]
      conv_rhs => rw [ParseStringLoop]
      split
      · rename_i hlt
        simp only [hlt, if_true] at h
        cases hx : Next st with
        | error e => rfl
        | ok x =>
            simp only [hx, bind, Except.bind] at h ⊢
            split
            · rfl
            · rename_i hq
              simp only [hq, if_false] at h
              cases hy : ParseStringStep cfg x.1 result x.2 with
              | error e => rfl
              | ok y =>
                  simp only [hy] at h ⊢
                  cases hz : ValidateStringLength cfg y.1.length with
                  | error e => rfl
                  | ok z =>
                      simp only [hz] at h ⊢
                      exact ih _ _ h
      · rfl

theorem ParseStringLoop_mono (cfg : JsonParserConfig) (fuel k : Nat) (result : List Char)
    (st : ParserState) (h : ParseStringLoop cfg fuel result st ≠ .error .outOfFuel) :
    ParseStringLoop cfg (fuel + k) result st = ParseStringLoop cfg fuel result st := by
  induction k with
  | zero => rfl
  | succ k ih =>
      rw [← Nat.add_assoc, ParseStringLoop_succ cfg (fuel + k) result st (by rw [ih]; exact h), ih]

/-- One more unit of fuel leaves every outcome other than `outOfFuel` as it
is, for the five mutually recursive parsing functions. -/
theorem Parse_succ (cfg : JsonParserConfig) :
    ∀ fuel : Nat,
      (∀ st, ParseValue cfg fuel st ≠ .error .outOfFuel →
        ParseValue cfg (fuel + 1) st = ParseValue cfg fuel st) ∧
      (∀ st, ParseObject cfg fuel st ≠ .error .outOfFuel →
        ParseObject cfg (fuel + 1) st = ParseObject cfg fuel st) ∧
      (∀ obj st, ParseObjectLoop cfg fuel obj st ≠ .error .outOfFuel →
        ParseObjectLoop cfg (fuel + 1) obj st = ParseObjectLoop cfg fuel obj st) ∧
      (∀ st, ParseArray cfg fuel st ≠ .error .outOfFuel →
        ParseArray cfg (fuel + 1) st = ParseArray cfg fuel st) ∧
      (∀ arr st, ParseArrayLoop cfg fuel arr st ≠ .error .outOfFuel →
        ParseArrayLoop cfg (fuel + 1) arr st = ParseArrayLoop cfg fuel arr st) := by
  intro fuel
  induction fuel with
  | zero =>
      refine ⟨?_, ?_, ?_, ?_, ?_⟩ <;> intros <;> rename_i h <;>
        simp [ParseValue, ParseObject, ParseObjectLoop, ParseArray, ParseArrayLoop] at h
  | succ n ih =>
      obtain ⟨ihV, ihO, ihOL, ihA, ihAL⟩ := ih
      refine ⟨?_, ?_, ?_, ?_, ?_⟩
      · intro st h
        rw [ParseValue] at h
        conv_lhs => rw [ParseValue]
        conv_rhs => rw [ParseValue]
        simp only [ValidateDepth_zero, bind, Except.bind] at h ⊢
        cases hc : Current (SkipSeparators cfg st) with
        | error e => rfl
        | ok c =>
            simp only [hc] at h ⊢
            split
            · rename_i h1
              simp only [h1, if_true] at h
              rw [ihO _ (by intro hne; rw [hne] at h; exact h rfl)]
            · rename_i h1
              simp only [h1, if_false] at h
              split
              · rename_i h2
                simp only [h2, if_true] at h
                rw [ihA _ (by intro hne; rw [hne] at h; exact h rfl)]
              · rfl
      · intro st h
        rw [ParseObject] at h
        conv_lhs => rw [ParseObject]
        conv_rhs => rw [ParseObject]
        simp only [ValidateDepth_zero, bind, Except.bind] at h ⊢
        cases h1 : Expect st '{' with
        | error e => rfl
        | ok st1 =>
            simp only [h1] at h ⊢
            cases hc : Current (SkipSeparators cfg st1) with
            | error e => rfl
            | ok c =>
                simp only [hc] at h ⊢
                split
                · rfl
                · rename_i h2
                  simp only [h2, if_false] at h
                  exact ihOL _ _ h
      · intro obj st h
        rw [ParseObjectLoop] at h
        conv_lhs => rw [ParseObjectLoop]
        conv_rhs => rw [ParseObjectLoop]
        simp only [bind, Except.bind] at h ⊢
        cases hk : ParseString cfg (SkipSeparators cfg st) with
        | error e => rfl
        | ok k =>
            simp only [hk] at h ⊢
            cases h2 : Expect (SkipSeparators cfg k.2) ':' with
            | error e => rfl
            | ok st2 =>
                simp only [h2] at h ⊢
                have hV : ParseValue cfg (n + 1) (SkipSeparators cfg st2) =
                    ParseValue cfg n (SkipSeparators cfg st2) :=
                  ihV _ (by intro hne; rw [hne] at h; exact h rfl)
                rw [hV]
                cases hv : ParseValue cfg n (SkipSeparators cfg st2) with
                | error e => rfl
                | ok v =>
                    simp only [hv] at h ⊢
                    cases hc : Current (SkipSeparators cfg v.2) with
                    | error e => rfl
                    | ok c =>
                        simp only [hc] at h ⊢
                        split
                        · rfl
                        · rename_i h3
                          simp only [h3, if_false] at h
                          split
                          · rename_i h4
                            simp only [h4, if_true] at h
                            cases hx : Next (SkipSeparators cfg v.2) with
                            | error e => rfl
                            | ok x =>
                                simp only [hx] at h ⊢
                                exact ihOL _ _ h
                          · rfl
      · intro st h
        rw [ParseArray] at h
        conv_lhs => rw [ParseArray]
        conv_rhs => rw [ParseArray]
        simp only [ValidateDepth_zero, bind, Except.bind] at h ⊢
        cases h1 : Expect st '[' with
        | error e => rfl
        | ok st1 =>
            simp only [h1] at h ⊢
            cases hc : Current (SkipSeparators cfg st1) with
            | error e => rfl
            | ok c =>
                simp only [hc] at h ⊢
                split
                · rfl
                · rename_i h2
                  simp only [h2, if_false] at h
                  exact ihAL _ _ h
      · intro arr st h
        rw [ParseArrayLoop] at h
        conv_lhs => rw [ParseArrayLoop]
        conv_rhs => rw [ParseArrayLoop]
        simp only [bind, Except.bind] at h ⊢
        have hV : ParseValue cfg (n + 1) (SkipSeparators cfg st) =
            ParseValue cfg n (SkipSeparators cfg st) :=
          ihV _ (by intro hne; rw [hne] at h; exact h rfl)
        rw [hV]
        cases hv : ParseValue cfg n (SkipSeparators cfg st) with
        | error e => rfl
        | ok v =>
            simp only [hv] at h ⊢
            cases hc : Current (SkipSeparators cfg v.2) with
            | error e => rfl
            | ok c =>
                simp only [hc] at h ⊢
                split
                · rfl
                · rename_i h3
                  simp only [h3, if_false] at h
                  split
                  · rename_i h4
                    simp only [h4, if_true] at h
                    cases hx : Next (SkipSeparators cfg v.2) with
                    | error e => rfl
                    | ok x =>
                        simp only [hx] at h ⊢
                        exact ihAL _ _ h
                  · rfl

theorem ParseValue_mono (cfg : JsonParserConfig) (fuel k : Nat) (st : ParserState)
    (h : ParseValue cfg fuel st ≠ .error .outOfFuel) :
    ParseValue cfg (fuel + k) st = ParseValue cfg fuel st := by
  induction k with
  | zero => rfl
  | succ k ih =>
      rw [← Nat.add_assoc, (Parse_succ cfg (fuel + k)).1 st (by rw [ih]; exact h), ih]

theorem ParseValue_mono_le (cfg : JsonParserConfig) {fuel fuel1 : Nat} (hle : fuel ≤ fuel1)
    (st : ParserState) (h : ParseValue cfg fuel st ≠ .error .outOfFuel) :
    ParseValue cfg fuel1 st = ParseValue cfg fuel st := by
  obtain ⟨k, rfl⟩ := Nat.exists_eq_add_of_le hle
  exact ParseValue_mono cfg fuel k st h

/-! ### Fuel: `3 * (unread length) + 1` units are enough -/

theorem error_ne_outOfFuel {α β : Type} {x : Except Failure α} {e : Failure}
    (h : x = .error e) (hx : x ≠ .error .outOfFuel) :
    (Except.error e : Except Failure β) ≠ .error .outOfFuel := by
  subst h
  intro h1
  apply hx
  cases h1
  rfl

theorem Current_ne_outOfFuel (st : ParserState) : Current st ≠ .error .outOfFuel := by
  unfold Current
  split <;> simp [ThrowParseError]

theorem Next_ne_outOfFuel (st : ParserState) : Next st ≠ .error .outOfFuel := by
  unfold Next
  split <;> simp [ThrowParseError]

theorem Expect_ne_outOfFuel (st : ParserState) (c : Char) : Expect st c ≠ .error .outOfFuel := by
  unfold Expect
  cases h1 : Current st with
  | error e => simp only [bind, Except.bind]; exact error_ne_outOfFuel h1 (Current_ne_outOfFuel st)
  | ok got =>
      simp only [bind, Except.bind]
      split
      · simp [ThrowParseError]
      · cases h2 : Next st with
        | error e => simp only []; exact error_ne_outOfFuel h2 (Next_ne_outOfFuel st)
        | ok r => simp [pure, Except.pure]

theorem UnicodeEscapeLoop_ne_outOfFuel :
    ∀ (count : Nat) (st : ParserState), UnicodeEscapeLoop count st ≠ .error .outOfFuel := by
  intro count
  induction count with
  | zero => intro st; simp [UnicodeEscapeLoop]
  | succ n ih =>
      intro st
      unfold UnicodeEscapeLoop
      split
      · simp [ThrowParseError]
      · split
        · exact ih _
        · simp [ThrowParseError]

theorem ParseStringStep_ne_outOfFuel (cfg : JsonParserConfig) (c : Char) (result : List Char)
    (st : ParserState) : ParseStringStep cfg c result st ≠ .error .outOfFuel := by
  unfold ParseStringStep
  split
  · cases h1 : Next st with
    | error e => simp only [bind, Except.bind]; exact error_ne_outOfFuel h1 (Next_ne_outOfFuel st)
    | ok r =>
        simp only [bind, Except.bind]
        split
        · cases h2 : UnicodeEscapeLoop 4 r.2 with
          | error e => simp only []; exact error_ne_outOfFuel h2 (UnicodeEscapeLoop_ne_outOfFuel _ _)
          | ok x => simp [pure, Except.pure]
        · simp [pure, Except.pure]
  · split
    · split
      · simp [ThrowParseError]
      · simp [pure, Except.pure]
    · simp [pure, Except.pure]

theorem ValidateStringLength_ne_outOfFuel (cfg : JsonParserConfig) (n : Nat) :
    ValidateStringLength cfg n ≠ .error .outOfFuel := by
  unfold ValidateStringLength
  split <;> simp

theorem ParseStringLoop_fuel (cfg : JsonParserConfig) :
    ∀ (fuel : Nat) (result : List Char) (st : ParserState), st.Valid →
      st.input_.length - st.position_ + 1 ≤ fuel →
      ParseStringLoop cfg fuel result st ≠ .error .outOfFuel := by
  intro fuel
  induction fuel with
  | zero => intro result st _ h; omega
  | succ n ih =>
      intro result st hv hf
      rw [ParseStringLoop]
      split
      · rename_i hlt
        cases hx : Next st with
        | error e => simp only [bind, Except.bind]; exact error_ne_outOfFuel hx (Next_ne_outOfFuel st)
        | ok x =>
            simp only [bind, Except.bind]
            obtain ⟨hs1, hp1⟩ := Next_Step hx
            split
            · simp [pure, Except.pure]
            · cases hy : ParseStringStep cfg x.1 result x.2 with
              | error e => simp only []; exact error_ne_outOfFuel hy (ParseStringStep_ne_outOfFuel _ _ _ _)
              | ok y =>
                  simp only []
                  cases hz : ValidateStringLength cfg y.1.length with
                  | error e =>
                      simp only []; exact error_ne_outOfFuel hz (ValidateStringLength_ne_outOfFuel _ _)
                  | ok z =>
                      simp only []
                      have hs2 := ParseStringStep_Step cfg hs1.valid hy
                      apply ih _ _ hs2.valid
                      have e1 := hs2.1
                      have e2 := hs1.1
                      have p2 := hs2.2.1
                      rw [e1, e2]
                      omega
      · simp [pure, Except.pure]

theorem ParseString_ne_outOfFuel (cfg : JsonParserConfig) (st : ParserState) :
    ParseString cfg st ≠ .error .outOfFuel := by
  unfold ParseString
  cases h1 : Expect st '"' with
  | error e => simp only [bind, Except.bind]; exact error_ne_outOfFuel h1 (Expect_ne_outOfFuel _ _)
  | ok st1 =>
      simp only [bind, Except.bind]
      obtain ⟨u, hu, rfl⟩ := Expect_eq_ok h1
      have hs := ParserState.Step.consume hu
      apply ParseStringLoop_fuel cfg _ _ _ hs.valid
      rw [ParserState.unread_length]

theorem ParseSign_ne_outOfFuel (st : ParserState) : ParseSign st ≠ .error .outOfFuel := by
  unfold ParseSign
  cases h1 : Current st with
  | error e => simp only [bind, Except.bind]; exact error_ne_outOfFuel h1 (Current_ne_outOfFuel st)
  | ok c =>
      simp only [bind, Except.bind]
      split
      · cases h2 : Next st with
        | error e => simp only []; exact error_ne_outOfFuel h2 (Next_ne_outOfFuel st)
        | ok r => simp [pure, Except.pure]
      · simp [pure, Except.pure]

theorem ParseFraction_ne_outOfFuel (result : Double) (st : ParserState) :
    ParseFraction result st ≠ .error .outOfFuel := by
  unfold ParseFraction
  cases h1 : Current st with
  | error e => simp only [bind, Except.bind]; exact error_ne_outOfFuel h1 (Current_ne_outOfFuel st)
  | ok c =>
      simp only [bind, Except.bind]
      split
      · cases h2 : Next st with
        | error e => simp only []; exact error_ne_outOfFuel h2 (Next_ne_outOfFuel st)
        | ok r => simp [pure, Except.pure]
      · simp [pure, Except.pure]

theorem ParseExponentSign_ne_outOfFuel (st : ParserState) :
    ParseExponentSign st ≠ .error .outOfFuel := by
  unfold ParseExponentSign
  cases h1 : Current st with
  | error e => simp only [bind, Except.bind]; exact error_ne_outOfFuel h1 (Current_ne_outOfFuel st)
  | ok c =>
      simp only [bind, Except.bind]
      split
      · cases h2 : Next st with
        | error e => simp only []; exact error_ne_outOfFuel h2 (Next_ne_outOfFuel st)
        | ok r => simp [pure, Except.pure]
      · split
        · cases h2 : Next st with
          | error e => simp only []; exact error_ne_outOfFuel h2 (Next_ne_outOfFuel st)
          | ok r => simp [pure, Except.pure]
        · simp [pure, Except.pure]

theorem ParseExponent_ne_outOfFuel (result : Double) (st : ParserState) :
    ParseExponent result st ≠ .error .outOfFuel := by
  unfold ParseExponent
  cases h1 : Current st with
  | error e => simp only [bind, Except.bind]; exact error_ne_outOfFuel h1 (Current_ne_outOfFuel st)
  | ok c =>
      simp only [bind, Except.bind]
      split
      · cases h2 : Next st with
        | error e => simp only []; exact error_ne_outOfFuel h2 (Next_ne_outOfFuel st)
        | ok r =>
            simp only []
            cases h3 : ParseExponentSign r.2 with
            | error e => simp only []; exact error_ne_outOfFuel h3 (ParseExponentSign_ne_outOfFuel _)
            | ok s => simp [pure, Except.pure]
      · simp [pure, Except.pure]

theorem ParseNumber_ne_outOfFuel (st : ParserState) : ParseNumber st ≠ .error .outOfFuel := by
  unfold ParseNumber
  cases h1 : ParseSign st with
  | error e => simp only [bind, Except.bind]; exact error_ne_outOfFuel h1 (ParseSign_ne_outOfFuel st)
  | ok s =>
      simp only [bind, Except.bind]
      cases h2 : ParseFraction (IntegerLoop s.2.unread (Double.ofInt 0) s.2).1
          (IntegerLoop s.2.unread (Double.ofInt 0) s.2).2 with
      | error e => simp only []; exact error_ne_outOfFuel h2 (ParseFraction_ne_outOfFuel _ _)
      | ok f =>
          simp only []
          cases h3 : ParseExponent f.1 f.2 with
          | error e => simp only []; exact error_ne_outOfFuel h3 (ParseExponent_ne_outOfFuel _ _)
          | ok r => simp [pure, Except.pure]

theorem ParseBoolean_ne_outOfFuel (st : ParserState) : ParseBoolean st ≠ .error .outOfFuel := by
  unfold ParseBoolean
  simp only []
  split
  · simp
  · split
    · simp
    · simp [ThrowParseError]

theorem ParseNull_ne_outOfFuel (st : ParserState) : ParseNull st ≠ .error .outOfFuel := by
  unfold ParseNull
  simp only []
  split
  · simp
  · simp [ThrowParseError]

/-- The five mutually recursive parsing functions do not run out of fuel when
they are given three units for each unread character (and one or two more). -/
theorem Parse_fuel (cfg : JsonParserConfig) :
    ∀ fuel : Nat,
      (∀ st, st.Valid → 3 * (st.input_.length - st.position_) + 1 ≤ fuel →
        ParseValue cfg fuel st ≠ .error .outOfFuel) ∧
      (∀ st, st.Valid → 3 * (st.input_.length - st.position_) ≤ fuel →
        st.position_ < st.input_.length → ParseObject cfg fuel st ≠ .error .outOfFuel) ∧
      (∀ obj st, st.Valid → 3 * (st.input_.length - st.position_) + 2 ≤ fuel →
        ParseObjectLoop cfg fuel obj st ≠ .error .outOfFuel) ∧
      (∀ st, st.Valid → 3 * (st.input_.length - st.position_) ≤ fuel →
        st.position_ < st.input_.length → ParseArray cfg fuel st ≠ .error .outOfFuel) ∧
      (∀ arr st, st.Valid → 3 * (st.input_.length - st.position_) + 2 ≤ fuel →
        ParseArrayLoop cfg fuel arr st ≠ .error .outOfFuel) := by
  intro fuel
  induction fuel with
  | zero =>
      refine ⟨?_, ?_, ?_, ?_, ?_⟩ <;> intros <;> omega
  | succ n ih =>
      obtain ⟨ihV, ihO, ihOL, ihA, ihAL⟩ := ih
      refine ⟨?_, ?_, ?_, ?_, ?_⟩
      · intro st hv hf
        rw [ParseValue]
        simp only [ValidateDepth_zero, bind, Except.bind]
        have h0 := SkipSeparators_Step cfg hv
        have e0 := h0.1
        have p0 := h0.2.1
        cases hc : Current (SkipSeparators cfg st) with
        | error e => simp only []; exact error_ne_outOfFuel hc (Current_ne_outOfFuel _)
        | ok c =>
            simp only []
            obtain ⟨u, hu⟩ := Current_eq_ok hc
            have hlt := ParserState.lt_of_unread hu
            split
            · have := ihO _ h0.valid (by rw [e0]; omega) hlt
              cases hx : ParseObject cfg n (SkipSeparators cfg st) with
              | error e => simp only []; exact error_ne_outOfFuel hx (this)
              | ok x => simp [pure, Except.pure]
            · split
              · have := ihA _ h0.valid (by rw [e0]; omega) hlt
                cases hx : ParseArray cfg n (SkipSeparators cfg st) with
                | error e => simp only []; exact error_ne_outOfFuel hx (this)
                | ok x => simp [pure, Except.pure]
              · split
                · cases hx : ParseString cfg (SkipSeparators cfg st) with
                  | error e => simp only []; exact error_ne_outOfFuel hx (ParseString_ne_outOfFuel _ _)
                  | ok x => simp [pure, Except.pure]
                · split
                  · cases hx : ParseNumber (SkipSeparators cfg st) with
                    | error e => simp only []; exact error_ne_outOfFuel hx (ParseNumber_ne_outOfFuel _)
                    | ok x => simp [pure, Except.pure]
                  · split
                    · cases hx : ParseBoolean (SkipSeparators cfg st) with
                      | error e => simp only []; exact error_ne_outOfFuel hx (ParseBoolean_ne_outOfFuel _)
                      | ok x => simp [pure, Except.pure]
                    · split
                      · cases hx : ParseNull (SkipSeparators cfg st) with
                        | error e => simp only []; exact error_ne_outOfFuel hx (ParseNull_ne_outOfFuel _)
                        | ok x => simp [pure, Except.pure]
                      · simp [ThrowParseError]
      · intro st hv hf hlt
        rw [ParseObject]
        simp only [ValidateDepth_zero, bind, Except.bind]
        cases h1 : Expect st '{' with
        | error e => simp only []; exact error_ne_outOfFuel h1 (Expect_ne_outOfFuel _ _)
        | ok st1 =>
            simp only []
            obtain ⟨hs1, hp1⟩ := Expect_Step h1
            have hs2 := SkipSeparators_Step cfg hs1.valid
            have e1 := hs1.1
            have e2 := hs2.1
            have p2 := hs2.2.1
            cases hc : Current (SkipSeparators cfg st1) with
            | error e => simp only []; exact error_ne_outOfFuel hc (Current_ne_outOfFuel _)
            | ok c =>
                simp only []
                split
                · cases hx : Next (SkipSeparators cfg st1) with
                  | error e => simp only []; exact error_ne_outOfFuel hx (Next_ne_outOfFuel _)
                  | ok x => simp [pure, Except.pure]
                · apply ihOL _ _ hs2.valid
                  rw [e2, e1]
                  omega
      · intro obj st hv hf
        rw [ParseObjectLoop]
        simp only [bind, Except.bind]
        have hs0 := SkipSeparators_Step cfg hv
        cases hk : ParseString cfg (SkipSeparators cfg st) with
        | error e => simp only []; exact error_ne_outOfFuel hk (ParseString_ne_outOfFuel _ _)
        | ok k =>
            simp only []
            obtain ⟨hs1, hp1⟩ := ParseString_Step cfg hk
            have hs2 := SkipSeparators_Step cfg hs1.valid
            cases h2 : Expect (SkipSeparators cfg k.2) ':' with
            | error e => simp only []; exact error_ne_outOfFuel h2 (Expect_ne_outOfFuel _ _)
            | ok st2 =>
                simp only []
                obtain ⟨hs3, hp3⟩ := Expect_Step h2
                have hs4 := SkipSeparators_Step cfg hs3.valid
                have e0 := hs0.1
                have e1 := hs1.1
                have e2 := hs2.1
                have e3 := hs3.1
                have e4 := hs4.1
                have p0 := hs0.2.1
                have p2 := hs2.2.1
                have p4 := hs4.2.1
                have hV := ihV _ hs4.valid (by rw [e4, e3, e2, e1, e0]; omega)
                cases hv2 : ParseValue cfg n (SkipSeparators cfg st2) with
                | error e => simp only []; exact error_ne_outOfFuel hv2 (hV)
                | ok v =>
                    simp only []
                    have hs5 := (Parse_Step cfg n).1 _ _ hs4.valid hv2
                    have hs6 := SkipSeparators_Step cfg hs5.valid
                    have e5 := hs5.1
                    have e6 := hs6.1
                    have p5 := hs5.2.1
                    have p6 := hs6.2.1
                    cases hc : Current (SkipSeparators cfg v.2) with
                    | error e => simp only []; exact error_ne_outOfFuel hc (Current_ne_outOfFuel _)
                    | ok c =>
                        simp only []
                        split
                        · cases hx : Next (SkipSeparators cfg v.2) with
                          | error e => simp only []; exact error_ne_outOfFuel hx (Next_ne_outOfFuel _)
                          | ok x => simp [pure, Except.pure]
                        · split
                          · cases hx : Next (SkipSeparators cfg v.2) with
                            | error e => simp only []; exact error_ne_outOfFuel hx (Next_ne_outOfFuel _)
                            | ok x =>
                                simp only []
                                obtain ⟨hs7, hp7⟩ := Next_Step hx
                                have e7 := hs7.1
                                have hlen : x.2.input_ = st.input_ := by
                                  rw [e7, e6, e5, e4, e3, e2, e1, e0]
                                have v7 := hs7.valid
                                unfold ParserState.Valid at v7
                                apply ihOL _ _ hs7.valid
                                rw [hlen] at v7 ⊢
                                omega
                          · simp [ThrowParseError]
      · intro st hv hf hlt
        rw [ParseArray]
        simp only [ValidateDepth_zero, bind, Except.bind]
        cases h1 : Expect st '[' with
        | error e => simp only []; exact error_ne_outOfFuel h1 (Expect_ne_outOfFuel _ _)
        | ok st1 =>
            simp only []
            obtain ⟨hs1, hp1⟩ := Expect_Step h1
            have hs2 := SkipSeparators_Step cfg hs1.valid
            have e1 := hs1.1
            have e2 := hs2.1
            have p2 := hs2.2.1
            cases hc : Current (SkipSeparators cfg st1) with
            | error e => simp only []; exact error_ne_outOfFuel hc (Current_ne_outOfFuel _)
            | ok c =>
                simp only []
                split
                · cases hx : Next (SkipSeparators cfg st1) with
                  | error e => simp only []; exact error_ne_outOfFuel hx (Next_ne_outOfFuel _)
                  | ok x => simp [pure, Except.pure]
                · apply ihAL _ _ hs2.valid
                  rw [e2, e1]
                  omega
      · intro arr st hv hf
        rw [ParseArrayLoop]
        simp only [bind, Except.bind]
        have hs0 := SkipSeparators_Step cfg hv
        have e0 := hs0.1
        have p0 := hs0.2.1
        have hV := ihV _ hs0.valid (by rw [e0]; omega)
        cases hv2 : ParseValue cfg n (SkipSeparators cfg st) with
        | error e => simp only []; exact error_ne_outOfFuel hv2 (hV)
        | ok v =>
            simp only []
            have hs5 := (Parse_Step cfg n).1 _ _ hs0.valid hv2
            have hs6 := SkipSeparators_Step cfg hs5.valid
            have e5 := hs5.1
            have e6 := hs6.1
            have p5 := hs5.2.1
            have p6 := hs6.2.1
            cases hc : Current (SkipSeparators cfg v.2) with
            | error e => simp only []; exact error_ne_outOfFuel hc (Current_ne_outOfFuel _)
            | ok c =>
                simp only []
                split
                · cases hx : Next (SkipSeparators cfg v.2) with
                  | error e => simp only []; exact error_ne_outOfFuel hx (Next_ne_outOfFuel _)
                  | ok x => simp [pure, Except.pure]
                · split
                  · cases hx : Next (SkipSeparators cfg v.2) with
                    | error e => simp only []; exact error_ne_outOfFuel hx (Next_ne_outOfFuel _)
                    | ok x =>
                        simp only []
                        obtain ⟨hs7, hp7⟩ := Next_Step hx
                        have e7 := hs7.1
                        have hlen : x.2.input_ = st.input_ := by
                          rw [e7, e6, e5, e0]
                        have v7 := hs7.valid
                        unfold ParserState.Valid at v7
                        apply ihAL _ _ hs7.valid
                        rw [hlen] at v7 ⊢
                        omega
                  · simp [ThrowParseError]

/-- The fuel that `Parse` supplies is enough: parsing from the initial state
never runs out of fuel. -/
theorem ParseValue_fuel_enough (cfg : JsonParserConfig) (json : List Char) :
    ParseValue cfg (3 * json.length + 3) (ParserState.Initialize json) ≠ .error .outOfFuel := by
  apply (Parse_fuel cfg _).1
  · exact Nat.zero_le _
  · simp [ParserState.Initialize]

/-! ### Appending text to the input -/

theorem ParserState.extend_consume (st : ParserState) (c : Char) (t : List Char) :
    (st.consume c).extend t = (st.extend t).consume c := by
  unfold ParserState.consume ParserState.extend
  split <;> rfl

theorem ParserState.unread_extend {st : ParserState} (hv : st.Valid) (t : List Char) :
    (st.extend t).unread = st.unread ++ t := by
  unfold ParserState.unread ParserState.extend
  exact List.drop_append_of_le_length hv

theorem ParserState.valid_of_unread {st : ParserState} {c : Char} {u : List Char}
    (h : st.unread = c :: u) : st.Valid :=
  Nat.le_of_lt (ParserState.lt_of_unread h)

theorem ParserState.unread_extend_cons {st : ParserState} {c : Char} {u : List Char}
    (h : st.unread = c :: u) (t : List Char) : (st.extend t).unread = c :: (u ++ t) := by
  rw [ParserState.unread_extend (ParserState.valid_of_unread h), h]
  rfl

theorem ParserState.unread_eq_nil {st : ParserState} (hv : st.Valid) (h : st.unread = []) :
    st.position_ = st.input_.length := by
  have := st.unread_length
  rw [h] at this
  simp at this
  unfold ParserState.Valid at hv
  omega

theorem ParserState.unread_ne_nil_of_Step {st st1 : ParserState} (hs : st.Step st1)
    (h : st1.unread ≠ []) : st.unread ≠ [] := by
  intro hu
  apply h
  have h1 := st.unread_length
  rw [hu] at h1
  simp at h1
  have h2 := st1.unread_length
  have hlen : st1.input_.length = st.input_.length := by rw [hs.1]
  have := hs.2.1
  apply List.eq_nil_of_length_eq_zero
  rw [h2]
  omega

theorem ThrowParseError_LocatedAt {st : ParserState} (hv : st.Valid) (h : st.unread = [])
    (message : Message) {e : JsonParseException}
    (he : ThrowParseError st message = .exception e) : e.LocatedAt st.input_.length := by
  unfold ThrowParseError at he
  cases he
  exact ⟨_, _, _, by rw [ParserState.unread_eq_nil hv h]⟩

theorem Current_extend {st : ParserState} {c : Char} (t : List Char) (h : Current st = .ok c) :
    Current (st.extend t) = .ok c := by
  obtain ⟨u, hu⟩ := Current_eq_ok h
  exact Current_of_unread (ParserState.unread_extend_cons hu t)

theorem Next_extend {st : ParserState} {r : Char × ParserState} (t : List Char)
    (h : Next st = .ok r) : Next (st.extend t) = .ok (r.1, r.2.extend t) := by
  obtain ⟨u, hu, hr⟩ := Next_eq_ok h
  rw [Next_of_unread (ParserState.unread_extend_cons hu t), hr, ParserState.extend_consume]

theorem Expect_extend {st st1 : ParserState} {c : Char} (t : List Char)
    (h : Expect st c = .ok st1) : Expect (st.extend t) c = .ok (st1.extend t) := by
  obtain ⟨u, hu, hr⟩ := Expect_eq_ok h
  rw [Expect_of_unread (ParserState.unread_extend_cons hu t), hr, ParserState.extend_consume]

theorem SkipWhitespaceLoop_extend (t : List Char) :
    ∀ (u : List Char) (st : ParserState), st.unread = u →
      (SkipWhitespaceLoop u st).unread ≠ [] →
      SkipWhitespaceLoop (u ++ t) (st.extend t) = (SkipWhitespaceLoop u st).extend t := by
  intro u
  induction u with
  | nil =>
      intro st hu h
      simp only [SkipWhitespaceLoop] at h
      exact absurd hu h
  | cons c u ih =>
      intro st hu h
      simp only [List.cons_append]
      unfold SkipWhitespaceLoop at h ⊢
      split
      · rename_i hc
        simp only [hc, if_true] at h
        rw [← ParserState.extend_consume]
        exact ih _ (ParserState.unread_consume hu) h
      · rfl

theorem SkipWhitespace_extend {st : ParserState} (t : List Char)
    (h : (SkipWhitespace st).unread ≠ []) :
    SkipWhitespace (st.extend t) = (SkipWhitespace st).extend t := by
  have hne : st.unread ≠ [] :=
    ParserState.unread_ne_nil_of_Step (SkipWhitespaceLoop_Step _ st rfl (by
      by_contra hv
      apply h
      unfold SkipWhitespace
      have : st.unread = [] := by
        unfold ParserState.unread
        apply List.drop_eq_nil_of_le
        unfold ParserState.Valid at hv
        omega
      rw [this]
      simpa [SkipWhitespaceLoop] using this)) h
  obtain ⟨c, u, hu⟩ := List.exists_cons_of_ne_nil hne
  unfold SkipWhitespace at h ⊢
  rw [ParserState.unread_extend (ParserState.valid_of_unread hu)]
  exact SkipWhitespaceLoop_extend t _ st rfl h

theorem SkipSeparators_extend {cfg : JsonParserConfig} (hc : cfg.allow_comments = false)
    {st : ParserState} (t : List Char) (h : (SkipSeparators cfg st).unread ≠ []) :
    SkipSeparators cfg (st.extend t) = (SkipSeparators cfg st).extend t := by
  rw [SkipSeparators_no_comments hc] at h ⊢
  rw [SkipSeparators_no_comments hc]
  exact SkipWhitespace_extend t h

theorem SkipSeparators_at_end (cfg : JsonParserConfig) {st : ParserState}
    (h : st.unread = []) : SkipSeparators cfg st = st := by
  unfold SkipSeparators SkipWhitespace SkipComments
  rw [h]
  simp only [SkipWhitespaceLoop]
  rw [h]
  simp

theorem UnicodeEscapeLoop_extend (t : List Char) :
    ∀ (count : Nat) (st st1 : ParserState), UnicodeEscapeLoop count st = .ok st1 →
      UnicodeEscapeLoop count (st.extend t) = .ok (st1.extend t) := by
  intro count
  induction count with
  | zero =>
      intro st st1 h
      simp [UnicodeEscapeLoop] at h ⊢
      rw [h]
  | succ n ih =>
      intro st st1 h
      unfold UnicodeEscapeLoop at h ⊢
      rw [st.getElem?_eq_head] at h
      rw [(st.extend t).getElem?_eq_head]
      cases hu : st.unread with
      | nil => simp [hu] at h
      | cons c u =>
          rw [ParserState.unread_extend_cons hu t]
          simp only [hu, List.head?_cons] at h ⊢
          split at h
          · rename_i hx
            simp only [hx, if_true]
            rw [← ParserState.extend_consume]
            exact ih _ _ h
          · cases h

theorem ParseStringStep_extend (cfg : JsonParserConfig) (t : List Char) {c : Char}
    {result : List Char} {st : ParserState} {x : List Char × ParserState}
    (h : ParseStringStep cfg c result st = .ok x) :
    ParseStringStep cfg c result (st.extend t) = .ok (x.1, x.2.extend t) := by
  unfold ParseStringStep at h ⊢
  split at h
  · rename_i hc
    simp only [hc, if_true]
    simp only [bind, bind_eq_ok] at h
    obtain ⟨z, hz, h⟩ := h
    simp only [bind, Except.bind, Next_extend t hz]
    split at h
    · rename_i hu
      simp only [hu, if_true]
      simp only [bind_eq_ok] at h
      obtain ⟨w, hw, h⟩ := h
      simp only [UnicodeEscapeLoop_extend t _ _ _ hw]
      simp [pure, Except.pure] at h
      subst h
      simp [pure, Except.pure, hu]
    · rename_i hu
      simp only [hu, if_false]
      simp [pure, Except.pure] at h
      subst h
      simp [pure, Except.pure]
  · rename_i hc
    simp only [hc, if_false]
    split at h
    · rename_i hn
      simp only [hn, if_true]
      split at h
      · cases h
      · rename_i hs
        simp only [hs]
        simp [pure, Except.pure] at h
        subst h
        simp [pure, Except.pure]
    · rename_i hn
      simp only [hn, if_false]
      simp [pure, Except.pure] at h
      subst h
      simp [pure, Except.pure]

theorem ParseStringLoop_extend (cfg : JsonParserConfig) (t : List Char) :
    ∀ (fuel : Nat) (result : List Char) (st : ParserState) (r : List Char × ParserState),
      ParseStringLoop cfg fuel result st = .ok r → r.2.unread ≠ [] →
      ParseStringLoop cfg fuel result (st.extend t) = .ok (r.1, r.2.extend t) := by
  intro fuel
  induction fuel with
  | zero => intro result st r h; simp [ParseStringLoop] at h
  | succ n ih =>
      intro result st r h hne
      rw [ParseStringLoop] at h ⊢
      split at h
      · rename_i hlt
        have hlt2 : (st.extend t).position_ < (st.extend t).input_.length := by
          simp [ParserState.extend]
          omega
        simp only [hlt2, if_true]
        simp only [bind, bind_eq_ok] at h
        obtain ⟨x, hx, h⟩ := h
        simp only [bind, Except.bind, Next_extend t hx]
        split at h
        · rename_i hq
          simp only [hq, if_true]
          simp [pure, Except.pure] at h
          subst h
          simp [pure, Except.pure]
        · rename_i hq
          simp only [hq, if_false]
          simp only [bind_eq_ok] at h
          obtain ⟨y, hy, z, hz, h⟩ := h
          simp only [ParseStringStep_extend cfg t hy, hz]
          exact ih _ _ _ h hne
      · rename_i hge
        simp [pure, Except.pure] at h
        subst h
        exfalso
        apply hne
        show st.unread = []
        unfold ParserState.unread
        apply List.drop_eq_nil_of_le
        omega

theorem ParseString_extend (cfg : JsonParserConfig) (t : List Char) {st : ParserState}
    {r : List Char × ParserState} (h : ParseString cfg st = .ok r) (hne : r.2.unread ≠ []) :
    ParseString cfg (st.extend t) = .ok (r.1, r.2.extend t) := by
  unfold ParseString at h ⊢
  simp only [bind, bind_eq_ok] at h
  obtain ⟨st1, h1, h2⟩ := h
  simp only [bind, Except.bind, Expect_extend t h1]
  have h3 := ParseStringLoop_extend cfg t _ _ _ _ h2 hne
  obtain ⟨u, hu, hst1⟩ := Expect_eq_ok h1
  have hv1 : st1.Valid := by rw [hst1]; exact (ParserState.Step.consume hu).valid
  rw [ParserState.unread_extend hv1, List.length_append, Nat.add_right_comm]
  rw [ParseStringLoop_mono cfg _ _ _ _ (by rw [h3]; simp), h3]

theorem IntegerLoop_extend (t : List Char) :
    ∀ (u : List Char) (result : Double) (st : ParserState), st.unread = u →
      (IntegerLoop u result st).2.unread ≠ [] →
      IntegerLoop (u ++ t) result (st.extend t) =
        ((IntegerLoop u result st).1, (IntegerLoop u result st).2.extend t) := by
  intro u
  induction u with
  | nil =>
      intro result st hu h
      simp only [IntegerLoop] at h
      exact absurd hu h
  | cons c u ih =>
      intro result st hu h
      simp only [List.cons_append]
      unfold IntegerLoop at h ⊢
      split
      · rename_i hc
        simp only [hc, if_true] at h
        rw [← ParserState.extend_consume]
        exact ih _ _ (ParserState.unread_consume hu) h
      · rfl

theorem FractionLoop_extend (t : List Char) :
    ∀ (u : List Char) (fraction divisor : Double) (st : ParserState), st.unread = u →
      (FractionLoop u fraction divisor st).2.unread ≠ [] →
      FractionLoop (u ++ t) fraction divisor (st.extend t) =
        ((FractionLoop u fraction divisor st).1, (FractionLoop u fraction divisor st).2.extend t) := by
  intro u
  induction u with
  | nil =>
      intro fraction divisor st hu h
      simp only [FractionLoop] at h
      exact absurd hu h
  | cons c u ih =>
      intro fraction divisor st hu h
      simp only [List.cons_append]
      unfold FractionLoop at h ⊢
      split
      · rename_i hc
        simp only [hc, if_true] at h
        rw [← ParserState.extend_consume]
        exact ih _ _ _ (ParserState.unread_consume hu) h
      · rfl

theorem ExponentLoop_extend (t : List Char) :
    ∀ (u : List Char) (exponent : Int) (st : ParserState), st.unread = u →
      (ExponentLoop u exponent st).2.unread ≠ [] →
      ExponentLoop (u ++ t) exponent (st.extend t) =
        ((ExponentLoop u exponent st).1, (ExponentLoop u exponent st).2.extend t) := by
  intro u
  induction u with
  | nil =>
      intro exponent st hu h
      simp only [ExponentLoop] at h
      exact absurd hu h
  | cons c u ih =>
      intro exponent st hu h
      simp only [List.cons_append]
      unfold ExponentLoop at h ⊢
      split
      · rename_i hc
        simp only [hc, if_true] at h
        rw [← ParserState.extend_consume]
        exact ih _ _ (ParserState.unread_consume hu) h
      · rfl

theorem ParserState.valid_of_unread_ne_nil {st : ParserState} (h : st.unread ≠ []) : st.Valid := by
  obtain ⟨c, u, hu⟩ := List.exists_cons_of_ne_nil h
  exact ParserState.valid_of_unread hu

theorem Current_ok_unread_ne_nil {st : ParserState} {c : Char} (h : Current st = .ok c) :
    st.unread ≠ [] := by
  obtain ⟨u, hu⟩ := Current_eq_ok h
  rw [hu]
  simp

theorem ParseSign_extend (t : List Char) {st : ParserState} {r : Bool × ParserState}
    (h : ParseSign st = .ok r) : ParseSign (st.extend t) = .ok (r.1, r.2.extend t) := by
  unfold ParseSign at h ⊢
  simp only [bind, bind_eq_ok] at h
  obtain ⟨c, hc, h⟩ := h
  simp only [bind, Except.bind, Current_extend t hc]
  split at h
  · rename_i hm
    simp only [hm, if_true]
    simp only [bind_eq_ok] at h
    obtain ⟨n, hn, h⟩ := h
    simp only [Next_extend t hn]
    simp [pure, Except.pure] at h
    subst h
    simp [pure, Except.pure]
  · rename_i hm
    simp only [hm, if_false]
    simp [pure, Except.pure] at h
    subst h
    simp [pure, Except.pure]

theorem ParseFraction_extend (t : List Char) {result : Double} {st : ParserState}
    {r : Double × ParserState} (h : ParseFraction result st = .ok r) (hne : r.2.unread ≠ []) :
    ParseFraction result (st.extend t) = .ok (r.1, r.2.extend t) := by
  unfold ParseFraction at h ⊢
  simp only [bind, bind_eq_ok] at h
  obtain ⟨c, hc, h⟩ := h
  simp only [bind, Except.bind, Current_extend t hc]
  split at h
  · rename_i hm
    simp only [hm, if_true]
    simp only [bind_eq_ok] at h
    obtain ⟨n, hn, h⟩ := h
    simp only [Next_extend t hn]
    simp [pure, Except.pure] at h
    subst h
    have hv : n.2.Valid := (Next_Step hn).1.valid
    simp only [pure, Except.pure, ParserState.unread_extend hv]
    rw [FractionLoop_extend t _ _ _ _ rfl hne]
  · rename_i hm
    simp only [hm, if_false]
    simp [pure, Except.pure] at h
    subst h
    simp [pure, Except.pure]

theorem ParseExponentSign_extend (t : List Char) {st : ParserState} {r : Bool × ParserState}
    (h : ParseExponentSign st = .ok r) :
    ParseExponentSign (st.extend t) = .ok (r.1, r.2.extend t) := by
  unfold ParseExponentSign at h ⊢
  simp only [bind, bind_eq_ok] at h
  obtain ⟨c, hc, h⟩ := h
  simp only [bind, Except.bind, Current_extend t hc]
  split at h
  · rename_i hm
    simp only [hm, if_true]
    simp only [bind_eq_ok] at h
    obtain ⟨n, hn, h⟩ := h
    simp only [Next_extend t hn]
    simp [pure, Except.pure] at h
    subst h
    simp [pure, Except.pure]
  · rename_i hm
    simp only [hm, if_false]
    split at h
    · rename_i hp
      simp only [hp, if_true]
      simp only [bind_eq_ok] at h
      obtain ⟨n, hn, h⟩ := h
      simp only [Next_extend t hn]
      simp [pure, Except.pure] at h
      subst h
      simp [pure, Except.pure]
    · rename_i hp
      simp only [hp, if_false]
      simp [pure, Except.pure] at h
      subst h
      simp [pure, Except.pure]

theorem ParseExponent_extend (t : List Char) {result : Double} {st : ParserState}
    {r : Double × ParserState} (h : ParseExponent result st = .ok r) (hne : r.2.unread ≠ []) :
    ParseExponent result (st.extend t) = .ok (r.1, r.2.extend t) := by
  unfold ParseExponent at h ⊢
  simp only [bind, bind_eq_ok] at h
  obtain ⟨c, hc, h⟩ := h
  simp only [bind, Except.bind, Current_extend t hc]
  split at h
  · rename_i hm
    simp only [hm, if_true]
    simp only [bind_eq_ok] at h
    obtain ⟨n, hn, s, hs, h⟩ := h
    simp only [Next_extend t hn, ParseExponentSign_extend t hs]
    simp [pure, Except.pure] at h
    subst h
    have hv : s.2.Valid := (ParseExponentSign_Step (Next_Step hn).1.valid hs).valid
    simp only [pure, Except.pure, ParserState.unread_extend hv]
    rw [ExponentLoop_extend t _ _ _ rfl hne]
  · rename_i hm
    simp only [hm, if_false]
    simp [pure, Except.pure] at h
    subst h
    simp [pure, Except.pure]

theorem ParseFraction_ok_unread {result : Double} {st : ParserState} {r : Double × ParserState}
    (h : ParseFraction result st = .ok r) : st.unread ≠ [] := by
  unfold ParseFraction at h
  simp only [bind, bind_eq_ok] at h
  obtain ⟨c, hc, -⟩ := h
  exact Current_ok_unread_ne_nil hc

theorem ParseExponent_ok_unread {result : Double} {st : ParserState} {r : Double × ParserState}
    (h : ParseExponent result st = .ok r) : st.unread ≠ [] := by
  unfold ParseExponent at h
  simp only [bind, bind_eq_ok] at h
  obtain ⟨c, hc, -⟩ := h
  exact Current_ok_unread_ne_nil hc

theorem ParseSign_ok_unread {st : ParserState} {r : Bool × ParserState}
    (h : ParseSign st = .ok r) : st.unread ≠ [] := by
  unfold ParseSign at h
  simp only [bind, bind_eq_ok] at h
  obtain ⟨c, hc, -⟩ := h
  exact Current_ok_unread_ne_nil hc

theorem ParseNumber_extend (t : List Char) {st : ParserState} {r : Double × ParserState}
    (h : ParseNumber st = .ok r) (hne : r.2.unread ≠ []) :
    ParseNumber (st.extend t) = .ok (r.1, r.2.extend t) := by
  unfold ParseNumber at h ⊢
  simp only [bind, bind_eq_ok] at h
  obtain ⟨s, hs, f, hf, x, hx, h⟩ := h
  simp [pure, Except.pure] at h
  subst h
  have hv0 : st.Valid := ParserState.valid_of_unread_ne_nil (ParseSign_ok_unread hs)
  have hv1 : s.2.Valid := (ParseSign_Step hv0 hs).valid
  have hi := IntegerLoop_extend t _ (Double.ofInt 0) s.2 rfl (ParseFraction_ok_unread hf)
  have hf2 := ParseFraction_extend t hf (ParseExponent_ok_unread hx)
  have hx2 := ParseExponent_extend t hx hne
  simp only [bind, Except.bind, ParseSign_extend t hs, ParserState.unread_extend hv1, hi, hf2,
    hx2, pure, Except.pure]

theorem Advance_extend (t : List Char) :
    ∀ (count : Nat) (st : ParserState), st.position_ + count ≤ st.input_.length →
      Advance count (st.extend t) = (Advance count st).extend t := by
  intro count
  induction count with
  | zero => intro st _; rfl
  | succ n ih =>
      intro st h
      unfold Advance
      have hlt : st.position_ < st.input_.length := by omega
      have e1 : (st.extend t).input_[(st.extend t).position_]? = st.input_[st.position_]? := by
        show (st.input_ ++ t)[st.position_]? = _
        exact List.getElem?_append_left hlt
      rw [e1]
      cases hg : st.input_[st.position_]? with
      | none =>
          have := List.getElem?_eq_none_iff.mp hg
          omega
      | some c =>
          simp only
          rw [← ParserState.extend_consume]
          apply ih
          rw [st.consume_position, st.consume_input]
          omega

theorem Match_extend (t : List Char) {st st1 : ParserState} {str : List Char}
    (h : Match st str = (true, st1)) : Match (st.extend t) str = (true, st1.extend t) := by
  unfold Match at h ⊢
  split at h
  · cases h
  · rename_i hle
    split at h
    · rename_i ht
      cases h
      have hle2 : ¬ ((st.extend t).position_ + str.length > (st.extend t).input_.length) := by
        simp [ParserState.extend]
        omega
      have hv : st.Valid := by unfold ParserState.Valid; omega
      have ht2 : (st.extend t).unread.take str.length = str := by
        rw [ParserState.unread_extend hv, List.take_append_of_le_length, ht]
        rw [st.unread_length]
        omega
      simp only [hle2, if_false, ht2, if_true]
      rw [Advance_extend t _ _ (by omega)]
    · cases h

theorem Match_extend_mismatch (t : List Char) {st : ParserState} {c d : Char} {u s : List Char}
    (hu : st.unread = c :: u) (hcd : c ≠ d) :
    Match (st.extend t) (d :: s) = (false, st.extend t) := by
  unfold Match
  split
  · rfl
  · rw [ParserState.unread_extend_cons hu t]
    have : ¬ (List.take (d :: s).length (c :: (u ++ t)) = d :: s) := by
      simp [List.take]
      intro h
      exact absurd h hcd
    simp only [this, if_false]

theorem ParseBoolean_extend (t : List Char) {st : ParserState} {r : Bool × ParserState}
    (h : ParseBoolean st = .ok r) : ParseBoolean (st.extend t) = .ok (r.1, r.2.extend t) := by
  unfold ParseBoolean at h ⊢
  cases hm : Match st ['t', 'r', 'u', 'e'] with
  | mk b st1 =>
    cases b with
    | true =>
        simp [hm] at h
        subst h
        simp [Match_extend t hm]
    | false =>
        have := Match_false hm
        subst this
        simp only [hm] at h
        cases hm2 : Match st1 ['f', 'a', 'l', 's', 'e'] with
        | mk b2 st2 =>
          cases b2 with
          | true =>
              simp [hm2] at h
              subst h
              obtain ⟨-, -, htake⟩ := Match_true hm2
              have hu : ∃ u, st1.unread = 'f' :: u := by
                cases hu : st1.unread with
                | nil => rw [hu] at htake; simp at htake
                | cons a u =>
                    rw [hu] at htake
                    simp [List.take] at htake
                    exact ⟨u, by rw [htake.1]⟩
              obtain ⟨u, hu⟩ := hu
              have hm1 := Match_extend_mismatch t (d := 't') (s := ['r', 'u', 'e']) hu (by decide)
              simp [hm1, Match_extend t hm2]
          | false => simp [hm2] at h

theorem ParseNull_extend (t : List Char) {st st1 : ParserState}
    (h : ParseNull st = .ok st1) : ParseNull (st.extend t) = .ok (st1.extend t) := by
  unfold ParseNull at h ⊢
  cases hm : Match st ['n', 'u', 'l', 'l'] with
  | mk b st2 =>
    cases b with
    | true =>
        simp [hm] at h
        subst h
        simp [Match_extend t hm]
    | false => simp [hm] at h

theorem ParserState.unread_ne_nil_of_seps (cfg : JsonParserConfig) {st : ParserState}
    (hv : st.Valid) (h : (SkipSeparators cfg st).unread ≠ []) : st.unread ≠ [] :=
  ParserState.unread_ne_nil_of_Step (SkipSeparators_Step cfg hv) h

/-- Text appended to the input does not change a successful run of the five
mutually recursive parsing functions (comments disabled), provided the run
did not stop at the very end of the input or returned a container, which
always ends on its closing bracket. -/
theorem Parse_extend (cfg : JsonParserConfig) (hc : cfg.allow_comments = false) (t : List Char) :
    ∀ fuel : Nat,
      (∀ st r, st.Valid → ParseValue cfg fuel st = .ok r →
        (r.2.unread ≠ [] ∨ r.1.isContainer = true) →
        ParseValue cfg fuel (st.extend t) = .ok (r.1, r.2.extend t)) ∧
      (∀ st r, st.Valid → ParseObject cfg fuel st = .ok r →
        ParseObject cfg fuel (st.extend t) = .ok (r.1, r.2.extend t)) ∧
      (∀ obj st r, st.Valid → ParseObjectLoop cfg fuel obj st = .ok r →
        ParseObjectLoop cfg fuel obj (st.extend t) = .ok (r.1, r.2.extend t)) ∧
      (∀ st r, st.Valid → ParseArray cfg fuel st = .ok r →
        ParseArray cfg fuel (st.extend t) = .ok (r.1, r.2.extend t)) ∧
      (∀ arr st r, st.Valid → ParseArrayLoop cfg fuel arr st = .ok r →
        ParseArrayLoop cfg fuel arr (st.extend t) = .ok (r.1, r.2.extend t)) := by
  intro fuel
  induction fuel with
  | zero =>
      refine ⟨?_, ?_, ?_, ?_, ?_⟩
      · intro st r _ h _; simp [ParseValue] at h
      · intro st r _ h; simp [ParseObject] at h
      · intro obj st r _ h; simp [ParseObjectLoop] at h
      · intro st r _ h; simp [ParseArray] at h
      · intro arr st r _ h; simp [ParseArrayLoop] at h
  | succ n ih =>
      obtain ⟨ihV, ihO, ihOL, ihA, ihAL⟩ := ih
      refine ⟨?_, ?_, ?_, ?_, ?_⟩
      · intro st r hv h hne
        rw [ParseValue] at h ⊢
        simp only [ValidateDepth_zero, bind, bind_eq_ok] at h
        obtain ⟨-, -, c, hcur, h⟩ := h
        have h0 := SkipSeparators_Step cfg hv
        have e0 := SkipSeparators_extend hc t (Current_ok_unread_ne_nil hcur)
        simp only [ValidateDepth_zero, bind, Except.bind, e0, Current_extend t hcur]
        split at h
        · rename_i h1
          simp only [h1, if_true]
          simp only [bind_eq_ok] at h
          obtain ⟨x, hx, h⟩ := h
          simp [pure, Except.pure] at h
          subst h
          simp [ihO _ _ h0.valid hx, pure, Except.pure]
        · rename_i h1
          simp only [h1, if_false]
          split at h
          · rename_i h2
            simp only [h2, if_true]
            simp only [bind_eq_ok] at h
            obtain ⟨x, hx, h⟩ := h
            simp [pure, Except.pure] at h
            subst h
            simp [ihA _ _ h0.valid hx, pure, Except.pure]
          · rename_i h2
            simp only [h2, if_false]
            split at h
            · rename_i h3
              simp only [h3, if_true]
              simp only [bind_eq_ok] at h
              obtain ⟨x, hx, h⟩ := h
              simp [pure, Except.pure] at h
              subst h
              have hx2 : x.2.unread ≠ [] := by
                rcases hne with hne | hne
                · exact hne
                · simp [JsonValue.isContainer] at hne
              simp [ParseString_extend cfg t hx hx2, pure, Except.pure]
            · rename_i h3
              simp only [h3, if_false]
              split at h
              · rename_i h4
                simp only [h4, if_true]
                simp only [bind_eq_ok] at h
                obtain ⟨x, hx, h⟩ := h
                simp [pure, Except.pure] at h
                subst h
                have hx2 : x.2.unread ≠ [] := by
                  rcases hne with hne | hne
                  · exact hne
                  · simp [JsonValue.isContainer] at hne
                simp [ParseNumber_extend t hx hx2, pure, Except.pure]
              · rename_i h4
                simp only [h4, if_false]
                split at h
                · rename_i h5
                  simp only [h5, if_true]
                  simp only [bind_eq_ok] at h
                  obtain ⟨x, hx, h⟩ := h
                  simp [pure, Except.pure] at h
                  subst h
                  simp [ParseBoolean_extend t hx, pure, Except.pure]
                · rename_i h5
                  simp only [h5, if_false]
                  split at h
                  · rename_i h6
                    simp only [h6, if_true]
                    simp only [bind_eq_ok] at h
                    obtain ⟨x, hx, h⟩ := h
                    simp [pure, Except.pure] at h
                    subst h
                    simp [ParseNull_extend t hx, pure, Except.pure]
                  · cases h
      · intro st r hv h
        rw [ParseObject] at h ⊢
        simp only [ValidateDepth_zero, bind, bind_eq_ok] at h
        obtain ⟨-, -, st1, h1, c, hcur, h⟩ := h
        have hs1 := (Expect_Step h1).1
        have hs2 := SkipSeparators_Step cfg hs1.valid
        have e0 := SkipSeparators_extend hc t (Current_ok_unread_ne_nil hcur)
        simp only [ValidateDepth_zero, bind, Except.bind, Expect_extend t h1, e0,
          Current_extend t hcur]
        split at h
        · rename_i h2
          simp only [h2, if_true]
          simp only [bind_eq_ok] at h
          obtain ⟨x, hx, h⟩ := h
          simp [pure, Except.pure] at h
          subst h
          simp [Next_extend t hx, pure, Except.pure]
        · rename_i h2
          simp only [h2, if_false]
          exact ihOL _ _ _ hs2.valid h
      · intro obj st r hv h
        rw [ParseObjectLoop] at h ⊢
        simp only [bind, bind_eq_ok] at h
        obtain ⟨k, hk, st2, h2, v, hv2, c, hcur, h⟩ := h
        have hs0 := SkipSeparators_Step cfg hv
        have hs1 := (ParseString_Step cfg hk).1
        have hs2 := SkipSeparators_Step cfg hs1.valid
        have hs3 := (Expect_Step h2).1
        have hs4 := SkipSeparators_Step cfg hs3.valid
        have hs5 := (Parse_Step cfg n).1 _ _ hs4.valid hv2
        have hs6 := SkipSeparators_Step cfg hs5.valid
        obtain ⟨u2, hu2, -⟩ := Expect_eq_ok h2
        have n2 : (SkipSeparators cfg k.2).unread ≠ [] := by rw [hu2]; simp
        have n1 : k.2.unread ≠ [] := ParserState.unread_ne_nil_of_Step hs2 n2
        have n0 : (SkipSeparators cfg st).unread ≠ [] := ParserState.unread_ne_nil_of_Step hs1 n1
        have n6 : (SkipSeparators cfg v.2).unread ≠ [] := Current_ok_unread_ne_nil hcur
        have n5 : v.2.unread ≠ [] := ParserState.unread_ne_nil_of_Step hs6 n6
        have n4 : (SkipSeparators cfg st2).unread ≠ [] := ParserState.unread_ne_nil_of_Step hs5 n5
        simp only [bind, Except.bind, SkipSeparators_extend hc t n0, ParseString_extend cfg t hk n1,
          SkipSeparators_extend hc t n2, Expect_extend t h2, SkipSeparators_extend hc t n4,
          ihV _ _ hs4.valid hv2 (Or.inl n5), SkipSeparators_extend hc t n6, Current_extend t hcur]
        split at h
        · rename_i h3
          simp only [h3, if_true]
          simp only [bind_eq_ok] at h
          obtain ⟨x, hx, h⟩ := h
          simp [pure, Except.pure] at h
          subst h
          simp [Next_extend t hx, pure, Except.pure]
        · rename_i h3
          simp only [h3, if_false]
          split at h
          · rename_i h4
            simp only [h4, if_true]
            simp only [bind_eq_ok] at h
            obtain ⟨x, hx, h⟩ := h
            simp only [Next_extend t hx]
            exact ihOL _ _ _ (Next_Step hx).1.valid h
          · cases h
      · intro st r hv h
        rw [ParseArray] at h ⊢
        simp only [ValidateDepth_zero, bind, bind_eq_ok] at h
        obtain ⟨-, -, st1, h1, c, hcur, h⟩ := h
        have hs1 := (Expect_Step h1).1
        have hs2 := SkipSeparators_Step cfg hs1.valid
        have e0 := SkipSeparators_extend hc t (Current_ok_unread_ne_nil hcur)
        simp only [ValidateDepth_zero, bind, Except.bind, Expect_extend t h1, e0,
          Current_extend t hcur]
        split at h
        · rename_i h2
          simp only [h2, if_true]
          simp only [bind_eq_ok] at h
          obtain ⟨x, hx, h⟩ := h
          simp [pure, Except.pure] at h
          subst h
          simp [Next_extend t hx, pure, Except.pure]
        · rename_i h2
          simp only [h2, if_false]
          exact ihAL _ _ _ hs2.valid h
      · intro arr st r hv h
        rw [ParseArrayLoop] at h ⊢
        simp only [bind, bind_eq_ok] at h
        obtain ⟨v, hv2, c, hcur, h⟩ := h
        have hs0 := SkipSeparators_Step cfg hv
        have hs5 := (Parse_Step cfg n).1 _ _ hs0.valid hv2
        have hs6 := SkipSeparators_Step cfg hs5.valid
        have n6 : (SkipSeparators cfg v.2).unread ≠ [] := Current_ok_unread_ne_nil hcur
        have n5 : v.2.unread ≠ [] := ParserState.unread_ne_nil_of_Step hs6 n6
        have n0 : (SkipSeparators cfg st).unread ≠ [] := ParserState.unread_ne_nil_of_Step hs5 n5
        simp only [bind, Except.bind, SkipSeparators_extend hc t n0,
          ihV _ _ hs0.valid hv2 (Or.inl n5), SkipSeparators_extend hc t n6, Current_extend t hcur]
        split at h
        · rename_i h3
          simp only [h3, if_true]
          simp only [bind_eq_ok] at h
          obtain ⟨x, hx, h⟩ := h
          simp [pure, Except.pure] at h
          subst h
          simp [Next_extend t hx, pure, Except.pure]
        · rename_i h3
          simp only [h3, if_false]
          split at h
          · rename_i h4
            simp only [h4, if_true]
            simp only [bind_eq_ok] at h
            obtain ⟨x, hx, h⟩ := h
            simp only [Next_extend t hx]
            exact ihAL _ _ _ (Next_Step hx).1.valid h
          · cases h

/-! ### C7: what follows the top-level value -/

theorem ParserState.Reads_of_Valid {st : ParserState} (hv : st.Valid) :
    st.Reads (st.input_.take st.position_) st.unread := by
  refine ⟨?_, ?_⟩
  · unfold ParserState.unread
    rw [List.take_append_drop]
  · rw [List.length_take]
    exact (Nat.min_eq_left hv).symm

theorem ParserState.Reads.extend {st : ParserState} {pre rest : List Char}
    (h : st.Reads pre rest) (t : List Char) : (st.extend t).Reads pre (rest ++ t) := by
  obtain ⟨h1, h2⟩ := h
  refine ⟨?_, h2⟩
  show st.input_ ++ t = pre ++ (rest ++ t)
  rw [h1, List.append_assoc]

theorem ParserState.Initialize_extend (s t : List Char) :
    (ParserState.Initialize s).extend t = ParserState.Initialize (s ++ t) := rfl

theorem SkipWhitespaceLoop_at_end :
    ∀ (u : List Char) (st : ParserState), st.unread = u →
      (SkipWhitespaceLoop u st).unread = [] → IsWhitespace u := by
  intro u
  induction u with
  | nil => intro st _ _ c hc; simp at hc
  | cons a u ih =>
      intro st hu h
      unfold SkipWhitespaceLoop at h
      split at h
      · rename_i ha
        have := ih _ (ParserState.unread_consume hu) h
        intro c hc
        simp at hc
        rcases hc with hc | hc
        · rw [hc]; exact ha
        · exact this c hc
      · rw [hu] at h
        cases h

theorem split_at_token :
    ∀ t : List Char, (∃ c ∈ t, isspace c = false) →
      ∃ w c rest, t = w ++ c :: rest ∧ IsWhitespace w ∧ isspace c = false := by
  intro t
  induction t with
  | nil => intro h; obtain ⟨c, hc, -⟩ := h; simp at hc
  | cons a t ih =>
      intro h
      by_cases ha : isspace a = true
      · obtain ⟨c, hc, hcs⟩ := h
        simp at hc
        rcases hc with hc | hc
        · rw [hc, ha] at hcs; cases hcs
        · obtain ⟨w, c1, rest, e, hw, hc1⟩ := ih ⟨c, hc, hcs⟩
          refine ⟨a :: w, c1, rest, by rw [e]; rfl, ?_, hc1⟩
          intro x hx
          simp at hx
          rcases hx with hx | hx
          · rw [hx]; exact ha
          · exact hw x hx
      · refine ⟨[], a, t, rfl, ?_, by simpa using ha⟩
        intro x hx
        simp at hx

theorem Parse_eq_ok {cfg : JsonParserConfig} {json : List Char} {v : JsonValue}
    (h : Parse json cfg = .ok v) :
    ∃ st, ParseValue cfg (3 * json.length + 3) (ParserState.Initialize json) = .ok (v, st) ∧
      (SkipWhitespace st).unread = [] := by
  unfold Parse at h
  simp only [bind, bind_eq_ok] at h
  obtain ⟨r, hr, h⟩ := h
  split at h
  · cases h
  · rename_i hge
    simp [pure, Except.pure] at h
    subst h
    refine ⟨r.2, hr, ?_⟩
    unfold ParserState.unread
    apply List.drop_eq_nil_of_le
    omega

theorem ParseValue_isContainer {cfg : JsonParserConfig} (hc : cfg.allow_comments = false)
    {st : ParserState} {pre w rest : List Char} {c : Char} (hcb : c = '{' ∨ c = '[')
    (h : st.Reads pre (w ++ c :: rest)) (hw : IsWhitespace w) {fuel : Nat}
    {r : JsonValue × ParserState} (hr : ParseValue cfg fuel st = .ok r) :
    r.1.isContainer = true := by
  cases fuel with
  | zero => simp [ParseValue] at hr
  | succ n =>
      have h1 : (SkipSeparators cfg st).Reads (pre ++ w) (c :: rest) := by
        rw [SkipSeparators_no_comments hc]
        apply SkipWhitespace_of_Reads h hw
        intro x hx
        simp at hx
        subst hx
        rcases hcb with rfl | rfl <;> decide
      rw [ParseValue] at hr
      simp only [ValidateDepth_zero, bind, Except.bind, Current_of_Reads h1] at hr
      rcases hcb with rfl | rfl
      · simp only [if_true] at hr
        cases hx : ParseObject cfg n (SkipSeparators cfg st) with
        | error e => rw [hx] at hr; cases hr
        | ok x =>
            rw [hx] at hr
            simp [pure, Except.pure] at hr
            subst hr
            rfl
      · have : ¬ ('[' = '{') := by decide
        simp only [this, if_false, if_true] at hr
        cases hx : ParseArray cfg n (SkipSeparators cfg st) with
        | error e => rw [hx] at hr; cases hr
        | ok x =>
            rw [hx] at hr
            simp [pure, Except.pure] at hr
            subst hr
            rfl

/-- With comments disabled (as in the default configuration), if the first
character of `s` after leading white space is `{` or `[` and `Parse` succeeds
on `s` with the value `v`, then `Parse` raises a ParseError on `s ++ t` for
every `t` that contains a character other than white space, and returns the
same `v` on `s ++ w` for every white-space string `w`. -/
theorem Parse_trailing_content (cfg : JsonParserConfig) (hc : cfg.allow_comments = false)
    (s : List Char) (v : JsonValue)
    (hfirst : ∃ w c rest, IsWhitespace w ∧ (c = '{' ∨ c = '[') ∧ s = w ++ c :: rest)
    (hs : Parse s cfg = .ok v) :
    (∀ t : List Char, (∃ c ∈ t, isspace c = false) →
        ∃ e : JsonParseException, Parse (s ++ t) cfg = .error (.exception e)) ∧
      (∀ w : List Char, IsWhitespace w → Parse (s ++ w) cfg = .ok v) := by
  obtain ⟨st, hp, hend⟩ := Parse_eq_ok hs
  obtain ⟨w0, c0, rest0, hw0, hc0, rfl⟩ := hfirst
  have hv0 : (ParserState.Initialize (w0 ++ c0 :: rest0)).Valid := Nat.zero_le _
  have hcont : (v, st).1.isContainer = true :=
    ParseValue_isContainer hc hc0 (ParserState.Reads.Initialize _) hw0 hp
  have hstep := (Parse_Step cfg _).1 _ _ hv0 hp
  have hvst : st.Valid := hstep.valid
  have hws : IsWhitespace st.unread := SkipWhitespaceLoop_at_end _ st rfl hend
  have key : ∀ t : List Char,
      ParseValue cfg (3 * (w0 ++ c0 :: rest0 ++ t).length + 3)
        (ParserState.Initialize (w0 ++ c0 :: rest0 ++ t)) = .ok (v, st.extend t) := by
    intro t
    have h1 := (Parse_extend cfg hc t _).1 _ _ hv0 hp (Or.inr hcont)
    rw [ParserState.Initialize_extend] at h1
    have hle : 3 * (w0 ++ c0 :: rest0).length + 3 ≤ 3 * (w0 ++ c0 :: rest0 ++ t).length + 3 := by
      simp only [List.length_append]
      omega
    rw [ParseValue_mono_le cfg hle _ (by rw [h1]; simp), h1]
  have hreads : ∀ t : List Char, (st.extend t).Reads (st.input_.take st.position_)
      (st.unread ++ t) := fun t => (ParserState.Reads_of_Valid hvst).extend t
  constructor
  · intro t ht
    obtain ⟨w1, c1, rest1, rfl, hw1, hc1⟩ := split_at_token t ht
    have hr := hreads (w1 ++ c1 :: rest1)
    rw [← List.append_assoc] at hr
    have hsk := SkipWhitespace_of_Reads hr
      (by intro x hx; simp at hx; rcases hx with hx | hx; exact hws x hx; exact hw1 x hx)
      (by intro x hx; simp at hx; subst hx; exact hc1)
    have hpos := hsk.position_le
    refine ⟨.located .unexpectedCharactersAfterValue
      (SkipWhitespace (st.extend (w1 ++ c1 :: rest1))).line_
      (SkipWhitespace (st.extend (w1 ++ c1 :: rest1))).column_
      (SkipWhitespace (st.extend (w1 ++ c1 :: rest1))).position_, ?_⟩
    unfold Parse
    simp only [bind, Except.bind, key]
    rw [if_pos (by simp at hpos; omega)]
    rfl
  · intro w hw
    exact Parse_of_ParseValue (key w) (hreads w)
      (by intro x hx; simp at hx; rcases hx with hx | hx; exact hws x hx; exact hw x hx)

/-- The input `{"a": [1]} ` followed by any text, under the default
configuration. -/
theorem Parse_trailing_content_sample :
    (∀ t : List Char, (∃ c ∈ t, isspace c = false) →
        ∃ e : JsonParseException,
          Parse ("\x7b\"a\": [1]\x7d ".toList ++ t) JsonParserConfig.Strict = .error (.exception e)) ∧
      (∀ w : List Char, IsWhitespace w →
        Parse ("\x7b\"a\": [1]\x7d ".toList ++ w) JsonParserConfig.Strict =
          .ok (.object [("a".toList, .array [])])) :=
  Parse_trailing_content JsonParserConfig.Strict rfl "\x7b\"a\": [1]\x7d ".toList
    (.object [("a".toList, .array [])])
    ⟨[], '{', "\"a\": [1]\x7d ".toList, by unfold IsWhitespace; decide, Or.inl rfl, by decide⟩
    (by decide!)

/-- Claim C7 (the code at the failing inputs): with comments allowed, the loop
of `SkipComments` over a block comment runs while `position_ + 1 < length`, so
on an unterminated `/*` it stops one character before the end of the input
and raises nothing. `Parse` therefore accepts `[/*]` as the empty Array; with
the text `*/]` appended, which holds characters other than white space, it
still succeeds (the comment is now `/*]*/`), and with one blank appended it
raises an error. Under the default configuration `[/*]` is rejected at the
`/`. -/
theorem C7_unterminated_comment_accepted :
    Parse "[/*]".toList JsonParserConfig.Lenient = .ok (.array []) ∧
      Parse ("[/*]".toList ++ "*/]".toList) JsonParserConfig.Lenient = .ok (.array []) ∧
      Parse ("[/*]".toList ++ " ".toList) JsonParserConfig.Lenient =
        .error (.exception (.located .unexpectedEndOfInput 1 4 5)) ∧
      Parse "[/*]".toList JsonParserConfig.Strict =
        .error (.exception (.located (.unexpectedCharacter '/') 1 2 1)) := by
  refine ⟨by decide!, by decide!, by decide!, by decide!⟩

/-! ### Errors of a run that the appended text would have avoided -/

theorem Current_error_LocatedAt {st : ParserState} (hv : st.Valid) {e : JsonParseException}
    (h : Current st = .error (.exception e)) : e.LocatedAt st.input_.length := by
  cases hu : st.unread with
  | nil =>
      rw [Current_of_unread_nil hu] at h
      exact ThrowParseError_LocatedAt hv hu _ (by injection h)
  | cons c u => rw [Current_of_unread hu] at h; cases h

theorem Next_error_LocatedAt {st : ParserState} (hv : st.Valid) {e : JsonParseException}
    (h : Next st = .error (.exception e)) : e.LocatedAt st.input_.length := by
  cases hu : st.unread with
  | nil =>
      rw [Next_of_unread_nil hu] at h
      exact ThrowParseError_LocatedAt hv hu _ (by injection h)
  | cons c u => rw [Next_of_unread hu] at h; cases h

theorem Expect_at_end {st : ParserState} (hu : st.unread = []) (c : Char) :
    Expect st c = .error (ThrowParseError st .unexpectedEndOfInput) := by
  simp [Expect, Current_of_unread_nil hu, bind, Except.bind]

theorem Expect_error_LocatedAt (t : List Char) {st : ParserState} (hv : st.Valid) {c : Char}
    {e : JsonParseException} {st1 : ParserState}
    (h : Expect st c = .error (.exception e)) (hx : Expect (st.extend t) c = .ok st1) :
    e.LocatedAt st.input_.length := by
  cases hu : st.unread with
  | nil =>
      rw [Expect_at_end hu] at h
      exact ThrowParseError_LocatedAt hv hu _ (by injection h)
  | cons a u =>
      exfalso
      obtain ⟨u1, hu1, -⟩ := Expect_eq_ok hx
      rw [ParserState.unread_extend_cons hu t] at hu1
      injection hu1 with ha
      subst ha
      rw [Expect_of_unread hu] at h
      cases h

theorem UnicodeEscapeLoop_error_LocatedAt (t : List Char) :
    ∀ (count : Nat) (st st1 : ParserState) (e : JsonParseException), st.Valid →
      UnicodeEscapeLoop count st = .error (.exception e) →
      UnicodeEscapeLoop count (st.extend t) = .ok st1 → e.LocatedAt st.input_.length := by
  intro count
  induction count with
  | zero => intro st st1 e _ h; simp [UnicodeEscapeLoop] at h
  | succ n ih =>
      intro st st1 e hv h hx
      unfold UnicodeEscapeLoop at h hx
      rw [st.getElem?_eq_head] at h
      rw [(st.extend t).getElem?_eq_head] at hx
      cases hu : st.unread with
      | nil =>
          simp only [hu, List.head?_nil] at h
          exact ThrowParseError_LocatedAt hv hu _ (by injection h)
      | cons c u =>
          rw [ParserState.unread_extend_cons hu t] at hx
          simp only [hu, List.head?_cons] at h hx
          split at h
          · rename_i hc
            simp only [hc, if_true] at hx
            rw [← ParserState.extend_consume] at hx
            have := ih _ _ _ (ParserState.Step.consume hu).valid h hx
            rwa [st.consume_input] at this
          · rename_i hc
            simp only [hc] at hx
            cases hx

theorem ParseStringStep_error_LocatedAt (cfg : JsonParserConfig) (t : List Char) {c : Char}
    {result : List Char} {st : ParserState} (hv : st.Valid) {e : JsonParseException}
    {x : List Char × ParserState}
    (h : ParseStringStep cfg c result st = .error (.exception e))
    (hx : ParseStringStep cfg c result (st.extend t) = .ok x) :
    e.LocatedAt st.input_.length := by
  unfold ParseStringStep at h hx
  split at h
  · rename_i hc
    simp only [hc, if_true] at hx
    cases hn : Next st with
    | error e1 =>
        simp only [hn, bind, Except.bind] at h
        injection h with h
        subst h
        exact Next_error_LocatedAt hv hn
    | ok r =>
        simp only [hn, bind, Except.bind, Next_extend t hn] at h hx
        split at h
        · rename_i hu
          simp only [hu, if_true] at hx
          cases h1 : UnicodeEscapeLoop 4 r.2 with
          | error e1 =>
              simp only [h1] at h
              injection h with h
              subst h
              cases h2 : UnicodeEscapeLoop 4 (r.2.extend t) with
              | error e2 => simp only [h2] at hx; cases hx
              | ok y =>
                  have := UnicodeEscapeLoop_error_LocatedAt t _ _ _ _ (Next_Step hn).1.valid h1 h2
                  rwa [(Next_Step hn).1.1] at this
          | ok y => simp [h1, pure, Except.pure] at h
        · simp [pure, Except.pure] at h
  · rename_i hc
    simp only [hc, if_false] at hx
    split at h
    · rename_i hnl
      simp only [hnl, if_true] at hx
      split at h
      · rename_i hs
        simp only [hs, if_true] at hx
        cases hx
      · simp [pure, Except.pure] at h
    · simp [pure, Except.pure] at h

theorem ParseStringLoop_error_LocatedAt (cfg : JsonParserConfig) (t : List Char) :
    ∀ (fuel : Nat) (result : List Char) (st : ParserState) (e : JsonParseException)
      (x : List Char × ParserState), st.Valid →
      ParseStringLoop cfg fuel result st = .error (.exception e) →
      ParseStringLoop cfg fuel result (st.extend t) = .ok x → e.LocatedAt st.input_.length := by
  intro fuel
  induction fuel with
  | zero => intro result st e x _ h; simp [ParseStringLoop] at h
  | succ n ih =>
      intro result st e x hv h hx
      rw [ParseStringLoop] at h hx
      split at h
      · rename_i hlt
        have hlt2 : (st.extend t).position_ < (st.extend t).input_.length := by
          simp [ParserState.extend]
          omega
        simp only [hlt2, if_true] at hx
        cases hn : Next st with
        | error e1 =>
            simp only [hn, bind, Except.bind] at h
            injection h with h
            subst h
            exact Next_error_LocatedAt hv hn
        | ok r =>
            simp only [hn, bind, Except.bind, Next_extend t hn] at h hx
            have hs1 := (Next_Step hn).1
            split at h
            · simp [pure, Except.pure] at h
            · rename_i hq
              simp only [hq, if_false] at hx
              cases hy : ParseStringStep cfg r.1 result r.2 with
              | error e1 =>
                  simp only [hy] at h
                  injection h with h
                  subst h
                  cases hy2 : ParseStringStep cfg r.1 result (r.2.extend t) with
                  | error e2 => simp only [hy2] at hx; cases hx
                  | ok y =>
                      have := ParseStringStep_error_LocatedAt cfg t hs1.valid hy hy2
                      rwa [hs1.1] at this
              | ok y =>
                  simp only [hy, ParseStringStep_extend cfg t hy] at h hx
                  have hs2 := ParseStringStep_Step cfg hs1.valid hy
                  cases hz : ValidateStringLength cfg y.1.length with
                  | error e1 => simp only [hz] at hx; cases hx
                  | ok z =>
                      simp only [hz] at h hx
                      have := ih _ _ _ _ hs2.valid h hx
                      rwa [hs2.1, hs1.1] at this
      · simp [pure, Except.pure] at h

theorem ParseString_error_LocatedAt (cfg : JsonParserConfig) (t : List Char) {st : ParserState}
    (hv : st.Valid) {e : JsonParseException} {x : List Char × ParserState}
    (h : ParseString cfg st = .error (.exception e))
    (hx : ParseString cfg (st.extend t) = .ok x) : e.LocatedAt st.input_.length := by
  unfold ParseString at h hx
  cases h1 : Expect st '"' with
  | error e1 =>
      simp only [h1, bind, Except.bind] at h
      injection h with h
      subst h
      cases h2 : Expect (st.extend t) '"' with
      | error e2 => simp only [h2, bind, Except.bind] at hx; cases hx
      | ok y => exact Expect_error_LocatedAt t hv h1 h2
  | ok st1 =>
      simp only [h1, bind, Except.bind, Expect_extend t h1] at h hx
      have hs1 := (Expect_Step h1).1
      rw [ParserState.unread_extend hs1.valid, List.length_append, Nat.add_right_comm] at hx
      have h3 := ParseStringLoop_mono cfg (st1.unread.length + 1) t.length [] st1
        (by rw [h]; simp)
      rw [h] at h3
      have := ParseStringLoop_error_LocatedAt cfg t _ _ _ _ _ hs1.valid h3 hx
      rwa [hs1.1] at this

theorem ParseString_at_end (cfg : JsonParserConfig) {st : ParserState} (hu : st.unread = []) :
    ParseString cfg st = .error (ThrowParseError st .unexpectedEndOfInput) := by
  simp [ParseString, Expect_at_end hu, bind, Except.bind]

theorem ParseSign_error_LocatedAt {st : ParserState} (hv : st.Valid) {e : JsonParseException}
    (h : ParseSign st = .error (.exception e)) : e.LocatedAt st.input_.length := by
  unfold ParseSign at h
  cases hc : Current st with
  | error e1 =>
      simp only [hc, bind, Except.bind] at h
      injection h with h
      subst h
      exact Current_error_LocatedAt hv hc
  | ok c =>
      simp only [hc, bind, Except.bind] at h
      split at h
      · cases hn : Next st with
        | error e1 =>
            simp only [hn] at h
            injection h with h
            subst h
            exact Next_error_LocatedAt hv hn
        | ok r => simp [hn, pure, Except.pure] at h
      · simp [pure, Except.pure] at h

theorem ParseFraction_error_LocatedAt {result : Double} {st : ParserState} (hv : st.Valid)
    {e : JsonParseException} (h : ParseFraction result st = .error (.exception e)) :
    e.LocatedAt st.input_.length := by
  unfold ParseFraction at h
  cases hc : Current st with
  | error e1 =>
      simp only [hc, bind, Except.bind] at h
      injection h with h
      subst h
      exact Current_error_LocatedAt hv hc
  | ok c =>
      simp only [hc, bind, Except.bind] at h
      split at h
      · cases hn : Next st with
        | error e1 =>
            simp only [hn] at h
            injection h with h
            subst h
            exact Next_error_LocatedAt hv hn
        | ok r => simp [hn, pure, Except.pure] at h
      · simp [pure, Except.pure] at h

theorem ParseExponentSign_error_LocatedAt {st : ParserState} (hv : st.Valid)
    {e : JsonParseException} (h : ParseExponentSign st = .error (.exception e)) :
    e.LocatedAt st.input_.length := by
  unfold ParseExponentSign at h
  cases hc : Current st with
  | error e1 =>
      simp only [hc, bind, Except.bind] at h
      injection h with h
      subst h
      exact Current_error_LocatedAt hv hc
  | ok c =>
      simp only [hc, bind, Except.bind] at h
      split at h
      · cases hn : Next st with
        | error e1 =>
            simp only [hn] at h
            injection h with h
            subst h
            exact Next_error_LocatedAt hv hn
        | ok r => simp [hn, pure, Except.pure] at h
      · split at h
        · cases hn : Next st with
          | error e1 =>
              simp only [hn] at h
              injection h with h
              subst h
              exact Next_error_LocatedAt hv hn
          | ok r => simp [hn, pure, Except.pure] at h
        · simp [pure, Except.pure] at h

theorem ParseExponent_error_LocatedAt {result : Double} {st : ParserState} (hv : st.Valid)
    {e : JsonParseException} (h : ParseExponent result st = .error (.exception e)) :
    e.LocatedAt st.input_.length := by
  unfold ParseExponent at h
  cases hc : Current st with
  | error e1 =>
      simp only [hc, bind, Except.bind] at h
      injection h with h
      subst h
      exact Current_error_LocatedAt hv hc
  | ok c =>
      simp only [hc, bind, Except.bind] at h
      split at h
      · cases hn : Next st with
        | error e1 =>
            simp only [hn] at h
            injection h with h
            subst h
            exact Next_error_LocatedAt hv hn
        | ok r =>
            simp only [hn] at h
            have hs1 := (Next_Step hn).1
            cases hs : ParseExponentSign r.2 with
            | error e1 =>
                simp only [hs] at h
                injection h with h
                subst h
                have := ParseExponentSign_error_LocatedAt hs1.valid hs
                rwa [hs1.1] at this
            | ok s => simp [hs, pure, Except.pure] at h
      · simp [pure, Except.pure] at h

theorem ParseNumber_error_LocatedAt {st : ParserState} (hv : st.Valid) {e : JsonParseException}
    (h : ParseNumber st = .error (.exception e)) : e.LocatedAt st.input_.length := by
  unfold ParseNumber at h
  cases hs : ParseSign st with
  | error e1 =>
      simp only [hs, bind, Except.bind] at h
      injection h with h
      subst h
      exact ParseSign_error_LocatedAt hv hs
  | ok s =>
      simp only [hs, bind, Except.bind] at h
      have hs1 := ParseSign_Step hv hs
      have hs2 := IntegerLoop_Step s.2.unread (Double.ofInt 0) s.2 rfl hs1.valid
      cases hf : ParseFraction (IntegerLoop s.2.unread (Double.ofInt 0) s.2).1
          (IntegerLoop s.2.unread (Double.ofInt 0) s.2).2 with
      | error e1 =>
          simp only [hf] at h
          injection h with h
          subst h
          have := ParseFraction_error_LocatedAt hs2.valid hf
          rwa [hs2.1, hs1.1] at this
      | ok f =>
          simp only [hf] at h
          have hs3 := ParseFraction_Step hs2.valid hf
          cases hx : ParseExponent f.1 f.2 with
          | error e1 =>
              simp only [hx] at h
              injection h with h
              subst h
              have := ParseExponent_error_LocatedAt hs3.valid hx
              rwa [hs3.1, hs2.1, hs1.1] at this
          | ok x => simp [hx, pure, Except.pure] at h

theorem Match_of_extend (t : List Char) {st st1 : ParserState} {str u : List Char} {a : Char}
    (hx : Match (st.extend t) str = (true, st1)) (hu : st.unread = a :: u)
    (ht : ∀ c ∈ t.head?, c ∉ str.tail) : Match st str = (true, Advance str.length st) := by
  obtain ⟨-, -, htake⟩ := Match_true hx
  rw [ParserState.unread_extend_cons hu t] at htake
  have hlen : str.length ≤ (a :: u).length := by
    by_contra hlt
    have hlt : (a :: u).length < str.length := Nat.lt_of_not_le hlt
    have h1 : str[(a :: u).length]? = (a :: (u ++ t))[(a :: u).length]? := by
      conv_lhs => rw [← htake]
      rw [List.getElem?_take_of_lt hlt]
    have h2 : (a :: (u ++ t))[(a :: u).length]? = t.head? := by
      have : a :: (u ++ t) = (a :: u) ++ t := rfl
      rw [this, List.getElem?_append_right (le_refl _)]
      simp
      cases t <;> simp
    cases ht0 : t.head? with
    | none =>
        rw [h2, ht0] at h1
        have := List.getElem?_eq_none_iff.mp h1
        omega
    | some c =>
        rw [h2, ht0] at h1
        apply ht c (by rw [ht0]; rfl)
        cases str with
        | nil => simp at h1
        | cons d s =>
            simp only [List.length_cons, List.getElem?_cons_succ] at h1
            exact List.getElem?_mem h1
  have hl := st.unread_length
  rw [hu] at hl
  have htake2 : st.unread.take str.length = str := by
    rw [hu]
    have : a :: (u ++ t) = (a :: u) ++ t := rfl
    rw [this, List.take_append_of_le_length hlen] at htake
    exact htake
  unfold Match
  rw [if_neg (by simp at hl hlen; omega), if_pos htake2]

theorem ParseBoolean_error_LocatedAt (t : List Char) (ht : NotLiteralLetter t) {st : ParserState}
    (hv : st.Valid) {e : JsonParseException} {x : Bool × ParserState}
    (h : ParseBoolean st = .error (.exception e)) (hx : ParseBoolean (st.extend t) = .ok x) :
    e.LocatedAt st.input_.length := by
  cases hu : st.unread with
  | nil =>
      unfold ParseBoolean at h
      cases hm : Match st ['t', 'r', 'u', 'e'] with
      | mk b st1 =>
        cases b with
        | true => simp [hm] at h
        | false =>
            have := Match_false hm
            subst this
            simp only [hm] at h
            cases hm2 : Match st1 ['f', 'a', 'l', 's', 'e'] with
            | mk b2 st2 =>
              cases b2 with
              | true => simp [hm2] at h
              | false =>
                  have := Match_false hm2
                  subst this
                  simp [hm2] at h
                  exact ThrowParseError_LocatedAt hv hu _ h
  | cons a u =>
      exfalso
      unfold ParseBoolean at h hx
      cases hm : Match (st.extend t) ['t', 'r', 'u', 'e'] with
      | mk b st1 =>
        cases b with
        | true =>
            have := Match_of_extend t hm hu (by
              intro c hc hmem
              apply ht c hc
              simp at hmem ⊢
              tauto)
            simp [this] at h
        | false =>
            have := Match_false hm
            subst this
            simp only [hm] at hx
            cases hm2 : Match (st.extend t) ['f', 'a', 'l', 's', 'e'] with
            | mk b2 st2 =>
              cases b2 with
              | true =>
                  have h2 := Match_of_extend t hm2 hu (by
                    intro c hc hmem
                    apply ht c hc
                    simp at hmem ⊢
                    tauto)
                  cases hm1 : Match st ['t', 'r', 'u', 'e'] with
                  | mk b1 st3 =>
                    cases b1 with
                    | true => simp [hm1] at h
                    | false =>
                        have := Match_false hm1
                        subst this
                        simp [hm1, h2] at h
              | false => simp [hm2] at hx

theorem ParseNull_error_LocatedAt (t : List Char) (ht : NotLiteralLetter t) {st : ParserState}
    (hv : st.Valid) {e : JsonParseException} {x : ParserState}
    (h : ParseNull st = .error (.exception e)) (hx : ParseNull (st.extend t) = .ok x) :
    e.LocatedAt st.input_.length := by
  cases hu : st.unread with
  | nil =>
      unfold ParseNull at h
      cases hm : Match st ['n', 'u', 'l', 'l'] with
      | mk b st1 =>
        cases b with
        | true => simp [hm] at h
        | false =>
            have := Match_false hm
            subst this
            simp [hm] at h
            exact ThrowParseError_LocatedAt hv hu _ h
  | cons a u =>
      exfalso
      unfold ParseNull at h hx
      cases hm : Match (st.extend t) ['n', 'u', 'l', 'l'] with
      | mk b st1 =>
        cases b with
        | true =>
            have := Match_of_extend t hm hu (by
              intro c hc hmem
              apply ht c hc
              simp at hmem ⊢
              tauto)
            simp [this] at h
        | false => simp [hm] at hx

theorem bind_ok_error {α β : Type} {X Y : Except Failure α} {g : α → β}
    {e : JsonParseException} {x : β}
    (h : X.bind (fun r => .ok (g r)) = .error (.exception e))
    (hx : Y.bind (fun r => .ok (g r)) = .ok x) :
    X = .error (.exception e) ∧ ∃ y, Y = .ok y := by
  cases X with
  | error e1 =>
      simp only [Except.bind] at h
      injection h with h
      subst h
      cases Y with
      | error e2 => simp [Except.bind] at hx
      | ok y => exact ⟨rfl, y, rfl⟩
  | ok r => simp [Except.bind] at h

theorem Current_seps_at_end (cfg : JsonParserConfig) {st : ParserState} (hu : st.unread = []) :
    Current (SkipSeparators cfg st) = .error (ThrowParseError st .unexpectedEndOfInput) := by
  rw [SkipSeparators_at_end cfg hu, Current_of_unread_nil hu]

theorem located_of_eq {st : ParserState} (hv : st.Valid) (hu : st.unread = [])
    {message : Message} {e : JsonParseException} {α : Type}
    (h : (Except.error (ThrowParseError st message) : Except Failure α) =
      .error (.exception e)) : e.LocatedAt st.input_.length :=
  ThrowParseError_LocatedAt hv hu message (by injection h)

/-- If a run of one of the five mutually recursive parsing functions raises
an exception, and the same run succeeds once the text `t` is appended to the
input, then the exception was raised at the end of the input (comments
disabled; `t` does not begin with a letter that continues a literal). -/
theorem Parse_error_LocatedAt (cfg : JsonParserConfig) (hc : cfg.allow_comments = false)
    (t : List Char) (ht : NotLiteralLetter t) :
    ∀ fuel : Nat,
      (∀ st e x, st.Valid → ParseValue cfg fuel st = .error (.exception e) →
        ParseValue cfg fuel (st.extend t) = .ok x → e.LocatedAt st.input_.length) ∧
      (∀ st e x, st.Valid → ParseObject cfg fuel st = .error (.exception e) →
        ParseObject cfg fuel (st.extend t) = .ok x → e.LocatedAt st.input_.length) ∧
      (∀ obj st e x, st.Valid → ParseObjectLoop cfg fuel obj st = .error (.exception e) →
        ParseObjectLoop cfg fuel obj (st.extend t) = .ok x → e.LocatedAt st.input_.length) ∧
      (∀ st e x, st.Valid → ParseArray cfg fuel st = .error (.exception e) →
        ParseArray cfg fuel (st.extend t) = .ok x → e.LocatedAt st.input_.length) ∧
      (∀ arr st e x, st.Valid → ParseArrayLoop cfg fuel arr st = .error (.exception e) →
        ParseArrayLoop cfg fuel arr (st.extend t) = .ok x → e.LocatedAt st.input_.length) := by
  intro fuel
  induction fuel with
  | zero =>
      refine ⟨?_, ?_, ?_, ?_, ?_⟩
      · intro st e x _ h _; simp [ParseValue] at h
      · intro st e x _ h _; simp [ParseObject] at h
      · intro obj st e x _ h _; simp [ParseObjectLoop] at h
      · intro st e x _ h _; simp [ParseArray] at h
      · intro arr st e x _ h _; simp [ParseArrayLoop] at h
  | succ n ih =>
      obtain ⟨ihV, ihO, ihOL, ihA, ihAL⟩ := ih
      refine ⟨?_, ?_, ?_, ?_, ?_⟩
      · -- ParseValue
        intro st e x hv h hx
        rw [ParseValue] at h hx
        simp only [ValidateDepth_zero, bind, Except.bind] at h hx
        have h0 := SkipSeparators_Step cfg hv
        rw [← h0.1]
        by_cases hu : (SkipSeparators cfg st).unread = []
        · rw [Current_of_unread_nil hu] at h
          exact located_of_eq h0.valid hu h
        · obtain ⟨c, u, hcu⟩ := List.exists_cons_of_ne_nil hu
          rw [SkipSeparators_extend hc t hu, Current_extend t (Current_of_unread hcu)] at hx
          rw [Current_of_unread hcu] at h
          simp only at h hx
          split at h
          · rename_i h1
            simp only [h1, if_true] at hx
            obtain ⟨h2, y, h3⟩ := bind_ok_error h hx
            exact ihO _ _ _ h0.valid h2 h3
          · rename_i h1
            simp only [h1, if_false] at hx
            split at h
            · rename_i h2
              simp only [h2, if_true] at hx
              obtain ⟨h2, y, h3⟩ := bind_ok_error h hx
              exact ihA _ _ _ h0.valid h2 h3
            · rename_i h2
              simp only [h2, if_false] at hx
              split at h
              · rename_i h3
                simp only [h3, if_true] at hx
                obtain ⟨h2, y, h3⟩ := bind_ok_error h hx
                exact ParseString_error_LocatedAt cfg t h0.valid h2 h3
              · rename_i h3
                simp only [h3, if_false] at hx
                split at h
                · rename_i h4
                  cases hq : ParseNumber (SkipSeparators cfg st) with
                  | error e1 =>
                      rw [hq] at h
                      simp only at h
                      injection h with h
                      subst h
                      exact ParseNumber_error_LocatedAt h0.valid hq
                  | ok r =>
                      rw [hq] at h
                      simp [pure, Except.pure] at h
                · rename_i h4
                  simp only [h4, if_false] at hx
                  split at h
                  · rename_i h5
                    simp only [h5, if_true] at hx
                    obtain ⟨h2, y, h3⟩ := bind_ok_error h hx
                    exact ParseBoolean_error_LocatedAt t ht h0.valid h2 h3
                  · rename_i h5
                    simp only [h5, if_false] at hx
                    split at h
                    · rename_i h6
                      simp only [h6, if_true] at hx
                      obtain ⟨h2, y, h3⟩ := bind_ok_error h hx
                      exact ParseNull_error_LocatedAt t ht h0.valid h2 h3
                    · rename_i h6
                      simp only [h6, if_false] at hx
                      cases hx
      · -- ParseObject
        intro st e x hv h hx
        rw [ParseObject] at h hx
        simp only [ValidateDepth_zero, bind, Except.bind] at h hx
        cases h1 : Expect st '{' with
        | error e1 =>
            simp only [h1] at h
            injection h with h
            subst h
            cases h2 : Expect (st.extend t) '{' with
            | error e2 => simp only [h2] at hx; cases hx
            | ok y => exact Expect_error_LocatedAt t hv h1 h2
        | ok st1 =>
            simp only [h1, Expect_extend t h1] at h hx
            have hs1 := (Expect_Step h1).1
            have hs2 := SkipSeparators_Step cfg hs1.valid
            rw [← hs1.1, ← hs2.1]
            by_cases hu : (SkipSeparators cfg st1).unread = []
            · rw [Current_of_unread_nil hu] at h
              exact located_of_eq hs2.valid hu h
            · obtain ⟨c, u, hcu⟩ := List.exists_cons_of_ne_nil hu
              rw [SkipSeparators_extend hc t hu, Current_extend t (Current_of_unread hcu)] at hx
              rw [Current_of_unread hcu] at h
              simp only at h hx
              split at h
              · rw [Next_of_unread hcu] at h
                simp [pure, Except.pure] at h
              · rename_i h2
                simp only [h2, if_false] at hx
                exact ihOL _ _ _ _ hs2.valid h hx
      · -- ParseObjectLoop
        intro obj st e x hv h hx
        rw [ParseObjectLoop] at h hx
        simp only [bind, Except.bind] at h hx
        have hs0 := SkipSeparators_Step cfg hv
        rw [← hs0.1]
        by_cases hu0 : (SkipSeparators cfg st).unread = []
        · rw [ParseString_at_end cfg hu0] at h
          exact located_of_eq hs0.valid hu0 h
        rw [SkipSeparators_extend hc t hu0] at hx
        cases hk : ParseString cfg (SkipSeparators cfg st) with
        | error e1 =>
            simp only [hk] at h
            injection h with h
            subst h
            cases hk2 : ParseString cfg ((SkipSeparators cfg st).extend t) with
            | error e2 => simp only [hk2] at hx; cases hx
            | ok y => exact ParseString_error_LocatedAt cfg t hs0.valid hk hk2
        | ok k =>
            simp only [hk] at h
            have hs1 := (ParseString_Step cfg hk).1
            have hs2 := SkipSeparators_Step cfg hs1.valid
            rw [← hs1.1, ← hs2.1]
            by_cases hu2 : (SkipSeparators cfg k.2).unread = []
            · rw [Expect_at_end hu2] at h
              exact located_of_eq hs2.valid hu2 h
            have hu1 : k.2.unread ≠ [] := ParserState.unread_ne_nil_of_Step hs2 hu2
            simp only [ParseString_extend cfg t hk hu1, SkipSeparators_extend hc t hu2] at hx
            cases h2 : Expect (SkipSeparators cfg k.2) ':' with
            | error e1 =>
                simp only [h2] at h
                injection h with h
                subst h
                cases h3 : Expect ((SkipSeparators cfg k.2).extend t) ':' with
                | error e2 => simp only [h3] at hx; cases hx
                | ok y => exact Expect_error_LocatedAt t hs2.valid h2 h3
            | ok st2 =>
                simp only [h2, Expect_extend t h2] at h hx
                have hs3 := (Expect_Step h2).1
                have hs4 := SkipSeparators_Step cfg hs3.valid
                rw [← hs3.1, ← hs4.1]
                by_cases hu4 : (SkipSeparators cfg st2).unread = []
                · cases n with
                  | zero => simp [ParseValue] at h
                  | succ m =>
                      rw [ParseValue] at h
                      simp only [ValidateDepth_zero, bind, Except.bind,
                        SkipSeparators_at_end cfg hu4, Current_of_unread_nil hu4] at h
                      exact located_of_eq hs4.valid hu4 h
                rw [SkipSeparators_extend hc t hu4] at hx
                cases hv2 : ParseValue cfg n (SkipSeparators cfg st2) with
                | error e1 =>
                    simp only [hv2] at h
                    injection h with h
                    subst h
                    cases hv3 : ParseValue cfg n ((SkipSeparators cfg st2).extend t) with
                    | error e2 => simp only [hv3] at hx; cases hx
                    | ok y => exact ihV _ _ _ hs4.valid hv2 hv3
                | ok v =>
                    simp only [hv2] at h
                    have hs5 := (Parse_Step cfg n).1 _ _ hs4.valid hv2
                    have hs6 := SkipSeparators_Step cfg hs5.valid
                    rw [← hs5.1, ← hs6.1]
                    by_cases hu6 : (SkipSeparators cfg v.2).unread = []
                    · rw [Current_of_unread_nil hu6] at h
                      exact located_of_eq hs6.valid hu6 h
                    have hu5 : v.2.unread ≠ [] := ParserState.unread_ne_nil_of_Step hs6 hu6
                    obtain ⟨c, u, hcu⟩ := List.exists_cons_of_ne_nil hu6
                    simp only [(Parse_extend cfg hc t n).1 _ _ hs4.valid hv2 (Or.inl hu5),
                      SkipSeparators_extend hc t hu6, Current_extend t (Current_of_unread hcu),
                      Next_extend t (Next_of_unread hcu)] at hx
                    simp only [Current_of_unread hcu, Next_of_unread hcu] at h
                    split at h
                    · simp [pure, Except.pure] at h
                    · rename_i h3
                      simp only [h3, if_false] at hx
                      split at h
                      · rename_i h4
                        subst h4
                        rw [if_pos rfl] at hx
                        have hs7 := ParserState.Step.consume hcu
                        rw [← hs7.1]
                        exact ihOL _ _ _ _ hs7.valid h hx
                      · rename_i h4
                        simp only [h4, if_false] at hx
                        cases hx
      · -- ParseArray
        intro st e x hv h hx
        rw [ParseArray] at h hx
        simp only [ValidateDepth_zero, bind, Except.bind] at h hx
        cases h1 : Expect st '[' with
        | error e1 =>
            simp only [h1] at h
            injection h with h
            subst h
            cases h2 : Expect (st.extend t) '[' with
            | error e2 => simp only [h2] at hx; cases hx
            | ok y => exact Expect_error_LocatedAt t hv h1 h2
        | ok st1 =>
            simp only [h1, Expect_extend t h1] at h hx
            have hs1 := (Expect_Step h1).1
            have hs2 := SkipSeparators_Step cfg hs1.valid
            rw [← hs1.1, ← hs2.1]
            by_cases hu : (SkipSeparators cfg st1).unread = []
            · rw [Current_of_unread_nil hu] at h
              exact located_of_eq hs2.valid hu h
            · obtain ⟨c, u, hcu⟩ := List.exists_cons_of_ne_nil hu
              rw [SkipSeparators_extend hc t hu, Current_extend t (Current_of_unread hcu)] at hx
              rw [Current_of_unread hcu] at h
              simp only at h hx
              split at h
              · rw [Next_of_unread hcu] at h
                simp [pure, Except.pure] at h
              · rename_i h2
                simp only [h2, if_false] at hx
                exact ihAL _ _ _ _ hs2.valid h hx
      · -- ParseArrayLoop
        intro arr st e x hv h hx
        rw [ParseArrayLoop] at h hx
        simp only [bind, Except.bind] at h hx
        have hs4 := SkipSeparators_Step cfg hv
        rw [← hs4.1]
        by_cases hu4 : (SkipSeparators cfg st).unread = []
        · cases n with
          | zero => simp [ParseValue] at h
          | succ m =>
              rw [ParseValue] at h
              simp only [ValidateDepth_zero, bind, Except.bind,
                SkipSeparators_at_end cfg hu4, Current_of_unread_nil hu4] at h
              exact located_of_eq hs4.valid hu4 h
        rw [SkipSeparators_extend hc t hu4] at hx
        cases hv2 : ParseValue cfg n (SkipSeparators cfg st) with
        | error e1 =>
            simp only [hv2] at h
            injection h with h
            subst h
            cases hv3 : ParseValue cfg n ((SkipSeparators cfg st).extend t) with
            | error e2 => simp only [hv3] at hx; cases hx
            | ok y => exact ihV _ _ _ hs4.valid hv2 hv3
        | ok v =>
            simp only [hv2] at h
            have hs5 := (Parse_Step cfg n).1 _ _ hs4.valid hv2
            have hs6 := SkipSeparators_Step cfg hs5.valid
            rw [← hs5.1, ← hs6.1]
            by_cases hu6 : (SkipSeparators cfg v.2).unread = []
            · rw [Current_of_unread_nil hu6] at h
              exact located_of_eq hs6.valid hu6 h
            have hu5 : v.2.unread ≠ [] := ParserState.unread_ne_nil_of_Step hs6 hu6
            obtain ⟨c, u, hcu⟩ := List.exists_cons_of_ne_nil hu6
            simp only [(Parse_extend cfg hc t n).1 _ _ hs4.valid hv2 (Or.inl hu5),
              SkipSeparators_extend hc t hu6, Current_extend t (Current_of_unread hcu),
              Next_extend t (Next_of_unread hcu)] at hx
            simp only [Current_of_unread hcu, Next_of_unread hcu] at h
            split at h
            · simp [pure, Except.pure] at h
            · rename_i h3
              simp only [h3, if_false] at hx
              split at h
              · rename_i h4
                subst h4
                rw [if_pos rfl] at hx
                have hs7 := ParserState.Step.consume hcu
                rw [← hs7.1]
                exact ihAL _ _ _ _ hs7.valid h hx
              · rename_i h4
                simp only [h4, if_false] at hx
                cases hx

/-! ### C6: unclosed structures -/

theorem not_whitespace_of_suffix {u : List Char} {c : Char} (hc : isspace c = false)
    (h : IsWhitespace (u ++ [c])) : False := by
  have := h c (by simp)
  rw [hc] at this
  cases this

/-- C6: with comments disabled (as in the default configuration), if the
first character of `s` after leading white space is `{` (respectively `[`)
and `Parse` succeeds on `s` followed by `}` (respectively `]`), then `Parse`
raises a ParseError on `s` whose reported offset is the length of `s`. -/
theorem C6_unclosed_structure (cfg : JsonParserConfig) (hc : cfg.allow_comments = false)
    (s : List Char) (opening closing : Char)
    (hkind : (opening = '{' ∧ closing = '}') ∨ (opening = '[' ∧ closing = ']'))
    (hfirst : ∃ w rest, IsWhitespace w ∧ s = w ++ opening :: rest)
    (hclosed : ∃ v, Parse (s ++ [closing]) cfg = .ok v) :
    ∃ e : JsonParseException, Parse s cfg = .error (.exception e) ∧
      e.LocatedAt s.length ∧ e.GetPosition = s.length := by
  obtain ⟨v, hv⟩ := hclosed
  obtain ⟨w0, rest0, hw0, hs⟩ := hfirst
  obtain ⟨st2, hp2, hend2⟩ := Parse_eq_ok hv
  have hopen : opening = '{' ∨ opening = '[' := by
    rcases hkind with h | h
    · exact Or.inl h.1
    · exact Or.inr h.1
  have hcs : isspace closing = false := by
    rcases hkind with h | h <;> rw [h.2] <;> decide
  have hnl : NotLiteralLetter [closing] := by
    intro c hcm
    simp at hcm
    subst hcm
    rcases hkind with h | h <;> rw [h.2] <;> decide
  have hv0 : (ParserState.Initialize s).Valid := Nat.zero_le _
  have hv02 : (ParserState.Initialize (s ++ [closing])).Valid := Nat.zero_le _
  -- the successful run consumed the closing bracket
  have hstep2 := (Parse_Step cfg _).1 _ _ hv02 hp2
  have hws2 : IsWhitespace st2.unread := SkipWhitespaceLoop_at_end _ st2 rfl hend2
  have hin2 : st2.input_ = s ++ [closing] := hstep2.1
  have hpos2 : st2.position_ = s.length + 1 := by
    by_contra hne
    have hle : st2.position_ ≤ s.length := by
      have := hstep2.valid
      unfold ParserState.Valid at this
      rw [hin2] at this
      simp at this
      omega
    have hu : st2.unread = s.drop st2.position_ ++ [closing] := by
      unfold ParserState.unread
      rw [hin2, List.drop_append_of_le_length hle]
    rw [hu] at hws2
    exact not_whitespace_of_suffix hcs hws2
  -- the run on `s` with the same fuel
  have hfuel : ParseValue cfg (3 * (s ++ [closing]).length + 3) (ParserState.Initialize s) ≠
      .error .outOfFuel := by
    apply (Parse_fuel cfg _).1 _ hv0
    simp [ParserState.Initialize]
    omega
  have hsmall := ParseValue_fuel_enough cfg s
  have hmono : ParseValue cfg (3 * (s ++ [closing]).length + 3) (ParserState.Initialize s) =
      ParseValue cfg (3 * s.length + 3) (ParserState.Initialize s) :=
    ParseValue_mono_le cfg (by simp) _ hsmall
  rw [← ParserState.Initialize_extend] at hp2
  cases hr : ParseValue cfg (3 * (s ++ [closing]).length + 3) (ParserState.Initialize s) with
  | ok r =>
      exfalso
      have hcont : r.1.isContainer = true := by
        have hreads := ParserState.Reads.Initialize s
        rw [hs] at hreads hr
        exact ParseValue_isContainer hc hopen hreads hw0 hr
      have hext := (Parse_extend cfg hc [closing] _).1 _ _ hv0 hr (Or.inr hcont)
      rw [hp2] at hext
      injection hext with hext
      have hstep := (Parse_Step cfg _).1 _ _ hv0 hr
      have h1 : st2.position_ = r.2.position_ := by
        have := congrArg (fun p => p.2.position_) hext
        simpa [ParserState.extend] using this
      have h2 := hstep.valid
      unfold ParserState.Valid at h2
      have h3 : r.2.input_ = s := hstep.1
      rw [h3] at h2
      omega
  | error f =>
      cases f with
      | outOfFuel => exact absurd hr hfuel
      | exception e =>
          have hloc := (Parse_error_LocatedAt cfg hc [closing] hnl _).1 _ _ _ hv0 hr hp2
          have hloc' : e.LocatedAt s.length := hloc
          refine ⟨e, ?_, hloc', ?_⟩
          · unfold Parse
            dsimp only
            rw [← hmono, hr]
            rfl
          · obtain ⟨m, l, c, he⟩ := hloc'
            rw [he]
            rfl

/-- C6 at the two test inputs `{"key": "value"` and `[1, 2, 3`. -/
theorem C6_unclosed_structure_witness :
    (∃ e : JsonParseException,
        Parse "\x7b\"key\": \"value\"".toList JsonParserConfig.Strict = .error (.exception e) ∧
        e.LocatedAt "\x7b\"key\": \"value\"".toList.length ∧
        e.GetPosition = "\x7b\"key\": \"value\"".toList.length) ∧
      (∃ e : JsonParseException,
        Parse "[1, 2, 3".toList JsonParserConfig.Strict = .error (.exception e) ∧
        e.LocatedAt "[1, 2, 3".toList.length ∧ e.GetPosition = "[1, 2, 3".toList.length) :=
  ⟨C6_unclosed_structure JsonParserConfig.Strict rfl "\x7b\"key\": \"value\"".toList '{' '}'
      (Or.inl ⟨rfl, rfl⟩) ⟨[], "\"key\": \"value\"".toList, by unfold IsWhitespace; decide, by decide⟩
      ⟨.object [("key".toList, .string "value".toList)], by decide!⟩,
    C6_unclosed_structure JsonParserConfig.Strict rfl "[1, 2, 3".toList '[' ']'
      (Or.inr ⟨rfl, rfl⟩) ⟨[], "1, 2, 3".toList, by unfold IsWhitespace; decide, by decide⟩
      ⟨.array [], by decide!⟩⟩

/-! ### Exact integer arithmetic in binary64 -/

namespace Double

theorem stripTwos_value : ∀ (k : Nat) (m e : Int), 0 ≤ e →
    0 ≤ (stripTwos k m e).2 ∧
      (stripTwos k m e).1 * 2 ^ (stripTwos k m e).2.toNat = m * 2 ^ e.toNat := by
  intro k
  induction k with
  | zero => intro m e he; exact ⟨he, rfl⟩
  | succ k ih =>
      intro m e he
      unfold stripTwos
      split
      · rename_i hm
        obtain ⟨h1, h2⟩ := ih (m / 2) (e + 1) (by omega)
        refine ⟨h1, ?_⟩
        rw [h2]
        have h3 : (e + 1).toNat = e.toNat + 1 := by omega
        rw [h3, pow_succ]
        have h4 : m = m / 2 * 2 := by omega
        nth_rewrite 2 [h4]
        ring
      · exact ⟨he, rfl⟩

theorem stripTwos_neg : ∀ (k : Nat) (m e : Int),
    stripTwos k (-m) e = (-(stripTwos k m e).1, (stripTwos k m e).2) := by
  intro k
  induction k with
  | zero => intro m e; rfl
  | succ k ih =>
      intro m e
      unfold stripTwos
      by_cases hm : m % 2 = 0
      · have hm' : -m % 2 = 0 := by omega
        have h2 : -m / 2 = -(m / 2) := by omega
        rw [if_pos hm, if_pos hm', h2]
        exact ih _ _
      · have hm' : ¬ (-m % 2 = 0) := by omega
        rw [if_neg hm, if_neg hm']

theorem exactInt_eq_fin (z : Int) : ∃ m e, exactInt z = fin m e ∧ toRatio m e = (z, 1) := by
  unfold exactInt normalize
  by_cases hz : z = 0
  · refine ⟨0, 0, ?_, ?_⟩
    · rw [if_pos hz]
    · rw [hz]
      rfl
  · rw [if_neg hz]
    refine ⟨_, _, rfl, ?_⟩
    obtain ⟨h1, h2⟩ := stripTwos_value 64 z 0 (le_refl _)
    unfold toRatio
    rw [if_pos h1, h2]
    simp

theorem neg_exactInt (z : Int) : neg (exactInt z) = exactInt (-z) := by
  unfold exactInt normalize
  by_cases hz : z = 0
  · subst hz
    rfl
  · have hz' : ¬ (-z = 0) := by omega
    rw [if_neg hz, if_neg hz', stripTwos_neg]
    rfl

theorem ofInt_eq_exactInt {z : Int} (hz : z.natAbs ≤ 2 ^ 53) : ofInt z = exactInt z := by
  unfold ofInt ofRatio
  have h1 : ((1 : Nat) : Int) = 1 := rfl
  rw [h1, Int.ediv_one, if_pos ⟨one_dvd z, hz⟩]

theorem ofRatio_one {z : Int} (hz : z.natAbs ≤ 2 ^ 53) : ofRatio z 1 = exactInt z :=
  ofInt_eq_exactInt hz

theorem add_exactInt {a b : Int} (h : (a + b).natAbs ≤ 2 ^ 53) :
    add (exactInt a) (exactInt b) = exactInt (a + b) := by
  obtain ⟨m1, e1, h1, r1⟩ := exactInt_eq_fin a
  obtain ⟨m2, e2, h2, r2⟩ := exactInt_eq_fin b
  rw [h1, h2]
  unfold add
  simp only [r1, r2]
  have h3 : a * ((1 : Nat) : Int) + b * ((1 : Nat) : Int) = a + b := by simp
  rw [h3]
  exact ofRatio_one h

theorem mul_exactInt {a b : Int} (h : (a * b).natAbs ≤ 2 ^ 53) :
    mul (exactInt a) (exactInt b) = exactInt (a * b) := by
  obtain ⟨m1, e1, h1, r1⟩ := exactInt_eq_fin a
  obtain ⟨m2, e2, h2, r2⟩ := exactInt_eq_fin b
  rw [h1, h2]
  unfold mul
  simp only [r1, r2]
  exact ofRatio_one h

end Double

/-! ### C10: number literals -/

theorem isdigit_bounds {c : Char} (h : isdigit c = true) : 48 ≤ c.toNat ∧ c.toNat ≤ 57 := by
  unfold isdigit at h
  simp only [Bool.and_eq_true, decide_eq_true_eq] at h
  obtain ⟨h1, h2⟩ := h
  have h1' : ('0' : Char).toNat ≤ c.toNat := h1
  have h2' : c.toNat ≤ ('9' : Char).toNat := h2
  exact ⟨h1', h2'⟩

theorem digitValue_of_isdigit {c : Char} (h : isdigit c = true) :
    digitValue c = ((c.toNat - 48 : Nat) : Int) := by
  have := isdigit_bounds h
  unfold digitValue
  omega

theorem IntegerLoop_digits : ∀ (ds : List Char) (result : Double) (st : ParserState)
    (pre rest : List Char), st.Reads pre (ds ++ rest) → (∀ c ∈ ds, isdigit c = true) →
    (∀ c ∈ rest.head?, isdigit c = false) →
    ∃ st1, IntegerLoop (ds ++ rest) result st = (integerAccumulated ds result, st1) ∧
      st1.Reads (pre ++ ds) rest := by
  intro ds
  induction ds with
  | nil =>
      intro result st pre rest h _ hr
      refine ⟨st, ?_, by simpa using h⟩
      cases rest with
      | nil => rfl
      | cons c rest =>
          have hc := hr c (by simp)
          simp [IntegerLoop, hc, integerAccumulated]
  | cons d ds ih =>
      intro result st pre rest h hd hr
      have hd1 : isdigit d = true := hd d (by simp)
      have h1 : (st.consume d).Reads (pre ++ [d]) (ds ++ rest) := h.after_consume
      obtain ⟨st1, h2, h3⟩ := ih (Double.add (Double.mul result (Double.ofInt 10))
        (Double.ofInt (digitValue d))) _ _ rest h1 (fun c hc => hd c (by simp [hc])) hr
      refine ⟨st1, ?_, by simpa using h3⟩
      simp only [List.cons_append, IntegerLoop, hd1, if_true, integerAccumulated]
      exact h2

theorem FractionLoop_digits : ∀ (fs : List Char) (fraction divisor : Double) (st : ParserState)
    (pre rest : List Char), st.Reads pre (fs ++ rest) → (∀ c ∈ fs, isdigit c = true) →
    (∀ c ∈ rest.head?, isdigit c = false) →
    ∃ st1, FractionLoop (fs ++ rest) fraction divisor st =
        (fractionAccumulated fs fraction divisor, st1) ∧ st1.Reads (pre ++ fs) rest := by
  intro ds
  induction ds with
  | nil =>
      intro fraction divisor st pre rest h _ hr
      refine ⟨st, ?_, by simpa using h⟩
      cases rest with
      | nil => rfl
      | cons c rest =>
          have hc := hr c (by simp)
          simp [FractionLoop, hc, fractionAccumulated]
  | cons d ds ih =>
      intro fraction divisor st pre rest h hd hr
      have hd1 : isdigit d = true := hd d (by simp)
      have h1 : (st.consume d).Reads (pre ++ [d]) (ds ++ rest) := h.after_consume
      obtain ⟨st1, h2, h3⟩ := ih (Double.add fraction (Double.div (Double.ofInt (digitValue d)) divisor))
        (Double.mul divisor (Double.ofInt 10)) _ _ rest h1 (fun c hc => hd c (by simp [hc])) hr
      refine ⟨st1, ?_, by simpa using h3⟩
      simp only [List.cons_append, FractionLoop, hd1, if_true, fractionAccumulated]
      exact h2

theorem ExponentLoop_digits : ∀ (es : List Char) (exponent : Int) (st : ParserState)
    (pre rest : List Char), st.Reads pre (es ++ rest) → (∀ c ∈ es, isdigit c = true) →
    (∀ c ∈ rest.head?, isdigit c = false) →
    ∃ st1, ExponentLoop (es ++ rest) exponent st = (exponentAccumulated es exponent, st1) ∧
      st1.Reads (pre ++ es) rest := by
  intro ds
  induction ds with
  | nil =>
      intro exponent st pre rest h _ hr
      refine ⟨st, ?_, by simpa using h⟩
      cases rest with
      | nil => rfl
      | cons c rest =>
          have hc := hr c (by simp)
          simp [ExponentLoop, hc, exponentAccumulated]
  | cons d ds ih =>
      intro exponent st pre rest h hd hr
      have hd1 : isdigit d = true := hd d (by simp)
      have h1 : (st.consume d).Reads (pre ++ [d]) (ds ++ rest) := h.after_consume
      obtain ⟨st1, h2, h3⟩ := ih (wrapInt32 (wrapInt32 (exponent * 10) + digitValue d))
        _ _ rest h1 (fun c hc => hd c (by simp [hc])) hr
      refine ⟨st1, ?_, by simpa using h3⟩
      simp only [List.cons_append, ExponentLoop, hd1, if_true, exponentAccumulated]
      exact h2

theorem ParseSign_minus {st : ParserState} {pre rest : List Char}
    (h : st.Reads pre ('-' :: rest)) : ParseSign st = .ok (true, st.consume '-') := by
  simp [ParseSign, Current_of_Reads h, Next_of_Reads h, bind, Except.bind, pure, Except.pure]

theorem ParseSign_other {st : ParserState} {pre rest : List Char} {x : Char}
    (h : st.Reads pre (x :: rest)) (hx : x ≠ '-') : ParseSign st = .ok (false, st) := by
  simp [ParseSign, Current_of_Reads h, hx, bind, Except.bind, pure, Except.pure]

theorem ParseFraction_none {result : Double} {st : ParserState} {pre rest : List Char} {x : Char}
    (h : st.Reads pre (x :: rest)) (hx : x ≠ '.') : ParseFraction result st = .ok (result, st) := by
  simp [ParseFraction, Current_of_Reads h, hx, bind, Except.bind, pure, Except.pure]

theorem ParseFraction_some {result : Double} {st : ParserState} {pre fs rest : List Char}
    (h : st.Reads pre ('.' :: (fs ++ rest))) (hfs : ∀ c ∈ fs, isdigit c = true)
    (hr : ∀ c ∈ rest.head?, isdigit c = false) :
    ∃ st1, ParseFraction result st =
        .ok (Double.add result (fractionAccumulated fs (Double.ofInt 0) (Double.ofInt 10)), st1) ∧
      st1.Reads (pre ++ '.' :: fs) rest := by
  have h1 : (st.consume '.').Reads (pre ++ ['.']) (fs ++ rest) := h.after_consume
  obtain ⟨st1, h2, h3⟩ := FractionLoop_digits fs (Double.ofInt 0) (Double.ofInt 10) _ _ rest h1 hfs hr
  refine ⟨st1, ?_, by simpa using h3⟩
  simp [ParseFraction, Current_of_Reads h, Next_of_Reads h, bind, Except.bind, pure, Except.pure,
    h1.unread_eq, h2]

theorem ParseExponent_none {result : Double} {st : ParserState} {pre rest : List Char} {x : Char}
    (h : st.Reads pre (x :: rest)) (hx : x ≠ 'e' ∧ x ≠ 'E') :
    ParseExponent result st = .ok (result, st) := by
  simp [ParseExponent, Current_of_Reads h, hx.1, hx.2, bind, Except.bind, pure, Except.pure]

theorem isdigit_ne {c d : Char} (hc : isdigit c = true) (hd : isdigit d = false) : c ≠ d := by
  intro h
  rw [h, hd] at hc
  cases hc

theorem ParseExponentSign_signText {st : ParserState} {pre rest : List Char} (sign : Option Bool)
    {d : Char} (hd : isdigit d = true)
    (h : st.Reads pre (ExponentPart.signText sign ++ d :: rest)) :
    ∃ st1, ParseExponentSign st = .ok (decide (sign = some true), st1) ∧
      st1.Reads (pre ++ ExponentPart.signText sign) (d :: rest) := by
  cases sign with
  | none =>
      have h0 : st.Reads pre (d :: rest) := h
      have h1 : d ≠ '-' := isdigit_ne hd (by decide)
      have h2 : d ≠ '+' := isdigit_ne hd (by decide)
      refine ⟨st, ?_, by simpa [ExponentPart.signText] using h0⟩
      simp [ParseExponentSign, Current_of_Reads h0, h1, h2, bind, Except.bind, pure, Except.pure]
  | some b =>
      cases b with
      | true =>
          have h0 : st.Reads pre ('-' :: d :: rest) := h
          refine ⟨st.consume '-', ?_, by simpa [ExponentPart.signText] using h0.after_consume⟩
          simp [ParseExponentSign, Current_of_Reads h0, Next_of_Reads h0, bind, Except.bind, pure,
            Except.pure]
      | false =>
          have h0 : st.Reads pre ('+' :: d :: rest) := h
          refine ⟨st.consume '+', ?_, by simpa [ExponentPart.signText] using h0.after_consume⟩
          simp [ParseExponentSign, Current_of_Reads h0, Next_of_Reads h0, bind, Except.bind, pure,
            Except.pure]

theorem ParseExponent_some {result : Double} {st : ParserState} {pre rest : List Char}
    (x : ExponentPart) (hm : x.marker = 'e' ∨ x.marker = 'E') (hne : x.digits ≠ [])
    (hes : ∀ c ∈ x.digits, isdigit c = true) (hr : ∀ c ∈ rest.head?, isdigit c = false)
    (h : st.Reads pre (NumberLiteral.exponentText (some x) ++ rest)) :
    ∃ st1, ParseExponent result st = .ok (Double.mul result (Double.pow10 x.accumulated), st1) ∧
      st1.Reads (pre ++ NumberLiteral.exponentText (some x)) rest := by
  obtain ⟨m, sign, es⟩ := x
  cases es with
  | nil => exact absurd rfl hne
  | cons d es =>
      have hd : isdigit d = true := hes d (by simp)
      have h0 : st.Reads pre (m :: (ExponentPart.signText sign ++ d :: (es ++ rest))) := by
        simpa [NumberLiteral.exponentText] using h
      have h1 : (st.consume m).Reads (pre ++ [m]) (ExponentPart.signText sign ++ d :: (es ++ rest)) :=
        h0.after_consume
      obtain ⟨st2, h2, h3⟩ := ParseExponentSign_signText sign hd h1
      have h3' : st2.Reads (pre ++ [m] ++ ExponentPart.signText sign) ((d :: es) ++ rest) := h3
      obtain ⟨st3, h4, h5⟩ := ExponentLoop_digits (d :: es) 0 _ _ rest h3' hes hr
      refine ⟨st3, ?_, by simpa [NumberLiteral.exponentText] using h5⟩
      have hm' : m = 'e' ∨ m = 'E' := hm
      simp only [ParseExponent, Current_of_Reads h0, Next_of_Reads h0, bind, Except.bind, pure,
        Except.pure, hm', if_true, h2, h3'.unread_eq, h4, ExponentPart.accumulated]
      cases sign with
      | none => simp
      | some b => cases b <;> simp

theorem exponentText_head (ex : Option ExponentPart)
    (hex : ∀ x, ex = some x → x.marker = 'e' ∨ x.marker = 'E') {c : Char}
    (hc : isdigit c = false) (rest : List Char) :
    ∃ y tail, NumberLiteral.exponentText ex ++ c :: rest = y :: tail ∧ isdigit y = false ∧
      (ex ≠ none → y ≠ '.') ∧ (ex = none → y = c) := by
  cases ex with
  | none => exact ⟨c, rest, rfl, hc, fun h => absurd rfl h, fun _ => rfl⟩
  | some x =>
      refine ⟨x.marker, _, rfl, ?_, fun _ => ?_, by intro h; cases h⟩
      · rcases hex x rfl with h | h <;> rw [h] <;> decide
      · rcases hex x rfl with h | h <;> rw [h] <;> decide

theorem ParseSign_literal {st : ParserState} {pre ds tail : List Char} (negative : Bool)
    (hne : ds ≠ []) (hds : ∀ c ∈ ds, isdigit c = true)
    (h : st.Reads pre ((if negative then ['-'] else []) ++ (ds ++ tail))) :
    ∃ st1, ParseSign st = .ok (negative, st1) ∧
      st1.Reads (pre ++ (if negative then ['-'] else [])) (ds ++ tail) := by
  cases negative with
  | true =>
      have h0 : st.Reads pre ('-' :: (ds ++ tail)) := h
      exact ⟨_, ParseSign_minus h0, by simpa using h0.after_consume⟩
  | false =>
      cases ds with
      | nil => exact absurd rfl hne
      | cons d ds =>
          have h0 : st.Reads pre (d :: (ds ++ tail)) := h
          have hd : d ≠ '-' := isdigit_ne (hds d (by simp)) (by decide)
          exact ⟨_, ParseSign_other h0 hd, by simpa using h0⟩

theorem ParseFraction_literal (result : Double) {st : ParserState} {pre tail : List Char}
    (frac : Option (List Char)) (hfs : ∀ fs, frac = some fs → ∀ c ∈ fs, isdigit c = true)
    {y : Char} (hy : isdigit y = false) (hdot : frac = none → y ≠ '.')
    (h : st.Reads pre (NumberLiteral.fractionText frac ++ y :: tail)) :
    ∃ st1, ParseFraction result st = .ok (NumberLiteral.addFraction result frac, st1) ∧
      st1.Reads (pre ++ NumberLiteral.fractionText frac) (y :: tail) := by
  cases frac with
  | none =>
      have h0 : st.Reads pre (y :: tail) := h
      exact ⟨st, ParseFraction_none h0 (hdot rfl), by simpa [NumberLiteral.fractionText] using h0⟩
  | some fs =>
      have h0 : st.Reads pre ('.' :: (fs ++ y :: tail)) := h
      exact ParseFraction_some h0 (hfs fs rfl) (by simpa using hy)

theorem ParseExponent_literal (result : Double) {st : ParserState} {pre rest : List Char}
    (ex : Option ExponentPart)
    (hex : ∀ x, ex = some x →
      (x.marker = 'e' ∨ x.marker = 'E') ∧ x.digits ≠ [] ∧ ∀ c ∈ x.digits, isdigit c = true)
    {c : Char} (hc : isdigit c = false) (he : ex = none → c ≠ 'e' ∧ c ≠ 'E')
    (h : st.Reads pre (NumberLiteral.exponentText ex ++ c :: rest)) :
    ∃ st1, ParseExponent result st = .ok (NumberLiteral.scale result ex, st1) ∧
      st1.Reads (pre ++ NumberLiteral.exponentText ex) (c :: rest) := by
  cases ex with
  | none =>
      have h0 : st.Reads pre (c :: rest) := h
      exact ⟨st, ParseExponent_none h0 (he rfl), by simpa [NumberLiteral.exponentText] using h0⟩
  | some x =>
      obtain ⟨h1, h2, h3⟩ := hex x rfl
      exact ParseExponent_some x h1 h2 h3 (by simpa using hc) h

theorem ParseNumber_literal (n : NumberLiteral) (hn : n.WellFormed) (c : Char)
    (hc : n.EndsBefore c) (st : ParserState) (pre rest : List Char)
    (h : st.Reads pre (n.text ++ c :: rest)) :
    ∃ st1, ParseNumber st = .ok (n.accumulated, st1) ∧ st1.Reads (pre ++ n.text) (c :: rest) := by
  obtain ⟨hne, hds, hfs, hex⟩ := hn
  obtain ⟨hc1, hc2, hc3⟩ := hc
  obtain ⟨y, tail, hy1, hy2, hy3, hy4⟩ :=
    exponentText_head n.exponent (fun x hx => (hex x hx).1) hc1 rest
  have h0 : st.Reads pre ((if n.negative then ['-'] else []) ++ (n.integer ++
      (NumberLiteral.fractionText n.fraction ++ (NumberLiteral.exponentText n.exponent ++ c :: rest)))) := by
    simpa [NumberLiteral.text] using h
  obtain ⟨st1, p1, r1⟩ := ParseSign_literal n.negative hne hds h0
  have htail : ∀ z ∈ (NumberLiteral.fractionText n.fraction ++
      (NumberLiteral.exponentText n.exponent ++ c :: rest)).head?, isdigit z = false := by
    cases hf : n.fraction with
    | none =>
        rw [hy1]
        intro z hz
        simp [NumberLiteral.fractionText] at hz
        rw [← hz]
        exact hy2
    | some fs =>
        intro z hz
        simp [NumberLiteral.fractionText] at hz
        rw [← hz]
        decide
  obtain ⟨st2, p2, r2⟩ := IntegerLoop_digits n.integer (Double.ofInt 0) st1 _ _ r1 hds htail
  rw [hy1] at r2
  have hdot : n.fraction = none → y ≠ '.' := by
    intro hf
    by_cases hx : n.exponent = none
    · rw [hy4 hx]
      exact hc3 hf hx
    · exact hy3 hx
  obtain ⟨st3, p3, r3⟩ := ParseFraction_literal
    (integerAccumulated n.integer (Double.ofInt 0)) n.fraction hfs hy2 hdot r2
  rw [← hy1] at r3
  obtain ⟨st4, p4, r4⟩ := ParseExponent_literal
    (NumberLiteral.addFraction (integerAccumulated n.integer (Double.ofInt 0)) n.fraction)
    n.exponent hex hc1 hc2 r3
  refine ⟨st4, ?_, by simpa [NumberLiteral.text] using r4⟩
  simp only [ParseNumber, p1, bind, Except.bind, r1.unread_eq, p2, p3, p4, pure, Except.pure,
    NumberLiteral.accumulated]

theorem le_digitsFrom : ∀ (ds : List Char) (n : Nat), n ≤ digitsFrom n ds := by
  intro ds
  induction ds with
  | nil => intro n; exact le_refl _
  | cons c ds ih =>
      intro n
      show n ≤ digitsFrom (10 * n + (c.toNat - 48)) ds
      exact le_trans (by omega) (ih (10 * n + (c.toNat - 48)))

theorem integerAccumulated_exact : ∀ (ds : List Char) (r : Nat), (∀ c ∈ ds, isdigit c = true) →
    digitsFrom r ds ≤ 2 ^ 53 →
    integerAccumulated ds (Double.exactInt r) = Double.exactInt (digitsFrom r ds) := by
  intro ds
  induction ds with
  | nil => intro r _ _; rfl
  | cons c ds ih =>
      intro r hds hle
      have hc : isdigit c = true := hds c (by simp)
      have hb := isdigit_bounds hc
      have hstep : digitsFrom r (c :: ds) = digitsFrom (10 * r + (c.toNat - 48)) ds := rfl
      rw [hstep] at hle ⊢
      have h1 := le_digitsFrom ds (10 * r + (c.toNat - 48))
      have h10 : Double.ofInt 10 = Double.exactInt 10 := Double.ofInt_eq_exactInt (by norm_num)
      have hd : Double.ofInt (digitValue c) = Double.exactInt ((c.toNat - 48 : Nat) : Int) := by
        rw [digitValue_of_isdigit hc]
        apply Double.ofInt_eq_exactInt
        simp only [Int.natAbs_ofNat]
        omega
      have hm : Double.mul (Double.exactInt r) (Double.exactInt 10) =
          Double.exactInt ((r : Int) * 10) := by
        apply Double.mul_exactInt
        have : ((r : Int) * 10).natAbs = r * 10 := by
          rw [Int.natAbs_mul]
          simp
        rw [this]
        omega
      have ha : Double.add (Double.exactInt ((r : Int) * 10))
          (Double.exactInt ((c.toNat - 48 : Nat) : Int)) =
          Double.exactInt (((10 * r + (c.toNat - 48) : Nat) : Int)) := by
        have hcast : (((10 * r + (c.toNat - 48) : Nat) : Int)) =
            (r : Int) * 10 + ((c.toNat - 48 : Nat) : Int) := by
          push_cast
          ring
        rw [hcast]
        apply Double.add_exactInt
        rw [← hcast, Int.natAbs_ofNat]
        omega
      unfold integerAccumulated
      rw [h10, hd, hm, ha]
      exact ih _ (fun x hx => hds x (by simp [hx])) hle

theorem wrapInt32_of_small {x : Int} (h0 : 0 ≤ x) (h1 : x < 2147483648) : wrapInt32 x = x := by
  unfold wrapInt32
  omega

theorem exponentAccumulated_exact : ∀ (es : List Char) (x : Nat), (∀ c ∈ es, isdigit c = true) →
    digitsFrom x es < 2147483648 → exponentAccumulated es (x : Int) = (digitsFrom x es : Int) := by
  intro es
  induction es with
  | nil => intro x _ _; rfl
  | cons c es ih =>
      intro x hes hlt
      have hc : isdigit c = true := hes c (by simp)
      have hb := isdigit_bounds hc
      have hstep : digitsFrom x (c :: es) = digitsFrom (10 * x + (c.toNat - 48)) es := rfl
      rw [hstep] at hlt ⊢
      have h1 := le_digitsFrom es (10 * x + (c.toNat - 48))
      unfold exponentAccumulated
      have hw : wrapInt32 ((x : Int) * 10) = (x : Int) * 10 :=
        wrapInt32_of_small (by omega) (by omega)
      rw [digitValue_of_isdigit hc, hw, wrapInt32_of_small (by omega) (by omega)]
      have hcast : (x : Int) * 10 + ((c.toNat - 48 : Nat) : Int) =
          ((10 * x + (c.toNat - 48) : Nat) : Int) := by
        push_cast
        ring
      rw [hcast]
      exact ih _ (fun y hy => hes y (by simp [hy])) hlt

theorem pow10_exact {E : Nat} (hE : E ≤ 15) :
    Double.pow10 (E : Int) = Double.exactInt ((10 ^ E : Nat) : Int) := by
  unfold Double.pow10
  rw [if_pos (Int.ofNat_nonneg E), Int.toNat_ofNat]
  have h1 : (10 : Int) ^ E = ((10 ^ E : Nat) : Int) := by push_cast; rfl
  rw [h1]
  apply Double.ofRatio_one
  rw [Int.natAbs_ofNat]
  calc 10 ^ E ≤ 10 ^ 15 := Nat.pow_le_pow_right (by norm_num) hE
    _ ≤ 2 ^ 53 := by norm_num

theorem signed_exact (n : NumberLiteral) {z : Nat} (hz : z ≤ 2 ^ 53) :
    (if n.negative then Double.neg (Double.exactInt z) else Double.exactInt z) =
      Double.ofInt (n.signed z) := by
  unfold NumberLiteral.signed
  cases n.negative with
  | true =>
      rw [if_pos rfl, if_pos rfl, Double.neg_exactInt]
      exact (Double.ofInt_eq_exactInt (by rw [Int.natAbs_neg, Int.natAbs_ofNat]; exact hz)).symm
  | false =>
      simp only [Bool.false_eq_true, if_false]
      exact (Double.ofInt_eq_exactInt (by rw [Int.natAbs_ofNat]; exact hz)).symm

theorem integerAccumulated_value {ds : List Char} (hds : ∀ c ∈ ds, isdigit c = true)
    (hle : digitsValue ds ≤ 2 ^ 53) :
    integerAccumulated ds (Double.ofInt 0) = Double.exactInt (digitsValue ds) := by
  have h0 : Double.ofInt 0 = Double.exactInt ((0 : Nat) : Int) := Double.ofInt_eq_exactInt (by norm_num)
  rw [h0]
  exact integerAccumulated_exact ds 0 hds hle

/-! ### Binary64: the error of one rounding -/

theorem Double.stripTwos_toRat : ∀ (k : Nat) (m e : Int),
    (((Double.stripTwos k m e).1 : Int) : ℚ) * (2 : ℚ) ^ (Double.stripTwos k m e).2 =
      (m : ℚ) * (2 : ℚ) ^ e := by
  intro k
  induction k with
  | zero => intro m e; rfl
  | succ k ih =>
      intro m e
      unfold Double.stripTwos
      split
      · rename_i hm
        rw [ih (m / 2) (e + 1), zpow_add_one₀ (by norm_num : (2 : ℚ) ≠ 0)]
        have h4 : m = m / 2 * 2 := by omega
        nth_rewrite 2 [h4]
        push_cast
        ring
      · rfl

theorem Double.toRat_normalize (m e : Int) :
    Double.toRat (Double.normalize m e) = (m : ℚ) * (2 : ℚ) ^ e ∧
      (Double.normalize m e).isFinite = true := by
  unfold Double.normalize
  split
  · rename_i hm
    subst hm
    simp [Double.toRat, Double.isFinite]
  · simp only [Double.toRat, Double.isFinite, Double.stripTwos_toRat, and_self]

theorem Double.floorLog2Aux_spec : ∀ (fuel n : Nat), 0 < n → n ≤ fuel →
    2 ^ Double.floorLog2Aux fuel n ≤ n ∧ n < 2 ^ (Double.floorLog2Aux fuel n + 1) := by
  intro fuel
  induction fuel with
  | zero => intro n h1 h2; omega
  | succ f ih =>
      intro n h1 h2
      unfold Double.floorLog2Aux
      split
      · constructor
        · simpa using h1
        · simpa using (by omega : n < 2)
      · rename_i hn
        obtain ⟨i1, i2⟩ := ih (n / 2) (by omega) (by omega)
        constructor
        · rw [pow_succ]
          omega
        · rw [pow_succ]
          omega

theorem Double.floorLog2_spec (n : Nat) (h : 0 < n) :
    2 ^ Double.floorLog2 n ≤ n ∧ n < 2 ^ (Double.floorLog2 n + 1) :=
  Double.floorLog2Aux_spec n n h (le_refl n)

/-- Rounding a quotient of natural numbers to the nearest integer, as
`roundPos` does, errs by at most one half. -/
theorem Double.round_half (num den : Nat) (hden : 0 < den) :
    |(((if 2 * (num % den) < den then num / den
        else if den < 2 * (num % den) then num / den + 1
        else if num / den % 2 = 0 then num / den else num / den + 1 : Nat) : ℚ)) -
      (num : ℚ) / (den : ℚ)| ≤ 1 / 2 := by
  have hdq : (0 : ℚ) < (den : ℚ) := by exact_mod_cast hden
  have hdiv : (num : ℚ) = (den : ℚ) * ((num / den : Nat) : ℚ) + ((num % den : Nat) : ℚ) := by
    exact_mod_cast (Nat.div_add_mod num den).symm
  have hr : (num % den : Nat) < den := Nat.mod_lt _ hden
  have hrq : ((num % den : Nat) : ℚ) < (den : ℚ) := by exact_mod_cast hr
  have hr0 : (0 : ℚ) ≤ ((num % den : Nat) : ℚ) := by positivity
  have hx : (num : ℚ) / (den : ℚ) = ((num / den : Nat) : ℚ) + ((num % den : Nat) : ℚ) / den := by
    rw [hdiv]
    field_simp
    ring
  have hlow : ∀ (h : 2 * ((num % den : Nat) : ℚ) ≤ den),
      |((num / den : Nat) : ℚ) - (num : ℚ) / (den : ℚ)| ≤ 1 / 2 := by
    intro h
    rw [hx, abs_le]
    have h1 : ((num % den : Nat) : ℚ) / den ≤ 1 / 2 := by
      rw [div_le_iff₀ hdq]
      linarith
    have h2 : 0 ≤ ((num % den : Nat) : ℚ) / den := by positivity
    constructor <;> linarith
  have hhigh : ∀ (h : (den : ℚ) ≤ 2 * ((num % den : Nat) : ℚ)),
      |((num / den + 1 : Nat) : ℚ) - (num : ℚ) / (den : ℚ)| ≤ 1 / 2 := by
    intro h
    rw [hx, abs_le]
    have h1 : 1 / 2 ≤ ((num % den : Nat) : ℚ) / den := by
      rw [le_div_iff₀ hdq]
      linarith
    have h2 : ((num % den : Nat) : ℚ) / den ≤ 1 := by
      rw [div_le_iff₀ hdq]
      linarith
    push_cast
    constructor <;> linarith
  split
  · rename_i h
    exact hlow (by exact_mod_cast (Nat.le_of_lt h))
  · rename_i h
    split
    · rename_i h2
      exact hhigh (by exact_mod_cast (Nat.le_of_lt h2))
    · rename_i h2
      have he : 2 * (num % den) = den := by omega
      split
      · exact hlow (by exact_mod_cast (le_of_eq he))
      · exact hhigh (by exact_mod_cast (le_of_eq he.symm))

theorem Double.two_zpow_toNat (z : Int) (h : 0 ≤ z) : ((2 ^ z.toNat : Nat) : ℚ) = (2 : ℚ) ^ z := by
  push_cast
  rw [← zpow_natCast, Int.toNat_of_nonneg h]

theorem Double.two_zpow_neg_toNat (z : Int) (h : z ≤ 0) :
    ((2 ^ (-z).toNat : Nat) : ℚ) = ((2 : ℚ) ^ z)⁻¹ := by
  rw [Double.two_zpow_toNat (-z) (by omega), zpow_neg]

/-- The error of one rounding: `roundPos` applied to a positive ratio below the
bound `M`, within the range of the normal numbers, is finite and differs from
the ratio by at most `M * 2 ^ (-53)`. -/
theorem roundPos_error (neg : Bool) (a d : Nat) (ha : 0 < a) (hd : 0 < d) (M : ℚ)
    (hM : (a : ℚ) / (d : ℚ) ≤ M) (hlo : (2 : ℚ) ^ (-1022 : Int) ≤ M)
    (hhi : M < (2 : ℚ) ^ (1023 : Int)) :
    (Double.roundPos neg a d).isFinite = true ∧
      |Double.toRat (Double.roundPos neg a d) -
        (if neg then -((a : ℚ) / (d : ℚ)) else (a : ℚ) / (d : ℚ))| ≤ M * (2 : ℚ) ^ (-53 : Int) := by
  have haq : (0 : ℚ) < (a : ℚ) := by exact_mod_cast ha
  have hdq : (0 : ℚ) < (d : ℚ) := by exact_mod_cast hd
  have hfa := Double.floorLog2_spec a ha
  have hfd := Double.floorLog2_spec d hd
  have hfa1 : ((2 : ℚ) ^ (Double.floorLog2 a : Int)) ≤ (a : ℚ) := by
    rw [zpow_natCast]
    exact_mod_cast hfa.1
  have hfd1 : (d : ℚ) < ((2 : ℚ) ^ ((Double.floorLog2 d : Int) + 1)) := by
    have : (d : ℚ) < (2 : ℚ) ^ (Double.floorLog2 d + 1) := by exact_mod_cast hfd.2
    rw [← zpow_natCast] at this
    push_cast at this
    exact this
  have h2pos : ∀ z : Int, (0 : ℚ) < (2 : ℚ) ^ z := fun z => zpow_pos (by norm_num) z
  unfold Double.roundPos
  lift_lets
  intro k ge e s num den q r m
  have hk : k = (Double.floorLog2 a : Int) - (Double.floorLog2 d : Int) := rfl
  have hge : ge = if 0 ≤ k then decide (d * 2 ^ k.toNat ≤ a) else decide (d ≤ a * 2 ^ (-k).toNat) := rfl
  have he : e = if ge = true then k else k - 1 := rfl
  have hs : s = max (e - 52) (-1074) := rfl
  have hnum : num = if 0 ≤ s then a else a * 2 ^ (-s).toNat := rfl
  have hden : den = if 0 ≤ s then d * 2 ^ s.toNat else d := rfl
  have hm : m = if 2 * (num % den) < den then num / den
      else if den < 2 * (num % den) then num / den + 1
      else if num / den % 2 = 0 then num / den else num / den + 1 := rfl
  clear_value m r q den num s e ge k
  -- the exponent is a lower bound
  have hE : (2 : ℚ) ^ e ≤ (a : ℚ) / (d : ℚ) := by
    rw [le_div_iff₀ hdq]
    cases hg : ge with
    | true =>
        rw [hg] at he
        simp only [if_true] at he
        rw [he]
        rw [hg] at hge
        by_cases hk0 : 0 ≤ k
        · rw [if_pos hk0] at hge
          have h1 : d * 2 ^ k.toNat ≤ a := of_decide_eq_true hge.symm
          have h2 : (d : ℚ) * ((2 ^ k.toNat : Nat) : ℚ) ≤ (a : ℚ) := by exact_mod_cast h1
          rw [Double.two_zpow_toNat k hk0] at h2
          linarith
        · rw [if_neg hk0] at hge
          have h1 : d ≤ a * 2 ^ (-k).toNat := of_decide_eq_true hge.symm
          have h2 : (d : ℚ) ≤ (a : ℚ) * ((2 ^ (-k).toNat : Nat) : ℚ) := by exact_mod_cast h1
          rw [Double.two_zpow_neg_toNat k (by omega)] at h2
          have h3 := h2pos k
          calc (2 : ℚ) ^ k * (d : ℚ) ≤ (2 : ℚ) ^ k * ((a : ℚ) * ((2 : ℚ) ^ k)⁻¹) :=
                mul_le_mul_of_nonneg_left h2 (le_of_lt h3)
            _ = (a : ℚ) := by field_simp
    | false =>
        rw [hg] at he
        simp only [Bool.false_eq_true, if_false] at he
        rw [he, hk]
        have h3 : (2 : ℚ) ^ ((Double.floorLog2 a : Int) - (Double.floorLog2 d : Int) - 1) *
            (2 : ℚ) ^ ((Double.floorLog2 d : Int) + 1) = (2 : ℚ) ^ (Double.floorLog2 a : Int) := by
          rw [← zpow_add₀ (by norm_num : (2 : ℚ) ≠ 0)]
          congr 1
          ring
        calc (2 : ℚ) ^ ((Double.floorLog2 a : Int) - (Double.floorLog2 d : Int) - 1) * (d : ℚ)
            ≤ (2 : ℚ) ^ ((Double.floorLog2 a : Int) - (Double.floorLog2 d : Int) - 1) *
                (2 : ℚ) ^ ((Double.floorLog2 d : Int) + 1) :=
              mul_le_mul_of_nonneg_left (le_of_lt hfd1) (le_of_lt (h2pos _))
          _ = (2 : ℚ) ^ (Double.floorLog2 a : Int) := h3
          _ ≤ (a : ℚ) := hfa1
  have he1 : e ≤ 1022 := by
    have h1 : (2 : ℚ) ^ e < (2 : ℚ) ^ (1023 : Int) := lt_of_le_of_lt (le_trans hE hM) hhi
    have h2 := (zpow_lt_zpow_iff_right₀ (by norm_num : (1 : ℚ) < 2)).mp h1
    omega
  have hs1 : s ≤ 970 := by
    rw [hs]
    exact max_le (by omega) (by norm_num)
  -- the scaled ratio
  have hdenpos : 0 < den := by
    rw [hden]
    split
    · exact Nat.mul_pos hd (Nat.pos_pow_of_pos _ (by norm_num))
    · exact hd
  have hscaled : (num : ℚ) / (den : ℚ) = (a : ℚ) / (d : ℚ) / (2 : ℚ) ^ s := by
    rw [hnum, hden]
    have h3 := h2pos s
    by_cases hs0 : 0 ≤ s
    · rw [if_pos hs0, if_pos hs0]
      push_cast
      have := Double.two_zpow_toNat s hs0
      push_cast at this
      rw [this]
      field_simp
    · rw [if_neg hs0, if_neg hs0]
      push_cast
      have := Double.two_zpow_neg_toNat s (by omega)
      push_cast at this
      rw [this]
      field_simp
      left
      ring
  have hround : |(m : ℚ) - (num : ℚ) / (den : ℚ)| ≤ 1 / 2 := by
    rw [hm]
    exact Double.round_half num den hdenpos
  have herr : |(m : ℚ) * (2 : ℚ) ^ s - (a : ℚ) / (d : ℚ)| ≤ (2 : ℚ) ^ s / 2 := by
    have h3 := h2pos s
    have h4 : (m : ℚ) * (2 : ℚ) ^ s - (a : ℚ) / (d : ℚ) =
        ((m : ℚ) - (num : ℚ) / (den : ℚ)) * (2 : ℚ) ^ s := by
      rw [hscaled]
      field_simp
      ring
    rw [h4, abs_mul, abs_of_pos h3]
    calc |(m : ℚ) - (num : ℚ) / (den : ℚ)| * (2 : ℚ) ^ s ≤ 1 / 2 * (2 : ℚ) ^ s :=
          mul_le_mul_of_nonneg_right hround (le_of_lt h3)
      _ = (2 : ℚ) ^ s / 2 := by ring
  have hbound : (2 : ℚ) ^ s / 2 ≤ M * (2 : ℚ) ^ (-53 : Int) := by
    have h53 : (0 : ℚ) < (2 : ℚ) ^ (-53 : Int) := h2pos _
    rcases le_total (e - 52) (-1074) with h | h
    · rw [hs, max_eq_right h]
      calc (2 : ℚ) ^ (-1074 : Int) / 2 = (2 : ℚ) ^ (-1022 : Int) * (2 : ℚ) ^ (-53 : Int) := by
            rw [← zpow_add₀ (by norm_num : (2 : ℚ) ≠ 0), div_eq_mul_inv,
              ← zpow_neg_one, ← zpow_add₀ (by norm_num : (2 : ℚ) ≠ 0)]
            norm_num
        _ ≤ M * (2 : ℚ) ^ (-53 : Int) := mul_le_mul_of_nonneg_right hlo (le_of_lt h53)
    · rw [hs, max_eq_left h]
      calc (2 : ℚ) ^ (e - 52) / 2 = (2 : ℚ) ^ e * (2 : ℚ) ^ (-53 : Int) := by
            rw [div_eq_mul_inv, ← zpow_neg_one, ← zpow_add₀ (by norm_num : (2 : ℚ) ≠ 0),
              ← zpow_add₀ (by norm_num : (2 : ℚ) ≠ 0)]
            congr 1
            ring
        _ ≤ M * (2 : ℚ) ^ (-53 : Int) :=
            mul_le_mul_of_nonneg_right (le_trans hE hM) (le_of_lt h53)
  have hC : ¬ (971 < s ∨ (s = 971 ∧ 2 ^ 53 ≤ m)) := by
    intro h
    rcases h with h | h
    · omega
    · omega
  rw [if_neg hC]
  obtain ⟨n1, n2⟩ := Double.toRat_normalize (if neg = true then -(m : Int) else (m : Int)) s
  refine ⟨n2, ?_⟩
  rw [n1]
  cases neg with
  | true =>
      simp only [if_true]
      have h5 : ((-(m : Int) : Int) : ℚ) * (2 : ℚ) ^ s - -((a : ℚ) / (d : ℚ)) =
          -((m : ℚ) * (2 : ℚ) ^ s - (a : ℚ) / (d : ℚ)) := by
        push_cast
        ring
      rw [h5, abs_neg]
      exact le_trans herr hbound
  | false =>
      simp only [Bool.false_eq_true, if_false, Int.cast_natCast]
      exact le_trans herr hbound

theorem Double.toRat_exactInt (z : Int) :
    Double.toRat (Double.exactInt z) = (z : ℚ) ∧ (Double.exactInt z).isFinite = true := by
  have h := Double.toRat_normalize z 0
  simpa [Double.exactInt] using h

/-- The error of `ofRatio`: the double nearest to a ratio of magnitude at most
`M`, within the range of the normal numbers, is finite and differs from the
ratio by at most `M * 2 ^ (-53)`. -/
theorem ofRatio_error (n : Int) (d : Nat) (hd : 0 < d) (M : ℚ)
    (hM : |(n : ℚ) / (d : ℚ)| ≤ M) (hlo : (2 : ℚ) ^ (-1022 : Int) ≤ M)
    (hhi : M < (2 : ℚ) ^ (1023 : Int)) :
    (Double.ofRatio n d).isFinite = true ∧
      |Double.toRat (Double.ofRatio n d) - (n : ℚ) / (d : ℚ)| ≤ M * (2 : ℚ) ^ (-53 : Int) := by
  have hdq : (0 : ℚ) < (d : ℚ) := by exact_mod_cast hd
  have hM0 : 0 ≤ M * (2 : ℚ) ^ (-53 : Int) :=
    mul_nonneg (le_trans (abs_nonneg _) hM) (le_of_lt (zpow_pos (by norm_num) _))
  unfold Double.ofRatio
  by_cases h : (d : Int) ∣ n ∧ (n / (d : Int)).natAbs ≤ 2 ^ 53
  · rw [if_pos h]
    obtain ⟨t1, t2⟩ := Double.toRat_exactInt (n / (d : Int))
    refine ⟨t2, ?_⟩
    rw [t1, Int.cast_div h.1 (by exact_mod_cast (ne_of_gt hd))]
    simpa using hM0
  · rw [if_neg h]
    have hn : n ≠ 0 := by
      intro hn
      apply h
      rw [hn]
      exact ⟨dvd_zero _, by simp⟩
    have ha : 0 < n.natAbs := Int.natAbs_pos.mpr hn
    have habs : ((n.natAbs : Nat) : ℚ) / (d : ℚ) = |(n : ℚ) / (d : ℚ)| := by
      rw [abs_div, abs_of_pos hdq, Nat.cast_natAbs, Int.cast_abs]
    obtain ⟨r1, r2⟩ := roundPos_error (decide (n < 0)) n.natAbs d ha hd M (by rw [habs]; exact hM)
      hlo hhi
    refine ⟨r1, ?_⟩
    have hsign : (if decide (n < 0) = true then -(((n.natAbs : Nat) : ℚ) / (d : ℚ))
        else ((n.natAbs : Nat) : ℚ) / (d : ℚ)) = (n : ℚ) / (d : ℚ) := by
      rw [habs, abs_div, abs_of_pos hdq]
      by_cases hneg : n < 0
      · have hq : (n : ℚ) < 0 := by exact_mod_cast hneg
        simp only [hneg, decide_True, if_true]
        rw [abs_of_neg hq]
        ring
      · have hq : (0 : ℚ) ≤ (n : ℚ) := by exact_mod_cast (not_lt.mp hneg)
        simp only [hneg, decide_False, Bool.false_eq_true, if_false]
        rw [abs_of_nonneg hq]
    rw [hsign] at r2
    exact r2

theorem Double.toRatio_value (m e : Int) :
    ((Double.toRatio m e).1 : ℚ) / ((Double.toRatio m e).2 : ℚ) = (m : ℚ) * (2 : ℚ) ^ e ∧
      0 < (Double.toRatio m e).2 := by
  unfold Double.toRatio
  by_cases he : 0 ≤ e
  · rw [if_pos he]
    refine ⟨?_, by norm_num⟩
    have := Double.two_zpow_toNat e he
    push_cast at this ⊢
    rw [this]
    simp
  · rw [if_neg he]
    refine ⟨?_, Nat.pos_pow_of_pos _ (by norm_num)⟩
    have := Double.two_zpow_neg_toNat e (by omega)
    push_cast at this ⊢
    rw [this]
    simp [div_eq_mul_inv]

theorem Double.isFinite_iff (a : Double) : a.isFinite = true ↔ ∃ m e, a = .fin m e := by
  cases a with
  | fin m e => simp [Double.isFinite]
  | inf b => simp [Double.isFinite]
  | nan => simp [Double.isFinite]

/-- The error of an addition: the sum of two finite doubles is the exact sum
rounded once. -/
theorem add_error (a b : Double) (ha : a.isFinite = true) (hb : b.isFinite = true) (M : ℚ)
    (hM : |a.toRat + b.toRat| ≤ M) (hlo : (2 : ℚ) ^ (-1022 : Int) ≤ M)
    (hhi : M < (2 : ℚ) ^ (1023 : Int)) :
    (Double.add a b).isFinite = true ∧
      |(Double.add a b).toRat - (a.toRat + b.toRat)| ≤ M * (2 : ℚ) ^ (-53 : Int) := by
  obtain ⟨m1, e1, rfl⟩ := (Double.isFinite_iff a).mp ha
  obtain ⟨m2, e2, rfl⟩ := (Double.isFinite_iff b).mp hb
  obtain ⟨x1, x2⟩ := Double.toRatio_value m1 e1
  obtain ⟨y1, y2⟩ := Double.toRatio_value m2 e2
  have hx : (0 : ℚ) < ((Double.toRatio m1 e1).2 : ℚ) := by exact_mod_cast x2
  have hy : (0 : ℚ) < ((Double.toRatio m2 e2).2 : ℚ) := by exact_mod_cast y2
  have hsum : (((Double.toRatio m1 e1).1 * ((Double.toRatio m2 e2).2 : Int) +
      (Double.toRatio m2 e2).1 * ((Double.toRatio m1 e1).2 : Int) : Int) : ℚ) /
      (((Double.toRatio m1 e1).2 * (Double.toRatio m2 e2).2 : Nat) : ℚ) =
      (m1 : ℚ) * (2 : ℚ) ^ e1 + (m2 : ℚ) * (2 : ℚ) ^ e2 := by
    rw [← x1, ← y1]
    push_cast
    field_simp
  show (Double.ofRatio _ _).isFinite = true ∧ |(Double.ofRatio _ _).toRat - _| ≤ _
  have h := ofRatio_error ((Double.toRatio m1 e1).1 * ((Double.toRatio m2 e2).2 : Int) +
      (Double.toRatio m2 e2).1 * ((Double.toRatio m1 e1).2 : Int))
    ((Double.toRatio m1 e1).2 * (Double.toRatio m2 e2).2) (Nat.mul_pos x2 y2) M
    (by rw [hsum]; exact hM) hlo hhi
  rw [hsum] at h
  exact h

/-- The error of a multiplication: the product of two finite doubles is the
exact product rounded once. -/
theorem mul_error (a b : Double) (ha : a.isFinite = true) (hb : b.isFinite = true) (M : ℚ)
    (hM : |a.toRat * b.toRat| ≤ M) (hlo : (2 : ℚ) ^ (-1022 : Int) ≤ M)
    (hhi : M < (2 : ℚ) ^ (1023 : Int)) :
    (Double.mul a b).isFinite = true ∧
      |(Double.mul a b).toRat - a.toRat * b.toRat| ≤ M * (2 : ℚ) ^ (-53 : Int) := by
  obtain ⟨m1, e1, rfl⟩ := (Double.isFinite_iff a).mp ha
  obtain ⟨m2, e2, rfl⟩ := (Double.isFinite_iff b).mp hb
  obtain ⟨x1, x2⟩ := Double.toRatio_value m1 e1
  obtain ⟨y1, y2⟩ := Double.toRatio_value m2 e2
  have hx : (0 : ℚ) < ((Double.toRatio m1 e1).2 : ℚ) := by exact_mod_cast x2
  have hy : (0 : ℚ) < ((Double.toRatio m2 e2).2 : ℚ) := by exact_mod_cast y2
  have hprod : (((Double.toRatio m1 e1).1 * (Double.toRatio m2 e2).1 : Int) : ℚ) /
      (((Double.toRatio m1 e1).2 * (Double.toRatio m2 e2).2 : Nat) : ℚ) =
      (m1 : ℚ) * (2 : ℚ) ^ e1 * ((m2 : ℚ) * (2 : ℚ) ^ e2) := by
    rw [← x1, ← y1]
    push_cast
    field_simp
  show (Double.ofRatio _ _).isFinite = true ∧ |(Double.ofRatio _ _).toRat - _| ≤ _
  have h := ofRatio_error ((Double.toRatio m1 e1).1 * (Double.toRatio m2 e2).1)
    ((Double.toRatio m1 e1).2 * (Double.toRatio m2 e2).2) (Nat.mul_pos x2 y2) M
    (by rw [hprod]; exact hM) hlo hhi
  rw [hprod] at h
  exact h

theorem Double.toRat_eq_zero_iff (m e : Int) : Double.toRat (.fin m e) = 0 ↔ m = 0 := by
  have h : (2 : ℚ) ^ e ≠ 0 := ne_of_gt (zpow_pos (by norm_num) e)
  simp [Double.toRat, h]

/-- The error of a division: the quotient of two finite doubles, the divisor
not zero, is the exact quotient rounded once. -/
theorem div_error (a b : Double) (ha : a.isFinite = true) (hb : b.isFinite = true)
    (hb0 : b.toRat ≠ 0) (M : ℚ)
    (hM : |a.toRat / b.toRat| ≤ M) (hlo : (2 : ℚ) ^ (-1022 : Int) ≤ M)
    (hhi : M < (2 : ℚ) ^ (1023 : Int)) :
    (Double.div a b).isFinite = true ∧
      |(Double.div a b).toRat - a.toRat / b.toRat| ≤ M * (2 : ℚ) ^ (-53 : Int) := by
  obtain ⟨m1, e1, rfl⟩ := (Double.isFinite_iff a).mp ha
  obtain ⟨m2, e2, rfl⟩ := (Double.isFinite_iff b).mp hb
  have hm2 : m2 ≠ 0 := fun h => hb0 ((Double.toRat_eq_zero_iff m2 e2).mpr h)
  obtain ⟨x1, x2⟩ := Double.toRatio_value m1 e1
  obtain ⟨y1, y2⟩ := Double.toRatio_value m2 e2
  have hx : (0 : ℚ) < ((Double.toRatio m1 e1).2 : ℚ) := by exact_mod_cast x2
  have hy : (0 : ℚ) < ((Double.toRatio m2 e2).2 : ℚ) := by exact_mod_cast y2
  have hy1 : (Double.toRatio m2 e2).1 ≠ 0 := by
    intro h0
    rw [h0] at y1
    have h2 : (2 : ℚ) ^ e2 ≠ 0 := ne_of_gt (zpow_pos (by norm_num) e2)
    have : (m2 : ℚ) = 0 := by
      simp at y1
      rcases y1 with h | h
      · exact_mod_cast h
      · exact absurd h h2
    exact hm2 (by exact_mod_cast this)
  have hsign : (m2 < 0) ↔ (Double.toRatio m2 e2).1 < 0 := by
    unfold Double.toRatio
    split
    · have hp : (0 : Int) < 2 ^ e2.toNat := by positivity
      constructor
      · intro h; exact mul_neg_of_neg_of_pos h hp
      · intro h
        by_contra hc
        have : 0 ≤ m2 * 2 ^ e2.toNat := mul_nonneg (not_lt.mp hc) (le_of_lt hp)
        omega
    · exact Iff.rfl
  have hd : 0 < (Double.toRatio m1 e1).2 * (Double.toRatio m2 e2).1.natAbs :=
    Nat.mul_pos x2 (Int.natAbs_pos.mpr hy1)
  have hquot : (((if m2 < 0 then -((Double.toRatio m1 e1).1 * ((Double.toRatio m2 e2).2 : Int))
      else (Double.toRatio m1 e1).1 * ((Double.toRatio m2 e2).2 : Int) : Int)) : ℚ) /
      (((Double.toRatio m1 e1).2 * (Double.toRatio m2 e2).1.natAbs : Nat) : ℚ) =
      (m1 : ℚ) * (2 : ℚ) ^ e1 / ((m2 : ℚ) * (2 : ℚ) ^ e2) := by
    rw [← x1, ← y1]
    have hy1q : (((Double.toRatio m2 e2).1 : Int) : ℚ) ≠ 0 := by exact_mod_cast hy1
    push_cast
    rw [Nat.cast_natAbs, Int.cast_abs]
    by_cases hneg : m2 < 0
    · have h1 : (((Double.toRatio m2 e2).1 : Int) : ℚ) < 0 := by exact_mod_cast hsign.mp hneg
      rw [if_pos hneg, abs_of_neg h1]
      field_simp
    · have h1 : (0 : ℚ) < (((Double.toRatio m2 e2).1 : Int) : ℚ) := by
        have : 0 ≤ (Double.toRatio m2 e2).1 := not_lt.mp (fun h => hneg (hsign.mpr h))
        have h2 : 0 < (Double.toRatio m2 e2).1 := lt_of_le_of_ne this (Ne.symm hy1)
        exact_mod_cast h2
      rw [if_neg hneg, abs_of_pos h1]
      field_simp
  have h := ofRatio_error (if m2 < 0 then -((Double.toRatio m1 e1).1 * ((Double.toRatio m2 e2).2 : Int))
      else (Double.toRatio m1 e1).1 * ((Double.toRatio m2 e2).2 : Int))
    ((Double.toRatio m1 e1).2 * (Double.toRatio m2 e2).1.natAbs) hd M
    (by rw [hquot]; exact hM) hlo hhi
  rw [hquot] at h
  have hdiv : Double.div (.fin m1 e1) (.fin m2 e2) =
      Double.ofRatio (if m2 < 0 then -((Double.toRatio m1 e1).1 * ((Double.toRatio m2 e2).2 : Int))
        else (Double.toRatio m1 e1).1 * ((Double.toRatio m2 e2).2 : Int))
      ((Double.toRatio m1 e1).2 * (Double.toRatio m2 e2).1.natAbs) := by
    simp only [Double.div, if_neg hm2]
  rw [hdiv]
  exact h

theorem Double.toRat_neg (a : Double) :
    (Double.neg a).toRat = -a.toRat ∧ (Double.neg a).isFinite = a.isFinite := by
  cases a with
  | fin m e => simp [Double.neg, Double.toRat, Double.isFinite]
  | inf b => simp [Double.neg, Double.toRat, Double.isFinite]
  | nan => simp [Double.neg, Double.toRat, Double.isFinite]

theorem toRat_abs (a : Double) :
    (Double.abs a).toRat = |a.toRat| ∧ (Double.abs a).isFinite = a.isFinite := by
  cases a with
  | fin m e =>
      have h2 : (0 : ℚ) < (2 : ℚ) ^ e := zpow_pos (by norm_num) e
      simp only [Double.abs, Double.toRat, Double.isFinite, and_true]
      rw [abs_mul, abs_of_pos h2, Nat.cast_natAbs, Int.cast_abs]
      push_cast
      rfl
  | inf b => simp [Double.abs, Double.toRat, Double.isFinite]
  | nan => simp [Double.abs, Double.toRat, Double.isFinite]

/-- On finite doubles, `lt` is the order of the exact values. -/
theorem Double.lt_iff (a b : Double) (ha : a.isFinite = true) (hb : b.isFinite = true) :
    Double.lt a b = true ↔ a.toRat < b.toRat := by
  obtain ⟨m1, e1, rfl⟩ := (Double.isFinite_iff a).mp ha
  obtain ⟨m2, e2, rfl⟩ := (Double.isFinite_iff b).mp hb
  obtain ⟨x1, x2⟩ := Double.toRatio_value m1 e1
  obtain ⟨y1, y2⟩ := Double.toRatio_value m2 e2
  have hx : (0 : ℚ) < ((Double.toRatio m1 e1).2 : ℚ) := by exact_mod_cast x2
  have hy : (0 : ℚ) < ((Double.toRatio m2 e2).2 : ℚ) := by exact_mod_cast y2
  show decide ((Double.toRatio m1 e1).1 * ((Double.toRatio m2 e2).2 : Int) <
      (Double.toRatio m2 e2).1 * ((Double.toRatio m1 e1).2 : Int)) = true ↔ _
  rw [decide_eq_true_iff]
  show _ ↔ (m1 : ℚ) * (2 : ℚ) ^ e1 < (m2 : ℚ) * (2 : ℚ) ^ e2
  rw [← x1, ← y1, div_lt_div_iff₀ hx hy]
  constructor
  · intro h
    exact_mod_cast h
  · intro h
    exact_mod_cast h

/-! ### The loops of `ParseNumber` against the exact decimal value -/

theorem digitsFrom_eq : ∀ (ds : List Char) (x : Nat),
    digitsFrom x ds = x * 10 ^ ds.length + digitsValue ds := by
  intro ds
  induction ds with
  | nil =>
      intro x
      show x = x * 10 ^ 0 + 0
      omega
  | cons c ds ih =>
      intro x
      have h1 : digitsFrom x (c :: ds) = digitsFrom (10 * x + (c.toNat - 48)) ds := rfl
      rw [h1, ih]
      have h2 : digitsValue (c :: ds) = digitsFrom (10 * 0 + (c.toNat - 48)) ds := rfl
      rw [h2, ih (10 * 0 + (c.toNat - 48))]
      simp only [List.length_cons, pow_succ]
      ring

theorem digitsValue_cons (c : Char) (ds : List Char) :
    digitsValue (c :: ds) = (c.toNat - 48) * 10 ^ ds.length + digitsValue ds := by
  have h2 : digitsValue (c :: ds) = digitsFrom (10 * 0 + (c.toNat - 48)) ds := rfl
  rw [h2, digitsFrom_eq]
  simp

theorem digitsValue_lt : ∀ (ds : List Char), (∀ c ∈ ds, isdigit c = true) →
    digitsValue ds < 10 ^ ds.length := by
  intro ds
  induction ds with
  | nil =>
      intro _
      show 0 < 10 ^ 0
      norm_num
  | cons c ds ih =>
      intro h
      have hb := isdigit_bounds (h c (by simp))
      have h1 := ih (fun x hx => h x (by simp [hx]))
      rw [digitsValue_cons, List.length_cons, pow_succ]
      have h2 : (c.toNat - 48) * 10 ^ ds.length ≤ 9 * 10 ^ ds.length :=
        Nat.mul_le_mul_right _ (by omega)
      omega

/-- The statement `divisor *= 10.0` is exact up to `10 ^ 22`. -/
theorem divisor_chain : ∀ j : Nat, j < 21 →
    Double.mul (.fin ((5 : Int) ^ (j + 1 : Nat)) ((j : Int) + 1)) (Double.ofInt 10) =
      .fin ((5 : Int) ^ (j + 2 : Nat)) ((j : Int) + 2) := by
  decide!

/-- The value of `std::pow(10.0, E)` is exactly `10 ^ E` up to `E = 22`. -/
theorem pow10_chain : ∀ E : Nat, E < 23 →
    Double.pow10 ((E : Nat) : Int) = .fin ((5 : Int) ^ (E : Nat)) ((E : Nat) : Int) := by
  decide!

theorem toRat_fin_ten (j : Nat) :
    Double.toRat (.fin ((5 : Int) ^ (j : Nat)) (j : Int)) = (10 : ℚ) ^ j := by
  simp only [Double.toRat]
  rw [zpow_natCast]
  push_cast
  rw [← mul_pow]
  norm_num

theorem toRat_digit {c : Char} (hc : isdigit c = true) :
    (Double.ofInt (digitValue c)).isFinite = true ∧
      (Double.ofInt (digitValue c)).toRat = ((c.toNat - 48 : Nat) : ℚ) ∧ c.toNat - 48 ≤ 9 := by
  have hb := isdigit_bounds hc
  have hd : Double.ofInt (digitValue c) = Double.exactInt ((c.toNat - 48 : Nat) : Int) := by
    rw [digitValue_of_isdigit hc]
    apply Double.ofInt_eq_exactInt
    simp only [Int.natAbs_ofNat]
    omega
  obtain ⟨t1, t2⟩ := Double.toRat_exactInt ((c.toNat - 48 : Nat) : Int)
  rw [hd]
  refine ⟨t2, ?_, by omega⟩
  rw [t1]
  simp

theorem two_zpow_bounds :
    (2 : ℚ) ^ (-1022 : Int) ≤ 1 ∧ (2 : ℚ) ^ (-53 : Int) ≤ 1 / 2 ^ 53 ∧
      (0 : ℚ) < (2 : ℚ) ^ (-53 : Int) ∧ (2 : ℚ) ^ (-53 : Int) = 1 / 2 ^ 53 ∧
      (2 : ℚ) ^ (80 : Nat) < (2 : ℚ) ^ (1023 : Int) := by
  have h1 : (2 : ℚ) ^ (-1022 : Int) ≤ (2 : ℚ) ^ (0 : Int) :=
    zpow_le_zpow_right₀ (by norm_num) (by norm_num)
  have h2 : (2 : ℚ) ^ (-53 : Int) = 1 / 2 ^ 53 := by
    rw [zpow_neg, one_div]
    norm_cast
  have h3 : (2 : ℚ) ^ (80 : Nat) < (2 : ℚ) ^ (1023 : Int) := by
    rw [← zpow_natCast]
    exact zpow_lt_zpow_right₀ (by norm_num) (by norm_num)
  refine ⟨by simpa using h1, le_of_eq h2, zpow_pos (by norm_num) _, h2, h3⟩

theorem fraction_step_bound (f t S T a u r : ℚ) (h1 : |f - S| ≤ a) (h2 : |t - T| ≤ u)
    (hS0 : 0 ≤ S) (hT0 : 0 ≤ T) (hST : S + T ≤ 1) (ha : a ≤ 1 / 10)
    (hu : u ≤ 1 / 1000) :
    |f + t| ≤ 2 ∧ (|r - (f + t)| ≤ 2 * u → |r - (S + T)| ≤ a + 3 * u) := by
  have hf := abs_le.mp h1
  have ht := abs_le.mp h2
  refine ⟨?_, ?_⟩
  · rw [abs_le]
    constructor <;> linarith
  · intro h3
    have hr := abs_le.mp h3
    rw [abs_le]
    constructor <;> linarith

/-- The second loop of `ParseNumber` against the exact decimal fraction: after
`i` digits the divisor is exactly `10 ^ (i + 1)`, and each further digit adds
at most three roundings of size `2 ^ (-53)` to the error of `fraction`. -/
theorem fractionAccumulated_error : ∀ (fs : List Char) (i : Nat) (fraction divisor : Double)
    (S : ℚ), (∀ c ∈ fs, isdigit c = true) → i + fs.length ≤ 22 →
    (fs ≠ [] → divisor = .fin ((5 : Int) ^ (i + 1 : Nat)) ((i : Int) + 1)) →
    fraction.isFinite = true → 0 ≤ S → S ≤ 1 - 1 / (10 : ℚ) ^ i →
    |fraction.toRat - S| ≤ 3 * (i : ℚ) * (2 : ℚ) ^ (-53 : Int) →
    (fractionAccumulated fs fraction divisor).isFinite = true ∧
      |(fractionAccumulated fs fraction divisor).toRat -
          (S + (digitsValue fs : ℚ) / (10 : ℚ) ^ (i + fs.length))| ≤
        3 * ((i + fs.length : Nat) : ℚ) * (2 : ℚ) ^ (-53 : Int) := by
  intro fs
  induction fs with
  | nil =>
      intro i fraction divisor S _ _ _ hfin _ _ herr
      refine ⟨hfin, ?_⟩
      have h0 : ((digitsValue [] : Nat) : ℚ) = 0 := by
        show ((0 : Nat) : ℚ) = 0
        simp
      simpa [fractionAccumulated, h0] using herr
  | cons c fs ih =>
      intro i fraction divisor S hds hlen hdiv hfin hS0 hS1 herr
      obtain ⟨hb1, hb2, hb3, hb4, hb5⟩ := two_zpow_bounds
      have hc : isdigit c = true := hds c (by simp)
      obtain ⟨d1, d2, d3⟩ := toRat_digit hc
      have hlen1 : i + fs.length + 1 ≤ 22 := by
        simpa [List.length_cons, Nat.add_assoc] using hlen
      rw [hdiv (List.cons_ne_nil _ _)]
      have hD : Double.toRat (.fin ((5 : Int) ^ (i + 1 : Nat)) ((i : Int) + 1)) =
          (10 : ℚ) ^ (i + 1) := by
        have := toRat_fin_ten (i + 1)
        push_cast at this ⊢
        exact this
      have h10 : (0 : ℚ) < (10 : ℚ) ^ (i + 1) := by positivity
      have h10i : (0 : ℚ) < (10 : ℚ) ^ i := by positivity
      have hdq : (((c.toNat - 48 : Nat) : ℚ)) ≤ 9 := by exact_mod_cast d3
      have hdq0 : (0 : ℚ) ≤ ((c.toNat - 48 : Nat) : ℚ) := by positivity
      -- the term `digit / divisor`
      have hterm0 : 0 ≤ ((c.toNat - 48 : Nat) : ℚ) / (10 : ℚ) ^ (i + 1) := by positivity
      have hterm1 : ((c.toNat - 48 : Nat) : ℚ) / (10 : ℚ) ^ (i + 1) ≤ 9 / (10 : ℚ) ^ (i + 1) :=
        div_le_div_of_nonneg_right hdq (le_of_lt h10)
      have hterm2 : 9 / (10 : ℚ) ^ (i + 1) ≤ 9 / 10 := by
        rw [div_le_div_iff₀ h10 (by norm_num)]
        have : (10 : ℚ) ^ 1 ≤ (10 : ℚ) ^ (i + 1) :=
          pow_le_pow_right₀ (by norm_num) (by omega)
        linarith
      obtain ⟨t1, t2⟩ := div_error (Double.ofInt (digitValue c))
        (.fin ((5 : Int) ^ (i + 1 : Nat)) ((i : Int) + 1)) d1 rfl
        (by rw [hD]; exact ne_of_gt h10) 1
        (by
          rw [d2, hD, abs_of_nonneg hterm0]
          linarith)
        hb1 (lt_of_le_of_lt (by norm_num) hb5)
      rw [d2, hD] at t2
      rw [one_mul] at t2
      -- the sum `fraction + term`
      have hi : (i : ℚ) ≤ 22 := by
        have : i ≤ 22 := by omega
        exact_mod_cast this
      have hu : (2 : ℚ) ^ (-53 : Int) ≤ 1 / 1000 := by
        rw [hb4]
        norm_num
      have hiu : 3 * (i : ℚ) * (2 : ℚ) ^ (-53 : Int) ≤ 1 / 10 := by
        calc 3 * (i : ℚ) * (2 : ℚ) ^ (-53 : Int) ≤ 66 * (1 / 1000) :=
              mul_le_mul (by linarith) hu (le_of_lt hb3) (by norm_num)
          _ ≤ 1 / 10 := by norm_num
      have hS1' : S ≤ 1 := by
        have : (0 : ℚ) < 1 / (10 : ℚ) ^ i := by positivity
        linarith
      -- the new exact sum
      have hS0' : 0 ≤ S + ((c.toNat - 48 : Nat) : ℚ) / (10 : ℚ) ^ (i + 1) := by linarith
      have hS1'' : S + ((c.toNat - 48 : Nat) : ℚ) / (10 : ℚ) ^ (i + 1) ≤
          1 - 1 / (10 : ℚ) ^ (i + 1) := by
        have e1 : 1 / (10 : ℚ) ^ i = 10 / (10 : ℚ) ^ (i + 1) := by
          rw [pow_succ]
          field_simp
        have e2 : 9 / (10 : ℚ) ^ (i + 1) + 1 / (10 : ℚ) ^ (i + 1) = 10 / (10 : ℚ) ^ (i + 1) := by
          field_simp
          norm_num
        rw [e1] at hS1
        linarith
      obtain ⟨b1, b2⟩ := fraction_step_bound fraction.toRat
        (Double.div (Double.ofInt (digitValue c))
          (.fin ((5 : Int) ^ (i + 1 : Nat)) ((i : Int) + 1))).toRat S
        (((c.toNat - 48 : Nat) : ℚ) / (10 : ℚ) ^ (i + 1)) (3 * (i : ℚ) * (2 : ℚ) ^ (-53 : Int))
        ((2 : ℚ) ^ (-53 : Int))
        (Double.add fraction (Double.div (Double.ofInt (digitValue c))
          (.fin ((5 : Int) ^ (i + 1 : Nat)) ((i : Int) + 1)))).toRat
        herr t2 hS0 hterm0
        (le_trans hS1'' (by
          have : (0 : ℚ) < 1 / (10 : ℚ) ^ (i + 1) := by positivity
          linarith)) hiu hu
      obtain ⟨a1, a2⟩ := add_error fraction (Double.div (Double.ofInt (digitValue c))
          (.fin ((5 : Int) ^ (i + 1 : Nat)) ((i : Int) + 1))) hfin t1 2 b1
        (le_trans hb1 (by norm_num)) (lt_of_le_of_lt (by norm_num) hb5)
      have herr' : |(Double.add fraction (Double.div (Double.ofInt (digitValue c))
          (.fin ((5 : Int) ^ (i + 1 : Nat)) ((i : Int) + 1)))).toRat -
          (S + ((c.toNat - 48 : Nat) : ℚ) / (10 : ℚ) ^ (i + 1))| ≤
          3 * ((i + 1 : Nat) : ℚ) * (2 : ℚ) ^ (-53 : Int) := by
        have h9 := b2 a2
        have e5 : 3 * ((i + 1 : Nat) : ℚ) * (2 : ℚ) ^ (-53 : Int) =
            3 * (i : ℚ) * (2 : ℚ) ^ (-53 : Int) + 3 * (2 : ℚ) ^ (-53 : Int) := by
          push_cast
          ring
        rw [e5]
        exact h9
      have hnext := ih (i + 1) _ (Double.mul (.fin ((5 : Int) ^ (i + 1 : Nat)) ((i : Int) + 1))
          (Double.ofInt 10)) _ (fun x hx => hds x (by simp [hx])) (by omega)
        (by
          intro hne
          have hl : 0 < fs.length := List.length_pos.mpr hne
          have := divisor_chain i (by omega)
          push_cast at this ⊢
          rw [this]
          congr 1)
        a1 hS0' hS1'' herr'
      have hval : S + ((digitsValue (c :: fs) : Nat) : ℚ) / (10 : ℚ) ^ (i + (c :: fs).length) =
          S + ((c.toNat - 48 : Nat) : ℚ) / (10 : ℚ) ^ (i + 1) +
            ((digitsValue fs : Nat) : ℚ) / (10 : ℚ) ^ (i + 1 + fs.length) := by
        rw [digitsValue_cons, List.length_cons]
        have e3 : (10 : ℚ) ^ (i + (fs.length + 1)) = (10 : ℚ) ^ (i + 1) * (10 : ℚ) ^ fs.length := by
          rw [← pow_add]
          congr 1
          omega
        have e4 : (10 : ℚ) ^ (i + 1 + fs.length) = (10 : ℚ) ^ (i + 1) * (10 : ℚ) ^ fs.length := by
          rw [← pow_add]
        rw [e3, e4]
        have h5 : (0 : ℚ) < (10 : ℚ) ^ fs.length := by positivity
        push_cast
        field_simp
        ring
      have hcount : ((i + (c :: fs).length : Nat) : ℚ) = ((i + 1 + fs.length : Nat) : ℚ) := by
        rw [List.length_cons]
        congr 1
        omega
      rw [hval, hcount]
      exact hnext

theorem add_fraction_bound (I f F a u r : ℚ) (h1 : |f - F| ≤ a) (hF0 : 0 ≤ F) (hF1 : F ≤ 1)
    (hI : 0 ≤ I) (ha : a ≤ 1 / 10) :
    |I + f| ≤ I + 2 ∧ (|r - (I + f)| ≤ (I + 2) * u → |r - (I + F)| ≤ (I + 2) * u + a) := by
  have hf := abs_le.mp h1
  refine ⟨?_, ?_⟩
  · rw [abs_le]
    constructor <;> linarith
  · intro h3
    have hr := abs_le.mp h3
    rw [abs_le]
    constructor <;> linarith

theorem scale_bound (r X P b u s I : ℚ) (h1 : |r - X| ≤ b) (hX0 : 0 ≤ X) (hX1 : X ≤ I + 1)
    (hb : b ≤ 2) (hP : 0 < P) :
    |r * P| ≤ (I + 3) * P ∧
      (|s - r * P| ≤ (I + 3) * P * u → |s - X * P| ≤ (I + 3) * P * u + b * P) := by
  have hr := abs_le.mp h1
  have habs : |r| ≤ I + 3 := by
    rw [abs_le]
    constructor <;> linarith
  have hdiff : |r * P - X * P| ≤ b * P := by
    have : r * P - X * P = (r - X) * P := by ring
    rw [this, abs_mul, abs_of_pos hP]
    exact mul_le_mul_of_nonneg_right h1 (le_of_lt hP)
  refine ⟨?_, ?_⟩
  · rw [abs_mul, abs_of_pos hP]
    exact mul_le_mul_of_nonneg_right habs (le_of_lt hP)
  · intro h3
    have e : s - X * P = (s - r * P) + (r * P - X * P) := by ring
    rw [e]
    exact le_trans (abs_add _ _) (add_le_add h3 hdiff)

theorem ExponentPart.accumulated_eq_value (x : ExponentPart)
    (hds : ∀ c ∈ x.digits, isdigit c = true) (hle : digitsValue x.digits < 2147483648) :
    x.accumulated = x.value := by
  have h1 := exponentAccumulated_exact x.digits 0 hds hle
  have h1' : exponentAccumulated x.digits 0 = (digitsValue x.digits : Int) := h1
  unfold ExponentPart.accumulated ExponentPart.value
  rw [h1']
  split
  · unfold wrapInt32
    omega
  · rfl

/-- The statements of `ParseNumber` against the exact value of the literal:
for integer digits of value I at most `2 ^ 53`, a fraction of k digits, at most
22, and an exponent E from 0 to 22, the double computed is finite and differs
from the exact value by at most `(2 * I + 3 * k + 5) * 10 ^ E * 2 ^ (-53)`. -/
theorem NumberLiteral.accumulated_error (n : NumberLiteral) (hn : n.WellFormed)
    (hI : digitsValue n.integer ≤ 2 ^ 53) (hk : n.fractionDigits.length ≤ 22)
    (hE0 : 0 ≤ n.exponentValue) (hE : n.exponentValue ≤ 22) :
    n.accumulated.isFinite = true ∧
      |n.accumulated.toRat - n.exactValue| ≤
        (2 * ((digitsValue n.integer : Nat) : ℚ) + 3 * ((n.fractionDigits.length : Nat) : ℚ) + 5) *
          (10 : ℚ) ^ n.exponentValue / 2 ^ 53 := by
  obtain ⟨hb1, hb2, hb3, hb4, hb5⟩ := two_zpow_bounds
  obtain ⟨hne, hds, hfs, hex⟩ := hn
  have hIq : ((digitsValue n.integer : Nat) : ℚ) ≤ 2 ^ 53 := by exact_mod_cast hI
  have hIq0 : (0 : ℚ) ≤ ((digitsValue n.integer : Nat) : ℚ) := by positivity
  have hkq : ((n.fractionDigits.length : Nat) : ℚ) ≤ 22 := by exact_mod_cast hk
  have hkq0 : (0 : ℚ) ≤ ((n.fractionDigits.length : Nat) : ℚ) := by positivity
  have hu : (2 : ℚ) ^ (-53 : Int) ≤ 1 / 1000 := by
    rw [hb4]
    norm_num
  have hku : 3 * ((n.fractionDigits.length : Nat) : ℚ) * (2 : ℚ) ^ (-53 : Int) ≤ 1 / 10 := by
    calc 3 * ((n.fractionDigits.length : Nat) : ℚ) * (2 : ℚ) ^ (-53 : Int) ≤ 66 * (1 / 1000) :=
          mul_le_mul (by linarith) hu (le_of_lt hb3) (by norm_num)
      _ ≤ 1 / 10 := by norm_num
  have hIu : ((digitsValue n.integer : Nat) : ℚ) * (2 : ℚ) ^ (-53 : Int) ≤ 1 := by
    rw [hb4]
    rw [mul_one_div, div_le_one (by positivity)]
    exact hIq
  -- the integer digits
  have h0 := integerAccumulated_value hds hI
  obtain ⟨i1, i2⟩ := Double.toRat_exactInt ((digitsValue n.integer : Nat) : Int)
  have i1' : (Double.exactInt ((digitsValue n.integer : Nat) : Int)).toRat =
      ((digitsValue n.integer : Nat) : ℚ) := by
    rw [i1]
    simp
  -- the fraction
  have hfrac : (NumberLiteral.addFraction (integerAccumulated n.integer (Double.ofInt 0))
        n.fraction).isFinite = true ∧
      |(NumberLiteral.addFraction (integerAccumulated n.integer (Double.ofInt 0))
        n.fraction).toRat - (((digitsValue n.integer : Nat) : ℚ) +
          ((digitsValue n.fractionDigits : Nat) : ℚ) / (10 : ℚ) ^ n.fractionDigits.length)| ≤
        (((digitsValue n.integer : Nat) : ℚ) + 2) * (2 : ℚ) ^ (-53 : Int) +
          3 * ((n.fractionDigits.length : Nat) : ℚ) * (2 : ℚ) ^ (-53 : Int) ∧
      ((digitsValue n.fractionDigits : Nat) : ℚ) / (10 : ℚ) ^ n.fractionDigits.length ≤ 1 := by
    rw [h0]
    cases hf : n.fraction with
    | none =>
        have hfd : n.fractionDigits = [] := by
          unfold NumberLiteral.fractionDigits
          rw [hf]
        rw [hfd]
        have hz : ((digitsValue [] : Nat) : ℚ) = 0 := by
          show ((0 : Nat) : ℚ) = 0
          simp
        simp only [NumberLiteral.addFraction, hz, List.length_nil, pow_zero, div_one, add_zero,
          i1', sub_self, abs_zero, Nat.cast_zero, mul_zero]
        refine ⟨i2, ?_, by norm_num⟩
        have : 0 ≤ (((digitsValue n.integer : Nat) : ℚ) + 2) * (2 : ℚ) ^ (-53 : Int) :=
          mul_nonneg (by linarith) (le_of_lt hb3)
        linarith
    | some fs =>
        have hfd : n.fractionDigits = fs := by
          unfold NumberLiteral.fractionDigits
          rw [hf]
        rw [hfd] at hk hku ⊢
        have hfsd := hfs fs hf
        have hz : (Double.ofInt 0).isFinite = true ∧ (Double.ofInt 0).toRat = 0 ∧
            Double.ofInt 10 = .fin ((5 : Int) ^ (0 + 1 : Nat)) (((0 : Nat) : Int) + 1) := by
          refine ⟨rfl, ?_, by decide⟩
          show Double.toRat (.fin 0 0) = 0
          simp [Double.toRat]
        obtain ⟨f1, f2⟩ := fractionAccumulated_error fs 0 (Double.ofInt 0) (Double.ofInt 10) 0 hfsd
          (by omega) (fun _ => hz.2.2) hz.1 (le_refl _) (by norm_num) (by rw [hz.2.1]; simp)
        simp only [zero_add, Nat.cast_zero] at f2
        have hF0 : (0 : ℚ) ≤ ((digitsValue fs : Nat) : ℚ) / (10 : ℚ) ^ fs.length := by positivity
        have hF1 : ((digitsValue fs : Nat) : ℚ) / (10 : ℚ) ^ fs.length ≤ 1 := by
          rw [div_le_one (by positivity)]
          have := digitsValue_lt fs hfsd
          exact_mod_cast (le_of_lt this)
        obtain ⟨b1, b2⟩ := add_fraction_bound ((digitsValue n.integer : Nat) : ℚ)
          (fractionAccumulated fs (Double.ofInt 0) (Double.ofInt 10)).toRat
          (((digitsValue fs : Nat) : ℚ) / (10 : ℚ) ^ fs.length)
          (3 * ((fs.length : Nat) : ℚ) * (2 : ℚ) ^ (-53 : Int)) ((2 : ℚ) ^ (-53 : Int))
          (Double.add (Double.exactInt ((digitsValue n.integer : Nat) : Int))
            (fractionAccumulated fs (Double.ofInt 0) (Double.ofInt 10))).toRat
          f2 hF0 hF1 hIq0 hku
        rw [← i1'] at b1 b2
        obtain ⟨a1, a2⟩ := add_error (Double.exactInt ((digitsValue n.integer : Nat) : Int))
          (fractionAccumulated fs (Double.ofInt 0) (Double.ofInt 10)) i2 f1
          ((Double.exactInt ((digitsValue n.integer : Nat) : Int)).toRat + 2) b1
          (by rw [i1']; linarith)
          (by
            rw [i1']
            refine lt_of_le_of_lt ?_ hb5
            have : (2 : ℚ) ^ 53 + 2 ≤ (2 : ℚ) ^ 80 := by norm_num
            linarith)
        have b3 := b2 a2
        rw [i1'] at b3
        exact ⟨a1, b3, hF1⟩
  obtain ⟨q1, q2, q3⟩ := hfrac
  have hX0 : (0 : ℚ) ≤ ((digitsValue n.integer : Nat) : ℚ) +
      ((digitsValue n.fractionDigits : Nat) : ℚ) / (10 : ℚ) ^ n.fractionDigits.length := by
    positivity
  have hberr : (((digitsValue n.integer : Nat) : ℚ) + 2) * (2 : ℚ) ^ (-53 : Int) +
      3 * ((n.fractionDigits.length : Nat) : ℚ) * (2 : ℚ) ^ (-53 : Int) ≤ 2 := by
    have : (((digitsValue n.integer : Nat) : ℚ) + 2) * (2 : ℚ) ^ (-53 : Int) =
        ((digitsValue n.integer : Nat) : ℚ) * (2 : ℚ) ^ (-53 : Int) + 2 * (2 : ℚ) ^ (-53 : Int) := by
      ring
    rw [this]
    exact le_trans (add_le_add (add_le_add hIu
      (mul_le_mul_of_nonneg_left hu (by norm_num : (0 : ℚ) ≤ 2))) hku) (by norm_num)
  -- the exponent
  have hscale : (NumberLiteral.scale (NumberLiteral.addFraction
        (integerAccumulated n.integer (Double.ofInt 0)) n.fraction) n.exponent).isFinite = true ∧
      |(NumberLiteral.scale (NumberLiteral.addFraction
        (integerAccumulated n.integer (Double.ofInt 0)) n.fraction) n.exponent).toRat -
        (((digitsValue n.integer : Nat) : ℚ) +
          ((digitsValue n.fractionDigits : Nat) : ℚ) / (10 : ℚ) ^ n.fractionDigits.length) *
          (10 : ℚ) ^ n.exponentValue| ≤
        (2 * ((digitsValue n.integer : Nat) : ℚ) + 3 * ((n.fractionDigits.length : Nat) : ℚ) + 5) *
          (10 : ℚ) ^ n.exponentValue / 2 ^ 53 := by
    cases hx : n.exponent with
    | none =>
        have hev : n.exponentValue = 0 := by
          unfold NumberLiteral.exponentValue
          rw [hx]
        rw [hev]
        simp only [NumberLiteral.scale, zpow_zero, mul_one]
        refine ⟨q1, le_trans q2 ?_⟩
        rw [hb4]
        have h53 : (0 : ℚ) < 2 ^ 53 := by positivity
        rw [← add_mul, mul_one_div, div_le_div_iff₀ h53 h53]
        have : ((digitsValue n.integer : Nat) : ℚ) + 2 + 3 * ((n.fractionDigits.length : Nat) : ℚ) ≤
            2 * ((digitsValue n.integer : Nat) : ℚ) + 3 * ((n.fractionDigits.length : Nat) : ℚ) + 5 := by
          linarith
        exact mul_le_mul_of_nonneg_right this (le_of_lt h53)
    | some x =>
        have hev : n.exponentValue = x.value := by
          unfold NumberLiteral.exponentValue
          rw [hx]
        rw [hev] at hE0 hE ⊢
        obtain ⟨_, _, hxd⟩ := hex x hx
        have hdv : digitsValue x.digits ≤ 22 := by
          unfold ExponentPart.value at hE0 hE
          split at hE
          · rename_i hs
            rw [if_pos hs] at hE0
            omega
          · omega
        have hacc := ExponentPart.accumulated_eq_value x hxd (by omega)
        obtain ⟨E, hEv⟩ : ∃ E : Nat, x.value = (E : Int) := ⟨x.value.toNat, by omega⟩
        have hE22 : E < 23 := by omega
        have hp := pow10_chain E hE22
        have hpr := toRat_fin_ten E
        simp only [NumberLiteral.scale, hacc, hEv, hp, zpow_natCast]
        have hP : (0 : ℚ) < (10 : ℚ) ^ E := by positivity
        have hP1 : (10 : ℚ) ^ E ≤ (10 : ℚ) ^ 22 := pow_le_pow_right₀ (by norm_num) (by omega)
        obtain ⟨b1, b2⟩ := scale_bound
          (NumberLiteral.addFraction (integerAccumulated n.integer (Double.ofInt 0)) n.fraction).toRat
          (((digitsValue n.integer : Nat) : ℚ) +
            ((digitsValue n.fractionDigits : Nat) : ℚ) / (10 : ℚ) ^ n.fractionDigits.length)
          ((10 : ℚ) ^ E)
          ((((digitsValue n.integer : Nat) : ℚ) + 2) * (2 : ℚ) ^ (-53 : Int) +
            3 * ((n.fractionDigits.length : Nat) : ℚ) * (2 : ℚ) ^ (-53 : Int))
          ((2 : ℚ) ^ (-53 : Int))
          (Double.mul (NumberLiteral.addFraction (integerAccumulated n.integer (Double.ofInt 0))
            n.fraction) (.fin ((5 : Int) ^ (E : Nat)) ((E : Nat) : Int))).toRat
          ((digitsValue n.integer : Nat) : ℚ) q2 hX0 (by linarith) hberr hP
        rw [← hpr] at b1 b2
        obtain ⟨m1, m2⟩ := mul_error
          (NumberLiteral.addFraction (integerAccumulated n.integer (Double.ofInt 0)) n.fraction)
          (.fin ((5 : Int) ^ (E : Nat)) ((E : Nat) : Int)) q1 rfl
          ((((digitsValue n.integer : Nat) : ℚ) + 3) *
            Double.toRat (.fin ((5 : Int) ^ (E : Nat)) ((E : Nat) : Int))) b1
          (by
            rw [hpr]
            have h1 : (1 : ℚ) ≤ (10 : ℚ) ^ E := one_le_pow₀ (by norm_num)
            have h2 : (1 : ℚ) ≤ (((digitsValue n.integer : Nat) : ℚ) + 3) * (10 : ℚ) ^ E := by
              nlinarith
            linarith)
          (by
            rw [hpr]
            refine lt_of_le_of_lt ?_ (lt_trans (by norm_num : ((2 : ℚ) ^ 54) * (10 : ℚ) ^ 22 <
              (2 : ℚ) ^ (80 : Nat) * (2 : ℚ) ^ (80 : Nat)) ?_)
            · exact mul_le_mul (by linarith) hP1 (le_of_lt hP) (by positivity)
            · have h160 : (2 : ℚ) ^ (80 : Nat) * (2 : ℚ) ^ (80 : Nat) = (2 : ℚ) ^ (160 : Int) := by
                norm_cast
              rw [h160]
              exact zpow_lt_zpow_right₀ (by norm_num) (by norm_num))
        have b3 := b2 m2
        rw [hpr] at b3
        refine ⟨m1, le_trans b3 ?_⟩
        rw [hb4]
        have h53 : (0 : ℚ) < 2 ^ 53 := by positivity
        rw [le_div_iff₀ h53]
        have e : ((((digitsValue n.integer : Nat) : ℚ) + 3) * (10 : ℚ) ^ E * (1 / 2 ^ 53) +
            ((((digitsValue n.integer : Nat) : ℚ) + 2) * (1 / 2 ^ 53) +
              3 * ((n.fractionDigits.length : Nat) : ℚ) * (1 / 2 ^ 53)) * (10 : ℚ) ^ E) * 2 ^ 53 =
            (2 * ((digitsValue n.integer : Nat) : ℚ) + 3 * ((n.fractionDigits.length : Nat) : ℚ) + 5) *
              (10 : ℚ) ^ E := by
          field_simp
          ring
        rw [e]
  obtain ⟨s1, s2⟩ := hscale
  unfold NumberLiteral.accumulated NumberLiteral.exactValue
  cases hneg : n.negative with
  | true =>
      simp only [if_true]
      obtain ⟨g1, g2⟩ := Double.toRat_neg (NumberLiteral.scale (NumberLiteral.addFraction
        (integerAccumulated n.integer (Double.ofInt 0)) n.fraction) n.exponent)
      rw [g1, g2]
      refine ⟨s1, ?_⟩
      have e : ∀ a b c : ℚ, -a - -1 * b * c = -(a - b * c) := by
        intro a b c
        ring
      rw [e, abs_neg]
      exact s2
  | false =>
      simp only [Bool.false_eq_true, if_false, one_mul]
      exact ⟨s1, s2⟩

/-- C10 (the claim as stated fails): for the literal `0.12` (I = 0, F = 12,
k = 2) followed by a comma, `ParseNumber` stops at the comma and returns
`8646911284551353 * 2 ^ (-56)`, which is not the exact value 12 / 100 and is
not even the `double` nearest to 12 / 100: the sum of the rounded terms
`1 / 10.0` and `2 / 100.0` is rounded once more. -/
theorem C10_exact_value_counterexample :
    ParseNumber (ParserState.Initialize "0.12,".toList) =
        .ok (Double.fin 8646911284551353 (-56), ⟨"0.12,".toList, 4, 1, 5⟩) ∧
      (8646911284551353 : Int) * 100 ≠ 12 * 2 ^ 56 ∧
      Double.fin 8646911284551353 (-56) ≠ Double.ofRatio 12 100 := by
  decide!

/-- C10 (amended): on a well-formed number literal followed by a character
that cannot continue it, `ParseNumber` succeeds and stops at that character.
When the integer digits have a value I of at most `2 ^ 53`, the fraction has k
digits, at most 22 (k = 0 and F = 0 without a fraction), and the exponent E is
from 0 to 22 (E = 0 without an exponent part), the `double` returned is finite
and differs from the exact value `sign * (I + F / 10 ^ k) * 10 ^ E` by at most
`(2 * I + 3 * k + 5) * 10 ^ E / 2 ^ 53`. When the literal has no fraction, and
either no exponent or a non-negative exponent E of at most 15, and the integer
`I * 10 ^ E` is at most `2 ^ 53`, the `double` returned is exactly the integer
`sign * I * 10 ^ E`. -/
theorem C10_ParseNumber_value (n : NumberLiteral) (hn : n.WellFormed) (c : Char)
    (hc : n.EndsBefore c) (st : ParserState) (pre rest : List Char)
    (h : st.Reads pre (n.text ++ c :: rest)) :
    ∃ value st1, ParseNumber st = .ok (value, st1) ∧ st1.Reads (pre ++ n.text) (c :: rest) ∧
      (digitsValue n.integer ≤ 2 ^ 53 → n.fractionDigits.length ≤ 22 →
        0 ≤ n.exponentValue → n.exponentValue ≤ 22 →
        value.isFinite = true ∧
          |value.toRat - n.exactValue| ≤
            (2 * ((digitsValue n.integer : Nat) : ℚ) +
              3 * ((n.fractionDigits.length : Nat) : ℚ) + 5) *
                (10 : ℚ) ^ n.exponentValue / 2 ^ 53) ∧
      (n.fraction = none → n.exponent = none → digitsValue n.integer ≤ 2 ^ 53 →
        value = Double.ofInt (n.signed (digitsValue n.integer))) ∧
      (n.fraction = none → ∀ x, n.exponent = some x → x.sign ≠ some true →
        digitsValue x.digits ≤ 15 → digitsValue n.integer * 10 ^ digitsValue x.digits ≤ 2 ^ 53 →
        value =
          Double.ofInt (n.signed (digitsValue n.integer * 10 ^ digitsValue x.digits))) := by
  obtain ⟨st1, hp, hr⟩ := ParseNumber_literal n hn c hc st pre rest h
  refine ⟨n.accumulated, st1, hp, hr, ?_, ?_, ?_⟩
  · intro hI hk hE0 hE
    exact NumberLiteral.accumulated_error n hn hI hk hE0 hE
  · intro hf hx hle
    unfold NumberLiteral.accumulated
    rw [hf, hx]
    simp only [NumberLiteral.addFraction, NumberLiteral.scale]
    rw [integerAccumulated_value hn.2.1 hle]
    exact signed_exact n hle
  · intro hf x hx hs hE hle
    have hpos : 0 < 10 ^ digitsValue x.digits := Nat.pos_pow_of_pos _ (by norm_num)
    have hI : digitsValue n.integer ≤ 2 ^ 53 :=
      le_trans (Nat.le_mul_of_pos_right _ hpos) hle
    have hacc : x.accumulated = ((digitsValue x.digits : Nat) : Int) := by
      unfold ExponentPart.accumulated
      rw [if_neg hs]
      exact exponentAccumulated_exact x.digits 0 (hn.2.2.2 x hx).2.2
        (lt_of_le_of_lt hE (by norm_num))
    unfold NumberLiteral.accumulated
    rw [hf, hx]
    simp only [NumberLiteral.addFraction, NumberLiteral.scale]
    rw [integerAccumulated_value hn.2.1 hI, hacc, pow10_exact hE]
    have hm : Double.mul (Double.exactInt (digitsValue n.integer))
        (Double.exactInt ((10 ^ digitsValue x.digits : Nat) : Int)) =
        Double.exactInt ((digitsValue n.integer * 10 ^ digitsValue x.digits : Nat) : Int) := by
      have hcast : ((digitsValue n.integer * 10 ^ digitsValue x.digits : Nat) : Int) =
          (digitsValue n.integer : Int) * ((10 ^ digitsValue x.digits : Nat) : Int) := by
        push_cast
        rfl
      rw [hcast]
      apply Double.mul_exactInt
      rw [← hcast, Int.natAbs_ofNat]
      exact hle
    rw [hm]
    exact signed_exact n hle

/-- C10 (amended) at the literal `3.14` followed by a comma: `ParseNumber`
stops at the comma and the value is within `17 / 2 ^ 53` of 314 / 100; by
evaluation it is the `double` nearest to 3.14, and the literals `42`, `-10`
and `12e2` give the integers 42, -10 and 1200. -/
theorem C10_ParseNumber_value_witness :
    (∃ value st1, ParseNumber (ParserState.Initialize "3.14,".toList) = .ok (value, st1) ∧
        st1.Reads "3.14".toList [','] ∧ value.isFinite = true ∧
        |value.toRat - 314 / 100| ≤ 17 / 2 ^ 53) ∧
      ParseNumber (ParserState.Initialize "3.14,".toList) =
        .ok (Double.ofRatio 314 100, ⟨"3.14,".toList, 4, 1, 5⟩) ∧
      ParseNumber (ParserState.Initialize "42,".toList) =
        .ok (Double.ofInt 42, ⟨"42,".toList, 2, 1, 3⟩) ∧
      ParseNumber (ParserState.Initialize "-10,".toList) =
        .ok (Double.ofInt (-10), ⟨"-10,".toList, 3, 1, 4⟩) ∧
      ParseNumber (ParserState.Initialize "12e2,".toList) =
        .ok (Double.ofInt 1200, ⟨"12e2,".toList, 4, 1, 5⟩) := by
  have hw : (NumberLiteral.mk false ['3'] (some ['1', '4']) none).WellFormed :=
    ⟨by decide, by decide, (by intro fs hfs; cases hfs; decide), (by intro x hx; cases hx)⟩
  have he : (NumberLiteral.mk false ['3'] (some ['1', '4']) none).EndsBefore ',' :=
    ⟨by decide, (fun _ => by decide), (fun hf _ => by cases hf)⟩
  obtain ⟨value, st1, hp, hr, hb, _, _⟩ := C10_ParseNumber_value _ hw ',' he
    (ParserState.Initialize "3.14,".toList) [] [] (ParserState.Reads.Initialize _)
  obtain ⟨b1, b2⟩ := hb (by decide) (by decide) (by decide) (by decide)
  have d1 : digitsValue ['3'] = 3 := by decide
  have d2 : digitsValue ['1', '4'] = 14 := by decide
  refine ⟨⟨value, st1, hp, hr, b1, ?_⟩, by decide!, by decide!, by decide!, by decide!⟩
  simp only [NumberLiteral.exactValue, NumberLiteral.fractionDigits, NumberLiteral.exponentValue,
    d1, d2, List.length_cons, List.length_nil] at b2
  norm_num at b2
  norm_num
  exact b2

/-! ### C3: parsing the text of a value -/

theorem ParserState.Reads.lt_length {st : ParserState} {pre rest : List Char} {c : Char}
    (h : st.Reads pre (c :: rest)) : st.position_ < st.input_.length := by
  have := h.position_le
  simp at this
  omega

theorem escapeText_letter (e : Escape) : escapeText e.letter = [e.denote] := by
  cases e <;> rfl

theorem Escape.letter_ne_u (e : Escape) : e.letter ≠ 'u' := by
  cases e <;> decide

theorem ValidateStringLength_ok {cfg : JsonParserConfig} {n : Nat}
    (h : n ≤ cfg.max_string_length) : ValidateStringLength cfg n = .ok () := by
  unfold ValidateStringLength
  rw [if_neg (by omega)]

theorem ParseStringStep_plain (cfg : JsonParserConfig) {c : Char} (result : List Char)
    (st : ParserState) (hw : (StrItem.plain c).WellFormed) :
    ParseStringStep cfg c result st = .ok (result ++ [c], st) := by
  obtain ⟨_, h2, h3, h4⟩ := hw
  simp [ParseStringStep, h2, h3, h4, pure, Except.pure]

theorem ParseStringStep_escaped (cfg : JsonParserConfig) (e : Escape) (result : List Char)
    {st : ParserState} {pre rest : List Char} (h : st.Reads pre (e.letter :: rest)) :
    ParseStringStep cfg '\\' result st = .ok (result ++ [e.denote], st.consume e.letter) := by
  simp [ParseStringStep, Next_of_Reads h, e.letter_ne_u, escapeText_letter, bind, Except.bind,
    pure, Except.pure]

theorem ParseStringLoop_items (cfg : JsonParserConfig) :
    ∀ (items : List StrItem) (fuel : Nat) (result : List Char) (st : ParserState)
      (pre rest : List Char), st.Reads pre (itemsText items ++ '"' :: rest) →
      (∀ i ∈ items, i.WellFormed) → result.length + items.length ≤ cfg.max_string_length →
      items.length < fuel →
      ∃ st1, ParseStringLoop cfg fuel result st = .ok (result ++ stringDenote items, st1) ∧
        st1.Reads (pre ++ (itemsText items ++ ['"'])) rest := by
  intro items
  induction items with
  | nil =>
      intro fuel result st pre rest h _ _ hf
      obtain ⟨f, rfl⟩ : ∃ f, fuel = f + 1 := ⟨fuel - 1, by omega⟩
      have h0 : st.Reads pre ('"' :: rest) := h
      refine ⟨st.consume '"', ?_, by simpa [itemsText] using h0.after_consume⟩
      rw [ParseStringLoop]
      simp [h0.lt_length, Next_of_Reads h0, stringDenote, bind, Except.bind, pure, Except.pure]
  | cons i items ih =>
      intro fuel result st pre rest h hw hlen hf
      obtain ⟨f, rfl⟩ : ∃ f, fuel = f + 1 := ⟨fuel - 1, by omega⟩
      have hwi : i.WellFormed := hw i (by simp)
      have hws : ∀ j ∈ items, j.WellFormed := fun j hj => hw j (by simp [hj])
      simp only [List.length_cons] at hlen hf
      cases i with
      | plain c =>
          have h0 : st.Reads pre (c :: (itemsText items ++ '"' :: rest)) := h
          have h1 := h0.after_consume
          obtain ⟨st1, p1, r1⟩ := ih f (result ++ [c]) _ _ rest h1 hws
            (by simp; omega) (by omega)
          refine ⟨st1, ?_, by simpa [itemsText, StrItem.text] using r1⟩
          rw [ParseStringLoop]
          have hq : c ≠ '"' := hwi.1
          have hv : ValidateStringLength cfg (result ++ [c]).length = .ok () :=
            ValidateStringLength_ok (by simp; omega)
          simp only [h0.lt_length, if_true, Next_of_Reads h0, bind, Except.bind, hq, if_false,
            ParseStringStep_plain cfg result _ hwi, hv, p1]
          simp [stringDenote, StrItem.denote]
      | escaped e =>
          have h0 : st.Reads pre ('\\' :: e.letter :: (itemsText items ++ '"' :: rest)) := h
          have h1 := h0.after_consume
          have h2 := h1.after_consume
          obtain ⟨st1, p1, r1⟩ := ih f (result ++ [e.denote]) _ _ rest h2 hws
            (by simp; omega) (by omega)
          refine ⟨st1, ?_, by simpa [itemsText, StrItem.text] using r1⟩
          rw [ParseStringLoop]
          have hq : '\\' ≠ '"' := by decide
          have hv : ValidateStringLength cfg (result ++ [e.denote]).length = .ok () :=
            ValidateStringLength_ok (by simp; omega)
          simp only [h0.lt_length, if_true, Next_of_Reads h0, bind, Except.bind, hq, if_false,
            ParseStringStep_escaped cfg e result h1, hv, p1]
          simp [stringDenote, StrItem.denote]

theorem ParseString_stringText (cfg : JsonParserConfig) {items : List StrItem} {st : ParserState}
    {pre rest : List Char} (h : st.Reads pre (stringText items ++ rest))
    (hw : ∀ i ∈ items, i.WellFormed) (hlen : items.length ≤ cfg.max_string_length) :
    ∃ st1, ParseString cfg st = .ok (stringDenote items, st1) ∧
      st1.Reads (pre ++ stringText items) rest := by
  have h0 : st.Reads pre ('"' :: (itemsText items ++ '"' :: rest)) := by
    simpa [stringText] using h
  have h1 := h0.after_consume
  have hlt : items.length < (st.consume '"').unread.length + 1 := by
    rw [h1.unread_eq]
    have : items.length ≤ (itemsText items).length := by
      clear h h0 h1 hw hlen
      induction items with
      | nil => simp
      | cons i items ih =>
          cases i <;> simp [itemsText, StrItem.text] <;> omega
    simp
    omega
  obtain ⟨st1, p1, r1⟩ := ParseStringLoop_items cfg items _ [] _ _ rest h1 hw (by simpa using hlen) hlt
  refine ⟨st1, ?_, by simpa [stringText] using r1⟩
  simp only [ParseString, Expect_of_Reads h0, bind, Except.bind, p1]
  simp

theorem Match_of_Reads {st : ParserState} {pre rest : List Char} (str : List Char)
    (h : st.Reads pre (str ++ rest)) :
    ∃ st1, Match st str = (true, st1) ∧ st1.Reads (pre ++ str) rest := by
  have hle : st.position_ + str.length ≤ st.input_.length := by
    have := h.position_le
    simp at this
    omega
  obtain ⟨a1, a2⟩ := Advance_spec str.length st hle
  refine ⟨Advance str.length st, ?_, ?_⟩
  · unfold Match
    rw [if_neg (by omega), h.unread_eq, List.take_left' rfl, if_pos rfl]
  · refine ⟨?_, ?_⟩
    · rw [a1, h.1, List.append_assoc]
    · rw [a2, h.2, List.length_append]

theorem Match_mismatch {st : ParserState} {pre rest : List Char} {c d : Char} (str : List Char)
    (h : st.Reads pre (c :: rest)) (hcd : c ≠ d) : Match st (d :: str) = (false, st) := by
  unfold Match
  split
  · rfl
  · rw [h.unread_eq]
    rw [if_neg]
    intro heq
    simp at heq
    exact hcd heq.1

theorem ParseBoolean_of_Reads {st : ParserState} {pre rest : List Char} (b : Bool)
    (h : st.Reads pre ((if b then ['t', 'r', 'u', 'e'] else ['f', 'a', 'l', 's', 'e']) ++ rest)) :
    ∃ st1, ParseBoolean st = .ok (b, st1) ∧
      st1.Reads (pre ++ (if b then ['t', 'r', 'u', 'e'] else ['f', 'a', 'l', 's', 'e'])) rest := by
  cases b with
  | true =>
      have h0 : st.Reads pre (['t', 'r', 'u', 'e'] ++ rest) := h
      obtain ⟨st1, m1, r1⟩ := Match_of_Reads _ h0
      exact ⟨st1, by simp [ParseBoolean, m1], r1⟩
  | false =>
      have h0 : st.Reads pre (['f', 'a', 'l', 's', 'e'] ++ rest) := h
      have h1 : st.Reads pre ('f' :: (['a', 'l', 's', 'e'] ++ rest)) := h0
      have m0 : Match st ['t', 'r', 'u', 'e'] = (false, st) :=
        Match_mismatch _ h1 (by decide)
      obtain ⟨st1, m1, r1⟩ := Match_of_Reads _ h0
      exact ⟨st1, by simp [ParseBoolean, m0, m1], r1⟩

theorem ParseNull_of_Reads {st : ParserState} {pre rest : List Char}
    (h : st.Reads pre (['n', 'u', 'l', 'l'] ++ rest)) :
    ∃ st1, ParseNull st = .ok st1 ∧ st1.Reads (pre ++ ['n', 'u', 'l', 'l']) rest := by
  obtain ⟨st1, m1, r1⟩ := Match_of_Reads _ h
  exact ⟨st1, by simp [ParseNull, m1], r1⟩

theorem ParseValue_string {cfg : JsonParserConfig} {st : ParserState} {pre rest : List Char}
    (fuel : Nat) (h : st.Reads pre ('"' :: rest)) :
    ParseValue cfg (fuel + 1) st =
      (ParseString cfg st).bind (fun r => .ok (.string r.1, r.2)) := by
  have hs : SkipSeparators cfg st = st :=
    SkipSeparators_eq_self cfg h (by intro c hc; simp at hc; subst hc; decide) (by simp)
  rw [ParseValue]
  simp [ValidateDepth_zero, hs, Current_of_Reads h, bind, Except.bind, pure, Except.pure]

theorem isdigit_not_space {c : Char} (h : isdigit c = true) : isspace c = false := by
  have hb := isdigit_bounds h
  unfold isspace
  have h1 : c ≠ ' ' := by intro hc; rw [hc] at hb; revert hb; decide
  have h2 : c ≠ '\t' := by intro hc; rw [hc] at hb; revert hb; decide
  have h3 : c ≠ '\n' := by intro hc; rw [hc] at hb; revert hb; decide
  have h4 : c ≠ '\x0b' := by intro hc; rw [hc] at hb; revert hb; decide
  have h5 : c ≠ '\x0c' := by intro hc; rw [hc] at hb; revert hb; decide
  have h6 : c ≠ '\r' := by intro hc; rw [hc] at hb; revert hb; decide
  simp [h1, h2, h3, h4, h5, h6]

theorem ParseValue_number {cfg : JsonParserConfig} {st : ParserState} {pre rest : List Char}
    {c : Char} (fuel : Nat) (h : st.Reads pre (c :: rest)) (hc : c = '-' ∨ isdigit c = true) :
    ParseValue cfg (fuel + 1) st =
      (ParseNumber st).bind (fun r => .ok (.number r.1, r.2)) := by
  have hsp : isspace c = false := by
    rcases hc with hc | hc
    · rw [hc]; decide
    · exact isdigit_not_space hc
  have h1 : c ≠ '{' := by
    rcases hc with hc | hc
    · rw [hc]; decide
    · exact isdigit_ne hc (by decide)
  have h2 : c ≠ '[' := by
    rcases hc with hc | hc
    · rw [hc]; decide
    · exact isdigit_ne hc (by decide)
  have h3 : c ≠ '"' := by
    rcases hc with hc | hc
    · rw [hc]; decide
    · exact isdigit_ne hc (by decide)
  have h4 : c ≠ '/' := by
    rcases hc with hc | hc
    · rw [hc]; decide
    · exact isdigit_ne hc (by decide)
  have h5 : c = '-' ∨ ('0' ≤ c ∧ c ≤ '9') := by
    rcases hc with hc | hc
    · exact Or.inl hc
    · right
      unfold isdigit at hc
      simpa using hc
  have hs : SkipSeparators cfg st = st :=
    SkipSeparators_eq_self cfg h (by intro d hd; simp at hd; subst hd; exact hsp)
      (by simp; exact h4)
  rw [ParseValue]
  simp only [ValidateDepth_zero, hs, Current_of_Reads h, bind, Except.bind, pure, Except.pure,
    h1, h2, h3, h5, if_true, if_false]

theorem ParseValue_boolean {cfg : JsonParserConfig} {st : ParserState} {pre rest : List Char}
    {c : Char} (fuel : Nat) (h : st.Reads pre (c :: rest)) (hc : c = 't' ∨ c = 'f') :
    ParseValue cfg (fuel + 1) st =
      (ParseBoolean st).bind (fun r => .ok (.boolean r.1, r.2)) := by
  have hs : SkipSeparators cfg st = st :=
    SkipSeparators_eq_self cfg h
      (by intro d hd; simp at hd; subst hd; rcases hc with hc | hc <;> rw [hc] <;> decide)
      (by simp; rcases hc with hc | hc <;> rw [hc] <;> decide)
  rw [ParseValue]
  rcases hc with hc | hc <;> subst hc <;>
    simp [ValidateDepth_zero, hs, Current_of_Reads h, bind, Except.bind, pure, Except.pure]

theorem ParseValue_null {cfg : JsonParserConfig} {st : ParserState} {pre rest : List Char}
    (fuel : Nat) (h : st.Reads pre ('n' :: rest)) :
    ParseValue cfg (fuel + 1) st = (ParseNull st).bind (fun r => .ok (.null, r)) := by
  have hs : SkipSeparators cfg st = st :=
    SkipSeparators_eq_self cfg h (by intro c hc; simp at hc; subst hc; decide) (by simp)
  rw [ParseValue]
  simp [ValidateDepth_zero, hs, Current_of_Reads h, bind, Except.bind, pure, Except.pure]

theorem SkipSeparators_token (cfg : JsonParserConfig) {st : ParserState}
    {pre w rest : List Char} {c : Char} (h : st.Reads pre (w ++ c :: rest)) (hw : IsWhitespace w)
    (hc : isspace c = false) (hs : c ≠ '/') :
    (SkipSeparators cfg st).Reads (pre ++ w) (c :: rest) :=
  SkipSeparators_of_Reads cfg h hw (by intro d hd; simp at hd; subst hd; exact hc)
    (by simp; exact hs)

theorem FollowsValue.endsNumber {rest : List Char} (h : FollowsValue rest) : EndsNumber rest := by
  obtain ⟨c, tail, hr, hc⟩ := h
  refine ⟨c, tail, hr, ?_⟩
  rcases hc with hc | hc | hc
  · refine ⟨?_, ?_, ?_, ?_⟩
    · cases hd : isdigit c with
      | false => rfl
      | true => rw [isdigit_not_space hd] at hc; cases hc
    · intro h1; rw [h1] at hc; revert hc; decide
    · intro h1; rw [h1] at hc; revert hc; decide
    · intro h1; rw [h1] at hc; revert hc; decide
  · subst hc; exact ⟨by decide, by decide, by decide, by decide⟩
  · subst hc; exact ⟨by decide, by decide, by decide, by decide⟩

theorem ReadsValue_string (cfg : JsonParserConfig) {items : List StrItem} {st : ParserState}
    {pre rest : List Char} (h : st.Reads pre (stringText items ++ rest))
    (hw : ∀ i ∈ items, i.WellFormed) (hlen : items.length ≤ cfg.max_string_length) :
    ReadsValue cfg st pre (stringText items) rest (.string (stringDenote items)) := by
  obtain ⟨st1, p1, r1⟩ := ParseString_stringText cfg h hw hlen
  refine ⟨st1, r1, 1, fun fuel hf => ?_⟩
  obtain ⟨f, rfl⟩ : ∃ f, fuel = f + 1 := ⟨fuel - 1, by omega⟩
  have h0 : st.Reads pre ('"' :: (itemsText items ++ '"' :: rest)) := by
    simpa [stringText] using h
  rw [ParseValue_string f h0, p1]
  rfl

theorem ReadsValue_boolean (cfg : JsonParserConfig) (b : Bool) {st : ParserState}
    {pre rest : List Char}
    (h : st.Reads pre ((if b then ['t', 'r', 'u', 'e'] else ['f', 'a', 'l', 's', 'e']) ++ rest)) :
    ReadsValue cfg st pre (if b then ['t', 'r', 'u', 'e'] else ['f', 'a', 'l', 's', 'e']) rest
      (.boolean b) := by
  obtain ⟨st1, p1, r1⟩ := ParseBoolean_of_Reads b h
  refine ⟨st1, r1, 1, fun fuel hf => ?_⟩
  obtain ⟨f, rfl⟩ : ∃ f, fuel = f + 1 := ⟨fuel - 1, by omega⟩
  cases b with
  | true =>
      have h0 : st.Reads pre ('t' :: (['r', 'u', 'e'] ++ rest)) := h
      rw [ParseValue_boolean f h0 (Or.inl rfl), p1]
      rfl
  | false =>
      have h0 : st.Reads pre ('f' :: (['a', 'l', 's', 'e'] ++ rest)) := h
      rw [ParseValue_boolean f h0 (Or.inr rfl), p1]
      rfl

theorem ReadsValue_null (cfg : JsonParserConfig) {st : ParserState} {pre rest : List Char}
    (h : st.Reads pre (['n', 'u', 'l', 'l'] ++ rest)) :
    ReadsValue cfg st pre ['n', 'u', 'l', 'l'] rest .null := by
  obtain ⟨st1, p1, r1⟩ := ParseNull_of_Reads h
  refine ⟨st1, r1, 1, fun fuel hf => ?_⟩
  obtain ⟨f, rfl⟩ : ∃ f, fuel = f + 1 := ⟨fuel - 1, by omega⟩
  have h0 : st.Reads pre ('n' :: (['u', 'l', 'l'] ++ rest)) := h
  rw [ParseValue_null f h0, p1]
  rfl

theorem ReadsValue_integer (cfg : JsonParserConfig) (negative : Bool) {digits : List Char}
    {st : ParserState} {pre rest : List Char}
    (h : st.Reads pre (((if negative then ['-'] else []) ++ digits) ++ rest))
    (hne : digits ≠ []) (hds : ∀ c ∈ digits, isdigit c = true)
    (hle : digitsValue digits ≤ 2 ^ 53) (hr : EndsNumber rest) :
    ReadsValue cfg st pre ((if negative then ['-'] else []) ++ digits) rest
      (.number (Double.ofInt
        (if negative then -(digitsValue digits : Int) else (digitsValue digits : Int)))) := by
  obtain ⟨c, tail, rfl, hc1, hc2, hc3, hc4⟩ := hr
  have hwf : (NumberLiteral.mk negative digits none none).WellFormed :=
    ⟨hne, hds, (by intro fs hfs; cases hfs), (by intro x hx; cases hx)⟩
  have hend : (NumberLiteral.mk negative digits none none).EndsBefore c :=
    ⟨hc1, (fun _ => ⟨hc3, hc4⟩), (fun _ _ => hc2)⟩
  have htext : (NumberLiteral.mk negative digits none none).text =
      (if negative then ['-'] else []) ++ digits := by
    simp [NumberLiteral.text, NumberLiteral.fractionText, NumberLiteral.exponentText]
  have h' : st.Reads pre ((NumberLiteral.mk negative digits none none).text ++ c :: tail) := by
    rw [htext]
    exact h
  obtain ⟨st1, p1, r1⟩ := ParseNumber_literal _ hwf c hend st pre tail h'
  have hval : (NumberLiteral.mk negative digits none none).accumulated =
      Double.ofInt (if negative then -(digitsValue digits : Int) else (digitsValue digits : Int)) := by
    unfold NumberLiteral.accumulated
    simp only [NumberLiteral.addFraction, NumberLiteral.scale]
    rw [integerAccumulated_value hds hle]
    exact signed_exact (NumberLiteral.mk negative digits none none) hle
  rw [htext] at r1
  rw [hval] at p1
  refine ⟨st1, r1, 1, fun fuel hf => ?_⟩
  obtain ⟨f, rfl⟩ : ∃ f, fuel = f + 1 := ⟨fuel - 1, by omega⟩
  cases digits with
  | nil => exact absurd rfl hne
  | cons d ds =>
      have hd : isdigit d = true := hds d (by simp)
      cases negative with
      | true =>
          have h0 : st.Reads pre ('-' :: (d :: ds ++ c :: tail)) := by simpa using h
          rw [ParseValue_number f h0 (Or.inl rfl), p1]
          rfl
      | false =>
          have h0 : st.Reads pre (d :: (ds ++ c :: tail)) := by simpa using h
          rw [ParseValue_number f h0 (Or.inr hd), p1]
          rfl

theorem ReadsValue_emptyArray (cfg : JsonParserConfig) {inner : List Char} {st : ParserState}
    {pre rest : List Char} (h : st.Reads pre (('[' :: (inner ++ [']'])) ++ rest))
    (hw : IsWhitespace inner) :
    ReadsValue cfg st pre ('[' :: (inner ++ [']'])) rest (.array []) := by
  have h0 : st.Reads pre ('[' :: (inner ++ ']' :: rest)) := by simpa using h
  refine ⟨(SkipSeparators cfg (st.consume '[')).consume ']', ?_, 2, fun fuel hf => ?_⟩
  · have h2 : (SkipSeparators cfg (st.consume '[')).Reads (pre ++ ['['] ++ inner) (']' :: rest) :=
      SkipSeparators_token cfg h0.after_consume hw (by decide) (by decide)
    simpa using h2.after_consume
  · obtain ⟨f, rfl⟩ : ∃ f, fuel = f + 2 := ⟨fuel - 2, by omega⟩
    have h2 : (SkipSeparators cfg (st.consume '[')).Reads (pre ++ ['['] ++ inner) (']' :: rest) :=
      SkipSeparators_token cfg h0.after_consume hw (by decide) (by decide)
    rw [ParseValue_array (f + 1) h0, ParseArray]
    simp [ValidateDepth_zero, Expect_of_Reads h0, Current_of_Reads h2, Next_of_Reads h2,
      bind, Except.bind, pure, Except.pure]

theorem ReadsValue_emptyObject (cfg : JsonParserConfig) {inner : List Char} {st : ParserState}
    {pre rest : List Char} (h : st.Reads pre (('{' :: (inner ++ ['}'])) ++ rest))
    (hw : IsWhitespace inner) :
    ReadsValue cfg st pre ('{' :: (inner ++ ['}'])) rest (.object []) := by
  have h0 : st.Reads pre ('{' :: (inner ++ '}' :: rest)) := by simpa using h
  refine ⟨(SkipSeparators cfg (st.consume '{')).consume '}', ?_, 2, fun fuel hf => ?_⟩
  · have h2 : (SkipSeparators cfg (st.consume '{')).Reads (pre ++ ['{'] ++ inner) ('}' :: rest) :=
      SkipSeparators_token cfg h0.after_consume hw (by decide) (by decide)
    simpa using h2.after_consume
  · obtain ⟨f, rfl⟩ : ∃ f, fuel = f + 2 := ⟨fuel - 2, by omega⟩
    have h2 : (SkipSeparators cfg (st.consume '{')).Reads (pre ++ ['{'] ++ inner) ('}' :: rest) :=
      SkipSeparators_token cfg h0.after_consume hw (by decide) (by decide)
    rw [ParseValue_object (f + 1) h0, ParseObject]
    simp [ValidateDepth_zero, Expect_of_Reads h0, Current_of_Reads h2, Next_of_Reads h2,
      bind, Except.bind, pure, Except.pure]

theorem JsonObject.Insert_new : ∀ (obj : JsonObject) (key : List Char) (value : JsonValue),
    key ∉ obj.map Prod.fst → obj.Insert key value = obj ++ [(key, value)] := by
  intro obj
  induction obj with
  | nil => intro key value _; rfl
  | cons p obj ih =>
      intro key value h
      obtain ⟨k, v⟩ := p
      simp only [List.map_cons, List.mem_cons, not_or] at h
      unfold JsonObject.Insert
      rw [if_neg (fun hk => h.1 hk.symm), ih key value h.2]
      rfl

theorem FollowsValue_of_whitespace {w tail : List Char} {x : Char} (hw : IsWhitespace w)
    (hx : x = ',' ∨ x = '}') : FollowsValue (w ++ x :: tail) := by
  cases w with
  | nil => exact ⟨x, tail, rfl, Or.inr hx⟩
  | cons c w => exact ⟨c, w ++ x :: tail, rfl, Or.inl (hw c (by simp))⟩

theorem ParseObjectLoop_member (cfg : JsonParserConfig) (h : MemberHead) (txt : List Char)
    (v : JsonValue) (obj : JsonObject) {st : ParserState} {pre tail : List Char} {x : Char}
    (hh : h.WellFormed cfg.max_string_length) (hx : x = ',' ∨ x = '}')
    (hhead : ∃ c t, txt = c :: t ∧ isspace c = false ∧ c ≠ '/')
    (hv : ∀ st1 pre1, st1.Reads pre1 (txt ++ (h.afterValue ++ x :: tail)) →
      ReadsValue cfg st1 pre1 txt (h.afterValue ++ x :: tail) v)
    (hread : st.Reads pre (h.beforeKey ++ (stringText h.key ++ (h.afterKey ++ ':' ::
      (h.beforeValue ++ (txt ++ (h.afterValue ++ x :: tail))))))) :
    ∃ st8, st8.Reads (pre ++ (h.beforeKey ++ (stringText h.key ++ (h.afterKey ++ ':' ::
        (h.beforeValue ++ (txt ++ (h.afterValue ++ [x]))))))) tail ∧
      ∃ enough, ∀ fuel, enough ≤ fuel →
        (x = '}' → ParseObjectLoop cfg (fuel + 1) obj st =
          .ok (obj.Insert (stringDenote h.key) v, st8)) ∧
        (x = ',' → ParseObjectLoop cfg (fuel + 1) obj st =
          ParseObjectLoop cfg fuel (obj.Insert (stringDenote h.key) v) st8) := by
  obtain ⟨w1, w2, w3, w4, hk, hlen⟩ := hh
  obtain ⟨c0, t0, htxt, hc0, hc0'⟩ := hhead
  -- white space before the key
  have hread1 : st.Reads pre (h.beforeKey ++ '"' :: (itemsText h.key ++ '"' :: (h.afterKey ++
      ':' :: (h.beforeValue ++ (txt ++ (h.afterValue ++ x :: tail)))))) := by
    simpa [stringText] using hread
  have r1 := SkipSeparators_token cfg hread1 w1 (by decide) (by decide)
  -- the key
  have r1' : (SkipSeparators cfg st).Reads (pre ++ h.beforeKey) (stringText h.key ++
      (h.afterKey ++ ':' :: (h.beforeValue ++ (txt ++ (h.afterValue ++ x :: tail))))) := by
    simpa [stringText] using r1
  obtain ⟨st2, p2, r2⟩ := ParseString_stringText cfg r1' hk hlen
  -- white space, the colon, white space
  have r3 := SkipSeparators_token cfg r2 w2 (by decide) (by decide)
  have r4 := r3.after_consume
  have r4' : ((SkipSeparators cfg st2).consume ':').Reads
      (pre ++ h.beforeKey ++ stringText h.key ++ h.afterKey ++ [':'])
      (h.beforeValue ++ c0 :: (t0 ++ (h.afterValue ++ x :: tail))) := by
    rw [htxt] at r4
    simpa using r4
  have r5 := SkipSeparators_token cfg r4' w3 hc0 hc0'
  have r5' : (SkipSeparators cfg ((SkipSeparators cfg st2).consume ':')).Reads
      (pre ++ h.beforeKey ++ stringText h.key ++ h.afterKey ++ [':'] ++ h.beforeValue)
      (txt ++ (h.afterValue ++ x :: tail)) := by
    rw [htxt]
    simpa using r5
  -- the value
  obtain ⟨st6, r6, enough, hfuel⟩ := hv _ _ r5'
  have hxs : isspace x = false := by rcases hx with hx | hx <;> rw [hx] <;> decide
  have hxc : x ≠ '/' := by rcases hx with hx | hx <;> rw [hx] <;> decide
  have r7 := SkipSeparators_token cfg r6 w4 hxs hxc
  have r8 := r7.after_consume
  refine ⟨(SkipSeparators cfg st6).consume x, by simpa using r8, enough, fun fuel hf => ?_⟩
  have p6 := hfuel fuel hf
  refine ⟨?_, ?_⟩
  · intro hx1
    subst hx1
    rw [ParseObjectLoop]
    simp only [bind, Except.bind, p2, Expect_of_Reads r3, p6, Current_of_Reads r7,
      Next_of_Reads r7, if_true, pure, Except.pure]
  · intro hx1
    subst hx1
    rw [ParseObjectLoop]
    have hne : ',' ≠ '}' := by decide
    simp only [bind, Except.bind, p2, Expect_of_Reads r3, p6, Current_of_Reads r7,
      Next_of_Reads r7, if_true, hne, if_false, pure, Except.pure]

theorem Text.render_head (n : Nat) (t : Text) (hw : t.WellFormed n) :
    ∃ c tail, t.render = c :: tail ∧ isspace c = false ∧ c ≠ '/' := by
  cases t with
  | string items => exact ⟨'"', _, rfl, by decide, by decide⟩
  | boolean b =>
      cases b
      · exact ⟨'f', _, rfl, by decide, by decide⟩
      · exact ⟨'t', _, rfl, by decide, by decide⟩
  | null => exact ⟨'n', _, rfl, by decide, by decide⟩
  | integer negative digits =>
      cases negative with
      | true => exact ⟨'-', digits, by simp [Text.render], by decide, by decide⟩
      | false =>
          simp only [Text.WellFormed] at hw
          obtain ⟨hne, hds, _⟩ := hw
          cases digits with
          | nil => exact absurd rfl hne
          | cons d ds =>
              have hd : isdigit d = true := hds d (by simp)
              exact ⟨d, ds, by simp [Text.render], isdigit_not_space hd, isdigit_ne hd (by decide)⟩
  | emptyArray inner => exact ⟨'[', _, rfl, by decide, by decide⟩
  | emptyObject inner => exact ⟨'{', _, rfl, by decide, by decide⟩
  | object members => exact ⟨'{', _, rfl, by decide, by decide⟩

theorem ParseObjectLoop_skip (cfg : JsonParserConfig) (fuel : Nat) (obj : JsonObject)
    (st : ParserState) (h : SkipSeparators cfg (SkipSeparators cfg st) = SkipSeparators cfg st) :
    ParseObjectLoop cfg fuel obj (SkipSeparators cfg st) = ParseObjectLoop cfg fuel obj st := by
  cases fuel with
  | zero => simp [ParseObjectLoop]
  | succ f =>
      conv_lhs => rw [ParseObjectLoop]
      conv_rhs => rw [ParseObjectLoop]
      simp only [h]

theorem ReadsValue_object (cfg : JsonParserConfig) (h : MemberHead) (t : Text)
    (ms : List (MemberHead × Text)) (result : JsonObject) {st : ParserState}
    {pre rest : List Char} (hh : IsWhitespace h.beforeKey)
    (hread : st.Reads pre (('{' :: (Text.renderMembers ((h, t) :: ms) ++ ['}'])) ++ rest))
    (hloop : ∀ st1 pre1, st1.Reads pre1 (Text.renderMembers ((h, t) :: ms) ++ '}' :: rest) →
      ReadsMembers cfg [] st1 pre1 (Text.renderMembers ((h, t) :: ms) ++ ['}']) rest result) :
    ReadsValue cfg st pre ('{' :: (Text.renderMembers ((h, t) :: ms) ++ ['}'])) rest
      (.object result) := by
  have h0 : st.Reads pre ('{' :: (Text.renderMembers ((h, t) :: ms) ++ '}' :: rest)) := by
    simpa using hread
  have h1 := h0.after_consume
  obtain ⟨st1, r1, enough, hfuel⟩ := hloop _ _ h1
  refine ⟨st1, by simpa using r1, enough + 2, fun fuel hf => ?_⟩
  obtain ⟨f, rfl⟩ : ∃ f, fuel = f + 2 := ⟨fuel - 2, by omega⟩
  have p1 := hfuel f (by omega)
  have h2 : (st.consume '{').Reads (pre ++ ['{']) (h.beforeKey ++ '"' :: (itemsText h.key ++
      '"' :: (h.afterKey ++ ':' :: (h.beforeValue ++ (t.render ++ (h.afterValue ++
        (Text.renderRest ms ++ '}' :: rest))))))) := by
    simpa [Text.renderMembers, stringText] using h1
  have r2 := SkipSeparators_token cfg h2 hh (by decide) (by decide)
  have hidem : SkipSeparators cfg (SkipSeparators cfg (st.consume '{')) =
      SkipSeparators cfg (st.consume '{') :=
    SkipSeparators_eq_self cfg r2 (by intro c hc; simp at hc; subst hc; decide) (by simp)
  rw [ParseValue_object (f + 1) h0, ParseObject]
  have hne : '"' ≠ '}' := by decide
  simp only [ValidateDepth_zero, bind, Except.bind, Expect_of_Reads h0, Current_of_Reads r2,
    hne, if_false, ParseObjectLoop_skip cfg f [] _ hidem, p1]

mutual

/-- With enough fuel, `ParseValue` reads the text of a well-formed value and
returns the value it stands for. -/
theorem Text.readsValue (cfg : JsonParserConfig) :
    ∀ (t : Text), t.WellFormed cfg.max_string_length →
      ∀ (st : ParserState) (pre rest : List Char), (t.isInteger = true → EndsNumber rest) →
        st.Reads pre (t.render ++ rest) → ReadsValue cfg st pre t.render rest t.denote
  | .string items, hw, st, pre, rest, _, h => by
      simp only [Text.WellFormed] at hw
      exact ReadsValue_string cfg h hw.1 hw.2
  | .boolean b, _, st, pre, rest, _, h => ReadsValue_boolean cfg b h
  | .null, _, st, pre, rest, _, h => ReadsValue_null cfg h
  | .integer negative digits, hw, st, pre, rest, hr, h => by
      simp only [Text.WellFormed] at hw
      exact ReadsValue_integer cfg negative h hw.1 hw.2.1 hw.2.2 (hr rfl)
  | .emptyArray inner, hw, st, pre, rest, _, h => by
      simp only [Text.WellFormed] at hw
      exact ReadsValue_emptyArray cfg h hw
  | .emptyObject inner, hw, st, pre, rest, _, h => by
      simp only [Text.WellFormed] at hw
      exact ReadsValue_emptyObject cfg h hw
  | .object [], _, st, pre, rest, _, h => by
      have h0 : st.Reads pre (('{' :: ([] ++ ['}'])) ++ rest) := h
      exact ReadsValue_emptyObject cfg h0 (by intro c hc; cases hc)
  | .object ((h, t) :: ms), hw, st, pre, rest, _, hread => by
      simp only [Text.WellFormed] at hw
      obtain ⟨hms, hnd⟩ := hw
      have hh : IsWhitespace h.beforeKey := by
        simp only [Text.MembersWellFormed] at hms
        exact hms.1.1
      exact ReadsValue_object cfg h t ms (Text.denoteMembers ((h, t) :: ms)) hh hread
        (fun st1 pre1 h1 => by
          have := Text.readsMembers cfg ((h, t) :: ms) hms (List.cons_ne_nil _ _) [] st1 pre1 rest
            (by simpa using hnd) h1
          simpa using this)

/-- With enough fuel, `ParseObjectLoop` reads the members of a well-formed
object text up to the closing brace and adds the entries they stand for. -/
theorem Text.readsMembers (cfg : JsonParserConfig) :
    ∀ (ms : List (MemberHead × Text)), Text.MembersWellFormed cfg.max_string_length ms →
      ms ≠ [] → ∀ (obj : JsonObject) (st : ParserState) (pre rest : List Char),
        ((obj ++ Text.denoteMembers ms).map Prod.fst).Nodup →
        st.Reads pre (Text.renderMembers ms ++ '}' :: rest) →
        ReadsMembers cfg obj st pre (Text.renderMembers ms ++ ['}']) rest
          (obj ++ Text.denoteMembers ms)
  | [], _, hne, _, _, _, _, _, _ => absurd rfl hne
  | (h, t) :: ms, hw, _, obj, st, pre, rest, hnd, hread => by
      simp only [Text.MembersWellFormed] at hw
      obtain ⟨hh, ht, hms⟩ := hw
      have hkey : stringDenote h.key ∉ obj.map Prod.fst := by
        simp only [Text.denoteMembers, List.map_append, List.map_cons] at hnd
        have := (List.nodup_append.mp hnd).2.2
        intro hmem
        exact this hmem (List.mem_cons_self _ _)
      have hins := JsonObject.Insert_new obj (stringDenote h.key) t.denote hkey
      have hhead := Text.render_head cfg.max_string_length t ht
      cases ms with
      | nil =>
          have hread1 : st.Reads pre (h.beforeKey ++ (stringText h.key ++ (h.afterKey ++ ':' ::
              (h.beforeValue ++ (t.render ++ (h.afterValue ++ '}' :: rest)))))) := by
            simpa [Text.renderMembers, Text.renderRest] using hread
          obtain ⟨st8, r8, enough, hfuel⟩ := ParseObjectLoop_member cfg h t.render t.denote obj hh
            (Or.inr rfl) hhead
            (fun st1 pre1 h1 => Text.readsValue cfg t ht st1 pre1 _
              (fun _ => (FollowsValue_of_whitespace hh.2.2.2.1 (Or.inr rfl)).endsNumber) h1)
            hread1
          refine ⟨st8, by simpa [Text.renderMembers, Text.renderRest] using r8, enough + 1,
            fun fuel hf => ?_⟩
          obtain ⟨f, rfl⟩ : ∃ f, fuel = f + 1 := ⟨fuel - 1, by omega⟩
          rw [(hfuel f (by omega)).1 rfl, hins]
          rfl
      | cons m ms =>
          have hread1 : st.Reads pre (h.beforeKey ++ (stringText h.key ++ (h.afterKey ++ ':' ::
              (h.beforeValue ++ (t.render ++ (h.afterValue ++ ',' ::
                (Text.renderMembers (m :: ms) ++ '}' :: rest))))))) := by
            obtain ⟨h', t'⟩ := m
            simpa [Text.renderMembers, Text.renderRest] using hread
          obtain ⟨st8, r8, enough, hfuel⟩ := ParseObjectLoop_member cfg h t.render t.denote obj hh
            (Or.inl rfl) hhead
            (fun st1 pre1 h1 => Text.readsValue cfg t ht st1 pre1 _
              (fun _ => (FollowsValue_of_whitespace hh.2.2.2.1 (Or.inl rfl)).endsNumber) h1)
            hread1
          have hnd1 : (((obj ++ [(stringDenote h.key, t.denote)]) ++
              Text.denoteMembers (m :: ms)).map Prod.fst).Nodup := by
            simpa [Text.denoteMembers] using hnd
          obtain ⟨st9, r9, enough1, hfuel1⟩ := Text.readsMembers cfg (m :: ms) hms
            (List.cons_ne_nil _ _) (obj ++ [(stringDenote h.key, t.denote)]) st8 _ rest hnd1 r8
          refine ⟨st9, ?_, max enough enough1 + 1, fun fuel hf => ?_⟩
          · obtain ⟨h', t'⟩ := m
            simpa [Text.renderMembers, Text.renderRest] using r9
          · obtain ⟨f, rfl⟩ : ∃ f, fuel = f + 1 := ⟨fuel - 1, by omega⟩
            rw [(hfuel f (by omega)).2 rfl, hins, hfuel1 f (by omega)]
            simp [Text.denoteMembers]

end

/-- The static `Parse` returns the value that a well-formed text stands for,
when the text is not a bare integer. -/
theorem Parse_render (cfg : JsonParserConfig) (t : Text)
    (hw : t.WellFormed cfg.max_string_length) (hni : t.isInteger = false) :
    Parse t.render cfg = .ok t.denote := by
  have h0 : (ParserState.Initialize t.render).Reads [] (t.render ++ []) := by
    simpa using ParserState.Reads.Initialize t.render
  obtain ⟨st1, r1, enough, hfuel⟩ := Text.readsValue cfg t hw _ [] []
    (by intro h; rw [hni] at h; cases h) h0
  have h1 := hfuel (max (3 * t.render.length + 3) enough) (le_max_right _ _)
  have h2 := ParseValue_mono_le cfg (le_max_left (3 * t.render.length + 3) enough) _
    (ParseValue_fuel_enough cfg t.render)
  rw [h1] at h2
  exact Parse_of_ParseValue h2.symm r1 (by intro c hc; cases hc)

theorem Text.denoteMembers_length : ∀ (ms : List (MemberHead × Text)),
    (Text.denoteMembers ms).length = ms.length := by
  intro ms
  induction ms with
  | nil => rfl
  | cons m ms ih =>
      obtain ⟨h, t⟩ := m
      simp [Text.denoteMembers, ih]

theorem Text.denoteMembers_keys : ∀ (ms : List (MemberHead × Text)) (m : MemberHead × Text),
    m ∈ ms → stringDenote m.1.key ∈ (Text.denoteMembers ms).map Prod.fst := by
  intro ms
  induction ms with
  | nil => intro m hm; cases hm
  | cons p ms ih =>
      intro m hm
      obtain ⟨h, t⟩ := p
      simp only [Text.denoteMembers, List.map_cons, List.mem_cons]
      rcases List.mem_cons.mp hm with hm | hm
      · left; rw [hm]
      · right; exact ih m hm

theorem Text.denoteMembers_find : ∀ (ms : List (MemberHead × Text)),
    ((Text.denoteMembers ms).map Prod.fst).Nodup → ∀ m ∈ ms,
      JsonObject.find (Text.denoteMembers ms) (stringDenote m.1.key) = some m.2.denote := by
  intro ms
  induction ms with
  | nil => intro _ m hm; cases hm
  | cons p ms ih =>
      intro hnd m hm
      obtain ⟨h, t⟩ := p
      simp only [Text.denoteMembers, List.map_cons, List.nodup_cons] at hnd
      simp only [Text.denoteMembers, JsonObject.find]
      rcases List.mem_cons.mp hm with hm | hm
      · rw [hm, if_pos rfl]
      · have hne : stringDenote h.key ≠ stringDenote m.1.key := by
          intro heq
          exact hnd.1 (heq ▸ Text.denoteMembers_keys ms m hm)
        rw [if_neg hne]
        exact ih hnd.2 m hm

/-- C3 (the claim as stated fails): in `{"k":"\u0041"}` the member text
`"\u0041"` stands for the string `A`, but `Parse` drops the escape and returns
an object in which `At("k")` is the empty string. -/
theorem C3_unicode_escape_counterexample :
    Parse "\x7b\"k\":\"\\u0041\"\x7d".toList JsonParserConfig.Strict =
        .ok (.object [(['k'], .string [])]) ∧
      JsonObject.At [(['k'], JsonValue.string [])] ['k'] ≠ some (.string ['A']) := by
  decide!

/-- C3 (amended): for every list of members with pairwise distinct keys, each
value being the text of a string without `\u` escapes and of at most
`max_string_length` characters, a boolean, `null`, an integer of magnitude at
most `2 ^ 53`, an empty array, or an object of the same shape, written with
any white space between the tokens, `Parse` returns an Object whose Size is
the number of members and in which `At` of each key is the value that the
member text stands for. -/
theorem C3_object_members (cfg : JsonParserConfig) (members : List (MemberHead × Text))
    (hw : (Text.object members).WellFormed cfg.max_string_length) :
    ∃ obj : JsonObject, Parse (Text.object members).render cfg = .ok (.object obj) ∧
      obj.Size = members.length ∧
      ∀ m ∈ members, obj.At (stringDenote m.1.key) = some m.2.denote := by
  refine ⟨Text.denoteMembers members, Parse_render cfg _ hw rfl, ?_, ?_⟩
  · exact Text.denoteMembers_length members
  · have hw' := hw
    cases members with
    | nil => intro m hm; cases hm
    | cons p ms =>
        simp only [Text.WellFormed] at hw'
        exact Text.denoteMembers_find _ hw'.2

theorem MemberHead.compact_WellFormed (n : Nat) (key : List Char)
    (hk : ∀ c ∈ key, c ≠ '"' ∧ c ≠ '\\' ∧ c ≠ '\n' ∧ c ≠ '\r') (hlen : key.length ≤ n) :
    (MemberHead.compact (plainItems key)).WellFormed n := by
  refine ⟨?_, ?_, ?_, ?_, ?_, ?_⟩
  · intro c hc; cases hc
  · intro c hc; cases hc
  · intro c hc; cases hc
  · intro c hc; cases hc
  · intro i hi
    simp only [MemberHead.compact, plainItems, List.mem_map] at hi
    obtain ⟨c, hc, rfl⟩ := hi
    exact hk c hc
  · simpa [MemberHead.compact, plainItems] using hlen

theorem Text.plain_WellFormed (n : Nat) (s : List Char)
    (hs : ∀ c ∈ s, c ≠ '"' ∧ c ≠ '\\' ∧ c ≠ '\n' ∧ c ≠ '\r') (hlen : s.length ≤ n) :
    (Text.string (plainItems s)).WellFormed n := by
  simp only [Text.WellFormed]
  refine ⟨?_, by simpa [plainItems] using hlen⟩
  intro i hi
  simp only [plainItems, List.mem_map] at hi
  obtain ⟨c, hc, rfl⟩ := hi
  exact hs c hc

/-- C3 (amended) at the text `{"user":{"name":"Alice","id":123}}` under the
default configuration: `user.name` is the String `Alice` and `user.id` is the
Number 123. -/
theorem C3_object_members_witness :
    ∃ obj user : JsonObject,
      Parse "\x7b\"user\":\x7b\"name\":\"Alice\",\"id\":123\x7d\x7d".toList JsonParserConfig.Strict =
          .ok (.object obj) ∧
        obj.Size = 1 ∧ obj.At "user".toList = some (.object user) ∧
        user.At "name".toList = some (.string "Alice".toList) ∧
        user.At "id".toList = some (.number (Double.ofInt 123)) := by
  have hwf : (Text.object Text.userMembers).WellFormed JsonParserConfig.Strict.max_string_length := by
    simp only [Text.userMembers, Text.WellFormed, Text.MembersWellFormed]
    refine ⟨⟨MemberHead.compact_WellFormed _ _ (by decide) (by decide),
      ⟨⟨MemberHead.compact_WellFormed _ _ (by decide) (by decide),
        Text.plain_WellFormed _ _ (by decide) (by decide),
        MemberHead.compact_WellFormed _ _ (by decide) (by decide),
        ⟨by decide, by decide, by decide⟩, trivial⟩, by decide⟩, trivial⟩, by decide⟩
  obtain ⟨obj, hp, hs, hat⟩ := C3_object_members JsonParserConfig.Strict Text.userMembers hwf
  refine ⟨obj, [("name".toList, .string "Alice".toList), ("id".toList, .number (Double.ofInt 123))],
    hp, hs, ?_, by decide, by decide⟩
  exact hat (MemberHead.compact (plainItems ['u', 's', 'e', 'r']), _) (List.mem_cons_self _ _)

/-! ### C1: what the writer prints -/

theorem digitChar_spec {d : Nat} (hd : d < 10) :
    isdigit (digitChar d) = true ∧ (digitChar d).toNat - 48 = d := by
  interval_cases d <;> exact ⟨by decide, by decide⟩

theorem digitsFrom_append : ∀ (a b : List Char) (x : Nat),
    digitsFrom x (a ++ b) = digitsFrom (digitsFrom x a) b := by
  intro a
  induction a with
  | nil => intro b x; rfl
  | cons c a ih =>
      intro b x
      show digitsFrom (10 * x + (c.toNat - 48)) (a ++ b) = _
      rw [ih]
      rfl

theorem decimalLoop_spec : ∀ (fuel n : Nat) (acc : List Char), n < fuel →
    ∃ ds, decimalLoop fuel n acc = ds ++ acc ∧ ds ≠ [] ∧ (∀ c ∈ ds, isdigit c = true) ∧
      ∀ x, digitsFrom x ds = x * 10 ^ ds.length + n := by
  intro fuel
  induction fuel with
  | zero => intro n acc h; omega
  | succ f ih =>
      intro n acc h
      unfold decimalLoop
      by_cases hn : n < 10
      · rw [if_pos hn]
        obtain ⟨h1, h2⟩ := digitChar_spec hn
        refine ⟨[digitChar n], rfl, by simp, ?_, ?_⟩
        · intro c hc
          simp at hc
          rw [hc]
          exact h1
        · intro x
          show 10 * x + ((digitChar n).toNat - 48) = _
          rw [h2]
          simp
          ring
      · rw [if_neg hn]
        obtain ⟨ds, e1, _, e3, e4⟩ := ih (n / 10) (digitChar (n % 10) :: acc) (by omega)
        obtain ⟨h1, h2⟩ := digitChar_spec (Nat.mod_lt n (by norm_num : 10 > 0))
        refine ⟨ds ++ [digitChar (n % 10)], ?_, by simp, ?_, ?_⟩
        · rw [e1]
          simp
        · intro c hc
          rcases List.mem_append.mp hc with hc | hc
          · exact e3 c hc
          · simp at hc
            rw [hc]
            exact h1
        · intro x
          rw [digitsFrom_append, e4]
          show 10 * (x * 10 ^ ds.length + n / 10) + ((digitChar (n % 10)).toNat - 48) = _
          rw [h2, List.length_append, List.length_singleton, pow_succ]
          have := Nat.div_add_mod n 10
          nlinarith [Nat.div_add_mod n 10]

theorem decimal_spec (n : Nat) :
    decimal n ≠ [] ∧ (∀ c ∈ decimal n, isdigit c = true) ∧ digitsValue (decimal n) = n := by
  obtain ⟨ds, e1, e2, e3, e4⟩ := decimalLoop_spec (n + 1) n [] (by omega)
  have hd : decimal n = ds := by
    unfold decimal
    rw [e1]
    simp
  rw [hd]
  refine ⟨e2, e3, ?_⟩
  unfold digitsValue
  rw [e4]
  simp

theorem Double.exactInt_fin_nonneg (z : Int) :
    ∃ m e, Double.exactInt z = Double.fin m e ∧ 0 ≤ e ∧ m * 2 ^ e.toNat = z := by
  unfold Double.exactInt Double.normalize
  by_cases hz : z = 0
  · exact ⟨0, 0, by rw [if_pos hz], le_refl _, by rw [hz]; rfl⟩
  · rw [if_neg hz]
    obtain ⟨h1, h2⟩ := Double.stripTwos_value 64 z 0 (le_refl _)
    exact ⟨_, _, rfl, h1, by rw [h2]; simp⟩

theorem WriteNumber_ofInt {z : Int} (hz : z.natAbs ≤ 2 ^ 53) :
    WriteNumber (Double.ofInt z) = (if z < 0 then ['-'] else []) ++ decimal z.natAbs := by
  rw [Double.ofInt_eq_exactInt hz]
  obtain ⟨m, e, h1, h2, h3⟩ := Double.exactInt_fin_nonneg z
  rw [h1]
  unfold WriteNumber
  simp only [h3]
  have hr : 0 ≤ e ∧ -9223372036854775808 ≤ z ∧ z < 9223372036854775808 := by
    refine ⟨h2, ?_, ?_⟩ <;> omega
  rw [if_pos hr]
  unfold decimalInt
  split <;> rfl

theorem escapeItem_spec (c : Char) :
    (escapeItem c).text = escapeChar JsonWriterConfig.CompactSorted c ∧
      (escapeItem c).denote = c ∧ (escapeItem c).WellFormed := by
  unfold escapeItem escapeChar
  by_cases h1 : c = '"'
  · subst h1; exact ⟨rfl, rfl, trivial⟩
  by_cases h2 : c = '\\'
  · subst h2; exact ⟨rfl, rfl, trivial⟩
  by_cases h3 : c = '\x08'
  · subst h3; exact ⟨rfl, rfl, trivial⟩
  by_cases h4 : c = '\x0c'
  · subst h4; exact ⟨rfl, rfl, trivial⟩
  by_cases h5 : c = '\n'
  · subst h5; exact ⟨rfl, rfl, trivial⟩
  by_cases h6 : c = '\r'
  · subst h6; exact ⟨rfl, rfl, trivial⟩
  by_cases h7 : c = '\t'
  · subst h7; exact ⟨rfl, rfl, trivial⟩
  simp only [h1, h2, h3, h4, h5, h6, h7, if_false]
  refine ⟨?_, rfl, h1, h2, h5, h6⟩
  simp [JsonWriterConfig.CompactSorted, JsonWriterConfig.Compact, StrItem.text]

theorem WriteString_eq_stringText (s : List Char) :
    WriteString JsonWriterConfig.CompactSorted s = stringText (s.map escapeItem) ∧
      stringDenote (s.map escapeItem) = s ∧ (∀ i ∈ s.map escapeItem, i.WellFormed) ∧
      (s.map escapeItem).length = s.length := by
  refine ⟨?_, ?_, ?_, by simp⟩
  · have hE : EscapeString JsonWriterConfig.CompactSorted s = itemsText (s.map escapeItem) := by
      induction s with
      | nil => rfl
      | cons c s ih =>
          simp only [EscapeString, List.map_cons, itemsText, ih, (escapeItem_spec c).1]
    unfold WriteString stringText
    rw [hE]
    simp
  · unfold stringDenote
    induction s with
    | nil => rfl
    | cons c s ih =>
        simp only [List.map_cons, (escapeItem_spec c).2.1]
        simp only [List.map_map] at ih ⊢
        rw [ih]
  · intro i hi
    obtain ⟨c, _, rfl⟩ := List.mem_map.mp hi
    exact (escapeItem_spec c).2.2

theorem number_eq_self {z : Int} (hz : z.natAbs ≤ 2 ^ 53) :
    Double.lt (Double.abs (Double.sub (Double.ofInt z) (Double.ofInt z))) JsonValue.epsilon =
      true := by
  rw [Double.ofInt_eq_exactInt hz]
  unfold Double.sub
  rw [Double.neg_exactInt, Double.add_exactInt (by simp)]
  have h0 : z + -z = 0 := by omega
  rw [h0]
  decide!

theorem Written_string (n : Nat) (s : List Char) (indent depth : Int) (hs : s.length ≤ n)
    (hd : depth ≤ 1000) : Written n (.string s) indent depth (.string (s.map escapeItem)) := by
  obtain ⟨h1, h2, h3, h4⟩ := WriteString_eq_stringText s
  refine ⟨?_, ?_, (by intro h; cases h), ?_, ?_⟩
  · have hd1 : ¬ depth > JsonWriterConfig.CompactSorted.max_depth := by
      show ¬ depth > 1000
      omega
    simp only [WriteValue, hd1, if_false, h1, Text.render]
  · simp only [Text.WellFormed]
    exact ⟨h3, by omega⟩
  · simp [Text.denote, h2, JsonValue.eq]
  · simp [Text.denote, h2, JsonValue.eqFlip]

theorem Written_boolean (n : Nat) (b : Bool) (indent depth : Int) (hd : depth ≤ 1000) :
    Written n (.boolean b) indent depth (.boolean b) := by
  refine ⟨?_, ?_, (by intro h; cases h), ?_, ?_⟩
  · have hd1 : ¬ depth > JsonWriterConfig.CompactSorted.max_depth := by
      show ¬ depth > 1000
      omega
    simp only [WriteValue, hd1, if_false, Text.render]
    cases b <;> rfl
  · simp only [Text.WellFormed]
  · simp [Text.denote, JsonValue.eq]
  · simp [Text.denote, JsonValue.eqFlip]

theorem Written_null (n : Nat) (indent depth : Int) (hd : depth ≤ 1000) :
    Written n .null indent depth .null := by
  refine ⟨?_, ?_, (by intro h; cases h), ?_, ?_⟩
  · have hd1 : ¬ depth > JsonWriterConfig.CompactSorted.max_depth := by
      show ¬ depth > 1000
      omega
    simp only [WriteValue, hd1, if_false, Text.render]
    rfl
  · simp only [Text.WellFormed]
  · simp [Text.denote, JsonValue.eq]
  · simp [Text.denote, JsonValue.eqFlip]

theorem Written_number (n : Nat) (z : Int) (indent depth : Int) (hz : z.natAbs ≤ 2 ^ 53)
    (hd : depth ≤ 1000) :
    Written n (.number (Double.ofInt z)) indent depth
      (.integer (decide (z < 0)) (decimal z.natAbs)) := by
  obtain ⟨d1, d2, d3⟩ := decimal_spec z.natAbs
  have hval : (if decide (z < 0) = true then -((digitsValue (decimal z.natAbs) : Nat) : Int)
      else ((digitsValue (decimal z.natAbs) : Nat) : Int)) = z := by
    rw [d3]
    by_cases hneg : z < 0
    · simp only [hneg, decide_True, if_true]
      omega
    · simp only [hneg, decide_False, Bool.false_eq_true, if_false]
      omega
  refine ⟨?_, ?_, fun _ => rfl, ?_, ?_⟩
  · have hd1 : ¬ depth > JsonWriterConfig.CompactSorted.max_depth := by
      show ¬ depth > 1000
      omega
    simp only [WriteValue, hd1, if_false, Text.render, WriteNumber_ofInt hz]
    by_cases hneg : z < 0 <;> simp [hneg]
  · simp only [Text.WellFormed]
    exact ⟨d1, d2, by rw [d3]; exact hz⟩
  · simp only [Text.denote, hval, JsonValue.eq]
    exact number_eq_self hz
  · simp only [Text.denote, hval, JsonValue.eqFlip]
    exact number_eq_self hz

theorem Written_emptyArray (n : Nat) (indent depth : Int) (hd : depth ≤ 1000) :
    Written n (.array []) indent depth (.emptyArray []) := by
  refine ⟨?_, ?_, (by intro h; cases h), ?_, ?_⟩
  · have hd1 : ¬ depth > JsonWriterConfig.CompactSorted.max_depth := by
      show ¬ depth > 1000
      omega
    simp only [WriteValue, hd1, if_false, Text.render, WriteElements]
    rfl
  · simp only [Text.WellFormed]
    intro c hc
    cases hc
  · simp [Text.denote, JsonValue.eq, JsonValue.arrayLoop]
  · simp [Text.denote, JsonValue.eqFlip, JsonValue.arrayLoopFlip]

theorem Written_emptyObject (n : Nat) (indent depth : Int) (hd : depth ≤ 1000) :
    Written n (.object []) indent depth (.emptyObject []) := by
  refine ⟨?_, ?_, (by intro h; cases h), ?_, ?_⟩
  · have hd1 : ¬ depth > JsonWriterConfig.CompactSorted.max_depth := by
      show ¬ depth > 1000
      omega
    simp only [WriteValue, hd1, if_false, Text.render, WriteValues]
    rfl
  · simp only [Text.WellFormed]
    intro c hc
    cases hc
  · simp [Text.denote, JsonValue.eq, JsonValue.objectLoop]
  · simp [Text.denote, JsonValue.eqFlip]

theorem JsonObject.find_of_mem_keys : ∀ (ms : JsonObject) (k : List Char),
    k ∈ ms.map Prod.fst → ∃ v, JsonObject.find ms k = some v := by
  intro ms
  induction ms with
  | nil => intro k hk; cases hk
  | cons m ms ih =>
      intro k hk
      obtain ⟨k0, v0⟩ := m
      unfold JsonObject.find
      by_cases h : k0 = k
      · exact ⟨v0, by rw [if_pos h]⟩
      · rw [if_neg h]
        simp only [List.map_cons, List.mem_cons] at hk
        rcases hk with hk | hk
        · exact absurd hk.symm h
        · exact ih k hk

theorem JsonObject.find_of_mem : ∀ (ms : JsonObject), (ms.map Prod.fst).Nodup →
    ∀ k v, (k, v) ∈ ms → JsonObject.find ms k = some v := by
  intro ms
  induction ms with
  | nil => intro _ k v h; cases h
  | cons m ms ih =>
      intro hnd k v h
      obtain ⟨k0, v0⟩ := m
      simp only [List.map_cons, List.nodup_cons] at hnd
      unfold JsonObject.find
      rcases List.mem_cons.mp h with h | h
      · cases h
        rw [if_pos rfl]
      · have hne : k0 ≠ k := by
          intro heq
          apply hnd.1
          rw [heq]
          exact List.mem_map.mpr ⟨(k, v), h, rfl⟩
        rw [if_neg hne]
        exact ih hnd.2 k v h

theorem find_lookup {W : JsonValue → Text → Prop} : ∀ (ms : JsonObject) (ts : List Text),
    List.Forall₂ (fun m t => W m.2 t) ms ts → ∀ k v, JsonObject.find ms k = some v →
      ∃ t, (ms.GetKeys.zip ts).lookup k = some t ∧ W v t := by
  intro ms
  induction ms with
  | nil => intro ts _ k v hf; cases hf
  | cons m ms ih =>
      intro ts h k v hf
      cases ts with
      | nil => cases h
      | cons t ts =>
          obtain ⟨hw, hrest⟩ := List.forall₂_cons.mp h
          obtain ⟨k0, v0⟩ := m
          unfold JsonObject.find at hf
          simp only [JsonObject.GetKeys, List.map_cons, List.zip_cons_cons, List.lookup_cons]
          by_cases hk : k0 = k
          · rw [if_pos hk] at hf
            cases hf
            subst hk
            exact ⟨t, by simp, hw⟩
          · rw [if_neg hk] at hf
            have hb : (k == k0) = false := by
              rw [beq_eq_false_iff_ne]
              exact fun heq => hk heq.symm
            rw [hb]
            exact ih ts hrest k v hf

theorem lookup_zip_map {β γ : Type} (f : β → γ) : ∀ (keys : List (List Char)) (ts : List β)
    (k : List Char), (keys.zip (ts.map f)).lookup k = ((keys.zip ts).lookup k).map f := by
  intro keys
  induction keys with
  | nil => intro ts k; simp
  | cons k0 keys ih =>
      intro ts k
      cases ts with
      | nil => simp
      | cons t ts =>
          simp only [List.map_cons, List.zip_cons_cons, List.lookup_cons]
          cases k == k0
          · exact ih ts k
          · rfl

theorem Text.renderMembers_compact (k : List Char) (t : Text) (rest : List (MemberHead × Text)) :
    Text.renderMembers ((MemberHead.compact (k.map escapeItem), t) :: rest) =
      WriteString JsonWriterConfig.CompactSorted k ++ [':'] ++ t.render ++ Text.renderRest rest := by
  rw [(WriteString_eq_stringText k).1]
  simp [Text.renderMembers, MemberHead.compact]

theorem Text.renderRest_compact (k : List Char) (t : Text) (rest : List (MemberHead × Text)) :
    Text.renderRest ((MemberHead.compact (k.map escapeItem), t) :: rest) =
      ',' :: (WriteString JsonWriterConfig.CompactSorted k ++ [':'] ++ t.render ++
        Text.renderRest rest) := by
  rw [(WriteString_eq_stringText k).1]
  simp [Text.renderRest, MemberHead.compact]

theorem Text.denoteMembers_membersOf (texts : List (List Char × Text)) :
    ∀ keys : List (List Char), Text.denoteMembers (membersOf texts keys) =
      keys.map (fun k => (k, (lookupText texts k).denote)) := by
  intro keys
  induction keys with
  | nil => rfl
  | cons k keys ih =>
      have hm : membersOf texts (k :: keys) =
          (MemberHead.compact (k.map escapeItem), lookupText texts k) :: membersOf texts keys := rfl
      rw [hm]
      simp only [Text.denoteMembers, List.map_cons, ih]
      rw [show (MemberHead.compact (k.map escapeItem)).key = k.map escapeItem from rfl,
        (WriteString_eq_stringText k).2.1]

theorem Text.MembersWellFormed_membersOf (n : Nat) (texts : List (List Char × Text)) :
    ∀ keys : List (List Char),
      (∀ k ∈ keys, k.length ≤ n ∧ (lookupText texts k).WellFormed n) →
      Text.MembersWellFormed n (membersOf texts keys) := by
  intro keys
  induction keys with
  | nil => intro _; simp [membersOf, Text.MembersWellFormed]
  | cons k keys ih =>
      intro h
      have hm : membersOf texts (k :: keys) =
          (MemberHead.compact (k.map escapeItem), lookupText texts k) :: membersOf texts keys := rfl
      rw [hm]
      simp only [Text.MembersWellFormed]
      obtain ⟨h1, h2⟩ := h k (by simp)
      obtain ⟨_, _, w3, w4⟩ := WriteString_eq_stringText k
      refine ⟨⟨?_, ?_, ?_, ?_, w3, by rw [show (MemberHead.compact (k.map escapeItem)).key =
        k.map escapeItem from rfl, w4]; exact h1⟩, h2, ih (fun k1 hk1 => h k1 (by simp [hk1]))⟩ <;>
        (intro c hc; cases hc)

theorem JsonValue.objectLoop_true : ∀ (entries other : JsonObject),
    (∀ p ∈ entries, ∃ w, JsonObject.find other p.1 = some w ∧ JsonValue.eqFlip p.2 w = true) →
    JsonValue.objectLoop entries other = true := by
  intro entries
  induction entries with
  | nil => intro other _; simp [JsonValue.objectLoop]
  | cons p entries ih =>
      intro other h
      obtain ⟨k, v⟩ := p
      obtain ⟨w, hw1, hw2⟩ := h (k, v) (by simp)
      simp only [JsonValue.objectLoop, hw1, hw2, Bool.true_and]
      exact ih other (fun q hq => h q (by simp [hq]))

theorem JsonValue.findEq_map (f : List Char → JsonValue) : ∀ (keys : List (List Char))
    (k : List Char) (v : JsonValue), k ∈ keys →
    JsonValue.findEq (keys.map (fun k => (k, f k))) k v = JsonValue.eq (f k) v := by
  intro keys
  induction keys with
  | nil => intro k v h; cases h
  | cons k0 keys ih =>
      intro k v h
      simp only [List.map_cons, JsonValue.findEq]
      by_cases hk : k0 = k
      · rw [if_pos hk, hk]
      · rw [if_neg hk]
        rcases List.mem_cons.mp h with h | h
        · exact absurd h.symm hk
        · exact ih k v h

theorem JsonValue.PlainMembers_keys (n : Nat) : ∀ (ms : JsonObject),
    JsonValue.PlainMembers n ms → ∀ m ∈ ms, m.1.length ≤ n := by
  intro ms
  induction ms with
  | nil => intro _ m hm; cases hm
  | cons p ms ih =>
      intro h m hm
      obtain ⟨k, v⟩ := p
      simp only [JsonValue.PlainMembers] at h
      rcases List.mem_cons.mp hm with hm | hm
      · rw [hm]; exact h.1
      · exact ih h.2.2 m hm

theorem JsonValue.findEq_find : ∀ (a : JsonObject) (k : List Char) (v : JsonValue),
    JsonValue.findEq a k v =
      (match JsonObject.find a k with
        | none => false
        | some w => JsonValue.eq w v) := by
  intro a
  induction a with
  | nil => intro k v; simp [JsonValue.findEq, JsonObject.find]
  | cons p a ih =>
      intro k v
      obtain ⟨k0, w0⟩ := p
      simp only [JsonValue.findEq, JsonObject.find]
      by_cases h : k0 = k
      · simp only [if_pos h]
      · simp only [if_neg h]
        exact ih k v

theorem JsonValue.all_findEq_left (a : JsonObject)
    (ha : ∀ p ∈ a, ∀ x, JsonValue.eqFlip x p.2 = JsonValue.eq p.2 x) :
    ∀ b : JsonObject, b.all (fun p => JsonValue.findEq a p.1 p.2) = JsonValue.objectLoop b a := by
  intro b
  induction b with
  | nil => simp [JsonValue.objectLoop]
  | cons p b ih =>
      obtain ⟨k, v⟩ := p
      simp only [List.all_cons, JsonValue.objectLoop, ih, JsonValue.findEq_find a k v]
      congr 1
      cases hf : JsonObject.find a k with
      | none => rfl
      | some w =>
          have hmem : ∃ k1, (k1, w) ∈ a := by
            clear ih ha
            induction a with
            | nil => simp [JsonObject.find] at hf
            | cons q a iha =>
                obtain ⟨k0, w0⟩ := q
                simp only [JsonObject.find] at hf
                by_cases h : k0 = k
                · rw [if_pos h] at hf
                  cases hf
                  exact ⟨k0, List.mem_cons_self _ _⟩
                · rw [if_neg h] at hf
                  obtain ⟨k1, h1⟩ := iha hf
                  exact ⟨k1, List.mem_cons_of_mem _ h1⟩
          obtain ⟨k1, h1⟩ := hmem
          exact (ha (k1, w) h1 v).symm

theorem JsonValue.all_findEq_right (a : JsonObject)
    (ha : ∀ p ∈ a, ∀ x, JsonValue.eqFlip p.2 x = JsonValue.eq x p.2) :
    ∀ b : JsonObject, a.all (fun p => JsonValue.findEq b p.1 p.2) = JsonValue.objectLoop a b := by
  intro b
  induction a with
  | nil => simp [JsonValue.objectLoop]
  | cons p a ih =>
      obtain ⟨k, v⟩ := p
      simp only [List.all_cons, JsonValue.objectLoop,
        ih (fun q hq => ha q (List.mem_cons_of_mem _ hq)), JsonValue.findEq_find b k v]
      congr 1
      cases JsonObject.find b k with
      | none => rfl
      | some w => exact (ha (k, v) (List.mem_cons_self _ _) w).symm

mutual

/-- The helper `eqFlip` is the operator with its operands exchanged, with the
value `v` on either side. -/
theorem JsonValue.eqFlip_both : ∀ (v : JsonValue),
    (∀ w, JsonValue.eqFlip v w = JsonValue.eq w v) ∧
      (∀ w, JsonValue.eqFlip w v = JsonValue.eq v w)
  | .object a => by
      have ha := JsonValue.eqFlip_members a
      refine ⟨fun w => ?_, fun w => ?_⟩
      · cases w <;> simp only [JsonValue.eqFlip, JsonValue.eq]
        rw [JsonValue.all_findEq_left a (fun p hp => (ha p hp).2)]
      · cases w <;> simp only [JsonValue.eqFlip, JsonValue.eq]
        rw [JsonValue.all_findEq_right a (fun p hp => (ha p hp).1)]
  | .array a => by
      have ha := JsonValue.eqFlip_elements a
      refine ⟨fun w => ?_, fun w => ?_⟩
      · cases w <;> simp only [JsonValue.eqFlip, JsonValue.eq]
        rw [ha.1]
      · cases w <;> simp only [JsonValue.eqFlip, JsonValue.eq]
        rw [ha.2]
  | .string _ => by
      refine ⟨fun w => ?_, fun w => ?_⟩ <;> cases w <;> simp only [JsonValue.eqFlip, JsonValue.eq]
  | .number _ => by
      refine ⟨fun w => ?_, fun w => ?_⟩ <;> cases w <;> simp only [JsonValue.eqFlip, JsonValue.eq]
  | .boolean _ => by
      refine ⟨fun w => ?_, fun w => ?_⟩ <;> cases w <;> simp only [JsonValue.eqFlip, JsonValue.eq]
  | .null => by
      refine ⟨fun w => ?_, fun w => ?_⟩ <;> cases w <;> simp only [JsonValue.eqFlip, JsonValue.eq]

/-- The statement of `eqFlip_both` for the value of every entry of an object. -/
theorem JsonValue.eqFlip_members : ∀ (a : JsonObject) (p : List Char × JsonValue), p ∈ a →
    (∀ x, JsonValue.eqFlip p.2 x = JsonValue.eq x p.2) ∧
      (∀ x, JsonValue.eqFlip x p.2 = JsonValue.eq p.2 x)
  | [] => fun _ hp => by cases hp
  | (_, w) :: rest => fun p hp => by
      rcases List.mem_cons.mp hp with h | h
      · rw [h]
        exact JsonValue.eqFlip_both w
      · exact JsonValue.eqFlip_members rest p h

/-- The loops of `eqFlip` and of the operator over the elements agree. -/
theorem JsonValue.eqFlip_elements : ∀ (a : JsonArray),
    (∀ b, JsonValue.arrayLoopFlip a b = JsonValue.arrayLoop b a) ∧
      (∀ b, JsonValue.arrayLoopFlip b a = JsonValue.arrayLoop a b)
  | [] => by
      refine ⟨fun b => ?_, fun b => ?_⟩ <;> cases b <;>
        simp [JsonValue.arrayLoopFlip, JsonValue.arrayLoop]
  | v :: rest => by
      have hv := JsonValue.eqFlip_both v
      have hr := JsonValue.eqFlip_elements rest
      refine ⟨fun b => ?_, fun b => ?_⟩
      · cases b with
        | nil => simp [JsonValue.arrayLoopFlip, JsonValue.arrayLoop]
        | cons w b => simp only [JsonValue.arrayLoopFlip, JsonValue.arrayLoop, hv.1, hr.1]
      · cases b with
        | nil => simp [JsonValue.arrayLoopFlip, JsonValue.arrayLoop]
        | cons w b => simp only [JsonValue.arrayLoopFlip, JsonValue.arrayLoop, hv.2, hr.2]

end

theorem JsonValue.eqFlip_eq (v w : JsonValue) : JsonValue.eqFlip v w = JsonValue.eq w v :=
  (JsonValue.eqFlip_both v).1 w

theorem ParseStringLoop_escaped (cfg : JsonParserConfig) (e : Escape) (fuel : Nat)
    (result : List Char) {st : ParserState} {pre rest : List Char}
    (h : st.Reads pre ('\\' :: e.letter :: rest))
    (hlen : result.length + 1 ≤ cfg.max_string_length) :
    ParseStringLoop cfg (fuel + 1) result st =
      ParseStringLoop cfg fuel (result ++ [e.denote]) ((st.consume '\\').consume e.letter) := by
  have h1 := h.after_consume
  have hq : '\\' ≠ '"' := by decide
  have hv : ValidateStringLength cfg (result ++ [e.denote]).length = .ok () :=
    ValidateStringLength_ok (by simp; omega)
  rw [ParseStringLoop]
  simp only [h.lt_length, if_true, Next_of_Reads h, bind, Except.bind, hq, if_false,
    ParseStringStep_escaped cfg e result h1, hv]

theorem ParseStringLoop_plain (cfg : JsonParserConfig) (c : Char) (fuel : Nat)
    (result : List Char) {st : ParserState} {pre rest : List Char}
    (h : st.Reads pre (c :: rest)) (hw : (StrItem.plain c).WellFormed)
    (hlen : result.length + 1 ≤ cfg.max_string_length) :
    ParseStringLoop cfg (fuel + 1) result st =
      ParseStringLoop cfg fuel (result ++ [c]) (st.consume c) := by
  have hq : c ≠ '"' := hw.1
  have hv : ValidateStringLength cfg (result ++ [c]).length = .ok () :=
    ValidateStringLength_ok (by simp; omega)
  rw [ParseStringLoop]
  simp only [h.lt_length, if_true, Next_of_Reads h, bind, Except.bind, hq, if_false,
    ParseStringStep_plain cfg result _ hw, hv]

/-- C11: when the cursor of the loop of `ParseString` is at one of the escapes
`\"`, `\\`, `\/`, `\b`, `\f`, `\n`, `\r`, `\t` (and the result stays within
`max_string_length`), the iteration consumes exactly the two characters of the
escape and appends exactly the character it denotes; it follows that the
token of a well-formed string text is read as the string it stands for. -/
theorem C11_two_character_escapes (cfg : JsonParserConfig) (e : Escape) (fuel : Nat)
    (result : List Char) (st : ParserState) (pre rest : List Char)
    (h : st.Reads pre ('\\' :: e.letter :: rest))
    (hlen : result.length + 1 ≤ cfg.max_string_length) :
    (∃ st2, st2.Reads (pre ++ ['\\', e.letter]) rest ∧
        ParseStringLoop cfg (fuel + 1) result st =
          ParseStringLoop cfg fuel (result ++ [e.denote]) st2) ∧
      (∀ (items : List StrItem) (st0 : ParserState) (pre0 rest0 : List Char),
        st0.Reads pre0 (stringText items ++ rest0) → (∀ i ∈ items, i.WellFormed) →
        items.length ≤ cfg.max_string_length →
        ∃ st1, ParseString cfg st0 = .ok (stringDenote items, st1) ∧
          st1.Reads (pre0 ++ stringText items) rest0) := by
  refine ⟨⟨(st.consume '\\').consume e.letter, ?_, ParseStringLoop_escaped cfg e fuel result h hlen⟩,
    fun items st0 pre0 rest0 h0 hw hl => ParseString_stringText cfg h0 hw hl⟩
  simpa using h.after_consume.after_consume

/-- C11 at the test `ParseStringEscapes`: the escape `\n` at the start of a
string token appends a line feed, and `{"text": "Hello\nWorld\tTest"}` parses
to an object whose `text` holds a line feed and a tab. -/
theorem C11_two_character_escapes_witness :
    (∃ st2, st2.Reads ['"', '\\', 'n'] ['"'] ∧
        ParseStringLoop JsonParserConfig.Strict (3 + 1) []
            ((ParserState.Initialize ['"', '\\', 'n', '"']).consume '"') =
          ParseStringLoop JsonParserConfig.Strict 3 ([] ++ [Escape.lineFeed.denote]) st2) ∧
      Parse "\x7b\"text\": \"Hello\\nWorld\\tTest\"\x7d".toList JsonParserConfig.Strict =
        .ok (.object [("text".toList, .string "Hello\nWorld\tTest".toList)]) :=
  ⟨(C11_two_character_escapes JsonParserConfig.Strict Escape.lineFeed 3 []
      ((ParserState.Initialize ['"', '\\', 'n', '"']).consume '"') ['"'] ['"']
      (ParserState.Reads.after_consume (ParserState.Reads.Initialize _)) (by decide)).1,
    by decide!⟩

/-! ### C12: the `\u` escape -/

theorem UnicodeEscapeLoop_hex : ∀ (hs : List Char) (st : ParserState) (pre rest : List Char),
    st.Reads pre (hs ++ rest) → (∀ c ∈ hs, isxdigit c = true) →
    ∃ st1, UnicodeEscapeLoop hs.length st = .ok st1 ∧ st1.Reads (pre ++ hs) rest := by
  intro hs
  induction hs with
  | nil => intro st pre rest h _; exact ⟨st, rfl, by simpa using h⟩
  | cons c hs ih =>
      intro st pre rest h hx
      have h0 : st.Reads pre (c :: (hs ++ rest)) := h
      obtain ⟨st1, p1, r1⟩ := ih _ _ rest h0.after_consume (fun d hd => hx d (by simp [hd]))
      refine ⟨st1, ?_, by simpa using r1⟩
      simp only [List.length_cons, UnicodeEscapeLoop, h0.getElem?_eq, List.head?_cons,
        hx c (by simp), if_true, p1]

theorem UnicodeEscapeLoop_short : ∀ (hs : List Char) (count : Nat) (st : ParserState)
    (pre rest : List Char), st.Reads pre (hs ++ rest) → (∀ c ∈ hs, isxdigit c = true) →
    hs.length < count → (∀ c ∈ rest.head?, isxdigit c = false) →
    ∃ e, UnicodeEscapeLoop count st = .error (.exception e) := by
  intro hs
  induction hs with
  | nil =>
      intro count st pre rest h _ hc hr
      obtain ⟨n, rfl⟩ : ∃ n, count = n + 1 := ⟨count - 1, by simp at hc; omega⟩
      have h0 : st.Reads pre rest := h
      cases rest with
      | nil =>
          exact ⟨_, by simp only [UnicodeEscapeLoop, h0.getElem?_eq, List.head?_nil]; rfl⟩
      | cons d rest =>
          have hd : isxdigit d = false := hr d (by simp)
          exact ⟨_, by
            simp only [UnicodeEscapeLoop, h0.getElem?_eq, List.head?_cons, hd,
              Bool.false_eq_true, if_false]
            rfl⟩
  | cons c hs ih =>
      intro count st pre rest h hx hc hr
      obtain ⟨n, rfl⟩ : ∃ n, count = n + 1 := ⟨count - 1, by simp at hc; omega⟩
      have h0 : st.Reads pre (c :: (hs ++ rest)) := h
      obtain ⟨e, he⟩ := ih n _ _ rest h0.after_consume (fun d hd => hx d (by simp [hd]))
        (by simp at hc; omega) hr
      exact ⟨e, by
        simp only [UnicodeEscapeLoop, h0.getElem?_eq, List.head?_cons, hx c (by simp), if_true, he]⟩

/-- C12: when the cursor of the loop of `ParseString` is at `\u` followed by
four hexadecimal digits, the iteration consumes exactly those six characters
and leaves the result unchanged; when fewer than four hexadecimal digits
follow (the input ends, or another character comes), a ParseError is raised. -/
theorem C12_unicode_escape (cfg : JsonParserConfig) (fuel : Nat) (result : List Char)
    (st : ParserState) (pre rest : List Char) (hs : List Char)
    (hx : ∀ c ∈ hs, isxdigit c = true) (h : st.Reads pre ('\\' :: 'u' :: (hs ++ rest)))
    (hlen : result.length ≤ cfg.max_string_length) :
    (hs.length = 4 → ∃ st2, st2.Reads (pre ++ '\\' :: 'u' :: hs) rest ∧
        ParseStringLoop cfg (fuel + 1) result st = ParseStringLoop cfg fuel result st2) ∧
      (hs.length < 4 → (∀ c ∈ rest.head?, isxdigit c = false) →
        ∃ e, ParseStringLoop cfg (fuel + 1) result st = .error (.exception e)) := by
  have h1 := h.after_consume
  have h2 := h1.after_consume
  have hq : '\\' ≠ '"' := by decide
  have hstep : ParseStringLoop cfg (fuel + 1) result st =
      (ParseStringStep cfg '\\' result (st.consume '\\')).bind (fun x =>
        (ValidateStringLength cfg x.1.length).bind (fun _ =>
          ParseStringLoop cfg fuel x.1 x.2)) := by
    rw [ParseStringLoop]
    simp only [h.lt_length, if_true, Next_of_Reads h, bind, Except.bind, hq, if_false]
  have hesc : ParseStringStep cfg '\\' result (st.consume '\\') =
      (UnicodeEscapeLoop 4 ((st.consume '\\').consume 'u')).bind (fun s =>
        .ok (result, s)) := by
    simp [ParseStringStep, Next_of_Reads h1, escapeText, bind, Except.bind, pure, Except.pure]
  refine ⟨fun h4 => ?_, fun hlt hr => ?_⟩
  · obtain ⟨st2, p2, r2⟩ := UnicodeEscapeLoop_hex hs _ _ rest h2 hx
    rw [h4] at p2
    refine ⟨st2, by simpa using r2, ?_⟩
    rw [hstep, hesc, p2]
    simp only [Except.bind, ValidateStringLength_ok hlen]
  · obtain ⟨e, he⟩ := UnicodeEscapeLoop_short hs 4 _ _ rest h2 hx hlt hr
    exact ⟨e, by rw [hstep, hesc, he]; rfl⟩

/-- C12 at `"\u0041"` (six characters consumed, nothing appended: the token
is read as the empty string) and at `"\u00"` (ParseError). -/
theorem C12_unicode_escape_witness :
    (∃ st2, st2.Reads ['"', '\\', 'u', '0', '0', '4', '1'] ['"'] ∧
        ParseStringLoop JsonParserConfig.Strict (7 + 1) []
            ((ParserState.Initialize "\"\\u0041\"".toList).consume '"') =
          ParseStringLoop JsonParserConfig.Strict 7 [] st2) ∧
      Parse "\"\\u0041\"".toList JsonParserConfig.Strict = .ok (.string []) ∧
      (∃ e, ParseStringLoop JsonParserConfig.Strict (5 + 1) []
            ((ParserState.Initialize "\"\\u00\"".toList).consume '"') = .error (.exception e)) :=
  ⟨(C12_unicode_escape JsonParserConfig.Strict 7 []
      ((ParserState.Initialize "\"\\u0041\"".toList).consume '"') ['"'] ['"'] ['0', '0', '4', '1']
      (by decide) (ParserState.Reads.after_consume (ParserState.Reads.Initialize _))
      (by decide)).1 rfl,
    by decide!,
    (C12_unicode_escape JsonParserConfig.Strict 5 []
      ((ParserState.Initialize "\"\\u00\"".toList).consume '"') ['"'] ['"'] ['0', '0']
      (by decide) (ParserState.Reads.after_consume (ParserState.Reads.Initialize _))
      (by decide)).2 (by decide) (by decide)⟩

/-! ### C13: a raw line feed or carriage return in a string -/

theorem itemsText_length (items : List StrItem) : items.length ≤ (itemsText items).length := by
  induction items with
  | nil => simp
  | cons i items ih => cases i <;> simp [itemsText, StrItem.text] <;> omega

theorem ParseStringLoop_prefix (cfg : JsonParserConfig) :
    ∀ (items : List StrItem) (result : List Char) (st : ParserState)
      (pre rest : List Char), st.Reads pre (itemsText items ++ rest) →
      (∀ i ∈ items, i.WellFormed) → result.length + items.length ≤ cfg.max_string_length →
      ∃ st1, st1.Reads (pre ++ itemsText items) rest ∧ ∀ fuel,
        ParseStringLoop cfg (fuel + items.length) result st =
          ParseStringLoop cfg fuel (result ++ stringDenote items) st1 := by
  intro items
  induction items with
  | nil =>
      intro result st pre rest h _ _
      exact ⟨st, by simpa [itemsText] using h, fun fuel => by simp [stringDenote]⟩
  | cons i items ih =>
      intro result st pre rest h hw hlen
      have hwi : i.WellFormed := hw i (by simp)
      have hws : ∀ j ∈ items, j.WellFormed := fun j hj => hw j (by simp [hj])
      simp only [List.length_cons] at hlen
      have hf : ∀ fuel, fuel + (i :: items).length = (fuel + items.length) + 1 := by
        intro fuel
        simp only [List.length_cons]
        omega
      cases i with
      | plain c =>
          have h0 : st.Reads pre (c :: (itemsText items ++ rest)) := h
          obtain ⟨st1, r1, p1⟩ := ih (result ++ [c]) _ _ rest h0.after_consume hws
            (by simp; omega)
          refine ⟨st1, by simpa [itemsText, StrItem.text] using r1, fun fuel => ?_⟩
          rw [hf, ParseStringLoop_plain cfg c _ result h0 hwi (by omega), p1]
          simp [stringDenote, StrItem.denote]
      | escaped e =>
          have h0 : st.Reads pre ('\\' :: e.letter :: (itemsText items ++ rest)) := h
          obtain ⟨st1, r1, p1⟩ := ih (result ++ [e.denote]) _ _ rest
            h0.after_consume.after_consume hws (by simp; omega)
          refine ⟨st1, by simpa [itemsText, StrItem.text] using r1, fun fuel => ?_⟩
          rw [hf, ParseStringLoop_escaped cfg e _ result h0 (by omega), p1]
          simp [stringDenote, StrItem.denote]

theorem ParseStringLoop_newline_strict (cfg : JsonParserConfig) (hs : cfg.strict_mode = true)
    (fuel : Nat) (result : List Char) {st : ParserState} {pre rest : List Char} {c : Char}
    (hc : c = '\n' ∨ c = '\r') (h : st.Reads pre (c :: rest)) :
    ParseStringLoop cfg (fuel + 1) result st =
      .error (ThrowParseError (st.consume c) .unescapedNewline) := by
  have hq : c ≠ '"' := by rcases hc with hc | hc <;> rw [hc] <;> decide
  have hb : c ≠ '\\' := by rcases hc with hc | hc <;> rw [hc] <;> decide
  rw [ParseStringLoop]
  simp only [h.lt_length, if_true, Next_of_Reads h, bind, Except.bind, hq, if_false,
    ParseStringStep, hb, hc, hs]

theorem ParseStringLoop_newline_lenient (cfg : JsonParserConfig) (hs : cfg.strict_mode = false)
    (fuel : Nat) (result : List Char) {st : ParserState} {pre rest : List Char} {c : Char}
    (hc : c = '\n' ∨ c = '\r') (h : st.Reads pre (c :: rest))
    (hlen : result.length + 1 ≤ cfg.max_string_length) :
    ParseStringLoop cfg (fuel + 1) result st =
      ParseStringLoop cfg fuel (result ++ [c]) (st.consume c) := by
  have hq : c ≠ '"' := by rcases hc with hc | hc <;> rw [hc] <;> decide
  have hb : c ≠ '\\' := by rcases hc with hc | hc <;> rw [hc] <;> decide
  have hv : ValidateStringLength cfg (result ++ [c]).length = .ok () :=
    ValidateStringLength_ok (by simp; omega)
  rw [ParseStringLoop]
  simp only [h.lt_length, if_true, Next_of_Reads h, bind, Except.bind, hq, if_false,
    ParseStringStep, hb, hc, hs, Bool.false_eq_true, pure, Except.pure, hv]

theorem ParseValue_eq_of_le (cfg : JsonParserConfig) {json : List Char} {fuel : Nat}
    {r : Except Failure (JsonValue × ParserState)}
    (h : ∀ f, fuel ≤ f → ParseValue cfg f (ParserState.Initialize json) = r) :
    ParseValue cfg (3 * json.length + 3) (ParserState.Initialize json) = r := by
  have h1 := h (max (3 * json.length + 3) fuel) (le_max_right _ _)
  have h2 := ParseValue_mono_le cfg (le_max_left (3 * json.length + 3) fuel) _
    (ParseValue_fuel_enough cfg json)
  rw [← h2, h1]

/-- C13: when the cursor of the loop of `ParseString` is at a raw line feed or
carriage return, the iteration raises a ParseError if `strict_mode` is on and
otherwise appends the character and goes on; accordingly, for a string token
with such a character after well-formed items, `Parse` raises a ParseError in
strict mode (whatever follows), and with `strict_mode` off the token is read
to its closing quote as a string that contains the character. -/
theorem C13_raw_newline (cfg : JsonParserConfig) (c : Char) (hc : c = '\n' ∨ c = '\r')
    (items after : List StrItem) (hw : ∀ i ∈ items, i.WellFormed)
    (hw2 : ∀ i ∈ after, i.WellFormed)
    (hlen : items.length + 1 + after.length ≤ cfg.max_string_length) :
    (∀ (fuel : Nat) (result : List Char) (st : ParserState) (pre rest : List Char),
        st.Reads pre (c :: rest) →
        (cfg.strict_mode = true →
          ∃ e, ParseStringLoop cfg (fuel + 1) result st = .error (.exception e)) ∧
        (cfg.strict_mode = false → result.length + 1 ≤ cfg.max_string_length →
          ParseStringLoop cfg (fuel + 1) result st =
            ParseStringLoop cfg fuel (result ++ [c]) (st.consume c))) ∧
      (cfg.strict_mode = true → ∀ rest,
        ∃ e, Parse ('"' :: (itemsText items ++ c :: rest)) cfg = .error (.exception e)) ∧
      (cfg.strict_mode = false →
        Parse ('"' :: (itemsText items ++ c :: (itemsText after ++ ['"']))) cfg =
          .ok (.string (stringDenote items ++ c :: stringDenote after))) := by
  refine ⟨fun fuel result st pre rest h => ⟨fun hs => ?_, fun hs hl => ?_⟩, fun hs rest => ?_,
    fun hs => ?_⟩
  · exact ⟨_, ParseStringLoop_newline_strict cfg hs fuel result hc h⟩
  · exact ParseStringLoop_newline_lenient cfg hs fuel result hc h hl
  · -- strict mode: the token is rejected
    have h0 := ParserState.Reads.Initialize ('"' :: (itemsText items ++ c :: rest))
    have h1 := h0.after_consume
    obtain ⟨st1, r1, p1⟩ := ParseStringLoop_prefix cfg items [] _ _ (c :: rest) h1 hw
      (by simp; omega)
    have hge := itemsText_length items
    have hsplit : (itemsText items ++ c :: rest).length + 1 =
        (((itemsText items).length - items.length + rest.length + 1) + 1) + items.length := by
      simp
      omega
    have hstr : ParseString cfg (ParserState.Initialize ('"' :: (itemsText items ++ c :: rest))) =
        .error (ThrowParseError (st1.consume c) .unescapedNewline) := by
      simp only [ParseString, Expect_of_Reads h0, bind, Except.bind, h1.unread_eq]
      rw [hsplit, p1, ParseStringLoop_newline_strict cfg hs _ _ hc r1]
    refine ⟨.located .unescapedNewline (st1.consume c).line_ (st1.consume c).column_
      (st1.consume c).position_, ?_⟩
    have hv : ∀ f, 1 ≤ f → ParseValue cfg f
        (ParserState.Initialize ('"' :: (itemsText items ++ c :: rest))) =
        .error (ThrowParseError (st1.consume c) .unescapedNewline) := by
      intro f hf
      obtain ⟨f1, rfl⟩ : ∃ f1, f = f1 + 1 := ⟨f - 1, by omega⟩
      rw [ParseValue_string f1 h0, hstr]
      rfl
    unfold Parse
    dsimp only
    rw [ParseValue_eq_of_le cfg hv]
    rfl
  · -- strict mode off: the character is kept
    have h0 := ParserState.Reads.Initialize
      ('"' :: (itemsText items ++ c :: (itemsText after ++ ['"'])))
    have h1 := h0.after_consume
    obtain ⟨st1, r1, p1⟩ := ParseStringLoop_prefix cfg items [] _ _
      (c :: (itemsText after ++ ['"'])) h1 hw (by simp; omega)
    have r2 := r1.after_consume
    have hge := itemsText_length items
    have hge2 := itemsText_length after
    have r2' : (st1.consume c).Reads ([] ++ ['"'] ++ itemsText items ++ [c])
        (itemsText after ++ '"' :: []) := r2
    obtain ⟨st3, p3, r3⟩ := ParseStringLoop_items cfg after
      ((itemsText items).length - items.length + (itemsText after).length + 2)
      ([] ++ stringDenote items ++ [c]) _ _ [] r2' hw2
      (by simp [stringDenote]; omega) (by omega)
    have hsplit : (itemsText items ++ c :: (itemsText after ++ ['"'])).length + 1 =
        (((itemsText items).length - items.length + (itemsText after).length + 2) + 1) +
          items.length := by
      simp
      omega
    have hstr : ParseString cfg (ParserState.Initialize
        ('"' :: (itemsText items ++ c :: (itemsText after ++ ['"'])))) =
        .ok (stringDenote items ++ c :: stringDenote after, st3) := by
      simp only [ParseString, Expect_of_Reads h0, bind, Except.bind, h1.unread_eq]
      rw [hsplit, p1, ParseStringLoop_newline_lenient cfg hs _ _ hc r1 (by simp [stringDenote]; omega),
        p3]
      simp
    have hv : ∀ f, 1 ≤ f → ParseValue cfg f (ParserState.Initialize
        ('"' :: (itemsText items ++ c :: (itemsText after ++ ['"'])))) =
        .ok (.string (stringDenote items ++ c :: stringDenote after), st3) := by
      intro f hf
      obtain ⟨f1, rfl⟩ : ∃ f1, f = f1 + 1 := ⟨f - 1, by omega⟩
      rw [ParseValue_string f1 h0, hstr]
      rfl
    exact Parse_of_ParseValue (ParseValue_eq_of_le cfg hv) r3 (by intro d hd; cases hd)

/-- C13 at the tokens `"a<LF>b"` in strict mode (rejected) and with
`strict_mode` off (read as the string `a<LF>b`). -/
theorem C13_raw_newline_witness :
    (∃ e, Parse "\"a\nb\"".toList JsonParserConfig.Strict = .error (.exception e)) ∧
      Parse "\"a\nb\"".toList { JsonParserConfig.Strict with strict_mode := false } =
        .ok (.string "a\nb".toList) :=
  ⟨(C13_raw_newline JsonParserConfig.Strict '\n' (Or.inl rfl) [StrItem.plain 'a']
      [StrItem.plain 'b'] (by intro i hi; simp at hi; subst hi; exact ⟨by decide, by decide, by decide, by decide⟩)
      (by intro i hi; simp at hi; subst hi; exact ⟨by decide, by decide, by decide, by decide⟩) (by decide)).2.1 rfl ['b', '"'],
    (C13_raw_newline { JsonParserConfig.Strict with strict_mode := false } '\n' (Or.inl rfl)
      [StrItem.plain 'a'] [StrItem.plain 'b']
      (by intro i hi; simp at hi; subst hi; exact ⟨by decide, by decide, by decide, by decide⟩)
      (by intro i hi; simp at hi; subst hi; exact ⟨by decide, by decide, by decide, by decide⟩) (by decide)).2.2 rfl⟩

/-! ### C14: the length limit of strings -/

theorem ValidateStringLength_eq_ok {cfg : JsonParserConfig} {n : Nat} {u : Unit}
    (h : ValidateStringLength cfg n = .ok u) : n ≤ cfg.max_string_length := by
  unfold ValidateStringLength at h
  split at h
  · cases h
  · omega

theorem ValidateStringLength_too_long {cfg : JsonParserConfig} {n : Nat}
    (h : cfg.max_string_length < n) :
    ValidateStringLength cfg n = .error (.exception (.plain .stringTooLong)) := by
  unfold ValidateStringLength
  rw [if_pos h]

theorem ParseStringLoop_length (cfg : JsonParserConfig) :
    ∀ (fuel : Nat) (result : List Char) (st : ParserState) (r : List Char × ParserState),
      result.length ≤ cfg.max_string_length → ParseStringLoop cfg fuel result st = .ok r →
      r.1.length ≤ cfg.max_string_length := by
  intro fuel
  induction fuel with
  | zero => intro result st r _ h; simp [ParseStringLoop] at h
  | succ n ih =>
      intro result st r hlen h
      rw [ParseStringLoop] at h
      split at h
      · simp only [bind, bind_eq_ok] at h
        obtain ⟨x, hx, h⟩ := h
        split at h
        · simp [pure, Except.pure] at h
          subst h
          exact hlen
        · simp only [bind_eq_ok] at h
          obtain ⟨y, hy, u, hu, h⟩ := h
          exact ih _ _ _ (ValidateStringLength_eq_ok hu) h
      · simp [pure, Except.pure] at h
        subst h
        exact hlen

theorem ParseString_length (cfg : JsonParserConfig) {st : ParserState}
    {r : List Char × ParserState} (h : ParseString cfg st = .ok r) :
    r.1.length ≤ cfg.max_string_length := by
  unfold ParseString at h
  simp only [bind, bind_eq_ok] at h
  obtain ⟨st1, h1, h2⟩ := h
  exact ParseStringLoop_length cfg _ _ _ _ (Nat.zero_le _) h2

theorem JsonValue.MembersWithin_Insert (n : Nat) : ∀ (obj : JsonObject) (k : List Char)
    (v : JsonValue), JsonValue.MembersWithin n obj → k.length ≤ n → v.StringsWithin n →
    JsonValue.MembersWithin n (obj.Insert k v) := by
  intro obj
  induction obj with
  | nil =>
      intro k v _ hk hv
      simp only [JsonObject.Insert, JsonValue.MembersWithin]
      exact ⟨hk, hv, trivial⟩
  | cons p obj ih =>
      intro k v h hk hv
      obtain ⟨k0, v0⟩ := p
      simp only [JsonValue.MembersWithin] at h
      unfold JsonObject.Insert
      split
      · simp only [JsonValue.MembersWithin]
        exact ⟨h.1, hv, h.2.2⟩
      · simp only [JsonValue.MembersWithin]
        exact ⟨h.1, h.2.1, ih k v h.2.2 hk hv⟩

theorem Parse_StringsWithin (cfg : JsonParserConfig) :
    ∀ fuel : Nat,
      (∀ st r, ParseValue cfg fuel st = .ok r → r.1.StringsWithin cfg.max_string_length) ∧
      (∀ st r, ParseObject cfg fuel st = .ok r →
        JsonValue.MembersWithin cfg.max_string_length r.1) ∧
      (∀ obj st r, JsonValue.MembersWithin cfg.max_string_length obj →
        ParseObjectLoop cfg fuel obj st = .ok r →
        JsonValue.MembersWithin cfg.max_string_length r.1) ∧
      (∀ st r, ParseArray cfg fuel st = .ok r →
        JsonValue.ElementsWithin cfg.max_string_length r.1) ∧
      (∀ arr st r, JsonValue.ElementsWithin cfg.max_string_length arr →
        ParseArrayLoop cfg fuel arr st = .ok r →
        JsonValue.ElementsWithin cfg.max_string_length r.1) := by
  intro fuel
  induction fuel with
  | zero =>
      refine ⟨?_, ?_, ?_, ?_, ?_⟩ <;> intros <;> rename_i h <;>
        simp [ParseValue, ParseObject, ParseObjectLoop, ParseArray, ParseArrayLoop] at h
  | succ n ih =>
      obtain ⟨ihV, ihO, ihOL, ihA, ihAL⟩ := ih
      refine ⟨?_, ?_, ?_, ?_, ?_⟩
      · intro st r h
        rw [ParseValue] at h
        simp only [bind, bind_eq_ok] at h
        obtain ⟨-, -, c, -, h⟩ := h
        split at h
        · simp only [bind_eq_ok] at h
          obtain ⟨x, hx, h⟩ := h
          simp [pure, Except.pure] at h
          subst h
          simp only [JsonValue.StringsWithin]
          exact ihO _ _ hx
        · split at h
          · simp only [bind_eq_ok] at h
            obtain ⟨x, hx, h⟩ := h
            simp [pure, Except.pure] at h
            subst h
            simp only [JsonValue.StringsWithin]
            exact ihA _ _ hx
          · split at h
            · simp only [bind_eq_ok] at h
              obtain ⟨x, hx, h⟩ := h
              simp [pure, Except.pure] at h
              subst h
              simp only [JsonValue.StringsWithin]
              exact ParseString_length cfg hx
            · split at h
              · simp only [bind_eq_ok] at h
                obtain ⟨x, hx, h⟩ := h
                simp [pure, Except.pure] at h
                subst h
                simp only [JsonValue.StringsWithin]
              · split at h
                · simp only [bind_eq_ok] at h
                  obtain ⟨x, hx, h⟩ := h
                  simp [pure, Except.pure] at h
                  subst h
                  simp only [JsonValue.StringsWithin]
                · split at h
                  · simp only [bind_eq_ok] at h
                    obtain ⟨x, hx, h⟩ := h
                    simp [pure, Except.pure] at h
                    subst h
                    simp only [JsonValue.StringsWithin]
                  · cases h
      · intro st r h
        rw [ParseObject] at h
        simp only [bind, bind_eq_ok] at h
        obtain ⟨-, -, st1, h1, c, -, h⟩ := h
        split at h
        · simp only [bind_eq_ok] at h
          obtain ⟨x, hx, h⟩ := h
          simp [pure, Except.pure] at h
          subst h
          simp only [JsonValue.MembersWithin]
        · exact ihOL _ _ _ (by simp only [JsonValue.MembersWithin]) h
      · intro obj st r hobj h
        rw [ParseObjectLoop] at h
        simp only [bind, bind_eq_ok] at h
        obtain ⟨k, hk, st2, h2, v, hv2, c, -, h⟩ := h
        have hins := JsonValue.MembersWithin_Insert cfg.max_string_length obj k.1 v.1 hobj
          (ParseString_length cfg hk) (ihV _ _ hv2)
        split at h
        · simp only [bind_eq_ok] at h
          obtain ⟨x, hx, h⟩ := h
          simp [pure, Except.pure] at h
          subst h
          exact hins
        · split at h
          · simp only [bind_eq_ok] at h
            obtain ⟨x, hx, h⟩ := h
            exact ihOL _ _ _ hins h
          · cases h
      · intro st r h
        rw [ParseArray] at h
        simp only [bind, bind_eq_ok] at h
        obtain ⟨-, -, st1, h1, c, -, h⟩ := h
        split at h
        · simp only [bind_eq_ok] at h
          obtain ⟨x, hx, h⟩ := h
          simp [pure, Except.pure] at h
          subst h
          simp only [JsonValue.ElementsWithin]
        · exact ihAL _ _ _ (by simp only [JsonValue.ElementsWithin]) h
      · intro arr st r harr h
        rw [ParseArrayLoop] at h
        simp only [bind, bind_eq_ok] at h
        obtain ⟨v, hv2, c, -, h⟩ := h
        split at h
        · simp only [bind_eq_ok] at h
          obtain ⟨x, hx, h⟩ := h
          simp [pure, Except.pure] at h
          subst h
          exact harr
        · split at h
          · simp only [bind_eq_ok] at h
            obtain ⟨x, hx, h⟩ := h
            exact ihAL _ _ _ harr h
          · cases h

/-- C14: in the loop of `ParseString`, a character that makes the decoded
content longer than `max_string_length` raises a ParseError, and whenever
`Parse` succeeds, for any input and configuration, no String value and no
object key of the tree returned is longer than `max_string_length`. -/
theorem C14_string_length_limit (cfg : JsonParserConfig) (json : List Char) :
    (∀ (fuel : Nat) (result : List Char) (st : ParserState) (c : Char) (x : List Char × ParserState),
        Next st = .ok (c, st.consume c) → c ≠ '"' →
        ParseStringStep cfg c result (st.consume c) = .ok x →
        cfg.max_string_length < x.1.length →
        ParseStringLoop cfg (fuel + 1) result st = .error (.exception (.plain .stringTooLong))) ∧
      (∀ v, Parse json cfg = .ok v → v.StringsWithin cfg.max_string_length) := by
  refine ⟨fun fuel result st c x hn hq hx hlen => ?_, fun v h => ?_⟩
  · have hlt : st.position_ < st.input_.length := by
      unfold Next at hn
      cases hg : st.input_[st.position_]? with
      | none => rw [hg] at hn; cases hn
      | some d =>
          have := List.getElem?_eq_some_iff.mp hg
          obtain ⟨hlt, -⟩ := this
          exact hlt
    rw [ParseStringLoop]
    simp only [hlt, if_true, hn, bind, Except.bind, hq, if_false, hx,
      ValidateStringLength_too_long hlen]
  · obtain ⟨st, hp, -⟩ := Parse_eq_ok h
    exact (Parse_StringsWithin cfg _).1 _ _ hp

/-- C14 with `max_string_length = 2`: the string of `"ab"` is within the
limit, and `"abc"` raises the ParseError of a string that is too long. -/
theorem C14_string_length_limit_witness :
    (JsonValue.string ['a', 'b']).StringsWithin 2 ∧
      Parse "\"abc\"".toList { JsonParserConfig.Strict with max_string_length := 2 } =
        .error (.exception (.plain .stringTooLong)) :=
  ⟨(C14_string_length_limit { JsonParserConfig.Strict with max_string_length := 2 }
      "\"ab\"".toList).2 (.string ['a', 'b']) (by decide!), by decide!⟩

/-! ### C15: the depth limit -/

theorem Parse_of_ReadsValue {cfg : JsonParserConfig} {json : List Char} {v : JsonValue}
    (h : ReadsValue cfg (ParserState.Initialize json) [] json [] v) : Parse json cfg = .ok v := by
  obtain ⟨st1, r1, enough, hfuel⟩ := h
  exact Parse_of_ParseValue (ParseValue_eq_of_le cfg hfuel) r1 (by intro c hc; cases hc)

theorem nestedArrays_head (n : Nat) : ∃ tail, nestedArrays n = '[' :: tail := by
  cases n with
  | zero => exact ⟨_, rfl⟩
  | succ n => exact ⟨_, rfl⟩

theorem ReadsValue_nestedArrays (cfg : JsonParserConfig) :
    ∀ (n : Nat) (st : ParserState) (pre rest : List Char),
      st.Reads pre (nestedArrays n ++ rest) →
      ReadsValue cfg st pre (nestedArrays n) rest (.array []) := by
  intro n
  induction n with
  | zero =>
      intro st pre rest h
      have h0 : st.Reads pre (('[' :: (([] : List Char) ++ [']'])) ++ rest) := h
      exact ReadsValue_emptyArray cfg h0 (by intro c hc; cases hc)
  | succ n ih =>
      intro st pre rest h
      obtain ⟨tail, htail⟩ := nestedArrays_head n
      have h0 : st.Reads pre ('[' :: (nestedArrays n ++ ']' :: rest)) := by
        simpa [nestedArrays] using h
      have h1 := h0.after_consume
      have h1' : (st.consume '[').Reads (pre ++ ['[']) ('[' :: (tail ++ ']' :: rest)) := by
        rw [htail] at h1
        simpa using h1
      have hs1 : SkipSeparators cfg (st.consume '[') = st.consume '[' :=
        SkipSeparators_eq_self cfg h1' (by intro c hc; simp at hc; subst hc; decide) (by simp)
      obtain ⟨st2, r2, enough, hfuel⟩ := ih (st.consume '[') (pre ++ ['[']) (']' :: rest) h1
      have hs2 : SkipSeparators cfg st2 = st2 :=
        SkipSeparators_eq_self cfg r2 (by intro c hc; simp at hc; subst hc; decide) (by simp)
      refine ⟨st2.consume ']', ?_, enough + 3, fun fuel hf => ?_⟩
      · simpa [nestedArrays] using r2.after_consume
      · obtain ⟨f, rfl⟩ : ∃ f, fuel = f + 3 := ⟨fuel - 3, by omega⟩
        have hne : '[' ≠ ']' := by decide
        rw [ParseValue_array (f + 2) h0, ParseArray]
        simp only [ValidateDepth_zero, bind, Except.bind, Expect_of_Reads h0, hs1,
          Current_of_Reads h1', hne, if_false]
        rw [ParseArrayLoop]
        simp only [hs1, bind, Except.bind, hfuel f (by omega), hs2, Current_of_Reads r2,
          Next_of_Reads r2, if_true, pure, Except.pure]

/-- C15 (the code at the failing inputs): under every configuration `Parse`
accepts `n + 1` nested arrays for every `n`, in particular for
`n = max_depth + 1`, where the innermost array is nested inside more than
`max_depth` containers: `ValidateDepth` is always called with depth 0. -/
theorem C15_depth_limit_not_enforced (cfg : JsonParserConfig) (n : Nat) :
    Parse (nestedArrays n) cfg = .ok (.array []) ∧
      Parse (nestedArrays (cfg.max_depth + 1)) cfg = .ok (.array []) ∧
      Parse "[[[]]]".toList { JsonParserConfig.Strict with max_depth := 1 } = .ok (.array []) := by
  have key : ∀ m, Parse (nestedArrays m) cfg = .ok (.array []) := fun m =>
    Parse_of_ReadsValue (ReadsValue_nestedArrays cfg m _ [] []
      (by simpa using ParserState.Reads.Initialize (nestedArrays m)))
  exact ⟨key n, key _, by decide!⟩

/-! ### C16: the trailing-comma switch -/

theorem ParseStringLoop_trailing_commas (cfg : JsonParserConfig) (b : Bool) :
    ∀ (fuel : Nat) (result : List Char) (st : ParserState),
      ParseStringLoop { cfg with allow_trailing_commas := b } fuel result st =
        ParseStringLoop cfg fuel result st := by
  intro fuel
  induction fuel with
  | zero => intro result st; simp [ParseStringLoop]
  | succ n ih =>
      intro result st
      conv_lhs => rw [ParseStringLoop]
      conv_rhs => rw [ParseStringLoop]
      simp only [ih]
      rfl

theorem ParseString_trailing_commas (cfg : JsonParserConfig) (b : Bool) (st : ParserState) :
    ParseString { cfg with allow_trailing_commas := b } st = ParseString cfg st := by
  unfold ParseString
  simp only [ParseStringLoop_trailing_commas]

theorem ParseValue_trailing_commas (cfg : JsonParserConfig) (b : Bool) :
    ∀ fuel : Nat,
      (∀ st, ParseValue { cfg with allow_trailing_commas := b } fuel st = ParseValue cfg fuel st) ∧
      (∀ st, ParseObject { cfg with allow_trailing_commas := b } fuel st =
        ParseObject cfg fuel st) ∧
      (∀ obj st, ParseObjectLoop { cfg with allow_trailing_commas := b } fuel obj st =
        ParseObjectLoop cfg fuel obj st) ∧
      (∀ st, ParseArray { cfg with allow_trailing_commas := b } fuel st =
        ParseArray cfg fuel st) ∧
      (∀ arr st, ParseArrayLoop { cfg with allow_trailing_commas := b } fuel arr st =
        ParseArrayLoop cfg fuel arr st) := by
  intro fuel
  induction fuel with
  | zero =>
      refine ⟨?_, ?_, ?_, ?_, ?_⟩ <;> intros <;>
        simp [ParseValue, ParseObject, ParseObjectLoop, ParseArray, ParseArrayLoop]
  | succ n ih =>
      obtain ⟨ihV, ihO, ihOL, ihA, ihAL⟩ := ih
      refine ⟨?_, ?_, ?_, ?_, ?_⟩
      · intro st
        conv_lhs => rw [ParseValue]
        conv_rhs => rw [ParseValue]
        simp only [ihO, ihA, ParseString_trailing_commas]
        rfl
      · intro st
        conv_lhs => rw [ParseObject]
        conv_rhs => rw [ParseObject]
        simp only [ihOL]
        rfl
      · intro obj st
        conv_lhs => rw [ParseObjectLoop]
        conv_rhs => rw [ParseObjectLoop]
        simp only [ihOL, ihV, ParseString_trailing_commas]
        rfl
      · intro st
        conv_lhs => rw [ParseArray]
        conv_rhs => rw [ParseArray]
        simp only [ihAL]
        rfl
      · intro arr st
        conv_lhs => rw [ParseArrayLoop]
        conv_rhs => rw [ParseArrayLoop]
        simp only [ihAL, ihV]
        rfl

/-- C16: `Parse` gives the same outcome (the same value, or the same
ParseError with the same position) whatever the value of
`allow_trailing_commas`, for every input and every setting of the other
options; in particular `[1,]` and `{"a":1,}` are rejected under both settings. -/
theorem C16_trailing_comma_switch_inert (cfg : JsonParserConfig) (b : Bool) (json : List Char) :
    Parse json { cfg with allow_trailing_commas := b } = Parse json cfg ∧
      (∃ e, Parse "[1,]".toList { JsonParserConfig.Strict with allow_trailing_commas := b } =
        .error (.exception e)) ∧
      (∃ e, Parse "\x7b\"a\":1,\x7d".toList
        { JsonParserConfig.Strict with allow_trailing_commas := b } = .error (.exception e)) := by
  have key : ∀ (c : JsonParserConfig) (j : List Char),
      Parse j { c with allow_trailing_commas := b } = Parse j c := by
    intro c j
    unfold Parse
    simp only [(ParseValue_trailing_commas c b _).1]
  refine ⟨key cfg json, ?_, ?_⟩
  · rw [key]
    exact ⟨.located (.unexpectedCharacter ']') 1 4 3, by decide!⟩
  · rw [key]
    exact ⟨.located (.expectedButGot '"' '\x7d') 1 8 7, by decide!⟩

/-! ### C17 and C18: comments, and the position of errors -/

/-- C17 (the code at the failing inputs): with comments enabled (the lenient
configuration), `{"a":1,"b":2}` is accepted, and so is the text with a comment
put right after the comma, but with white space after the comment, be it a
block comment or a line comment, as in `{"a":1, /* c */ "b":2}`, the text is
rejected: `SkipComments` runs once after `SkipWhitespace` and the white space
that follows the comment is never skipped before the key is expected. The
same happens before a closing bracket, as in `[1 /* c */ ]`. -/
theorem C17_whitespace_after_comment_rejected :
    Parse "\x7b\"a\":1,\"b\":2\x7d".toList JsonParserConfig.Lenient =
        .ok (.object [("a".toList, .number (Double.ofInt 1)),
          ("b".toList, .number (Double.ofInt 2))]) ∧
      Parse "\x7b\"a\":1,/* c */\"b\":2\x7d".toList JsonParserConfig.Lenient =
        .ok (.object [("a".toList, .number (Double.ofInt 1)),
          ("b".toList, .number (Double.ofInt 2))]) ∧
      Parse "\x7b\"a\":1, /* c */ \"b\":2\x7d".toList JsonParserConfig.Lenient =
        .error (.exception (.located (.expectedButGot '"' ' ') 1 12 15)) ∧
      Parse "\x7b\"a\":1, // c\n \"b\":2\x7d".toList JsonParserConfig.Lenient =
        .error (.exception (.located (.expectedButGot '"' ' ') 2 1 13)) ∧
      Parse "[1 ]".toList JsonParserConfig.Lenient = .ok (.array []) ∧
      Parse "[1 /* c */ ]".toList JsonParserConfig.Lenient =
        .error (.exception (.located .expectedCommaOrBracket 1 7 10)) := by
  decide!

/-- C18 (the code at the failing inputs): after the comment of `/**/?` the
error is reported at offset 4 with column 1 instead of 5, since `SkipComments`
moves the cursor over `/*` and `*/` without counting columns (and at the end
of `// c` the column is still 1 at offset 4); the error of a string longer
than `max_string_length` is raised without `ThrowParseError`, so it carries
no line and column and its position is 0 while the cursor is at offset 4. -/
theorem C18_error_position_not_tracked :
    Parse "/**/?".toList JsonParserConfig.Lenient =
        .error (.exception (.located (.unexpectedCharacter '?') 1 1 4)) ∧
      Parse "// c".toList JsonParserConfig.Lenient =
        .error (.exception (.located .unexpectedEndOfInput 1 1 4)) ∧
      Parse "\"abc\"".toList { JsonParserConfig.Strict with max_string_length := 2 } =
        .error (.exception (.plain .stringTooLong)) ∧
      (JsonParseException.plain .stringTooLong).GetPosition = 0 := by
  decide!

/-! ### C19: the builder, and C20: path access -/

/-- C19 (the code on the claimed call sequence): after `StartObject` and
`Key(k)`, the call `Value(v)` with a value that is not a container assigns
`v` to the whole object under construction (`*context = value` with
`context` pointing to the object, not to the entry of the key), so the result
is `v` itself, and the next `Key` and `EndObject` both raise an error. -/
theorem C19_builder_value_replaces_object (k next : List Char) (v : JsonValue)
    (hv : v.isContainer = false) :
    ∃ b, ((JsonBuilder.new.StartObject.bind (fun b => b.Key k)).bind (fun b => b.Value v)) = .ok b ∧
      b.result_ = v ∧ b.Key next = .error .keyOutsideObject ∧
      b.EndObject = .error .endObjectWithoutStart := by
  refine ⟨{ result_ := v, stack_ := [[]] }, ?_, rfl, ?_, ?_⟩
  · rfl
  · cases v <;> first | rfl | cases hv
  · cases v <;> first | rfl | cases hv

/-- C19 at the test `BuildSimpleObject`: after `StartObject`, `Key("name")`
and `Value("John")` the result is the string `John`, and `Key("age")` raises
"Key called outside of object context". -/
theorem C19_builder_value_replaces_object_witness :
    ∃ b, ((JsonBuilder.new.StartObject.bind (fun b => b.Key "name".toList)).bind
        (fun b => b.Value (.string "John".toList))) = .ok b ∧
      b.result_ = .string "John".toList ∧ b.Key "age".toList = .error .keyOutsideObject ∧
      b.EndObject = .error .endObjectWithoutStart :=
  C19_builder_value_replaces_object "name".toList "age".toList (.string "John".toList) rfl

/-- C20 (the code at the failing input): on the object `{"a": 1}` the path
`b[0]`, whose key is absent, makes `GetByPath` raise the `JsonKeyException` of
`At` (the branch of a segment with an index does not test `Contains`), while
the path `b` returns the null pointer; on `{"user": {"name": "Alice"}}` the
path `user.name` returns the string `Alice`. -/
theorem C20_absent_key_with_index_raises :
    GetByPath (.object [(['a'], .number (Double.ofInt 1))]) "b[0]".toList =
        .error (.keyNotFound ['b']) ∧
      GetByPath (.object [(['a'], .number (Double.ofInt 1))]) "b".toList = .ok none ∧
      GetByPath (.object [("user".toList, .object [("name".toList, .string "Alice".toList)])])
        "user.name".toList = .ok (some (.string "Alice".toList)) := by
  decide!

/-! ### C21: the typed accessors -/

/-- The text that `ValidateType` puts in its exception for the active type. -/
theorem JsonValue.ValidateType_eq (v : JsonValue) (expected : JsonValueType) :
    (v.GetType = expected → v.ValidateType expected = .ok ()) ∧
      (v.GetType ≠ expected → ∃ name, v.ValidateType expected = .error (.jsonTypeException name)) := by
  constructor
  · intro h
    simp [JsonValue.ValidateType, h]
  · intro h
    simp [JsonValue.ValidateType, h]

/-- C21: each typed accessor (`AsObject`, `AsArray`, `AsString`, `AsNumber`,
`AsBoolean`) raises the `JsonTypeException` exactly when the type of the value
differs from the requested one, and returns a payload exactly when the value
is of the requested type, the payload being the one of the value; no other
exception is raised. The accessors are functions of the value alone: they
write to no member. -/
theorem C21_typed_accessors (v : JsonValue) :
    (((∃ name, v.AsObject = .error (.jsonTypeException name)) ↔ v.GetType ≠ .kObject) ∧
        (∀ o, v.AsObject = .ok o ↔ v = .object o) ∧ v.AsObject ≠ .error .badVariantAccess) ∧
      (((∃ name, v.AsArray = .error (.jsonTypeException name)) ↔ v.GetType ≠ .kArray) ∧
        (∀ a, v.AsArray = .ok a ↔ v = .array a) ∧ v.AsArray ≠ .error .badVariantAccess) ∧
      (((∃ name, v.AsString = .error (.jsonTypeException name)) ↔ v.GetType ≠ .kString) ∧
        (∀ s, v.AsString = .ok s ↔ v = .string s) ∧ v.AsString ≠ .error .badVariantAccess) ∧
      (((∃ name, v.AsNumber = .error (.jsonTypeException name)) ↔ v.GetType ≠ .kNumber) ∧
        (∀ d, v.AsNumber = .ok d ↔ v = .number d) ∧ v.AsNumber ≠ .error .badVariantAccess) ∧
      (((∃ name, v.AsBoolean = .error (.jsonTypeException name)) ↔ v.GetType ≠ .kBoolean) ∧
        (∀ b, v.AsBoolean = .ok b ↔ v = .boolean b) ∧ v.AsBoolean ≠ .error .badVariantAccess) := by
  cases v <;>
    simp [JsonValue.AsObject, JsonValue.AsArray, JsonValue.AsString, JsonValue.AsNumber,
      JsonValue.AsBoolean, JsonValue.ValidateType, JsonValue.GetType, bind, Except.bind, pure,
      Except.pure, throw, throwThe, MonadExceptOf.throw]

/-! ### C22, C23, C24: the members of `JsonObject` -/

theorem JsonObject.find_eq_none : ∀ (o : JsonObject) (k : List Char),
    JsonObject.find o k = none ↔ k ∉ o.GetKeys := by
  intro o
  induction o with
  | nil => intro k; simp [JsonObject.find, JsonObject.GetKeys]
  | cons p o ih =>
      intro k
      obtain ⟨k0, v0⟩ := p
      unfold JsonObject.find
      by_cases h : k0 = k
      · rw [if_pos h]
        simp only [JsonObject.GetKeys, List.map_cons, List.mem_cons, not_or]
        exact ⟨fun hk => (by cases hk), fun hk => absurd h.symm hk.1⟩
      · rw [if_neg h, ih k]
        simp only [JsonObject.GetKeys, List.map_cons, List.mem_cons, not_or]
        exact ⟨fun hk => ⟨fun e => h e.symm, hk⟩, fun hk => hk.2⟩

theorem JsonObject.find_Insert_self : ∀ (o : JsonObject) (k : List Char) (v : JsonValue),
    JsonObject.find (o.Insert k v) k = some v := by
  intro o
  induction o with
  | nil => intro k v; simp [JsonObject.Insert, JsonObject.find]
  | cons p o ih =>
      intro k v
      obtain ⟨k0, v0⟩ := p
      unfold JsonObject.Insert
      by_cases h : k0 = k
      · rw [if_pos h]
        unfold JsonObject.find
        rw [if_pos h]
      · rw [if_neg h]
        unfold JsonObject.find
        rw [if_neg h]
        exact ih k v

theorem JsonObject.find_Insert_other : ∀ (o : JsonObject) (k : List Char) (v : JsonValue)
    (k1 : List Char), k1 ≠ k → JsonObject.find (o.Insert k v) k1 = JsonObject.find o k1 := by
  intro o
  induction o with
  | nil =>
      intro k v k1 h
      have h1 : k ≠ k1 := fun e => h e.symm
      simp [JsonObject.Insert, JsonObject.find, h1]
  | cons p o ih =>
      intro k v k1 hne
      obtain ⟨k0, v0⟩ := p
      unfold JsonObject.Insert
      by_cases h : k0 = k
      · rw [if_pos h]
        unfold JsonObject.find
        have h1 : k0 ≠ k1 := fun e => hne (e.symm.trans h)
        rw [if_neg h1, if_neg h1]
      · rw [if_neg h]
        unfold JsonObject.find
        by_cases h1 : k0 = k1
        · rw [if_pos h1, if_pos h1]
        · rw [if_neg h1, if_neg h1]
          exact ih k v k1 hne

theorem JsonObject.length_Insert : ∀ (o : JsonObject) (k : List Char) (v : JsonValue),
    (o.Insert k v).length = if (JsonObject.find o k).isSome then o.length else o.length + 1 := by
  intro o
  induction o with
  | nil => intro k v; simp [JsonObject.Insert, JsonObject.find]
  | cons p o ih =>
      intro k v
      obtain ⟨k0, v0⟩ := p
      unfold JsonObject.Insert JsonObject.find
      by_cases h : k0 = k
      · simp [h]
      · rw [if_neg h, if_neg h, List.length_cons, ih k v]
        split <;> simp

theorem JsonObject.keys_Insert : ∀ (o : JsonObject) (k : List Char) (v : JsonValue),
    (o.Insert k v).map Prod.fst =
      if (JsonObject.find o k).isSome then o.map Prod.fst else o.map Prod.fst ++ [k] := by
  intro o
  induction o with
  | nil => intro k v; simp [JsonObject.Insert, JsonObject.find]
  | cons p o ih =>
      intro k v
      obtain ⟨k0, v0⟩ := p
      unfold JsonObject.Insert JsonObject.find
      by_cases h : k0 = k
      · simp [h]
      · rw [if_neg h, if_neg h, List.map_cons, ih k v]
        split <;> simp

theorem JsonObject.nodup_Insert (o : JsonObject) (k : List Char) (v : JsonValue)
    (h : (o.map Prod.fst).Nodup) : ((o.Insert k v).map Prod.fst).Nodup := by
  rw [JsonObject.keys_Insert]
  split
  · exact h
  · rename_i hk
    have hk1 : JsonObject.find o k = none := by
      cases hf : JsonObject.find o k with
      | none => rfl
      | some w => rw [hf] at hk; exact absurd rfl hk
    have hk2 : k ∉ o.map Prod.fst := (JsonObject.find_eq_none o k).mp hk1
    rw [List.nodup_append]
    refine ⟨h, List.nodup_singleton k, ?_⟩
    intro a ha hb
    rw [List.mem_singleton] at hb
    subst hb
    exact hk2 ha

theorem JsonObject.find_InsertAll : ∀ (pairs : List (List Char × JsonValue)) (o : JsonObject)
    (k : List Char),
    JsonObject.find (o.InsertAll pairs) k =
      match JsonObject.lastInserted pairs k with
      | some v => some v
      | none => JsonObject.find o k := by
  intro pairs
  induction pairs with
  | nil => intro o k; simp [JsonObject.InsertAll, JsonObject.lastInserted]
  | cons p pairs ih =>
      intro o k
      obtain ⟨k0, v0⟩ := p
      have hstep : JsonObject.InsertAll o ((k0, v0) :: pairs) =
          JsonObject.InsertAll (o.Insert k0 v0) pairs := rfl
      rw [hstep, ih (o.Insert k0 v0) k]
      have hl : JsonObject.lastInserted ((k0, v0) :: pairs) k =
          match JsonObject.lastInserted pairs k with
          | some v => some v
          | none => if k0 = k then some v0 else none := by
        unfold JsonObject.lastInserted
        rw [List.reverse_cons, List.find?_append]
        cases hf : List.find? (fun p => decide (p.1 = k)) pairs.reverse with
        | some q => simp
        | none =>
            by_cases hk : k0 = k
            · simp [hk]
            · simp [hk]
      rw [hl]
      cases JsonObject.lastInserted pairs k with
      | some v => rfl
      | none =>
          by_cases hk : k0 = k
          · subst hk
            simp [JsonObject.find_Insert_self]
          · simp only [if_neg hk]
            exact JsonObject.find_Insert_other o k0 v0 k (fun e => hk e.symm)

/-- C22: the checked accessor `At(k)` raises the `JsonKeyException` (here
`none`) exactly when `k` is not a key of the object, and otherwise returns the
mapped value, which, after any sequence of calls to `Insert`, is the value of
the last call made with the key `k` (the value the object had before when no
call was made with it). `At` is a function of the object alone: it writes to
no member. -/
theorem C22_checked_key_access (o : JsonObject) (k : List Char) :
    (o.At k = none ↔ k ∉ o.GetKeys) ∧
      (∀ pairs : List (List Char × JsonValue), ∀ v,
        JsonObject.lastInserted pairs k = some v → (o.InsertAll pairs).At k = some v) ∧
      (∀ pairs : List (List Char × JsonValue),
        JsonObject.lastInserted pairs k = none → (o.InsertAll pairs).At k = o.At k) := by
  refine ⟨JsonObject.find_eq_none o k, ?_, ?_⟩
  · intro pairs v h
    unfold JsonObject.At
    rw [JsonObject.find_InsertAll, h]
  · intro pairs h
    unfold JsonObject.At
    rw [JsonObject.find_InsertAll, h]

/-- A run of C22: of two insertions under `a` the second one is returned, and
the key `c` is absent. -/
theorem C22_checked_key_access_witness :
    (JsonObject.InsertAll [] [(['a'], .null), (['b'], .boolean true), (['a'], .string ['x'])]).At
        ['a'] = some (.string ['x']) ∧
      JsonObject.At [(['a'], .string ['x']), (['b'], .boolean true)] ['c'] = none :=
  ⟨(C22_checked_key_access [] ['a']).2.1 _ _ (by decide),
    (C22_checked_key_access [(['a'], .string ['x']), (['b'], .boolean true)] ['c']).1.mpr
      (by decide)⟩

/-- C23: after `Insert(k, v)` the key is contained, `At(k)` is `v`, every
other key is mapped as before (or absent as before), the size has grown by
one if the key was absent and is the same if it was present, and the keys are
still pairwise distinct. -/
theorem C23_insert_overwrites (o : JsonObject) (k : List Char) (v : JsonValue) :
    (o.Insert k v).Contains k = true ∧ (o.Insert k v).At k = some v ∧
      (∀ k1, k1 ≠ k → (o.Insert k v).At k1 = o.At k1 ∧
        (o.Insert k v).Contains k1 = o.Contains k1) ∧
      (o.Insert k v).Size = (if o.Contains k then o.Size else o.Size + 1) ∧
      (o.GetKeys.Nodup → (o.Insert k v).GetKeys.Nodup) := by
  refine ⟨?_, JsonObject.find_Insert_self o k v, ?_, JsonObject.length_Insert o k v,
    JsonObject.nodup_Insert o k v⟩
  · unfold JsonObject.Contains
    rw [JsonObject.find_Insert_self]
    rfl
  · intro k1 h
    unfold JsonObject.Contains JsonObject.At
    rw [JsonObject.find_Insert_other o k v k1 h]
    exact ⟨rfl, rfl⟩

/-- A run of C23: an insertion under a present key and its effect on the
keys of the object. -/
theorem C23_insert_overwrites_witness :
    JsonObject.GetKeys [(['a'], JsonValue.null), (['b'], .boolean true)] = [['a'], ['b']] ∧
      (JsonObject.Insert [(['a'], JsonValue.null), (['b'], .boolean true)] ['a']
        (.string ['x'])).GetKeys.Nodup :=
  ⟨rfl, (C23_insert_overwrites [(['a'], JsonValue.null), (['b'], .boolean true)] ['a']
    (.string ['x'])).2.2.2.2 (by decide)⟩

/-- C24: the non-const `operator[]` never fails. On an absent key it inserts
the key with the null value (the size grows by one, the key is contained, all
other keys are mapped as before) and returns that slot; on a present key it
returns the mapped value and leaves the object as it was. -/
theorem C24_index_inserts_null (o : JsonObject) (k : List Char) :
    (o.Contains k = false →
        (o.index k).1 = .null ∧ (o.index k).2.Size = o.Size + 1 ∧
          (o.index k).2.Contains k = true ∧ (o.index k).2.At k = some .null ∧
          (∀ k1, k1 ≠ k → (o.index k).2.At k1 = o.At k1) ∧
          (o.index k).2 = o.Insert k .null) ∧
      (∀ v, o.At k = some v → o.index k = (v, o)) := by
  constructor
  · intro h
    have hf : JsonObject.find o k = none := by
      unfold JsonObject.Contains at h
      cases hf : JsonObject.find o k with
      | none => rfl
      | some w => rw [hf] at h; cases h
    have hk : k ∉ o.map Prod.fst := (JsonObject.find_eq_none o k).mp hf
    have hi : o.index k = (JsonValue.null, o.Insert k .null) := by
      unfold JsonObject.index
      rw [hf, JsonObject.Insert_new o k .null hk]
    rw [hi]
    refine ⟨rfl, ?_, ?_, JsonObject.find_Insert_self o k .null, ?_, rfl⟩
    · show (o.Insert k .null).length = o.length + 1
      rw [JsonObject.length_Insert, hf]
      rfl
    · unfold JsonObject.Contains
      rw [JsonObject.find_Insert_self]
      rfl
    · intro k1 h1
      exact JsonObject.find_Insert_other o k .null k1 h1
  · intro v h
    unfold JsonObject.At at h
    unfold JsonObject.index
    rw [h]

/-- A run of C24 on an absent and on a present key. -/
theorem C24_index_inserts_null_witness :
    (JsonObject.index [(['a'], .boolean true)] ['b']).2 =
        [(['a'], .boolean true), (['b'], .null)] ∧
      JsonObject.index [(['a'], .boolean true)] ['a'] =
        (.boolean true, [(['a'], .boolean true)]) :=
  ⟨((C24_index_inserts_null [(['a'], .boolean true)] ['b']).1 (by decide)).2.2.2.2.2,
    (C24_index_inserts_null [(['a'], .boolean true)] ['a']).2 _ (by decide)⟩

/-! ### C25, C26: the members of `JsonArray` -/

/-- C25: `At(i)` and `operator[]` return the element at the zero-based
position `i` when `i < Size`, and raise the `JsonException` "Array index out
of bounds" when `i >= Size`. Both are functions of the array alone: they
write to no member. -/
theorem C25_checked_index_access (a : JsonArray) (i : Nat) :
    (∀ h : i < a.Size, a.At i = .ok (a.get ⟨i, h⟩) ∧ a.index i = .ok (a.get ⟨i, h⟩)) ∧
      (a.Size ≤ i → a.At i = .error (.indexOutOfBounds i) ∧
        a.index i = .error (.indexOutOfBounds i)) := by
  constructor
  · intro h
    have hn : ¬ i ≥ a.length := Nat.not_le.mpr h
    unfold JsonArray.At JsonArray.index
    rw [dif_neg hn]
    exact ⟨rfl, rfl⟩
  · intro h
    have hn : i ≥ a.length := h
    unfold JsonArray.At JsonArray.index
    rw [dif_pos hn]
    exact ⟨rfl, rfl⟩

/-- A run of C25 inside and outside of the bounds. -/
theorem C25_checked_index_access_witness :
    JsonArray.At [.null, .boolean true, .string ['x']] 1 = .ok (.boolean true) ∧
      JsonArray.index [.null, .boolean true, .string ['x']] 3 = .error (.indexOutOfBounds 3) :=
  ⟨((C25_checked_index_access [.null, .boolean true, .string ['x']] 1).1 (by decide)).1,
    ((C25_checked_index_access [.null, .boolean true, .string ['x']] 3).2 (by decide)).2⟩

theorem JsonArray.insert_getElem (a : JsonArray) (i : Nat) (v : JsonValue) (h : i ≤ a.length) :
    (a.take i ++ v :: a.drop i)[i]? = some v ∧
      (∀ j, j < i → (a.take i ++ v :: a.drop i)[j]? = a[j]?) ∧
      (∀ j, i ≤ j → (a.take i ++ v :: a.drop i)[j + 1]? = a[j]?) := by
  have hl : (a.take i).length = i := by
    rw [List.length_take]
    omega
  refine ⟨?_, ?_, ?_⟩
  · rw [List.getElem?_append_right (by omega), hl, Nat.sub_self]
    exact List.getElem?_cons_zero
  · intro j hj
    rw [List.getElem?_append_left (by omega), List.getElem?_take_of_lt hj]
  · intro j hj
    rw [List.getElem?_append_right (by omega), hl]
    have h1 : j + 1 - i = (j - i) + 1 := by omega
    rw [h1, List.getElem?_cons_succ, List.getElem?_drop]
    congr 1
    omega

/-- C26: when `i <= Size`, `Insert(i, v)` gives an array of `Size + 1`
elements with `v` at the position `i`, the elements before `i` where they
were and the former elements from `i` on one position further, and `Erase(i)`
then gives the original array back; when `i > Size`, `Insert` raises the
`JsonException` "Array index out of bounds" before anything is written. -/
theorem C26_array_insert_erase (a : JsonArray) (i : Nat) (v : JsonValue) :
    (i ≤ a.Size → ∃ b, a.Insert i v = .ok b ∧ b.Size = a.Size + 1 ∧ b[i]? = some v ∧
        (∀ j, j < i → b[j]? = a[j]?) ∧ (∀ j, i ≤ j → b[j + 1]? = a[j]?) ∧
        b.Erase i = .ok a) ∧
      (a.Size < i → a.Insert i v = .error (.indexOutOfBounds i)) := by
  constructor
  · intro h
    have h0 : i ≤ a.length := h
    have hn : ¬ i > a.length := Nat.not_lt.mpr h0
    have hl : (a.take i).length = i := by
      rw [List.length_take]
      omega
    obtain ⟨h1, h2, h3⟩ := JsonArray.insert_getElem a i v h0
    refine ⟨a.take i ++ v :: a.drop i, ?_, ?_, h1, h2, h3, ?_⟩
    · unfold JsonArray.Insert
      rw [if_neg hn]
    · show (a.take i ++ v :: a.drop i).length = a.length + 1
      rw [List.length_append, List.length_cons, List.length_drop, hl]
      omega
    · unfold JsonArray.Erase
      have hlen : (a.take i ++ v :: a.drop i).length = a.length + 1 := by
        rw [List.length_append, List.length_cons, List.length_drop, hl]
        omega
      have hn1 : ¬ i ≥ (a.take i ++ v :: a.drop i).length := by
        rw [hlen]
        omega
      rw [if_neg hn1]
      have ht : (a.take i ++ v :: a.drop i).take i = a.take i := by
        rw [List.take_append_of_le_length (by omega), List.take_take, Nat.min_self]
      have hd : (a.take i ++ v :: a.drop i).drop (i + 1) = a.drop i := by
        have e : i + 1 = (a.take i).length + 1 := by omega
        rw [e, List.drop_append]
        rfl
      rw [ht, hd, List.take_append_drop]
  · intro h
    have h0 : i > a.length := h
    unfold JsonArray.Insert
    rw [if_pos h0]

/-- A run of C26: an insertion in the middle, undone by `Erase`, and an
insertion beyond the end. -/
theorem C26_array_insert_erase_witness :
    (∃ b, JsonArray.Insert [.null, .boolean true] 1 (.string ['x']) = .ok b ∧ b.Size = 3 ∧
        b[1]? = some (.string ['x']) ∧
        (∀ j, j < 1 → b[j]? = [JsonValue.null, JsonValue.boolean true][j]?) ∧
        (∀ j, 1 ≤ j → b[j + 1]? = [JsonValue.null, JsonValue.boolean true][j]?) ∧
        b.Erase 1 = .ok [.null, .boolean true]) ∧
      JsonArray.Insert [.null, .boolean true] 3 (.string ['x']) = .error (.indexOutOfBounds 3) :=
  ⟨(C26_array_insert_erase [.null, .boolean true] 1 (.string ['x'])).1 (by decide),
    (C26_array_insert_erase [.null, .boolean true] 3 (.string ['x'])).2 (by decide)⟩

/-! ### C27, C28: equality of objects, and the deep copy of a tree -/

theorem Double.toRatio_neg (m e : Int) :
    Double.toRatio (-m) e = (-(Double.toRatio m e).1, (Double.toRatio m e).2) := by
  unfold Double.toRatio
  split <;> simp

theorem Double.ofRatio_zero (d : Nat) : Double.ofRatio 0 d = .fin 0 0 := by
  unfold Double.ofRatio
  rw [if_pos ⟨dvd_zero _, by simp⟩]
  simp [Double.exactInt, Double.normalize]

theorem Double.sub_self_fin (m e : Int) : Double.sub (.fin m e) (.fin m e) = .fin 0 0 := by
  show Double.add (.fin m e) (.fin (-m) e) = .fin 0 0
  unfold Double.add
  simp only [Double.toRatio_neg]
  have h : (Double.toRatio m e).1 * ((Double.toRatio m e).2 : Int) +
      -(Double.toRatio m e).1 * ((Double.toRatio m e).2 : Int) = 0 := by ring
  rw [h, Double.ofRatio_zero]

theorem JsonValue.number_eq_self_fin (m e : Int) :
    JsonValue.eq (.number (.fin m e)) (.number (.fin m e)) = true := by
  rw [JsonValue.eq, Double.sub_self_fin]
  decide!

theorem JsonValue.objectLoop_iff : ∀ (a b : JsonObject),
    JsonValue.objectLoop a b = true ↔
      ∀ k v, (k, v) ∈ a → ∃ w, JsonObject.find b k = some w ∧ JsonValue.eq w v = true := by
  intro a
  induction a with
  | nil =>
      intro b
      simp [JsonValue.objectLoop]
  | cons p a ih =>
      intro b
      obtain ⟨k0, v0⟩ := p
      unfold JsonValue.objectLoop
      rw [Bool.and_eq_true, ih b]
      constructor
      · intro h k v hm
        rcases List.mem_cons.mp hm with hm | hm
        · rw [(Prod.mk.inj hm).1, (Prod.mk.inj hm).2]
          cases hf : JsonObject.find b k0 with
          | none => rw [hf] at h; exact absurd h.1 (by simp)
          | some w =>
              rw [hf] at h
              exact ⟨w, rfl, by rw [← JsonValue.eqFlip_eq]; exact h.1⟩
        · exact h.2 k v hm
      · intro h
        refine ⟨?_, fun k v hm => h k v (List.mem_cons_of_mem _ hm)⟩
        obtain ⟨w, hf, hw⟩ := h k0 v0 (List.mem_cons_self _ _)
        rw [hf]
        show JsonValue.eqFlip v0 w = true
        rw [JsonValue.eqFlip_eq]
        exact hw

/-- The operator `JsonObject::operator==` holds exactly when the sizes are
the same and each key on the left is a key on the right whose value there
compares equal (`it->second != pair.second` is false). -/
theorem JsonValue.eq_object_iff (a b : JsonObject) :
    JsonValue.eq (.object a) (.object b) = true ↔
      a.length = b.length ∧
        ∀ k v, (k, v) ∈ a → ∃ w, JsonObject.find b k = some w ∧ JsonValue.eq w v = true := by
  rw [JsonValue.eq, Bool.and_eq_true, JsonValue.objectLoop_iff, decide_eq_true_iff]

theorem JsonValue.arrayLoop_self : ∀ (a : JsonArray),
    (∀ v, v ∈ a → JsonValue.eq v v = true) → JsonValue.arrayLoop a a = true := by
  intro a
  induction a with
  | nil => intro _; simp [JsonValue.arrayLoop]
  | cons x a ih =>
      intro h
      unfold JsonValue.arrayLoop
      rw [h x (List.mem_cons_self _ _), ih (fun v hv => h v (List.mem_cons_of_mem _ hv))]
      rfl

mutual

/-- A regular value compares equal to itself. -/
theorem JsonValue.eq_self_of_Regular : ∀ (v : JsonValue), v.Regular → JsonValue.eq v v = true
  | .object members, h => by
      simp only [JsonValue.Regular] at h
      rw [JsonValue.eq_object_iff]
      refine ⟨rfl, ?_⟩
      intro k v hm
      exact ⟨v, JsonObject.find_of_mem members h.2 k v hm,
        JsonValue.eq_self_of_RegularMembers members h.1 k v hm⟩
  | .array elements, h => by
      simp only [JsonValue.Regular] at h
      rw [JsonValue.eq, JsonValue.arrayLoop_self elements (JsonValue.eq_self_of_RegularElements elements h)]
      simp
  | .string s, _ => by simp [JsonValue.eq]
  | .number (.fin m e), _ => JsonValue.number_eq_self_fin m e
  | .number (.inf _), h => by simp [JsonValue.Regular] at h
  | .number .nan, h => by simp [JsonValue.Regular] at h
  | .boolean b, _ => by simp [JsonValue.eq]
  | .null, _ => by simp [JsonValue.eq]

/-- The values of regular entries compare equal to themselves. -/
theorem JsonValue.eq_self_of_RegularMembers : ∀ (members : JsonObject),
    JsonValue.RegularMembers members → ∀ k v, (k, v) ∈ members → JsonValue.eq v v = true
  | [], _ => by intro k v hm; cases hm
  | (k0, v0) :: members, h => by
      simp only [JsonValue.RegularMembers] at h
      intro k v hm
      rcases List.mem_cons.mp hm with hm | hm
      · cases hm
        exact JsonValue.eq_self_of_Regular v0 h.1
      · exact JsonValue.eq_self_of_RegularMembers members h.2 k v hm

/-- Regular elements compare equal to themselves. -/
theorem JsonValue.eq_self_of_RegularElements : ∀ (elements : JsonArray),
    JsonValue.RegularElements elements → ∀ v, v ∈ elements → JsonValue.eq v v = true
  | [], _ => by intro v hm; cases hm
  | v0 :: elements, h => by
      simp only [JsonValue.RegularElements] at h
      intro v hm
      rcases List.mem_cons.mp hm with hm | hm
      · cases hm
        exact JsonValue.eq_self_of_Regular v0 h.1
      · exact JsonValue.eq_self_of_RegularElements elements h.2 v hm

end

theorem JsonObject.InsertAll_distinct : ∀ (pairs : List (List Char × JsonValue)) (o : JsonObject),
    ((o ++ pairs).map Prod.fst).Nodup → o.InsertAll pairs = o ++ pairs := by
  intro pairs
  induction pairs with
  | nil => intro o _; simp [JsonObject.InsertAll]
  | cons p pairs ih =>
      intro o h
      have hstep : JsonObject.InsertAll o (p :: pairs) =
          JsonObject.InsertAll (o.Insert p.1 p.2) pairs := rfl
      have hk : p.1 ∉ o.map Prod.fst := by
        rw [List.map_append, List.map_cons] at h
        have h1 := (List.nodup_append.mp h).2.2
        intro hm
        exact h1 hm (List.mem_cons_self _ _)
      rw [hstep, JsonObject.Insert_new o p.1 p.2 hk]
      have e : o ++ [(p.1, p.2)] ++ pairs = o ++ p :: pairs := by simp
      rw [ih (o ++ [(p.1, p.2)]) (by rw [e]; exact h), e]

/-- C27 fails for values that do not compare equal to themselves: an object
with an infinite Number, or with a NaN, built from the same pairs in two
orders is not equal to the other one (nor to itself). -/
theorem C27_not_reflexive_counterexample :
    JsonValue.eq
        (.object (JsonObject.InsertAll [] [(['a'], .number (.inf false)), (['b'], .null)]))
        (.object (JsonObject.InsertAll [] [(['b'], .null), (['a'], .number (.inf false))])) =
      false ∧
    JsonValue.eq
        (.object (JsonObject.InsertAll [] [(['a'], .number .nan), (['b'], .null)]))
        (.object (JsonObject.InsertAll [] [(['b'], .null), (['a'], .number .nan)])) =
      false := by
  constructor <;> decide!

/-- C27, for values that hold no NaN and no infinite Number: two objects
built by inserting the same pairs (keys pairwise distinct) in any two orders
are equal under `operator==`; and for all objects, `o1 == o2` holds exactly
when the sizes are the same and each entry of `o1` has a key that `o2` maps
to a value that compares equal (`operator==`) to the one of `o1`. -/
theorem C27_object_equality_ignores_order (ps qs : List (List Char × JsonValue))
    (hperm : ps.Perm qs) (hk : (ps.map Prod.fst).Nodup) (hr : ∀ p, p ∈ ps → p.2.Regular) :
    JsonValue.eq (.object (JsonObject.InsertAll [] ps)) (.object (JsonObject.InsertAll [] qs)) =
        true ∧
      ∀ o1 o2 : JsonObject,
        JsonValue.eq (.object o1) (.object o2) = true ↔
          o1.Size = o2.Size ∧
            ∀ k v, (k, v) ∈ o1 → ∃ w, o2.At k = some w ∧ JsonValue.eq w v = true := by
  refine ⟨?_, fun o1 o2 => JsonValue.eq_object_iff o1 o2⟩
  have hk2 : (qs.map Prod.fst).Nodup := (hperm.map Prod.fst).nodup_iff.mp hk
  rw [JsonObject.InsertAll_distinct ps [] (by simpa using hk),
    JsonObject.InsertAll_distinct qs [] (by simpa using hk2)]
  simp only [List.nil_append]
  rw [JsonValue.eq_object_iff]
  refine ⟨hperm.length_eq, ?_⟩
  intro k v hm
  exact ⟨v, JsonObject.find_of_mem qs hk2 k v (hperm.mem_iff.mp hm),
    JsonValue.eq_self_of_Regular v (hr (k, v) hm)⟩

/-- A run of C27 on three pairs inserted in two orders. -/
theorem C27_object_equality_ignores_order_witness :
    JsonValue.eq
        (.object (JsonObject.InsertAll []
          [(['a'], .number (.fin 3 (-1))), (['b'], .null), (['c'], .array [.boolean true])]))
        (.object (JsonObject.InsertAll []
          [(['c'], .array [.boolean true]), (['a'], .number (.fin 3 (-1))), (['b'], .null)])) =
      true :=
  (C27_object_equality_ignores_order
    [(['a'], .number (.fin 3 (-1))), (['b'], .null), (['c'], .array [.boolean true])]
    [(['c'], .array [.boolean true]), (['a'], .number (.fin 3 (-1))), (['b'], .null)]
    (by decide) (by decide)
    (by
      intro p hp
      simp only [List.mem_cons, List.mem_singleton, List.not_mem_nil, or_false] at hp
      rcases hp with rfl | rfl | rfl <;>
        simp [JsonValue.Regular, JsonValue.RegularElements])).1

mutual

/-- On a regular tree the deep copy builds the same tree again. -/
theorem DeepCopy_of_Regular : ∀ (v : JsonValue), v.Regular → DeepCopy v = v
  | .object members, h => by
      simp only [JsonValue.Regular] at h
      rw [DeepCopy, DeepCopyMembers_of_Regular members [] h.1 (by simpa using h.2)]
      rfl
  | .array elements, h => by
      simp only [JsonValue.Regular] at h
      rw [DeepCopy, DeepCopyElements_of_Regular elements [] h]
      rfl
  | .string _, _ => by rw [DeepCopy]
  | .number _, _ => by rw [DeepCopy]
  | .boolean _, _ => by rw [DeepCopy]
  | .null, _ => by rw [DeepCopy]

/-- The loop over regular entries appends them to the object built so far. -/
theorem DeepCopyMembers_of_Regular : ∀ (members new_obj : JsonObject),
    JsonValue.RegularMembers members → ((new_obj ++ members).map Prod.fst).Nodup →
      DeepCopyMembers members new_obj = new_obj ++ members
  | [], new_obj, _, _ => by rw [DeepCopyMembers, List.append_nil]
  | (k, v) :: members, new_obj, h, hk => by
      simp only [JsonValue.RegularMembers] at h
      have hk1 : k ∉ new_obj.map Prod.fst := by
        rw [List.map_append, List.map_cons] at hk
        have h1 := (List.nodup_append.mp hk).2.2
        intro hm
        exact h1 hm (List.mem_cons_self _ _)
      have e : new_obj ++ [(k, v)] ++ members = new_obj ++ (k, v) :: members := by simp
      rw [DeepCopyMembers, DeepCopy_of_Regular v h.1, JsonObject.Insert_new new_obj k v hk1,
        DeepCopyMembers_of_Regular members (new_obj ++ [(k, v)]) h.2 (by rw [e]; exact hk), e]

/-- The loop over regular elements appends them to the array built so far. -/
theorem DeepCopyElements_of_Regular : ∀ (elements new_arr : JsonArray),
    JsonValue.RegularElements elements → DeepCopyElements elements new_arr = new_arr ++ elements
  | [], new_arr, _ => by rw [DeepCopyElements, List.append_nil]
  | v :: elements, new_arr, h => by
      simp only [JsonValue.RegularElements] at h
      rw [DeepCopyElements, DeepCopy_of_Regular v h.1, JsonArray.PushBack,
        DeepCopyElements_of_Regular elements (new_arr ++ [v]) h.2]
      simp

end

/-- C28 fails for an infinite Number, which the parser produces for `1e999`:
the deep copy of the parsed value does not compare equal to it. -/
theorem C28_infinity_counterexample :
    Parse "\x7b\"a\":1e999\x7d".toList = .ok (.object [(['a'], .number (.inf false))]) ∧
      JsonValue.eq (DeepCopy (.object [(['a'], .number (.inf false))]))
        (.object [(['a'], .number (.inf false))]) = false ∧
      JsonValue.eq (DeepCopy (.number (.inf false))) (.number (.inf false)) = false := by
  refine ⟨by decide!, by decide!, by decide!⟩

/-- C28, for values that hold no NaN and no infinite Number: the deep copy of
`v` compares equal to `v` under `operator==`, with either operand on the left,
and is the same tree, so that the type is the same at every node. -/
theorem C28_deep_copy_equal (v : JsonValue) (h : v.Regular) :
    JsonValue.eq (DeepCopy v) v = true ∧ JsonValue.eq v (DeepCopy v) = true ∧
      DeepCopy v = v := by
  rw [DeepCopy_of_Regular v h]
  exact ⟨JsonValue.eq_self_of_Regular v h, JsonValue.eq_self_of_Regular v h, rfl⟩

/-- A run of C28 on an object with a nested array and a fraction. -/
theorem C28_deep_copy_equal_witness :
    JsonValue.eq
        (DeepCopy (.object [(['k'], .array [.number (.fin 3 (-1)), .string ['x']])]))
        (.object [(['k'], .array [.number (.fin 3 (-1)), .string ['x']])]) = true :=
  (C28_deep_copy_equal (.object [(['k'], .array [.number (.fin 3 (-1)), .string ['x']])])
    (by simp [JsonValue.Regular, JsonValue.RegularMembers, JsonValue.RegularElements])).1

/-! ### C30: the order of the keys that the writer sorts -/

theorem stringLess_cons_false (x y : Char) (xs ys : List Char) :
    stringLess (x :: xs) (y :: ys) = false ↔ ¬ x < y ∧ (x = y → stringLess xs ys = false) := by
  rw [stringLess]
  simp only [Bool.or_eq_false_iff, decide_eq_false_iff_not, Bool.and_eq_false_iff]
  constructor
  · rintro ⟨h1, h2⟩
    refine ⟨h1, fun e => ?_⟩
    rcases h2 with h2 | h2
    · exact absurd e h2
    · exact h2
  · rintro ⟨h1, h2⟩
    refine ⟨h1, ?_⟩
    by_cases e : x = y
    · exact Or.inr (h2 e)
    · exact Or.inl e

theorem stringLess_total : ∀ (a b : List Char), stringLess b a = false ∨ stringLess a b = false
  | [], b => Or.inl (by cases b <;> rfl)
  | _ :: _, [] => Or.inr rfl
  | x :: xs, y :: ys => by
      rw [stringLess_cons_false, stringLess_cons_false]
      rcases lt_trichotomy x y with h | h | h
      · exact Or.inl ⟨not_lt_of_gt h, fun e => absurd h (by rw [e]; exact lt_irrefl _)⟩
      · subst h
        rcases stringLess_total xs ys with h1 | h1
        · exact Or.inl ⟨lt_irrefl _, fun _ => h1⟩
        · exact Or.inr ⟨lt_irrefl _, fun _ => h1⟩
      · exact Or.inr ⟨not_lt_of_gt h, fun e => absurd h (by rw [e]; exact lt_irrefl _)⟩

theorem stringLess_antisymm : ∀ (a b : List Char),
    stringLess b a = false → stringLess a b = false → a = b
  | [], [], _, _ => rfl
  | [], _ :: _, _, h => by cases h
  | _ :: _, [], h, _ => by cases h
  | x :: xs, y :: ys, h1, h2 => by
      rw [stringLess_cons_false] at h1 h2
      have e : x = y := by
        rcases lt_trichotomy x y with h | h | h
        · exact absurd h h2.1
        · exact h
        · exact absurd h h1.1
      subst e
      rw [stringLess_antisymm xs ys (h1.2 rfl) (h2.2 rfl)]

theorem stringLess_trans : ∀ (a b c : List Char),
    stringLess b a = false → stringLess c b = false → stringLess c a = false
  | [], _, c, _, _ => by cases c <;> rfl
  | _ :: _, [], _, h, _ => by cases h
  | _ :: _, _ :: _, [], _, h => by cases h
  | x :: xs, y :: ys, z :: zs, h1, h2 => by
      rw [stringLess_cons_false] at h1 h2 ⊢
      have hxy : x ≤ y := not_lt.mp h1.1
      have hyz : y ≤ z := not_lt.mp h2.1
      refine ⟨not_lt.mpr (le_trans hxy hyz), fun e => ?_⟩
      subst e
      have e1 : y = z := le_antisymm hyz hxy
      subst e1
      exact stringLess_trans xs ys zs (h1.2 rfl) (h2.2 rfl)

theorem sortKeys_sorted (keys : List (List Char)) :
    (sortKeys keys).Sorted (fun a b => stringLess b a = false) := by
  haveI : IsTotal (List Char) (fun a b => stringLess b a = false) := ⟨stringLess_total⟩
  haveI : IsTrans (List Char) (fun a b => stringLess b a = false) := ⟨stringLess_trans⟩
  exact List.sorted_insertionSort _ keys

theorem sortKeys_perm (keys : List (List Char)) : (sortKeys keys).Perm keys :=
  List.perm_insertionSort _ keys

theorem sortKeys_eq_of_perm {k1 k2 : List (List Char)} (h : k1.Perm k2) :
    sortKeys k1 = sortKeys k2 := by
  haveI : IsAntisymm (List Char) (fun a b => stringLess b a = false) := ⟨stringLess_antisymm⟩
  exact List.eq_of_perm_of_sorted (((sortKeys_perm k1).trans h).trans (sortKeys_perm k2).symm)
    (sortKeys_sorted k1) (sortKeys_sorted k2)

theorem WriteObjectLoop_congr (cfg : JsonWriterConfig)
    (t1 t2 : List (List Char × Except WriterException (List Char))) (indent : Int) :
    ∀ (keys : List (List Char)) (first : Bool), (∀ k, k ∈ keys → t1.lookup k = t2.lookup k) →
      WriteObjectLoop cfg t1 indent keys first = WriteObjectLoop cfg t2 indent keys first := by
  intro keys
  induction keys with
  | nil => intro first _; rw [WriteObjectLoop, WriteObjectLoop]
  | cons k keys ih =>
      intro first h
      rw [WriteObjectLoop, WriteObjectLoop, h k (List.mem_cons_self _ _),
        ih false (fun k1 h1 => h k1 (List.mem_cons_of_mem _ h1))]

theorem lookup_WriteValues (cfg : JsonWriterConfig) (indent depth : Int) :
    ∀ (a : JsonObject) (k : List Char),
      (a.GetKeys.zip (WriteValues cfg a indent depth)).lookup k =
        (JsonObject.find a k).map (fun v => WriteValue cfg v indent depth) := by
  intro a
  induction a with
  | nil => intro k; simp [JsonObject.GetKeys, WriteValues, JsonObject.find]
  | cons p a ih =>
      intro k
      obtain ⟨k0, v0⟩ := p
      rw [WriteValues, JsonObject.find]
      simp only [JsonObject.GetKeys, List.map_cons, List.zip_cons_cons, List.lookup_cons]
      by_cases hk : k0 = k
      · subst hk
        simp
      · have hb : (k == k0) = false := by
          rw [beq_eq_false_iff_ne]
          exact fun e => hk e.symm
        rw [hb, if_neg hk]
        exact ih k

theorem keys_perm_of_SameKeys (a b : JsonObject) (ha : (a.map Prod.fst).Nodup)
    (hl : a.length = b.length)
    (h : ∀ k, k ∈ a.map Prod.fst → k ∈ b.map Prod.fst) :
    (a.map Prod.fst).Perm (b.map Prod.fst) :=
  (List.subperm_of_subset ha h).perm_of_length_le (by simp [hl])

theorem JsonValue.SameMembers_keys : ∀ (a b : JsonObject), JsonValue.SameMembers a b →
    ∀ k, k ∈ a.map Prod.fst → k ∈ b.map Prod.fst := by
  intro a
  induction a with
  | nil => intro b _ k hk; cases hk
  | cons p a ih =>
      intro b h k hk
      obtain ⟨k0, v0⟩ := p
      simp only [JsonValue.SameMembers] at h
      rcases List.mem_cons.mp hk with hk | hk
      · have hk0 : k = k0 := hk
        subst hk0
        by_contra hn
        have hf : JsonObject.find b k = none := (JsonObject.find_eq_none b k).mpr hn
        rw [hf] at h
        exact h.1
      · exact ih b h.2 k hk

mutual

/-- With `sort_keys` on, two trees that hold the same data are written as the
same text. -/
theorem WriteValue_SameMapping (cfg : JsonWriterConfig) (hs : cfg.sort_keys = true) :
    ∀ (v w : JsonValue) (indent depth : Int), v.SameMapping w →
      WriteValue cfg v indent depth = WriteValue cfg w indent depth
  | .object a, w, indent, depth, h => by
      cases w with
      | object b =>
          simp only [JsonValue.SameMapping] at h
          obtain ⟨ha, _, hl, hm⟩ := h
          have hkeys : sortKeys (JsonObject.GetKeys a) = sortKeys (JsonObject.GetKeys b) :=
            sortKeys_eq_of_perm
              (keys_perm_of_SameKeys a b ha hl (JsonValue.SameMembers_keys a b hm))
          have hempty : a.isEmpty = b.isEmpty := by
            cases a <;> cases b <;> simp at hl <;> rfl
          have hloop : ∀ first,
              WriteObjectLoop cfg
                  ((JsonObject.GetKeys a).zip (WriteValues cfg a (indent + cfg.indent_size) (depth + 1)))
                  indent (sortKeys (JsonObject.GetKeys a)) first =
                WriteObjectLoop cfg
                  ((JsonObject.GetKeys b).zip (WriteValues cfg b (indent + cfg.indent_size) (depth + 1)))
                  indent (sortKeys (JsonObject.GetKeys a)) first := by
            intro first
            apply WriteObjectLoop_congr
            intro k hk
            have hk1 : k ∈ a.map Prod.fst := (sortKeys_perm (JsonObject.GetKeys a)).mem_iff.mp hk
            obtain ⟨v, hv⟩ := JsonObject.find_of_mem_keys a k hk1
            obtain ⟨w, hw, he⟩ :=
              WriteValues_SameMembers cfg hs a b (indent + cfg.indent_size) (depth + 1) hm k v hv
            rw [lookup_WriteValues, lookup_WriteValues, hv, hw]
            simp only [Option.map_some']
            rw [he]
          rw [WriteValue, WriteValue, WriteObject, WriteObject]
          simp only [hs, if_true, hempty, ← hkeys, hloop]
      | array _ => simp [JsonValue.SameMapping] at h
      | string _ => simp [JsonValue.SameMapping] at h
      | number _ => simp [JsonValue.SameMapping] at h
      | boolean _ => simp [JsonValue.SameMapping] at h
      | null => simp [JsonValue.SameMapping] at h
  | .array a, w, indent, depth, h => by
      cases w with
      | array b =>
          simp only [JsonValue.SameMapping] at h
          rw [WriteValue, WriteValue,
            WriteElements_SameElements cfg hs a b (indent + cfg.indent_size) (depth + 1) h]
      | object _ => simp [JsonValue.SameMapping] at h
      | string _ => simp [JsonValue.SameMapping] at h
      | number _ => simp [JsonValue.SameMapping] at h
      | boolean _ => simp [JsonValue.SameMapping] at h
      | null => simp [JsonValue.SameMapping] at h
  | .string s, w, _, _, h => by
      cases w <;> simp [JsonValue.SameMapping] at h
      rw [h]
  | .number x, w, _, _, h => by
      cases w <;> simp [JsonValue.SameMapping] at h
      rw [h]
  | .boolean x, w, _, _, h => by
      cases w <;> simp [JsonValue.SameMapping] at h
      rw [h]
  | .null, w, _, _, h => by
      cases w <;> simp [JsonValue.SameMapping] at h
      rfl

/-- Each entry on the left has its key in `other`, with a value that is
written as the same text. -/
theorem WriteValues_SameMembers (cfg : JsonWriterConfig) (hs : cfg.sort_keys = true) :
    ∀ (a other : JsonObject) (indent depth : Int), JsonValue.SameMembers a other →
      ∀ k v, JsonObject.find a k = some v →
        ∃ w, JsonObject.find other k = some w ∧
          WriteValue cfg v indent depth = WriteValue cfg w indent depth
  | [], _, _, _, _ => by intro k v hf; cases hf
  | (k0, v0) :: a, other, indent, depth, h => by
      intro k v hf
      simp only [JsonValue.SameMembers] at h
      rw [JsonObject.find] at hf
      by_cases hk : k0 = k
      · rw [if_pos hk] at hf
        cases hf
        subst hk
        cases hw : JsonObject.find other k0 with
        | none => rw [hw] at h; exact absurd h.1 id
        | some w =>
            rw [hw] at h
            exact ⟨w, rfl, WriteValue_SameMapping cfg hs v0 w indent depth h.1⟩
      · rw [if_neg hk] at hf
        exact WriteValues_SameMembers cfg hs a other indent depth h.2 k v hf

/-- Arrays that hold the same data have elements written as the same texts. -/
theorem WriteElements_SameElements (cfg : JsonWriterConfig) (hs : cfg.sort_keys = true) :
    ∀ (a b : JsonArray) (indent depth : Int), JsonValue.SameElements a b →
      WriteElements cfg a indent depth = WriteElements cfg b indent depth
  | [], b, _, _, h => by
      cases b with
      | nil => rfl
      | cons _ _ => simp [JsonValue.SameElements] at h
  | v :: a, b, indent, depth, h => by
      cases b with
      | nil => simp [JsonValue.SameElements] at h
      | cons w b =>
          simp only [JsonValue.SameElements] at h
          rw [WriteElements, WriteElements, WriteValue_SameMapping cfg hs v w indent depth h.1,
            WriteElements_SameElements cfg hs a b indent depth h.2]

end

/-! ### C29: deep copies and default copies in memory -/

theorem JsonValue.depth_lt_of_mem_members : ∀ (members : JsonObject) (k : List Char)
    (v : JsonValue), (k, v) ∈ members → v.depth < JsonValue.depthMembers members := by
  intro members
  induction members with
  | nil => intro k v h; cases h
  | cons m members ih =>
      intro k v h
      obtain ⟨k0, v0⟩ := m
      simp only [JsonValue.depthMembers]
      rcases List.mem_cons.mp h with h | h
      · rw [(Prod.mk.inj h).2]
        have := le_max_left (v0.depth + 1) (JsonValue.depthMembers members)
        omega
      · have h1 := ih k v h
        have := le_max_right (v0.depth + 1) (JsonValue.depthMembers members)
        omega

theorem JsonValue.depth_lt_of_mem_elements : ∀ (elements : JsonArray) (v : JsonValue),
    v ∈ elements → v.depth < JsonValue.depthElements elements := by
  intro elements
  induction elements with
  | nil => intro v h; cases h
  | cons v0 elements ih =>
      intro v h
      simp only [JsonValue.depthElements]
      rcases List.mem_cons.mp h with h | h
      · rw [h]
        have := le_max_left (v0.depth + 1) (JsonValue.depthElements elements)
        omega
      · have h1 := ih v h
        have := le_max_right (v0.depth + 1) (JsonValue.depthElements elements)
        omega

mutual

/-- A tree stays represented in a store that keeps the containers of its
region, and lies in every region that holds them. -/
theorem Represents_transfer {store store2 : Store} {P Q : Nat → Prop}
    (H : ∀ p c, P p → store[p]? = some c → store2[p]? = some c ∧ Q p) :
    ∀ (v : JsonValue) (s : SharedValue),
      Store.Represents store P v s → Store.Represents store2 Q v s
  | .object members, s, h => by
      rw [Store.Represents] at h ⊢
      obtain ⟨p, obj, hs, hp, hst, hm⟩ := h
      exact ⟨p, obj, hs, (H p _ hp hst).2, (H p _ hp hst).1,
        RepresentsMembers_transfer H members obj hm⟩
  | .array elements, s, h => by
      rw [Store.Represents] at h ⊢
      obtain ⟨p, arr, hs, hp, hst, hm⟩ := h
      exact ⟨p, arr, hs, (H p _ hp hst).2, (H p _ hp hst).1,
        RepresentsElements_transfer H elements arr hm⟩
  | .string _, s, h => by
      rw [Store.Represents] at h ⊢
      exact h
  | .number _, s, h => by
      rw [Store.Represents] at h ⊢
      exact h
  | .boolean _, s, h => by
      rw [Store.Represents] at h ⊢
      exact h
  | .null, s, h => by
      rw [Store.Represents] at h ⊢
      exact h

/-- The entries stay represented. -/
theorem RepresentsMembers_transfer {store store2 : Store} {P Q : Nat → Prop}
    (H : ∀ p c, P p → store[p]? = some c → store2[p]? = some c ∧ Q p) :
    ∀ (members : JsonObject) (obj : SharedObject),
      Store.RepresentsMembers store P members obj → Store.RepresentsMembers store2 Q members obj
  | [], obj, h => by
      rw [Store.RepresentsMembers] at h ⊢
      exact h
  | (k, v) :: members, obj, h => by
      rw [Store.RepresentsMembers] at h ⊢
      obtain ⟨s, rest, ho, hv, hr⟩ := h
      exact ⟨s, rest, ho, Represents_transfer H v s hv, RepresentsMembers_transfer H members rest hr⟩

/-- The elements stay represented. -/
theorem RepresentsElements_transfer {store store2 : Store} {P Q : Nat → Prop}
    (H : ∀ p c, P p → store[p]? = some c → store2[p]? = some c ∧ Q p) :
    ∀ (elements : JsonArray) (arr : SharedArray),
      Store.RepresentsElements store P elements arr →
        Store.RepresentsElements store2 Q elements arr
  | [], arr, h => by
      rw [Store.RepresentsElements] at h ⊢
      exact h
  | v :: elements, arr, h => by
      rw [Store.RepresentsElements] at h ⊢
      obtain ⟨s, rest, ho, hv, hr⟩ := h
      exact ⟨s, rest, ho, Represents_transfer H v s hv,
        RepresentsElements_transfer H elements rest hr⟩

end

theorem Represents_object_inv {store : Store} {P : Nat → Prop} {v : JsonValue} {p : Nat}
    (h : Store.Represents store P v (.object p)) :
    ∃ members obj, v = .object members ∧ P p ∧ store[p]? = some (.object obj) ∧
      Store.RepresentsMembers store P members obj := by
  cases v with
  | object members =>
      rw [Store.Represents] at h
      obtain ⟨q, obj, hs, hp, hst, hm⟩ := h
      cases hs
      exact ⟨members, obj, rfl, hp, hst, hm⟩
  | array elements =>
      rw [Store.Represents] at h
      obtain ⟨q, arr, hs, _⟩ := h
      cases hs
  | string _ => rw [Store.Represents] at h; cases h
  | number _ => rw [Store.Represents] at h; cases h
  | boolean _ => rw [Store.Represents] at h; cases h
  | null => rw [Store.Represents] at h; cases h

theorem Represents_array_inv {store : Store} {P : Nat → Prop} {v : JsonValue} {p : Nat}
    (h : Store.Represents store P v (.array p)) :
    ∃ elements arr, v = .array elements ∧ P p ∧ store[p]? = some (.array arr) ∧
      Store.RepresentsElements store P elements arr := by
  cases v with
  | array elements =>
      rw [Store.Represents] at h
      obtain ⟨q, arr, hs, hp, hst, hm⟩ := h
      cases hs
      exact ⟨elements, arr, rfl, hp, hst, hm⟩
  | object members =>
      rw [Store.Represents] at h
      obtain ⟨q, obj, hs, _⟩ := h
      cases hs
  | string _ => rw [Store.Represents] at h; cases h
  | number _ => rw [Store.Represents] at h; cases h
  | boolean _ => rw [Store.Represents] at h; cases h
  | null => rw [Store.Represents] at h; cases h

theorem RepresentsMembers_mem {store : Store} {P : Nat → Prop} :
    ∀ (members : JsonObject) (obj : SharedObject), Store.RepresentsMembers store P members obj →
      ∀ k s, (k, s) ∈ obj → ∃ v, (k, v) ∈ members ∧ Store.Represents store P v s := by
  intro members
  induction members with
  | nil =>
      intro obj h k s hm
      rw [Store.RepresentsMembers] at h
      rw [h] at hm
      cases hm
  | cons m members ih =>
      intro obj h k s hm
      obtain ⟨k0, v0⟩ := m
      rw [Store.RepresentsMembers] at h
      obtain ⟨s0, rest, ho, hv, hr⟩ := h
      rw [ho] at hm
      rcases List.mem_cons.mp hm with hm | hm
      · rw [(Prod.mk.inj hm).1, (Prod.mk.inj hm).2]
        exact ⟨v0, List.mem_cons_self _ _, hv⟩
      · obtain ⟨v, hv1, hv2⟩ := ih rest hr k s hm
        exact ⟨v, List.mem_cons_of_mem _ hv1, hv2⟩

theorem RepresentsElements_mem {store : Store} {P : Nat → Prop} :
    ∀ (elements : JsonArray) (arr : SharedArray), Store.RepresentsElements store P elements arr →
      ∀ s, s ∈ arr → ∃ v, v ∈ elements ∧ Store.Represents store P v s := by
  intro elements
  induction elements with
  | nil =>
      intro arr h s hm
      rw [Store.RepresentsElements] at h
      rw [h] at hm
      cases hm
  | cons v0 elements ih =>
      intro arr h s hm
      rw [Store.RepresentsElements] at h
      obtain ⟨s0, rest, ho, hv, hr⟩ := h
      rw [ho] at hm
      rcases List.mem_cons.mp hm with hm | hm
      · rw [hm]
        exact ⟨v0, List.mem_cons_self _ _, hv⟩
      · obtain ⟨v, hv1, hv2⟩ := ih rest hr s hm
        exact ⟨v, List.mem_cons_of_mem _ hv1, hv2⟩

theorem SharedObject.mem_of_find : ∀ (obj : SharedObject) (k : List Char) (s : SharedValue),
    SharedObject.find obj k = some s → (k, s) ∈ obj := by
  intro obj
  induction obj with
  | nil => intro k s h; cases h
  | cons m obj ih =>
      intro k s h
      obtain ⟨k0, s0⟩ := m
      rw [SharedObject.find] at h
      by_cases hk : k0 = k
      · rw [if_pos hk] at h
        cases h
        rw [hk]
        exact List.mem_cons_self _ _
      · rw [if_neg hk] at h
        exact List.mem_cons_of_mem _ (ih k s h)

/-- Every container reachable from the root of a represented tree lies in
the region of the tree. -/
theorem Reaches_region {store : Store} {P : Nat → Prop} {s : SharedValue} {q : Nat}
    (hr : Store.Reaches store s q) : ∀ v, Store.Represents store P v s → P q := by
  induction hr with
  | object p =>
      intro v h
      obtain ⟨_, _, _, hp, _, _⟩ := Represents_object_inv h
      exact hp
  | array p =>
      intro v h
      obtain ⟨_, _, _, hp, _, _⟩ := Represents_array_inv h
      exact hp
  | member p obj k s1 q hst hmem _ ih =>
      intro v h
      obtain ⟨members, obj1, _, _, hst1, hm⟩ := Represents_object_inv h
      rw [hst] at hst1
      cases hst1
      obtain ⟨v1, _, hv1⟩ := RepresentsMembers_mem members obj hm k s1 hmem
      exact ih v1 hv1
  | element p arr s1 q hst hmem _ ih =>
      intro v h
      obtain ⟨elements, arr1, _, _, hst1, hm⟩ := Represents_array_inv h
      rw [hst] at hst1
      cases hst1
      obtain ⟨v1, _, hv1⟩ := RepresentsElements_mem elements arr hm s1 hmem
      exact ih v1 hv1

theorem RepresentsMembers_Insert {store : Store} {Q : Nat → Prop} (k : List Char)
    (cv : JsonValue) (c : SharedValue) (hc : Store.Represents store Q cv c) :
    ∀ (acc : JsonObject) (new_obj : SharedObject), Store.RepresentsMembers store Q acc new_obj →
      Store.RepresentsMembers store Q (JsonObject.Insert acc k cv)
        (SharedObject.Insert new_obj k c) := by
  intro acc
  induction acc with
  | nil =>
      intro new_obj h
      rw [Store.RepresentsMembers] at h
      rw [h, JsonObject.Insert, SharedObject.Insert, Store.RepresentsMembers]
      exact ⟨c, [], rfl, hc, by rw [Store.RepresentsMembers]⟩
  | cons m acc ih =>
      intro new_obj h
      obtain ⟨k0, v0⟩ := m
      rw [Store.RepresentsMembers] at h
      obtain ⟨s0, rest, ho, hv, hr⟩ := h
      rw [ho, JsonObject.Insert, SharedObject.Insert]
      by_cases hk : k0 = k
      · rw [if_pos hk, if_pos hk, Store.RepresentsMembers]
        exact ⟨c, rest, rfl, hc, hr⟩
      · rw [if_neg hk, if_neg hk, Store.RepresentsMembers]
        exact ⟨s0, _, rfl, hv, ih rest hr⟩

theorem RepresentsElements_append {store : Store} {Q : Nat → Prop}
    (cv : JsonValue) (c : SharedValue) (hc : Store.Represents store Q cv c) :
    ∀ (acc : JsonArray) (new_arr : SharedArray), Store.RepresentsElements store Q acc new_arr →
      Store.RepresentsElements store Q (acc ++ [cv]) (new_arr ++ [c]) := by
  intro acc
  induction acc with
  | nil =>
      intro new_arr h
      rw [Store.RepresentsElements] at h
      rw [h, List.nil_append, List.nil_append, Store.RepresentsElements]
      exact ⟨c, [], rfl, hc, by rw [Store.RepresentsElements]⟩
  | cons v0 acc ih =>
      intro new_arr h
      rw [Store.RepresentsElements] at h
      obtain ⟨s0, rest, ho, hv, hr⟩ := h
      rw [ho, List.cons_append, List.cons_append, Store.RepresentsElements]
      exact ⟨s0, _, rfl, hv, ih rest hr⟩

theorem Store.getElem?_append_some {store : Store} (ext : Store) {p : Nat} {c : Container}
    (h : store[p]? = some c) : (store ++ ext)[p]? = some c := by
  have hp : p < store.length := by
    rcases Nat.lt_or_ge p store.length with hp | hp
    · exact hp
    · rw [List.getElem?_eq_none hp] at h
      cases h
  rw [List.getElem?_append_left hp]
  exact h

mutual

/-- The deep copy of a represented tree, given fuel beyond its depth, creates
containers at the end of the store, leaves the others as they are, and
returns the root of the tree that the deep copy of the tree is. -/
theorem DeepCopy_Represents (P : Nat → Prop) :
    ∀ (v : JsonValue) (store : Store) (s : SharedValue) (fuel : Nat),
      Store.Represents store P v s → v.depth < fuel →
      ∃ c ext, Store.DeepCopy fuel store s = some (c, store ++ ext) ∧
        Store.Represents (store ++ ext) (fun p => store.length ≤ p) (DeepCopy v) c
  | .object members, store, s, fuel, h, hd => by
      obtain ⟨f, rfl⟩ : ∃ f, fuel = f + 1 := ⟨fuel - 1, by omega⟩
      rw [Store.Represents] at h
      obtain ⟨p, obj, hs, _, hst, hm⟩ := h
      rw [JsonValue.depth] at hd
      obtain ⟨new_obj1, ext, h1, h2⟩ :=
        DeepCopyMembers_Represents P f members obj store store.length [] [] hm (by omega)
          (Nat.le_refl _) (by rw [Store.RepresentsMembers])
      refine ⟨.object (store ++ ext).length, ext ++ [.object new_obj1], ?_, ?_⟩
      · rw [hs, Store.DeepCopy, hst]
        simp only [h1, List.append_assoc]
      · rw [DeepCopy, Store.Represents]
        refine ⟨(store ++ ext).length, new_obj1, rfl, ?_, ?_, ?_⟩
        · rw [List.length_append]
          omega
        · rw [← List.append_assoc]
          exact List.getElem?_concat_length _ _
        · rw [← List.append_assoc]
          exact RepresentsMembers_transfer
            (fun p c hp hc => ⟨Store.getElem?_append_some _ hc, hp⟩) _ _ h2
  | .array elements, store, s, fuel, h, hd => by
      obtain ⟨f, rfl⟩ : ∃ f, fuel = f + 1 := ⟨fuel - 1, by omega⟩
      rw [Store.Represents] at h
      obtain ⟨p, arr, hs, _, hst, hm⟩ := h
      rw [JsonValue.depth] at hd
      obtain ⟨new_arr1, ext, h1, h2⟩ :=
        DeepCopyElements_Represents P f elements arr store store.length [] [] hm (by omega)
          (Nat.le_refl _) (by rw [Store.RepresentsElements])
      refine ⟨.array (store ++ ext).length, ext ++ [.array new_arr1], ?_, ?_⟩
      · rw [hs, Store.DeepCopy, hst]
        simp only [h1, List.append_assoc]
      · rw [DeepCopy, Store.Represents]
        refine ⟨(store ++ ext).length, new_arr1, rfl, ?_, ?_, ?_⟩
        · rw [List.length_append]
          omega
        · rw [← List.append_assoc]
          exact List.getElem?_concat_length _ _
        · rw [← List.append_assoc]
          exact RepresentsElements_transfer
            (fun p c hp hc => ⟨Store.getElem?_append_some _ hc, hp⟩) _ _ h2
  | .string str, store, s, fuel, h, hd => by
      obtain ⟨f, rfl⟩ : ∃ f, fuel = f + 1 := ⟨fuel - 1, by omega⟩
      rw [Store.Represents] at h
      refine ⟨.string str, [], ?_, ?_⟩
      · rw [h, Store.DeepCopy, List.append_nil]
      · rw [DeepCopy, Store.Represents]
  | .number num, store, s, fuel, h, hd => by
      obtain ⟨f, rfl⟩ : ∃ f, fuel = f + 1 := ⟨fuel - 1, by omega⟩
      rw [Store.Represents] at h
      refine ⟨.number num, [], ?_, ?_⟩
      · rw [h, Store.DeepCopy, List.append_nil]
      · rw [DeepCopy, Store.Represents]
  | .boolean b, store, s, fuel, h, hd => by
      obtain ⟨f, rfl⟩ : ∃ f, fuel = f + 1 := ⟨fuel - 1, by omega⟩
      rw [Store.Represents] at h
      refine ⟨.boolean b, [], ?_, ?_⟩
      · rw [h, Store.DeepCopy, List.append_nil]
      · rw [DeepCopy, Store.Represents]
  | .null, store, s, fuel, h, hd => by
      obtain ⟨f, rfl⟩ : ∃ f, fuel = f + 1 := ⟨fuel - 1, by omega⟩
      rw [Store.Represents] at h
      refine ⟨.null, [], ?_, ?_⟩
      · rw [h, Store.DeepCopy, List.append_nil]
      · rw [DeepCopy, Store.Represents]

/-- The loop over the entries of an object: the entries that are left are
copied and inserted into the object built so far. -/
theorem DeepCopyMembers_Represents (P : Nat → Prop) (fuel : Nat) :
    ∀ (members : JsonObject) (obj : SharedObject) (store : Store) (n : Nat) (acc : JsonObject)
      (new_obj : SharedObject),
      Store.RepresentsMembers store P members obj → JsonValue.depthMembers members ≤ fuel →
      n ≤ store.length → Store.RepresentsMembers store (fun p => n ≤ p) acc new_obj →
      ∃ new_obj1 ext,
        Store.DeepCopyMembers (Store.DeepCopy fuel) obj store new_obj =
          some (new_obj1, store ++ ext) ∧
        Store.RepresentsMembers (store ++ ext) (fun p => n ≤ p) (DeepCopyMembers members acc)
          new_obj1
  | [], obj, store, n, acc, new_obj, h, _, _, ha => by
      rw [Store.RepresentsMembers] at h
      refine ⟨new_obj, [], ?_, ?_⟩
      · rw [h, Store.DeepCopyMembers, List.append_nil]
      · rw [DeepCopyMembers, List.append_nil]
        exact ha
  | (k, v) :: members, obj, store, n, acc, new_obj, h, hd, hn, ha => by
      rw [Store.RepresentsMembers] at h
      obtain ⟨s, rest, ho, hv, hr⟩ := h
      rw [JsonValue.depthMembers] at hd
      have hd1 : v.depth < fuel := by
        have := le_max_left (v.depth + 1) (JsonValue.depthMembers members)
        omega
      have hd2 : JsonValue.depthMembers members ≤ fuel := by
        have := le_max_right (v.depth + 1) (JsonValue.depthMembers members)
        omega
      obtain ⟨c, ext1, hc1, hc2⟩ := DeepCopy_Represents P v store s fuel hv hd1
      have hc3 : Store.Represents (store ++ ext1) (fun p => n ≤ p) (DeepCopy v) c :=
        Represents_transfer (fun p c hp hc => ⟨hc, Nat.le_trans hn hp⟩) _ _ hc2
      have ha1 : Store.RepresentsMembers (store ++ ext1) (fun p => n ≤ p) acc new_obj :=
        RepresentsMembers_transfer (fun p c hp hc => ⟨Store.getElem?_append_some _ hc, hp⟩) _ _ ha
      have hr1 : Store.RepresentsMembers (store ++ ext1) P members rest :=
        RepresentsMembers_transfer (fun p c hp hc => ⟨Store.getElem?_append_some _ hc, hp⟩) _ _ hr
      obtain ⟨new_obj1, ext2, h1, h2⟩ :=
        DeepCopyMembers_Represents P fuel members rest (store ++ ext1) n
          (JsonObject.Insert acc k (DeepCopy v)) (SharedObject.Insert new_obj k c) hr1 hd2
          (by rw [List.length_append]; omega) (RepresentsMembers_Insert k _ c hc3 acc new_obj ha1)
      refine ⟨new_obj1, ext1 ++ ext2, ?_, ?_⟩
      · rw [ho, Store.DeepCopyMembers, hc1]
        simp only [h1, List.append_assoc]
      · rw [DeepCopyMembers, ← List.append_assoc]
        exact h2

/-- The loop over the elements of an array: the elements that are left are
copied and appended to the array built so far. -/
theorem DeepCopyElements_Represents (P : Nat → Prop) (fuel : Nat) :
    ∀ (elements : JsonArray) (arr : SharedArray) (store : Store) (n : Nat) (acc : JsonArray)
      (new_arr : SharedArray),
      Store.RepresentsElements store P elements arr → JsonValue.depthElements elements ≤ fuel →
      n ≤ store.length → Store.RepresentsElements store (fun p => n ≤ p) acc new_arr →
      ∃ new_arr1 ext,
        Store.DeepCopyElements (Store.DeepCopy fuel) arr store new_arr =
          some (new_arr1, store ++ ext) ∧
        Store.RepresentsElements (store ++ ext) (fun p => n ≤ p) (DeepCopyElements elements acc)
          new_arr1
  | [], arr, store, n, acc, new_arr, h, _, _, ha => by
      rw [Store.RepresentsElements] at h
      refine ⟨new_arr, [], ?_, ?_⟩
      · rw [h, Store.DeepCopyElements, List.append_nil]
      · rw [DeepCopyElements, List.append_nil]
        exact ha
  | v :: elements, arr, store, n, acc, new_arr, h, hd, hn, ha => by
      rw [Store.RepresentsElements] at h
      obtain ⟨s, rest, ho, hv, hr⟩ := h
      rw [JsonValue.depthElements] at hd
      have hd1 : v.depth < fuel := by
        have := le_max_left (v.depth + 1) (JsonValue.depthElements elements)
        omega
      have hd2 : JsonValue.depthElements elements ≤ fuel := by
        have := le_max_right (v.depth + 1) (JsonValue.depthElements elements)
        omega
      obtain ⟨c, ext1, hc1, hc2⟩ := DeepCopy_Represents P v store s fuel hv hd1
      have hc3 : Store.Represents (store ++ ext1) (fun p => n ≤ p) (DeepCopy v) c :=
        Represents_transfer (fun p c hp hc => ⟨hc, Nat.le_trans hn hp⟩) _ _ hc2
      have ha1 : Store.RepresentsElements (store ++ ext1) (fun p => n ≤ p) acc new_arr :=
        RepresentsElements_transfer (fun p c hp hc => ⟨Store.getElem?_append_some _ hc, hp⟩)
          _ _ ha
      have hr1 : Store.RepresentsElements (store ++ ext1) P elements rest :=
        RepresentsElements_transfer (fun p c hp hc => ⟨Store.getElem?_append_some _ hc, hp⟩)
          _ _ hr
      obtain ⟨new_arr1, ext2, h1, h2⟩ :=
        DeepCopyElements_Represents P fuel elements rest (store ++ ext1) n
          (JsonArray.PushBack acc (DeepCopy v)) (new_arr ++ [c]) hr1 hd2
          (by rw [List.length_append]; omega) (RepresentsElements_append _ c hc3 acc new_arr ha1)
      refine ⟨new_arr1, ext1 ++ ext2, ?_, ?_⟩
      · rw [ho, Store.DeepCopyElements, hc1]
        simp only [h1, List.append_assoc]
      · rw [DeepCopyElements, ← List.append_assoc]
        exact h2

end

theorem Represents_scalar_inv {store : Store} {P : Nat → Prop} {v : JsonValue} :
    (∀ str, Store.Represents store P v (.string str) → v = .string str) ∧
      (∀ num, Store.Represents store P v (.number num) → v = .number num) ∧
      (∀ b, Store.Represents store P v (.boolean b) → v = .boolean b) ∧
      (Store.Represents store P v .null → v = .null) := by
  cases v with
  | object members =>
      refine ⟨fun _ h => ?_, fun _ h => ?_, fun _ h => ?_, fun h => ?_⟩ <;>
        (rw [Store.Represents] at h; obtain ⟨_, _, hs, _⟩ := h; cases hs)
  | array elements =>
      refine ⟨fun _ h => ?_, fun _ h => ?_, fun _ h => ?_, fun h => ?_⟩ <;>
        (rw [Store.Represents] at h; obtain ⟨_, _, hs, _⟩ := h; cases hs)
  | string _ =>
      refine ⟨fun _ h => ?_, fun _ h => ?_, fun _ h => ?_, fun h => ?_⟩ <;>
        (rw [Store.Represents] at h; cases h)
      all_goals rfl
  | number _ =>
      refine ⟨fun _ h => ?_, fun _ h => ?_, fun _ h => ?_, fun h => ?_⟩ <;>
        (rw [Store.Represents] at h; cases h)
      all_goals rfl
  | boolean _ =>
      refine ⟨fun _ h => ?_, fun _ h => ?_, fun _ h => ?_, fun h => ?_⟩ <;>
        (rw [Store.Represents] at h; cases h)
      all_goals rfl
  | null =>
      refine ⟨fun _ h => ?_, fun _ h => ?_, fun _ h => ?_, fun _ => rfl⟩ <;>
        (rw [Store.Represents] at h; cases h)

mutual

/-- A value in memory is the root of at most one tree. -/
theorem Represents_unique {store : Store} {P : Nat → Prop} :
    ∀ (v w : JsonValue) (s : SharedValue),
      Store.Represents store P v s → Store.Represents store P w s → v = w
  | .object members, w, s, h1, h2 => by
      rw [Store.Represents] at h1
      obtain ⟨p, obj, hs, _, hst, hm⟩ := h1
      rw [hs] at h2
      obtain ⟨members1, obj1, hw, _, hst1, hm1⟩ := Represents_object_inv h2
      rw [hst] at hst1
      cases hst1
      rw [hw, RepresentsMembers_unique members members1 obj hm hm1]
  | .array elements, w, s, h1, h2 => by
      rw [Store.Represents] at h1
      obtain ⟨p, arr, hs, _, hst, hm⟩ := h1
      rw [hs] at h2
      obtain ⟨elements1, arr1, hw, _, hst1, hm1⟩ := Represents_array_inv h2
      rw [hst] at hst1
      cases hst1
      rw [hw, RepresentsElements_unique elements elements1 arr hm hm1]
  | .string str, w, s, h1, h2 => by
      rw [Store.Represents] at h1
      rw [h1] at h2
      exact (Represents_scalar_inv.1 str h2).symm
  | .number num, w, s, h1, h2 => by
      rw [Store.Represents] at h1
      rw [h1] at h2
      exact (Represents_scalar_inv.2.1 num h2).symm
  | .boolean b, w, s, h1, h2 => by
      rw [Store.Represents] at h1
      rw [h1] at h2
      exact (Represents_scalar_inv.2.2.1 b h2).symm
  | .null, w, s, h1, h2 => by
      rw [Store.Represents] at h1
      rw [h1] at h2
      exact (Represents_scalar_inv.2.2.2 h2).symm

/-- The entries in memory are the roots of at most one list of entries. -/
theorem RepresentsMembers_unique {store : Store} {P : Nat → Prop} :
    ∀ (members others : JsonObject) (obj : SharedObject),
      Store.RepresentsMembers store P members obj →
        Store.RepresentsMembers store P others obj → members = others
  | [], others, obj, h1, h2 => by
      rw [Store.RepresentsMembers] at h1
      cases others with
      | nil => rfl
      | cons m others =>
          obtain ⟨k, w⟩ := m
          rw [Store.RepresentsMembers] at h2
          obtain ⟨_, _, ho, _⟩ := h2
          rw [h1] at ho
          cases ho
  | (k, v) :: members, others, obj, h1, h2 => by
      rw [Store.RepresentsMembers] at h1
      obtain ⟨s, rest, ho, hv, hr⟩ := h1
      cases others with
      | nil =>
          rw [Store.RepresentsMembers] at h2
          rw [h2] at ho
          cases ho
      | cons m others =>
          obtain ⟨k1, w⟩ := m
          rw [Store.RepresentsMembers] at h2
          obtain ⟨s1, rest1, ho1, hv1, hr1⟩ := h2
          rw [ho] at ho1
          cases ho1
          rw [Represents_unique v w s hv hv1, RepresentsMembers_unique members others rest hr hr1]

/-- The elements in memory are the roots of at most one list of elements. -/
theorem RepresentsElements_unique {store : Store} {P : Nat → Prop} :
    ∀ (elements others : JsonArray) (arr : SharedArray),
      Store.RepresentsElements store P elements arr →
        Store.RepresentsElements store P others arr → elements = others
  | [], others, arr, h1, h2 => by
      rw [Store.RepresentsElements] at h1
      cases others with
      | nil => rfl
      | cons w others =>
          rw [Store.RepresentsElements] at h2
          obtain ⟨_, _, ho, _⟩ := h2
          rw [h1] at ho
          cases ho
  | v :: elements, others, arr, h1, h2 => by
      rw [Store.RepresentsElements] at h1
      obtain ⟨s, rest, ho, hv, hr⟩ := h1
      cases others with
      | nil =>
          rw [Store.RepresentsElements] at h2
          rw [h2] at ho
          cases ho
      | cons w others =>
          rw [Store.RepresentsElements] at h2
          obtain ⟨s1, rest1, ho1, hv1, hr1⟩ := h2
          rw [ho] at ho1
          cases ho1
          rw [Represents_unique v w s hv hv1,
            RepresentsElements_unique elements others rest hr hr1]

end

theorem select_key_inv {store : Store} {a next : SharedValue} {k : List Char}
    (h : Store.select store a (.key k) = some next) :
    ∃ p obj, a = .object p ∧ store[p]? = some (.object obj) ∧
      SharedObject.find obj k = some next := by
  cases a with
  | object p =>
      cases hst : store[p]? with
      | none => simp [Store.select, hst] at h
      | some c =>
          cases c with
          | object obj =>
              refine ⟨p, obj, rfl, hst, ?_⟩
              simpa [Store.select, hst] using h
          | array arr => simp [Store.select, hst] at h
  | array _ => simp [Store.select] at h
  | string _ => simp [Store.select] at h
  | number _ => simp [Store.select] at h
  | boolean _ => simp [Store.select] at h
  | null => simp [Store.select] at h

theorem select_index_inv {store : Store} {a next : SharedValue} {i : Nat}
    (h : Store.select store a (.index i) = some next) :
    ∃ p arr, a = .array p ∧ store[p]? = some (.array arr) ∧ arr[i]? = some next := by
  cases a with
  | array p =>
      cases hst : store[p]? with
      | none => simp [Store.select, hst] at h
      | some c =>
          cases c with
          | array arr =>
              refine ⟨p, arr, rfl, hst, ?_⟩
              simpa [Store.select, hst] using h
          | object obj => simp [Store.select, hst] at h
  | object _ => simp [Store.select] at h
  | string _ => simp [Store.select] at h
  | number _ => simp [Store.select] at h
  | boolean _ => simp [Store.select] at h
  | null => simp [Store.select] at h

/-- One step of an access path leads from the root of a tree to the root of
a tree that is less deep. -/
theorem select_Represents {store : Store} {P : Nat → Prop} {v : JsonValue}
    {a next : SharedValue} {step : Selector} (h : Store.Represents store P v a)
    (hs : Store.select store a step = some next) :
    ∃ v1, Store.Represents store P v1 next ∧ v1.depth < v.depth := by
  cases step with
  | key k =>
      obtain ⟨p, obj, ha, hst, hf⟩ := select_key_inv hs
      rw [ha] at h
      obtain ⟨members, obj1, hv, _, hst1, hm⟩ := Represents_object_inv h
      rw [hst] at hst1
      cases hst1
      obtain ⟨v1, hv1, hv2⟩ :=
        RepresentsMembers_mem members obj hm k next (SharedObject.mem_of_find obj k next hf)
      refine ⟨v1, hv2, ?_⟩
      rw [hv, JsonValue.depth]
      exact JsonValue.depth_lt_of_mem_members members k v1 hv1
  | index i =>
      obtain ⟨p, arr, ha, hst, hf⟩ := select_index_inv hs
      rw [ha] at h
      obtain ⟨elements, arr1, hv, _, hst1, hm⟩ := Represents_array_inv h
      rw [hst] at hst1
      cases hst1
      obtain ⟨v1, hv1, hv2⟩ :=
        RepresentsElements_mem elements arr hm next (List.getElem?_mem hf)
      refine ⟨v1, hv2, ?_⟩
      rw [hv, JsonValue.depth]
      exact JsonValue.depth_lt_of_mem_elements elements v1 hv1

theorem resolve_cons {store : Store} {a next : SharedValue} {step : Selector}
    (path : List Selector) (hs : Store.select store a step = some next) :
    Store.resolve store a (step :: path) = Store.resolve store next path := by
  rw [Store.resolve, hs]

theorem resolve_cons_inv {store : Store} {a t : SharedValue} {step : Selector}
    {path : List Selector} (h : Store.resolve store a (step :: path) = some t) :
    ∃ next, Store.select store a step = some next ∧ Store.resolve store next path = some t := by
  rw [Store.resolve] at h
  cases hs : Store.select store a step with
  | none => rw [hs] at h; cases h
  | some next => rw [hs] at h; exact ⟨next, rfl, h⟩

/-- An access path leads from the root of a tree to the root of a tree that
is less deep by the length of the path at least. -/
theorem resolve_Represents {store : Store} {P : Nat → Prop} :
    ∀ (path : List Selector) (a t : SharedValue) (v : JsonValue),
      Store.Represents store P v a → Store.resolve store a path = some t →
      ∃ vt, Store.Represents store P vt t ∧ vt.depth + path.length ≤ v.depth := by
  intro path
  induction path with
  | nil =>
      intro a t v h hr
      rw [Store.resolve] at hr
      cases hr
      exact ⟨v, h, Nat.le_refl _⟩
  | cons step path ih =>
      intro a t v h hr
      obtain ⟨next, hs, hr1⟩ := resolve_cons_inv hr
      obtain ⟨v1, hv1, hd1⟩ := select_Represents h hs
      obtain ⟨vt, hvt, hdt⟩ := ih next t v1 hv1 hr1
      exact ⟨vt, hvt, by rw [List.length_cons]; omega⟩

/-- The container that the end of an access path points to is reachable from
its start. -/
theorem resolve_Reaches {store : Store} : ∀ (path : List Selector) (a t : SharedValue) (q : Nat),
    Store.resolve store a path = some t → (t = .object q ∨ t = .array q) →
      Store.Reaches store a q := by
  intro path
  induction path with
  | nil =>
      intro a t q hr ht
      rw [Store.resolve] at hr
      cases hr
      rcases ht with ht | ht
      · rw [ht]
        exact Store.Reaches.object q
      · rw [ht]
        exact Store.Reaches.array q
  | cons step path ih =>
      intro a t q hr ht
      obtain ⟨next, hs, hr1⟩ := resolve_cons_inv hr
      have h1 := ih next t q hr1 ht
      cases step with
      | key k =>
          obtain ⟨p, obj, ha, hst, hf⟩ := select_key_inv hs
          rw [ha]
          exact Store.Reaches.member p obj k next q hst (SharedObject.mem_of_find obj k next hf) h1
      | index i =>
          obtain ⟨p, arr, ha, hst, hf⟩ := select_index_inv hs
          rw [ha]
          exact Store.Reaches.element p arr next q hst (List.getElem?_mem hf) h1

theorem SharedObject.find_Insert_same : ∀ (obj : SharedObject) (k : List Char) (w : SharedValue),
    SharedObject.find (SharedObject.Insert obj k w) k = some w := by
  intro obj
  induction obj with
  | nil =>
      intro k w
      rw [SharedObject.Insert, SharedObject.find, if_pos rfl]
  | cons m obj ih =>
      intro k w
      obtain ⟨k0, s0⟩ := m
      rw [SharedObject.Insert]
      by_cases h : k0 = k
      · rw [if_pos h, SharedObject.find, if_pos h]
      · rw [if_neg h, SharedObject.find, if_neg h]
        exact ih k w

/-- A mutation writes to one container, the one that the end of the access
path points to. -/
theorem assign_inv {store store2 : Store} {a w : SharedValue} {path : List Selector}
    {last : Selector} (h : Store.assign store a path last w = some store2) :
    (∃ q k obj, last = .key k ∧ Store.resolve store a path = some (.object q) ∧
        store[q]? = some (.object obj) ∧
        store2 = store.set q (.object (SharedObject.Insert obj k w))) ∨
      (∃ q i arr, last = .index i ∧ Store.resolve store a path = some (.array q) ∧
        store[q]? = some (.array arr) ∧ i < arr.length ∧
        store2 = store.set q (.array (arr.set i w))) := by
  rw [Store.assign] at h
  cases hr : Store.resolve store a path with
  | none => rw [hr] at h; cases h
  | some t =>
      rw [hr] at h
      cases t with
      | object q =>
          cases last with
          | key k =>
              cases hst : store[q]? with
              | none => simp only [hst] at h; cases h
              | some c =>
                  cases c with
                  | object obj =>
                      simp only [hst] at h
                      cases h
                      exact Or.inl ⟨q, k, obj, rfl, rfl, hst, rfl⟩
                  | array arr => simp only [hst] at h; cases h
          | index i => simp only at h; cases h
      | array q =>
          cases last with
          | index i =>
              cases hst : store[q]? with
              | none => simp only [hst] at h; cases h
              | some c =>
                  cases c with
                  | array arr =>
                      simp only [hst] at h
                      by_cases hi : i < arr.length
                      · rw [if_pos hi] at h
                        cases h
                        exact Or.inr ⟨q, i, arr, rfl, rfl, hst, hi, rfl⟩
                      · rw [if_neg hi] at h
                        cases h
                  | object obj => simp only [hst] at h; cases h
          | key k => simp only at h; cases h
      | string _ => simp only at h; cases h
      | number _ => simp only at h; cases h
      | boolean _ => simp only at h; cases h
      | null => simp only at h; cases h

theorem Store.lt_length_of_getElem? {store : Store} {q : Nat} {c : Container}
    (h : store[q]? = some c) : q < store.length := by
  rcases Nat.lt_or_ge q store.length with hq | hq
  · exact hq
  · rw [List.getElem?_eq_none hq] at h
    cases h

/-- A mutation writes to a container reachable from the value it is made
through, and to no other container. -/
theorem assign_writes {store store2 : Store} {a w : SharedValue} {path : List Selector}
    {last : Selector} (h : Store.assign store a path last w = some store2) :
    ∃ q, Store.Reaches store a q ∧ ∀ p, p ≠ q → store2[p]? = store[p]? := by
  rcases assign_inv h with ⟨q, k, obj, _, hr, _, h2⟩ | ⟨q, i, arr, _, hr, _, _, h2⟩
  · refine ⟨q, resolve_Reaches path a _ q hr (Or.inl rfl), ?_⟩
    intro p hp
    rw [h2, List.getElem?_set_ne (fun e => hp e.symm)]
  · refine ⟨q, resolve_Reaches path a _ q hr (Or.inr rfl), ?_⟩
    intro p hp
    rw [h2, List.getElem?_set_ne (fun e => hp e.symm)]

theorem assign_cons {store : Store} {a next : SharedValue} {step : Selector}
    (path : List Selector) (last : Selector) (w : SharedValue)
    (hs : Store.select store a step = some next) :
    Store.assign store a (step :: path) last w = Store.assign store next path last w := by
  rw [Store.assign, Store.assign, resolve_cons path hs]

/-- The container that a non-empty access path from the root of a tree ends
at is not the one that the root points to. -/
theorem resolve_pointer_ne {store : Store} {P : Nat → Prop} {v : JsonValue}
    {a next t : SharedValue} {step : Selector} {path : List Selector} {p q : Nat}
    {cp cq : Container} (h : Store.Represents store P v a)
    (hs : Store.select store a step = some next)
    (hr : Store.resolve store next path = some t)
    (ha : (a = .object p ∧ ∃ obj, cp = .object obj) ∨ (a = .array p ∧ ∃ arr, cp = .array arr))
    (hp : store[p]? = some cp)
    (ht : (t = .object q ∧ ∃ obj, cq = .object obj) ∨ (t = .array q ∧ ∃ arr, cq = .array arr))
    (hq : store[q]? = some cq) : p ≠ q := by
  intro e
  subst e
  rw [hp] at hq
  cases hq
  obtain ⟨v1, hv1, hd1⟩ := select_Represents h hs
  obtain ⟨vt, hvt, hdt⟩ := resolve_Represents path next t v1 hv1 hr
  have hat : a = t := by
    rcases ha with ⟨ha, obj, hc⟩ | ⟨ha, arr, hc⟩
    · rcases ht with ⟨ht, _, _⟩ | ⟨ht, arr1, hc1⟩
      · rw [ha, ht]
      · rw [hc] at hc1
        cases hc1
    · rcases ht with ⟨ht, obj1, hc1⟩ | ⟨ht, _, _⟩
      · rw [hc] at hc1
        cases hc1
      · rw [ha, ht]
  rw [← hat] at hvt
  have := Represents_unique v vt a h hvt
  rw [this] at hd1
  omega

theorem select_set_ne {store : Store} {a : SharedValue} {step : Selector} {p q : Nat}
    (c : Container) (ha : a = .object p ∨ a = .array p) (hpq : p ≠ q) :
    Store.select (store.set q c) a step = Store.select store a step := by
  rcases ha with ha | ha
  · rw [ha]
    cases step with
    | key k => simp only [Store.select, List.getElem?_set_ne (fun e => hpq e.symm)]
    | index i => simp only [Store.select]
  · rw [ha]
    cases step with
    | key k => simp only [Store.select]
    | index i => simp only [Store.select, List.getElem?_set_ne (fun e => hpq e.symm)]

theorem select_pointer {store : Store} {a next : SharedValue} {step : Selector}
    (hs : Store.select store a step = some next) :
    ∃ p cp, ((a = .object p ∧ ∃ obj, cp = .object obj) ∨ (a = .array p ∧ ∃ arr, cp = .array arr)) ∧
      store[p]? = some cp := by
  cases step with
  | key k =>
      obtain ⟨p, obj, ha, hst, _⟩ := select_key_inv hs
      exact ⟨p, _, Or.inl ⟨ha, obj, rfl⟩, hst⟩
  | index i =>
      obtain ⟨p, arr, ha, hst, _⟩ := select_index_inv hs
      exact ⟨p, _, Or.inr ⟨ha, arr, rfl⟩, hst⟩

/-- After a mutation made through the root of a tree, the access path of the
mutation, followed from that root, leads to the value that was written. -/
theorem assign_visible {store : Store} {P : Nat → Prop} :
    ∀ (path : List Selector) (a : SharedValue) (v : JsonValue) (last : Selector)
      (w : SharedValue) (store2 : Store),
      Store.Represents store P v a → Store.assign store a path last w = some store2 →
        Store.resolve store2 a (path ++ [last]) = some w := by
  intro path
  induction path with
  | nil =>
      intro a v last w store2 _ ha
      rcases assign_inv ha with ⟨q, k, obj, hl, hr, hst, h2⟩ | ⟨q, i, arr, hl, hr, hst, hi, h2⟩
      · rw [Store.resolve] at hr
        cases hr
        have hq := Store.lt_length_of_getElem? hst
        have hsel : Store.select store2 (.object q) (.key k) = some w := by
          simp only [Store.select, h2, List.getElem?_set_self hq]
          exact SharedObject.find_Insert_same obj k w
        rw [hl, List.nil_append, Store.resolve, hsel]
        simp only [Store.resolve]
      · rw [Store.resolve] at hr
        cases hr
        have hq := Store.lt_length_of_getElem? hst
        have hsel : Store.select store2 (.array q) (.index i) = some w := by
          simp only [Store.select, h2, List.getElem?_set_self hq]
          exact List.getElem?_set_self hi
        rw [hl, List.nil_append, Store.resolve, hsel]
        simp only [Store.resolve]
  | cons step path ih =>
      intro a v last w store2 h ha
      have hres : ∃ t, Store.resolve store a (step :: path) = some t := by
        rcases assign_inv ha with ⟨q, _, _, _, hr, _⟩ | ⟨q, _, _, _, hr, _⟩
        · exact ⟨_, hr⟩
        · exact ⟨_, hr⟩
      obtain ⟨t0, ht0⟩ := hres
      obtain ⟨next, hs, _⟩ := resolve_cons_inv ht0
      rw [assign_cons path last w hs] at ha
      obtain ⟨v1, hv1, _⟩ := select_Represents h hs
      have h1 := ih next v1 last w store2 hv1 ha
      obtain ⟨p, cp, hap, hp⟩ := select_pointer hs
      have hsel : Store.select store2 a step = some next := by
        rcases assign_inv ha with ⟨q, k, obj, _, hr, hst, h2⟩ | ⟨q, i, arr, _, hr, hst, _, h2⟩
        · have hne : p ≠ q :=
            resolve_pointer_ne h hs hr hap hp (Or.inl ⟨rfl, obj, rfl⟩) hst
          rw [h2, select_set_ne _ (hap.imp (fun x => x.1) (fun x => x.1)) hne]
          exact hs
        · have hne : p ≠ q :=
            resolve_pointer_ne h hs hr hap hp (Or.inr ⟨rfl, arr, rfl⟩) hst
          rw [h2, select_set_ne _ (hap.imp (fun x => x.1) (fun x => x.1)) hne]
          exact hs
      rw [List.cons_append, resolve_cons _ hsel]
      exact h1

/-- C29: let the value `a` in memory be the root of a tree `v`. With fuel
beyond the depth of the tree, `DeepCopy(a)` returns a value `c`, having added
containers at the end of the store and written to no other one; `c` is the
root of the deep copy of the tree, in the added containers, while `a` is
still the root of `v` in the former ones, so that no container reachable from
`c` is reachable from `a`; and after any mutation made through `c`, at any
access path, `a` is still the root of `v`. A default copy of `a` holds the
same pointer, and after a mutation made through it, the access path of the
mutation, followed from `a`, leads to the value that was written. -/
theorem C29_deep_copy_independent (store : Store) (a : SharedValue) (v : JsonValue)
    (h : Store.Represents store (fun _ => True) v a) :
    (∀ fuel, v.depth < fuel →
      ∃ c ext, Store.DeepCopy fuel store a = some (c, store ++ ext) ∧
        Store.Represents (store ++ ext) (fun p => store.length ≤ p) (DeepCopy v) c ∧
        Store.Represents (store ++ ext) (fun p => p < store.length) v a ∧
        (∀ q, Store.Reaches (store ++ ext) c q → ¬ Store.Reaches (store ++ ext) a q) ∧
        (∀ path last w store2, Store.assign (store ++ ext) c path last w = some store2 →
          Store.Represents store2 (fun p => p < store.length) v a)) ∧
      (a.copy = a ∧
        ∀ path last w store2, Store.assign store a.copy path last w = some store2 →
          Store.resolve store2 a (path ++ [last]) = some w) := by
  constructor
  · intro fuel hd
    obtain ⟨c, ext, h1, h2⟩ := DeepCopy_Represents _ v store a fuel h hd
    have h3 : Store.Represents (store ++ ext) (fun p => p < store.length) v a :=
      Represents_transfer
        (fun p c0 _ hc =>
          ⟨Store.getElem?_append_some ext hc, Store.lt_length_of_getElem? hc⟩) v a h
    refine ⟨c, ext, h1, h2, h3, ?_, ?_⟩
    · intro q hc ha
      have hq1 : store.length ≤ q :=
        @Reaches_region _ (fun p => store.length ≤ p) _ _ hc _ h2
      have hq2 : q < store.length :=
        @Reaches_region _ (fun p => p < store.length) _ _ ha v h3
      omega
    · intro path last w store2 hassign
      obtain ⟨q, hq, hrest⟩ := assign_writes hassign
      have hq1 : store.length ≤ q :=
        @Reaches_region _ (fun p => store.length ≤ p) _ _ hq _ h2
      exact Represents_transfer
        (fun p c0 hp hc => ⟨by rw [hrest p (by omega)]; exact hc, hp⟩) v a h3
  · have hcopy : a.copy = a := by cases a <;> rfl
    refine ⟨hcopy, ?_⟩
    intro path last w store2 hassign
    rw [hcopy] at hassign
    exact assign_visible path a v last w store2 h hassign

/-- A run of C29 on `Object{"k": Object{"x": 1}}`: the deep copy, and the
mutation of the nested field through a default copy. -/
theorem C29_deep_copy_independent_witness :
    (∃ c ext, Store.DeepCopy 3 Store.sample (.object 1) = some (c, Store.sample ++ ext) ∧
        Store.Represents (Store.sample ++ ext) (fun p => Store.sample.length ≤ p)
          (DeepCopy Store.sampleTree) c ∧
        Store.Represents (Store.sample ++ ext) (fun p => p < Store.sample.length)
          Store.sampleTree (.object 1) ∧
        (∀ q, Store.Reaches (Store.sample ++ ext) c q →
          ¬ Store.Reaches (Store.sample ++ ext) (.object 1) q) ∧
        (∀ path last w store2, Store.assign (Store.sample ++ ext) c path last w = some store2 →
          Store.Represents store2 (fun p => p < Store.sample.length) Store.sampleTree
            (.object 1))) ∧
      Store.resolve [.object [(['x'], .number (Double.ofInt 2))], .object [(['k'], .object 0)]]
        (.object 1) ([.key ['k']] ++ [.key ['x']]) = some (.number (Double.ofInt 2)) :=
  ⟨(C29_deep_copy_independent Store.sample (.object 1) Store.sampleTree
      ⟨1, _, rfl, trivial, rfl, .object 0, [], rfl, ⟨0, _, rfl, trivial, rfl, _, [], rfl, rfl, rfl⟩,
        rfl⟩).1 3 (by decide),
    (C29_deep_copy_independent Store.sample (.object 1) Store.sampleTree
      ⟨1, _, rfl, trivial, rfl, .object 0, [], rfl, ⟨0, _, rfl, trivial, rfl, _, [], rfl, rfl, rfl⟩,
        rfl⟩).2.2 [.key ['k']] (.key ['x']) (.number (Double.ofInt 2)) _ (by decide)⟩

/-! ### C31: the compact text has no line feed -/

theorem hexDigitChar_ne_lineFeed {d : Nat} (hd : d < 16) : hexDigitChar d ≠ '\n' := by
  interval_cases d <;> decide

theorem escapeChar_no_lineFeed (cfg : JsonWriterConfig) (c : Char) : '\n' ∉ escapeChar cfg c := by
  unfold escapeChar
  by_cases h1 : c = '"'
  · rw [if_pos h1]; decide
  rw [if_neg h1]
  by_cases h2 : c = '\\'
  · rw [if_pos h2]; decide
  rw [if_neg h2]
  by_cases h3 : c = '\x08'
  · rw [if_pos h3]; decide
  rw [if_neg h3]
  by_cases h4 : c = '\x0c'
  · rw [if_pos h4]; decide
  rw [if_neg h4]
  by_cases h5 : c = '\n'
  · rw [if_pos h5]; decide
  rw [if_neg h5]
  by_cases h6 : c = '\r'
  · rw [if_pos h6]; decide
  rw [if_neg h6]
  by_cases h7 : c = '\t'
  · rw [if_pos h7]; decide
  rw [if_neg h7]
  split
  · unfold unicodeEscape
    intro hm
    simp only [List.mem_cons, List.mem_singleton, List.not_mem_nil, or_false] at hm
    rcases hm with hm | hm | hm | hm | hm | hm
    · revert hm; decide
    · revert hm; decide
    · exact hexDigitChar_ne_lineFeed (Nat.mod_lt _ (by norm_num)) hm.symm
    · exact hexDigitChar_ne_lineFeed (Nat.mod_lt _ (by norm_num)) hm.symm
    · exact hexDigitChar_ne_lineFeed (Nat.mod_lt _ (by norm_num)) hm.symm
    · exact hexDigitChar_ne_lineFeed (Nat.mod_lt _ (by norm_num)) hm.symm
  · intro hm
    rw [List.mem_singleton] at hm
    exact h5 hm.symm

theorem EscapeString_no_lineFeed (cfg : JsonWriterConfig) :
    ∀ s : List Char, '\n' ∉ EscapeString cfg s := by
  intro s
  induction s with
  | nil => intro h; cases h
  | cons c s ih =>
      rw [EscapeString]
      intro h
      rcases List.mem_append.mp h with h | h
      · exact escapeChar_no_lineFeed cfg c h
      · exact ih h

theorem WriteString_no_lineFeed (cfg : JsonWriterConfig) (s : List Char) :
    '\n' ∉ WriteString cfg s := by
  unfold WriteString
  intro h
  rcases List.mem_cons.mp h with h | h
  · revert h; decide
  · rcases List.mem_append.mp h with h | h
    · exact EscapeString_no_lineFeed cfg s h
    · revert h; decide

theorem decimal_no_lineFeed (n : Nat) : '\n' ∉ decimal n := by
  intro h
  have := (decimal_spec n).2.1 _ h
  revert this
  decide

theorem WriteNumber_no_lineFeed (num : Double) : '\n' ∉ WriteNumber num := by
  unfold WriteNumber
  cases num with
  | nan =>
      show '\n' ∉ "null".toList
      decide
  | inf _ =>
      show '\n' ∉ "null".toList
      decide
  | fin m e =>
      simp only []
      split
      · unfold decimalInt
        split
        · intro h
          rcases List.mem_cons.mp h with h | h
          · revert h; decide
          · exact decimal_no_lineFeed _ h
        · exact decimal_no_lineFeed _
      · unfold fixed6
        simp only []
        intro h
        simp only [List.mem_append, List.mem_replicate, List.mem_singleton] at h
        rcases h with (((h | h) | h) | h) | h
        · split at h
          · rw [List.mem_singleton] at h
            revert h; decide
          · cases h
        · exact decimal_no_lineFeed _ h
        · revert h; decide
        · exact absurd h.2 (by decide)
        · exact decimal_no_lineFeed _ h

theorem lookup_zip_mem {β : Type} : ∀ (keys : List (List Char)) (ts : List β) (k : List Char)
    (t : β), (keys.zip ts).lookup k = some t → t ∈ ts := by
  intro keys
  induction keys with
  | nil => intro ts k t h; simp at h
  | cons k0 keys ih =>
      intro ts k t h
      cases ts with
      | nil => simp at h
      | cons t0 ts =>
          simp only [List.zip_cons_cons, List.lookup_cons] at h
          cases hb : k == k0 with
          | true =>
              rw [hb] at h
              cases h
              exact List.mem_cons_self _ _
          | false =>
              rw [hb] at h
              exact List.mem_cons_of_mem _ (ih ts k t h)

theorem WriteObjectLoop_no_lineFeed (cfg : JsonWriterConfig) (hp : cfg.pretty_print = false)
    (texts : List (List Char × Except WriterException (List Char))) (indent : Int)
    (ht : ∀ k t, texts.lookup k = some (.ok t) → '\n' ∉ t) :
    ∀ (keys : List (List Char)) (first : Bool) (text : List Char),
      WriteObjectLoop cfg texts indent keys first = .ok text → '\n' ∉ text := by
  intro keys
  induction keys with
  | nil =>
      intro first text h
      rw [WriteObjectLoop] at h
      cases h
      intro hm
      cases hm
  | cons key keys ih =>
      intro first text h
      rw [WriteObjectLoop] at h
      simp only [bind, bind_eq_ok] at h
      obtain ⟨value, hv, rest, hr, h⟩ := h
      have h := Except.ok.inj h
      subst h
      have hrest := ih false rest hr
      have hvalue : '\n' ∉ value := by
        cases hl : texts.lookup key with
        | none =>
            rw [hl] at hv
            cases hv
            intro hm
            cases hm
        | some t =>
            rw [hl] at hv
            simp only at hv
            rw [hv] at hl
            exact ht key value hl
      intro hm
      rw [hp] at hm
      simp only [Bool.false_eq_true, if_false] at hm
      rcases List.mem_append.mp hm with hm | hm
      · rcases List.mem_append.mp hm with hm | hm
        · rcases List.mem_append.mp hm with hm | hm
          · rcases List.mem_append.mp hm with hm | hm
            · split at hm
              · cases hm
              · rw [List.mem_singleton] at hm
                revert hm; decide
            · cases hm
          · rcases List.mem_append.mp hm with hm | hm
            · exact WriteString_no_lineFeed cfg key hm
            · rw [List.mem_singleton] at hm
              revert hm; decide
        · exact hvalue hm
      · exact hrest hm

theorem WriteArrayLoop_no_lineFeed (cfg : JsonWriterConfig) (hp : cfg.pretty_print = false)
    (indent : Int) :
    ∀ (texts : List (Except WriterException (List Char))) (first : Bool) (text : List Char),
      (∀ t, Except.ok t ∈ texts → '\n' ∉ t) →
      WriteArrayLoop cfg indent texts first = .ok text → '\n' ∉ text := by
  intro texts
  induction texts with
  | nil =>
      intro first text _ h
      rw [WriteArrayLoop] at h
      cases h
      intro hm
      cases hm
  | cons t texts ih =>
      intro first text ht h
      rw [WriteArrayLoop] at h
      simp only [bind, bind_eq_ok] at h
      obtain ⟨value, hv, rest, hr, h⟩ := h
      have h := Except.ok.inj h
      subst h
      have hrest := ih false rest (fun t1 h1 => ht t1 (List.mem_cons_of_mem _ h1)) hr
      have hvalue : '\n' ∉ value := ht value (by rw [hv]; exact List.mem_cons_self _ _)
      intro hm
      rw [hp] at hm
      simp only [Bool.false_eq_true, if_false] at hm
      rcases List.mem_append.mp hm with hm | hm
      · rcases List.mem_append.mp hm with hm | hm
        · rcases List.mem_append.mp hm with hm | hm
          · split at hm
            · cases hm
            · rw [List.mem_singleton] at hm
              revert hm; decide
          · cases hm
        · exact hvalue hm
      · exact hrest hm

mutual

/-- Without `pretty_print`, no text that `WriteValue` produces holds a line
feed. -/
theorem WriteValue_no_lineFeed (cfg : JsonWriterConfig) (hp : cfg.pretty_print = false) :
    ∀ (v : JsonValue) (indent depth : Int) (text : List Char),
      WriteValue cfg v indent depth = .ok text → '\n' ∉ text
  | .object obj, indent, depth, text, h => by
      rw [WriteValue] at h
      split at h
      · cases h
      · rw [WriteObject] at h
        split at h
        · cases h
          decide
        · simp only [bind, bind_eq_ok] at h
          obtain ⟨body, hb, h⟩ := h
          have h := Except.ok.inj h
          subst h
          have hbody := WriteObjectLoop_no_lineFeed cfg hp _ indent
            (fun k t hl => WriteValues_no_lineFeed cfg hp obj _ _ t
              (lookup_zip_mem _ _ k _ hl)) _ true body hb
          intro hm
          rw [hp] at hm
          simp only [Bool.false_eq_true, if_false, List.append_nil] at hm
          rcases List.mem_append.mp hm with hm | hm
          · rcases List.mem_append.mp hm with hm | hm
            · rw [List.mem_singleton] at hm
              revert hm; decide
            · exact hbody hm
          · rw [List.mem_singleton] at hm
            revert hm; decide
  | .array arr, indent, depth, text, h => by
      rw [WriteValue] at h
      split at h
      · cases h
      · rw [WriteArray] at h
        split at h
        · cases h
          decide
        · simp only [bind, bind_eq_ok] at h
          obtain ⟨body, hb, h⟩ := h
          have h := Except.ok.inj h
          subst h
          have hbody := WriteArrayLoop_no_lineFeed cfg hp indent _ true body
            (fun t ht => WriteElements_no_lineFeed cfg hp arr _ _ t ht) hb
          intro hm
          rw [hp] at hm
          simp only [Bool.false_eq_true, if_false, List.append_nil] at hm
          rcases List.mem_append.mp hm with hm | hm
          · rcases List.mem_append.mp hm with hm | hm
            · rw [List.mem_singleton] at hm
              revert hm; decide
            · exact hbody hm
          · rw [List.mem_singleton] at hm
            revert hm; decide
  | .string s, _, _, text, h => by
      rw [WriteValue] at h
      split at h
      · cases h
      · cases h
        exact WriteString_no_lineFeed cfg s
  | .number num, _, _, text, h => by
      rw [WriteValue] at h
      split at h
      · cases h
      · cases h
        exact WriteNumber_no_lineFeed num
  | .boolean b, _, _, text, h => by
      rw [WriteValue] at h
      split at h
      · cases h
      · cases h
        cases b <;> decide
  | .null, _, _, text, h => by
      rw [WriteValue] at h
      split at h
      · cases h
      · cases h
        decide

/-- No text written for the value of an entry holds a line feed. -/
theorem WriteValues_no_lineFeed (cfg : JsonWriterConfig) (hp : cfg.pretty_print = false) :
    ∀ (obj : JsonObject) (indent depth : Int) (text : List Char),
      Except.ok text ∈ WriteValues cfg obj indent depth → '\n' ∉ text
  | [], _, _, _, h => by
      rw [WriteValues] at h
      cases h
  | (_, v) :: rest, indent, depth, text, h => by
      rw [WriteValues] at h
      rcases List.mem_cons.mp h with h | h
      · exact WriteValue_no_lineFeed cfg hp v indent depth text h.symm
      · exact WriteValues_no_lineFeed cfg hp rest indent depth text h

/-- No text written for an element holds a line feed. -/
theorem WriteElements_no_lineFeed (cfg : JsonWriterConfig) (hp : cfg.pretty_print = false) :
    ∀ (arr : JsonArray) (indent depth : Int) (text : List Char),
      Except.ok text ∈ WriteElements cfg arr indent depth → '\n' ∉ text
  | [], _, _, _, h => by
      rw [WriteElements] at h
      cases h
  | v :: rest, indent, depth, text, h => by
      rw [WriteElements] at h
      rcases List.mem_cons.mp h with h | h
      · exact WriteValue_no_lineFeed cfg hp v indent depth text h.symm
      · exact WriteElements_no_lineFeed cfg hp rest indent depth text h

end

/-- C31: the text that `Write` returns for a value under the `Compact`
configuration, and under every configuration without `pretty_print`, holds no
line-feed character, whatever the strings and keys of the value. -/
theorem C31_compact_has_no_line_feed (cfg : JsonWriterConfig) (hp : cfg.pretty_print = false)
    (v : JsonValue) (text : List Char) (h : Write cfg v = .ok text) :
    '\n' ∉ text :=
  WriteValue_no_lineFeed cfg hp v 0 0 text h

/-- A run of C31 on an object with line feeds in a key and in a string. -/
theorem C31_compact_has_no_line_feed_witness :
    Write JsonWriterConfig.Compact
        (.object [(['a', '\n'], .array [.string ['\n', 'b'], .number (Double.ofInt 1)])]) =
      .ok "\x7b\"a\\n\":[\"\\nb\",1]\x7d".toList ∧
    '\n' ∉ "\x7b\"a\\n\":[\"\\nb\",1]\x7d".toList :=
  ⟨by decide!, C31_compact_has_no_line_feed JsonWriterConfig.Compact rfl
    (.object [(['a', '\n'], .array [.string ['\n', 'b'], .number (Double.ofInt 1)])])
    "\x7b\"a\\n\":[\"\\nb\",1]\x7d".toList (by decide!)⟩

/-! ### C33: the depth limit of the writer -/

theorem WriterException.error_iff {r : Except WriterException (List Char)} :
    r = .error .maximumDepthExceeded ↔ ¬ ∃ t, r = .ok t := by
  cases r with
  | error e =>
      cases e
      exact ⟨fun _ h => (by obtain ⟨t, ht⟩ := h; cases ht), fun _ => rfl⟩
  | ok t => exact ⟨fun h => (by cases h), fun h => absurd ⟨t, rfl⟩ h⟩

theorem WriteObjectLoop_ok_iff (cfg : JsonWriterConfig)
    (texts : List (List Char × Except WriterException (List Char))) (indent : Int) :
    ∀ (keys : List (List Char)) (first : Bool),
      (∃ t, WriteObjectLoop cfg texts indent keys first = .ok t) ↔
        ∀ k, k ∈ keys → ∀ r, texts.lookup k = some r → ∃ t, r = .ok t := by
  intro keys
  induction keys with
  | nil =>
      intro first
      rw [WriteObjectLoop]
      exact ⟨fun _ k hk => (by cases hk), fun _ => ⟨_, rfl⟩⟩
  | cons key keys ih =>
      intro first
      rw [WriteObjectLoop]
      simp only [bind, bind_eq_ok]
      constructor
      · rintro ⟨t, value, hv, rest, hr, _⟩ k hk r hl
        rcases List.mem_cons.mp hk with hk | hk
        · rw [hk] at hl
          rw [hl] at hv
          exact ⟨value, hv⟩
        · exact (ih false).mp ⟨rest, hr⟩ k hk r hl
      · intro h
        obtain ⟨rest, hr⟩ := (ih false).mpr (fun k hk => h k (List.mem_cons_of_mem _ hk))
        cases hl : texts.lookup key with
        | none => exact ⟨_, [], rfl, rest, hr, rfl⟩
        | some r =>
            obtain ⟨value, hv⟩ := h key (List.mem_cons_self _ _) r hl
            exact ⟨_, value, hv, rest, hr, rfl⟩

theorem WriteArrayLoop_ok_iff (cfg : JsonWriterConfig) (indent : Int) :
    ∀ (texts : List (Except WriterException (List Char))) (first : Bool),
      (∃ t, WriteArrayLoop cfg indent texts first = .ok t) ↔ ∀ r, r ∈ texts → ∃ t, r = .ok t := by
  intro texts
  induction texts with
  | nil =>
      intro first
      rw [WriteArrayLoop]
      exact ⟨fun _ r hr => (by cases hr), fun _ => ⟨_, rfl⟩⟩
  | cons r0 texts ih =>
      intro first
      rw [WriteArrayLoop]
      simp only [bind, bind_eq_ok]
      constructor
      · rintro ⟨t, value, hv, rest, hr, _⟩ r hm
        rcases List.mem_cons.mp hm with hm | hm
        · rw [hm]
          exact ⟨value, hv⟩
        · exact (ih false).mp ⟨rest, hr⟩ r hm
      · intro h
        obtain ⟨rest, hr⟩ := (ih false).mpr (fun r hm => h r (List.mem_cons_of_mem _ hm))
        obtain ⟨value, hv⟩ := h r0 (List.mem_cons_self _ _)
        exact ⟨_, value, hv, rest, hr, rfl⟩

theorem WriteObject_ok_iff (cfg : JsonWriterConfig) (obj : JsonObject)
    (texts : List (Except WriterException (List Char))) (indent : Int) :
    (∃ t, WriteObject cfg obj texts indent = .ok t) ↔
      ∀ k, k ∈ obj.GetKeys → ∀ r, (obj.GetKeys.zip texts).lookup k = some r → ∃ t, r = .ok t := by
  rw [WriteObject]
  split
  · rename_i he
    have : obj = [] := by
      cases obj with
      | nil => rfl
      | cons _ _ => cases he
    subst this
    exact ⟨fun _ k hk => (by cases hk), fun _ => ⟨_, rfl⟩⟩
  · simp only [bind, bind_eq_ok]
    have hkeys : ∀ k, k ∈ (if cfg.sort_keys = true then sortKeys obj.GetKeys else obj.GetKeys) ↔
        k ∈ obj.GetKeys := by
      intro k
      split
      · exact (sortKeys_perm obj.GetKeys).mem_iff
      · exact Iff.rfl
    constructor
    · rintro ⟨t, body, hb, _⟩ k hk r hl
      exact (WriteObjectLoop_ok_iff cfg _ indent _ true).mp ⟨body, hb⟩ k ((hkeys k).mpr hk) r hl
    · intro h
      obtain ⟨body, hb⟩ := (WriteObjectLoop_ok_iff cfg _ indent _ true).mpr
        (fun k hk r hl => h k ((hkeys k).mp hk) r hl)
      exact ⟨_, body, hb, rfl⟩

theorem WriteArray_ok_iff (cfg : JsonWriterConfig)
    (texts : List (Except WriterException (List Char))) (indent : Int) :
    (∃ t, WriteArray cfg texts indent = .ok t) ↔ ∀ r, r ∈ texts → ∃ t, r = .ok t := by
  rw [WriteArray]
  split
  · rename_i he
    have : texts = [] := by
      cases texts with
      | nil => rfl
      | cons _ _ => cases he
    subst this
    exact ⟨fun _ r hr => (by cases hr), fun _ => ⟨_, rfl⟩⟩
  · simp only [bind, bind_eq_ok]
    constructor
    · rintro ⟨t, body, hb, _⟩
      exact (WriteArrayLoop_ok_iff cfg indent _ true).mp ⟨body, hb⟩
    · intro h
      obtain ⟨body, hb⟩ := (WriteArrayLoop_ok_iff cfg indent _ true).mpr h
      exact ⟨_, body, hb, rfl⟩

theorem JsonValue.depthMembers_le_iff : ∀ (members : JsonObject) (n : Nat),
    JsonValue.depthMembers members ≤ n ↔ ∀ k v, (k, v) ∈ members → v.depth + 1 ≤ n := by
  intro members
  induction members with
  | nil =>
      intro n
      rw [JsonValue.depthMembers]
      exact ⟨fun _ k v h => (by cases h), fun _ => Nat.zero_le _⟩
  | cons m members ih =>
      intro n
      obtain ⟨k0, v0⟩ := m
      rw [JsonValue.depthMembers, Nat.max_le, ih n]
      constructor
      · rintro ⟨h1, h2⟩ k v hm
        rcases List.mem_cons.mp hm with hm | hm
        · rw [(Prod.mk.inj hm).2]
          exact h1
        · exact h2 k v hm
      · intro h
        exact ⟨h k0 v0 (List.mem_cons_self _ _), fun k v hm => h k v (List.mem_cons_of_mem _ hm)⟩

theorem JsonValue.depthElements_le_iff : ∀ (elements : JsonArray) (n : Nat),
    JsonValue.depthElements elements ≤ n ↔ ∀ v, v ∈ elements → v.depth + 1 ≤ n := by
  intro elements
  induction elements with
  | nil =>
      intro n
      rw [JsonValue.depthElements]
      exact ⟨fun _ v h => (by cases h), fun _ => Nat.zero_le _⟩
  | cons v0 elements ih =>
      intro n
      rw [JsonValue.depthElements, Nat.max_le, ih n]
      constructor
      · rintro ⟨h1, h2⟩ v hm
        rcases List.mem_cons.mp hm with hm | hm
        · rw [hm]
          exact h1
        · exact h2 v hm
      · intro h
        exact ⟨h v0 (List.mem_cons_self _ _), fun v hm => h v (List.mem_cons_of_mem _ hm)⟩

theorem mem_WriteElements (cfg : JsonWriterConfig) (indent depth : Int) :
    ∀ (arr : JsonArray) (r : Except WriterException (List Char)),
      r ∈ WriteElements cfg arr indent depth ↔ ∃ v, v ∈ arr ∧ r = WriteValue cfg v indent depth := by
  intro arr
  induction arr with
  | nil =>
      intro r
      rw [WriteElements]
      exact ⟨fun h => (by cases h), fun h => by obtain ⟨_, h, _⟩ := h; cases h⟩
  | cons v0 arr ih =>
      intro r
      rw [WriteElements, List.mem_cons, ih r]
      constructor
      · rintro (h | ⟨v, hv, h⟩)
        · exact ⟨v0, List.mem_cons_self _ _, h⟩
        · exact ⟨v, List.mem_cons_of_mem _ hv, h⟩
      · rintro ⟨v, hv, h⟩
        rcases List.mem_cons.mp hv with hv | hv
        · exact Or.inl (by rw [h, hv])
        · exact Or.inr ⟨v, hv, h⟩

theorem JsonObject.mem_of_find_some : ∀ (obj : JsonObject) (k : List Char) (v : JsonValue),
    JsonObject.find obj k = some v → (k, v) ∈ obj := by
  intro obj
  induction obj with
  | nil => intro k v h; cases h
  | cons m obj ih =>
      intro k v h
      obtain ⟨k0, v0⟩ := m
      rw [JsonObject.find] at h
      by_cases hk : k0 = k
      · rw [if_pos hk] at h
        cases h
        rw [hk]
        exact List.mem_cons_self _ _
      · rw [if_neg hk] at h
        exact List.mem_cons_of_mem _ (ih k v h)

theorem JsonValue.depthMembers_bound (members : JsonObject) (depth limit : Int) :
    depth + (JsonValue.depthMembers members : Int) ≤ limit ↔
      depth ≤ limit ∧ ∀ k v, (k, v) ∈ members → depth + 1 + (v.depth : Int) ≤ limit := by
  constructor
  · intro h
    refine ⟨by omega, fun k v hm => ?_⟩
    have := JsonValue.depth_lt_of_mem_members members k v hm
    omega
  · rintro ⟨h1, h2⟩
    by_cases hl : depth ≤ limit
    · have h3 : JsonValue.depthMembers members ≤ (limit - depth).toNat := by
        rw [JsonValue.depthMembers_le_iff]
        intro k v hm
        have := h2 k v hm
        omega
      omega
    · omega

theorem JsonValue.depthElements_bound (elements : JsonArray) (depth limit : Int) :
    depth + (JsonValue.depthElements elements : Int) ≤ limit ↔
      depth ≤ limit ∧ ∀ v, v ∈ elements → depth + 1 + (v.depth : Int) ≤ limit := by
  constructor
  · intro h
    refine ⟨by omega, fun v hm => ?_⟩
    have := JsonValue.depth_lt_of_mem_elements elements v hm
    omega
  · rintro ⟨h1, h2⟩
    have h3 : JsonValue.depthElements elements ≤ (limit - depth).toNat := by
      rw [JsonValue.depthElements_le_iff]
      intro v hm
      have := h2 v hm
      omega
    omega

mutual

/-- The writer produces a text for a value exactly when the value lies
within the depth limit. -/
theorem WriteValue_ok_iff (cfg : JsonWriterConfig) :
    ∀ (v : JsonValue), v.DistinctKeys → ∀ (indent depth : Int),
      (∃ t, WriteValue cfg v indent depth = .ok t) ↔ depth + (v.depth : Int) ≤ cfg.max_depth
  | .object obj, hk, indent, depth => by
      rw [WriteValue]
      simp only [JsonValue.DistinctKeys] at hk
      by_cases hd : depth > cfg.max_depth
      · rw [if_pos hd]
        constructor
        · rintro ⟨t, ht⟩
          cases ht
        · intro h
          omega
      · rw [if_neg hd, WriteObject_ok_iff, JsonValue.depth, JsonValue.depthMembers_bound]
        have hmem := WriteValues_ok_iff cfg obj hk.1 (indent + cfg.indent_size) (depth + 1)
        constructor
        · intro h
          refine ⟨by omega, fun k v hm => ?_⟩
          have hf := JsonObject.find_of_mem obj hk.2 k v hm
          have hkk : k ∈ JsonObject.GetKeys obj := List.mem_map.mpr ⟨(k, v), hm, rfl⟩
          exact (hmem k v hm).mp (h k hkk _ (by rw [lookup_WriteValues, hf]; rfl))
        · rintro ⟨_, h⟩ k _ r hl
          rw [lookup_WriteValues] at hl
          cases hf : JsonObject.find obj k with
          | none => rw [hf] at hl; cases hl
          | some v =>
              rw [hf] at hl
              cases hl
              have hm := JsonObject.mem_of_find_some obj k v hf
              exact (hmem k v hm).mpr (h k v hm)
  | .array arr, hk, indent, depth => by
      rw [WriteValue]
      simp only [JsonValue.DistinctKeys] at hk
      by_cases hd : depth > cfg.max_depth
      · rw [if_pos hd]
        constructor
        · rintro ⟨t, ht⟩
          cases ht
        · intro h
          omega
      · rw [if_neg hd, WriteArray_ok_iff, JsonValue.depth, JsonValue.depthElements_bound]
        have hmem := WriteElements_ok_iff cfg arr hk (indent + cfg.indent_size) (depth + 1)
        constructor
        · intro h
          refine ⟨by omega, fun v hm => ?_⟩
          exact (hmem v hm).mp (h _ ((mem_WriteElements cfg _ _ arr _).mpr ⟨v, hm, rfl⟩))
        · rintro ⟨_, h⟩ r hr
          obtain ⟨v, hm, hv⟩ := (mem_WriteElements cfg _ _ arr r).mp hr
          rw [hv]
          exact (hmem v hm).mpr (h v hm)
  | .string _, _, _, depth => by
      rw [WriteValue]
      simp only [JsonValue.depth]
      by_cases hd : depth > cfg.max_depth
      · rw [if_pos hd]
        exact ⟨fun h => (by obtain ⟨t, ht⟩ := h; cases ht), fun h => (by simp at h; omega)⟩
      · rw [if_neg hd]
        exact ⟨fun _ => (by simp; omega), fun _ => ⟨_, rfl⟩⟩
  | .number _, _, _, depth => by
      rw [WriteValue]
      simp only [JsonValue.depth]
      by_cases hd : depth > cfg.max_depth
      · rw [if_pos hd]
        exact ⟨fun h => (by obtain ⟨t, ht⟩ := h; cases ht), fun h => (by simp at h; omega)⟩
      · rw [if_neg hd]
        exact ⟨fun _ => (by simp; omega), fun _ => ⟨_, rfl⟩⟩
  | .boolean _, _, _, depth => by
      rw [WriteValue]
      simp only [JsonValue.depth]
      by_cases hd : depth > cfg.max_depth
      · rw [if_pos hd]
        exact ⟨fun h => (by obtain ⟨t, ht⟩ := h; cases ht), fun h => (by simp at h; omega)⟩
      · rw [if_neg hd]
        exact ⟨fun _ => (by simp; omega), fun _ => ⟨_, rfl⟩⟩
  | .null, _, _, depth => by
      rw [WriteValue]
      simp only [JsonValue.depth]
      by_cases hd : depth > cfg.max_depth
      · rw [if_pos hd]
        exact ⟨fun h => (by obtain ⟨t, ht⟩ := h; cases ht), fun h => (by simp at h; omega)⟩
      · rw [if_neg hd]
        exact ⟨fun _ => (by simp; omega), fun _ => ⟨_, rfl⟩⟩

/-- The statement of `WriteValue_ok_iff` for the value of every entry. -/
theorem WriteValues_ok_iff (cfg : JsonWriterConfig) :
    ∀ (obj : JsonObject), JsonValue.DistinctKeysMembers obj → ∀ (indent depth : Int),
      ∀ k v, (k, v) ∈ obj →
        ((∃ t, WriteValue cfg v indent depth = .ok t) ↔
          depth + (v.depth : Int) ≤ cfg.max_depth)
  | [], _, _, _ => by intro k v hm; cases hm
  | (k0, v0) :: obj, hk, indent, depth => by
      simp only [JsonValue.DistinctKeysMembers] at hk
      intro k v hm
      rcases List.mem_cons.mp hm with hm | hm
      · rw [(Prod.mk.inj hm).2]
        exact WriteValue_ok_iff cfg v0 hk.1 indent depth
      · exact WriteValues_ok_iff cfg obj hk.2 indent depth k v hm

/-- The statement of `WriteValue_ok_iff` for every element. -/
theorem WriteElements_ok_iff (cfg : JsonWriterConfig) :
    ∀ (arr : JsonArray), JsonValue.DistinctKeysElements arr → ∀ (indent depth : Int),
      ∀ v, v ∈ arr →
        ((∃ t, WriteValue cfg v indent depth = .ok t) ↔
          depth + (v.depth : Int) ≤ cfg.max_depth)
  | [], _, _, _ => by intro v hm; cases hm
  | v0 :: arr, hk, indent, depth => by
      simp only [JsonValue.DistinctKeysElements] at hk
      intro v hm
      rcases List.mem_cons.mp hm with hm | hm
      · rw [hm]
        exact WriteValue_ok_iff cfg v0 hk.1 indent depth
      · exact WriteElements_ok_iff cfg arr hk.2 indent depth v hm

end

/-- C33: for every writer configuration and every value (the keys of each
Object pairwise distinct), `Write` raises the exception "Maximum depth
exceeded during writing" exactly when the deepest value of the tree is nested
inside more than `max_depth` containers, and returns a text otherwise. -/
theorem C33_writer_depth_limit (cfg : JsonWriterConfig) (v : JsonValue) (hk : v.DistinctKeys) :
    (Write cfg v = .error .maximumDepthExceeded ↔ cfg.max_depth < (v.depth : Int)) ∧
      ((∃ text, Write cfg v = .ok text) ↔ (v.depth : Int) ≤ cfg.max_depth) := by
  have h := WriteValue_ok_iff cfg v hk 0 0
  rw [Int.zero_add] at h
  refine ⟨?_, h⟩
  rw [WriterException.error_iff]
  show (¬ ∃ t, WriteValue cfg v 0 0 = .ok t) ↔ _
  rw [h]
  omega

/-- A run of C33 with `max_depth = 1`: a value nested inside one container is
written, a value nested inside two is not. -/
theorem C33_writer_depth_limit_witness :
    (∃ text, Write { JsonWriterConfig.Compact with max_depth := 1 }
        (.object [(['a'], .null)]) = .ok text) ∧
      Write { JsonWriterConfig.Compact with max_depth := 1 }
        (.object [(['a'], .array [.null])]) = .error .maximumDepthExceeded :=
  ⟨(C33_writer_depth_limit { JsonWriterConfig.Compact with max_depth := 1 }
      (.object [(['a'], .null)])
      (by simp [JsonValue.DistinctKeys, JsonValue.DistinctKeysMembers])).2.mpr (by decide),
    (C33_writer_depth_limit { JsonWriterConfig.Compact with max_depth := 1 }
      (.object [(['a'], .array [.null])])
      (by simp [JsonValue.DistinctKeys, JsonValue.DistinctKeysMembers,
        JsonValue.DistinctKeysElements])).1.mpr (by decide)⟩

/-! ### C40: the symmetry of equality -/

theorem Double.neg_normalize (m e : Int) :
    Double.neg (Double.normalize m e) = Double.normalize (-m) e := by
  unfold Double.normalize
  by_cases hm : m = 0
  · subst hm
    rfl
  · have hm1 : ¬ (-m = 0) := by omega
    rw [if_neg hm, if_neg hm1, Double.stripTwos_neg]
    rfl

theorem Double.neg_roundPos (b : Bool) (a d : Nat) :
    Double.neg (Double.roundPos b a d) = Double.roundPos (!b) a d := by
  unfold Double.roundPos
  lift_lets
  intro k ge e s num den q r m
  by_cases hC : 971 < s ∨ (s = 971 ∧ 2 ^ 53 ≤ m)
  · rw [if_pos hC, if_pos hC]
    rfl
  · rw [if_neg hC, if_neg hC, Double.neg_normalize]
    cases b <;> simp

theorem Double.ofRatio_neg (n : Int) (d : Nat) :
    Double.ofRatio (-n) d = Double.neg (Double.ofRatio n d) := by
  unfold Double.ofRatio
  by_cases h : (d : Int) ∣ n ∧ (n / (d : Int)).natAbs ≤ 2 ^ 53
  · have e : -n / (d : Int) = -(n / (d : Int)) := Int.neg_ediv_of_dvd h.1
    have h1 : (d : Int) ∣ -n ∧ (-n / (d : Int)).natAbs ≤ 2 ^ 53 := by
      rw [e, Int.natAbs_neg]
      exact ⟨(Int.dvd_neg).mpr h.1, h.2⟩
    rw [if_pos h, if_pos h1, e, Double.neg_exactInt]
  · have h1 : ¬ ((d : Int) ∣ -n ∧ (-n / (d : Int)).natAbs ≤ 2 ^ 53) := by
      intro h2
      apply h
      have hd : (d : Int) ∣ n := (Int.dvd_neg).mp h2.1
      have e : -n / (d : Int) = -(n / (d : Int)) := Int.neg_ediv_of_dvd hd
      rw [e, Int.natAbs_neg] at h2
      exact ⟨hd, h2.2⟩
    have hn : n ≠ 0 := by
      intro hn
      apply h
      rw [hn]
      exact ⟨dvd_zero _, by simp⟩
    rw [if_neg h, if_neg h1, Double.neg_roundPos, Int.natAbs_neg]
    congr 1
    by_cases hneg : n < 0
    · have : ¬ (-n < 0) := by omega
      simp [hneg, this]
    · have : -n < 0 := by omega
      simp [hneg, this]

theorem Double.abs_neg (a : Double) : Double.abs (Double.neg a) = Double.abs a := by
  cases a with
  | fin m e => simp [Double.neg, Double.abs]
  | inf b => rfl
  | nan => rfl

theorem Double.sub_swap (a b : Double) : Double.sub a b = Double.neg (Double.sub b a) := by
  cases a with
  | fin m1 e1 =>
      cases b with
      | fin m2 e2 =>
          show Double.add (.fin m1 e1) (.fin (-m2) e2) =
            Double.neg (Double.add (.fin m2 e2) (.fin (-m1) e1))
          unfold Double.add
          simp only [Double.toRatio_neg]
          rw [← Double.ofRatio_neg]
          congr 1
          · ring
          · ring
      | inf b => rfl
      | nan => rfl
  | inf b1 =>
      cases b with
      | fin m2 e2 => cases b1 <;> rfl
      | inf b2 => cases b1 <;> cases b2 <;> rfl
      | nan => rfl
  | nan =>
      cases b <;> rfl

theorem Double.abs_sub_comm (a b : Double) :
    Double.abs (Double.sub a b) = Double.abs (Double.sub b a) := by
  rw [Double.sub_swap a b, Double.abs_neg]

theorem JsonValue.arrayLoop_symm : ∀ (a b : JsonArray), a.length = b.length →
    (∀ v, v ∈ a → ∀ w, w ∈ b → JsonValue.eq v w = JsonValue.eq w v) →
    JsonValue.arrayLoop a b = JsonValue.arrayLoop b a := by
  intro a
  induction a with
  | nil =>
      intro b hl _
      cases b with
      | nil => rfl
      | cons _ _ => cases hl
  | cons x a ih =>
      intro b hl h
      cases b with
      | nil => cases hl
      | cons y b =>
          rw [JsonValue.arrayLoop, JsonValue.arrayLoop,
            h x (List.mem_cons_self _ _) y (List.mem_cons_self _ _),
            ih b (by simpa using hl)
              (fun v hv w hw => h v (List.mem_cons_of_mem _ hv) w (List.mem_cons_of_mem _ hw))]

theorem JsonValue.DistinctKeys_of_mem_members : ∀ (members : JsonObject),
    JsonValue.DistinctKeysMembers members → ∀ k v, (k, v) ∈ members → v.DistinctKeys := by
  intro members
  induction members with
  | nil =>
      intro _ k v hm
      cases hm
  | cons p rest ih =>
      intro h k v hm
      obtain ⟨k0, v0⟩ := p
      simp only [JsonValue.DistinctKeysMembers] at h
      rcases List.mem_cons.mp hm with hm | hm
      · rw [(Prod.mk.inj hm).2]
        exact h.1
      · exact ih h.2 k v hm

theorem JsonValue.DistinctKeys_of_mem_elements : ∀ (elements : JsonArray),
    JsonValue.DistinctKeysElements elements → ∀ v, v ∈ elements → v.DistinctKeys := by
  intro elements
  induction elements with
  | nil =>
      intro _ v hm
      cases hm
  | cons p rest ih =>
      intro h v hm
      simp only [JsonValue.DistinctKeysElements] at h
      rcases List.mem_cons.mp hm with hm | hm
      · rw [hm]
        exact h.1
      · exact ih h.2 v hm

/-- One direction of the comparison of two objects with pairwise distinct
keys follows from the other. -/
theorem JsonValue.eq_object_swap (a b : JsonObject) (ha : (a.map Prod.fst).Nodup)
    (hb : (b.map Prod.fst).Nodup)
    (hsym : ∀ k v, (k, v) ∈ a → ∀ w, (k, w) ∈ b → JsonValue.eq w v = true →
      JsonValue.eq v w = true)
    (h : JsonValue.eq (.object a) (.object b) = true) :
    JsonValue.eq (.object b) (.object a) = true := by
  rw [JsonValue.eq_object_iff] at h ⊢
  obtain ⟨hl, hall⟩ := h
  refine ⟨hl.symm, ?_⟩
  have hsub : ∀ k, k ∈ a.map Prod.fst → k ∈ b.map Prod.fst := by
    intro k hk
    obtain ⟨p, hp, rfl⟩ := List.mem_map.mp hk
    obtain ⟨w, hw, _⟩ := hall p.1 p.2 hp
    exact List.mem_map.mpr ⟨(p.1, w), JsonObject.mem_of_find_some b p.1 w hw, rfl⟩
  have hperm := keys_perm_of_SameKeys a b ha hl hsub
  intro k w hm
  have hk : k ∈ a.map Prod.fst :=
    hperm.mem_iff.mpr (List.mem_map.mpr ⟨(k, w), hm, rfl⟩)
  obtain ⟨v, hv⟩ := JsonObject.find_of_mem_keys a k hk
  have hva := JsonObject.mem_of_find_some a k v hv
  obtain ⟨w1, hw1, he⟩ := hall k v hva
  have hw2 := JsonObject.find_of_mem b hb k w hm
  rw [hw2] at hw1
  cases hw1
  exact ⟨v, hv, hsym k v hva w hm he⟩

mutual

/-- The operator `==` gives the same answer with its operands exchanged, when
the keys of every Object are pairwise distinct. -/
theorem JsonValue.eq_symm : ∀ (a : JsonValue), a.DistinctKeys → ∀ (b : JsonValue),
    b.DistinctKeys → JsonValue.eq a b = JsonValue.eq b a
  | .object a, ha, b, hb => by
      cases b with
      | object b =>
          simp only [JsonValue.DistinctKeys] at ha hb
          have ih := JsonValue.eq_symm_members a ha.1
          have hbv := JsonValue.DistinctKeys_of_mem_members b hb.1
          apply Bool.eq_iff_iff.mpr
          constructor
          · intro h
            exact JsonValue.eq_object_swap a b ha.2 hb.2
              (fun k v hv w hw he => by rw [ih k v hv w (hbv k w hw)]; exact he) h
          · intro h
            exact JsonValue.eq_object_swap b a hb.2 ha.2
              (fun k w hw v hv he => by rw [← ih k v hv w (hbv k w hw)]; exact he) h
      | array _ => simp only [JsonValue.eq]
      | string _ => simp only [JsonValue.eq]
      | number _ => simp only [JsonValue.eq]
      | boolean _ => simp only [JsonValue.eq]
      | null => simp only [JsonValue.eq]
  | .array a, ha, b, hb => by
      cases b with
      | array b =>
          simp only [JsonValue.DistinctKeys] at ha hb
          have ih := JsonValue.eq_symm_elements a ha
          have hbv := JsonValue.DistinctKeys_of_mem_elements b hb
          rw [JsonValue.eq, JsonValue.eq]
          by_cases hl : a.length = b.length
          · have hl1 : b.length = a.length := hl.symm
            rw [decide_eq_true hl, decide_eq_true hl1,
              JsonValue.arrayLoop_symm a b hl (fun v hv w hw => ih v hv w (hbv w hw))]
          · have hl1 : ¬ b.length = a.length := fun h => hl h.symm
            rw [decide_eq_false hl, decide_eq_false hl1]
            rfl
      | object _ => simp only [JsonValue.eq]
      | string _ => simp only [JsonValue.eq]
      | number _ => simp only [JsonValue.eq]
      | boolean _ => simp only [JsonValue.eq]
      | null => simp only [JsonValue.eq]
  | .string a, _, b, _ => by
      cases b with
      | string b =>
          rw [JsonValue.eq, JsonValue.eq]
          exact decide_eq_decide.mpr eq_comm
      | object _ => simp only [JsonValue.eq]
      | array _ => simp only [JsonValue.eq]
      | number _ => simp only [JsonValue.eq]
      | boolean _ => simp only [JsonValue.eq]
      | null => simp only [JsonValue.eq]
  | .number a, _, b, _ => by
      cases b with
      | number b =>
          rw [JsonValue.eq, JsonValue.eq, Double.abs_sub_comm]
      | object _ => simp only [JsonValue.eq]
      | array _ => simp only [JsonValue.eq]
      | string _ => simp only [JsonValue.eq]
      | boolean _ => simp only [JsonValue.eq]
      | null => simp only [JsonValue.eq]
  | .boolean a, _, b, _ => by
      cases b with
      | boolean b =>
          rw [JsonValue.eq, JsonValue.eq]
          exact decide_eq_decide.mpr eq_comm
      | object _ => simp only [JsonValue.eq]
      | array _ => simp only [JsonValue.eq]
      | string _ => simp only [JsonValue.eq]
      | number _ => simp only [JsonValue.eq]
      | null => simp only [JsonValue.eq]
  | .null, _, b, _ => by
      cases b <;> simp only [JsonValue.eq]

/-- The symmetry of `==` on the values of the entries of an Object. -/
theorem JsonValue.eq_symm_members : ∀ (members : JsonObject),
    JsonValue.DistinctKeysMembers members → ∀ k v, (k, v) ∈ members →
      ∀ (w : JsonValue), w.DistinctKeys → JsonValue.eq v w = JsonValue.eq w v
  | [], _, _, _, hm, _, _ => by cases hm
  | (k0, v0) :: rest, h, k, v, hm, w, hw => by
      simp only [JsonValue.DistinctKeysMembers] at h
      rcases List.mem_cons.mp hm with hm | hm
      · rw [(Prod.mk.inj hm).2]
        exact JsonValue.eq_symm v0 h.1 w hw
      · exact JsonValue.eq_symm_members rest h.2 k v hm w hw

/-- The symmetry of `==` on the elements of an Array. -/
theorem JsonValue.eq_symm_elements : ∀ (elements : JsonArray),
    JsonValue.DistinctKeysElements elements → ∀ v, v ∈ elements →
      ∀ (w : JsonValue), w.DistinctKeys → JsonValue.eq v w = JsonValue.eq w v
  | [], _, _, hm, _, _ => by cases hm
  | v0 :: rest, h, v, hm, w, hw => by
      simp only [JsonValue.DistinctKeysElements] at h
      rcases List.mem_cons.mp hm with hm | hm
      · rw [hm]
        exact JsonValue.eq_symm v0 h.1 w hw
      · exact JsonValue.eq_symm_elements rest h.2 v hm w hw

end

/-- Claim C40: for all Values `a` and `b` whose Objects have pairwise distinct
keys, `a == b` and `b == a` give the same answer, and `a != b` is the negation
of `a == b` (this half for all Values). -/
theorem C40_equality_symmetric (a b : JsonValue) (ha : a.DistinctKeys) (hb : b.DistinctKeys) :
    JsonValue.eq a b = JsonValue.eq b a ∧
      (∀ x y : JsonValue, JsonValue.ne x y = !(JsonValue.eq x y)) :=
  ⟨JsonValue.eq_symm a ha b hb, fun _ _ => rfl⟩

theorem C40_equality_symmetric_witness :
    (JsonValue.eq
        (.object [(['a'], .number (Double.ofInt 1)), (['b'], .array [.null, .boolean true])])
        (.object [(['b'], .array [.null, .boolean true]), (['a'], .number (Double.ofInt 1))]) =
      JsonValue.eq
        (.object [(['b'], .array [.null, .boolean true]), (['a'], .number (Double.ofInt 1))])
        (.object [(['a'], .number (Double.ofInt 1)), (['b'], .array [.null, .boolean true])])) ∧
      (∀ x y : JsonValue, JsonValue.ne x y = !(JsonValue.eq x y)) :=
  C40_equality_symmetric _ _
    (by simp [JsonValue.DistinctKeys, JsonValue.DistinctKeysMembers,
      JsonValue.DistinctKeysElements])
    (by simp [JsonValue.DistinctKeys, JsonValue.DistinctKeysMembers,
      JsonValue.DistinctKeysElements])

/-! ### C36: the round trip of a string -/

theorem escapeChar_of_no_unicode (cfg : JsonWriterConfig) (hu : cfg.escape_unicode = false)
    (c : Char) : escapeChar cfg c = escapeChar JsonWriterConfig.CompactSorted c := by
  unfold escapeChar
  rw [hu]
  rfl

theorem EscapeString_of_no_unicode (cfg : JsonWriterConfig) (hu : cfg.escape_unicode = false) :
    ∀ s : List Char, EscapeString cfg s = EscapeString JsonWriterConfig.CompactSorted s := by
  intro s
  induction s with
  | nil => rfl
  | cons c s ih => rw [EscapeString, EscapeString, ih, escapeChar_of_no_unicode cfg hu]

theorem WriteString_of_no_unicode (cfg : JsonWriterConfig) (hu : cfg.escape_unicode = false)
    (s : List Char) : WriteString cfg s = WriteString JsonWriterConfig.CompactSorted s := by
  unfold WriteString
  rw [EscapeString_of_no_unicode cfg hu]

theorem Parse_WriteString (wcfg : JsonWriterConfig) (pcfg : JsonParserConfig) (s : List Char)
    (hu : wcfg.escape_unicode = false) (hs : s.length ≤ pcfg.max_string_length) :
    Parse (WriteString wcfg s) pcfg = .ok (.string s) := by
  obtain ⟨h1, h2, h3, h4⟩ := WriteString_eq_stringText s
  have h := Parse_render pcfg (.string (s.map escapeItem))
    (by
      simp only [Text.WellFormed]
      exact ⟨h3, by omega⟩) rfl
  simp only [Text.render, Text.denote] at h
  rw [h2, ← h1, ← WriteString_of_no_unicode wcfg hu] at h
  exact h

/-- Claim C36: for every string `s` of at most `max_string_length` characters
and every writer configuration with `escape_unicode` off, `Write` of the
String `s` gives the text `"` ++ `EscapeString(s)` ++ `"` (when the depth limit
of the writer is not negative), and `Parse` of that text succeeds under every
parser configuration, strict or not, and returns exactly the String `s`. -/
theorem C36_string_round_trip (wcfg : JsonWriterConfig) (pcfg : JsonParserConfig)
    (s : List Char) (hu : wcfg.escape_unicode = false)
    (hs : s.length ≤ pcfg.max_string_length) :
    (0 ≤ wcfg.max_depth → Write wcfg (.string s) = .ok ('"' :: EscapeString wcfg s ++ ['"'])) ∧
      Parse ('"' :: EscapeString wcfg s ++ ['"']) pcfg = .ok (.string s) := by
  refine ⟨fun hd => ?_, Parse_WriteString wcfg pcfg s hu hs⟩
  show WriteValue wcfg (.string s) 0 0 = _
  rw [WriteValue, if_neg (by omega)]
  rfl

theorem C36_string_round_trip_witness :
    (0 ≤ JsonWriterConfig.Pretty.max_depth →
        Write JsonWriterConfig.Pretty (.string "a\"b\\c\nd\te\x01".toList) =
          .ok ('"' :: EscapeString JsonWriterConfig.Pretty "a\"b\\c\nd\te\x01".toList ++ ['"'])) ∧
      Parse ('"' :: EscapeString JsonWriterConfig.Pretty "a\"b\\c\nd\te\x01".toList ++ ['"'])
        JsonParserConfig.Lenient = .ok (.string "a\"b\\c\nd\te\x01".toList) :=
  C36_string_round_trip JsonWriterConfig.Pretty JsonParserConfig.Lenient
    "a\"b\\c\nd\te\x01".toList rfl (by decide)

/-! ### C34: the default serialization and the keys -/

/-- Claim C34 at the Object that maps the key `a"b` (with a line feed after
it) to the String `c"d` (with a line feed after it): `ToString` escapes the
quote and the line feed of the String value, and emits the key between quotes
as it is, with its quote and its line feed. -/
theorem C34_key_is_not_escaped :
    JsonValue.ToString (.object [("a\"b\n".toList, .string "c\"d\n".toList)]) 0 =
        "\x7b\n  \"a\"b\n\": \"c\\\"d\\n\"\n\x7d".toList ∧
      WriteValue JsonWriterConfig.Pretty
          (.object [("a\"b\n".toList, .string "c\"d\n".toList)]) 0 0 =
        .ok "\x7b\n  \"a\\\"b\\n\": \"c\\\"d\\n\"\n\x7d".toList := by
  constructor
  · decide!
  · decide!

/-! ### C39: numbers without the digits that JSON requires -/

theorem ParseExponentSign_loose {st : ParserState} {pre rest : List Char} (sign : Option Bool)
    {y : Char} (hy : sign = none → y ≠ '-' ∧ y ≠ '+')
    (h : st.Reads pre (ExponentPart.signText sign ++ y :: rest)) :
    ∃ st1, ParseExponentSign st = .ok (decide (sign = some true), st1) ∧
      st1.Reads (pre ++ ExponentPart.signText sign) (y :: rest) := by
  cases sign with
  | none =>
      have h0 : st.Reads pre (y :: rest) := h
      obtain ⟨h1, h2⟩ := hy rfl
      refine ⟨st, ?_, by simpa [ExponentPart.signText] using h0⟩
      simp [ParseExponentSign, Current_of_Reads h0, h1, h2, bind, Except.bind, pure, Except.pure]
  | some b =>
      cases b with
      | true =>
          have h0 : st.Reads pre ('-' :: y :: rest) := h
          refine ⟨st.consume '-', ?_, by simpa [ExponentPart.signText] using h0.after_consume⟩
          simp [ParseExponentSign, Current_of_Reads h0, Next_of_Reads h0, bind, Except.bind, pure,
            Except.pure]
      | false =>
          have h0 : st.Reads pre ('+' :: y :: rest) := h
          refine ⟨st.consume '+', ?_, by simpa [ExponentPart.signText] using h0.after_consume⟩
          simp [ParseExponentSign, Current_of_Reads h0, Next_of_Reads h0, bind, Except.bind, pure,
            Except.pure]

theorem ParseExponent_loose {result : Double} {st : ParserState} {pre rest : List Char}
    (x : ExponentPart) (hm : x.marker = 'e' ∨ x.marker = 'E')
    (hes : ∀ c ∈ x.digits, isdigit c = true) {y : Char} (hy : isdigit y = false)
    (hsign : x.sign = none → x.digits = [] → y ≠ '-' ∧ y ≠ '+')
    (h : st.Reads pre (NumberLiteral.exponentText (some x) ++ y :: rest)) :
    ∃ st1, ParseExponent result st = .ok (Double.mul result (Double.pow10 x.accumulated), st1) ∧
      st1.Reads (pre ++ NumberLiteral.exponentText (some x)) (y :: rest) := by
  obtain ⟨m, sign, es⟩ := x
  have hm' : m = 'e' ∨ m = 'E' := hm
  have h0 : st.Reads pre (m :: (ExponentPart.signText sign ++ (es ++ y :: rest))) := by
    simpa [NumberLiteral.exponentText] using h
  have h1 : (st.consume m).Reads (pre ++ [m]) (ExponentPart.signText sign ++ (es ++ y :: rest)) :=
    h0.after_consume
  obtain ⟨z, tail, hz, hz1⟩ : ∃ z tail, es ++ y :: rest = z :: tail ∧
      (sign = none → z ≠ '-' ∧ z ≠ '+') := by
    cases es with
    | nil => exact ⟨y, rest, rfl, fun hs => hsign hs rfl⟩
    | cons d es =>
        have hd : isdigit d = true := hes d (by simp)
        exact ⟨d, es ++ y :: rest, rfl,
          fun _ => ⟨isdigit_ne hd (by decide), isdigit_ne hd (by decide)⟩⟩
  rw [hz] at h1
  obtain ⟨st2, h2, h3⟩ := ParseExponentSign_loose sign hz1 h1
  rw [← hz] at h3
  obtain ⟨st3, h4, h5⟩ := ExponentLoop_digits es 0 _ _ (y :: rest) h3 hes (by simpa using hy)
  refine ⟨st3, ?_, by simpa [NumberLiteral.exponentText] using h5⟩
  simp only [ParseExponent, Current_of_Reads h0, Next_of_Reads h0, bind, Except.bind, pure,
    Except.pure, hm', if_true, h2, h3.unread_eq, h4, ExponentPart.accumulated]
  cases sign with
  | none => simp
  | some b => cases b <;> simp

theorem ParseNumber_loose (n : NumberLiteral) (hn : n.Loose) (c : Char)
    (hc : n.StopsBefore c) (st : ParserState) (pre rest : List Char)
    (h : st.Reads pre (n.text ++ c :: rest)) :
    ∃ st1, ParseNumber st = .ok (n.accumulated, st1) ∧ st1.Reads (pre ++ n.text) (c :: rest) := by
  obtain ⟨hne, hds, hfs, hex⟩ := hn
  obtain ⟨⟨hc1, hc2, hc3⟩, hc4⟩ := hc
  obtain ⟨y, tail, hy1, hy2, hy3, hy4⟩ :=
    exponentText_head n.exponent (fun x hx => (hex x hx).1) hc1 rest
  have h0 : st.Reads pre ((if n.negative then ['-'] else []) ++ (n.integer ++
      (NumberLiteral.fractionText n.fraction ++ (NumberLiteral.exponentText n.exponent ++ c :: rest)))) := by
    simpa [NumberLiteral.text] using h
  obtain ⟨st1, p1, r1⟩ : ∃ st1, ParseSign st = .ok (n.negative, st1) ∧
      st1.Reads (pre ++ (if n.negative then ['-'] else [])) (n.integer ++
        (NumberLiteral.fractionText n.fraction ++
          (NumberLiteral.exponentText n.exponent ++ c :: rest))) := by
    cases hneg : n.negative with
    | true =>
        rw [hneg] at h0
        have h0' : st.Reads pre ('-' :: (n.integer ++ (NumberLiteral.fractionText n.fraction ++
            (NumberLiteral.exponentText n.exponent ++ c :: rest)))) := h0
        exact ⟨_, ParseSign_minus h0', by simpa using h0'.after_consume⟩
    | false =>
        rw [hneg] at h0
        have hi : n.integer ≠ [] := by
          rcases hne with hne | hne
          · rw [hneg] at hne
            cases hne
          · exact hne
        exact ParseSign_literal false hi hds h0
  have htail : ∀ z ∈ (NumberLiteral.fractionText n.fraction ++
      (NumberLiteral.exponentText n.exponent ++ c :: rest)).head?, isdigit z = false := by
    cases hf : n.fraction with
    | none =>
        rw [hy1]
        intro z hz
        simp [NumberLiteral.fractionText] at hz
        rw [← hz]
        exact hy2
    | some fs =>
        intro z hz
        simp [NumberLiteral.fractionText] at hz
        rw [← hz]
        decide
  obtain ⟨st2, p2, r2⟩ := IntegerLoop_digits n.integer (Double.ofInt 0) st1 _ _ r1 hds htail
  rw [hy1] at r2
  have hdot : n.fraction = none → y ≠ '.' := by
    intro hf
    by_cases hx : n.exponent = none
    · rw [hy4 hx]
      exact hc3 hf hx
    · exact hy3 hx
  obtain ⟨st3, p3, r3⟩ := ParseFraction_literal
    (integerAccumulated n.integer (Double.ofInt 0)) n.fraction hfs hy2 hdot r2
  rw [← hy1] at r3
  obtain ⟨st4, p4, r4⟩ : ∃ st4, ParseExponent
      (NumberLiteral.addFraction (integerAccumulated n.integer (Double.ofInt 0)) n.fraction) st3 =
        .ok (NumberLiteral.scale
          (NumberLiteral.addFraction (integerAccumulated n.integer (Double.ofInt 0)) n.fraction)
          n.exponent, st4) ∧
      st4.Reads (pre ++ (if n.negative then ['-'] else []) ++ n.integer ++
        NumberLiteral.fractionText n.fraction ++ NumberLiteral.exponentText n.exponent)
        (c :: rest) := by
    cases hx : n.exponent with
    | none =>
        rw [hx] at r3
        have r3' : st3.Reads (pre ++ (if n.negative then ['-'] else []) ++ n.integer ++
            NumberLiteral.fractionText n.fraction) (c :: rest) := r3
        exact ⟨st3, ParseExponent_none r3' (hc2 hx), by simpa [NumberLiteral.exponentText] using r3'⟩
    | some x =>
        rw [hx] at r3
        obtain ⟨hm, hes⟩ := hex x hx
        exact ParseExponent_loose x hm hes hc1 (hc4 x hx) r3
  refine ⟨st4, ?_, by simpa [NumberLiteral.text] using r4⟩
  simp only [ParseNumber, p1, bind, Except.bind, r1.unread_eq, p2, p3, p4, pure, Except.pure,
    NumberLiteral.accumulated]

theorem NumberLiteral.text_head (n : NumberLiteral) (hn : n.Loose) (t : List Char) :
    ∃ d tail, n.text ++ t = d :: (tail ++ t) ∧ n.text = d :: tail ∧
      (d = '-' ∨ isdigit d = true) := by
  obtain ⟨hne, hds, _, _⟩ := hn
  cases hneg : n.negative with
  | true =>
      refine ⟨'-', n.integer ++ (NumberLiteral.fractionText n.fraction ++
        NumberLiteral.exponentText n.exponent), ?_, ?_, Or.inl rfl⟩
      · simp [NumberLiteral.text, hneg]
      · simp [NumberLiteral.text, hneg]
  | false =>
      have hi : n.integer ≠ [] := by
        rcases hne with hne | hne
        · rw [hneg] at hne
          cases hne
        · exact hne
      cases hint : n.integer with
      | nil => exact absurd hint hi
      | cons d ds =>
          refine ⟨d, ds ++ (NumberLiteral.fractionText n.fraction ++
            NumberLiteral.exponentText n.exponent), ?_, ?_, Or.inr (hds d (by simp [hint]))⟩
          · simp [NumberLiteral.text, hneg, hint]
          · simp [NumberLiteral.text, hneg, hint]

theorem NumberLiteral.StopsBefore_of_FollowsValue (n : NumberLiteral) {rest : List Char}
    (h : FollowsValue rest) : ∃ c tail, rest = c :: tail ∧ n.StopsBefore c := by
  obtain ⟨c, tail, hr, hc⟩ := h
  refine ⟨c, tail, hr, ?_⟩
  have hall : isdigit c = false ∧ c ≠ 'e' ∧ c ≠ 'E' ∧ c ≠ '.' ∧ c ≠ '-' ∧ c ≠ '+' := by
    rcases hc with hc | hc | hc
    · have hmem : ((((c = ' ' ∨ c = '\t') ∨ c = '\n') ∨ c = '\x0b') ∨ c = '\x0c') ∨ c = '\r' := by
        unfold isspace at hc
        simpa using hc
      rcases hmem with ((((e | e) | e) | e) | e) | e <;> rw [e] <;> decide
    · rw [hc]
      decide
    · rw [hc]
      decide
  obtain ⟨h1, h2, h3, h4, h5, h6⟩ := hall
  exact ⟨⟨h1, fun _ => ⟨h2, h3⟩, fun _ _ => h4⟩, fun _ _ _ _ => ⟨h5, h6⟩⟩

/-- With enough fuel, `ParseValue` reads a loose number literal that stands
before a character which cannot continue it, and returns the Number that the
loops of `ParseNumber` accumulate. -/
theorem ReadsValue_loose (cfg : JsonParserConfig) (n : NumberLiteral) (hn : n.Loose) {c : Char}
    (hc : n.StopsBefore c) {st : ParserState} {pre rest : List Char}
    (h : st.Reads pre (n.text ++ c :: rest)) :
    ReadsValue cfg st pre n.text (c :: rest) (.number n.accumulated) := by
  obtain ⟨st1, p1, r1⟩ := ParseNumber_loose n hn c hc st pre rest h
  refine ⟨st1, r1, 1, fun fuel hf => ?_⟩
  obtain ⟨f, rfl⟩ : ∃ f, fuel = f + 1 := ⟨fuel - 1, by omega⟩
  obtain ⟨d, tail, hd, _, hd1⟩ := NumberLiteral.text_head n hn (c :: rest)
  rw [hd] at h
  rw [ParseValue_number f h hd1, p1]
  rfl

/-- With enough fuel, `ParseValue` reads an object of one member whose value
text `txt` is read as `v`. -/
theorem ReadsValue_member (cfg : JsonParserConfig) (h : MemberHead) (txt : List Char)
    (v : JsonValue) {st : ParserState} {pre rest : List Char}
    (hh : h.WellFormed cfg.max_string_length)
    (hhead : ∃ c t, txt = c :: t ∧ isspace c = false ∧ c ≠ '/')
    (hv : ∀ st1 pre1, st1.Reads pre1 (txt ++ (h.afterValue ++ '}' :: rest)) →
      ReadsValue cfg st1 pre1 txt (h.afterValue ++ '}' :: rest) v)
    (hread : st.Reads pre ('{' :: (h.beforeKey ++ (stringText h.key ++ (h.afterKey ++ ':' ::
      (h.beforeValue ++ (txt ++ (h.afterValue ++ '}' :: rest)))))))) :
    ReadsValue cfg st pre ('{' :: (h.beforeKey ++ (stringText h.key ++ (h.afterKey ++ ':' ::
      (h.beforeValue ++ (txt ++ (h.afterValue ++ ['}']))))))) rest
      (.object [(stringDenote h.key, v)]) := by
  have h1 := hread.after_consume
  obtain ⟨st8, r8, enough, hfuel⟩ :=
    ParseObjectLoop_member cfg h txt v [] hh (Or.inr rfl) hhead hv h1
  refine ⟨st8, by simpa using r8, enough + 3, fun fuel hf => ?_⟩
  obtain ⟨f, rfl⟩ : ∃ f, fuel = f + 3 := ⟨fuel - 3, by omega⟩
  have p1 := (hfuel f (by omega)).1 rfl
  have h2 : (st.consume '{').Reads (pre ++ ['{']) (h.beforeKey ++ '"' :: (itemsText h.key ++
      '"' :: (h.afterKey ++ ':' :: (h.beforeValue ++ (txt ++ (h.afterValue ++ '}' :: rest)))))) := by
    simpa [stringText] using h1
  have r2 := SkipSeparators_token cfg h2 hh.1 (by decide) (by decide)
  have hidem : SkipSeparators cfg (SkipSeparators cfg (st.consume '{')) =
      SkipSeparators cfg (st.consume '{') :=
    SkipSeparators_eq_self cfg r2 (by intro c hc; simp at hc; subst hc; decide) (by simp)
  rw [ParseValue_object (f + 2) hread, ParseObject]
  have hne : '"' ≠ '}' := by decide
  simp only [ValidateDepth_zero, bind, Except.bind, Expect_of_Reads hread, Current_of_Reads r2,
    hne, if_false, ParseObjectLoop_skip cfg (f + 1) [] _ hidem, p1]
  rfl

/-- Claim C39: `ParseNumber` raises no syntax error of its own. A number text
that starts with `-` or a digit and lacks the digits that JSON requires (after
the `-`, after the `.`, after the exponent letter or its sign) is read, at
every value position and under every configuration, as the Number that the
loops accumulate, up to the first character that cannot continue it. As the
value of a member of an object (`h` holds the key and the white space), the
text is accepted by `Parse` under the strict default configuration and
`IsValidJson` returns `true`; a lone `-` gives the Number 0, and `1.` and `1e`
give the Number 1. -/
theorem C39_number_without_digits_accepted (n : NumberLiteral) (hn : n.Loose) (h : MemberHead)
    (hh : h.WellFormed JsonParserConfig.Strict.max_string_length) :
    (∀ (cfg : JsonParserConfig) (st : ParserState) (pre rest : List Char) (c : Char),
        n.StopsBefore c → st.Reads pre (n.text ++ c :: rest) →
          ReadsValue cfg st pre n.text (c :: rest) (.number n.accumulated)) ∧
      Parse ('{' :: (h.beforeKey ++ (stringText h.key ++ (h.afterKey ++ ':' ::
          (h.beforeValue ++ (n.text ++ (h.afterValue ++ ['}'])))))))
          JsonParserConfig.Strict =
        .ok (.object [(stringDenote h.key, .number n.accumulated)]) ∧
      IsValidJson ('{' :: (h.beforeKey ++ (stringText h.key ++ (h.afterKey ++ ':' ::
          (h.beforeValue ++ (n.text ++ (h.afterValue ++ ['}']))))))) = true ∧
      (NumberLiteral.mk true [] none none).accumulated = Double.fin 0 0 ∧
      (NumberLiteral.mk false ['1'] (some []) none).accumulated = Double.fin 1 0 ∧
      (NumberLiteral.mk false ['1'] none (some ⟨'e', none, []⟩)).accumulated = Double.fin 1 0 := by
  have hparse : Parse ('{' :: (h.beforeKey ++ (stringText h.key ++ (h.afterKey ++ ':' ::
      (h.beforeValue ++ (n.text ++ (h.afterValue ++ ['}'])))))))
      JsonParserConfig.Strict =
        .ok (.object [(stringDenote h.key, .number n.accumulated)]) := by
    apply Parse_of_ReadsValue
    obtain ⟨d, tail, _, hd, hd1⟩ := NumberLiteral.text_head n hn []
    have hhead : ∃ c t, n.text = c :: t ∧ isspace c = false ∧ c ≠ '/' := by
      refine ⟨d, tail, hd, ?_, ?_⟩
      · rcases hd1 with e | e
        · rw [e]
          decide
        · exact isdigit_not_space e
      · rcases hd1 with e | e
        · rw [e]
          decide
        · exact isdigit_ne e (by decide)
    have hv : ∀ st1 pre1, st1.Reads pre1 (n.text ++ (h.afterValue ++ '}' :: [])) →
        ReadsValue JsonParserConfig.Strict st1 pre1 n.text (h.afterValue ++ '}' :: [])
          (.number n.accumulated) := by
      intro st1 pre1 hr
      obtain ⟨c, t, hct, hstop⟩ := NumberLiteral.StopsBefore_of_FollowsValue n
        (@FollowsValue_of_whitespace h.afterValue [] '}' hh.2.2.2.1 (Or.inr rfl))
      rw [hct] at hr ⊢
      exact ReadsValue_loose _ n hn hstop hr
    have h0 := ParserState.Reads.Initialize ('{' :: (h.beforeKey ++ (stringText h.key ++
      (h.afterKey ++ ':' :: (h.beforeValue ++ (n.text ++ (h.afterValue ++ ['}'])))))))
    exact ReadsValue_member JsonParserConfig.Strict h n.text (.number n.accumulated) hh hhead hv
      (by simpa using h0)
  refine ⟨fun cfg st pre rest c hc hr => ReadsValue_loose cfg n hn hc hr, hparse, ?_,
    by decide!, by decide!, by decide!⟩
  unfold IsValidJson
  rw [hparse]

theorem C39_number_without_digits_accepted_witness :
    Parse "\x7b\"a\":-\x7d".toList JsonParserConfig.Strict =
        .ok (.object [(['a'], .number (NumberLiteral.mk true [] none none).accumulated)]) ∧
      IsValidJson "\x7b\"a\":-\x7d".toList = true ∧
      (NumberLiteral.mk true [] none none).accumulated = Double.fin 0 0 :=
  ⟨(C39_number_without_digits_accepted ⟨true, [], none, none⟩
      ⟨Or.inl rfl, (by intro c hc; cases hc), (by intro fs hfs; cases hfs),
        (by intro x hx; cases hx)⟩
      (MemberHead.compact (plainItems ['a']))
      (MemberHead.compact_WellFormed _ ['a'] (by decide) (by decide))).2.1,
    (C39_number_without_digits_accepted ⟨true, [], none, none⟩
      ⟨Or.inl rfl, (by intro c hc; cases hc), (by intro fs hfs; cases hfs),
        (by intro x hx; cases hx)⟩
      (MemberHead.compact (plainItems ['a']))
      (MemberHead.compact_WellFormed _ ['a'] (by decide) (by decide))).2.2.1,
    by decide!⟩

/-! ### C38: termination and progress of the parser -/

theorem ParserState.Advances.step {st st1 : ParserState} (h : st.Advances st1) : st.Step st1 :=
  ⟨h.1, Nat.le_of_lt h.2.1, h.2.2⟩

theorem ParserState.Step.advances {st st1 : ParserState} (h : st.Step st1)
    (hlt : st.position_ < st1.position_) : st.Advances st1 :=
  ⟨h.1, hlt, h.2.2⟩

theorem ParserState.Step.then_Advances {st st1 st2 : ParserState} (h1 : st.Step st1)
    (h2 : st1.Advances st2) : st.Advances st2 :=
  ⟨h2.1.trans h1.1, Nat.lt_of_le_of_lt h1.2.1 h2.2.1, h2.2.2⟩

theorem ParserState.Advances.then_Step {st st1 st2 : ParserState} (h1 : st.Advances st1)
    (h2 : st1.Step st2) : st.Advances st2 :=
  ⟨h2.1.trans h1.1, Nat.lt_of_lt_of_le h1.2.1 h2.2.1, h2.2.2⟩

theorem ParserState.Advances.of_consume {st : ParserState} {c : Char} {u : List Char}
    (h : st.unread = c :: u) : st.Advances (st.consume c) :=
  (ParserState.Step.consume h).advances (by rw [st.consume_position]; omega)

theorem Next_Advances {st : ParserState} {r : Char × ParserState} (h : Next st = .ok r) :
    st.Advances r.2 :=
  (Next_Step h).1.advances (by rw [(Next_Step h).2]; omega)

theorem Expect_Advances {st st1 : ParserState} {c : Char} (h : Expect st c = .ok st1) :
    st.Advances st1 :=
  (Expect_Step h).1.advances (by rw [(Expect_Step h).2]; omega)

theorem ParseString_Advances (cfg : JsonParserConfig) {st : ParserState}
    {r : List Char × ParserState} (h : ParseString cfg st = .ok r) : st.Advances r.2 :=
  (ParseString_Step cfg h).1.advances (by have := (ParseString_Step cfg h).2; omega)

theorem ParseBoolean_Advances {st : ParserState} {r : Bool × ParserState}
    (h : ParseBoolean st = .ok r) : st.Advances r.2 := by
  unfold ParseBoolean at h
  cases hm : Match st ['t', 'r', 'u', 'e'] with
  | mk b st1 =>
    cases b with
    | true =>
        simp [hm] at h
        subst h
        exact (Match_true hm).1.advances (by rw [(Match_true hm).2.1]; simp)
    | false =>
        have := Match_false hm
        subst this
        simp only [hm] at h
        cases hm2 : Match st1 ['f', 'a', 'l', 's', 'e'] with
        | mk b2 st2 =>
          cases b2 with
          | true =>
              simp [hm2] at h
              subst h
              exact (Match_true hm2).1.advances (by rw [(Match_true hm2).2.1]; simp)
          | false => simp [hm2] at h

theorem ParseNull_Advances {st st1 : ParserState} (h : ParseNull st = .ok st1) :
    st.Advances st1 := by
  unfold ParseNull at h
  cases hm : Match st ['n', 'u', 'l', 'l'] with
  | mk b st2 =>
    cases b with
    | true =>
        simp [hm] at h
        subst h
        exact (Match_true hm).1.advances (by rw [(Match_true hm).2.1]; simp)
    | false => simp [hm] at h

/-- Called where `ParseValue` calls it (on a `-` or a digit), `ParseNumber`
consumes at least that character. -/
theorem ParseNumber_Advances {st : ParserState} {r : Double × ParserState} {c : Char}
    (hc : Current st = .ok c) (hd : c = '-' ∨ ('0' ≤ c ∧ c ≤ '9'))
    (h : ParseNumber st = .ok r) : st.Advances r.2 := by
  obtain ⟨u, hu⟩ := Current_eq_ok hc
  have hv : st.Valid := Nat.le_of_lt (ParserState.lt_of_unread hu)
  unfold ParseNumber at h
  simp only [bind, bind_eq_ok] at h
  obtain ⟨s, hs, f, hf, x, hx, h⟩ := h
  simp [pure, Except.pure] at h
  subst h
  have h2 : st.Advances (IntegerLoop s.2.unread (Double.ofInt 0) s.2).2 := by
    by_cases hm : c = '-'
    · subst hm
      have e : ParseSign st = .ok (true, st.consume '-') := by
        simp [ParseSign, hc, Next_of_unread hu, bind, Except.bind, pure, Except.pure]
      rw [e] at hs
      cases hs
      exact (ParserState.Advances.of_consume hu).then_Step
        (IntegerLoop_Step _ _ _ rfl (ParserState.Step.consume hu).valid)
    · have e : ParseSign st = .ok (false, st) := by
        simp [ParseSign, hc, hm, bind, Except.bind, pure, Except.pure]
      rw [e] at hs
      cases hs
      have hdig : isdigit c = true := by
        rcases hd with hd | hd
        · exact absurd hd hm
        · unfold isdigit
          simpa using hd
      show st.Advances (IntegerLoop st.unread (Double.ofInt 0) st).2
      rw [hu, IntegerLoop, if_pos hdig]
      exact (ParserState.Advances.of_consume hu).then_Step
        (IntegerLoop_Step _ _ _ (ParserState.unread_consume hu)
          (ParserState.Step.consume hu).valid)
  have h3 := ParseFraction_Step h2.2.2 hf
  have h4 := ParseExponent_Step h3.valid hx
  exact h2.then_Step (h3.trans h4)

theorem ParseObject_Advances (cfg : JsonParserConfig) {fuel : Nat} {st : ParserState}
    {r : JsonObject × ParserState} (h : ParseObject cfg fuel st = .ok r) : st.Advances r.2 := by
  cases fuel with
  | zero => simp [ParseObject] at h
  | succ n =>
      rw [ParseObject] at h
      simp only [bind, bind_eq_ok] at h
      obtain ⟨-, -, st1, h1, c, -, h⟩ := h
      have hs1 := Expect_Advances h1
      have hs2 := SkipSeparators_Step cfg hs1.2.2
      split at h
      · simp only [bind_eq_ok] at h
        obtain ⟨x, hx, h⟩ := h
        simp [pure, Except.pure] at h
        subst h
        exact hs1.then_Step (hs2.trans (Next_Step hx).1)
      · exact hs1.then_Step (hs2.trans ((Parse_Step cfg n).2.2.1 _ _ _ hs2.valid h))

theorem ParseArray_Advances (cfg : JsonParserConfig) {fuel : Nat} {st : ParserState}
    {r : JsonArray × ParserState} (h : ParseArray cfg fuel st = .ok r) : st.Advances r.2 := by
  cases fuel with
  | zero => simp [ParseArray] at h
  | succ n =>
      rw [ParseArray] at h
      simp only [bind, bind_eq_ok] at h
      obtain ⟨-, -, st1, h1, c, -, h⟩ := h
      have hs1 := Expect_Advances h1
      have hs2 := SkipSeparators_Step cfg hs1.2.2
      split at h
      · simp only [bind_eq_ok] at h
        obtain ⟨x, hx, h⟩ := h
        simp [pure, Except.pure] at h
        subst h
        exact hs1.then_Step (hs2.trans (Next_Step hx).1)
      · exact hs1.then_Step (hs2.trans ((Parse_Step cfg n).2.2.2.2 _ _ _ hs2.valid h))

theorem ParseValue_Advances (cfg : JsonParserConfig) {fuel : Nat} {st : ParserState}
    {r : JsonValue × ParserState} (hv : st.Valid) (h : ParseValue cfg fuel st = .ok r) :
    st.Advances r.2 := by
  cases fuel with
  | zero => simp [ParseValue] at h
  | succ n =>
      rw [ParseValue] at h
      simp only [bind, bind_eq_ok] at h
      obtain ⟨-, -, c, hc, h⟩ := h
      have h0 := SkipSeparators_Step cfg hv
      split at h
      · simp only [bind_eq_ok] at h
        obtain ⟨x, hx, h⟩ := h
        simp [pure, Except.pure] at h
        subst h
        exact h0.then_Advances (ParseObject_Advances cfg hx)
      · split at h
        · simp only [bind_eq_ok] at h
          obtain ⟨x, hx, h⟩ := h
          simp [pure, Except.pure] at h
          subst h
          exact h0.then_Advances (ParseArray_Advances cfg hx)
        · split at h
          · simp only [bind_eq_ok] at h
            obtain ⟨x, hx, h⟩ := h
            simp [pure, Except.pure] at h
            subst h
            exact h0.then_Advances (ParseString_Advances cfg hx)
          · split at h
            · rename_i hd
              simp only [bind_eq_ok] at h
              obtain ⟨x, hx, h⟩ := h
              simp [pure, Except.pure] at h
              subst h
              exact h0.then_Advances (ParseNumber_Advances hc hd hx)
            · split at h
              · simp only [bind_eq_ok] at h
                obtain ⟨x, hx, h⟩ := h
                simp [pure, Except.pure] at h
                subst h
                exact h0.then_Advances (ParseBoolean_Advances hx)
              · split at h
                · simp only [bind_eq_ok] at h
                  obtain ⟨x, hx, h⟩ := h
                  simp [pure, Except.pure] at h
                  subst h
                  exact h0.then_Advances (ParseNull_Advances hx)
                · cases h

/-- One iteration of the `while (true)` loop of `ParseObject`: the cursor has
moved forward when the loop returns or starts its next iteration. -/
theorem ParseObjectLoop_iteration (cfg : JsonParserConfig) {fuel : Nat} {obj : JsonObject}
    {st : ParserState} {r : JsonObject × ParserState} (hv : st.Valid)
    (h : ParseObjectLoop cfg (fuel + 1) obj st = .ok r) :
    ∃ obj1 st1, st.Advances st1 ∧
      (r = (obj1, st1) ∨ ParseObjectLoop cfg fuel obj1 st1 = .ok r) := by
  rw [ParseObjectLoop] at h
  simp only [bind, bind_eq_ok] at h
  obtain ⟨k, hk, st2, h2, v, hv2, c, -, h⟩ := h
  have hs0 := SkipSeparators_Step cfg hv
  have hs1 := ParseString_Advances cfg hk
  have hs2 := SkipSeparators_Step cfg hs1.2.2
  have hs3 := (Expect_Step h2).1
  have hs4 := SkipSeparators_Step cfg hs3.valid
  have hs5 := (ParseValue_Advances cfg hs4.valid hv2).step
  have hs6 := SkipSeparators_Step cfg hs5.valid
  have hs := hs0.then_Advances
    (hs1.then_Step (hs2.trans (hs3.trans (hs4.trans (hs5.trans hs6)))))
  split at h
  · simp only [bind_eq_ok] at h
    obtain ⟨x, hx, h⟩ := h
    simp [pure, Except.pure] at h
    exact ⟨_, _, hs.then_Step (Next_Step hx).1, Or.inl h.symm⟩
  · split at h
    · simp only [bind_eq_ok] at h
      obtain ⟨x, hx, h⟩ := h
      exact ⟨_, _, hs.then_Step (Next_Step hx).1, Or.inr h⟩
    · cases h

/-- One iteration of the `while (true)` loop of `ParseArray`. -/
theorem ParseArrayLoop_iteration (cfg : JsonParserConfig) {fuel : Nat} {arr : JsonArray}
    {st : ParserState} {r : JsonArray × ParserState} (hv : st.Valid)
    (h : ParseArrayLoop cfg (fuel + 1) arr st = .ok r) :
    ∃ arr1 st1, st.Advances st1 ∧
      (r = (arr1, st1) ∨ ParseArrayLoop cfg fuel arr1 st1 = .ok r) := by
  rw [ParseArrayLoop] at h
  simp only [bind, bind_eq_ok] at h
  obtain ⟨v, hv2, c, -, h⟩ := h
  have hs0 := SkipSeparators_Step cfg hv
  have hs5 := ParseValue_Advances cfg hs0.valid hv2
  have hs6 := SkipSeparators_Step cfg hs5.2.2
  have hs := hs0.then_Advances (hs5.then_Step hs6)
  split at h
  · simp only [bind_eq_ok] at h
    obtain ⟨x, hx, h⟩ := h
    simp [pure, Except.pure] at h
    exact ⟨_, _, hs.then_Step (Next_Step hx).1, Or.inl h.symm⟩
  · split at h
    · simp only [bind_eq_ok] at h
      obtain ⟨x, hx, h⟩ := h
      exact ⟨_, _, hs.then_Step (Next_Step hx).1, Or.inr h⟩
    · cases h

/-- One turn of the `while` loop of `ParseString`: its condition fails at the
end of the input, or the cursor has moved forward when the loop returns or
starts its next iteration. -/
theorem ParseStringLoop_iteration (cfg : JsonParserConfig) {fuel : Nat} {result : List Char}
    {st : ParserState} {r : List Char × ParserState}
    (h : ParseStringLoop cfg (fuel + 1) result st = .ok r) :
    (¬ st.position_ < st.input_.length ∧ r = (result, st)) ∨
      ∃ result1 st1, st.Advances st1 ∧
        (r = (result1, st1) ∨ ParseStringLoop cfg fuel result1 st1 = .ok r) := by
  rw [ParseStringLoop] at h
  split at h
  · right
    simp only [bind, bind_eq_ok] at h
    obtain ⟨x, hx, h⟩ := h
    have hs1 := Next_Advances hx
    split at h
    · simp [pure, Except.pure] at h
      exact ⟨_, _, hs1, Or.inl h.symm⟩
    · simp only [bind_eq_ok] at h
      obtain ⟨y, hy, -, -, h⟩ := h
      have hs2 := ParseStringStep_Step cfg hs1.2.2 hy
      exact ⟨_, _, hs1.then_Step hs2, Or.inr h⟩
  · rename_i hlt
    left
    simp [pure, Except.pure] at h
    exact ⟨hlt, h.symm⟩

/-- The character loops (`SkipWhitespace`, the two loops of `SkipComments`
and the three loops of `ParseNumber`) run over the unread input: an iteration
on the character `c` under the cursor continues on the rest of the input from
a state whose cursor has moved forward. -/
theorem characterLoops_iteration {st : ParserState} {c : Char} {u : List Char}
    (hu : st.unread = c :: u) :
    st.Advances (st.consume c) ∧ (st.consume c).unread = u ∧
      st.Advances { st with position_ := st.position_ + 1 } ∧
      (isspace c = true →
        SkipWhitespaceLoop (c :: u) st = SkipWhitespaceLoop u (st.consume c)) ∧
      (c ≠ '\n' → SkipLineLoop (c :: u) st =
        SkipLineLoop u { st with position_ := st.position_ + 1 }) ∧
      (∀ d rest, u = d :: rest → ¬ (c = '*' ∧ d = '/') →
        SkipBlockLoop (c :: u) st = SkipBlockLoop u (st.consume c)) ∧
      (isdigit c = true →
        (∀ result, IntegerLoop (c :: u) result st =
          IntegerLoop u (Double.add (Double.mul result (Double.ofInt 10))
            (Double.ofInt (digitValue c))) (st.consume c)) ∧
        (∀ fraction divisor, FractionLoop (c :: u) fraction divisor st =
          FractionLoop u (Double.add fraction (Double.div (Double.ofInt (digitValue c)) divisor))
            (Double.mul divisor (Double.ofInt 10)) (st.consume c)) ∧
        (∀ exponent, ExponentLoop (c :: u) exponent st =
          ExponentLoop u (wrapInt32 (wrapInt32 (exponent * 10) + digitValue c))
            (st.consume c))) := by
  have hlt := ParserState.lt_of_unread hu
  refine ⟨ParserState.Advances.of_consume hu, ParserState.unread_consume hu,
    ⟨rfl, Nat.lt_succ_self _, hlt⟩, ?_, ?_, ?_, ?_⟩
  · intro hc
    rw [SkipWhitespaceLoop, if_pos hc]
  · intro hc
    rw [SkipLineLoop, if_pos hc]
  · intro d rest hd hcd
    subst hd
    rw [SkipBlockLoop, if_neg hcd]
  · intro hc
    refine ⟨fun result => ?_, fun fraction divisor => ?_, fun exponent => ?_⟩
    · rw [IntegerLoop, if_pos hc]
    · rw [FractionLoop, if_pos hc]
    · rw [ExponentLoop, if_pos hc]

/-- Claim C38: `Parse` terminates on every input and every configuration. It
returns a Value or raises a `JsonParseException`, never running out of the
fuel of the embedding, and more fuel does not change the outcome. From every
valid state `st`: a call of `ParseValue`, `ParseObject`, `ParseArray`,
`ParseString` or `ParseNumber` (on a `-` or a digit, where `ParseValue` calls
it) that returns has moved the cursor forward, inside the input; so has every
iteration of the loops of `ParseObject`, `ParseArray` and `ParseString` when
the loop returns or starts its next iteration; `SkipWhitespace` and
`SkipComments` never move the cursor back or beyond the end of the input, and
every iteration of their loops and of the digit loops of `ParseNumber` moves
the cursor forward. -/
theorem C38_parse_terminates (cfg : JsonParserConfig) (json : List Char) :
    ((∃ v, Parse json cfg = .ok v) ∨ ∃ e, Parse json cfg = .error (.exception e)) ∧
      (∀ fuel, 3 * json.length + 3 ≤ fuel →
        ParseValue cfg fuel (ParserState.Initialize json) =
          ParseValue cfg (3 * json.length + 3) (ParserState.Initialize json)) ∧
      (ParserState.Initialize json).Valid ∧
      ∀ st : ParserState, st.Valid →
        (∀ fuel r, ParseValue cfg fuel st = .ok r → st.Advances r.2) ∧
        (∀ fuel r, ParseObject cfg fuel st = .ok r → st.Advances r.2) ∧
        (∀ fuel r, ParseArray cfg fuel st = .ok r → st.Advances r.2) ∧
        (∀ r, ParseString cfg st = .ok r → st.Advances r.2) ∧
        ParseString cfg st ≠ .error .outOfFuel ∧
        (∀ c r, Current st = .ok c → (c = '-' ∨ ('0' ≤ c ∧ c ≤ '9')) →
          ParseNumber st = .ok r → st.Advances r.2) ∧
        (∀ fuel obj r, ParseObjectLoop cfg (fuel + 1) obj st = .ok r →
          ∃ obj1 st1, st.Advances st1 ∧
            (r = (obj1, st1) ∨ ParseObjectLoop cfg fuel obj1 st1 = .ok r)) ∧
        (∀ fuel arr r, ParseArrayLoop cfg (fuel + 1) arr st = .ok r →
          ∃ arr1 st1, st.Advances st1 ∧
            (r = (arr1, st1) ∨ ParseArrayLoop cfg fuel arr1 st1 = .ok r)) ∧
        (∀ fuel result r, ParseStringLoop cfg (fuel + 1) result st = .ok r →
          (¬ st.position_ < st.input_.length ∧ r = (result, st)) ∨
            ∃ result1 st1, st.Advances st1 ∧
              (r = (result1, st1) ∨ ParseStringLoop cfg fuel result1 st1 = .ok r)) ∧
        st.Step (SkipWhitespace st) ∧ st.Step (SkipComments st) ∧
        ∀ c u, st.unread = c :: u →
          st.Advances (st.consume c) ∧ (st.consume c).unread = u ∧
            st.Advances { st with position_ := st.position_ + 1 } ∧
            (isspace c = true →
              SkipWhitespaceLoop (c :: u) st = SkipWhitespaceLoop u (st.consume c)) ∧
            (c ≠ '\n' → SkipLineLoop (c :: u) st =
              SkipLineLoop u { st with position_ := st.position_ + 1 }) ∧
            (∀ d rest, u = d :: rest → ¬ (c = '*' ∧ d = '/') →
              SkipBlockLoop (c :: u) st = SkipBlockLoop u (st.consume c)) ∧
            (isdigit c = true →
              (∀ result, IntegerLoop (c :: u) result st =
                IntegerLoop u (Double.add (Double.mul result (Double.ofInt 10))
                  (Double.ofInt (digitValue c))) (st.consume c)) ∧
              (∀ fraction divisor, FractionLoop (c :: u) fraction divisor st =
                FractionLoop u
                  (Double.add fraction (Double.div (Double.ofInt (digitValue c)) divisor))
                  (Double.mul divisor (Double.ofInt 10)) (st.consume c)) ∧
              (∀ exponent, ExponentLoop (c :: u) exponent st =
                ExponentLoop u (wrapInt32 (wrapInt32 (exponent * 10) + digitValue c))
                  (st.consume c))) := by
  refine ⟨?_, fun fuel hf => ParseValue_mono_le cfg hf _ (ParseValue_fuel_enough cfg json),
    Nat.zero_le _, fun st hv => ⟨fun _ _ h => ParseValue_Advances cfg hv h,
      fun _ _ h => ParseObject_Advances cfg h, fun _ _ h => ParseArray_Advances cfg h,
      fun _ h => ParseString_Advances cfg h, ParseString_ne_outOfFuel cfg st,
      fun _ _ hc hd h => ParseNumber_Advances hc hd h,
      fun _ _ _ h => ParseObjectLoop_iteration cfg hv h,
      fun _ _ _ h => ParseArrayLoop_iteration cfg hv h,
      fun _ _ _ h => ParseStringLoop_iteration cfg h,
      SkipWhitespace_Step hv, SkipComments_Step hv,
      fun _ _ hu => characterLoops_iteration hu⟩⟩
  have hne := ParseValue_fuel_enough cfg json
  have hP : Parse json cfg =
      (ParseValue cfg (3 * json.length + 3) (ParserState.Initialize json)).bind (fun r =>
        if (SkipWhitespace r.2).position_ < (SkipWhitespace r.2).input_.length then
          .error (ThrowParseError (SkipWhitespace r.2) .unexpectedCharactersAfterValue)
        else .ok r.1) := rfl
  rw [hP]
  cases hp : ParseValue cfg (3 * json.length + 3) (ParserState.Initialize json) with
  | error f =>
      cases f with
      | exception e => exact Or.inr ⟨e, rfl⟩
      | outOfFuel => exact absurd hp hne
  | ok r =>
      by_cases hlt : (SkipWhitespace r.2).position_ < (SkipWhitespace r.2).input_.length
      · right
        refine ⟨.located .unexpectedCharactersAfterValue (SkipWhitespace r.2).line_
          (SkipWhitespace r.2).column_ (SkipWhitespace r.2).position_, ?_⟩
        simp only [Except.bind, if_pos hlt]
        rfl
      · left
        refine ⟨r.1, ?_⟩
        simp only [Except.bind, if_neg hlt]

theorem C38_parse_terminates_witness :
    ((∃ v, Parse "[1,\"a\"]".toList JsonParserConfig.Lenient = .ok v) ∨
        ∃ e, Parse "[1,\"a\"]".toList JsonParserConfig.Lenient = .error (.exception e)) ∧
      (ParserState.Initialize "[1,\"a\"]".toList).Advances
        { input_ := "[1,\"a\"]".toList, position_ := 7, line_ := 1, column_ := 8 } :=
  ⟨(C38_parse_terminates JsonParserConfig.Lenient "[1,\"a\"]".toList).1,
    ((C38_parse_terminates JsonParserConfig.Lenient "[1,\"a\"]".toList).2.2.2
      (ParserState.Initialize "[1,\"a\"]".toList) (Nat.zero_le _)).1 24
      (.array [], { input_ := "[1,\"a\"]".toList, position_ := 7, line_ := 1, column_ := 8 })
      (by decide!)⟩

/-! ### C37: the line and column counters -/

theorem lineOf_succ {input : List Char} {p : Nat} {c : Char} (h : input[p]? = some c) :
    lineOf input (p + 1) = if c = '\n' then lineOf input p + 1 else lineOf input p := by
  unfold lineOf
  rw [List.take_succ, h]
  simp only [Option.toList, List.count_append, List.count_cons, List.count_nil]
  by_cases hc : c = '\n'
  · subst hc
    simp
    omega
  · have hc1 : (c == '\n') = false := by simpa using hc
    simp [hc, hc1]

theorem columnOf_succ {input : List Char} {p : Nat} {c : Char} (h : input[p]? = some c) :
    columnOf input (p + 1) = if c = '\n' then 1 else columnOf input p + 1 := by
  unfold columnOf
  rw [List.take_succ, h]
  simp only [Option.toList, List.reverse_append, List.reverse_cons, List.reverse_nil,
    List.nil_append, List.singleton_append, List.takeWhile_cons]
  by_cases hc : c = '\n'
  · subst hc
    simp
  · simp [hc]
    omega

theorem ParserState.Tracked.initial (input : List Char) :
    (ParserState.Initialize input).Tracked := by
  refine ⟨Nat.zero_le _, ?_, ?_⟩
  · simp [ParserState.Initialize, lineOf]
  · simp [ParserState.Initialize, columnOf]

theorem ParserState.Tracked.consumed {st : ParserState} {c : Char} {u : List Char}
    (ht : st.Tracked) (hu : st.unread = c :: u) : (st.consume c).Tracked := by
  obtain ⟨_, hl, hcol⟩ := ht
  have hlt := ParserState.lt_of_unread hu
  have hg : st.input_[st.position_]? = some c := by
    rw [st.getElem?_eq_head, hu]
    rfl
  unfold ParserState.Tracked
  rw [st.consume_input, st.consume_position, lineOf_succ hg, columnOf_succ hg]
  refine ⟨by omega, ?_, ?_⟩
  · unfold ParserState.consume
    split
    · simp [hl]
    · exact hl
  · unfold ParserState.consume
    split
    · rfl
    · simp [hcol]

theorem ThrowParseError_Truthful {st : ParserState} (ht : st.Tracked) (message : Message) :
    (ThrowParseError st message).Truthful st.input_ := ht

theorem Tracks.bind {input : List Char} {α β : Type} {s1 : α → ParserState}
    {s2 : β → ParserState} {x : Except Failure α} {f : α → Except Failure β}
    (hx : Tracks input s1 x)
    (hf : ∀ a, x = .ok a → (s1 a).Tracked → (s1 a).input_ = input → Tracks input s2 (f a)) :
    Tracks input s2 (x.bind f) := by
  cases x with
  | error e => exact hx
  | ok a => exact hf a rfl hx.1 hx.2

theorem Tracks.ok {α : Type} {s : α → ParserState} {x : α} (ht : (s x).Tracked) :
    Tracks (s x).input_ s (.ok x) := ⟨ht, rfl⟩

theorem Tracks.throw {α : Type} {s : α → ParserState} {st : ParserState} (ht : st.Tracked)
    (message : Message) :
    Tracks st.input_ s (.error (ThrowParseError st message) : Except Failure α) := ht

theorem Current_Tracks {st : ParserState} (ht : st.Tracked) :
    Tracks st.input_ (fun _ => st) (Current st) := by
  unfold Current
  split
  · exact ht
  · exact ⟨ht, rfl⟩

theorem Next_Tracks {st : ParserState} (ht : st.Tracked) :
    Tracks st.input_ Prod.snd (Next st) := by
  cases hu : st.unread with
  | nil =>
      rw [Next_of_unread_nil hu]
      exact ht
  | cons c u =>
      rw [Next_of_unread hu]
      exact ⟨ht.consumed hu, st.consume_input c⟩

theorem Expect_Tracks {st : ParserState} (ht : st.Tracked) (c : Char) :
    Tracks st.input_ id (Expect st c) := by
  unfold Expect
  simp only [bind]
  refine Tracks.bind (Current_Tracks ht) (fun got _ _ _ => ?_)
  split
  · exact ht
  · exact Tracks.bind (Next_Tracks ht) (fun r _ h1 h2 => ⟨h1, h2⟩)

theorem SkipWhitespaceLoop_Tracked :
    ∀ (u : List Char) (st : ParserState), st.unread = u → st.Tracked →
      (SkipWhitespaceLoop u st).Tracked ∧ (SkipWhitespaceLoop u st).input_ = st.input_ := by
  intro u
  induction u with
  | nil => intro st _ ht; exact ⟨ht, rfl⟩
  | cons c u ih =>
      intro st hu ht
      unfold SkipWhitespaceLoop
      split
      · have h := ih _ (ParserState.unread_consume hu) (ht.consumed hu)
        exact ⟨h.1, h.2.trans (st.consume_input c)⟩
      · exact ⟨ht, rfl⟩

theorem SkipSeparators_Tracked {cfg : JsonParserConfig} (hc : cfg.allow_comments = false)
    {st : ParserState} (ht : st.Tracked) :
    (SkipSeparators cfg st).Tracked ∧ (SkipSeparators cfg st).input_ = st.input_ := by
  rw [SkipSeparators_no_comments hc]
  exact SkipWhitespaceLoop_Tracked _ st rfl ht

theorem Advance_Tracked :
    ∀ (count : Nat) (st : ParserState), st.Tracked →
      (Advance count st).Tracked ∧ (Advance count st).input_ = st.input_ := by
  intro count
  induction count with
  | zero => intro st ht; exact ⟨ht, rfl⟩
  | succ n ih =>
      intro st ht
      unfold Advance
      cases hu : st.unread with
      | nil =>
          rw [st.getElem?_eq_head, hu]
          exact ⟨ht, rfl⟩
      | cons c u =>
          rw [st.getElem?_eq_head, hu]
          have h := ih _ (ht.consumed hu)
          exact ⟨h.1, h.2.trans (st.consume_input c)⟩

theorem Match_Tracked {st : ParserState} (ht : st.Tracked) (str : List Char) :
    (Match st str).2.Tracked ∧ (Match st str).2.input_ = st.input_ := by
  unfold Match
  split
  · exact ⟨ht, rfl⟩
  · split
    · exact Advance_Tracked _ st ht
    · exact ⟨ht, rfl⟩

theorem UnicodeEscapeLoop_Tracks :
    ∀ (count : Nat) (st : ParserState), st.Tracked →
      Tracks st.input_ id (UnicodeEscapeLoop count st) := by
  intro count
  induction count with
  | zero => intro st ht; exact ⟨ht, rfl⟩
  | succ n ih =>
      intro st ht
      unfold UnicodeEscapeLoop
      cases hu : st.unread with
      | nil =>
          rw [st.getElem?_eq_head, hu]
          exact ht
      | cons c u =>
          rw [st.getElem?_eq_head, hu]
          simp only [List.head?_cons]
          split
          · have h := ih _ (ht.consumed hu)
            rw [st.consume_input] at h
            exact h
          · exact ht

theorem ParseStringStep_Tracks (cfg : JsonParserConfig) (c : Char) (result : List Char)
    {st : ParserState} (ht : st.Tracked) :
    Tracks st.input_ Prod.snd (ParseStringStep cfg c result st) := by
  unfold ParseStringStep
  split
  · simp only [bind]
    refine Tracks.bind (Next_Tracks ht) (fun r _ h1 h2 => ?_)
    split
    · have h := UnicodeEscapeLoop_Tracks 4 r.2 h1
      rw [h2] at h
      exact Tracks.bind h (fun st1 _ h3 h4 => ⟨h3, h4⟩)
    · exact ⟨h1, h2⟩
  · split
    · split
      · exact ht
      · exact ⟨ht, rfl⟩
    · exact ⟨ht, rfl⟩

theorem ValidateStringLength_Tracks (cfg : JsonParserConfig) (length : Nat)
    {st : ParserState} (ht : st.Tracked) :
    Tracks st.input_ (fun _ => st) (ValidateStringLength cfg length) := by
  unfold ValidateStringLength
  split
  · trivial
  · exact ⟨ht, rfl⟩

theorem ValidateDepth_Tracks (cfg : JsonParserConfig) (depth : Nat)
    {st : ParserState} (ht : st.Tracked) :
    Tracks st.input_ (fun _ => st) (ValidateDepth cfg depth) := by
  unfold ValidateDepth
  split
  · trivial
  · exact ⟨ht, rfl⟩

theorem ParseStringLoop_Tracks (cfg : JsonParserConfig) :
    ∀ (fuel : Nat) (result : List Char) (st : ParserState), st.Tracked →
      Tracks st.input_ Prod.snd (ParseStringLoop cfg fuel result st) := by
  intro fuel
  induction fuel with
  | zero => intro result st _; trivial
  | succ n ih =>
      intro result st ht
      rw [ParseStringLoop]
      split
      · simp only [bind]
        refine Tracks.bind (Next_Tracks ht) (fun r _ h1 h2 => ?_)
        split
        · exact ⟨h1, h2⟩
        · have h := ParseStringStep_Tracks cfg r.1 result h1
          rw [h2] at h
          refine Tracks.bind h (fun x _ h3 h4 => ?_)
          have h5 := ValidateStringLength_Tracks cfg x.1.length h3
          rw [h4] at h5
          refine Tracks.bind h5 (fun _ _ _ _ => ?_)
          have h6 := ih x.1 x.2 h3
          rw [h4] at h6
          exact h6
      · exact ⟨ht, rfl⟩

theorem ParseString_Tracks (cfg : JsonParserConfig) {st : ParserState} (ht : st.Tracked) :
    Tracks st.input_ Prod.snd (ParseString cfg st) := by
  unfold ParseString
  simp only [bind]
  refine Tracks.bind (Expect_Tracks ht '"') (fun st1 _ h1 h2 => ?_)
  have h := ParseStringLoop_Tracks cfg (st1.unread.length + 1) [] st1 h1
  have h2 : st1.input_ = st.input_ := h2
  rw [h2] at h
  exact h

theorem IntegerLoop_Tracked :
    ∀ (u : List Char) (result : Double) (st : ParserState), st.unread = u → st.Tracked →
      (IntegerLoop u result st).2.Tracked ∧ (IntegerLoop u result st).2.input_ = st.input_ := by
  intro u
  induction u with
  | nil => intro result st _ ht; exact ⟨ht, rfl⟩
  | cons c u ih =>
      intro result st hu ht
      unfold IntegerLoop
      split
      · have h := ih (Double.add (Double.mul result (Double.ofInt 10))
          (Double.ofInt (digitValue c))) _ (ParserState.unread_consume hu) (ht.consumed hu)
        exact ⟨h.1, h.2.trans (st.consume_input c)⟩
      · exact ⟨ht, rfl⟩

theorem FractionLoop_Tracked :
    ∀ (u : List Char) (fraction divisor : Double) (st : ParserState), st.unread = u →
      st.Tracked → (FractionLoop u fraction divisor st).2.Tracked ∧
        (FractionLoop u fraction divisor st).2.input_ = st.input_ := by
  intro u
  induction u with
  | nil => intro fraction divisor st _ ht; exact ⟨ht, rfl⟩
  | cons c u ih =>
      intro fraction divisor st hu ht
      unfold FractionLoop
      split
      · have h := ih (Double.add fraction (Double.div (Double.ofInt (digitValue c)) divisor))
          (Double.mul divisor (Double.ofInt 10)) _ (ParserState.unread_consume hu)
          (ht.consumed hu)
        exact ⟨h.1, h.2.trans (st.consume_input c)⟩
      · exact ⟨ht, rfl⟩

theorem ExponentLoop_Tracked :
    ∀ (u : List Char) (exponent : Int) (st : ParserState), st.unread = u → st.Tracked →
      (ExponentLoop u exponent st).2.Tracked ∧
        (ExponentLoop u exponent st).2.input_ = st.input_ := by
  intro u
  induction u with
  | nil => intro exponent st _ ht; exact ⟨ht, rfl⟩
  | cons c u ih =>
      intro exponent st hu ht
      unfold ExponentLoop
      split
      · have h := ih (wrapInt32 (wrapInt32 (exponent * 10) + digitValue c)) _
          (ParserState.unread_consume hu) (ht.consumed hu)
        exact ⟨h.1, h.2.trans (st.consume_input c)⟩
      · exact ⟨ht, rfl⟩

theorem ParseSign_Tracks {st : ParserState} (ht : st.Tracked) :
    Tracks st.input_ Prod.snd (ParseSign st) := by
  unfold ParseSign
  simp only [bind]
  refine Tracks.bind (Current_Tracks ht) (fun c _ _ _ => ?_)
  split
  · exact Tracks.bind (Next_Tracks ht) (fun r _ h1 h2 => ⟨h1, h2⟩)
  · exact ⟨ht, rfl⟩

theorem ParseFraction_Tracks (result : Double) {st : ParserState} (ht : st.Tracked) :
    Tracks st.input_ Prod.snd (ParseFraction result st) := by
  unfold ParseFraction
  simp only [bind]
  refine Tracks.bind (Current_Tracks ht) (fun c _ _ _ => ?_)
  split
  · refine Tracks.bind (Next_Tracks ht) (fun r _ h1 h2 => ?_)
    have h := FractionLoop_Tracked r.2.unread (Double.ofInt 0) (Double.ofInt 10) r.2 rfl h1
    exact ⟨h.1, h.2.trans h2⟩
  · exact ⟨ht, rfl⟩

theorem ParseExponentSign_Tracks {st : ParserState} (ht : st.Tracked) :
    Tracks st.input_ Prod.snd (ParseExponentSign st) := by
  unfold ParseExponentSign
  simp only [bind]
  refine Tracks.bind (Current_Tracks ht) (fun c _ _ _ => ?_)
  split
  · exact Tracks.bind (Next_Tracks ht) (fun r _ h1 h2 => ⟨h1, h2⟩)
  · split
    · exact Tracks.bind (Next_Tracks ht) (fun r _ h1 h2 => ⟨h1, h2⟩)
    · exact ⟨ht, rfl⟩

theorem ParseExponent_Tracks (result : Double) {st : ParserState} (ht : st.Tracked) :
    Tracks st.input_ Prod.snd (ParseExponent result st) := by
  unfold ParseExponent
  simp only [bind]
  refine Tracks.bind (Current_Tracks ht) (fun c _ _ _ => ?_)
  split
  · refine Tracks.bind (Next_Tracks ht) (fun r _ h1 h2 => ?_)
    have h3 := ParseExponentSign_Tracks h1
    rw [h2] at h3
    refine Tracks.bind h3 (fun s _ h4 h5 => ?_)
    have h := ExponentLoop_Tracked s.2.unread 0 s.2 rfl h4
    exact ⟨h.1, h.2.trans h5⟩
  · exact ⟨ht, rfl⟩

theorem ParseNumber_Tracks {st : ParserState} (ht : st.Tracked) :
    Tracks st.input_ Prod.snd (ParseNumber st) := by
  unfold ParseNumber
  simp only [bind]
  refine Tracks.bind (ParseSign_Tracks ht) (fun s _ h1 h2 => ?_)
  have h3 := IntegerLoop_Tracked s.2.unread (Double.ofInt 0) s.2 rfl h1
  have h4 := ParseFraction_Tracks (IntegerLoop s.2.unread (Double.ofInt 0) s.2).1 h3.1
  rw [h3.2, h2] at h4
  refine Tracks.bind h4 (fun f _ h5 h6 => ?_)
  have h7 := ParseExponent_Tracks f.1 h5
  rw [h6] at h7
  exact Tracks.bind h7 (fun r _ h8 h9 => ⟨h8, h9⟩)

theorem ParseBoolean_Tracks {st : ParserState} (ht : st.Tracked) :
    Tracks st.input_ Prod.snd (ParseBoolean st) := by
  unfold ParseBoolean
  have h1 := Match_Tracked ht ['t', 'r', 'u', 'e']
  have h2 := Match_Tracked h1.1 ['f', 'a', 'l', 's', 'e']
  simp only []
  split
  · exact h1
  · split
    · exact ⟨h2.1, h2.2.trans h1.2⟩
    · have h := ThrowParseError_Truthful h2.1 Message.invalidBoolean
      rw [h2.2, h1.2] at h
      exact h

theorem ParseNull_Tracks {st : ParserState} (ht : st.Tracked) :
    Tracks st.input_ id (ParseNull st) := by
  unfold ParseNull
  have h1 := Match_Tracked ht ['n', 'u', 'l', 'l']
  simp only []
  split
  · exact h1
  · have h := ThrowParseError_Truthful h1.1 Message.invalidNull
    rw [h1.2] at h
    exact h

/-- With comments disabled, the five mutually recursive parsing functions keep
the counters. -/
theorem Parse_Tracks (cfg : JsonParserConfig) (hc : cfg.allow_comments = false) :
    ∀ fuel : Nat,
      (∀ st, st.Tracked → Tracks st.input_ Prod.snd (ParseValue cfg fuel st)) ∧
      (∀ st, st.Tracked → Tracks st.input_ Prod.snd (ParseObject cfg fuel st)) ∧
      (∀ obj st, st.Tracked → Tracks st.input_ Prod.snd (ParseObjectLoop cfg fuel obj st)) ∧
      (∀ st, st.Tracked → Tracks st.input_ Prod.snd (ParseArray cfg fuel st)) ∧
      (∀ arr st, st.Tracked → Tracks st.input_ Prod.snd (ParseArrayLoop cfg fuel arr st)) := by
  intro fuel
  induction fuel with
  | zero =>
      refine ⟨?_, ?_, ?_, ?_, ?_⟩ <;> intros <;> trivial
  | succ n ih =>
      obtain ⟨ihV, ihO, ihOL, ihA, ihAL⟩ := ih
      refine ⟨?_, ?_, ?_, ?_, ?_⟩
      · intro st ht
        rw [ParseValue]
        simp only [bind]
        refine Tracks.bind (ValidateDepth_Tracks cfg 0 ht) (fun _ _ _ _ => ?_)
        have h0 := SkipSeparators_Tracked hc ht
        have hcur := Current_Tracks h0.1
        rw [h0.2] at hcur
        refine Tracks.bind hcur (fun c _ _ _ => ?_)
        split
        · have h := ihO _ h0.1
          rw [h0.2] at h
          exact Tracks.bind h (fun r _ h1 h2 => ⟨h1, h2⟩)
        · split
          · have h := ihA _ h0.1
            rw [h0.2] at h
            exact Tracks.bind h (fun r _ h1 h2 => ⟨h1, h2⟩)
          · split
            · have h := ParseString_Tracks cfg h0.1
              rw [h0.2] at h
              exact Tracks.bind h (fun r _ h1 h2 => ⟨h1, h2⟩)
            · split
              · have h := ParseNumber_Tracks h0.1
                rw [h0.2] at h
                exact Tracks.bind h (fun r _ h1 h2 => ⟨h1, h2⟩)
              · split
                · have h := ParseBoolean_Tracks h0.1
                  rw [h0.2] at h
                  exact Tracks.bind h (fun r _ h1 h2 => ⟨h1, h2⟩)
                · split
                  · have h := ParseNull_Tracks h0.1
                    rw [h0.2] at h
                    exact Tracks.bind h (fun r _ h1 h2 => ⟨h1, h2⟩)
                  · have h := ThrowParseError_Truthful h0.1 (Message.unexpectedCharacter c)
                    rw [h0.2] at h
                    exact h
      · intro st ht
        rw [ParseObject]
        simp only [bind]
        refine Tracks.bind (ValidateDepth_Tracks cfg 0 ht) (fun _ _ _ _ => ?_)
        refine Tracks.bind (Expect_Tracks ht '{') (fun st1 _ h1 h2 => ?_)
        have h2 : st1.input_ = st.input_ := h2
        have h1 : st1.Tracked := h1
        have h3 := SkipSeparators_Tracked hc h1
        have hi := h3.2.trans h2
        have hcur := Current_Tracks h3.1
        rw [hi] at hcur
        refine Tracks.bind hcur (fun c _ _ _ => ?_)
        split
        · have h := Next_Tracks h3.1
          rw [hi] at h
          exact Tracks.bind h (fun r _ h4 h5 => ⟨h4, h5⟩)
        · have h := ihOL [] _ h3.1
          rw [hi] at h
          exact h
      · intro obj st ht
        rw [ParseObjectLoop]
        simp only [bind]
        have h0 := SkipSeparators_Tracked hc ht
        have hk := ParseString_Tracks cfg h0.1
        rw [h0.2] at hk
        refine Tracks.bind hk (fun k _ k1 k2 => ?_)
        have h1 := SkipSeparators_Tracked hc k1
        have he := Expect_Tracks h1.1 ':'
        rw [h1.2, k2] at he
        refine Tracks.bind he (fun st2 _ e1 e2 => ?_)
        have e1 : st2.Tracked := e1
        have e2 : st2.input_ = st.input_ := e2
        have h2 := SkipSeparators_Tracked hc e1
        have hv := ihV _ h2.1
        rw [h2.2, e2] at hv
        refine Tracks.bind hv (fun v _ v1 v2 => ?_)
        have h3 := SkipSeparators_Tracked hc v1
        have hi := h3.2.trans v2
        have hcur := Current_Tracks h3.1
        rw [hi] at hcur
        refine Tracks.bind hcur (fun c _ _ _ => ?_)
        split
        · have h := Next_Tracks h3.1
          rw [hi] at h
          exact Tracks.bind h (fun r _ h4 h5 => ⟨h4, h5⟩)
        · split
          · have h := Next_Tracks h3.1
            rw [hi] at h
            refine Tracks.bind h (fun r _ h4 h5 => ?_)
            have h6 := ihOL (obj.Insert k.1 v.1) _ h4
            rw [h5] at h6
            exact h6
          · have h := ThrowParseError_Truthful h3.1 Message.expectedCommaOrBrace
            rw [hi] at h
            exact h
      · intro st ht
        rw [ParseArray]
        simp only [bind]
        refine Tracks.bind (ValidateDepth_Tracks cfg 0 ht) (fun _ _ _ _ => ?_)
        refine Tracks.bind (Expect_Tracks ht '[') (fun st1 _ h1 h2 => ?_)
        have h2 : st1.input_ = st.input_ := h2
        have h1 : st1.Tracked := h1
        have h3 := SkipSeparators_Tracked hc h1
        have hi := h3.2.trans h2
        have hcur := Current_Tracks h3.1
        rw [hi] at hcur
        refine Tracks.bind hcur (fun c _ _ _ => ?_)
        split
        · have h := Next_Tracks h3.1
          rw [hi] at h
          exact Tracks.bind h (fun r _ h4 h5 => ⟨h4, h5⟩)
        · have h := ihAL [] _ h3.1
          rw [hi] at h
          exact h
      · intro arr st ht
        rw [ParseArrayLoop]
        simp only [bind]
        have h0 := SkipSeparators_Tracked hc ht
        have hv := ihV _ h0.1
        rw [h0.2] at hv
        refine Tracks.bind hv (fun v _ v1 v2 => ?_)
        have h3 := SkipSeparators_Tracked hc v1
        have hi := h3.2.trans v2
        have hcur := Current_Tracks h3.1
        rw [hi] at hcur
        refine Tracks.bind hcur (fun c _ _ _ => ?_)
        split
        · have h := Next_Tracks h3.1
          rw [hi] at h
          exact Tracks.bind h (fun r _ h4 h5 => ⟨h4, h5⟩)
        · split
          · have h := Next_Tracks h3.1
            rw [hi] at h
            refine Tracks.bind h (fun r _ h4 h5 => ?_)
            have h6 := ihAL arr _ h4
            rw [h5] at h6
            exact h6
          · have h := ThrowParseError_Truthful h3.1 Message.expectedCommaOrBracket
            rw [hi] at h
            exact h

theorem Parse_Truthful (cfg : JsonParserConfig) (hc : cfg.allow_comments = false)
    (json : List Char) (f : Failure) (h : Parse json cfg = .error f) : f.Truthful json := by
  have hP : Parse json cfg =
      (ParseValue cfg (3 * json.length + 3) (ParserState.Initialize json)).bind (fun r =>
        if (SkipWhitespace r.2).position_ < (SkipWhitespace r.2).input_.length then
          .error (ThrowParseError (SkipWhitespace r.2) .unexpectedCharactersAfterValue)
        else .ok r.1) := rfl
  have hv := (Parse_Tracks cfg hc (3 * json.length + 3)).1 _
    (ParserState.Tracked.initial json)
  have hT : Tracks json (fun _ : JsonValue => ParserState.Initialize json)
      (Parse json cfg) := by
    rw [hP]
    refine Tracks.bind hv (fun r _ h1 h2 => ?_)
    have h3 : (SkipWhitespace r.2).Tracked ∧ (SkipWhitespace r.2).input_ = r.2.input_ :=
      SkipWhitespaceLoop_Tracked _ r.2 rfl h1
    split
    · have h4 := ThrowParseError_Truthful h3.1 Message.unexpectedCharactersAfterValue
      have h5 : (SkipWhitespace r.2).input_ = json := h3.2.trans h2
      rw [h5] at h4
      exact h4
    · exact ⟨ParserState.Tracked.initial json, rfl⟩
  rw [h] at hT
  exact hT

/-- Claim C37: with `allow_comments` disabled the counters follow the cursor.
The initial state is tracked (`line_` is one more than the number of line
feeds before `position_`, `column_` is one more than the number of characters
since the last of them, and `position_` is at most the length of the input);
from a tracked state, every function that moves the cursor (`Next`, `Expect`,
`SkipWhitespace`, the separators, `Advance`, `Match`) and every parsing
function leaves a tracked state on the same input, and an exception raised
through `ThrowParseError` carries the true line and column of its offset; so
does every such exception of `Parse`. -/
theorem C37_position_counters (cfg : JsonParserConfig) (hc : cfg.allow_comments = false)
    (json : List Char) :
    (ParserState.Initialize json).Tracked ∧
      (∀ st : ParserState, st.Tracked →
        (∀ c u, st.unread = c :: u → (st.consume c).Tracked) ∧
        Tracks st.input_ Prod.snd (Next st) ∧
        (∀ c, Tracks st.input_ id (Expect st c)) ∧
        (SkipWhitespace st).Tracked ∧ (SkipSeparators cfg st).Tracked ∧
        (∀ count, (Advance count st).Tracked) ∧
        (∀ str, (Match st str).2.Tracked) ∧
        Tracks st.input_ Prod.snd (ParseString cfg st) ∧
        Tracks st.input_ Prod.snd (ParseNumber st) ∧
        Tracks st.input_ Prod.snd (ParseBoolean st) ∧
        Tracks st.input_ id (ParseNull st) ∧
        ∀ fuel,
          Tracks st.input_ Prod.snd (ParseValue cfg fuel st) ∧
          Tracks st.input_ Prod.snd (ParseObject cfg fuel st) ∧
          (∀ obj, Tracks st.input_ Prod.snd (ParseObjectLoop cfg fuel obj st)) ∧
          Tracks st.input_ Prod.snd (ParseArray cfg fuel st) ∧
          (∀ arr, Tracks st.input_ Prod.snd (ParseArrayLoop cfg fuel arr st)) ∧
          ∀ result, Tracks st.input_ Prod.snd (ParseStringLoop cfg fuel result st)) ∧
      ∀ f, Parse json cfg = .error f → f.Truthful json :=
  ⟨ParserState.Tracked.initial json,
    fun st ht => ⟨fun _ _ hu => ht.consumed hu, Next_Tracks ht, fun c => Expect_Tracks ht c,
      (SkipWhitespaceLoop_Tracked _ st rfl ht).1, (SkipSeparators_Tracked hc ht).1,
      fun count => (Advance_Tracked count st ht).1, fun str => (Match_Tracked ht str).1,
      ParseString_Tracks cfg ht, ParseNumber_Tracks ht, ParseBoolean_Tracks ht,
      ParseNull_Tracks ht,
      fun fuel => ⟨(Parse_Tracks cfg hc fuel).1 st ht, (Parse_Tracks cfg hc fuel).2.1 st ht,
        fun obj => (Parse_Tracks cfg hc fuel).2.2.1 obj st ht,
        (Parse_Tracks cfg hc fuel).2.2.2.1 st ht,
        fun arr => (Parse_Tracks cfg hc fuel).2.2.2.2 arr st ht,
        fun result => ParseStringLoop_Tracks cfg fuel result st ht⟩⟩,
    Parse_Truthful cfg hc json⟩

theorem C37_position_counters_witness :
    Parse "\x7b\n  \"a\": ?\x7d".toList JsonParserConfig.Strict =
        .error (.exception (.located (.unexpectedCharacter '?') 2 8 9)) ∧
      Failure.Truthful "\x7b\n  \"a\": ?\x7d".toList
        (.exception (.located (.unexpectedCharacter '?') 2 8 9)) :=
  ⟨by decide!,
    (C37_position_counters JsonParserConfig.Strict rfl "\x7b\n  \"a\": ?\x7d".toList).2.2 _
      (by decide!)⟩

/-! ### C32: the pretty layout -/

theorem commaSeparated_cons (item : List Char) (items : List (List Char)) :
    commaSeparated (item :: items) = item ++ commaPrefixed items := by
  induction items generalizing item with
  | nil => simp [commaSeparated, commaPrefixed]
  | cons next items ih =>
      rw [commaSeparated, ih next, commaPrefixed]

theorem WriteIndent_natCast (n : Nat) : WriteIndent (n : Int) = List.replicate n ' ' := by
  unfold WriteIndent
  rw [Int.toNat_ofNat]

theorem WriteObjectLoop_pretty (cfg : JsonWriterConfig) (hp : cfg.pretty_print = true)
    (texts : List (List Char × Except WriterException (List Char)))
    (table : List (List Char × List Char)) (indent : Int) (spaces : Nat)
    (hs : WriteIndent (indent + cfg.indent_size) = List.replicate spaces ' ')
    (hsome : ∀ key t, texts.lookup key = some (.ok t) → table.lookup key = some t)
    (hnone : ∀ key, texts.lookup key = none → table.lookup key = none) :
    ∀ (keys : List (List Char)) (first : Bool) (body : List Char),
      WriteObjectLoop cfg texts indent keys first = .ok body →
      (if first then '\n' :: body else body) =
        (if first then [] else [',']) ++ commaSeparated (keys.map (fun key =>
          ownLine spaces (WriteString cfg key ++ ':' :: ' ' :: (table.lookup key).getD []))) ∨
        keys = [] := by
  intro keys
  induction keys with
  | nil =>
      intro first body _
      exact Or.inr rfl
  | cons key keys ih =>
      intro first body h
      left
      rw [WriteObjectLoop] at h
      simp only [bind, bind_eq_ok] at h
      obtain ⟨value, hv, rest, hr, h⟩ := h
      have h := Except.ok.inj h
      subst h
      have hvalue : (table.lookup key).getD [] = value := by
        cases hl : texts.lookup key with
        | none =>
            rw [hl] at hv
            cases hv
            rw [hnone key hl]
            rfl
        | some t =>
            rw [hl] at hv
            simp only at hv
            rw [hv] at hl
            rw [hsome key value hl]
            rfl
      have hrest : rest = commaPrefixed (keys.map (fun key =>
          ownLine spaces (WriteString cfg key ++ ':' :: ' ' :: (table.lookup key).getD []))) := by
        cases keys with
        | nil =>
            rw [WriteObjectLoop] at hr
            cases hr
            rfl
        | cons key2 keys2 =>
            rcases ih false rest hr with h1 | h1
            · simp only [Bool.false_eq_true, if_false] at h1
              rw [h1, List.map_cons, commaSeparated_cons]
              rfl
            · cases h1
      rw [List.map_cons, commaSeparated_cons, ← hrest, hvalue, hs, hp]
      cases first <;> simp [ownLine]

theorem WriteArrayLoop_pretty (cfg : JsonWriterConfig) (hp : cfg.pretty_print = true)
    (indent : Int) (spaces : Nat)
    (hs : WriteIndent (indent + cfg.indent_size) = List.replicate spaces ' ') :
    ∀ (texts : List (Except WriterException (List Char))) (layouts : List (List Char))
      (first : Bool) (body : List Char),
      List.Forall₂ (fun r t => ∀ text, r = .ok text → text = t) texts layouts →
      WriteArrayLoop cfg indent texts first = .ok body →
      (if first then '\n' :: body else body) =
        (if first then [] else [',']) ++ commaSeparated (layouts.map (ownLine spaces)) ∨
        texts = [] := by
  intro texts
  induction texts with
  | nil =>
      intro layouts first body _ _
      exact Or.inr rfl
  | cons t texts ih =>
      intro layouts first body hf h
      left
      cases hf with
      | cons h0 hf =>
        rename_i layout layouts
        rw [WriteArrayLoop] at h
        simp only [bind, bind_eq_ok] at h
        obtain ⟨value, hv, rest, hr, h⟩ := h
        have h := Except.ok.inj h
        subst h
        have hvalue : value = layout := h0 value hv
        have hrest : rest = commaPrefixed (layouts.map (ownLine spaces)) := by
          cases texts with
          | nil =>
              cases hf
              rw [WriteArrayLoop] at hr
              cases hr
              rfl
          | cons t2 texts2 =>
              rcases ih layouts false rest hf hr with h1 | h1
              · simp only [Bool.false_eq_true, if_false] at h1
                cases hf with
                | cons _ _ =>
                  rw [h1, List.map_cons, commaSeparated_cons]
                  rfl
              · cases h1
        rw [List.map_cons, commaSeparated_cons, ← hrest, hvalue, hs, hp]
        cases first <;> simp [ownLine]

theorem lookup_prettyLayoutMembers_none (cfg : JsonWriterConfig) (k : Nat) (d : Nat)
    (indent depth : Int) :
    ∀ (members : JsonObject) (key : List Char),
      ((JsonObject.GetKeys members).zip (WriteValues cfg members indent depth)).lookup key = none →
      (JsonValue.prettyLayoutMembers cfg k members d).lookup key = none := by
  intro members
  induction members with
  | nil =>
      intro key _
      rw [JsonValue.prettyLayoutMembers]
      rfl
  | cons p members ih =>
      intro key h
      obtain ⟨k0, v0⟩ := p
      rw [WriteValues] at h
      rw [JsonValue.prettyLayoutMembers]
      simp only [JsonObject.GetKeys, List.map_cons, List.zip_cons_cons, List.lookup_cons] at h ⊢
      cases hb : key == k0 with
      | true =>
          rw [hb] at h
          cases h
      | false =>
          rw [hb] at h
          exact ih key h

theorem decimal_head (n : Nat) :
    ∃ c rest, decimal n = c :: rest ∧ c ≠ ' ' ∧ c ≠ '\n' := by
  obtain ⟨hne, hds, _⟩ := decimal_spec n
  cases hd : decimal n with
  | nil => exact absurd hd hne
  | cons c rest =>
      have hc : isdigit c = true := hds c (by rw [hd]; exact List.mem_cons_self _ _)
      exact ⟨c, rest, rfl, isdigit_ne hc (by decide), isdigit_ne hc (by decide)⟩

theorem head_append {a : List Char} (h : ∃ c rest, a = c :: rest ∧ c ≠ ' ' ∧ c ≠ '\n')
    (b : List Char) : ∃ c rest, a ++ b = c :: rest ∧ c ≠ ' ' ∧ c ≠ '\n' := by
  obtain ⟨c, rest, ha, h1, h2⟩ := h
  exact ⟨c, rest ++ b, by rw [ha]; rfl, h1, h2⟩

theorem WriteNumber_head (num : Double) :
    ∃ c rest, WriteNumber num = c :: rest ∧ c ≠ ' ' ∧ c ≠ '\n' := by
  unfold WriteNumber
  cases num with
  | nan => exact ⟨'n', ['u', 'l', 'l'], rfl, by decide, by decide⟩
  | inf _ => exact ⟨'n', ['u', 'l', 'l'], rfl, by decide, by decide⟩
  | fin m e =>
      simp only []
      split
      · unfold decimalInt
        split
        · exact ⟨'-', _, rfl, by decide, by decide⟩
        · exact decimal_head _
      · unfold fixed6
        simp only []
        refine head_append (head_append (head_append ?_ _) _) _
        split
        · exact ⟨'-', _, rfl, by decide, by decide⟩
        · rw [List.nil_append]
          exact decimal_head _

theorem prettyLayout_head (cfg : JsonWriterConfig) (k : Nat) (v : JsonValue) (d : Nat) :
    ∃ c rest, JsonValue.prettyLayout cfg k v d = c :: rest ∧ c ≠ ' ' ∧ c ≠ '\n' := by
  cases v with
  | object members =>
      rw [JsonValue.prettyLayout]
      split
      · exact ⟨'{', _, rfl, by decide, by decide⟩
      · exact ⟨'{', _, rfl, by decide, by decide⟩
  | array elements =>
      rw [JsonValue.prettyLayout]
      split
      · exact ⟨'[', _, rfl, by decide, by decide⟩
      · exact ⟨'[', _, rfl, by decide, by decide⟩
  | string s =>
      rw [JsonValue.prettyLayout]
      exact ⟨'"', _, rfl, by decide, by decide⟩
  | number num =>
      rw [JsonValue.prettyLayout]
      exact WriteNumber_head num
  | boolean b =>
      rw [JsonValue.prettyLayout]
      cases b
      · exact ⟨'f', _, rfl, by decide, by decide⟩
      · exact ⟨'t', _, rfl, by decide, by decide⟩
  | null =>
      rw [JsonValue.prettyLayout]
      exact ⟨'n', _, rfl, by decide, by decide⟩

theorem sortKeys_ne_nil {keys : List (List Char)} (h : keys ≠ []) : sortKeys keys ≠ [] := by
  intro hs
  have hl := (sortKeys_perm keys).length_eq
  rw [hs] at hl
  cases keys with
  | nil => exact h rfl
  | cons _ _ => cases hl

mutual

/-- In pretty mode the text that `WriteValue` produces for a value nested
inside `d` containers, called with the indent `d * k`, is the layout of the
specification. -/
theorem WriteValue_prettyLayout (cfg : JsonWriterConfig) (hp : cfg.pretty_print = true)
    (k : Nat) (hk : cfg.indent_size = (k : Int)) :
    ∀ (v : JsonValue) (d : Nat) (depth : Int) (text : List Char),
      WriteValue cfg v ((d * k : Nat) : Int) depth = .ok text →
        text = JsonValue.prettyLayout cfg k v d
  | .object obj, d, depth, text, h => by
      rw [WriteValue] at h
      split at h
      · cases h
      · rw [WriteObject] at h
        rw [JsonValue.prettyLayout]
        split at h
        · rename_i he
          cases h
          rw [if_pos he]
        · rename_i he
          rw [if_neg he]
          simp only [bind, bind_eq_ok] at h
          obtain ⟨body, hb, h⟩ := h
          have h := Except.ok.inj h
          subst h
          have hind : ((d * k : Nat) : Int) + cfg.indent_size = (((d + 1) * k : Nat) : Int) := by
            rw [hk]
            push_cast
            ring
          rw [hind] at hb
          have hloop := WriteObjectLoop_pretty cfg hp _
            (JsonValue.prettyLayoutMembers cfg k obj (d + 1)) ((d * k : Nat) : Int)
            ((d + 1) * k) (by rw [hind, WriteIndent_natCast])
            (fun key t hl => WriteValues_prettyLayout cfg hp k hk obj (d + 1) (depth + 1) key t hl)
            (lookup_prettyLayoutMembers_none cfg k (d + 1) _ (depth + 1) obj) _ true body hb
          have hne : JsonObject.GetKeys obj ≠ [] := by
            cases obj with
            | nil => exact absurd rfl he
            | cons p rest => exact fun hc => (by cases hc)
          rcases hloop with hloop | hloop
          · simp only [if_true, List.nil_append] at hloop
            rw [← hloop, WriteIndent_natCast]
            simp [ownLine, hp]
          · exfalso
            split at hloop
            · exact sortKeys_ne_nil hne hloop
            · exact hne hloop
  | .array arr, d, depth, text, h => by
      rw [WriteValue] at h
      split at h
      · cases h
      · rw [WriteArray] at h
        rw [JsonValue.prettyLayout]
        have hempty : (WriteElements cfg arr (((d * k : Nat) : Int) + cfg.indent_size)
            (depth + 1)).isEmpty = arr.isEmpty := by
          cases arr <;> simp [WriteElements]
        rw [hempty] at h
        split at h
        · rename_i he
          cases h
          rw [if_pos he]
        · rename_i he
          rw [if_neg he]
          simp only [bind, bind_eq_ok] at h
          obtain ⟨body, hb, h⟩ := h
          have h := Except.ok.inj h
          subst h
          have hind : ((d * k : Nat) : Int) + cfg.indent_size = (((d + 1) * k : Nat) : Int) := by
            rw [hk]
            push_cast
            ring
          rw [hind] at hb
          have hloop := WriteArrayLoop_pretty cfg hp ((d * k : Nat) : Int)
            ((d + 1) * k) (by rw [hind, WriteIndent_natCast]) _ _ true body
            (WriteElements_prettyLayout cfg hp k hk arr (d + 1) (depth + 1)) hb
          rcases hloop with hloop | hloop
          · simp only [if_true, List.nil_append] at hloop
            rw [← hloop, WriteIndent_natCast]
            simp [ownLine, hp]
          · exfalso
            cases arr with
            | nil => exact he rfl
            | cons _ _ =>
                rw [WriteElements] at hloop
                cases hloop
  | .string s, _, _, text, h => by
      rw [WriteValue] at h
      split at h
      · cases h
      · cases h
        rw [JsonValue.prettyLayout]
  | .number num, _, _, text, h => by
      rw [WriteValue] at h
      split at h
      · cases h
      · cases h
        rw [JsonValue.prettyLayout]
  | .boolean b, _, _, text, h => by
      rw [WriteValue] at h
      split at h
      · cases h
      · cases h
        rw [JsonValue.prettyLayout]
  | .null, _, _, text, h => by
      rw [WriteValue] at h
      split at h
      · cases h
      · cases h
        rw [JsonValue.prettyLayout]

/-- The text written for the value of an entry is its layout. -/
theorem WriteValues_prettyLayout (cfg : JsonWriterConfig) (hp : cfg.pretty_print = true)
    (k : Nat) (hk : cfg.indent_size = (k : Int)) :
    ∀ (members : JsonObject) (d : Nat) (depth : Int) (key t : List Char),
      ((JsonObject.GetKeys members).zip
          (WriteValues cfg members ((d * k : Nat) : Int) depth)).lookup key = some (.ok t) →
        (JsonValue.prettyLayoutMembers cfg k members d).lookup key = some t
  | [], _, _, key, t, h => by
      rw [WriteValues] at h
      cases h
  | (k0, v0) :: rest, d, depth, key, t, h => by
      rw [WriteValues] at h
      rw [JsonValue.prettyLayoutMembers]
      simp only [JsonObject.GetKeys, List.map_cons, List.zip_cons_cons, List.lookup_cons] at h ⊢
      cases hb : key == k0 with
      | true =>
          rw [hb] at h
          simp only at h
          have h0 := WriteValue_prettyLayout cfg hp k hk v0 d depth t (Option.some.inj h)
          rw [h0]
      | false =>
          rw [hb] at h
          exact WriteValues_prettyLayout cfg hp k hk rest d depth key t h

/-- The text written for each element is its layout. -/
theorem WriteElements_prettyLayout (cfg : JsonWriterConfig) (hp : cfg.pretty_print = true)
    (k : Nat) (hk : cfg.indent_size = (k : Int)) :
    ∀ (elements : JsonArray) (d : Nat) (depth : Int),
      List.Forall₂ (fun r t => ∀ text, r = .ok text → text = t)
        (WriteElements cfg elements ((d * k : Nat) : Int) depth)
        (JsonValue.prettyLayoutElements cfg k elements d)
  | [], _, _ => by
      rw [WriteElements, JsonValue.prettyLayoutElements]
      exact List.Forall₂.nil
  | v0 :: rest, d, depth => by
      rw [WriteElements, JsonValue.prettyLayoutElements]
      exact List.Forall₂.cons
        (fun text h => WriteValue_prettyLayout cfg hp k hk v0 d depth text h)
        (WriteElements_prettyLayout cfg hp k hk rest d depth)

end

/-- Claim C32: in pretty mode with `indent_size = k ≥ 0`, the text that
`Write` returns for a value is the layout of the specification: an empty
container is `{}` or `[]`; each member of a non-empty container nested inside
`d` containers is on its own line after exactly `(d + 1) * k` spaces, and the
closing bracket of that container is on its own line after exactly `d * k`
spaces. The same holds for `WriteValue` called at nesting `d` with the indent
`d * k`. The text of a value never starts with a space or a line feed (so the
spaces before a member are exactly those of the layout), and the texts of
strings, keys and numbers hold no line feed. -/
theorem C32_pretty_layout (cfg : JsonWriterConfig) (hp : cfg.pretty_print = true) (k : Nat)
    (hk : cfg.indent_size = (k : Int)) (v : JsonValue) (text : List Char)
    (h : Write cfg v = .ok text) :
    text = JsonValue.prettyLayout cfg k v 0 ∧
      (∀ (w : JsonValue) (d : Nat) (depth : Int) (t : List Char),
        WriteValue cfg w ((d * k : Nat) : Int) depth = .ok t →
          t = JsonValue.prettyLayout cfg k w d) ∧
      (∀ (w : JsonValue) (d : Nat),
        ∃ c rest, JsonValue.prettyLayout cfg k w d = c :: rest ∧ c ≠ ' ' ∧ c ≠ '\n') ∧
      (∀ s, '\n' ∉ WriteString cfg s) ∧ (∀ num, '\n' ∉ WriteNumber num) := by
  refine ⟨?_, WriteValue_prettyLayout cfg hp k hk, prettyLayout_head cfg k,
    WriteString_no_lineFeed cfg, WriteNumber_no_lineFeed⟩
  apply WriteValue_prettyLayout cfg hp k hk v 0 0 text
  rw [Nat.zero_mul]
  exact h

theorem C32_pretty_layout_witness :
    Write JsonWriterConfig.Pretty
        (.object [(['a'], .array [.number (Double.ofInt 1), .object []]), (['b'], .array [])]) =
      .ok "\x7b\n  \"a\": [\n    1,\n    \x7b\x7d\n  ],\n  \"b\": []\n\x7d".toList ∧
    "\x7b\n  \"a\": [\n    1,\n    \x7b\x7d\n  ],\n  \"b\": []\n\x7d".toList =
      JsonValue.prettyLayout JsonWriterConfig.Pretty 2
        (.object [(['a'], .array [.number (Double.ofInt 1), .object []]), (['b'], .array [])]) 0 :=
  ⟨by decide!,
    (C32_pretty_layout JsonWriterConfig.Pretty rfl 2 rfl
      (.object [(['a'], .array [.number (Double.ofInt 1), .object []]), (['b'], .array [])])
      "\x7b\n  \"a\": [\n    1,\n    \x7b\x7d\n  ],\n  \"b\": []\n\x7d".toList (by decide!)).1⟩

/-! ### C35: the round trip of plain objects through every compact writer -/

theorem writtenKeys_perm (cfg : JsonWriterConfig) (obj : JsonObject) :
    (writtenKeys cfg obj).Perm obj.GetKeys := by
  unfold writtenKeys
  split
  · exact sortKeys_perm _
  · exact List.Perm.refl _

/-- A value without entries and elements is written by a compact writer
without `\u` escapes as by the compact sorted one. -/
theorem WrittenBy_of_Written (cfg : JsonWriterConfig) (n : Nat) {v : JsonValue} {t : Text}
    (indent depth : Int)
    (hw : WriteValue cfg v indent depth = WriteValue JsonWriterConfig.CompactSorted v 0 0)
    (h : Written n v 0 0 t) : WrittenBy cfg n v indent depth t :=
  ⟨hw.trans h.1, h.2.1, h.2.2.1, h.2.2.2.1, h.2.2.2.2⟩

theorem WriteValue_string_compact (cfg : JsonWriterConfig) (hu : cfg.escape_unicode = false)
    (s : List Char) (indent depth : Int) (hd : depth ≤ cfg.max_depth) :
    WriteValue cfg (.string s) indent depth =
      WriteValue JsonWriterConfig.CompactSorted (.string s) 0 0 := by
  rw [WriteValue, WriteValue, if_neg (show ¬ depth > cfg.max_depth by omega),
    if_neg (show ¬ (0 : Int) > JsonWriterConfig.CompactSorted.max_depth by decide),
    WriteString_of_no_unicode cfg hu]

theorem WriteValue_number_compact (cfg : JsonWriterConfig) (d : Double) (indent depth : Int)
    (hd : depth ≤ cfg.max_depth) :
    WriteValue cfg (.number d) indent depth =
      WriteValue JsonWriterConfig.CompactSorted (.number d) 0 0 := by
  rw [WriteValue, WriteValue, if_neg (show ¬ depth > cfg.max_depth by omega),
    if_neg (show ¬ (0 : Int) > JsonWriterConfig.CompactSorted.max_depth by decide)]

theorem WriteValue_boolean_compact (cfg : JsonWriterConfig) (b : Bool) (indent depth : Int)
    (hd : depth ≤ cfg.max_depth) :
    WriteValue cfg (.boolean b) indent depth =
      WriteValue JsonWriterConfig.CompactSorted (.boolean b) 0 0 := by
  rw [WriteValue, WriteValue, if_neg (show ¬ depth > cfg.max_depth by omega),
    if_neg (show ¬ (0 : Int) > JsonWriterConfig.CompactSorted.max_depth by decide)]

theorem WriteValue_null_compact (cfg : JsonWriterConfig) (indent depth : Int)
    (hd : depth ≤ cfg.max_depth) :
    WriteValue cfg .null indent depth =
      WriteValue JsonWriterConfig.CompactSorted .null 0 0 := by
  rw [WriteValue, WriteValue, if_neg (show ¬ depth > cfg.max_depth by omega),
    if_neg (show ¬ (0 : Int) > JsonWriterConfig.CompactSorted.max_depth by decide)]

theorem WriteValue_emptyArray_compact (cfg : JsonWriterConfig) (indent depth : Int)
    (hd : depth ≤ cfg.max_depth) :
    WriteValue cfg (.array []) indent depth =
      WriteValue JsonWriterConfig.CompactSorted (.array []) 0 0 := by
  rw [WriteValue, WriteValue, if_neg (show ¬ depth > cfg.max_depth by omega),
    if_neg (show ¬ (0 : Int) > JsonWriterConfig.CompactSorted.max_depth by decide), WriteElements,
    WriteElements]
  rfl

theorem WriteValue_emptyObject_compact (cfg : JsonWriterConfig) (indent depth : Int)
    (hd : depth ≤ cfg.max_depth) :
    WriteValue cfg (.object []) indent depth =
      WriteValue JsonWriterConfig.CompactSorted (.object []) 0 0 := by
  rw [WriteValue, WriteValue, if_neg (show ¬ depth > cfg.max_depth by omega),
    if_neg (show ¬ (0 : Int) > JsonWriterConfig.CompactSorted.max_depth by decide), WriteValues,
    WriteValues]
  rfl

theorem WriteValues_eq_by (cfg : JsonWriterConfig) :
    ∀ (ms : JsonObject) (ts : List Text) (indent depth : Int),
      List.Forall₂ (fun m t => WriteValue cfg m.2 indent depth = .ok t.render) ms ts →
      WriteValues cfg ms indent depth = ts.map (fun t => Except.ok t.render) := by
  intro ms
  induction ms with
  | nil =>
      intro ts indent depth h
      cases h
      simp [WriteValues]
  | cons m ms ih =>
      intro ts indent depth h
      cases ts with
      | nil => cases h
      | cons t ts =>
          obtain ⟨hw, hrest⟩ := List.forall₂_cons.mp h
          obtain ⟨k0, v0⟩ := m
          simp only [WriteValues, List.map_cons, ih ts indent depth hrest]
          rw [hw]

theorem WriteObjectLoop_membersOf_by (cfg : JsonWriterConfig) (hp : cfg.pretty_print = false)
    (hu : cfg.escape_unicode = false) (keys0 : List (List Char)) (ts : List Text)
    (indent : Int) :
    ∀ (keys : List (List Char)) (first : Bool),
      (∀ k ∈ keys, ∃ t, (keys0.zip ts).lookup k = some t) →
      WriteObjectLoop cfg (keys0.zip (ts.map (fun t => Except.ok t.render))) indent keys first =
        .ok (if first then Text.renderMembers (membersOf (keys0.zip ts) keys)
          else Text.renderRest (membersOf (keys0.zip ts) keys)) := by
  intro keys
  induction keys with
  | nil =>
      intro first _
      cases first <;> rfl
  | cons k keys ih =>
      intro first hk
      obtain ⟨t, ht⟩ := hk k (by simp)
      have hl : lookupText (keys0.zip ts) k = t := by
        unfold lookupText
        rw [ht]
        rfl
      have hrest := ih false (fun k1 hk1 => hk k1 (by simp [hk1]))
      simp only [Bool.false_eq_true, if_false] at hrest
      have hm : membersOf (keys0.zip ts) (k :: keys) =
          (MemberHead.compact (k.map escapeItem), t) :: membersOf (keys0.zip ts) keys := by
        simp [membersOf, hl]
      rw [hm, Text.renderMembers_compact, Text.renderRest_compact,
        ← WriteString_of_no_unicode cfg hu]
      unfold WriteObjectLoop
      rw [lookup_zip_map, ht, hrest]
      cases first <;> simp [bind, Except.bind, pure, Except.pure, hp]

theorem WrittenBy_object (cfg : JsonWriterConfig) (hp : cfg.pretty_print = false)
    (hu : cfg.escape_unicode = false) (n : Nat) (ms : JsonObject) (ts : List Text)
    (indent depth : Int) (hne : ms ≠ []) (hd : depth ≤ cfg.max_depth)
    (hk : ∀ m ∈ ms, m.1.length ≤ n) (hnd : (ms.map Prod.fst).Nodup)
    (hts : List.Forall₂
      (fun m t => WrittenBy cfg n m.2 (indent + cfg.indent_size) (depth + 1) t) ms ts) :
    WrittenBy cfg n (.object ms) indent depth
      (.object (membersOf (ms.GetKeys.zip ts) (writtenKeys cfg ms))) := by
  have hperm : (writtenKeys cfg ms).Perm ms.GetKeys := writtenKeys_perm cfg ms
  have hsub : ∀ k ∈ writtenKeys cfg ms, k ∈ ms.map Prod.fst := fun k hk1 => hperm.subset hk1
  have hfind : ∀ k ∈ ms.map Prod.fst, ∃ v t, JsonObject.find ms k = some v ∧
      (ms.GetKeys.zip ts).lookup k = some t ∧
        WrittenBy cfg n v (indent + cfg.indent_size) (depth + 1) t := by
    intro k hk1
    obtain ⟨v, hv⟩ := JsonObject.find_of_mem_keys ms k hk1
    obtain ⟨t, ht, hw⟩ := @find_lookup
      (fun v t => WrittenBy cfg n v (indent + cfg.indent_size) (depth + 1) t) ms ts hts k v hv
    exact ⟨v, t, hv, ht, hw⟩
  have hlook : ∀ {k t}, (ms.GetKeys.zip ts).lookup k = some t →
      lookupText (ms.GetKeys.zip ts) k = t := by
    intro k t h
    unfold lookupText
    rw [h]
    rfl
  have hden := Text.denoteMembers_membersOf (ms.GetKeys.zip ts) (writtenKeys cfg ms)
  have hlen : (writtenKeys cfg ms).length = ms.length := by
    rw [hperm.length_eq]
    simp [JsonObject.GetKeys]
  refine ⟨?_, ?_, (by intro h; cases h), ?_, ?_⟩
  · have hd1 : ¬ depth > cfg.max_depth := by omega
    have hvals := WriteValues_eq_by cfg ms ts (indent + cfg.indent_size) (depth + 1)
      (hts.imp (fun _ _ h => h.1))
    have hloop := WriteObjectLoop_membersOf_by cfg hp hu ms.GetKeys ts indent
      (writtenKeys cfg ms) true
      (fun k hk1 => by
        obtain ⟨v, t, _, ht, _⟩ := hfind k (hsub k hk1)
        exact ⟨t, ht⟩)
    have hemp : ¬ (ms.isEmpty = true) := by
      cases ms with
      | nil => exact absurd rfl hne
      | cons m ms => exact fun h => (by cases h)
    simp only [if_true] at hloop
    rw [WriteValue, if_neg hd1, hvals, WriteObject, if_neg hemp]
    have hkeys : (if cfg.sort_keys = true then sortKeys (JsonObject.GetKeys ms)
        else JsonObject.GetKeys ms) = writtenKeys cfg ms := rfl
    simp only [hkeys, hloop, bind, Except.bind, pure, Except.pure, hp, Bool.false_eq_true,
      if_false, Text.render]
    simp
  · simp only [Text.WellFormed]
    refine ⟨?_, ?_⟩
    · apply Text.MembersWellFormed_membersOf
      intro k hk1
      obtain ⟨v, t, hv, ht, hw⟩ := hfind k (hsub k hk1)
      refine ⟨?_, ?_⟩
      · obtain ⟨m, hm, hmk⟩ := List.mem_map.mp (hsub k hk1)
        rw [← hmk]
        exact hk m hm
      · rw [hlook ht]
        exact hw.2.1
    · rw [hden, List.map_map]
      have : (Prod.fst ∘ fun k => (k, (lookupText (ms.GetKeys.zip ts) k).denote)) = id := rfl
      rw [this, List.map_id]
      exact hperm.nodup_iff.mpr hnd
  · simp only [Text.denote, hden, JsonValue.eq, List.length_map, hlen, decide_True, Bool.true_and]
    apply JsonValue.objectLoop_true
    intro p hp1
    obtain ⟨k, hk1, rfl⟩ := List.mem_map.mp hp1
    obtain ⟨v, t, hv, ht, hw⟩ := hfind k (hsub k hk1)
    refine ⟨v, hv, ?_⟩
    show JsonValue.eqFlip (lookupText (ms.GetKeys.zip ts) k).denote v = true
    rw [hlook ht]
    exact hw.2.2.2.2
  · simp only [Text.denote, hden, JsonValue.eqFlip, List.length_map, hlen, decide_True,
      Bool.true_and, List.all_eq_true]
    intro p hp1
    obtain ⟨k, v⟩ := p
    have hkm : k ∈ ms.map Prod.fst := List.mem_map.mpr ⟨(k, v), hp1, rfl⟩
    have hks : k ∈ writtenKeys cfg ms := hperm.mem_iff.mpr hkm
    rw [JsonValue.findEq_map (fun k => (lookupText (ms.GetKeys.zip ts) k).denote) _ k v hks]
    have hv := JsonObject.find_of_mem ms hnd k v hp1
    obtain ⟨t, ht, hw⟩ := @find_lookup
      (fun v t => WrittenBy cfg n v (indent + cfg.indent_size) (depth + 1) t) ms ts hts k v hv
    show JsonValue.eq (lookupText (ms.GetKeys.zip ts) k).denote v = true
    rw [hlook ht]
    exact hw.2.2.2.1

mutual

/-- A compact writer without `\u` escapes prints every plain tree within its
depth limit as a well-formed text that stands for an equal value. -/
theorem JsonValue.writtenBy (cfg : JsonWriterConfig) (hp : cfg.pretty_print = false)
    (hu : cfg.escape_unicode = false) (n : Nat) :
    ∀ (v : JsonValue), v.Plain n → ∀ (indent depth : Int),
      depth + (v.depth : Int) ≤ cfg.max_depth → ∃ t, WrittenBy cfg n v indent depth t
  | .object [], _, indent, depth, hd =>
      ⟨_, WrittenBy_of_Written cfg n indent depth
        (WriteValue_emptyObject_compact cfg indent depth
          (by simp [JsonValue.depth, JsonValue.depthMembers] at hd; omega))
        (Written_emptyObject n 0 0 (by decide))⟩
  | .object (m :: ms), hv, indent, depth, hd => by
      simp only [JsonValue.Plain] at hv
      simp only [JsonValue.depth] at hd
      obtain ⟨ts, hts⟩ := JsonValue.writtenMembersBy cfg hp hu n (m :: ms) hv.1
        (indent + cfg.indent_size) (depth + 1) (by omega)
      have hpos : 0 < JsonValue.depthMembers (m :: ms) := by
        obtain ⟨k0, v0⟩ := m
        simp only [JsonValue.depthMembers]
        have := le_max_left (v0.depth + 1) (JsonValue.depthMembers ms)
        omega
      exact ⟨_, WrittenBy_object cfg hp hu n (m :: ms) ts indent depth (List.cons_ne_nil _ _)
        (by omega) (JsonValue.PlainMembers_keys n _ hv.1) hv.2 hts⟩
  | .array elements, hv, indent, depth, hd => by
      simp only [JsonValue.Plain] at hv
      subst hv
      exact ⟨_, WrittenBy_of_Written cfg n indent depth
        (WriteValue_emptyArray_compact cfg indent depth
          (by simp [JsonValue.depth, JsonValue.depthElements] at hd; omega))
        (Written_emptyArray n 0 0 (by decide))⟩
  | .string s, hv, indent, depth, hd => by
      simp only [JsonValue.Plain] at hv
      exact ⟨_, WrittenBy_of_Written cfg n indent depth
        (WriteValue_string_compact cfg hu s indent depth
          (by simp [JsonValue.depth] at hd; omega))
        (Written_string n s 0 0 hv (by decide))⟩
  | .number d, hv, indent, depth, hd => by
      simp only [JsonValue.Plain] at hv
      obtain ⟨z, hz, rfl⟩ := hv
      exact ⟨_, WrittenBy_of_Written cfg n indent depth
        (WriteValue_number_compact cfg _ indent depth
          (by simp [JsonValue.depth] at hd; omega))
        (Written_number n z 0 0 hz (by decide))⟩
  | .boolean b, _, indent, depth, hd =>
      ⟨_, WrittenBy_of_Written cfg n indent depth
        (WriteValue_boolean_compact cfg b indent depth
          (by simp [JsonValue.depth] at hd; omega))
        (Written_boolean n b 0 0 (by decide))⟩
  | .null, _, indent, depth, hd =>
      ⟨_, WrittenBy_of_Written cfg n indent depth
        (WriteValue_null_compact cfg indent depth
          (by simp [JsonValue.depth] at hd; omega))
        (Written_null n 0 0 (by decide))⟩

/-- The writer prints the value of every entry of a plain object. -/
theorem JsonValue.writtenMembersBy (cfg : JsonWriterConfig) (hp : cfg.pretty_print = false)
    (hu : cfg.escape_unicode = false) (n : Nat) :
    ∀ (ms : JsonObject), JsonValue.PlainMembers n ms → ∀ (indent depth : Int),
      depth + (JsonValue.depthMembers ms : Int) ≤ cfg.max_depth + 1 →
      ∃ ts, List.Forall₂ (fun m t => WrittenBy cfg n m.2 indent depth t) ms ts
  | [], _, _, _, _ => ⟨[], List.Forall₂.nil⟩
  | (k, v) :: ms, hv, indent, depth, hd => by
      simp only [JsonValue.PlainMembers] at hv
      simp only [JsonValue.depthMembers] at hd
      have h1 : depth + (v.depth : Int) ≤ cfg.max_depth := by
        have := le_max_left (v.depth + 1) (JsonValue.depthMembers ms)
        omega
      have h2 : depth + (JsonValue.depthMembers ms : Int) ≤ cfg.max_depth + 1 := by
        have := le_max_right (v.depth + 1) (JsonValue.depthMembers ms)
        omega
      obtain ⟨t, ht⟩ := JsonValue.writtenBy cfg hp hu n v hv.2.1 indent depth h1
      obtain ⟨ts, hts⟩ := JsonValue.writtenMembersBy cfg hp hu n ms hv.2.2 indent depth h2
      exact ⟨t :: ts, List.Forall₂.cons ht hts⟩

end

/-- Claim C35 fails for an integer between `2 ^ 53` and `2 ^ 63`: the Object
that maps `a` to the Number `2 ^ 60` is in the domain of the claim, the
compact writer prints `2 ^ 60` with all its digits, and the digit loop of
`ParseNumber`, which rounds after every digit, reads them back as the Number
`2 ^ 60 - 256`, which `==` tells apart from `2 ^ 60`. -/
theorem C35_large_integer_counterexample :
    Write JsonWriterConfig.Compact (.object [(['a'], .number (.fin 1 60))]) =
        .ok "\x7b\"a\":1152921504606846976\x7d".toList ∧
      Parse "\x7b\"a\":1152921504606846976\x7d".toList JsonParserConfig.Strict =
        .ok (.object [(['a'], .number (.fin 4503599627370495 8))]) ∧
      JsonValue.eq (.object [(['a'], .number (.fin 4503599627370495 8))])
        (.object [(['a'], .number (.fin 1 60))]) = false ∧
      JsonValue.eq (.object [(['a'], .number (.fin 1 60))])
        (.object [(['a'], .number (.fin 4503599627370495 8))]) = false := by
  refine ⟨by decide!, by decide!, ?_, ?_⟩
  · simp only [JsonValue.eq, JsonValue.objectLoop, JsonObject.find, JsonValue.eqFlip, if_true,
      List.length_cons, List.length_nil, decide_True, Bool.true_and, Bool.and_true]
    decide!
  · simp only [JsonValue.eq, JsonValue.objectLoop, JsonObject.find, JsonValue.eqFlip, if_true,
      List.length_cons, List.length_nil, decide_True, Bool.true_and, Bool.and_true]
    decide!

/-- Claim C35, amended: for every value tree `v` whose top level is an Object,
in which every Array is empty, every Number is an integer of magnitude at most
`2 ^ 53`, the keys of each Object are pairwise distinct, every string and key
has at most `max_string_length` characters and the nesting is at most the
`max_depth` of the writer, `Write` with a compact configuration without `\u`
escapes (`sort_keys` on or off) returns a text, and `Parse` of that text, under
the strict default configuration as under any other with that
`max_string_length`, returns a value equal to `v` (with either operand on the
left). -/
theorem C35_round_trip_compact (wcfg : JsonWriterConfig) (pcfg : JsonParserConfig)
    (members : JsonObject) (hp : wcfg.pretty_print = false)
    (hu : wcfg.escape_unicode = false)
    (hv : (JsonValue.object members).Plain pcfg.max_string_length)
    (hd : ((JsonValue.object members).depth : Int) ≤ wcfg.max_depth) :
    ∃ text parsed, Write wcfg (.object members) = .ok text ∧
      Parse text pcfg = .ok parsed ∧ parsed.eq (.object members) = true ∧
      (JsonValue.object members).eq parsed = true := by
  obtain ⟨t, hw, hwf, hint, heq, hflip⟩ :=
    JsonValue.writtenBy wcfg hp hu pcfg.max_string_length (.object members) hv 0 0 (by omega)
  have hni : t.isInteger = false := by
    cases h : t.isInteger with
    | false => rfl
    | true =>
        have h2 := hint h
        simp [JsonValue.isNumber] at h2
  refine ⟨t.render, t.denote, hw, Parse_render pcfg t hwf hni, heq, ?_⟩
  rw [← JsonValue.eqFlip_eq]
  exact hflip

theorem C35_round_trip_compact_witness :
    ∃ text parsed,
      Write { JsonWriterConfig.Compact with max_depth := 2 }
          (.object [(['z'], .number (Double.ofInt (-42))),
            (['a'], .object [(['s'], .string ['h', 'i', '\n', '"']), (['e'], .array [])])]) =
        .ok text ∧
      Parse text JsonParserConfig.Strict = .ok parsed ∧
      parsed.eq (.object [(['z'], .number (Double.ofInt (-42))),
        (['a'], .object [(['s'], .string ['h', 'i', '\n', '"']), (['e'], .array [])])]) = true ∧
      (JsonValue.object [(['z'], .number (Double.ofInt (-42))),
        (['a'], .object [(['s'], .string ['h', 'i', '\n', '"']), (['e'], .array [])])]).eq
          parsed = true :=
  C35_round_trip_compact { JsonWriterConfig.Compact with max_depth := 2 }
    JsonParserConfig.Strict
    [(['z'], .number (Double.ofInt (-42))),
      (['a'], .object [(['s'], .string ['h', 'i', '\n', '"']), (['e'], .array [])])]
    rfl rfl
    (by
      simp only [JsonValue.Plain, JsonValue.PlainMembers]
      refine ⟨⟨by decide, ⟨-42, by decide, rfl⟩, by decide,
        ⟨⟨by decide, by decide, by decide, trivial, trivial⟩, by decide⟩, trivial⟩, by decide⟩)
    (by simp [JsonValue.depth, JsonValue.depthMembers, JsonValue.depthElements])

/-! ### C30: the emitted text lists the members in ascending key order -/

theorem WriteObjectLoop_writtenMember (cfg : JsonWriterConfig) (obj : JsonObject)
    (indent depth : Int) :
    ∀ (keys : List (List Char)) (body : List Char),
      WriteObjectLoop cfg
          ((JsonObject.GetKeys obj).zip
            (WriteValues cfg obj (indent + cfg.indent_size) (depth + 1)))
          indent keys false = .ok body →
        body = commaPrefixed (keys.map (writtenMember cfg obj indent depth)) := by
  intro keys
  induction keys with
  | nil =>
      intro body h
      rw [WriteObjectLoop] at h
      cases h
      rfl
  | cons key keys ih =>
      intro body h
      rw [WriteObjectLoop] at h
      simp only [bind, bind_eq_ok] at h
      obtain ⟨value, hv, rest, hr, h⟩ := h
      have h := Except.ok.inj h
      subst h
      rw [ih rest hr, List.map_cons, commaPrefixed]
      rw [lookup_WriteValues] at hv
      have hvalue : (match JsonObject.find obj key with
          | some value =>
              (match WriteValue cfg value (indent + cfg.indent_size) (depth + 1) with
                | .ok text => text
                | .error _ => [])
          | none => []) = value := by
        cases hf : JsonObject.find obj key with
        | none =>
            rw [hf] at hv
            cases hv
            rfl
        | some v =>
            rw [hf] at hv
            simp only [Option.map_some'] at hv
            simp only [hv]
      unfold writtenMember
      rw [hvalue]
      cases cfg.pretty_print <;> simp

theorem WriteObject_writtenMember (cfg : JsonWriterConfig) (obj : JsonObject)
    (indent depth : Int) (text : List Char) (hne : obj ≠ [])
    (h : WriteValue cfg (.object obj) indent depth = .ok text) :
    text = '{' :: (commaSeparated ((if cfg.sort_keys then sortKeys (JsonObject.GetKeys obj)
        else JsonObject.GetKeys obj).map (writtenMember cfg obj indent depth)) ++
      ((if cfg.pretty_print then '\n' :: WriteIndent indent else []) ++ ['}'])) := by
  rw [WriteValue] at h
  split at h
  · cases h
  · rw [WriteObject] at h
    have hemp : ¬ (obj.isEmpty = true) := by
      cases obj with
      | nil => exact absurd rfl hne
      | cons _ _ => exact fun h => (by cases h)
    rw [if_neg hemp] at h
    simp only [bind, bind_eq_ok] at h
    obtain ⟨body, hb, h⟩ := h
    have h := Except.ok.inj h
    subst h
    have hkeys : (if cfg.sort_keys = true then sortKeys (JsonObject.GetKeys obj)
        else JsonObject.GetKeys obj) ≠ [] := by
      have hne1 : JsonObject.GetKeys obj ≠ [] := by
        cases obj with
        | nil => exact absurd rfl hne
        | cons _ _ => exact fun hc => (by cases hc)
      split
      · exact sortKeys_ne_nil hne1
      · exact hne1
    revert hb hkeys
    generalize (if cfg.sort_keys = true then sortKeys (JsonObject.GetKeys obj)
        else JsonObject.GetKeys obj) = keys
    intro hb hkeys
    cases keys with
    | nil => exact absurd rfl hkeys
    | cons key keys =>
        rw [WriteObjectLoop] at hb
        simp only [bind, bind_eq_ok] at hb
        obtain ⟨value, hv, rest, hr, hb⟩ := hb
        have hb := Except.ok.inj hb
        subst hb
        rw [WriteObjectLoop_writtenMember cfg obj indent depth keys rest hr, List.map_cons,
          commaSeparated_cons]
        rw [lookup_WriteValues] at hv
        have hvalue : (match JsonObject.find obj key with
            | some value =>
                (match WriteValue cfg value (indent + cfg.indent_size) (depth + 1) with
                  | .ok text => text
                  | .error _ => [])
            | none => []) = value := by
          cases hf : JsonObject.find obj key with
          | none =>
              rw [hf] at hv
              cases hv
              rfl
          | some v =>
              rw [hf] at hv
              simp only [Option.map_some'] at hv
              simp only [hv]
        unfold writtenMember
        rw [hvalue]
        cases cfg.pretty_print <;> simp

theorem stringLess_of_sorted_ne {a b : List Char} (h : stringLess b a = false) (hne : a ≠ b) :
    stringLess a b = true := by
  cases hab : stringLess a b with
  | true => rfl
  | false => exact absurd (stringLess_antisymm a b h hab) hne

/-- C30: with `sort_keys` enabled the output of the writer is deterministic.
At every nesting level (for every Object `obj` with entries, written at any
indent and depth) the text that the writer returns is the opening brace, the
texts of the members separated by commas, and the closing brace, the members
standing in a list `keys` of the keys of `obj` that is in ascending order of
`std::string::operator<` (strictly ascending when the keys are pairwise
distinct). Hence `Write` produces the same outcome for any two values that
hold the same data, whatever the iteration order of their objects at any
nesting level. -/
theorem C30_sorted_keys_deterministic (cfg : JsonWriterConfig) (hs : cfg.sort_keys = true)
    (v w : JsonValue) (h : v.SameMapping w) :
    Write cfg v = Write cfg w ∧
      ∀ (obj : JsonObject) (indent depth : Int) (text : List Char), obj ≠ [] →
        WriteValue cfg (.object obj) indent depth = .ok text →
        ∃ keys : List (List Char), keys.Perm (JsonObject.GetKeys obj) ∧
          keys.Pairwise (fun a b => stringLess b a = false) ∧
          ((JsonObject.GetKeys obj).Nodup → keys.Pairwise (fun a b => stringLess a b = true)) ∧
          text = '{' :: (commaSeparated (keys.map (writtenMember cfg obj indent depth)) ++
            ((if cfg.pretty_print then '\n' :: WriteIndent indent else []) ++ ['}'])) := by
  refine ⟨WriteValue_SameMapping cfg hs v w 0 0 h, fun obj indent depth text hne hw => ?_⟩
  have ht := WriteObject_writtenMember cfg obj indent depth text hne hw
  rw [hs] at ht
  simp only [if_true] at ht
  have hsorted : (sortKeys (JsonObject.GetKeys obj)).Pairwise
      (fun a b => stringLess b a = false) := sortKeys_sorted _
  refine ⟨sortKeys (JsonObject.GetKeys obj), sortKeys_perm _, hsorted, fun hnd => ?_, ht⟩
  have hnd1 : (sortKeys (JsonObject.GetKeys obj)).Nodup := (sortKeys_perm _).nodup_iff.mpr hnd
  exact (hsorted.and hnd1).imp (fun hab => stringLess_of_sorted_ne hab.1 hab.2)

/-- A run of C30: two objects with the same entries in different orders, at
two levels, give the same text, in which the members stand in ascending key
order. -/
theorem C30_sorted_keys_deterministic_witness :
    Write JsonWriterConfig.CompactSorted
        (.object [(['b'], .object [(['y'], .null), (['x'], .boolean true)]), (['a'], .array [])]) =
      Write JsonWriterConfig.CompactSorted
        (.object [(['a'], .array []), (['b'], .object [(['x'], .boolean true), (['y'], .null)])]) ∧
    Write JsonWriterConfig.CompactSorted
        (.object [(['b'], .object [(['y'], .null), (['x'], .boolean true)]), (['a'], .array [])]) =
      .ok "\x7b\"a\":[],\"b\":\x7b\"x\":true,\"y\":null\x7d\x7d".toList :=
  ⟨(C30_sorted_keys_deterministic JsonWriterConfig.CompactSorted rfl
    (.object [(['b'], .object [(['y'], .null), (['x'], .boolean true)]), (['a'], .array [])])
    (.object [(['a'], .array []), (['b'], .object [(['x'], .boolean true), (['y'], .null)])])
    (by simp [JsonValue.SameMapping, JsonValue.SameMembers, JsonValue.SameElements,
      JsonObject.find])).1, by decide!⟩

/-! ### C1: the structure of one rounding -/

theorem roundHalfEven_error (num den : Nat) (hden : 0 < den) :
    |((roundHalfEven num den : Nat) : ℚ) - (num : ℚ) / (den : ℚ)| ≤ 1 / 2 :=
  Double.round_half num den hden

/-- An integer within less than one half of the quotient is the rounded
quotient. -/
theorem roundHalfEven_unique (num den : Nat) (hden : 0 < den) (M : Nat)
    (h : |(M : ℚ) - (num : ℚ) / (den : ℚ)| < 1 / 2) : roundHalfEven num den = M := by
  have h1 := roundHalfEven_error num den hden
  have h2 : |((roundHalfEven num den : Nat) : ℚ) - (M : ℚ)| < 1 := by
    have e : ((roundHalfEven num den : Nat) : ℚ) - (M : ℚ) =
        (((roundHalfEven num den : Nat) : ℚ) - (num : ℚ) / (den : ℚ)) -
          ((M : ℚ) - (num : ℚ) / (den : ℚ)) := by ring
    rw [e]
    calc |(((roundHalfEven num den : Nat) : ℚ) - (num : ℚ) / (den : ℚ)) -
          ((M : ℚ) - (num : ℚ) / (den : ℚ))|
        ≤ |((roundHalfEven num den : Nat) : ℚ) - (num : ℚ) / (den : ℚ)| +
            |(M : ℚ) - (num : ℚ) / (den : ℚ)| := abs_sub _ _
      _ < 1 / 2 + 1 / 2 := add_lt_add_of_le_of_lt h1 h
      _ = 1 := by norm_num
  have h3 := abs_lt.mp h2
  have h4 : ((roundHalfEven num den : Nat) : ℚ) < (M : ℚ) + 1 := by linarith [h3.2]
  have h5 : (M : ℚ) < ((roundHalfEven num den : Nat) : ℚ) + 1 := by linarith [h3.1]
  have h6 : roundHalfEven num den < M + 1 := by exact_mod_cast h4
  have h7 : M < roundHalfEven num den + 1 := by exact_mod_cast h5
  omega

/-- The structure of `roundPos` on a positive ratio below `2 ^ 1023`: the
exponent `e` of the ratio is found (`2 ^ e <= a / d < 2 ^ (e + 1)`), the ratio
is scaled by the exponent `s = max (e - 52) (-1074)` of the last mantissa bit
and rounded to an integer mantissa. -/
theorem roundPos_spec (neg : Bool) (a d : Nat) (ha : 0 < a) (hd : 0 < d)
    (hhi : (a : ℚ) / (d : ℚ) < (2 : ℚ) ^ (1023 : Int)) :
    ∃ (e : Int) (num den : Nat), (2 : ℚ) ^ e ≤ (a : ℚ) / (d : ℚ) ∧
      (a : ℚ) / (d : ℚ) < (2 : ℚ) ^ (e + 1) ∧ 0 < den ∧
      (num : ℚ) / (den : ℚ) = (a : ℚ) / (d : ℚ) / (2 : ℚ) ^ (max (e - 52) (-1074)) ∧
      Double.roundPos neg a d =
        Double.normalize (if neg then -((roundHalfEven num den : Nat) : Int)
          else ((roundHalfEven num den : Nat) : Int)) (max (e - 52) (-1074)) := by
  have haq : (0 : ℚ) < (a : ℚ) := by exact_mod_cast ha
  have hdq : (0 : ℚ) < (d : ℚ) := by exact_mod_cast hd
  have hfa := Double.floorLog2_spec a ha
  have hfd := Double.floorLog2_spec d hd
  have hfa1 : ((2 : ℚ) ^ (Double.floorLog2 a : Int)) ≤ (a : ℚ) := by
    rw [zpow_natCast]
    exact_mod_cast hfa.1
  have hfa2 : (a : ℚ) < ((2 : ℚ) ^ ((Double.floorLog2 a : Int) + 1)) := by
    have : (a : ℚ) < (2 : ℚ) ^ (Double.floorLog2 a + 1) := by exact_mod_cast hfa.2
    rw [← zpow_natCast] at this
    push_cast at this
    exact this
  have hfd0 : ((2 : ℚ) ^ (Double.floorLog2 d : Int)) ≤ (d : ℚ) := by
    rw [zpow_natCast]
    exact_mod_cast hfd.1
  have hfd1 : (d : ℚ) < ((2 : ℚ) ^ ((Double.floorLog2 d : Int) + 1)) := by
    have : (d : ℚ) < (2 : ℚ) ^ (Double.floorLog2 d + 1) := by exact_mod_cast hfd.2
    rw [← zpow_natCast] at this
    push_cast at this
    exact this
  have h2pos : ∀ z : Int, (0 : ℚ) < (2 : ℚ) ^ z := fun z => zpow_pos (by norm_num) z
  unfold Double.roundPos
  lift_lets
  intro k ge e s num den q r m
  have hk : k = (Double.floorLog2 a : Int) - (Double.floorLog2 d : Int) := rfl
  have hge : ge = if 0 ≤ k then decide (d * 2 ^ k.toNat ≤ a) else decide (d ≤ a * 2 ^ (-k).toNat) := rfl
  have he : e = if ge = true then k else k - 1 := rfl
  have hs : s = max (e - 52) (-1074) := rfl
  have hnum : num = if 0 ≤ s then a else a * 2 ^ (-s).toNat := rfl
  have hden : den = if 0 ≤ s then d * 2 ^ s.toNat else d := rfl
  have hm : m = roundHalfEven num den := rfl
  clear_value m r q den num s e ge k
  -- whether `2 ^ k <= a / d`
  have hgeq : ge = true ↔ (2 : ℚ) ^ k * (d : ℚ) ≤ (a : ℚ) := by
    rw [hge]
    by_cases hk0 : 0 ≤ k
    · rw [if_pos hk0, decide_eq_true_iff]
      have h1 : d * 2 ^ k.toNat ≤ a ↔ (d : ℚ) * ((2 ^ k.toNat : Nat) : ℚ) ≤ (a : ℚ) := by
        constructor
        · intro h; exact_mod_cast h
        · intro h; exact_mod_cast h
      rw [h1, Double.two_zpow_toNat k hk0, mul_comm]
    · rw [if_neg hk0, decide_eq_true_iff]
      have h1 : d ≤ a * 2 ^ (-k).toNat ↔ (d : ℚ) ≤ (a : ℚ) * ((2 ^ (-k).toNat : Nat) : ℚ) := by
        constructor
        · intro h; exact_mod_cast h
        · intro h; exact_mod_cast h
      rw [h1, Double.two_zpow_neg_toNat k (by omega)]
      have h3 := h2pos k
      rw [← div_eq_mul_inv, le_div_iff₀ h3, mul_comm]
  have hE : (2 : ℚ) ^ e ≤ (a : ℚ) / (d : ℚ) ∧ (a : ℚ) / (d : ℚ) < (2 : ℚ) ^ (e + 1) := by
    rw [le_div_iff₀ hdq, div_lt_iff₀ hdq]
    cases hg : ge with
    | true =>
        rw [hg] at he
        simp only [if_true] at he
        rw [he]
        refine ⟨hgeq.mp hg, ?_⟩
        have h3 : (2 : ℚ) ^ (k + 1) * (2 : ℚ) ^ (Double.floorLog2 d : Int) =
            (2 : ℚ) ^ ((Double.floorLog2 a : Int) + 1) := by
          rw [← zpow_add₀ (by norm_num : (2 : ℚ) ≠ 0), hk]
          congr 1
          ring
        calc (a : ℚ) < (2 : ℚ) ^ ((Double.floorLog2 a : Int) + 1) := hfa2
          _ = (2 : ℚ) ^ (k + 1) * (2 : ℚ) ^ (Double.floorLog2 d : Int) := h3.symm
          _ ≤ (2 : ℚ) ^ (k + 1) * (d : ℚ) :=
              mul_le_mul_of_nonneg_left hfd0 (le_of_lt (h2pos _))
    | false =>
        rw [hg] at he
        simp only [Bool.false_eq_true, if_false] at he
        rw [he]
        have hng : ¬ ((2 : ℚ) ^ k * (d : ℚ) ≤ (a : ℚ)) := by
          intro h
          have := hgeq.mpr h
          rw [hg] at this
          cases this
        refine ⟨?_, by rw [sub_add_cancel]; exact not_le.mp hng⟩
        have h3 : (2 : ℚ) ^ (k - 1) * (2 : ℚ) ^ ((Double.floorLog2 d : Int) + 1) =
            (2 : ℚ) ^ (Double.floorLog2 a : Int) := by
          rw [← zpow_add₀ (by norm_num : (2 : ℚ) ≠ 0), hk]
          congr 1
          ring
        calc (2 : ℚ) ^ (k - 1) * (d : ℚ)
            ≤ (2 : ℚ) ^ (k - 1) * (2 : ℚ) ^ ((Double.floorLog2 d : Int) + 1) :=
              mul_le_mul_of_nonneg_left (le_of_lt hfd1) (le_of_lt (h2pos _))
          _ = (2 : ℚ) ^ (Double.floorLog2 a : Int) := h3
          _ ≤ (a : ℚ) := hfa1
  have he1 : e ≤ 1022 := by
    have h1 : (2 : ℚ) ^ e < (2 : ℚ) ^ (1023 : Int) := lt_of_le_of_lt hE.1 hhi
    have h2 := (zpow_lt_zpow_iff_right₀ (by norm_num : (1 : ℚ) < 2)).mp h1
    omega
  have hs1 : s ≤ 970 := by
    rw [hs]
    exact max_le (by omega) (by norm_num)
  have hdenpos : 0 < den := by
    rw [hden]
    split
    · exact Nat.mul_pos hd (Nat.pos_pow_of_pos _ (by norm_num))
    · exact hd
  have hscaled : (num : ℚ) / (den : ℚ) = (a : ℚ) / (d : ℚ) / (2 : ℚ) ^ s := by
    rw [hnum, hden]
    have h3 := h2pos s
    by_cases hs0 : 0 ≤ s
    · rw [if_pos hs0, if_pos hs0]
      push_cast
      have := Double.two_zpow_toNat s hs0
      push_cast at this
      rw [this]
      field_simp
    · rw [if_neg hs0, if_neg hs0]
      push_cast
      have := Double.two_zpow_neg_toNat s (by omega)
      push_cast at this
      rw [this]
      field_simp
      left
      ring
  have hC : ¬ (971 < s ∨ (s = 971 ∧ 2 ^ 53 ≤ m)) := by
    intro h
    rcases h with h | h
    · omega
    · omega
  rw [if_neg hC]
  refine ⟨e, num, den, hE.1, hE.2, hdenpos, ?_, ?_⟩
  · rw [← hs]
    exact hscaled
  · rw [← hs, ← hm]

theorem normalize_spec (z : Int) (s : Int) (hz : z ≠ 0) :
    ∃ m e, Double.normalize z s = .fin m e ∧ (m : ℚ) * (2 : ℚ) ^ e = (z : ℚ) * (2 : ℚ) ^ s ∧
      m ≠ 0 ∧ (m < 0 ↔ z < 0) := by
  obtain ⟨t1, _⟩ := Double.toRat_normalize z s
  have hn : Double.normalize z s =
      .fin (Double.stripTwos 64 z s).1 (Double.stripTwos 64 z s).2 := by
    unfold Double.normalize
    rw [if_neg hz]
  rw [hn] at t1
  have hv : (((Double.stripTwos 64 z s).1 : Int) : ℚ) * (2 : ℚ) ^ (Double.stripTwos 64 z s).2 =
      (z : ℚ) * (2 : ℚ) ^ s := t1
  have h1 : (0 : ℚ) < (2 : ℚ) ^ (Double.stripTwos 64 z s).2 := zpow_pos (by norm_num) _
  have h2 : (0 : ℚ) < (2 : ℚ) ^ s := zpow_pos (by norm_num) _
  refine ⟨_, _, hn, hv, ?_, ?_⟩
  · intro h0
    rw [h0] at hv
    simp only [Int.cast_zero, zero_mul] at hv
    have : (z : ℚ) = 0 := by
      rcases mul_eq_zero.mp hv.symm with h | h
      · exact h
      · exact absurd h (ne_of_gt h2)
    exact hz (by exact_mod_cast this)
  · constructor
    · intro hneg
      have hq : (((Double.stripTwos 64 z s).1 : Int) : ℚ) < 0 := by exact_mod_cast hneg
      have h3 : (z : ℚ) * (2 : ℚ) ^ s < 0 := by
        rw [← hv]
        exact mul_neg_of_neg_of_pos hq h1
      have h4 : (z : ℚ) < 0 := by
        by_contra hc
        have := mul_nonneg (not_lt.mp hc) (le_of_lt h2)
        linarith
      exact_mod_cast h4
    · intro hneg
      have hq : (z : ℚ) < 0 := by exact_mod_cast hneg
      have h3 : (((Double.stripTwos 64 z s).1 : Int) : ℚ) *
          (2 : ℚ) ^ (Double.stripTwos 64 z s).2 < 0 := by
        rw [hv]
        exact mul_neg_of_neg_of_pos hq h2
      have h4 : (((Double.stripTwos 64 z s).1 : Int) : ℚ) < 0 := by
        by_contra hc
        have := mul_nonneg (not_lt.mp hc) (le_of_lt h1)
        linarith
      exact_mod_cast h4

/-- The text of `fixed6` in terms of the rounded number of millionths. -/
theorem fixed6_eq (m e : Int) (he : e < 0) :
    fixed6 m e = (if m < 0 then ['-'] else []) ++
      decimal (roundHalfEven (m.natAbs * 1000000) (2 ^ (-e).toNat) / 1000000) ++ ['.'] ++
      List.replicate
        (6 - (decimal (roundHalfEven (m.natAbs * 1000000) (2 ^ (-e).toNat) % 1000000)).length) '0' ++
      decimal (roundHalfEven (m.natAbs * 1000000) (2 ^ (-e).toNat) % 1000000) := by
  have h0 : ¬ (0 ≤ e) := by omega
  unfold fixed6
  simp only [h0, if_false]
  rfl

theorem WriteNumber_fixed (m e : Int) (he : e < 0) : WriteNumber (.fin m e) = fixed6 m e := by
  have h0 : ¬ (0 ≤ e ∧ -9223372036854775808 ≤ m * 2 ^ e.toNat ∧
      m * 2 ^ e.toNat < 9223372036854775808) := by
    intro h
    omega
  simp only [WriteNumber, if_neg h0]

/-- The decimal text of a number below `10 ^ j` has at most `j` digits. -/
theorem decimalLoop_length : ∀ (fuel n : Nat) (acc : List Char) (j : Nat), n < fuel →
    0 < j → n < 10 ^ j → (decimalLoop fuel n acc).length ≤ j + acc.length := by
  intro fuel
  induction fuel with
  | zero => intro n acc j h; omega
  | succ f ih =>
      intro n acc j h hj hn
      unfold decimalLoop
      by_cases h10 : n < 10
      · rw [if_pos h10]
        simp only [List.length_cons]
        omega
      · rw [if_neg h10]
        obtain ⟨i, rfl⟩ : ∃ i, j = i + 1 := ⟨j - 1, by omega⟩
        have hi : 0 < i := by
          by_contra hc
          have : i = 0 := by omega
          subst this
          simp at hn
          omega
        have hdiv : n / 10 < 10 ^ i := by
          rw [pow_succ] at hn
          omega
        have := ih (n / 10) (digitChar (n % 10) :: acc) i (by omega) hi hdiv
        simp only [List.length_cons] at this
        omega

theorem decimal_length (n j : Nat) (hj : 0 < j) (hn : n < 10 ^ j) : (decimal n).length ≤ j := by
  have := decimalLoop_length (n + 1) n [] j (by omega) hj hn
  simpa [decimal] using this

theorem digitsFrom_zeros : ∀ (z x : Nat) (ds : List Char),
    digitsFrom x (List.replicate z '0' ++ ds) = digitsFrom (x * 10 ^ z) ds := by
  intro z
  induction z with
  | zero => intro x ds; simp
  | succ z ih =>
      intro x ds
      have h1 : List.replicate (z + 1) '0' ++ ds = '0' :: (List.replicate z '0' ++ ds) := rfl
      have h2 : digitsFrom x ('0' :: (List.replicate z '0' ++ ds)) =
          digitsFrom (10 * x + (('0' : Char).toNat - 48)) (List.replicate z '0' ++ ds) := rfl
      have h3 : ('0' : Char).toNat - 48 = 0 := by decide
      rw [h1, h2, h3, ih, pow_succ]
      congr 1
      ring

/-- The six digits that `fixed6` prints after the point. -/
theorem sixDigits_spec (F : Nat) (hF : F < 1000000) :
    (List.replicate (6 - (decimal F).length) '0' ++ decimal F).length = 6 ∧
      (∀ c ∈ List.replicate (6 - (decimal F).length) '0' ++ decimal F, isdigit c = true) ∧
      digitsValue (List.replicate (6 - (decimal F).length) '0' ++ decimal F) = F := by
  obtain ⟨d1, d2, d3⟩ := decimal_spec F
  have hl := decimal_length F 6 (by norm_num) (by norm_num; exact hF)
  refine ⟨?_, ?_, ?_⟩
  · rw [List.length_append, List.length_replicate]
    omega
  · intro c hc
    rcases List.mem_append.mp hc with h | h
    · rw [(List.mem_replicate.mp h).2]
      decide
    · exact d2 c h
  · unfold digitsValue
    rw [digitsFrom_zeros]
    simpa [digitsValue] using d3

/-- The double nearest to a decimal `K / 10 ^ 6` that is not an integer and is
below `2 ^ 33`: the exponent `e` of the decimal is between -20 and 32, the
mantissa `R` is the decimal scaled by `2 ^ (52 - e)` and rounded, and the
double is `R * 2 ^ (e - 52)`, within `2 ^ (-21)` of the decimal. -/
theorem roundPos_decimal (neg : Bool) (K : Nat) (hK0 : ¬ (1000000 ∣ K))
    (hK : K < 2 ^ 33 * 1000000) :
    ∃ (e : Int) (num den : Nat), -20 ≤ e ∧ e ≤ 32 ∧
      (2 : ℚ) ^ e ≤ (K : ℚ) / 1000000 ∧ (K : ℚ) / 1000000 < (2 : ℚ) ^ (e + 1) ∧
      0 < den ∧ (num : ℚ) / (den : ℚ) = (K : ℚ) / 1000000 / (2 : ℚ) ^ (e - 52) ∧
      0 < roundHalfEven num den ∧
      |((roundHalfEven num den : Nat) : ℚ) * (2 : ℚ) ^ (e - 52) - (K : ℚ) / 1000000| ≤
        (2 : ℚ) ^ (-21 : Int) ∧
      Double.roundPos neg K 1000000 =
        Double.normalize (if neg then -((roundHalfEven num den : Nat) : Int)
          else ((roundHalfEven num den : Nat) : Int)) (e - 52) := by
  have hKpos : 0 < K := by
    rcases Nat.eq_zero_or_pos K with h | h
    · exact absurd (h ▸ dvd_zero _) hK0
    · exact h
  have hKq1 : (1 : ℚ) ≤ (K : ℚ) := by exact_mod_cast hKpos
  have hKq2 : (K : ℚ) < 2 ^ 33 * 1000000 := by exact_mod_cast hK
  have hq0 : (1 : ℚ) / 1000000 ≤ (K : ℚ) / 1000000 := by
    apply div_le_div_of_nonneg_right hKq1 (by norm_num)
  have hq1 : (K : ℚ) / 1000000 < (2 : ℚ) ^ (33 : Int) := by
    rw [div_lt_iff₀ (by norm_num)]
    norm_num
    norm_num at hKq2
    exact hKq2
  have hcast : ((1000000 : Nat) : ℚ) = 1000000 := by norm_num
  obtain ⟨e, num, den, h1, h2, h3, h4, h5⟩ := roundPos_spec neg K 1000000 hKpos (by norm_num)
    (by
      rw [hcast]
      exact lt_trans hq1 (zpow_lt_zpow_right₀ (by norm_num) (by norm_num)))
  rw [hcast] at h1 h2 h4
  have he1 : e ≤ 32 := by
    have := (zpow_lt_zpow_iff_right₀ (by norm_num : (1 : ℚ) < 2)).mp (lt_of_le_of_lt h1 hq1)
    omega
  have he0 : -20 ≤ e := by
    have h6 : (2 : ℚ) ^ (-20 : Int) < (2 : ℚ) ^ (e + 1) :=
      lt_of_le_of_lt (le_trans (by norm_num) hq0) h2
    have := (zpow_lt_zpow_iff_right₀ (by norm_num : (1 : ℚ) < 2)).mp h6
    omega
  have hs : max (e - 52) (-1074) = e - 52 := max_eq_left (by omega)
  rw [hs] at h4 h5
  have h2s : (0 : ℚ) < (2 : ℚ) ^ (e - 52) := zpow_pos (by norm_num) _
  have hR := roundHalfEven_error num den h3
  rw [h4] at hR
  have herr : |((roundHalfEven num den : Nat) : ℚ) * (2 : ℚ) ^ (e - 52) - (K : ℚ) / 1000000| ≤
      (2 : ℚ) ^ (e - 52) / 2 := by
    have e1 : ((roundHalfEven num den : Nat) : ℚ) * (2 : ℚ) ^ (e - 52) - (K : ℚ) / 1000000 =
        (((roundHalfEven num den : Nat) : ℚ) - (K : ℚ) / 1000000 / (2 : ℚ) ^ (e - 52)) *
          (2 : ℚ) ^ (e - 52) := by
      field_simp
      ring
    rw [e1, abs_mul, abs_of_pos h2s]
    calc _ ≤ 1 / 2 * (2 : ℚ) ^ (e - 52) := mul_le_mul_of_nonneg_right hR (le_of_lt h2s)
      _ = (2 : ℚ) ^ (e - 52) / 2 := by ring
  have hhalf : (2 : ℚ) ^ (e - 52) / 2 = (2 : ℚ) ^ (e - 53) := by
    rw [div_eq_mul_inv, ← zpow_neg_one, ← zpow_add₀ (by norm_num : (2 : ℚ) ≠ 0)]
    congr 1
    ring
  have hle21 : (2 : ℚ) ^ (e - 53) ≤ (2 : ℚ) ^ (-21 : Int) :=
    zpow_le_zpow_right₀ (by norm_num) (by omega)
  have hlt : (2 : ℚ) ^ (e - 53) < (2 : ℚ) ^ e :=
    zpow_lt_zpow_right₀ (by norm_num) (by omega)
  have hRpos : 0 < roundHalfEven num den := by
    rcases Nat.eq_zero_or_pos (roundHalfEven num den) with h | h
    · rw [h] at herr
      simp only [Nat.cast_zero, zero_mul, zero_sub, abs_neg] at herr
      rw [abs_of_pos (by linarith), hhalf] at herr
      linarith
    · exact h
  refine ⟨e, num, den, he0, he1, h1, h2, h3, h4, hRpos, ?_, h5⟩
  rw [hhalf] at herr
  exact le_trans herr hle21

theorem natAbs_signed (neg : Bool) (R : Nat) :
    (if neg then -((R : Nat) : Int) else ((R : Nat) : Int)).natAbs = R := by
  cases neg <;> simp

/-- The text that `WriteNumber` prints for the double nearest to a decimal
`K / 10 ^ 6` that is not an integer and is below `2 ^ 33`: the integer part, the
point and the six digits of the fraction, after the sign. -/
theorem WriteNumber_decimal (neg : Bool) (K : Nat) (hK0 : ¬ (1000000 ∣ K))
    (hK : K < 2 ^ 33 * 1000000) :
    WriteNumber (Double.roundPos neg K 1000000) =
      (if neg then ['-'] else []) ++ decimal (K / 1000000) ++ ['.'] ++
        List.replicate (6 - (decimal (K % 1000000)).length) '0' ++ decimal (K % 1000000) := by
  obtain ⟨e, num, den, he0, he1, h1, h2, h3, h4, hRpos, herr, h5⟩ :=
    roundPos_decimal neg K hK0 hK
  have hz : (if neg then -((roundHalfEven num den : Nat) : Int)
      else ((roundHalfEven num den : Nat) : Int)) ≠ 0 := by
    cases neg <;> simp <;> omega
  obtain ⟨m, x, n1, n2, n3, n4⟩ := normalize_spec _ (e - 52) hz
  rw [h5, n1]
  have h2x : (0 : ℚ) < (2 : ℚ) ^ x := zpow_pos (by norm_num) _
  -- the value of the double
  have hval : ((m.natAbs : Nat) : ℚ) * (2 : ℚ) ^ x =
      ((roundHalfEven num den : Nat) : ℚ) * (2 : ℚ) ^ (e - 52) := by
    have habs := congrArg abs n2
    rw [abs_mul, abs_mul, abs_of_pos h2x,
      abs_of_pos (zpow_pos (by norm_num : (0 : ℚ) < 2) (e - 52))] at habs
    rw [Nat.cast_natAbs, Int.cast_abs, habs, ← Int.cast_abs, ← Nat.cast_natAbs, natAbs_signed]
  rw [← hval] at herr
  have hbound : |((m.natAbs : Nat) : ℚ) * (2 : ℚ) ^ x * 1000000 - (K : ℚ)| < 1 / 2 := by
    have e1 : ((m.natAbs : Nat) : ℚ) * (2 : ℚ) ^ x * 1000000 - (K : ℚ) =
        (((m.natAbs : Nat) : ℚ) * (2 : ℚ) ^ x - (K : ℚ) / 1000000) * 1000000 := by
      field_simp
    rw [e1, abs_mul, abs_of_pos (by norm_num : (0 : ℚ) < 1000000)]
    calc _ ≤ (2 : ℚ) ^ (-21 : Int) * 1000000 :=
          mul_le_mul_of_nonneg_right herr (by norm_num)
      _ < 1 / 2 := by norm_num
  -- the double is not an integer
  have hx : x < 0 := by
    by_contra hc
    have hx0 : 0 ≤ x := not_lt.mp hc
    have hpow : (2 : ℚ) ^ x = ((2 ^ x.toNat : Nat) : ℚ) := (Double.two_zpow_toNat x hx0).symm
    rw [hpow] at hbound
    have e3 : ((m.natAbs : Nat) : ℚ) * ((2 ^ x.toNat : Nat) : ℚ) * 1000000 =
        ((m.natAbs * 2 ^ x.toNat * 1000000 : Nat) : ℚ) := by
      push_cast
      ring
    rw [e3] at hbound
    obtain ⟨Z, hZ⟩ : ∃ Z : Nat, Z = m.natAbs * 2 ^ x.toNat * 1000000 := ⟨_, rfl⟩
    rw [← hZ] at hbound
    have h6 := abs_lt.mp hbound
    have h7 : ((Z : Nat) : ℚ) < ((K + 1 : Nat) : ℚ) := by
      push_cast
      linarith [h6.2]
    have h8 : ((K : Nat) : ℚ) < ((Z + 1 : Nat) : ℚ) := by
      push_cast
      linarith [h6.1]
    have h7' : Z < K + 1 := by exact_mod_cast h7
    have h8' : K < Z + 1 := by exact_mod_cast h8
    have h9 : m.natAbs * 2 ^ x.toNat * 1000000 = K := by omega
    exact hK0 ⟨m.natAbs * 2 ^ x.toNat, by rw [← h9]; ring⟩
  rw [WriteNumber_fixed m x hx, fixed6_eq m x hx]
  have hround : roundHalfEven (m.natAbs * 1000000) (2 ^ (-x).toNat) = K := by
    apply roundHalfEven_unique _ _ (Nat.pos_pow_of_pos _ (by norm_num))
    rw [abs_sub_comm]
    have e2 : (((m.natAbs * 1000000 : Nat)) : ℚ) / ((2 ^ (-x).toNat : Nat) : ℚ) =
        ((m.natAbs : Nat) : ℚ) * (2 : ℚ) ^ x * 1000000 := by
      rw [Double.two_zpow_neg_toNat x (by omega)]
      push_cast
      field_simp
      ring
    rw [e2]
    exact hbound
  rw [hround]
  have hsign : (m < 0) ↔ neg = true := by
    rw [n4]
    cases neg
    · simp
    · simp
      omega
  by_cases hm : m < 0
  · have := hsign.mp hm
    subst this
    simp [hm]
  · have : neg = false := by
      cases hn : neg with
      | false => rfl
      | true => exact absurd (hsign.mpr hn) hm
    subst this
    simp [hm]

/-! ### C1: a decimal read back against the double written -/

theorem add_eq_ofRatio (a b : Double) (ha : a.isFinite = true) (hb : b.isFinite = true) :
    ∃ (n : Int) (d : Nat), 0 < d ∧ Double.add a b = Double.ofRatio n d ∧
      (n : ℚ) / (d : ℚ) = a.toRat + b.toRat := by
  obtain ⟨m1, e1, rfl⟩ := (Double.isFinite_iff a).mp ha
  obtain ⟨m2, e2, rfl⟩ := (Double.isFinite_iff b).mp hb
  obtain ⟨x1, x2⟩ := Double.toRatio_value m1 e1
  obtain ⟨y1, y2⟩ := Double.toRatio_value m2 e2
  have hx : (0 : ℚ) < ((Double.toRatio m1 e1).2 : ℚ) := by exact_mod_cast x2
  have hy : (0 : ℚ) < ((Double.toRatio m2 e2).2 : ℚ) := by exact_mod_cast y2
  refine ⟨(Double.toRatio m1 e1).1 * ((Double.toRatio m2 e2).2 : Int) +
      (Double.toRatio m2 e2).1 * ((Double.toRatio m1 e1).2 : Int),
    (Double.toRatio m1 e1).2 * (Double.toRatio m2 e2).2, Nat.mul_pos x2 y2, rfl, ?_⟩
  show _ = (m1 : ℚ) * (2 : ℚ) ^ e1 + (m2 : ℚ) * (2 : ℚ) ^ e2
  rw [← x1, ← y1]
  push_cast
  field_simp

/-- Two finite doubles whose exact values differ by at most `5 * 10 ^ (-10)`
are equal under the comparison `std::abs(a - b) < 1e-9`. -/
theorem close_lt_epsilon (a b : Double) (ha : a.isFinite = true) (hb : b.isFinite = true)
    (h : |a.toRat - b.toRat| ≤ 1 / 2000000000) :
    Double.lt (Double.abs (Double.sub a b)) JsonValue.epsilon = true := by
  obtain ⟨hb1, hb2, hb3, hb4, hb5⟩ := two_zpow_bounds
  obtain ⟨n1, n2⟩ := Double.toRat_neg b
  have hnb : (Double.neg b).isFinite = true := by rw [n2]; exact hb
  obtain ⟨s1, s2⟩ := add_error a (Double.neg b) ha hnb 1
    (by
      rw [n1, ← sub_eq_add_neg]
      exact le_trans h (by norm_num))
    hb1 (lt_of_le_of_lt (by norm_num) hb5)
  rw [n1, ← sub_eq_add_neg, one_mul] at s2
  obtain ⟨a1, a2⟩ := toRat_abs (Double.add a (Double.neg b))
  obtain ⟨p1, p2⟩ := ofRatio_error 1 1000000000 (by norm_num) (1 / 1000000000)
    (by rw [abs_of_pos (by norm_num)]; norm_num)
    (le_trans (zpow_le_zpow_right₀ (by norm_num) (by norm_num : (-1022 : Int) ≤ -30))
      (by norm_num))
    (lt_of_le_of_lt (by norm_num) hb5)
  have hfin : (Double.abs (Double.sub a b)).isFinite = true := by
    show (Double.abs (Double.add a (Double.neg b))).isFinite = true
    rw [a2]
    exact s1
  have hlt := Double.lt_iff (Double.abs (Double.sub a b)) (Double.ofRatio 1 1000000000) hfin p1
  show Double.lt (Double.abs (Double.sub a b)) (Double.ofRatio 1 1000000000) = true
  rw [hlt]
  show (Double.abs (Double.add a (Double.neg b))).toRat < _
  rw [a1]
  have hu : (2 : ℚ) ^ (-53 : Int) ≤ 1 / 8000000000000000 := by norm_num
  have hp := abs_le.mp p2
  have hs : |(Double.add a (Double.neg b)).toRat - (a.toRat - b.toRat)| ≤
      1 / 8000000000000000 := le_trans s2 hu
  have hs := abs_le.mp hs
  have hh := abs_le.mp h
  have hp1 : (1 : ℚ) / 1000000000 - 1 / 1000000000 * (1 / 8000000000000000) ≤
      (Double.ofRatio 1 1000000000).toRat := by
    have h3 : (1 : ℚ) / 1000000000 * (2 : ℚ) ^ (-53 : Int) ≤
        1 / 1000000000 * (1 / 8000000000000000) :=
      mul_le_mul_of_nonneg_left hu (by norm_num)
    have h4 := hp.1
    norm_num at h4 h3 ⊢
    linarith
  have habs : |(Double.add a (Double.neg b)).toRat| ≤ 1 / 2000000000 + 1 / 8000000000000000 := by
    rw [abs_le]
    constructor <;> linarith [hs.1, hs.2, hh.1, hh.2]
  calc |(Double.add a (Double.neg b)).toRat| ≤ 1 / 2000000000 + 1 / 8000000000000000 := habs
    _ < (1 : ℚ) / 1000000000 - 1 / 1000000000 * (1 / 8000000000000000) := by norm_num
    _ ≤ _ := hp1

/-- A finite double is equal to itself under the comparison of `operator==`. -/
theorem self_lt_epsilon (a : Double) (ha : a.isFinite = true) :
    Double.lt (Double.abs (Double.sub a a)) JsonValue.epsilon = true :=
  close_lt_epsilon a a ha ha (by rw [sub_self, abs_zero]; norm_num)

theorem decimalLiteral_WellFormed (neg : Bool) (K : Nat) : (decimalLiteral neg K).WellFormed := by
  obtain ⟨d1, d2, _⟩ := decimal_spec (K / 1000000)
  obtain ⟨_, s2, _⟩ := sixDigits_spec (K % 1000000) (Nat.mod_lt _ (by norm_num))
  refine ⟨d1, d2, ?_, ?_⟩
  · intro fs hfs
    have : fs = sixDigits (K % 1000000) := by
      simp only [decimalLiteral] at hfs
      exact (Option.some.inj hfs).symm
    rw [this]
    exact s2
  · intro x hx
    simp [decimalLiteral] at hx

theorem decimalLiteral_text (neg : Bool) (K : Nat) :
    (decimalLiteral neg K).text =
      (if neg then ['-'] else []) ++ decimal (K / 1000000) ++ ['.'] ++
        List.replicate (6 - (decimal (K % 1000000)).length) '0' ++ decimal (K % 1000000) := by
  simp [NumberLiteral.text, decimalLiteral, NumberLiteral.fractionText,
    NumberLiteral.exponentText, sixDigits]

theorem decimalLiteral_exactValue (neg : Bool) (K : Nat) :
    (decimalLiteral neg K).exactValue = (if neg then -1 else 1) * ((K : ℚ) / 1000000) := by
  obtain ⟨_, _, d3⟩ := decimal_spec (K / 1000000)
  obtain ⟨s1, _, s3⟩ := sixDigits_spec (K % 1000000) (Nat.mod_lt _ (by norm_num))
  have hfd : (decimalLiteral neg K).fractionDigits = sixDigits (K % 1000000) := rfl
  have hev : (decimalLiteral neg K).exponentValue = 0 := rfl
  have hint : (decimalLiteral neg K).integer = decimal (K / 1000000) := rfl
  have hneg : (decimalLiteral neg K).negative = neg := rfl
  have hs1 : (sixDigits (K % 1000000)).length = 6 := s1
  have hs3 : digitsValue (sixDigits (K % 1000000)) = K % 1000000 := s3
  unfold NumberLiteral.exactValue
  rw [hfd, hev, hint, hneg, d3, hs1, hs3, zpow_zero, mul_one]
  have hK : ((K : Nat) : ℚ) = ((K / 1000000 : Nat) : ℚ) * 1000000 + ((K % 1000000 : Nat) : ℚ) := by
    have := Nat.div_add_mod K 1000000
    have h2 : ((1000000 * (K / 1000000) + K % 1000000 : Nat) : ℚ) = ((K : Nat) : ℚ) := by
      rw [this]
    push_cast at h2
    linarith
  rw [hK]
  congr 1
  field_simp
  norm_num

theorem decimalLiteral_accumulated (neg : Bool) (K : Nat) (hK : K / 1000000 ≤ 2 ^ 53) :
    (decimalLiteral neg K).accumulated =
      (if neg then Double.neg (Double.add (Double.exactInt ((K / 1000000 : Nat) : Int))
          (fractionAccumulated (sixDigits (K % 1000000)) (Double.ofInt 0) (Double.ofInt 10)))
        else Double.add (Double.exactInt ((K / 1000000 : Nat) : Int))
          (fractionAccumulated (sixDigits (K % 1000000)) (Double.ofInt 0) (Double.ofInt 10))) := by
  obtain ⟨d1, d2, d3⟩ := decimal_spec (K / 1000000)
  have hi := integerAccumulated_value d2 (by rw [d3]; exact hK)
  rw [d3] at hi
  unfold NumberLiteral.accumulated
  simp only [decimalLiteral, NumberLiteral.addFraction, NumberLiteral.scale, hi]

/-- A decimal below `2 ^ 20` with six digits after the point: the value that
`ParseNumber` accumulates and the double nearest to the decimal are within
the tolerance of `operator==`. -/
theorem decimalLiteral_close (neg : Bool) (K : Nat) (hK0 : ¬ (1000000 ∣ K))
    (hK : K < 2 ^ 20 * 1000000) :
    Double.lt (Double.abs (Double.sub (decimalLiteral neg K).accumulated
      (Double.roundPos neg K 1000000))) JsonValue.epsilon = true := by
  obtain ⟨hb1, hb2, hb3, hb4, hb5⟩ := two_zpow_bounds
  have hKpos : 0 < K := by
    rcases Nat.eq_zero_or_pos K with h | h
    · exact absurd (h ▸ dvd_zero _) hK0
    · exact h
  obtain ⟨_, _, d3⟩ := decimal_spec (K / 1000000)
  obtain ⟨s1, _, _⟩ := sixDigits_spec (K % 1000000) (Nat.mod_lt _ (by norm_num))
  have hI : K / 1000000 < 2 ^ 20 := Nat.div_lt_of_lt_mul (by rw [Nat.mul_comm]; exact hK)
  have hIq : ((K / 1000000 : Nat) : ℚ) ≤ 2 ^ 20 := by exact_mod_cast (le_of_lt hI)
  have hKq : (K : ℚ) / 1000000 ≤ 2 ^ 20 := by
    rw [div_le_iff₀ (by norm_num)]
    exact_mod_cast (le_of_lt hK)
  have hfd : (decimalLiteral neg K).fractionDigits = sixDigits (K % 1000000) := rfl
  have hs1 : (sixDigits (K % 1000000)).length = 6 := s1
  obtain ⟨a1, a2⟩ := NumberLiteral.accumulated_error (decimalLiteral neg K)
    (decimalLiteral_WellFormed neg K)
    (by
      show digitsValue (decimal (K / 1000000)) ≤ 2 ^ 53
      rw [d3]
      exact le_trans (le_of_lt hI) (by norm_num))
    (by rw [hfd, hs1]; norm_num)
    (le_refl _) (by
      show (0 : Int) ≤ 22
      norm_num)
  have hint : digitsValue (decimalLiteral neg K).integer = K / 1000000 := d3
  have hev : (decimalLiteral neg K).exponentValue = 0 := rfl
  rw [hint, hfd, hs1, hev, decimalLiteral_exactValue, zpow_zero, mul_one] at a2
  have hcast : ((1000000 : Nat) : ℚ) = 1000000 := by norm_num
  obtain ⟨r1, r2⟩ := roundPos_error neg K 1000000 hKpos (by norm_num) (2 ^ 20)
    (by rw [hcast]; exact hKq)
    (le_trans hb1 (by norm_num)) (lt_of_le_of_lt (by norm_num) hb5)
  rw [hcast, hb4] at r2
  have hsign : (if neg = true then -((K : ℚ) / 1000000) else (K : ℚ) / 1000000) =
      (if neg = true then (-1 : ℚ) else 1) * ((K : ℚ) / 1000000) := by
    cases neg <;> simp
  rw [hsign] at r2
  apply close_lt_epsilon _ _ a1 r1
  have h1 := abs_le.mp a2
  have h2 := abs_le.mp r2
  have hb : (2 * ((K / 1000000 : Nat) : ℚ) + 3 * ((6 : Nat) : ℚ) + 5) / 2 ^ 53 ≤
      (2 * 2 ^ 20 + 23) / 2 ^ 53 := by
    apply div_le_div_of_nonneg_right _ (by positivity)
    push_cast
    linarith
  have hc : ((2 : ℚ) * 2 ^ 20 + 23) / 2 ^ 53 + 2 ^ 20 * (1 / 2 ^ 53) ≤ 1 / 2000000000 := by
    norm_num
  rw [abs_le]
  constructor <;> linarith [h1.1, h1.2, h2.1, h2.2]

/-- A rounded mantissa of a decimal with six digits after the point is not
close to a tie: a multiple of `1 / 5 ^ 6` is at least `1 / (2 * 5 ^ 6)` away
from the middle between two integers, so a small change of the scaled value
does not change the rounding. -/
theorem round_margin (R N : Nat) (δ : ℚ) (h1 : |(R : ℚ) - (N : ℚ) / 15625| ≤ 1 / 2)
    (h2 : |δ| ≤ 18 / 2 ^ 21) : |(R : ℚ) - ((N : ℚ) / 15625 + δ)| < 1 / 2 := by
  have h3 := abs_le.mp h1
  have h4 := abs_le.mp h2
  have h5 : (((15625 * (R : Int) - (N : Int) : Int)) : ℚ) < 7813 := by
    push_cast
    have := h3.2
    rw [sub_le_iff_le_add, ← sub_le_iff_le_add'] at this
    have h6 : (R : ℚ) * 15625 - (N : ℚ) ≤ 15625 / 2 := by
      have h7 : (R : ℚ) - (N : ℚ) / 15625 ≤ 1 / 2 := h3.2
      have h8 : ((R : ℚ) - (N : ℚ) / 15625) * 15625 ≤ 1 / 2 * 15625 :=
        mul_le_mul_of_nonneg_right h7 (by norm_num)
      have h9 : ((R : ℚ) - (N : ℚ) / 15625) * 15625 = (R : ℚ) * 15625 - (N : ℚ) := by
        field_simp
      linarith
    linarith
  have h6 : ((-7813 : Int) : ℚ) < (((15625 * (R : Int) - (N : Int) : Int)) : ℚ) := by
    push_cast
    have h7 : -(1 / 2) ≤ (R : ℚ) - (N : ℚ) / 15625 := h3.1
    have h8 : -(1 / 2) * 15625 ≤ ((R : ℚ) - (N : ℚ) / 15625) * 15625 :=
      mul_le_mul_of_nonneg_right h7 (by norm_num)
    have h9 : ((R : ℚ) - (N : ℚ) / 15625) * 15625 = (R : ℚ) * 15625 - (N : ℚ) := by
      field_simp
    linarith
  have h5' : 15625 * (R : Int) - (N : Int) < 7813 := by exact_mod_cast h5
  have h6' : -7813 < 15625 * (R : Int) - (N : Int) := by exact_mod_cast h6
  have h7 : (((15625 * (R : Int) - (N : Int) : Int)) : ℚ) ≤ 7812 := by
    have : 15625 * (R : Int) - (N : Int) ≤ 7812 := by omega
    exact_mod_cast this
  have h8 : ((-7812 : Int) : ℚ) ≤ (((15625 * (R : Int) - (N : Int) : Int)) : ℚ) := by
    have : -7812 ≤ 15625 * (R : Int) - (N : Int) := by omega
    exact_mod_cast this
  push_cast at h7 h8
  have h9 : (R : ℚ) - (N : ℚ) / 15625 = (15625 * (R : ℚ) - (N : ℚ)) / 15625 := by
    field_simp
    ring
  have h10 : (R : ℚ) - (N : ℚ) / 15625 ≤ 7812 / 15625 := by
    rw [h9]
    exact div_le_div_of_nonneg_right h7 (by norm_num)
  have h11 : -(7812 / 15625) ≤ (R : ℚ) - (N : ℚ) / 15625 := by
    rw [h9, ← neg_div]
    exact div_le_div_of_nonneg_right h8 (by norm_num)
  have h12 : (18 : ℚ) / 2 ^ 21 < 1 / 2 - 7812 / 15625 := by norm_num
  rw [abs_lt]
  constructor <;> linarith [h4.1, h4.2]

theorem binade_unique (q : ℚ) (e1 e2 : Int) (h1 : (2 : ℚ) ^ e1 ≤ q) (h2 : q < (2 : ℚ) ^ (e1 + 1))
    (h3 : (2 : ℚ) ^ e2 ≤ q) (h4 : q < (2 : ℚ) ^ (e2 + 1)) : e1 = e2 := by
  have a := (zpow_lt_zpow_iff_right₀ (by norm_num : (1 : ℚ) < 2)).mp (lt_of_le_of_lt h1 h4)
  have b := (zpow_lt_zpow_iff_right₀ (by norm_num : (1 : ℚ) < 2)).mp (lt_of_le_of_lt h3 h2)
  omega

/-- A decimal from `2 ^ 20` to `2 ^ 33` with six digits after the point that is
not an integer: the value that `ParseNumber` accumulates is the double nearest
to the decimal, bit for bit. The error of the accumulated fraction, at most
`18 * 2 ^ (-53)`, is too small to move the sum of the integer part and the
fraction across a power of two or across a rounding tie. -/
theorem decimalLiteral_exact (K : Nat) (hK0 : ¬ (1000000 ∣ K))
    (hlo : 2 ^ 20 * 1000000 ≤ K) (hK : K < 2 ^ 33 * 1000000) :
    Double.add (Double.exactInt ((K / 1000000 : Nat) : Int))
        (fractionAccumulated (sixDigits (K % 1000000)) (Double.ofInt 0) (Double.ofInt 10)) =
      Double.roundPos false K 1000000 := by
  obtain ⟨I, hI⟩ : ∃ I : Nat, I = K / 1000000 := ⟨_, rfl⟩
  rw [← hI]
  obtain ⟨hb1, hb2, hb3, hb4, hb5⟩ := two_zpow_bounds
  obtain ⟨s1, s2, s3⟩ := sixDigits_spec (K % 1000000) (Nat.mod_lt _ (by norm_num))
  have hs1 : (sixDigits (K % 1000000)).length = 6 := s1
  have hs3 : digitsValue (sixDigits (K % 1000000)) = K % 1000000 := s3
  have hF1 : 1 ≤ K % 1000000 := by
    rcases Nat.eq_zero_or_pos (K % 1000000) with h | h
    · exact absurd (Nat.dvd_of_mod_eq_zero h) hK0
    · exact h
  have hF2 : K % 1000000 ≤ 999999 := by
    have := Nat.mod_lt K (by norm_num : 1000000 > 0)
    omega
  have hFq1 : (1 : ℚ) ≤ ((K % 1000000 : Nat) : ℚ) := by exact_mod_cast hF1
  have hFq2 : ((K % 1000000 : Nat) : ℚ) ≤ 999999 := by exact_mod_cast hF2
  have hKsplit : (K : ℚ) / 1000000 =
      ((I : Nat) : ℚ) + ((K % 1000000 : Nat) : ℚ) / 1000000 := by
    have := Nat.div_add_mod K 1000000
    rw [← hI] at this
    have h2 : ((1000000 * I + K % 1000000 : Nat) : ℚ) = ((K : Nat) : ℚ) := by
      rw [this]
    push_cast at h2
    rw [← h2]
    field_simp
    ring
  -- the accumulated fraction
  have hz : (Double.ofInt 0).isFinite = true ∧ (Double.ofInt 0).toRat = 0 ∧
      Double.ofInt 10 = .fin ((5 : Int) ^ (0 + 1 : Nat)) (((0 : Nat) : Int) + 1) := by
    refine ⟨rfl, ?_, by decide⟩
    show Double.toRat (.fin 0 0) = 0
    simp [Double.toRat]
  obtain ⟨f1, f2⟩ := fractionAccumulated_error (sixDigits (K % 1000000)) 0 (Double.ofInt 0)
    (Double.ofInt 10) 0 s2 (by rw [hs1]; norm_num) (fun _ => hz.2.2) hz.1 (le_refl _)
    (by norm_num) (by rw [hz.2.1]; simp)
  rw [hs1, hs3] at f2
  simp only [zero_add] at f2
  have hu : (3 : ℚ) * ((6 : Nat) : ℚ) * (2 : ℚ) ^ (-53 : Int) = 18 / 2 ^ 53 := by
    rw [hb4]
    norm_num
  rw [hu] at f2
  have hten : ((10 : ℚ) ^ 6) = 1000000 := by norm_num
  rw [hten] at f2
  have hf := abs_le.mp f2
  -- the integer part
  obtain ⟨i1, i2⟩ := Double.toRat_exactInt ((I : Nat) : Int)
  have i1' : (Double.exactInt ((I : Nat) : Int)).toRat = ((I : Nat) : ℚ) := by
    rw [i1]
    simp
  -- the sum as a ratio
  obtain ⟨n, d, hd, hadd, hnd⟩ := add_eq_ofRatio _ _ i2 f1
  rw [i1'] at hnd
  have hdq : (0 : ℚ) < (d : ℚ) := by exact_mod_cast hd
  have hq1 : ((I : Nat) : ℚ) < (n : ℚ) / (d : ℚ) := by
    rw [hnd]
    have : (0 : ℚ) < ((K % 1000000 : Nat) : ℚ) / 1000000 - 18 / 2 ^ 53 := by
      have : (1 : ℚ) / 1000000 ≤ ((K % 1000000 : Nat) : ℚ) / 1000000 :=
        div_le_div_of_nonneg_right hFq1 (by norm_num)
      have h3 : (18 : ℚ) / 2 ^ 53 < 1 / 1000000 := by norm_num
      linarith
    linarith [hf.1]
  have hq2 : (n : ℚ) / (d : ℚ) < ((I : Nat) : ℚ) + 1 := by
    rw [hnd]
    have : ((K % 1000000 : Nat) : ℚ) / 1000000 + 18 / 2 ^ 53 < 1 := by
      have : ((K % 1000000 : Nat) : ℚ) / 1000000 ≤ 999999 / 1000000 :=
        div_le_div_of_nonneg_right hFq2 (by norm_num)
      have h3 : (18 : ℚ) / 2 ^ 53 < 1 / 1000000 := by norm_num
      linarith
    linarith [hf.2]
  have hIq0 : (0 : ℚ) ≤ ((I : Nat) : ℚ) := by positivity
  have hnpos : 0 < n := by
    have h1 : (0 : ℚ) < (n : ℚ) / (d : ℚ) := lt_of_le_of_lt hIq0 hq1
    have h2 : (0 : ℚ) < (n : ℚ) := by
      rcases (div_pos_iff.mp h1) with h | h
      · exact h.1
      · linarith [h.2]
    exact_mod_cast h2
  have hndvd : ¬ ((d : Int) ∣ n ∧ (n / (d : Int)).natAbs ≤ 2 ^ 53) := by
    intro h
    obtain ⟨c, hc⟩ := h.1
    have hcq : (n : ℚ) / (d : ℚ) = (c : ℚ) := by
      rw [hc]
      push_cast
      field_simp
    rw [hcq] at hq1 hq2
    have h1 : ((I : Nat) : Int) < c := by exact_mod_cast hq1
    have h2 : c < ((I : Nat) : Int) + 1 := by exact_mod_cast hq2
    omega
  have hy : Double.add (Double.exactInt ((I : Nat) : Int))
      (fractionAccumulated (sixDigits (K % 1000000)) (Double.ofInt 0) (Double.ofInt 10)) =
      Double.roundPos false n.natAbs d := by
    rw [hadd]
    unfold Double.ofRatio
    rw [if_neg hndvd]
    have : ¬ (n < 0) := by omega
    simp [this]
  have hnabs : ((n.natAbs : Nat) : ℚ) / (d : ℚ) = (n : ℚ) / (d : ℚ) := by
    rw [Nat.cast_natAbs, Int.cast_abs, abs_of_pos (by exact_mod_cast hnpos)]
  -- the two roundings
  obtain ⟨e, num, den, he0, he1, h1, h2, h3, h4, hRpos, herr, h5⟩ :=
    roundPos_decimal false K hK0 hK
  have hKq : (2 : ℚ) ^ (20 : Int) ≤ (K : ℚ) / 1000000 := by
    rw [le_div_iff₀ (by norm_num)]
    have : ((2 ^ 20 * 1000000 : Nat) : ℚ) ≤ (K : ℚ) := by exact_mod_cast hlo
    norm_num at this ⊢
    exact this
  have he20 : 20 ≤ e := by
    have := (zpow_lt_zpow_iff_right₀ (by norm_num : (1 : ℚ) < 2)).mp (lt_of_le_of_lt hKq h2)
    omega
  have hq'hi : (n : ℚ) / (d : ℚ) < (2 : ℚ) ^ (1023 : Int) := by
    have h6 : ((I : Nat) : ℚ) + 1 ≤ (K : ℚ) / 1000000 + 1 := by
      rw [hKsplit]
      have : (0 : ℚ) ≤ ((K % 1000000 : Nat) : ℚ) / 1000000 := by positivity
      linarith
    have h7 : (K : ℚ) / 1000000 < (2 : ℚ) ^ (33 : Int) :=
      lt_of_lt_of_le h2 (zpow_le_zpow_right₀ (by norm_num) (by omega))
    have h8 : (2 : ℚ) ^ (33 : Int) + 1 < (2 : ℚ) ^ (1023 : Int) :=
      lt_of_le_of_lt (by norm_num) hb5
    linarith
  obtain ⟨e2, num2, den2, g1, g2, g3, g4, g5⟩ := roundPos_spec false n.natAbs d
    (Int.natAbs_pos.mpr (by omega)) hd (by rw [hnabs]; exact hq'hi)
  rw [hnabs] at g1 g2 g4
  -- the integer part is in the binade of the decimal
  have hpe : (2 : ℚ) ^ e = ((2 ^ e.toNat : Nat) : ℚ) := (Double.two_zpow_toNat e (by omega)).symm
  have hpe1 : (2 : ℚ) ^ (e + 1) = ((2 ^ (e + 1).toNat : Nat) : ℚ) :=
    (Double.two_zpow_toNat (e + 1) (by omega)).symm
  have hlow : (2 : ℚ) ^ e ≤ ((I : Nat) : ℚ) := by
    rw [hpe] at h1 ⊢
    rw [le_div_iff₀ (by norm_num)] at h1
    have h6 : 2 ^ e.toNat * 1000000 ≤ K := by exact_mod_cast h1
    have h7 : 2 ^ e.toNat ≤ K / 1000000 := (Nat.le_div_iff_mul_le (by norm_num)).mpr h6
    rw [← hI] at h7
    exact_mod_cast h7
  have hhigh : ((I : Nat) : ℚ) + 1 ≤ (2 : ℚ) ^ (e + 1) := by
    rw [hpe1] at h2 ⊢
    rw [div_lt_iff₀ (by norm_num)] at h2
    have h6 : K < 2 ^ (e + 1).toNat * 1000000 := by exact_mod_cast h2
    have h7 : K / 1000000 < 2 ^ (e + 1).toNat :=
      Nat.div_lt_of_lt_mul (by rw [Nat.mul_comm]; exact h6)
    have h8 : K / 1000000 + 1 ≤ 2 ^ (e + 1).toNat := h7
    rw [← hI] at h8
    exact_mod_cast h8
  have hee : e2 = e := binade_unique _ e2 e g1 g2 (le_trans hlow (le_of_lt hq1))
    (lt_of_lt_of_le hq2 hhigh)
  subst hee
  have hs : max (e2 - 52) (-1074) = e2 - 52 := max_eq_left (by omega)
  rw [hs] at g4 g5
  -- the scaled decimal is a multiple of 1 / 5 ^ 6
  have hscale : (K : ℚ) / 1000000 / (2 : ℚ) ^ (e2 - 52) =
      ((K * 2 ^ ((52 - e2).toNat - 6) : Nat) : ℚ) / 15625 := by
    have ht : (2 : ℚ) ^ (e2 - 52) = ((2 : ℚ) ^ (52 - e2))⁻¹ := by
      rw [← zpow_neg]
      congr 1
      ring
    have ht2 : (2 : ℚ) ^ (52 - e2) = ((2 ^ (52 - e2).toNat : Nat) : ℚ) :=
      (Double.two_zpow_toNat (52 - e2) (by omega)).symm
    have ht3 : (52 - e2).toNat = ((52 - e2).toNat - 6) + 6 := by omega
    rw [ht, ht2]
    push_cast
    nth_rewrite 1 [ht3]
    rw [pow_add]
    field_simp
    ring
  have hRN : |((roundHalfEven num den : Nat) : ℚ) -
      ((K * 2 ^ ((52 - e2).toNat - 6) : Nat) : ℚ) / 15625| ≤ 1 / 2 := by
    have := roundHalfEven_error num den h3
    rw [h4, hscale] at this
    exact this
  have hdelta : |((n : ℚ) / (d : ℚ) - (K : ℚ) / 1000000) / (2 : ℚ) ^ (e2 - 52)| ≤ 18 / 2 ^ 21 := by
    have h2s : (0 : ℚ) < (2 : ℚ) ^ (e2 - 52) := zpow_pos (by norm_num) _
    rw [abs_div, abs_of_pos h2s, div_le_iff₀ h2s]
    have h6 : (n : ℚ) / (d : ℚ) - (K : ℚ) / 1000000 =
        (fractionAccumulated (sixDigits (K % 1000000)) (Double.ofInt 0) (Double.ofInt 10)).toRat -
          ((K % 1000000 : Nat) : ℚ) / 1000000 := by
      rw [hnd, hKsplit]
      ring
    rw [h6]
    have h7 : (2 : ℚ) ^ (-32 : Int) ≤ (2 : ℚ) ^ (e2 - 52) :=
      zpow_le_zpow_right₀ (by norm_num) (by omega)
    calc _ ≤ (18 : ℚ) / 2 ^ 53 := f2
      _ = 18 / 2 ^ 21 * (2 : ℚ) ^ (-32 : Int) := by norm_num
      _ ≤ 18 / 2 ^ 21 * (2 : ℚ) ^ (e2 - 52) := mul_le_mul_of_nonneg_left h7 (by norm_num)
  have hround : roundHalfEven num2 den2 = roundHalfEven num den := by
    apply roundHalfEven_unique num2 den2 g3
    rw [g4]
    have h8 := round_margin (roundHalfEven num den) (K * 2 ^ ((52 - e2).toNat - 6))
      (((n : ℚ) / (d : ℚ) - (K : ℚ) / 1000000) / (2 : ℚ) ^ (e2 - 52)) hRN hdelta
    have h9 : ((K * 2 ^ ((52 - e2).toNat - 6) : Nat) : ℚ) / 15625 +
        ((n : ℚ) / (d : ℚ) - (K : ℚ) / 1000000) / (2 : ℚ) ^ (e2 - 52) =
        (n : ℚ) / (d : ℚ) / (2 : ℚ) ^ (e2 - 52) := by
      rw [← hscale]
      ring
    rw [h9] at h8
    exact h8
  rw [hy, g5, h5, hround]

/-! ### C1: parsing the text of a document -/

theorem MemberHead.compact_escaped (n : Nat) (k : List Char) (hk : k.length ≤ n) :
    (MemberHead.compact (k.map escapeItem)).WellFormed n := by
  obtain ⟨_, _, w3, w4⟩ := WriteString_eq_stringText k
  refine ⟨?_, ?_, ?_, ?_, w3, by rw [show (MemberHead.compact (k.map escapeItem)).key =
    k.map escapeItem from rfl, w4]; exact hk⟩ <;> (intro c hc; cases hc)

theorem Document.render_first (n : Nat) (d : Document) (hw : d.WellFormed n) :
    ∃ c tail, d.render = c :: tail ∧ isspace c = false ∧ c ≠ '/' := by
  cases d with
  | plain t =>
      simp only [Document.WellFormed] at hw
      exact Text.render_head n t hw
  | decimal negative integer fraction =>
      simp only [Document.WellFormed] at hw
      obtain ⟨hne, hds, _⟩ := hw
      cases negative with
      | true =>
          exact ⟨'-', integer ++ (NumberLiteral.fractionText (some fraction) ++
            NumberLiteral.exponentText none), by simp [Document.render, NumberLiteral.text],
            by decide, by decide⟩
      | false =>
          cases integer with
          | nil => exact absurd rfl hne
          | cons x xs =>
              have hx : isdigit x = true := hds x (by simp)
              exact ⟨x, xs ++ (NumberLiteral.fractionText (some fraction) ++
                NumberLiteral.exponentText none), by simp [Document.render, NumberLiteral.text],
                isdigit_not_space hx, isdigit_ne hx (by decide)⟩
  | object members => exact ⟨'{', _, rfl, by decide, by decide⟩

/-- With enough fuel, `ParseValue` reads a well-formed number literal that
stands before a character which ends a number. -/
theorem ReadsValue_literal (cfg : JsonParserConfig) (n : NumberLiteral) (hn : n.WellFormed)
    (hx : n.exponent = none) {st : ParserState} {pre rest : List Char} (hr : EndsNumber rest)
    (h : st.Reads pre (n.text ++ rest)) :
    ReadsValue cfg st pre n.text rest (.number n.accumulated) := by
  obtain ⟨c, tail, rfl, hc1, hc2, hc3, hc4⟩ := hr
  obtain ⟨hne, hds, hfs, hex⟩ := hn
  have hloose : n.Loose := ⟨Or.inr hne, hds, hfs, fun x hxs => by rw [hx] at hxs; cases hxs⟩
  have hstop : n.StopsBefore c :=
    ⟨⟨hc1, (fun _ => ⟨hc3, hc4⟩), (fun _ _ => hc2)⟩, fun x hxs => by rw [hx] at hxs; cases hxs⟩
  exact ReadsValue_loose cfg n hloose hstop h

/-- With enough fuel, `ParseValue` reads an object whose first member starts
right after the brace, when `ParseObjectLoop` reads its members. -/
theorem ReadsValue_braces (cfg : JsonParserConfig) (body : List Char) (tail : List Char)
    (result : JsonObject) {st : ParserState} {pre rest : List Char}
    (hbody : body = '"' :: tail)
    (hread : st.Reads pre (('{' :: (body ++ ['}'])) ++ rest))
    (hloop : ∀ st1 pre1, st1.Reads pre1 (body ++ '}' :: rest) →
      ReadsMembers cfg [] st1 pre1 (body ++ ['}']) rest result) :
    ReadsValue cfg st pre ('{' :: (body ++ ['}'])) rest (.object result) := by
  have h0 : st.Reads pre ('{' :: (body ++ '}' :: rest)) := by
    simpa using hread
  have h1 := h0.after_consume
  obtain ⟨st1, r1, enough, hfuel⟩ := hloop _ _ h1
  refine ⟨st1, by simpa using r1, enough + 2, fun fuel hf => ?_⟩
  obtain ⟨f, rfl⟩ : ∃ f, fuel = f + 2 := ⟨fuel - 2, by omega⟩
  have p1 := hfuel f (by omega)
  have h2 : (st.consume '{').Reads (pre ++ ['{']) ('"' :: (tail ++ '}' :: rest)) := by
    rw [hbody] at h1
    simpa using h1
  have hidem : SkipSeparators cfg (st.consume '{') = st.consume '{' :=
    SkipSeparators_eq_self cfg h2 (by intro c hc; simp at hc; subst hc; decide) (by simp)
  rw [ParseValue_object (f + 1) h0, ParseObject]
  have hne : '"' ≠ '}' := by decide
  simp only [ValidateDepth_zero, bind, Except.bind, Expect_of_Reads h0, hidem,
    Current_of_Reads h2, hne, if_false, p1]

theorem Document.renderMembers_head (k : List Char) (d : Document)
    (ms : List (List Char × Document)) :
    ∃ tail, Document.renderMembers ((k, d) :: ms) = '"' :: tail :=
  ⟨itemsText (k.map escapeItem) ++ '"' :: ':' :: (d.render ++ Document.renderRest ms),
    by simp [Document.renderMembers, stringText]⟩

mutual

/-- With enough fuel, `ParseValue` reads the text of a well-formed document
and returns the value it stands for. -/
theorem Document.parsed (cfg : JsonParserConfig) :
    ∀ (d : Document), d.WellFormed cfg.max_string_length →
      ∀ (st : ParserState) (pre rest : List Char), (d.isNumber = true → EndsNumber rest) →
        st.Reads pre (d.render ++ rest) → ReadsValue cfg st pre d.render rest d.denote
  | .plain t, hw, st, pre, rest, hr, h => by
      simp only [Document.WellFormed] at hw
      exact Text.readsValue cfg t hw st pre rest hr h
  | .decimal negative integer fraction, hw, st, pre, rest, hr, h => by
      simp only [Document.WellFormed] at hw
      exact ReadsValue_literal cfg _ hw rfl (hr rfl) h
  | .object [], hw, _, _, _, _, _ => by
      simp only [Document.WellFormed] at hw
      exact absurd rfl hw.1
  | .object ((k, d) :: ms), hw, st, pre, rest, _, hread => by
      simp only [Document.WellFormed] at hw
      obtain ⟨_, hms, hnd⟩ := hw
      obtain ⟨tail, htail⟩ := Document.renderMembers_head k d ms
      exact ReadsValue_braces cfg (Document.renderMembers ((k, d) :: ms)) tail
        (Document.denoteMembers ((k, d) :: ms)) htail hread
        (fun st1 pre1 h1 => by
          have := Document.parsedMembers cfg ((k, d) :: ms) hms (List.cons_ne_nil _ _) [] st1 pre1
            rest (by simpa using hnd) h1
          simpa using this)

/-- With enough fuel, `ParseObjectLoop` reads the members of a well-formed
object document up to the closing brace and adds the entries they stand for. -/
theorem Document.parsedMembers (cfg : JsonParserConfig) :
    ∀ (ms : List (List Char × Document)), Document.MembersWellFormed cfg.max_string_length ms →
      ms ≠ [] → ∀ (obj : JsonObject) (st : ParserState) (pre rest : List Char),
        ((obj ++ Document.denoteMembers ms).map Prod.fst).Nodup →
        st.Reads pre (Document.renderMembers ms ++ '}' :: rest) →
        ReadsMembers cfg obj st pre (Document.renderMembers ms ++ ['}']) rest
          (obj ++ Document.denoteMembers ms)
  | [], _, hne, _, _, _, _, _, _ => absurd rfl hne
  | (k, d) :: ms, hw, _, obj, st, pre, rest, hnd, hread => by
      simp only [Document.MembersWellFormed] at hw
      obtain ⟨hk, ht, hms⟩ := hw
      have hh := MemberHead.compact_escaped cfg.max_string_length k hk
      have hden : stringDenote (MemberHead.compact (k.map escapeItem)).key = k :=
        (WriteString_eq_stringText k).2.1
      have hkey : k ∉ obj.map Prod.fst := by
        simp only [Document.denoteMembers, List.map_append, List.map_cons] at hnd
        have := (List.nodup_append.mp hnd).2.2
        intro hmem
        exact this hmem (List.mem_cons_self _ _)
      have hins := JsonObject.Insert_new obj k d.denote hkey
      have hhead := Document.render_first cfg.max_string_length d ht
      cases ms with
      | nil =>
          have hread1 : st.Reads pre ((MemberHead.compact (k.map escapeItem)).beforeKey ++
              (stringText (MemberHead.compact (k.map escapeItem)).key ++
                ((MemberHead.compact (k.map escapeItem)).afterKey ++ ':' ::
                  ((MemberHead.compact (k.map escapeItem)).beforeValue ++ (d.render ++
                    ((MemberHead.compact (k.map escapeItem)).afterValue ++ '}' :: rest)))))) := by
            simpa [Document.renderMembers, Document.renderRest, MemberHead.compact] using hread
          obtain ⟨st8, r8, enough, hfuel⟩ := ParseObjectLoop_member cfg
            (MemberHead.compact (k.map escapeItem)) d.render d.denote obj hh
            (Or.inr rfl) hhead
            (fun st1 pre1 h1 => Document.parsed cfg d ht st1 pre1 _
              (fun _ => (@FollowsValue_of_whitespace [] rest '}' (by intro c hc; cases hc)
                (Or.inr rfl)).endsNumber) h1)
            hread1
          refine ⟨st8, by simpa [Document.renderMembers, Document.renderRest,
            MemberHead.compact] using r8, enough + 1, fun fuel hf => ?_⟩
          obtain ⟨f, rfl⟩ : ∃ f, fuel = f + 1 := ⟨fuel - 1, by omega⟩
          rw [(hfuel f (by omega)).1 rfl, hden, hins]
          rfl
      | cons m ms =>
          have hread1 : st.Reads pre ((MemberHead.compact (k.map escapeItem)).beforeKey ++
              (stringText (MemberHead.compact (k.map escapeItem)).key ++
                ((MemberHead.compact (k.map escapeItem)).afterKey ++ ':' ::
                  ((MemberHead.compact (k.map escapeItem)).beforeValue ++ (d.render ++
                    ((MemberHead.compact (k.map escapeItem)).afterValue ++ ',' ::
                      (Document.renderMembers (m :: ms) ++ '}' :: rest))))))) := by
            obtain ⟨k', d'⟩ := m
            simpa [Document.renderMembers, Document.renderRest, MemberHead.compact] using hread
          obtain ⟨st8, r8, enough, hfuel⟩ := ParseObjectLoop_member cfg
            (MemberHead.compact (k.map escapeItem)) d.render d.denote obj hh
            (Or.inl rfl) hhead
            (fun st1 pre1 h1 => Document.parsed cfg d ht st1 pre1 _
              (fun _ => (@FollowsValue_of_whitespace []
                (Document.renderMembers (m :: ms) ++ '}' :: rest) ','
                (by intro c hc; cases hc) (Or.inl rfl)).endsNumber) h1)
            hread1
          have hnd1 : (((obj ++ [(k, d.denote)]) ++
              Document.denoteMembers (m :: ms)).map Prod.fst).Nodup := by
            simpa [Document.denoteMembers] using hnd
          obtain ⟨st9, r9, enough1, hfuel1⟩ := Document.parsedMembers cfg (m :: ms) hms
            (List.cons_ne_nil _ _) (obj ++ [(k, d.denote)]) st8 _ rest hnd1 r8
          refine ⟨st9, ?_, max enough enough1 + 1, fun fuel hf => ?_⟩
          · obtain ⟨k', d'⟩ := m
            simpa [Document.renderMembers, Document.renderRest, MemberHead.compact] using r9
          · obtain ⟨f, rfl⟩ : ∃ f, fuel = f + 1 := ⟨fuel - 1, by omega⟩
            rw [(hfuel f (by omega)).2 rfl, hden, hins, hfuel1 f (by omega)]
            simp [Document.denoteMembers]

end

/-- The value that `ParseNumber` accumulates for the text of a decimal below
`2 ^ 33` and the double nearest to the decimal are equal under the comparison
of `operator==`: below `2 ^ 20` within the tolerance, from `2 ^ 20` on bit for
bit. -/
theorem decimalLiteral_eq (neg : Bool) (K : Nat) (hK0 : ¬ (1000000 ∣ K))
    (hK : K < 2 ^ 33 * 1000000) :
    Double.lt (Double.abs (Double.sub (decimalLiteral neg K).accumulated
      (Double.roundPos neg K 1000000))) JsonValue.epsilon = true := by
  by_cases hsmall : K < 2 ^ 20 * 1000000
  · exact decimalLiteral_close neg K hK0 hsmall
  · have hI : K / 1000000 ≤ 2 ^ 53 := by
      have : K / 1000000 < 2 ^ 33 := Nat.div_lt_of_lt_mul (by rw [Nat.mul_comm]; exact hK)
      exact le_trans (le_of_lt this) (by norm_num)
    have hex := decimalLiteral_exact K hK0 (not_lt.mp hsmall) hK
    have hacc : (decimalLiteral neg K).accumulated = Double.roundPos neg K 1000000 := by
      rw [decimalLiteral_accumulated neg K hI, hex]
      cases neg with
      | true =>
          rw [if_pos rfl, Double.neg_roundPos]
          rfl
      | false => rfl
    rw [hacc]
    obtain ⟨e, num, den, _, _, _, _, _, _, _, _, h5⟩ := roundPos_decimal neg K hK0 hK
    apply self_lt_epsilon
    rw [h5]
    exact (Double.toRat_normalize _ _).2

theorem Encoded_plain {n : Nat} {v : JsonValue} {indent depth : Int} {t : Text}
    (h : Written n v indent depth t) : Encoded n v indent depth (.plain t) := h

theorem ofRatio_decimal (k : Int) (hk0 : ¬ ((1000000 : Int) ∣ k)) :
    Double.ofRatio k 1000000 = Double.roundPos (decide (k < 0)) k.natAbs 1000000 ∧
      ¬ (1000000 ∣ k.natAbs) := by
  refine ⟨?_, ?_⟩
  · unfold Double.ofRatio
    rw [if_neg (fun h => hk0 (by exact_mod_cast h.1))]
  · intro h
    apply hk0
    have := Int.natCast_dvd_natCast.mpr h
    rw [Int.natCast_natAbs] at this
    exact (dvd_abs _ _).mp (by exact_mod_cast this)

theorem Encoded_decimal (n : Nat) (k : Int) (indent depth : Int)
    (hk0 : ¬ ((1000000 : Int) ∣ k)) (hk : k.natAbs < 2 ^ 33 * 1000000) (hd : depth ≤ 1000) :
    Encoded n (.number (Double.ofRatio k 1000000)) indent depth
      (.decimal (decide (k < 0)) (decimal (k.natAbs / 1000000))
        (sixDigits (k.natAbs % 1000000))) := by
  obtain ⟨hx, hK0⟩ := ofRatio_decimal k hk0
  have heq := decimalLiteral_eq (decide (k < 0)) k.natAbs hK0 hk
  refine ⟨?_, ?_, fun _ => rfl, ?_, ?_⟩
  · have hd1 : ¬ depth > JsonWriterConfig.CompactSorted.max_depth := by
      show ¬ depth > 1000
      omega
    simp only [WriteValue, hd1, if_false]
    rw [hx, WriteNumber_decimal _ _ hK0 hk, ← decimalLiteral_text]
    rfl
  · exact decimalLiteral_WellFormed (decide (k < 0)) k.natAbs
  · simp only [Document.denote, JsonValue.eq]
    rw [hx]
    exact heq
  · simp only [Document.denote, JsonValue.eqFlip]
    rw [hx, Double.abs_sub_comm]
    exact heq

theorem Encoded_sixDecimals (n : Nat) (x : Double) (indent depth : Int) (hx : x.SixDecimals)
    (hd : depth ≤ 1000) : ∃ d, Encoded n (.number x) indent depth d := by
  rcases hx with ⟨z, hz, rfl⟩ | ⟨k, hk, rfl⟩
  · exact ⟨_, Encoded_plain (Written_number n z indent depth hz hd)⟩
  · by_cases hdvd : (1000000 : Int) ∣ k
    · obtain ⟨c, hc⟩ := hdvd
      have hcabs : c.natAbs ≤ 2 ^ 53 := by
        have h1 : k.natAbs = 1000000 * c.natAbs := by
          rw [hc, Int.natAbs_mul]
          rfl
        have h2 : c.natAbs < 2 ^ 33 := by
          rw [h1] at hk
          omega
        exact le_trans (le_of_lt h2) (by norm_num)
      have hdiv : k / ((1000000 : Nat) : Int) = c := by
        rw [hc]
        exact Int.mul_ediv_cancel_left c (by norm_num)
      have hval : Double.ofRatio k 1000000 = Double.ofInt c := by
        unfold Double.ofRatio
        rw [if_pos ⟨⟨c, by rw [hc]; rfl⟩, by rw [hdiv]; exact hcabs⟩, hdiv]
        exact (Double.ofInt_eq_exactInt hcabs).symm
      rw [hval]
      exact ⟨_, Encoded_plain (Written_number n c indent depth hcabs hd)⟩
    · exact ⟨_, Encoded_decimal n k indent depth hdvd hk hd⟩

theorem find_lookupDocument {W : JsonValue → Document → Prop} :
    ∀ (ms : JsonObject) (ts : List Document),
    List.Forall₂ (fun m t => W m.2 t) ms ts → ∀ k v, JsonObject.find ms k = some v →
      ∃ t, (ms.GetKeys.zip ts).lookup k = some t ∧ W v t := by
  intro ms
  induction ms with
  | nil => intro ts _ k v hf; cases hf
  | cons m ms ih =>
      intro ts h k v hf
      cases ts with
      | nil => cases h
      | cons t ts =>
          obtain ⟨hw, hrest⟩ := List.forall₂_cons.mp h
          obtain ⟨k0, v0⟩ := m
          unfold JsonObject.find at hf
          simp only [JsonObject.GetKeys, List.map_cons, List.zip_cons_cons, List.lookup_cons]
          by_cases hk : k0 = k
          · rw [if_pos hk] at hf
            cases hf
            subst hk
            exact ⟨t, by simp, hw⟩
          · rw [if_neg hk] at hf
            have hb : (k == k0) = false := by
              rw [beq_eq_false_iff_ne]
              exact fun heq => hk heq.symm
            rw [hb]
            exact ih ts hrest k v hf

theorem WriteValues_documents : ∀ (ms : JsonObject) (ts : List Document) (indent depth : Int),
    List.Forall₂
      (fun m t => WriteValue JsonWriterConfig.CompactSorted m.2 indent depth = .ok t.render) ms ts →
    WriteValues JsonWriterConfig.CompactSorted ms indent depth =
      ts.map (fun t => Except.ok t.render) := by
  intro ms
  induction ms with
  | nil =>
      intro ts indent depth h
      cases h
      simp [WriteValues]
  | cons m ms ih =>
      intro ts indent depth h
      cases ts with
      | nil => cases h
      | cons t ts =>
          obtain ⟨hw, hrest⟩ := List.forall₂_cons.mp h
          obtain ⟨k0, v0⟩ := m
          simp only [WriteValues, List.map_cons, ih ts indent depth hrest]
          rw [hw]

theorem Document.renderMembers_written (k : List Char) (t : Document)
    (rest : List (List Char × Document)) :
    Document.renderMembers ((k, t) :: rest) =
      WriteString JsonWriterConfig.CompactSorted k ++ [':'] ++ t.render ++
        Document.renderRest rest := by
  rw [(WriteString_eq_stringText k).1]
  simp [Document.renderMembers]

theorem Document.renderRest_written (k : List Char) (t : Document)
    (rest : List (List Char × Document)) :
    Document.renderRest ((k, t) :: rest) =
      ',' :: (WriteString JsonWriterConfig.CompactSorted k ++ [':'] ++ t.render ++
        Document.renderRest rest) := by
  rw [(WriteString_eq_stringText k).1]
  simp [Document.renderRest]

theorem WriteObjectLoop_documentsOf (keys0 : List (List Char)) (ts : List Document)
    (indent : Int) :
    ∀ (keys : List (List Char)) (first : Bool),
      (∀ k ∈ keys, ∃ t, (keys0.zip ts).lookup k = some t) →
      WriteObjectLoop JsonWriterConfig.CompactSorted
          (keys0.zip (ts.map (fun t => Except.ok t.render))) indent keys first =
        .ok (if first then Document.renderMembers (documentsOf (keys0.zip ts) keys)
          else Document.renderRest (documentsOf (keys0.zip ts) keys)) := by
  intro keys
  induction keys with
  | nil =>
      intro first _
      cases first <;> rfl
  | cons k keys ih =>
      intro first hk
      obtain ⟨t, ht⟩ := hk k (by simp)
      have hl : lookupDocument (keys0.zip ts) k = t := by
        unfold lookupDocument
        rw [ht]
        rfl
      have hrest := ih false (fun k1 hk1 => hk k1 (by simp [hk1]))
      simp only [Bool.false_eq_true, if_false] at hrest
      have hm : documentsOf (keys0.zip ts) (k :: keys) =
          (k, t) :: documentsOf (keys0.zip ts) keys := by
        simp [documentsOf, hl]
      rw [hm, Document.renderMembers_written, Document.renderRest_written]
      unfold WriteObjectLoop
      rw [lookup_zip_map, ht, hrest]
      cases first <;>
        simp [bind, Except.bind, pure, Except.pure, JsonWriterConfig.CompactSorted,
          JsonWriterConfig.Compact]

theorem Document.denoteMembers_documentsOf (docs : List (List Char × Document)) :
    ∀ keys : List (List Char), Document.denoteMembers (documentsOf docs keys) =
      keys.map (fun k => (k, (lookupDocument docs k).denote)) := by
  intro keys
  induction keys with
  | nil => rfl
  | cons k keys ih =>
      have hm : documentsOf docs (k :: keys) =
          (k, lookupDocument docs k) :: documentsOf docs keys := rfl
      rw [hm]
      simp only [Document.denoteMembers, List.map_cons, ih]

theorem Document.MembersWellFormed_documentsOf (n : Nat) (docs : List (List Char × Document)) :
    ∀ keys : List (List Char),
      (∀ k ∈ keys, k.length ≤ n ∧ (lookupDocument docs k).WellFormed n) →
      Document.MembersWellFormed n (documentsOf docs keys) := by
  intro keys
  induction keys with
  | nil => intro _; simp [documentsOf, Document.MembersWellFormed]
  | cons k keys ih =>
      intro h
      have hm : documentsOf docs (k :: keys) =
          (k, lookupDocument docs k) :: documentsOf docs keys := rfl
      rw [hm]
      simp only [Document.MembersWellFormed]
      obtain ⟨h1, h2⟩ := h k (by simp)
      exact ⟨h1, h2, ih (fun k1 hk1 => h k1 (by simp [hk1]))⟩

theorem Encoded_object (n : Nat) (ms : JsonObject) (ts : List Document) (indent depth : Int)
    (hne : ms ≠ []) (hd : depth ≤ 1000) (hk : ∀ m ∈ ms, m.1.length ≤ n)
    (hnd : (ms.map Prod.fst).Nodup)
    (hts : List.Forall₂ (fun m t => Encoded n m.2 (indent + 2) (depth + 1) t) ms ts) :
    Encoded n (.object ms) indent depth
      (.object (documentsOf (ms.GetKeys.zip ts) (sortKeys ms.GetKeys))) := by
  have hperm : (sortKeys ms.GetKeys).Perm ms.GetKeys := List.perm_insertionSort _ _
  have hsub : ∀ k ∈ sortKeys ms.GetKeys, k ∈ ms.map Prod.fst := fun k hk1 => hperm.subset hk1
  have hfind : ∀ k ∈ ms.map Prod.fst, ∃ v t, JsonObject.find ms k = some v ∧
      (ms.GetKeys.zip ts).lookup k = some t ∧ Encoded n v (indent + 2) (depth + 1) t := by
    intro k hk1
    obtain ⟨v, hv⟩ := JsonObject.find_of_mem_keys ms k hk1
    obtain ⟨t, ht, hw⟩ :=
      @find_lookupDocument (fun v t => Encoded n v (indent + 2) (depth + 1) t) ms ts hts k v hv
    exact ⟨v, t, hv, ht, hw⟩
  have hlook : ∀ {k t}, (ms.GetKeys.zip ts).lookup k = some t →
      lookupDocument (ms.GetKeys.zip ts) k = t := by
    intro k t h
    unfold lookupDocument
    rw [h]
    rfl
  have hden := Document.denoteMembers_documentsOf (ms.GetKeys.zip ts) (sortKeys ms.GetKeys)
  have hlen : (sortKeys ms.GetKeys).length = ms.length := by
    rw [hperm.length_eq]
    simp [JsonObject.GetKeys]
  have hnonempty : documentsOf (ms.GetKeys.zip ts) (sortKeys ms.GetKeys) ≠ [] := by
    intro h0
    have := congrArg List.length h0
    simp only [documentsOf, List.length_map, List.length_nil] at this
    rw [hlen] at this
    exact hne (List.length_eq_zero.mp this)
  refine ⟨?_, ?_, (by intro h; cases h), ?_, ?_⟩
  · have hd1 : ¬ depth > JsonWriterConfig.CompactSorted.max_depth := by
      show ¬ depth > 1000
      omega
    have hvals := WriteValues_documents ms ts (indent + 2) (depth + 1) (hts.imp (fun _ _ h => h.1))
    have hloop := WriteObjectLoop_documentsOf ms.GetKeys ts indent (sortKeys ms.GetKeys) true
      (fun k hk1 => by
        obtain ⟨v, t, _, ht, _⟩ := hfind k (hsub k hk1)
        exact ⟨t, ht⟩)
    have hemp : ms.isEmpty = false := by
      cases ms with
      | nil => exact absurd rfl hne
      | cons m ms => rfl
    simp only [if_true] at hloop
    have hsize : indent + JsonWriterConfig.CompactSorted.indent_size = indent + 2 := rfl
    simp only [WriteValue, hd1, if_false, hsize, hvals, WriteObject, hemp, Bool.false_eq_true]
    have hsort : JsonWriterConfig.CompactSorted.sort_keys = true := rfl
    have hpretty : JsonWriterConfig.CompactSorted.pretty_print = false := rfl
    simp only [hsort, if_true, hloop, bind, Except.bind, pure, Except.pure, hpretty,
      Bool.false_eq_true, if_false, Document.render]
    simp
  · simp only [Document.WellFormed]
    refine ⟨hnonempty, ?_, ?_⟩
    · apply Document.MembersWellFormed_documentsOf
      intro k hk1
      obtain ⟨v, t, hv, ht, hw⟩ := hfind k (hsub k hk1)
      refine ⟨?_, ?_⟩
      · obtain ⟨m, hm, hmk⟩ := List.mem_map.mp (hsub k hk1)
        rw [← hmk]
        exact hk m hm
      · rw [hlook ht]
        exact hw.2.1
    · rw [hden, List.map_map]
      have : (Prod.fst ∘ fun k => (k, (lookupDocument (ms.GetKeys.zip ts) k).denote)) = id := rfl
      rw [this, List.map_id]
      exact hperm.nodup_iff.mpr hnd
  · simp only [Document.denote, hden, JsonValue.eq, List.length_map, hlen, decide_True,
      Bool.true_and]
    apply JsonValue.objectLoop_true
    intro p hp
    obtain ⟨k, hk1, rfl⟩ := List.mem_map.mp hp
    obtain ⟨v, t, hv, ht, hw⟩ := hfind k (hsub k hk1)
    refine ⟨v, hv, ?_⟩
    show JsonValue.eqFlip (lookupDocument (ms.GetKeys.zip ts) k).denote v = true
    rw [hlook ht]
    exact hw.2.2.2.2
  · simp only [Document.denote, hden, JsonValue.eqFlip, List.length_map, hlen, decide_True,
      Bool.true_and, List.all_eq_true]
    intro p hp
    obtain ⟨k, v⟩ := p
    have hkm : k ∈ ms.map Prod.fst := List.mem_map.mpr ⟨(k, v), hp, rfl⟩
    have hks : k ∈ sortKeys ms.GetKeys := hperm.mem_iff.mpr hkm
    rw [JsonValue.findEq_map (fun k => (lookupDocument (ms.GetKeys.zip ts) k).denote) _ k v hks]
    have hv := JsonObject.find_of_mem ms hnd k v hp
    obtain ⟨t, ht, hw⟩ :=
      @find_lookupDocument (fun v t => Encoded n v (indent + 2) (depth + 1) t) ms ts hts k v hv
    show JsonValue.eq (lookupDocument (ms.GetKeys.zip ts) k).denote v = true
    rw [hlook ht]
    exact hw.2.2.2.1

theorem JsonValue.SixDecimalsMembers_keys (n : Nat) : ∀ (ms : JsonObject),
    JsonValue.SixDecimalsMembers n ms → ∀ m ∈ ms, m.1.length ≤ n := by
  intro ms
  induction ms with
  | nil => intro _ m hm; cases hm
  | cons p ms ih =>
      intro h m hm
      obtain ⟨k, v⟩ := p
      simp only [JsonValue.SixDecimalsMembers] at h
      rcases List.mem_cons.mp hm with hm | hm
      · rw [hm]; exact h.1
      · exact ih h.2.2 m hm

mutual

/-- The writer prints every tree of the kind above within the depth limit as
a well-formed document that stands for an equal value. -/
theorem JsonValue.encoded (n : Nat) :
    ∀ (v : JsonValue), v.SixDecimals n → ∀ (indent depth : Int),
      depth + (v.depth : Int) ≤ 1000 → ∃ d, Encoded n v indent depth d
  | .object [], _, indent, depth, hd =>
      ⟨_, Encoded_plain (Written_emptyObject n indent depth
        (by simp [JsonValue.depth, JsonValue.depthMembers] at hd; omega))⟩
  | .object (m :: ms), hp, indent, depth, hd => by
      simp only [JsonValue.SixDecimals] at hp
      simp only [JsonValue.depth] at hd
      obtain ⟨ts, hts⟩ := JsonValue.encodedMembers n (m :: ms) hp.1 (indent + 2) (depth + 1)
        (by omega)
      exact ⟨_, Encoded_object n (m :: ms) ts indent depth (List.cons_ne_nil _ _) (by omega)
        (JsonValue.SixDecimalsMembers_keys n _ hp.1) hp.2 hts⟩
  | .array elements, hp, indent, depth, hd => by
      simp only [JsonValue.SixDecimals] at hp
      subst hp
      exact ⟨_, Encoded_plain (Written_emptyArray n indent depth
        (by simp [JsonValue.depth, JsonValue.depthElements] at hd; omega))⟩
  | .string s, hp, indent, depth, hd => by
      simp only [JsonValue.SixDecimals] at hp
      exact ⟨_, Encoded_plain (Written_string n s indent depth hp
        (by simp [JsonValue.depth] at hd; omega))⟩
  | .number x, hp, indent, depth, hd => by
      simp only [JsonValue.SixDecimals] at hp
      exact Encoded_sixDecimals n x indent depth hp (by simp [JsonValue.depth] at hd; omega)
  | .boolean b, _, indent, depth, hd =>
      ⟨_, Encoded_plain (Written_boolean n b indent depth
        (by simp [JsonValue.depth] at hd; omega))⟩
  | .null, _, indent, depth, hd =>
      ⟨_, Encoded_plain (Written_null n indent depth (by simp [JsonValue.depth] at hd; omega))⟩

/-- The writer prints the value of every entry of an object of the kind
above. -/
theorem JsonValue.encodedMembers (n : Nat) :
    ∀ (ms : JsonObject), JsonValue.SixDecimalsMembers n ms → ∀ (indent depth : Int),
      depth + (JsonValue.depthMembers ms : Int) ≤ 1001 →
      ∃ ts, List.Forall₂ (fun m t => Encoded n m.2 indent depth t) ms ts
  | [], _, _, _, _ => ⟨[], List.Forall₂.nil⟩
  | (k, v) :: ms, hp, indent, depth, hd => by
      simp only [JsonValue.SixDecimalsMembers] at hp
      simp only [JsonValue.depthMembers] at hd
      have h1 : depth + (v.depth : Int) ≤ 1000 := by
        have := le_max_left (v.depth + 1) (JsonValue.depthMembers ms)
        omega
      have h2 : depth + (JsonValue.depthMembers ms : Int) ≤ 1001 := by
        have := le_max_right (v.depth + 1) (JsonValue.depthMembers ms)
        omega
      obtain ⟨t, ht⟩ := JsonValue.encoded n v hp.2.1 indent depth h1
      obtain ⟨ts, hts⟩ := JsonValue.encodedMembers n ms hp.2.2 indent depth h2
      exact ⟨t :: ts, List.Forall₂.cons ht hts⟩

end

end JsonParser
